import Mathlib


/-!
# Sequential B+ tree (Sequential.hpp)

A shallow embedding of `SeqBPlusTree`: the nodes live in a store (address to
node), node pointers are `Option Nat` (`none` is NULL), and every member
function is a function on the tree state that returns `none` when the C++
call would not return normally (a null, dangling or freed pointer is
dereferenced, an array is accessed outside its bounds, a size would become
negative, or the recursion fuel is exhausted).
-/

/-- Sequencing of two steps, a fault of the first propagates: `Option.bind`,
kept out of line. -/
@[noinline] def Option.seqBind {α β : Type} (o : Option α) (f : α → Option β) : Option β :=
  o.bind f

/-- Tree branching factor (`const int ORDER = 4`). -/
abbrev ORDER : Nat := 4

/-- The largest C `int`, key of the dummy separator. -/
abbrev INT_MAX : Int := 2147483647

/-- The smallest C `int`. -/
abbrev INT_MIN : Int := -2147483648

/-- The two node variants. -/
inductive NodeType where
  | INTERNAL
  | LEAF
deriving DecidableEq

/-- Entry of a leaf. -/
structure KeyValuePair where
  key : Int
  value : Int
deriving DecidableEq

/-- Entry of an internal node: separator and child pointer. -/
structure KeyReferencePair where
  key : Int
  reference : Option Nat
deriving DecidableEq

/-- One heap object, `Leaf` or `InternalNode`, with the fields of `Node`.
A leaf uses `key_value` (capacity `ORDER`) and has an empty `key_ref`; an
internal node uses `key_ref` (capacity `ORDER + 1`) and has an empty
`key_value`, so that an access through a pointer of the wrong variant is an
out-of-bounds access. `size` is a count: the model has no negative sizes. -/
structure Node where
  type : NodeType
  size : Nat
  parent : Option Nat
  left_sibling : Option Nat
  right_sibling : Option Nat
  id : Int
  key_value : List KeyValuePair
  key_ref : List KeyReferencePair
deriving DecidableEq

namespace Node

/-- The method `Node::isRoot`. -/
def isRoot (n : Node) : Bool := n.parent.isNone

/-- The method `Node::isFull`: `size >= ORDER - 1`. -/
def isFull (n : Node) : Bool := decide (ORDER - 1 ≤ n.size)

/-- The virtual method `isDeficient` of `Leaf` and `InternalNode`. -/
def isDeficient (n : Node) : Bool :=
  match n.type with
  | NodeType.LEAF => decide (n.size < ORDER / 2)
  | NodeType.INTERNAL =>
    if n.isRoot then decide (n.size < 1) else decide (n.size + 1 < ORDER / 2)

/-- The virtual method `isNearDeficient` of `Leaf` and `InternalNode`. -/
def isNearDeficient (n : Node) : Bool :=
  match n.type with
  | NodeType.LEAF => decide (n.size = ORDER / 2)
  | NodeType.INTERNAL =>
    if n.isRoot then decide (n.size = 1) else decide (n.size + 1 = ORDER / 2)

end Node

/-- The constructor `Leaf()`; array slots and `id` start as zero. -/
def Leaf.new : Node :=
  { type := NodeType.LEAF, size := 0, parent := none, left_sibling := none,
    right_sibling := none, id := 0,
    key_value := List.replicate ORDER ⟨0, 0⟩, key_ref := [] }

/-- The constructor `InternalNode()`: `key_ref[0].key = INT_MAX`. -/
def InternalNode.new : Node :=
  { type := NodeType.INTERNAL, size := 0, parent := none, left_sibling := none,
    right_sibling := none, id := 0,
    key_value := [], key_ref := ⟨INT_MAX, none⟩ :: List.replicate ORDER ⟨0, none⟩ }

/-- Array write `a[i] = x`; a write outside the array is a fault. -/
def arr_set {α : Type} (a : List α) (i : Nat) (x : α) : Option (List α) :=
  if i < a.length then some (a.set i x) else none

/-- The copy loop `for (i = 0; i < seg.length; ++i) dst[off + i] = seg[i]`. -/
def arr_blit {α : Type} (dst : List α) (off : Nat) (seg : List α) : Option (List α) :=
  if off + seg.length ≤ dst.length then
    some (dst.take off ++ seg ++ dst.drop (off + seg.length))
  else none

/-- The shift loop `for (i = lo; i < hi; ++i) a[i] = a[i+1]`. -/
def arr_shift {α : Type} (a : List α) (lo hi : Nat) : Option (List α) :=
  if hi ≤ lo then some a
  else if hi < a.length then
    some (a.take lo ++ (a.drop (lo + 1)).take (hi - lo) ++ a.drop hi)
  else none

/-- Decrement of a size; below zero is a fault. -/
def size_dec (n : Nat) : Option Nat := if 0 < n then some (n - 1) else none

/-- The function `sort_entry_by_key`: `std::sort` by key of the first `size`
entries of a leaf, of the first `size + 1` entries of an internal node. All
sorts agree on distinct keys; the model sorts by insertion. -/
def sort_entry_by_key (n : Node) : Node :=
  match n.type with
  | NodeType.LEAF =>
    { n with key_value :=
        (n.key_value.take n.size).insertionSort (fun a b => a.key ≤ b.key)
          ++ n.key_value.drop n.size }
  | NodeType.INTERNAL =>
    { n with key_ref :=
        (n.key_ref.take (n.size + 1)).insertionSort (fun a b => a.key ≤ b.key)
          ++ n.key_ref.drop (n.size + 1) }

/-- The state of a `SeqBPlusTree` object together with the store of its nodes.
`next` is the allocator: the address the next `new` returns. -/
structure SeqBPlusTree where
  heap : Nat → Option Node
  next : Nat
  root : Nat
  depth : Int
  node_count : Int
  id_accumulator : Int

namespace SeqBPlusTree

/-- Store of node `n` at address `a`. -/
def set (t : SeqBPlusTree) (a : Nat) (n : Node) : SeqBPlusTree :=
  { t with heap := Function.update t.heap a (some n) }

/-- Update through a pointer: `a->field = ...`; a fault if `a` is not live. -/
def upd (t : SeqBPlusTree) (a : Nat) (f : Node → Node) : Option SeqBPlusTree :=
  (t.heap a).map (fun n => t.set a (f n))

/-- The statement `delete a`. -/
def free (t : SeqBPlusTree) (a : Nat) : SeqBPlusTree :=
  { t with heap := Function.update t.heap a none }

/-- The constructor `SeqBPlusTree()`: the root is an empty leaf with id 1. -/
def new : SeqBPlusTree :=
  { heap := Function.update (fun _ => none) 1 (some { Leaf.new with id := 1 }),
    next := 2, root := 1, depth := 0, node_count := 1, id_accumulator := 1 }

/-- The function `leaf_search`: the leaf where the key possibly exists. -/
def leaf_search (h : Nat → Option Node) (key : Int) : Nat → Nat → Option Nat
  | 0, _ => none
  | fuel + 1, curr_node =>
    match h curr_node with
    | none => none
    | some n =>
      if n.type = NodeType.LEAF then some curr_node
      else
        match (n.key_ref.take n.size).find? (fun kr => decide (key < kr.key)) with
        | some kr => kr.reference.seqBind (leaf_search h key fuel)
        | none => (n.key_ref.get? n.size).seqBind
            (fun kr => kr.reference.seqBind (leaf_search h key fuel))

/-- Fuel of the public operations: the number of addresses handed out so far
bounds every cycle-free chain of child or parent pointers. -/
def fuel (t : SeqBPlusTree) : Nat := t.next

/-- The function `search`: the value of the key, -1 if it does not exist. -/
def search (t : SeqBPlusTree) (key : Int) : Option Int :=
  (leaf_search t.heap key t.fuel t.root).seqBind fun leaf =>
  (t.heap leaf).seqBind fun n =>
    match (n.key_value.take n.size).find? (fun kv => decide (key = kv.key)) with
    | some kv => some kv.value
    | none => some (-1)

/-- The body of `split_internal`, with the recursive call of `parent_insert`
passed in as `pins`. -/
def split_internal_with (pins : SeqBPlusTree → Nat → Int → Nat → Option SeqBPlusTree)
    (t : SeqBPlusTree) (curr_node : Option Nat) : Option SeqBPlusTree :=
  match curr_node with
  | none => some t
  | some curr =>
    (t.heap curr).seqBind fun c =>
    if !c.isFull then some t
    else
      let right_half := t.next
      let moved := (c.key_ref.take (c.size + 1)).drop (c.size / 2 + 1)
      (arr_blit InternalNode.new.key_ref 0 moved).seqBind fun rkr =>
      (size_dec moved.length).seqBind fun rsize =>
      let t1 : SeqBPlusTree := { t with next := t.next + 1 }
      -- child->parent = right_half, for every copied pair
      (moved.foldlM (fun (s : SeqBPlusTree) (kr : KeyReferencePair) =>
          kr.reference.seqBind fun ch => s.upd ch (fun x => { x with parent := some right_half }))
        t1).seqBind fun t2 =>
      let t3 : SeqBPlusTree :=
        { t2 with id_accumulator := t2.id_accumulator + 1, node_count := t2.node_count + 1 }
      (t3.heap curr).seqBind fun c1 =>
      (c1.key_ref.get? (c1.size / 2)).seqBind fun mid =>
      let medianKey := mid.key
      (arr_set c1.key_ref (c1.size / 2) { mid with key := INT_MAX }).seqBind fun ckr =>
      -- update siblings, from right to left
      (match c1.right_sibling with
        | none => some t3
        | some rs => t3.upd rs (fun x => { x with left_sibling := some right_half })).seqBind fun t4 =>
      let rnode : Node :=
        { InternalNode.new with
          key_ref := rkr, size := rsize, id := t3.id_accumulator,
          right_sibling := c1.right_sibling, left_sibling := some curr }
      let t5 := t4.set right_half rnode
      (t5.upd curr (fun x =>
        { x with size := c1.size / 2, key_ref := ckr, right_sibling := some right_half })).seqBind fun t6 =>
      pins t6 curr medianKey right_half

/-- The function `parent_insert`: insert a key into a node's parent and link
the newly split right half. -/
def parent_insert : Nat → SeqBPlusTree → Nat → Int → Nat → Option SeqBPlusTree
  | 0, _, _, _, _ => none
  | fuel + 1, t, curr_node, key, right_half =>
    (t.heap curr_node).seqBind fun c =>
    -- if the split node is root, we need to add a new root
    let tp : SeqBPlusTree × Nat :=
      match c.parent with
      | some p => (t, p)
      | none =>
        (({ t with next := t.next + 1, depth := t.depth + 1,
                   id_accumulator := t.id_accumulator + 1,
                   node_count := t.node_count + 1, root := t.next } : SeqBPlusTree).set t.next
            { InternalNode.new with id := t.id_accumulator + 1 }, t.next)
    let t1 := tp.1
    let parent := tp.2
    (t1.heap parent).seqBind fun pn =>
    let parent_split := pn.isFull
    (arr_set pn.key_ref (pn.size + 1) ⟨key, some curr_node⟩).seqBind fun kr1 =>
    let pn2 := sort_entry_by_key { pn with size := pn.size + 1, key_ref := kr1 }
    let kr3 :=
      match (pn2.key_ref.take (pn2.size + 1)).findIdx? (fun kr => decide (key < kr.key)) with
      | some i => pn2.key_ref.modify (fun kr => { kr with reference := some right_half }) i
      | none => pn2.key_ref
    let t2 := t1.set parent { pn2 with key_ref := kr3 }
    (t2.upd curr_node (fun x => { x with parent := some parent })).seqBind fun t3 =>
    (t3.upd right_half (fun x => { x with parent := some parent })).seqBind fun t4 =>
    if parent_split then split_internal_with (parent_insert fuel) t4 (some parent)
    else some t4

/-- The function `split_internal`. -/
def split_internal (fuel : Nat) (t : SeqBPlusTree) (curr_node : Option Nat) :
    Option SeqBPlusTree :=
  split_internal_with (parent_insert fuel) t curr_node

/-- The function `split_leaf`: split the full leaf and insert the median key
into its parent. -/
def split_leaf (fuel : Nat) (t : SeqBPlusTree) (curr_node : Option Nat) :
    Option SeqBPlusTree :=
  match curr_node with
  | none => some t
  | some curr =>
    (t.heap curr).seqBind fun c =>
    if c.type ≠ NodeType.LEAF ∨ !c.isFull then some t
    else
      let right_half := t.next
      let moved := (c.key_value.take c.size).drop (c.size / 2)
      (arr_blit Leaf.new.key_value 0 moved).seqBind fun rkv =>
      let t1 : SeqBPlusTree :=
        { t with next := t.next + 1, id_accumulator := t.id_accumulator + 1,
                 node_count := t.node_count + 1 }
      (c.key_value.get? (c.size / 2)).seqBind fun mid =>
      let medianKey := mid.key
      (match c.right_sibling with
        | none => some t1
        | some rs => t1.upd rs (fun x => { x with left_sibling := some right_half })).seqBind fun t2 =>
      let rnode : Node :=
        { Leaf.new with
          key_value := rkv, size := moved.length, id := t1.id_accumulator,
          right_sibling := c.right_sibling, left_sibling := some curr }
      let t3 := t2.set right_half rnode
      (t3.upd curr (fun x => { x with size := c.size / 2, right_sibling := some right_half })).seqBind
        fun t4 => parent_insert fuel t4 curr medianKey right_half

/-- The function `insert`: `true` when a new pair is inserted, `false` when the
key already exists and its value is replaced. -/
def insert (t : SeqBPlusTree) (key value : Int) : Option (SeqBPlusTree × Bool) :=
  (leaf_search t.heap key t.fuel t.root).seqBind fun leaf =>
  (t.heap leaf).seqBind fun n =>
    match (n.key_value.take n.size).findIdx? (fun kv => decide (key = kv.key)) with
    | some i =>
      let kv1 := n.key_value.modify (fun kv => { kv with value := value }) i
      some (t.set leaf { n with key_value := kv1 }, false)
    | none =>
      -- if the node is full, need to split after insertion
      let needSplit := n.isFull
      (arr_set n.key_value n.size ⟨key, value⟩).seqBind fun kv1 =>
      let t1 := t.set leaf (sort_entry_by_key { n with key_value := kv1, size := n.size + 1 })
      if needSplit then (split_leaf t.fuel t1 (some leaf)).map (fun t2 => (t2, true))
      else some (t1, true)

/-- The function `min_key_in_subtree`: the first key of the leftmost leaf. -/
def min_key_in_subtree (h : Nat → Option Node) : Nat → Option Nat → Option Int
  | 0, _ => none
  | fuel + 1, curr_node =>
    curr_node.seqBind fun p =>
    (h p).seqBind fun n =>
      if n.type ≠ NodeType.LEAF then
        (n.key_ref.get? 0).seqBind fun kr => min_key_in_subtree h fuel kr.reference
      else (n.key_value.get? 0).map (fun kv => kv.key)

/-- The function `get_key_ref_pair_from_parent`: the slot of the parent that
points to the node, as (parent, index); `none` is the NULL result. -/
def get_key_ref_pair_from_parent (h : Nat → Option Node) (curr_node : Option Nat) :
    Option (Nat × Nat) :=
  match curr_node with
  | none => none
  | some c =>
    (h c).seqBind fun cn =>
    match cn.parent with
    | none => none
    | some p =>
      (h p).seqBind fun pn =>
      ((pn.key_ref.take (pn.size + 1)).findIdx?
        (fun kr => decide (kr.reference = some c))).map (fun i => (p, i))

/-- Write through a slot pointer: `slot->key = k`. -/
def set_slot_key (t : SeqBPlusTree) (slot : Nat × Nat) (k : Int) : Option SeqBPlusTree :=
  (t.heap slot.1).seqBind fun pn =>
  (pn.key_ref.get? slot.2).seqBind fun kr =>
  (arr_set pn.key_ref slot.2 { kr with key := k }).map fun krs =>
  t.set slot.1 { pn with key_ref := krs }

/-- The lockstep loop `while (node_iter != sib_iter)` of the borrow and merge
functions; the result is the final `last_sib_iter`. -/
def ancestor_walk (h : Nat → Option Node) :
    Nat → Option Nat → Option Nat → Nat → Option Nat
  | 0, _, _, _ => none
  | fuel + 1, node_iter, sib_iter, last_sib_iter =>
    if node_iter = sib_iter then some last_sib_iter
    else
      node_iter.seqBind fun ni => (h ni).seqBind fun nn =>
      sib_iter.seqBind fun si => (h si).seqBind fun sn =>
      ancestor_walk h fuel nn.parent sn.parent si

/-- The function `borrow_leaf`. -/
def borrow_leaf (t : SeqBPlusTree) (curr_leaf sibling : Nat) (fromLeft : Bool) :
    Option SeqBPlusTree :=
  if fromLeft then
    (t.heap sibling).seqBind fun s =>
    (size_dec s.size).seqBind fun ssize =>
    (s.key_value.get? ssize).seqBind fun e =>
    let t1 := t.set sibling { s with size := ssize }
    (t1.heap curr_leaf).seqBind fun c =>
    (arr_set c.key_value c.size e).seqBind fun ckv =>
    let borrowed_key := e.key
    let t2 := t1.set curr_leaf (sort_entry_by_key { c with key_value := ckv, size := c.size + 1 })
    (t2.heap curr_leaf).seqBind fun c2 =>
    (t2.heap sibling).seqBind fun s2 =>
    (ancestor_walk t2.heap t2.fuel c2.parent s2.parent sibling).seqBind fun last_sib_iter =>
    (get_key_ref_pair_from_parent t2.heap (some last_sib_iter)).seqBind fun slot =>
    set_slot_key t2 slot borrowed_key
  else
    (t.heap sibling).seqBind fun s =>
    (s.key_value.get? 0).seqBind fun e =>
    (t.heap curr_leaf).seqBind fun c =>
    (arr_set c.key_value c.size e).seqBind fun ckv =>
    let t1 := t.set curr_leaf { c with key_value := ckv, size := c.size + 1 }
    (t1.heap sibling).seqBind fun s1 =>
    (arr_shift s1.key_value 0 (s1.size - 1)).seqBind fun skv =>
    (size_dec s1.size).seqBind fun ssize =>
    let t2 := t1.set sibling { s1 with key_value := skv, size := ssize }
    (get_key_ref_pair_from_parent t2.heap (some curr_leaf)).seqBind fun slot =>
    (t2.heap sibling).seqBind fun s2 =>
    (s2.key_value.get? 0).seqBind fun e0 =>
    set_slot_key t2 slot e0.key

/-- Removal of the slot `idx` of a parent: the shift loop and `parent->size--`. -/
def parent_remove_slot (t : SeqBPlusTree) (parent : Option Nat) (idx : Nat) :
    Option SeqBPlusTree :=
  parent.seqBind fun p =>
  (t.heap p).seqBind fun pn =>
  (arr_shift pn.key_ref idx pn.size).seqBind fun krs =>
  (size_dec pn.size).map fun psize =>
  t.set p { pn with key_ref := krs, size := psize }

/-- The body of `merge_leaf`, with the call of `borrow_merge_internal` passed
in as `bmi`. -/
def merge_leaf_with (bmi : SeqBPlusTree → Nat → Option SeqBPlusTree)
    (t : SeqBPlusTree) (curr_leaf sibling : Nat) (toLeft : Bool) : Option SeqBPlusTree :=
  (t.heap curr_leaf).seqBind fun c =>
  let parent := c.parent
  (if toLeft then
    let left_sib := sibling
    (get_key_ref_pair_from_parent t.heap (some curr_leaf)).seqBind fun slot =>
    (t.heap slot.1).seqBind fun spn =>
    (spn.key_ref.get? slot.2).seqBind fun skr =>
    let curr_parent_is_dummy := decide (INT_MAX = skr.key)
    (t.heap left_sib).seqBind fun l =>
    (arr_blit l.key_value l.size (c.key_value.take c.size)).seqBind fun lkv =>
    let t1 := t.set left_sib { l with key_value := lkv, size := l.size + c.size }
    parent.seqBind fun p =>
    (t1.heap p).seqBind fun pn =>
    let idx := (pn.key_ref.take (pn.size + 1)).findIdx
      (fun kr => decide (kr.reference = some curr_leaf))
    (parent_remove_slot t1 parent idx).seqBind fun t2 =>
    -- Also redirect siblings.
    (t2.heap curr_leaf).seqBind fun c2 =>
    (t2.upd left_sib (fun x => { x with right_sibling := c2.right_sibling })).seqBind fun t3 =>
    (match c2.right_sibling with
      | none => some t3
      | some rs => t3.upd rs (fun x => { x with left_sibling := some left_sib })).seqBind fun t4 =>
    (t4.heap left_sib).seqBind fun l4 =>
    (ancestor_walk t4.heap t4.fuel c2.parent l4.parent left_sib).seqBind fun last_sib_iter =>
    (get_key_ref_pair_from_parent t4.heap (some last_sib_iter)).seqBind fun aslot =>
    if curr_parent_is_dummy then set_slot_key t4 aslot INT_MAX
    else
      c2.right_sibling.seqBind fun right_sib =>
      (t4.heap right_sib).seqBind fun rn =>
      (rn.key_value.get? 0).seqBind fun e0 =>
      set_slot_key t4 aslot e0.key
  else
    let right_sib := sibling
    (t.heap right_sib).seqBind fun r =>
    (arr_blit r.key_value r.size (c.key_value.take c.size)).seqBind fun rkv =>
    let t1 := t.set right_sib
      (sort_entry_by_key { r with key_value := rkv, size := r.size + c.size })
    parent.seqBind fun p =>
    (t1.heap p).seqBind fun _ =>
    (parent_remove_slot t1 parent 0).seqBind fun t2 =>
    (t2.heap curr_leaf).seqBind fun c2 =>
    t2.upd right_sib (fun x => { x with left_sibling := c2.left_sibling })).seqBind fun t5 =>
  let t6 := ({ t5 with node_count := t5.node_count - 1 } : SeqBPlusTree).free curr_leaf
  parent.seqBind fun p =>
  (t6.heap p).seqBind fun pn =>
  if pn.isDeficient then bmi t6 p else some t6

/-- The function `borrow_internal`. -/
def borrow_internal (t : SeqBPlusTree) (curr_node sibling : Nat) (fromLeft : Bool) :
    Option SeqBPlusTree :=
  (if fromLeft then
    let left_sibling := sibling
    (t.heap left_sibling).seqBind fun l =>
    (l.key_ref.get? l.size).seqBind fun e =>
    let borrowed_node := e.reference
    (t.heap curr_node).seqBind fun c =>
    (arr_set c.key_ref (c.size + 1) e).seqBind fun ckr =>
    (size_dec l.size).seqBind fun lsize =>
    let t1 := (t.set curr_node { c with key_ref := ckr, size := c.size + 1 })
    (t1.heap left_sibling).seqBind fun l1 =>
    let t2 := t1.set left_sibling { l1 with size := lsize }
    (min_key_in_subtree t2.heap t2.fuel (some curr_node)).seqBind fun mk =>
    (t2.heap curr_node).seqBind fun c2 =>
    (c2.key_ref.get? c2.size).seqBind fun e2 =>
    (arr_set c2.key_ref c2.size { e2 with key := mk }).seqBind fun ckr2 =>
    let t3 := t2.set curr_node (sort_entry_by_key { c2 with key_ref := ckr2 })
    (t3.heap left_sibling).seqBind fun l3 =>
    (l3.key_ref.get? l3.size).seqBind fun le =>
    (arr_set l3.key_ref l3.size { le with key := INT_MAX }).seqBind fun lkr =>
    let t4 := t3.set left_sibling { l3 with key_ref := lkr }
    (t4.heap curr_node).seqBind fun c4 =>
    (t4.heap left_sibling).seqBind fun l4 =>
    (ancestor_walk t4.heap t4.fuel c4.parent l4.parent left_sibling).seqBind fun last_sib_iter =>
    (get_key_ref_pair_from_parent t4.heap (some last_sib_iter)).seqBind fun slot =>
    (min_key_in_subtree t4.heap t4.fuel (some curr_node)).seqBind fun mk2 =>
    (set_slot_key t4 slot mk2).map fun t5 => (t5, borrowed_node)
  else
    let right_sibling := sibling
    (t.heap right_sibling).seqBind fun r =>
    (r.key_ref.get? 0).seqBind fun e =>
    let borrowed_node := e.reference
    (t.heap curr_node).seqBind fun c =>
    (arr_set c.key_ref (c.size + 1) e).seqBind fun ckr =>
    let t1 := t.set curr_node { c with key_ref := ckr, size := c.size + 1 }
    (t1.heap right_sibling).seqBind fun r1 =>
    (arr_shift r1.key_ref 0 r1.size).seqBind fun rkr =>
    (size_dec r1.size).seqBind fun rsize =>
    let t2 := t1.set right_sibling { r1 with key_ref := rkr, size := rsize }
    (t2.heap curr_node).seqBind fun c2 =>
    (c2.key_ref.get? c2.size).seqBind fun e2 =>
    (min_key_in_subtree t2.heap t2.fuel e2.reference).seqBind fun min_key_in_borrowed =>
    (size_dec c2.size).seqBind fun cm1 =>
    (c2.key_ref.get? cm1).seqBind fun e1 =>
    (arr_set c2.key_ref cm1 { e1 with key := min_key_in_borrowed }).seqBind fun ckr1 =>
    (arr_set ckr1 c2.size { e2 with key := INT_MAX }).seqBind fun ckr2 =>
    let t3 := t2.set curr_node { c2 with key_ref := ckr2 }
    (get_key_ref_pair_from_parent t3.heap (some curr_node)).seqBind fun slot =>
    (t3.heap curr_node).seqBind fun c3 =>
    (min_key_in_subtree t3.heap t3.fuel c3.right_sibling).seqBind fun mk =>
    (set_slot_key t3 slot mk).map fun t4 => (t4, borrowed_node)).seqBind fun res =>
  res.2.seqBind fun b => res.1.upd b (fun x => { x with parent := some curr_node })

/-- The copy loop of `merge_internal`: `sib->key_ref[sib->size + 1 + i] =
curr_node->key_ref[i]` and the migrated child gets `sib` as parent. -/
def merge_copy (t : SeqBPlusTree) (curr_node sib : Nat) : Option SeqBPlusTree :=
  (t.heap curr_node).seqBind fun c =>
  (t.heap sib).seqBind fun s =>
  let moved := c.key_ref.take (c.size + 1)
  if moved.length ≠ c.size + 1 then none
  else
    (arr_blit s.key_ref (s.size + 1) moved).seqBind fun skr =>
    let t1 := t.set sib { s with key_ref := skr }
    moved.foldlM (fun (st : SeqBPlusTree) (kr : KeyReferencePair) =>
      kr.reference.seqBind fun ch => st.upd ch (fun x => { x with parent := some sib })) t1

/-- The body of `merge_internal`, with the call of `borrow_merge_internal`
passed in as `bmi`. -/
def merge_internal_with (bmi : SeqBPlusTree → Nat → Option SeqBPlusTree)
    (t : SeqBPlusTree) (curr_node sibling : Nat) (toLeft : Bool) : Option SeqBPlusTree :=
  (t.heap curr_node).seqBind fun c =>
  let parent := c.parent
  (get_key_ref_pair_from_parent t.heap (some curr_node)).seqBind fun slot =>
  (t.heap slot.1).seqBind fun spn =>
  (spn.key_ref.get? slot.2).seqBind fun skr =>
  let curr_parent_is_dummy := decide (INT_MAX = skr.key)
  (if toLeft then
    let left_sib := sibling
    (merge_copy t curr_node left_sib).seqBind fun t1 =>
    (t1.heap curr_node).seqBind fun c1 =>
    (c1.key_ref.get? 0).seqBind fun c0 =>
    (min_key_in_subtree t1.heap t1.fuel c0.reference).seqBind fun mk =>
    (t1.heap left_sib).seqBind fun l1 =>
    (l1.key_ref.get? l1.size).seqBind fun le =>
    (arr_set l1.key_ref l1.size { le with key := mk }).seqBind fun lkr =>
    let t2 := t1.set left_sib { l1 with key_ref := lkr, size := l1.size + (c1.size + 1) }
    parent.seqBind fun p =>
    (t2.heap p).seqBind fun pn =>
    let idx := (pn.key_ref.take (pn.size + 1)).findIdx
      (fun kr => decide (kr.reference = some curr_node))
    (parent_remove_slot t2 parent idx).seqBind fun t3 =>
    -- Also redirect siblings.
    (t3.heap curr_node).seqBind fun c3 =>
    (t3.upd left_sib (fun x => { x with right_sibling := c3.right_sibling })).seqBind fun t4 =>
    (match c3.right_sibling with
      | none => some t4
      | some rs => t4.upd rs (fun x => { x with left_sibling := some left_sib })).seqBind fun t5 =>
    (t5.heap left_sib).seqBind fun l5 =>
    (ancestor_walk t5.heap t5.fuel c3.parent l5.parent left_sib).seqBind fun last_sib_iter =>
    (get_key_ref_pair_from_parent t5.heap (some last_sib_iter)).seqBind fun aslot =>
    if curr_parent_is_dummy then set_slot_key t5 aslot INT_MAX
    else
      c3.right_sibling.seqBind fun right_sib =>
      (t5.heap right_sib).seqBind fun rn =>
      (rn.key_ref.get? 0).seqBind fun r0 =>
      (min_key_in_subtree t5.heap t5.fuel r0.reference).seqBind fun min_key_right =>
      set_slot_key t5 aslot min_key_right
  else
    let right_sib := sibling
    (merge_copy t curr_node right_sib).seqBind fun t1 =>
    (t1.heap curr_node).seqBind fun c1 =>
    (t1.heap right_sib).seqBind fun r1 =>
    let t2 := t1.set right_sib { r1 with size := r1.size + (c1.size + 1) }
    (t2.heap right_sib).seqBind fun r2 =>
    (r2.key_ref.get? 0).seqBind fun r0 =>
    (min_key_in_subtree t2.heap t2.fuel r0.reference).seqBind fun mk =>
    (r2.key_ref.get? r2.size).seqBind fun re =>
    (arr_set r2.key_ref r2.size { re with key := mk }).seqBind fun rkr =>
    let t3 := t2.set right_sib (sort_entry_by_key { r2 with key_ref := rkr })
    parent.seqBind fun p =>
    (t3.heap p).seqBind fun _ =>
    (parent_remove_slot t3 parent 0).seqBind fun t4 =>
    (t4.heap curr_node).seqBind fun c4 =>
    t4.upd right_sib (fun x => { x with left_sibling := c4.left_sibling })).seqBind fun t6 =>
  let t7 := ({ t6 with node_count := t6.node_count - 1 } : SeqBPlusTree).free curr_node
  parent.seqBind fun p =>
  (t7.heap p).seqBind fun pn =>
  if pn.isDeficient then
    if pn.isRoot then
      let oldRoot := t7.root
      (({ t7 with root := sibling } : SeqBPlusTree).upd sibling
        (fun x => { x with parent := none })).map fun t8 =>
      ({ t8 with node_count := t8.node_count - 1, depth := t8.depth - 1 } : SeqBPlusTree).free oldRoot
    else bmi t7 p
  else some t7

/-- The function `borrow_merge_internal`. -/
def borrow_merge_internal : Nat → SeqBPlusTree → Nat → Option SeqBPlusTree
  | 0, _, _ => none
  | fuel + 1, t, curr_node =>
    (t.heap curr_node).seqBind fun c =>
    match c.left_sibling with
    | some left_sib =>
      (t.heap left_sib).seqBind fun l =>
      if !(l.isDeficient || l.isNearDeficient) then borrow_internal t curr_node left_sib true
      else merge_internal_with (borrow_merge_internal fuel) t curr_node left_sib true
    | none =>
      c.right_sibling.seqBind fun right_sib =>
      (t.heap right_sib).seqBind fun r =>
      if !(r.isDeficient || r.isNearDeficient) then borrow_internal t curr_node right_sib false
      else merge_internal_with (borrow_merge_internal fuel) t curr_node right_sib false

/-- The function `merge_internal`. -/
def merge_internal (fuel : Nat) (t : SeqBPlusTree) (curr_node sibling : Nat) (toLeft : Bool) :
    Option SeqBPlusTree :=
  merge_internal_with (borrow_merge_internal fuel) t curr_node sibling toLeft

/-- The function `merge_leaf`. -/
def merge_leaf (fuel : Nat) (t : SeqBPlusTree) (curr_leaf sibling : Nat) (toLeft : Bool) :
    Option SeqBPlusTree :=
  merge_leaf_with (borrow_merge_internal fuel) t curr_leaf sibling toLeft

/-- The function `borrow_merge_leaf`. -/
def borrow_merge_leaf (fuel : Nat) (t : SeqBPlusTree) (curr_leaf : Nat) : Option SeqBPlusTree :=
  (t.heap curr_leaf).seqBind fun c =>
  match c.left_sibling with
  | some left_sib =>
    (t.heap left_sib).seqBind fun l =>
    if !(l.isDeficient || l.isNearDeficient) then borrow_leaf t curr_leaf left_sib true
    else merge_leaf fuel t curr_leaf left_sib true
  | none =>
    c.right_sibling.seqBind fun right_sib =>
    (t.heap right_sib).seqBind fun r =>
    if !(r.isDeficient || r.isNearDeficient) then borrow_leaf t curr_leaf right_sib false
    else merge_leaf fuel t curr_leaf right_sib false

/-- The function `remove`: `true` if the pair is removed, `false` if the key
does not exist (or the leaf is empty). -/
def remove (t : SeqBPlusTree) (key : Int) : Option (SeqBPlusTree × Bool) :=
  (leaf_search t.heap key t.fuel t.root).seqBind fun leaf =>
  (t.heap leaf).seqBind fun n =>
    if n.size = 0 then some (t, false)
    else
      match (n.key_value.take n.size).findIdx? (fun kv => decide (key = kv.key)) with
      | none => some (t, false)
      | some i =>
        (arr_shift n.key_value i (n.size - 1)).seqBind fun kvs =>
        let n1 : Node := { n with key_value := kvs, size := n.size - 1 }
        let t1 := t.set leaf n1
        if n1.isDeficient then (borrow_merge_leaf t.fuel t1 leaf).map (fun t2 => (t2, true))
        else some (t1, true)

end SeqBPlusTree


/-- One call of the public interface. -/
inductive Op where
  | insert (key value : Int)
  | remove (key : Int)
deriving DecidableEq

namespace SeqBPlusTree

/-- The tree state after one call, `none` if the call does not return. -/
def step (t : SeqBPlusTree) : Op → Option SeqBPlusTree
  | Op.insert key value => (t.insert key value).map Prod.fst
  | Op.remove key => (t.remove key).map Prod.fst

/-- The tree state after a sequence of calls, `none` if one of them does not return. -/
def run (t : SeqBPlusTree) : List Op → Option SeqBPlusTree
  | [] => some t
  | op :: ops => (t.step op).bind (fun s => s.run ops)

/-- Insertion of the keys of a list, each with itself as value, into a new tree. -/
def build (keys : List Int) : Option SeqBPlusTree :=
  SeqBPlusTree.new.run (keys.map (fun k => Op.insert k k))

end SeqBPlusTree


/-- One line of the outline of a tree: the level of a node (0 is the root), its variant, and
its keys: the stored keys of a leaf, the separators of an internal node. -/
abbrev OutlineRow := Nat × NodeType × List Int

namespace SeqBPlusTree

/-- Preorder outline of the subtree of a node, children from left to right; `none` when a
child pointer is null or dangling. -/
def outline (h : Nat → Option Node) : Nat → Nat → Nat → Option (List OutlineRow)
  | 0, _, _ => none
  | fuel + 1, level, a =>
    match h a with
    | none => none
    | some n =>
      match n.type with
      | NodeType.LEAF =>
        some [(level, NodeType.LEAF, (n.key_value.take n.size).map (fun kv => kv.key))]
      | NodeType.INTERNAL =>
        ((n.key_ref.take (n.size + 1)).foldr
          (fun kr acc => kr.reference.bind fun c =>
            (outline h fuel (level + 1) c).bind fun rows => acc.map fun rest => rows ++ rest)
          (some [])).map
          fun rows =>
            (level, NodeType.INTERNAL, (n.key_ref.take n.size).map (fun kr => kr.key)) :: rows

/-- Outline of the whole tree. -/
def rows (t : SeqBPlusTree) : Option (List OutlineRow) :=
  outline t.heap t.next 0 t.root

/-- The calls of `sequentialTestForDeletion` after phase 2 (`remove(60)`), up to the last call
but one. -/
def deletionTestCalls : List Op :=
  [Op.insert 45 45, Op.remove 55, Op.remove 1, Op.remove 45, Op.insert 35 35, Op.remove 10,
   Op.insert 60 60, Op.insert 70 70, Op.insert 80 80, Op.insert 85 85, Op.insert 94 94,
   Op.insert 98 98, Op.insert 84 84, Op.insert 73 73, Op.insert 42 42, Op.insert 48 48,
   Op.remove 98, Op.remove 20, Op.remove 16, Op.remove 40, Op.remove 42,
   Op.remove 58, Op.remove 84, Op.remove 35, Op.remove 48]

/-- The tree of worked scenario B. -/
def scenarioB : Option SeqBPlusTree := build [1, 40, 60, 90, 15, 30, 10, 20, 50, 55, 16, 58]

end SeqBPlusTree


/-- C2 (code defect): in the tree holding the keys 5 and 6, whose root is a leaf, the key 5 is
stored and `remove 5` does not return: the root leaf counts as deficient and
`borrow_merge_leaf` dereferences its null right sibling. -/
theorem remove_stored_key_faults :
    (SeqBPlusTree.build [5, 6]).isSome = true ∧
    ((SeqBPlusTree.build [5, 6]).bind (fun t => t.search 5)) = some 5 ∧
    ((SeqBPlusTree.build [5, 6]).bind (fun t => t.remove 5)).isNone = true := by
  decide!

/-- C3 (code defect): removing the only key of a one-key tree, whose root is a leaf, does not
return, because `Leaf::isDeficient` has no root exemption and `borrow_merge_leaf` is called
on the root. -/
theorem remove_last_key_of_root_leaf_faults :
    (SeqBPlusTree.build [1]).isSome = true ∧
    ((SeqBPlusTree.build [1]).map (fun t => t.depth)) = some 0 ∧
    ((SeqBPlusTree.build [1]).bind (fun t => t.heap t.root)).map (fun n => n.isDeficient) = some true ∧
    ((SeqBPlusTree.build [1]).bind (fun t => t.remove 1)).isNone = true := by
  decide!

/-- C4 (code defect): in the tree built from 1, 2, 3, 4 the root is an internal node over the
leaves {1,2} and {3,4}; `remove 1` merges the leaves, leaves the root with one child, and does
not return: `merge_leaf` calls `borrow_merge_internal` on the root instead of collapsing it. -/
theorem root_collapse_over_leaves_faults :
    ((SeqBPlusTree.build [1, 2, 3, 4]).map (fun t => t.depth)) = some 1 ∧
    ((SeqBPlusTree.build [1, 2, 3, 4]).bind (fun t => t.heap t.root)).map (fun n => n.size) = some 1 ∧
    ((SeqBPlusTree.build [1, 2, 3, 4]).bind (fun t => t.remove 1)).isNone = true := by
  decide!

/-- C10 (code defect): in the tree built from 1, 2, 3, 4 the key 4 is stored, and `remove 4`
returns neither `true` nor `false`: the call does not return. -/
theorem remove_result_missing :
    ((SeqBPlusTree.build [1, 2, 3, 4]).bind (fun t => t.search 4)) = some 4 ∧
    ((SeqBPlusTree.build [1, 2, 3, 4]).bind (fun t => t.remove 4)).isNone = true := by
  decide!


/-- C15: inserting 1,4,16,25,9,20,13,15,10,11,12 into a new tree gives depth 2, the root
`[13]`, its left child `[9, 11]` over the leaves {1,4}, {9,10}, {11,12} and its right child
`[16]` over the leaves {13,15}, {16,20,25}. -/
theorem scenario_A_shape :
    (SeqBPlusTree.build [1, 4, 16, 25, 9, 20, 13, 15, 10, 11, 12]).map (fun t => t.depth) = some 2 ∧
    (SeqBPlusTree.build [1, 4, 16, 25, 9, 20, 13, 15, 10, 11, 12]).bind (fun t => t.rows) =
      some [(0, NodeType.INTERNAL, [13]),
            (1, NodeType.INTERNAL, [9, 11]),
            (2, NodeType.LEAF, [1, 4]), (2, NodeType.LEAF, [9, 10]), (2, NodeType.LEAF, [11, 12]),
            (1, NodeType.INTERNAL, [16]),
            (2, NodeType.LEAF, [13, 15]), (2, NodeType.LEAF, [16, 20, 25])] := by
  decide!

/-- C16: the twelve inserts of scenario B give root `[50]` over `[15, 30]` with the leaves
{1,10}, {15,16,20}, {30,40} and `[60]` with the leaves {50,55,58}, {60,90}; `remove 60` returns
true and leaves root `[50]`, right child `[58]` over {50,55}, {58,90}; the root, the depth, the
node count and the allocator are the same, and of all nodes only the two leaves and their parent
(addresses 6, 2 and 7) differ from before. -/
theorem scenario_B_borrow_left :
    SeqBPlusTree.scenarioB.bind (fun t => t.rows) =
      some [(0, NodeType.INTERNAL, [50]),
            (1, NodeType.INTERNAL, [15, 30]),
            (2, NodeType.LEAF, [1, 10]), (2, NodeType.LEAF, [15, 16, 20]), (2, NodeType.LEAF, [30, 40]),
            (1, NodeType.INTERNAL, [60]),
            (2, NodeType.LEAF, [50, 55, 58]), (2, NodeType.LEAF, [60, 90])] ∧
    SeqBPlusTree.scenarioB.bind (fun t => (t.remove 60).map Prod.snd) = some true ∧
    SeqBPlusTree.scenarioB.bind (fun t => (t.remove 60).bind (fun r => r.1.rows)) =
      some [(0, NodeType.INTERNAL, [50]),
            (1, NodeType.INTERNAL, [15, 30]),
            (2, NodeType.LEAF, [1, 10]), (2, NodeType.LEAF, [15, 16, 20]), (2, NodeType.LEAF, [30, 40]),
            (1, NodeType.INTERNAL, [58]),
            (2, NodeType.LEAF, [50, 55]), (2, NodeType.LEAF, [58, 90])] ∧
    SeqBPlusTree.scenarioB.bind (fun t => (t.remove 60).map (fun r =>
      decide (r.1.root = t.root ∧ r.1.depth = t.depth ∧ r.1.node_count = t.node_count ∧
        r.1.next = t.next ∧
        ∀ a, a < t.next → a ≠ 2 → a ≠ 6 → a ≠ 7 → r.1.heap a = t.heap a))) = some true := by
  decide!

/-- C17: after scenario B and `remove 60`, the remaining calls of the deletion test all
return; before the last call the tree is root `[70]` over `[48]` with the leaves {15,30},
{50,60} and `[85]` with the leaves {70,73,80}, {85,90,94}; the last call, `remove 15`, returns
true and collapses the root: depth 1 and root `[70, 85]` over the leaves {30,50,60},
{70,73,80}, {85,90,94}. -/
theorem deletion_test_final_state :
    (SeqBPlusTree.scenarioB.bind (fun t =>
        t.run (Op.remove 60 :: SeqBPlusTree.deletionTestCalls))).bind (fun t => t.rows) =
      some [(0, NodeType.INTERNAL, [70]),
            (1, NodeType.INTERNAL, [48]),
            (2, NodeType.LEAF, [15, 30]), (2, NodeType.LEAF, [50, 60]),
            (1, NodeType.INTERNAL, [85]),
            (2, NodeType.LEAF, [70, 73, 80]), (2, NodeType.LEAF, [85, 90, 94])] ∧
    (SeqBPlusTree.scenarioB.bind (fun t =>
        t.run (Op.remove 60 :: SeqBPlusTree.deletionTestCalls))).map (fun t => t.depth) = some 2 ∧
    (SeqBPlusTree.scenarioB.bind (fun t =>
        t.run (Op.remove 60 :: SeqBPlusTree.deletionTestCalls))).bind
          (fun t => (t.remove 15).map Prod.snd) = some true ∧
    (SeqBPlusTree.scenarioB.bind (fun t =>
        t.run (Op.remove 60 :: SeqBPlusTree.deletionTestCalls))).bind
          (fun t => (t.remove 15).map (fun r => r.1.depth)) = some 1 ∧
    (SeqBPlusTree.scenarioB.bind (fun t =>
        t.run (Op.remove 60 :: SeqBPlusTree.deletionTestCalls))).bind
          (fun t => (t.remove 15).bind (fun r => r.1.rows)) =
      some [(0, NodeType.INTERNAL, [70, 85]),
            (1, NodeType.LEAF, [30, 50, 60]), (1, NodeType.LEAF, [70, 73, 80]),
            (1, NodeType.LEAF, [85, 90, 94])] := by
  decide!


/-! ## The representation invariant -/

namespace Node

/-- Separator at index `i` of an internal node (`key_ref[i].key`). -/
def sep (n : Node) (i : Nat) : Int := ((n.key_ref.get? i).map (fun kr => kr.key)).getD 0

/-- Child pointer at index `i` of an internal node (`key_ref[i].reference`). -/
def kid (n : Node) (i : Nat) : Option Nat := (n.key_ref.get? i).bind (fun kr => kr.reference)

/-- The entries of a leaf: its first `size` key-value pairs. -/
def entries (n : Node) : List KeyValuePair := n.key_value.take n.size

/-- The keys of a leaf. -/
def keys (n : Node) : List Int := n.entries.map (fun kv => kv.key)

end Node

/-- Lower bound of the keys below child `i`: the separator to its left, or the bound of the node. -/
def lob (n : Node) (lo : Int) (i : Nat) : Int := if i = 0 then lo else n.sep (i - 1)

/-- Upper bound of the keys below child `i`: its separator, or the bound of the node for the
last child (the dummy separator stands for plus infinity). -/
def hib (n : Node) (hi : Int) (i : Nat) : Int := if i = n.size then hi else n.sep i

/-- Left sibling pointer of the node at a pointer. -/
def leftOf (h : Nat → Option Node) (p : Option Nat) : Option Nat :=
  p.bind (fun a => (h a).bind (fun n => n.left_sibling))

/-- Right sibling pointer of the node at a pointer. -/
def rightOf (h : Nat → Option Node) (p : Option Nat) : Option Nat :=
  p.bind (fun a => (h a).bind (fun n => n.right_sibling))

/-- First child of the node at a pointer. -/
def firstKid (h : Nat → Option Node) (p : Option Nat) : Option Nat :=
  p.bind (fun a => (h a).bind (fun n => n.kid 0))

/-- Last child of the node at a pointer. -/
def lastKid (h : Nat → Option Node) (p : Option Nat) : Option Nat :=
  p.bind (fun a => (h a).bind (fun n => n.kid n.size))

/-- What the invariant says of a leaf at address `a` with key range `[lo, hi)`. -/
structure LeafGood (root : Nat) (over under : Option Nat) (a : Nat) (n : Node)
    (lv : Nat) (lo hi : Int) : Prop where
  lvl0 : lv = 0
  len : n.key_value.length = ORDER
  noref : n.key_ref = []
  size_le : n.size ≤ ORDER - 1 ∨ (n.size = ORDER ∧ over = some a)
  size_ge : a = root ∨ ORDER / 2 ≤ n.size ∨ (n.size + 1 = ORDER / 2 ∧ under = some a)
  sorted : n.keys.Pairwise (fun x y => x < y)
  range : ∀ k ∈ n.keys, lo ≤ k ∧ k < hi

/-- What the invariant says of an internal node at address `a` with key range `[lo, hi)`:
its own fields, and its children with their levels, bounds and sibling links. -/
structure InternalGood (h : Nat → Option Node) (lvl : Nat → Nat) (lo hi : Nat → Int)
    (over under : Option Nat) (a : Nat) (n : Node) : Prop where
  len : n.key_ref.length = ORDER + 1
  size_le : n.size ≤ ORDER - 1 ∨ (n.size = ORDER ∧ over = some a)
  size_ge : 1 ≤ n.size ∨ under = some a
  sep_sorted : ∀ i j, i < j → j < n.size → n.sep i < n.sep j
  sep_lo : ∀ i, i < n.size → lo a < n.sep i
  sep_hi : ∀ i, i < n.size → n.sep i < hi a
  sep_max : ∀ i, i < n.size → n.sep i < INT_MAX
  dummy : n.sep n.size = INT_MAX
  kids : ∀ i, i ≤ n.size → ∃ c cn, n.kid i = some c ∧ h c = some cn ∧ cn.parent = some a ∧
    lvl c + 1 = lvl a ∧ lo c = lob n (lo a) i ∧ hi c = hib n (hi a) i
  kid_inj : ∀ i j, i ≤ n.size → j ≤ n.size → n.kid i = n.kid j → i = j
  sib_in : ∀ i, i < n.size → rightOf h (n.kid i) = n.kid (i + 1) ∧
    leftOf h (n.kid (i + 1)) = n.kid i
  sib_left : leftOf h (n.kid 0) = lastKid h n.left_sibling
  sib_right : rightOf h (n.kid n.size) = firstKid h n.right_sibling

/-- What the invariant says of every live node. -/
structure NodeGood (h : Nat → Option Node) (root : Nat) (lvl : Nat → Nat) (lo hi : Nat → Int)
    (over under : Option Nat) (a : Nat) (n : Node) : Prop where
  is_root : n.parent = none → a = root
  has_parent : ∀ p, n.parent = some p → ∃ pn, h p = some pn ∧ pn.type = NodeType.INTERNAL ∧
    ∃ i, i ≤ pn.size ∧ pn.kid i = some a
  lvl_le : lvl a ≤ lvl root
  leaf : n.type = NodeType.LEAF → LeafGood root over under a n (lvl a) (lo a) (hi a)
  internal : n.type = NodeType.INTERNAL → 0 < lvl a ∧ InternalGood h lvl lo hi over under a n

/-- The invariant of a tree state, relative to the ghost level and key bounds of each
address. `over` is a node allowed to hold `ORDER` entries (a split is pending), `under` a node
allowed to be deficient (a borrow or merge is pending). -/
structure Good (t : SeqBPlusTree) (lvl : Nat → Nat) (lo hi : Nat → Int)
    (over under : Option Nat) : Prop where
  fresh : ∀ a, t.next ≤ a → t.heap a = none
  root_live : ∃ rn, t.heap t.root = some rn ∧ rn.parent = none ∧
    rn.left_sibling = none ∧ rn.right_sibling = none
  root_lvl : (lvl t.root : Int) = t.depth
  root_lo : lo t.root = INT_MIN
  root_hi : hi t.root = INT_MAX + 1
  fuel_ok : lvl t.root + 1 < t.next
  nodes : ∀ a n, t.heap a = some n → NodeGood t.heap t.root lvl lo hi over under a n

/-- The invariant of the tree states between calls. -/
def TreeInv (t : SeqBPlusTree) : Prop := ∃ lvl lo hi, Good t lvl lo hi none none

theorem TreeInv_new : TreeInv SeqBPlusTree.new := by
  refine ⟨fun _ => 0, fun _ => INT_MIN, fun _ => INT_MAX + 1, ?_⟩
  constructor
  · intro a ha
    simp only [SeqBPlusTree.new] at ha ⊢
    rw [Function.update_noteq (by omega)]
  · exact ⟨{ Leaf.new with id := 1 }, by simp [SeqBPlusTree.new], rfl, rfl, rfl⟩
  · simp [SeqBPlusTree.new]
  · rfl
  · rfl
  · simp [SeqBPlusTree.new]
  · intro a n hn
    simp only [SeqBPlusTree.new] at hn ⊢
    by_cases ha : a = 1
    · subst ha
      rw [Function.update_same] at hn
      cases hn
      constructor
      · intro _; rfl
      · intro p hp; simp [Leaf.new] at hp
      · exact Nat.le_refl _
      · intro _
        constructor
        · rfl
        · simp [Leaf.new]
        · rfl
        · left; simp [Leaf.new]
        · left; rfl
        · simp [Node.keys, Node.entries, Leaf.new]
        · simp [Node.keys, Node.entries, Leaf.new]
      · intro hty; simp [Leaf.new] at hty
    · rw [Function.update_noteq ha] at hn
      cases hn


@[simp] theorem Option.seqBind_eq {α β : Type} (o : Option α) (f : α → Option β) :
    o.seqBind f = o.bind f := rfl

theorem find_eq_get_findIdx {α : Type} (p : α → Bool) (l : List α) :
    l.find? p = l.get? (l.findIdx p) := by
  induction l with
  | nil => simp
  | cons x xs ih =>
    simp only [List.find?_cons, List.findIdx_cons]
    cases hp : p x
    · simp [ih]
    · simp

namespace Node

/-- Index of the child that `leaf_search` follows for a key: the first separator greater than
the key, or `size` (the dummy). -/
def slot (n : Node) (key : Int) : Nat :=
  (n.key_ref.take n.size).findIdx (fun kr => decide (key < kr.key))

theorem slot_le (n : Node) (key : Int) (hlen : n.size ≤ n.key_ref.length) :
    n.slot key ≤ n.size := by
  have : (n.key_ref.take n.size).findIdx (fun kr => decide (key < kr.key)) ≤
      (n.key_ref.take n.size).length := List.findIdx_le_length _
  simp only [List.length_take] at this
  unfold slot; omega

theorem sep_take (n : Node) (i : Nat) (hi : i < n.size) :
    (((n.key_ref.take n.size).get? i).map (fun kr => kr.key)).getD 0 = n.sep i := by
  simp [sep, List.getElem?_take, hi]

theorem slot_lt (n : Node) (key : Int) (hlen : n.size ≤ n.key_ref.length)
    (h : n.slot key < n.size) : key < n.sep (n.slot key) := by
  have hl : n.slot key < (n.key_ref.take n.size).length := by
    simp only [List.length_take]; omega
  have := List.findIdx_getElem (w := hl)
  simp only [decide_eq_true_eq] at this
  rw [← sep_take n _ h]
  simp only [List.get?_eq_getElem?, List.getElem?_eq_getElem hl, Option.map_some', Option.getD_some]
  exact this

theorem slot_ge (n : Node) (key : Int) (hlen : n.size ≤ n.key_ref.length)
    (j : Nat) (h : j < n.slot key) : n.sep j ≤ key := by
  have hs := slot_le n key hlen
  have hj : j < n.size := by omega
  have hl : j < (n.key_ref.take n.size).length := by
    simp only [List.length_take]; omega
  have := List.not_of_lt_findIdx h
  simp only [decide_eq_false_iff_not, not_lt] at this
  rw [← sep_take n _ hj]
  simp only [List.get?_eq_getElem?, List.getElem?_eq_getElem hl, Option.map_some', Option.getD_some]
  exact this

theorem slot_eq (n : Node) (key : Int) (hlen : n.size ≤ n.key_ref.length) (i : Nat)
    (hi : i ≤ n.size) (h1 : ∀ j, j < i → n.sep j ≤ key) (h2 : i < n.size → key < n.sep i) :
    n.slot key = i := by
  have hs := slot_le n key hlen
  rcases Nat.lt_trichotomy (n.slot key) i with h | h | h
  · have := slot_lt n key hlen (by omega)
    have := h1 _ h
    omega
  · exact h
  · have := slot_ge n key hlen i h
    have := h2 (by omega)
    omega

end Node

namespace SeqBPlusTree

theorem leaf_search_leaf (h : Nat → Option Node) (key : Int) (f a : Nat) (n : Node)
    (hn : h a = some n) (hty : n.type = NodeType.LEAF) :
    leaf_search h key (f + 1) a = some a := by
  simp [leaf_search, hn, hty]

theorem leaf_search_internal (h : Nat → Option Node) (key : Int) (f a : Nat) (n : Node)
    (hn : h a = some n) (hty : n.type = NodeType.INTERNAL) :
    leaf_search h key (f + 1) a = (n.kid (n.slot key)).bind (leaf_search h key f) := by
  have hfind := find_eq_get_findIdx (fun kr => decide (key < kr.key)) (n.key_ref.take n.size)
  simp only [leaf_search, hn, hty]
  simp only [reduceCtorEq, if_false, Option.seqBind_eq]
  rw [hfind, show (n.key_ref.take n.size).findIdx (fun kr => decide (key < kr.key))
    = n.slot key from rfl]
  have hle : n.slot key ≤ (n.key_ref.take n.size).length := List.findIdx_le_length _
  rw [List.length_take] at hle
  rw [List.get?_eq_getElem?, List.getElem?_take]
  by_cases hlt : n.slot key < n.size
  · rw [if_pos hlt]
    simp only [Node.kid, List.get?_eq_getElem?]
    cases hg : n.key_ref[n.slot key]? with
    | some kr => rfl
    | none =>
      have h3 := List.getElem?_eq_none_iff.mp hg
      have h4 : n.key_ref[n.size]? = none := List.getElem?_eq_none_iff.mpr (by omega)
      simp [h4]
  · rw [if_neg hlt]
    simp only [Node.kid, List.get?_eq_getElem?]
    by_cases hsz : n.size ≤ n.key_ref.length
    · have : n.slot key = n.size := by omega
      rw [this]
      cases n.key_ref[n.size]? <;> rfl
    · omega

end SeqBPlusTree


theorem NodeType.cases_eq (ty : NodeType) : ty = NodeType.LEAF ∨ ty = NodeType.INTERNAL := by
  cases ty
  · exact Or.inr rfl
  · exact Or.inl rfl

namespace Good

variable {t : SeqBPlusTree} {lvl : Nat → Nat} {lo hi : Nat → Int} {ov un : Option Nat}

theorem internal_good (hg : Good t lvl lo hi ov un) {a : Nat} {n : Node}
    (ha : t.heap a = some n) (hty : n.type = NodeType.INTERNAL) :
    InternalGood t.heap lvl lo hi ov un a n :=
  ((hg.nodes a n ha).internal hty).2

theorem parent_info (hg : Good t lvl lo hi ov un) {a p : Nat} {n : Node}
    (ha : t.heap a = some n) (hp : n.parent = some p) :
    ∃ pn i, t.heap p = some pn ∧ pn.type = NodeType.INTERNAL ∧ i ≤ pn.size ∧
      pn.kid i = some a ∧ lvl a + 1 = lvl p ∧ lo a = lob pn (lo p) i ∧
      hi a = hib pn (hi p) i := by
  obtain ⟨pn, hpn, hty, i, hi1, hk⟩ := (hg.nodes a n ha).has_parent p hp
  obtain ⟨c, cn, hc, _, _, h4, h5, h6⟩ := (hg.internal_good hpn hty).kids i hi1
  rw [hk] at hc
  cases hc
  exact ⟨pn, i, hpn, hty, hi1, hk, h4, h5, h6⟩

theorem top_is_root (hg : Good t lvl lo hi ov un) {a : Nat} {n : Node}
    (ha : t.heap a = some n) (hl : lvl t.root ≤ lvl a) : a = t.root := by
  cases hp : n.parent with
  | none => exact (hg.nodes a n ha).is_root hp
  | some p =>
    obtain ⟨pn, i, hpn, _, _, _, h4, _, _⟩ := hg.parent_info ha hp
    have := (hg.nodes p pn hpn).lvl_le
    omega

theorem search_down (hg : Good t lvl lo hi ov un) (k : Int) :
    ∀ d a n, lvl a = d → t.heap a = some n → lo a ≤ k → k < hi a → ∀ f, d < f →
      ∃ x xn, SeqBPlusTree.leaf_search t.heap k f a = some x ∧ t.heap x = some xn ∧
        xn.type = NodeType.LEAF ∧ lo x ≤ k ∧ k < hi x := by
  intro d
  induction d with
  | zero =>
    intro a n hl ha h1 h2 f hf
    obtain ⟨f, rfl⟩ : ∃ g, f = g + 1 := ⟨f - 1, by omega⟩
    rcases NodeType.cases_eq n.type with hty | hty
    · exact ⟨a, n, SeqBPlusTree.leaf_search_leaf _ _ _ _ _ ha hty, ha, hty, h1, h2⟩
    · have := ((hg.nodes a n ha).internal hty).1
      omega
  | succ d ih =>
    intro a n hl ha h1 h2 f hf
    obtain ⟨f, rfl⟩ : ∃ g, f = g + 1 := ⟨f - 1, by omega⟩
    rcases NodeType.cases_eq n.type with hty | hty
    · exact ⟨a, n, SeqBPlusTree.leaf_search_leaf _ _ _ _ _ ha hty, ha, hty, h1, h2⟩
    · have hin := hg.internal_good ha hty
      have hlen : n.size ≤ n.key_ref.length := by
        have := hin.len
        rcases hin.size_le with h | h
        · simp only [ORDER] at h this; omega
        · simp only [ORDER] at h this; omega
      have hs := Node.slot_le n k hlen
      obtain ⟨c, cn, hc, hcn, _, h4, h5, h6⟩ := hin.kids _ hs
      rw [SeqBPlusTree.leaf_search_internal _ _ _ _ _ ha hty, hc, Option.some_bind]
      apply ih c cn (by omega) hcn _ _ f (by omega)
      · rw [h5]
        unfold lob
        split
        · exact h1
        · exact Node.slot_ge n k hlen _ (by omega)
      · rw [h6]
        unfold hib
        split
        · exact h2
        · exact Node.slot_lt n k hlen (by omega)

theorem search_up (hg : Good t lvl lo hi ov un) (k : Int) :
    ∀ m a n, lvl t.root - lvl a = m → t.heap a = some n → lo a ≤ k → k < hi a → ∀ f,
      SeqBPlusTree.leaf_search t.heap k (f + m) t.root =
        SeqBPlusTree.leaf_search t.heap k f a := by
  intro m
  induction m with
  | zero =>
    intro a n hm ha _ _ f
    have := (hg.nodes a n ha).lvl_le
    have : a = t.root := hg.top_is_root ha (by omega)
    rw [this]; rfl
  | succ m ih =>
    intro a n hm ha h1 h2 f
    cases hp : n.parent with
    | none =>
      have := (hg.nodes a n ha).is_root hp
      subst this
      omega
    | some p =>
      obtain ⟨pn, i, hpn, hty, hi1, hk, h4, h5, h6⟩ := hg.parent_info ha hp
      have hin := hg.internal_good hpn hty
      have hlen : pn.size ≤ pn.key_ref.length := by
        have := hin.len
        rcases hin.size_le with h | h
        · simp only [ORDER] at h this; omega
        · simp only [ORDER] at h this; omega
      have hslot : pn.slot k = i := by
        apply Node.slot_eq pn k hlen i hi1
        · intro j hj
          have h7 : lo a = pn.sep (i - 1) := by rw [h5]; unfold lob; rw [if_neg (by omega)]
          by_cases hji : j = i - 1
          · rw [hji]; omega
          · have := hin.sep_sorted j (i - 1) (by omega) (by omega)
            omega
        · intro hlt
          have h7 : hi a = pn.sep i := by rw [h6]; unfold hib; rw [if_neg (by omega)]
          omega
      have hstep := SeqBPlusTree.leaf_search_internal t.heap k f p pn hpn hty
      rw [hslot, hk, Option.some_bind] at hstep
      rw [← hstep, show f + (m + 1) = (f + 1) + m by omega]
      apply ih p pn (by omega) hpn
      · by_cases hi0 : i = 0
        · rw [h5] at h1; unfold lob at h1; rw [if_pos hi0] at h1; exact h1
        · have h7 : lo a = pn.sep (i - 1) := by rw [h5]; unfold lob; rw [if_neg hi0]
          have := hin.sep_lo (i - 1) (by omega)
          omega
      · by_cases hi0 : i = pn.size
        · rw [h6] at h2; unfold hib at h2; rw [if_pos hi0] at h2; exact h2
        · have h7 : hi a = pn.sep i := by rw [h6]; unfold hib; rw [if_neg hi0]
          have := hin.sep_hi i (by omega)
          omega

end Good


namespace SeqBPlusTree

theorem leaf_search_mono (h : Nat → Option Node) (k : Int) :
    ∀ f a x, leaf_search h k f a = some x → ∀ g, f ≤ g → leaf_search h k g a = some x := by
  intro f
  induction f with
  | zero => intro a x hx; simp [leaf_search] at hx
  | succ f ih =>
    intro a x hx g hg
    obtain ⟨g, rfl⟩ : ∃ g', g = g' + 1 := ⟨g - 1, by omega⟩
    have hfg : f ≤ g := by omega
    have key : ∀ o : Option Nat, o.bind (leaf_search h k f) = some x →
        o.bind (leaf_search h k g) = some x := by
      intro o ho
      cases o with
      | none => simp at ho
      | some c => exact ih c x ho g hfg
    cases hn : h a with
    | none => simp [leaf_search, hn] at hx
    | some n =>
      rcases NodeType.cases_eq n.type with hty | hty
      · rw [leaf_search_leaf h k f a n hn hty] at hx
        rw [leaf_search_leaf h k g a n hn hty]
        exact hx
      · rw [leaf_search_internal h k f a n hn hty] at hx
        rw [leaf_search_internal h k g a n hn hty]
        exact key _ hx

/-- The pair is held by a leaf of the store. -/
def Stored (t : SeqBPlusTree) (kv : KeyValuePair) : Prop :=
  ∃ a n, t.heap a = some n ∧ n.type = NodeType.LEAF ∧ kv ∈ n.entries

/-- The key is held by a leaf of the store. -/
def HasKey (t : SeqBPlusTree) (k : Int) : Prop := ∃ v, Stored t ⟨k, v⟩

end SeqBPlusTree

theorem find_key_of_mem (l : List KeyValuePair)
    (hs : (l.map (fun kv => kv.key)).Pairwise (fun x y => x < y))
    (kv : KeyValuePair) (hm : kv ∈ l) :
    l.find? (fun e => decide (kv.key = e.key)) = some kv := by
  induction l with
  | nil => simp at hm
  | cons x xs ih =>
    simp only [List.map_cons, List.pairwise_cons] at hs
    simp only [List.find?_cons]
    rcases List.mem_cons.mp hm with h | h
    · subst h; simp
    · have hlt := hs.1 kv.key (List.mem_map_of_mem _ h)
      have : decide (kv.key = x.key) = false := by
        apply decide_eq_false; omega
      rw [this]
      exact ih hs.2 h

theorem find_key_none (l : List KeyValuePair) (k : Int)
    (hm : ∀ kv ∈ l, kv.key ≠ k) :
    l.find? (fun e => decide (k = e.key)) = none := by
  rw [List.find?_eq_none]
  intro x hx
  have := hm x hx
  simp only [decide_eq_true_eq]
  exact fun h => this h.symm

theorem find_key_some (l : List KeyValuePair) (k : Int) (e : KeyValuePair)
    (h : l.find? (fun e => decide (k = e.key)) = some e) : e ∈ l ∧ e.key = k := by
  have h1 := List.mem_of_find?_eq_some h
  have h2 := List.find?_some h
  simp only [decide_eq_true_eq] at h2
  exact ⟨h1, h2.symm⟩

namespace Good

variable {t : SeqBPlusTree} {lvl : Nat → Nat} {lo hi : Nat → Int} {ov un : Option Nat}

/-- The leaf that `leaf_search` reaches from the root for a key in the `int` range. -/
theorem search_leaf (hg : Good t lvl lo hi ov un) (k : Int)
    (h1 : INT_MIN ≤ k) (h2 : k ≤ INT_MAX) :
    ∃ x xn, SeqBPlusTree.leaf_search t.heap k t.fuel t.root = some x ∧ t.heap x = some xn ∧
      xn.type = NodeType.LEAF ∧ lo x ≤ k ∧ k < hi x := by
  obtain ⟨rn, hr, _⟩ := hg.root_live
  have := hg.fuel_ok
  exact hg.search_down k _ t.root rn rfl hr (by rw [hg.root_lo]; exact h1)
    (by rw [hg.root_hi]; omega) t.fuel (by unfold SeqBPlusTree.fuel; omega)

/-- A leaf whose range holds the key is the leaf that `leaf_search` reaches. -/
theorem search_leaf_eq (hg : Good t lvl lo hi ov un) (k : Int) {a : Nat} {n : Node}
    (ha : t.heap a = some n) (hty : n.type = NodeType.LEAF) (h1 : lo a ≤ k) (h2 : k < hi a) :
    SeqBPlusTree.leaf_search t.heap k t.fuel t.root = some a := by
  have h3 := hg.search_up k _ a n rfl ha h1 h2 1
  rw [SeqBPlusTree.leaf_search_leaf _ _ _ _ _ ha hty] at h3
  have := hg.fuel_ok
  exact SeqBPlusTree.leaf_search_mono _ _ _ _ _ h3 _ (by unfold SeqBPlusTree.fuel; omega)

theorem leaf_good (hg : Good t lvl lo hi ov un) {a : Nat} {n : Node}
    (ha : t.heap a = some n) (hty : n.type = NodeType.LEAF) :
    LeafGood t.root ov un a n (lvl a) (lo a) (hi a) :=
  (hg.nodes a n ha).leaf hty

theorem search_stored (hg : Good t lvl lo hi ov un) (kv : KeyValuePair)
    (hs : t.Stored kv) : t.search kv.key = some kv.value := by
  obtain ⟨a, n, ha, hty, hm⟩ := hs
  have hl := hg.leaf_good ha hty
  have hr := hl.range kv.key (List.mem_map_of_mem _ hm)
  have h3 := hg.search_leaf_eq kv.key ha hty hr.1 hr.2
  simp only [SeqBPlusTree.search, h3, Option.seqBind_eq, Option.some_bind, ha]
  have := find_key_of_mem n.entries hl.sorted kv hm
  simp only [Node.entries] at this
  rw [this]

theorem search_absent (hg : Good t lvl lo hi ov un) (k : Int)
    (h1 : INT_MIN ≤ k) (h2 : k ≤ INT_MAX) (hs : ¬ t.HasKey k) : t.search k = some (-1) := by
  obtain ⟨x, xn, hx, hxn, hty, _, _⟩ := hg.search_leaf k h1 h2
  simp only [SeqBPlusTree.search, hx, Option.seqBind_eq, Option.some_bind, hxn]
  have : (xn.key_value.take xn.size).find? (fun e => decide (k = e.key)) = none := by
    apply find_key_none
    intro kv hkv hk
    apply hs
    refine ⟨kv.value, x, xn, hxn, hty, ?_⟩
    rw [← hk]
    exact hkv
  rw [this]

end Good


/-- The pointer fields of a node that the invariant of other nodes reads. -/
def Node.links (n : Node) : Option Nat × Option Nat × Option Nat × Option Nat × Option Nat :=
  (n.parent, n.left_sibling, n.right_sibling, n.kid 0, n.kid n.size)

/-- Two stores hold the same nodes up to the fields outside `Node.links`. -/
def LinkEq (h g : Nat → Option Node) : Prop :=
  ∀ c, (g c).map Node.links = (h c).map Node.links

namespace LinkEq

variable {h g : Nat → Option Node}

theorem get (e : LinkEq h g) {c : Nat} {cn : Node} (hc : h c = some cn) :
    ∃ dn, g c = some dn ∧ dn.links = cn.links := by
  have := e c
  rw [hc] at this
  cases hg : g c with
  | none => rw [hg] at this; simp at this
  | some dn => rw [hg] at this; exact ⟨dn, rfl, by simpa using this⟩

theorem proj (e : LinkEq h g) (F : Node → Option Nat)
    (hF : ∀ n m : Node, n.links = m.links → F n = F m) (p : Option Nat) :
    p.bind (fun a => (g a).bind F) = p.bind (fun a => (h a).bind F) := by
  cases p with
  | none => rfl
  | some a =>
    have := e a
    simp only [Option.some_bind]
    cases hh : h a with
    | none =>
      cases hg : g a with
      | none => rfl
      | some dn => rw [hh, hg] at this; simp at this
    | some cn =>
      cases hg : g a with
      | none => rw [hh, hg] at this; simp at this
      | some dn =>
        rw [hh, hg] at this
        simp only [Option.map_some', Option.some.injEq] at this
        simp only [Option.some_bind]
        exact hF _ _ this

theorem leftOf_eq (e : LinkEq h g) (p : Option Nat) : leftOf g p = leftOf h p :=
  e.proj (fun n => n.left_sibling) (fun n m hl => by
    simp only [Node.links, Prod.mk.injEq] at hl; exact hl.2.1) p

theorem rightOf_eq (e : LinkEq h g) (p : Option Nat) : rightOf g p = rightOf h p :=
  e.proj (fun n => n.right_sibling) (fun n m hl => by
    simp only [Node.links, Prod.mk.injEq] at hl; exact hl.2.2.1) p

theorem firstKid_eq (e : LinkEq h g) (p : Option Nat) : firstKid g p = firstKid h p :=
  e.proj (fun n => n.kid 0) (fun n m hl => by
    simp only [Node.links, Prod.mk.injEq] at hl; exact hl.2.2.2.1) p

theorem lastKid_eq (e : LinkEq h g) (p : Option Nat) : lastKid g p = lastKid h p :=
  e.proj (fun n => n.kid n.size) (fun n m hl => by
    simp only [Node.links, Prod.mk.injEq] at hl; exact hl.2.2.2.2) p

end LinkEq

/-- The invariant of an internal node carries over to a store with the same links. -/
theorem InternalGood.transfer {h g : Nat → Option Node} {lvl : Nat → Nat} {lo hi : Nat → Int}
    {ov un : Option Nat} {a : Nat} {n : Node} (e : LinkEq h g)
    (hin : InternalGood h lvl lo hi none none a n) : InternalGood g lvl lo hi ov un a n := by
  constructor
  · exact hin.len
  · rcases hin.size_le with h1 | h1
    · exact Or.inl h1
    · simp at h1
  · rcases hin.size_ge with h1 | h1
    · exact Or.inl h1
    · simp at h1
  · exact hin.sep_sorted
  · exact hin.sep_lo
  · exact hin.sep_hi
  · exact hin.sep_max
  · exact hin.dummy
  · intro i hi1
    obtain ⟨c, cn, h1, h2, h3, h4⟩ := hin.kids i hi1
    obtain ⟨dn, hd, hl⟩ := e.get h2
    refine ⟨c, dn, h1, hd, ?_, h4⟩
    simp only [Node.links, Prod.mk.injEq] at hl
    rw [hl.1]; exact h3
  · exact hin.kid_inj
  · intro i hi1
    rw [e.rightOf_eq, e.leftOf_eq]
    exact hin.sib_in i hi1
  · rw [e.leftOf_eq, e.lastKid_eq]; exact hin.sib_left
  · rw [e.rightOf_eq, e.firstKid_eq]; exact hin.sib_right


theorem Node.kid_of_noref (n : Node) (h : n.key_ref = []) (i : Nat) : n.kid i = none := by
  simp [Node.kid, h]

namespace SeqBPlusTree

@[simp] theorem set_heap (t : SeqBPlusTree) (a : Nat) (n : Node) :
    (t.set a n).heap = Function.update t.heap a (some n) := rfl
@[simp] theorem set_next (t : SeqBPlusTree) (a : Nat) (n : Node) : (t.set a n).next = t.next := rfl
@[simp] theorem set_root (t : SeqBPlusTree) (a : Nat) (n : Node) : (t.set a n).root = t.root := rfl
@[simp] theorem set_depth (t : SeqBPlusTree) (a : Nat) (n : Node) :
    (t.set a n).depth = t.depth := rfl
@[simp] theorem set_node_count (t : SeqBPlusTree) (a : Nat) (n : Node) :
    (t.set a n).node_count = t.node_count := rfl
@[simp] theorem set_fuel (t : SeqBPlusTree) (a : Nat) (n : Node) : (t.set a n).fuel = t.fuel := rfl

end SeqBPlusTree

namespace Good

variable {t : SeqBPlusTree} {lvl : Nat → Nat} {lo hi : Nat → Int} {ov un : Option Nat}

theorem live_lt (hg : Good t lvl lo hi ov un) {a : Nat} {n : Node} (ha : t.heap a = some n) :
    a < t.next := by
  by_contra hc
  have := hg.fresh a (by omega)
  rw [ha] at this
  cases this

/-- Replacing the entries of a leaf, with its pointers kept, preserves the invariant when the
new leaf satisfies the leaf clauses. -/
theorem set_leaf (hg : Good t lvl lo hi none none) {a : Nat} {n m : Node}
    (ha : t.heap a = some n) (hty : n.type = NodeType.LEAF) (htm : m.type = NodeType.LEAF)
    (hp : m.parent = n.parent) (hl : m.left_sibling = n.left_sibling)
    (hr : m.right_sibling = n.right_sibling)
    (hm : LeafGood t.root ov un a m (lvl a) (lo a) (hi a)) :
    Good (t.set a m) lvl lo hi ov un := by
  have hnr := (hg.leaf_good ha hty).noref
  have e : LinkEq t.heap (Function.update t.heap a (some m)) := by
    intro c
    by_cases hc : c = a
    · subst hc
      rw [Function.update_same, ha]
      simp only [Option.map_some', Node.links, hp, hl, hr, Node.kid_of_noref n hnr,
        Node.kid_of_noref m hm.noref]
    · rw [Function.update_noteq hc]
  have hint : ∀ p pn, t.heap p = some pn → pn.type = NodeType.INTERNAL →
      Function.update t.heap a (some m) p = some pn := by
    intro p pn hpn hpt
    have : p ≠ a := by
      intro h; subst h; rw [ha] at hpn; cases hpn; rw [hty] at hpt; cases hpt
    rw [Function.update_noteq this]; exact hpn
  constructor
  · intro b hb
    have := hg.live_lt ha
    rw [SeqBPlusTree.set_next] at hb
    show Function.update t.heap a (some m) b = none
    rw [Function.update_noteq (by omega)]
    exact hg.fresh b hb
  · obtain ⟨rn, h1, h2, h3, h4⟩ := hg.root_live
    show ∃ rn, Function.update t.heap a (some m) t.root = some rn ∧ _
    by_cases hc : t.root = a
    · rw [hc, Function.update_same]
      rw [hc, ha] at h1; cases h1
      exact ⟨m, rfl, by rw [hp]; exact h2, by rw [hl]; exact h3, by rw [hr]; exact h4⟩
    · rw [Function.update_noteq hc]
      exact ⟨rn, h1, h2, h3, h4⟩
  · exact hg.root_lvl
  · exact hg.root_lo
  · exact hg.root_hi
  · exact hg.fuel_ok
  · intro b k hb
    change Function.update t.heap a (some m) b = some k at hb
    show NodeGood (Function.update t.heap a (some m)) t.root lvl lo hi ov un b k
    by_cases hc : b = a
    · subst hc
      rw [Function.update_same] at hb
      cases hb
      have old := hg.nodes b n ha
      constructor
      · intro h; rw [hp] at h; exact old.is_root h
      · intro p h
        rw [hp] at h
        obtain ⟨pn, h1, h2, h3⟩ := old.has_parent p h
        exact ⟨pn, hint p pn h1 h2, h2, h3⟩
      · exact old.lvl_le
      · intro _; exact hm
      · intro h; rw [htm] at h; cases h
    · rw [Function.update_noteq hc] at hb
      have old := hg.nodes b k hb
      constructor
      · exact old.is_root
      · intro p h
        obtain ⟨pn, h1, h2, h3⟩ := old.has_parent p h
        exact ⟨pn, hint p pn h1 h2, h2, h3⟩
      · exact old.lvl_le
      · intro h
        have o := old.leaf h
        constructor
        · exact o.lvl0
        · exact o.len
        · exact o.noref
        · rcases o.size_le with h1 | h1
          · exact Or.inl h1
          · simp at h1
        · rcases o.size_ge with h1 | h1 | h1
          · exact Or.inl h1
          · exact Or.inr (Or.inl h1)
          · simp at h1
        · exact o.sorted
        · exact o.range
      · intro h
        exact ⟨(old.internal h).1, (old.internal h).2.transfer e⟩

end Good


/-- The order of `sort_entry_by_key` on leaf entries. -/
abbrev kvLe (a b : KeyValuePair) : Prop := a.key ≤ b.key

/-- The order of `sort_entry_by_key` on the pairs of an internal node. -/
abbrev krLe (a b : KeyReferencePair) : Prop := a.key ≤ b.key

instance : IsTotal KeyValuePair kvLe := ⟨fun a b => le_total a.key b.key⟩
instance : IsTrans KeyValuePair kvLe := ⟨fun _ _ _ h1 h2 => le_trans h1 h2⟩
instance : IsTotal KeyReferencePair krLe := ⟨fun a b => le_total a.key b.key⟩
instance : IsTrans KeyReferencePair krLe := ⟨fun _ _ _ h1 h2 => le_trans h1 h2⟩

theorem sorted_keys_of_insertionSort (l : List KeyValuePair)
    (hnd : (l.map (fun kv => kv.key)).Nodup) :
    ((l.insertionSort kvLe).map (fun kv => kv.key)).Pairwise (fun x y => x < y) := by
  have h1 : (l.insertionSort kvLe).Sorted kvLe := List.sorted_insertionSort kvLe l
  have h2 : ((l.insertionSort kvLe).map (fun kv => kv.key)).Pairwise (fun x y => x ≤ y) := by
    rw [List.pairwise_map]; exact h1
  have h3 : ((l.insertionSort kvLe).map (fun kv => kv.key)).Nodup :=
    ((List.perm_insertionSort kvLe l).map _).nodup_iff.mpr hnd
  exact (h2.and h3).imp (fun h => lt_of_le_of_ne h.1 h.2)

theorem nodup_of_pairwise_lt (l : List Int) (h : l.Pairwise (fun x y => x < y)) : l.Nodup :=
  h.imp (fun h => ne_of_lt h)

namespace Node

theorem entries_sort (m : Node) (hty : m.type = NodeType.LEAF)
    (hlen : m.size ≤ m.key_value.length) :
    (sort_entry_by_key m).entries = m.entries.insertionSort kvLe := by
  simp only [sort_entry_by_key, hty, entries]
  change List.take m.size (List.insertionSort kvLe (List.take m.size m.key_value) ++
    List.drop m.size m.key_value) = _
  have : ((m.key_value.take m.size).insertionSort kvLe).length = m.size := by
    rw [List.length_insertionSort, List.length_take]; omega
  rw [List.take_append_eq_append_take, this, Nat.sub_self, List.take_zero, List.append_nil,
    List.take_of_length_le (by omega)]

theorem sort_leaf_fields (m : Node) (hty : m.type = NodeType.LEAF) :
    (sort_entry_by_key m).type = m.type ∧ (sort_entry_by_key m).size = m.size ∧
    (sort_entry_by_key m).parent = m.parent ∧
    (sort_entry_by_key m).left_sibling = m.left_sibling ∧
    (sort_entry_by_key m).right_sibling = m.right_sibling ∧
    (sort_entry_by_key m).key_ref = m.key_ref ∧
    (sort_entry_by_key m).key_value.length = m.key_value.length := by
  simp only [sort_entry_by_key, hty, List.length_append, List.length_insertionSort,
    List.length_take, List.length_drop, true_and]
  omega

end Node


theorem mem_modify_value (v : Int) (l : List KeyValuePair)
    (hs : (l.map (fun kv => kv.key)).Pairwise (fun x y => x < y)) :
    ∀ i (hi : i < l.length) (kv : KeyValuePair),
      kv ∈ l.modify (fun e => { e with value := v }) i ↔
        (kv ∈ l ∧ kv.key ≠ l[i].key) ∨ kv = ⟨l[i].key, v⟩ := by
  induction l with
  | nil => intro i hi; simp at hi
  | cons x xs ih =>
    intro i hi kv
    simp only [List.map_cons, List.pairwise_cons] at hs
    cases i with
    | zero =>
      simp only [List.modify_zero_cons, List.mem_cons, List.getElem_cons_zero]
      constructor
      · rintro (h | h)
        · exact Or.inr h
        · have := hs.1 kv.key (List.mem_map_of_mem _ h)
          exact Or.inl ⟨Or.inr h, by omega⟩
      · rintro (⟨h | h, h2⟩ | h)
        · subst h; exact absurd rfl h2
        · exact Or.inr h
        · exact Or.inl h
    | succ i =>
      have hi2 : i < xs.length := by simpa using hi
      simp only [List.modify_succ_cons, List.mem_cons, List.getElem_cons_succ]
      rw [ih hs.2 i hi2 kv]
      have hx := hs.1 xs[i].key (List.mem_map_of_mem _ (List.getElem_mem hi2))
      constructor
      · rintro (h | ⟨h, h2⟩ | h)
        · subst h; exact Or.inl ⟨Or.inl rfl, by omega⟩
        · exact Or.inl ⟨Or.inr h, h2⟩
        · exact Or.inr h
      · rintro (⟨h | h, h2⟩ | h)
        · exact Or.inl h
        · exact Or.inr (Or.inl ⟨h, h2⟩)
        · exact Or.inr (Or.inr h)

theorem map_key_modify_value (v : Int) (l : List KeyValuePair) (i : Nat) :
    (l.modify (fun e => { e with value := v }) i).map (fun kv => kv.key) =
      l.map (fun kv => kv.key) := by
  induction l generalizing i with
  | nil => cases i <;> rfl
  | cons x xs ih =>
    cases i with
    | zero => rfl
    | succ i => simp only [List.modify_succ_cons, List.map_cons, ih]

theorem take_set_append {α : Type} (l : List α) (n : Nat) (x : α) (h : n < l.length) :
    (l.set n x).take (n + 1) = l.take n ++ [x] := by
  induction l generalizing n with
  | nil => simp at h
  | cons y ys ih =>
    cases n with
    | zero => simp
    | succ n =>
      simp only [List.set_cons_succ, List.take_succ_cons, List.cons_append]
      rw [ih n (by simpa using h)]


namespace Good

variable {t : SeqBPlusTree} {lvl : Nat → Nat} {lo hi : Nat → Int} {ov un : Option Nat}

/-- How the stored pairs change when the leaf that holds the range of `key` is replaced by a
leaf whose entries differ only at `key`. -/
theorem stored_set_key (hg : Good t lvl lo hi ov un) (key : Int) {x : Nat} {n m : Node}
    (hn : t.heap x = some n) (htn : n.type = NodeType.LEAF) (htm : m.type = NodeType.LEAF)
    (h1 : lo x ≤ key) (h2 : key < hi x) (Q : KeyValuePair → Prop)
    (hspec : ∀ kv, kv ∈ m.entries ↔ (kv ∈ n.entries ∧ kv.key ≠ key) ∨ Q kv) (kv : KeyValuePair) :
    (t.set x m).Stored kv ↔ (t.Stored kv ∧ kv.key ≠ key) ∨ Q kv := by
  constructor
  · rintro ⟨a, an, ha, hta, hm⟩
    rw [SeqBPlusTree.set_heap] at ha
    by_cases hax : a = x
    · subst hax
      rw [Function.update_same] at ha
      cases ha
      rcases (hspec kv).mp hm with h | h
      · exact Or.inl ⟨⟨a, n, hn, htn, h.1⟩, h.2⟩
      · exact Or.inr h
    · rw [Function.update_noteq hax] at ha
      refine Or.inl ⟨⟨a, an, ha, hta, hm⟩, ?_⟩
      intro hk
      have hr := (hg.leaf_good ha hta).range kv.key (List.mem_map_of_mem _ hm)
      rw [hk] at hr
      have e1 := hg.search_leaf_eq key ha hta hr.1 hr.2
      have e2 := hg.search_leaf_eq key hn htn h1 h2
      rw [e1] at e2
      exact hax (Option.some.inj e2)
  · rintro (⟨⟨a, an, ha, hta, hm⟩, hk⟩ | h)
    · by_cases hax : a = x
      · subst hax
        rw [hn] at ha; cases ha
        exact ⟨a, m, by rw [SeqBPlusTree.set_heap, Function.update_same], htm,
          (hspec kv).mpr (Or.inl ⟨hm, hk⟩)⟩
      · exact ⟨a, an, by rw [SeqBPlusTree.set_heap, Function.update_noteq hax]; exact ha,
          hta, hm⟩
    · exact ⟨x, m, by rw [SeqBPlusTree.set_heap, Function.update_same], htm,
        (hspec kv).mpr (Or.inr h)⟩

/-- Whether the key is stored is decided in the leaf that `leaf_search` reaches. -/
theorem hasKey_iff (hg : Good t lvl lo hi ov un) (key : Int) {x : Nat} {n : Node}
    (hn : t.heap x = some n) (htn : n.type = NodeType.LEAF)
    (h1 : lo x ≤ key) (h2 : key < hi x) :
    t.HasKey key ↔ ∃ kv ∈ n.entries, kv.key = key := by
  constructor
  · rintro ⟨v, a, an, ha, hta, hm⟩
    have hr := (hg.leaf_good ha hta).range key (List.mem_map_of_mem (fun kv => kv.key) hm)
    have e1 := hg.search_leaf_eq key ha hta hr.1 hr.2
    have e2 := hg.search_leaf_eq key hn htn h1 h2
    rw [e1] at e2
    cases e2
    rw [hn] at ha; cases ha
    exact ⟨_, hm, rfl⟩
  · rintro ⟨kv, hm, hk⟩
    exact ⟨kv.value, x, n, hn, htn, by rw [← hk]; exact hm⟩

end Good


/-- The leaf after `insert` has replaced the value at index `i`. -/
def upd_node (n : Node) (i : Nat) (value : Int) : Node :=
  { n with key_value := n.key_value.modify (fun kv => { kv with value := value }) i }

/-- The leaf after `insert` has appended a pair and sorted the entries. -/
def ins_node (n : Node) (key value : Int) : Node :=
  sort_entry_by_key { n with key_value := n.key_value.set n.size ⟨key, value⟩, size := n.size + 1 }

theorem upd_node_entries (n : Node) (i : Nat) (value : Int) :
    (upd_node n i value).entries = n.entries.modify (fun kv => { kv with value := value }) i := by
  simp only [upd_node, Node.entries, List.take_modify]

theorem ins_node_entries (n : Node) (key value : Int) (hty : n.type = NodeType.LEAF)
    (hlen : n.size < n.key_value.length) :
    (ins_node n key value).entries = (n.entries ++ [(⟨key, value⟩ : KeyValuePair)]).insertionSort kvLe := by
  unfold ins_node
  rw [Node.entries_sort
    ({ n with key_value := n.key_value.set n.size ⟨key, value⟩, size := n.size + 1 } : Node)
    hty (by simp only [List.length_set]; omega)]
  simp only [Node.entries]
  rw [take_set_append _ _ _ hlen]

namespace Good

variable {t : SeqBPlusTree} {lvl : Nat → Nat} {lo hi : Nat → Int}

theorem leaf_size_le (hg : Good t lvl lo hi none none) {x : Nat} {n : Node}
    (hn : t.heap x = some n) (hty : n.type = NodeType.LEAF) :
    n.size ≤ 3 ∧ n.key_value.length = 4 := by
  have hl := hg.leaf_good hn hty
  refine ⟨?_, hl.len⟩
  rcases hl.size_le with h | h
  · exact h
  · simp at h

theorem insert_update (hg : Good t lvl lo hi none none) (key value : Int) {x : Nat} {n : Node}
    (hx : SeqBPlusTree.leaf_search t.heap key t.fuel t.root = some x)
    (hn : t.heap x = some n) (hty : n.type = NodeType.LEAF)
    (h1 : lo x ≤ key) (h2 : key < hi x) (i : Nat)
    (hfi : (n.key_value.take n.size).findIdx? (fun kv => decide (key = kv.key)) = some i) :
    t.insert key value = some (t.set x (upd_node n i value), false) ∧
    Good (t.set x (upd_node n i value)) lvl lo hi none none ∧ t.HasKey key ∧
    ∀ kv, (t.set x (upd_node n i value)).Stored kv ↔
      (t.Stored kv ∧ kv.key ≠ key) ∨ kv = ⟨key, value⟩ := by
  have hl := hg.leaf_good hn hty
  obtain ⟨hil, hik, _⟩ := List.findIdx?_eq_some_iff_getElem.mp hfi
  simp only [decide_eq_true_eq] at hik
  have hik2 : n.entries[i].key = key := hik.symm
  refine ⟨?_, ?_, ?_, ?_⟩
  · simp only [SeqBPlusTree.insert, hx, Option.seqBind_eq, Option.some_bind, hn, hfi]
    rfl
  · apply hg.set_leaf hn hty (show (upd_node n i value).type = NodeType.LEAF from hty)
      rfl rfl rfl
    constructor
    · exact hl.lvl0
    · simp only [upd_node, List.length_modify]; exact hl.len
    · exact hl.noref
    · exact hl.size_le
    · exact hl.size_ge
    · simp only [Node.keys, upd_node_entries, map_key_modify_value]; exact hl.sorted
    · simp only [Node.keys, upd_node_entries, map_key_modify_value]; exact hl.range
  · exact (hg.hasKey_iff key hn hty h1 h2).mpr ⟨_, List.getElem_mem hil, hik2⟩
  · apply hg.stored_set_key key hn hty
      (show (upd_node n i value).type = NodeType.LEAF from hty) h1 h2
      (fun kv => kv = ⟨key, value⟩)
    intro kv
    rw [upd_node_entries, mem_modify_value value n.entries hl.sorted i hil kv, hik2]

theorem insert_fresh (hg : Good t lvl lo hi none none) (key value : Int) {x : Nat} {n : Node}
    (hx : SeqBPlusTree.leaf_search t.heap key t.fuel t.root = some x)
    (hn : t.heap x = some n) (hty : n.type = NodeType.LEAF)
    (h1 : lo x ≤ key) (h2 : key < hi x)
    (hfi : (n.key_value.take n.size).findIdx? (fun kv => decide (key = kv.key)) = none) :
    t.insert key value =
      (if n.isFull then
        (SeqBPlusTree.split_leaf t.fuel (t.set x (ins_node n key value)) (some x)).map
          (fun t2 => (t2, true))
       else some (t.set x (ins_node n key value), true)) ∧
    Good (t.set x (ins_node n key value)) lvl lo hi (if n.size = 3 then some x else none) none ∧
    ¬ t.HasKey key ∧ (ins_node n key value).size = n.size + 1 ∧
    (ins_node n key value).type = NodeType.LEAF ∧
    ∀ kv, (t.set x (ins_node n key value)).Stored kv ↔
      (t.Stored kv ∧ kv.key ≠ key) ∨ kv = ⟨key, value⟩ := by
  have hl := hg.leaf_good hn hty
  obtain ⟨hsz, hlen⟩ := hg.leaf_size_le hn hty
  have hnone : ∀ kv ∈ n.entries, kv.key ≠ key := by
    intro kv hkv hk
    have := List.findIdx?_eq_none_iff.mp hfi kv hkv
    simp [hk] at this
  have hent := ins_node_entries n key value hty (by omega)
  have hf := Node.sort_leaf_fields
    { n with key_value := n.key_value.set n.size ⟨key, value⟩, size := n.size + 1 } hty
  have hmem : ∀ kv, kv ∈ (ins_node n key value).entries ↔
      (kv ∈ n.entries ∧ kv.key ≠ key) ∨ kv = ⟨key, value⟩ := by
    intro kv
    rw [hent, (List.perm_insertionSort kvLe _).mem_iff, List.mem_append, List.mem_singleton]
    constructor
    · rintro (h | h)
      · exact Or.inl ⟨h, hnone kv h⟩
      · exact Or.inr h
    · rintro (h | h)
      · exact Or.inl h.1
      · exact Or.inr h
  have hft : (ins_node n key value).type = NodeType.LEAF := hf.1.trans hty
  refine ⟨?_, ?_, ?_, hf.2.1, hft, ?_⟩
  · simp only [SeqBPlusTree.insert, hx, Option.seqBind_eq, Option.some_bind, hn, hfi, arr_set,
      hlen, show n.size < 4 by omega, if_true]
    rfl
  · apply hg.set_leaf hn hty hft hf.2.2.1 hf.2.2.2.1 hf.2.2.2.2.1
    constructor
    · exact hl.lvl0
    · unfold ins_node; rw [hf.2.2.2.2.2.2]; simp only [List.length_set]; exact hl.len
    · unfold ins_node; rw [hf.2.2.2.2.2.1]; exact hl.noref
    · unfold ins_node; rw [hf.2.1]
      by_cases h3 : n.size = 3
      · right; simp [h3]
      · left; simp only [ORDER]; omega
    · unfold ins_node; rw [hf.2.1]
      rcases hl.size_ge with h | h | h
      · exact Or.inl h
      · right; left; simp only [ORDER] at h ⊢; omega
      · simp at h
    · simp only [Node.keys, hent]
      apply sorted_keys_of_insertionSort
      rw [List.map_append, List.nodup_append]
      refine ⟨nodup_of_pairwise_lt _ hl.sorted, by simp, ?_⟩
      intro a ha hb
      simp only [List.map_cons, List.map_nil, List.mem_singleton] at hb
      obtain ⟨kv, hkv, rfl⟩ := List.mem_map.mp ha
      exact hnone kv hkv hb
    · intro k hk
      obtain ⟨kv, hkv, rfl⟩ := List.mem_map.mp hk
      rcases (hmem kv).mp hkv with h | h
      · exact hl.range _ (List.mem_map_of_mem _ h.1)
      · rw [h]; exact ⟨h1, h2⟩
  · intro hk
    obtain ⟨kv, hkv, hkk⟩ := (hg.hasKey_iff key hn hty h1 h2).mp hk
    exact hnone kv hkv hkk
  · exact hg.stored_set_key key hn hty hft h1 h2 _ hmem

end Good


namespace Good

variable {t : SeqBPlusTree} {lvl : Nat → Nat} {lo hi : Nat → Int} {ov un : Option Nat}

theorem size_le_four (hg : Good t lvl lo hi ov un) {a : Nat} {n : Node}
    (ha : t.heap a = some n) (hty : n.type = NodeType.INTERNAL) :
    n.size ≤ 4 ∧ n.key_ref.length = 5 := by
  have hin := hg.internal_good ha hty
  refine ⟨?_, hin.len⟩
  rcases hin.size_le with h | h
  · simp only [ORDER] at h; omega
  · simp only [ORDER] at h; omega

/-- A node with a child pointer is an internal node. -/
theorem internal_of_kid (hg : Good t lvl lo hi ov un) {a : Nat} {n : Node}
    (ha : t.heap a = some n) {i c : Nat} (hk : n.kid i = some c) :
    n.type = NodeType.INTERNAL := by
  rcases NodeType.cases_eq n.type with hty | hty
  · have := Node.kid_of_noref n (hg.leaf_good ha hty).noref i
    rw [hk] at this; cases this
  · exact hty

/-- The right sibling of a node is live, points back, and continues its key range. -/
theorem right_info (hg : Good t lvl lo hi ov un) :
    ∀ m a n b, lvl t.root - lvl a = m → t.heap a = some n → n.right_sibling = some b →
      ∃ bn, t.heap b = some bn ∧ bn.left_sibling = some a ∧ lvl b = lvl a ∧ lo b = hi a := by
  intro m
  induction m with
  | zero =>
    intro a n b hm ha hr
    have := (hg.nodes a n ha).lvl_le
    have hroot : a = t.root := hg.top_is_root ha (by omega)
    obtain ⟨rn, h1, _, _, h4⟩ := hg.root_live
    rw [← hroot, ha] at h1; cases h1
    rw [hr] at h4; cases h4
  | succ m ih =>
    intro a n b hm ha hr
    cases hp : n.parent with
    | none =>
      have := (hg.nodes a n ha).is_root hp
      subst this; omega
    | some p =>
      obtain ⟨pn, i, hpn, hty, hi1, hk, h4, h5, h6⟩ := hg.parent_info ha hp
      have hin := hg.internal_good hpn hty
      by_cases hlt : i < pn.size
      · obtain ⟨e1, e2⟩ := hin.sib_in i hlt
        rw [hk] at e1 e2
        simp only [rightOf, Option.some_bind, ha, hr] at e1
        obtain ⟨c, cn, hc, hcn, _, g4, g5, _⟩ := hin.kids (i + 1) (by omega)
        rw [← e1] at hc; cases hc
        refine ⟨cn, hcn, ?_, by omega, ?_⟩
        · rw [← e1] at e2
          simpa only [leftOf, Option.some_bind, hcn] using e2
        · rw [g5, h6]; unfold lob hib
          rw [if_neg (by omega), if_neg (by omega)]; rfl
      · have hi2 : i = pn.size := by omega
        subst hi2
        have e1 := hin.sib_right
        rw [hk] at e1
        simp only [rightOf, Option.some_bind, ha, hr] at e1
        cases hq : pn.right_sibling with
        | none => rw [hq] at e1; simp [firstKid] at e1
        | some q =>
          obtain ⟨qn, hqn, q1, q2, q3⟩ := ih p pn q (by omega) hpn hq
          rw [hq] at e1
          simp only [firstKid, Option.some_bind, hqn] at e1
          have hqt := hg.internal_of_kid hqn e1.symm
          have hqin := hg.internal_good hqn hqt
          obtain ⟨c, cn, hc, hcn, _, g4, g5, _⟩ := hqin.kids 0 (by omega)
          rw [← e1] at hc; cases hc
          refine ⟨cn, hcn, ?_, by omega, ?_⟩
          · have e2 := hqin.sib_left
            rw [← e1, q1] at e2
            simpa only [leftOf, lastKid, Option.some_bind, hcn, hpn, hk] using e2
          · rw [g5, h6]; unfold lob hib
            rw [if_pos rfl, if_pos rfl]; exact q3

/-- The left sibling of a node is live, points back, and precedes its key range. -/
theorem left_info (hg : Good t lvl lo hi ov un) :
    ∀ m a n b, lvl t.root - lvl a = m → t.heap a = some n → n.left_sibling = some b →
      ∃ bn, t.heap b = some bn ∧ bn.right_sibling = some a ∧ lvl b = lvl a ∧ hi b = lo a := by
  intro m
  induction m with
  | zero =>
    intro a n b hm ha hr
    have := (hg.nodes a n ha).lvl_le
    have hroot : a = t.root := hg.top_is_root ha (by omega)
    obtain ⟨rn, h1, _, h3, _⟩ := hg.root_live
    rw [← hroot, ha] at h1; cases h1
    rw [hr] at h3; cases h3
  | succ m ih =>
    intro a n b hm ha hr
    cases hp : n.parent with
    | none =>
      have := (hg.nodes a n ha).is_root hp
      subst this; omega
    | some p =>
      obtain ⟨pn, i, hpn, hty, hi1, hk, h4, h5, h6⟩ := hg.parent_info ha hp
      have hin := hg.internal_good hpn hty
      by_cases hlt : 0 < i
      · obtain ⟨e1, e2⟩ := hin.sib_in (i - 1) (by omega)
        rw [show i - 1 + 1 = i by omega, hk] at e1 e2
        simp only [leftOf, Option.some_bind, ha, hr] at e2
        obtain ⟨c, cn, hc, hcn, _, g4, _, g6⟩ := hin.kids (i - 1) (by omega)
        rw [← e2] at hc; cases hc
        refine ⟨cn, hcn, ?_, by omega, ?_⟩
        · rw [← e2] at e1
          simpa only [rightOf, Option.some_bind, hcn] using e1
        · rw [g6, h5]; unfold lob hib
          rw [if_neg (by omega), if_neg (by omega)]
      · have hi2 : i = 0 := by omega
        subst hi2
        have e1 := hin.sib_left
        rw [hk] at e1
        simp only [leftOf, Option.some_bind, ha, hr] at e1
        cases hq : pn.left_sibling with
        | none => rw [hq] at e1; simp [lastKid] at e1
        | some q =>
          obtain ⟨qn, hqn, q1, q2, q3⟩ := ih p pn q (by omega) hpn hq
          rw [hq] at e1
          simp only [lastKid, Option.some_bind, hqn] at e1
          have hqt := hg.internal_of_kid hqn e1.symm
          have hqin := hg.internal_good hqn hqt
          obtain ⟨c, cn, hc, hcn, _, g4, _, g6⟩ := hqin.kids qn.size (by omega)
          rw [← e1] at hc; cases hc
          refine ⟨cn, hcn, ?_, by omega, ?_⟩
          · have e2 := hqin.sib_right
            rw [← e1, q1] at e2
            simpa only [rightOf, firstKid, Option.some_bind, hcn, hpn, hk] using e2
          · rw [g6, h5]; unfold lob hib
            rw [if_pos rfl, if_pos rfl]; exact q3

theorem type_of_lvl (hg : Good t lvl lo hi ov un) {a b : Nat} {n m : Node}
    (ha : t.heap a = some n) (hb : t.heap b = some m) (hl : lvl a = lvl b) : n.type = m.type := by
  rcases NodeType.cases_eq n.type with h1 | h1 <;> rcases NodeType.cases_eq m.type with h2 | h2
  · rw [h1, h2]
  · have := (hg.leaf_good ha h1).lvl0
    have := ((hg.nodes b m hb).internal h2).1
    omega
  · have := (hg.leaf_good hb h2).lvl0
    have := ((hg.nodes a n ha).internal h1).1
    omega
  · rw [h1, h2]

end Good


/-- The parent after `parent_insert` has stored the pair (key, curr), sorted the pairs and
redirected the next pair to the right half. -/
def link_node (pn : Node) (curr : Nat) (key : Int) (right_half : Nat) : Option Node :=
  (arr_set pn.key_ref (pn.size + 1) ⟨key, some curr⟩).map fun kr1 =>
    let pn2 := sort_entry_by_key { pn with size := pn.size + 1, key_ref := kr1 }
    let kr3 :=
      match (pn2.key_ref.take (pn2.size + 1)).findIdx? (fun kr => decide (key < kr.key)) with
      | some i => pn2.key_ref.modify (fun kr => { kr with reference := some right_half }) i
      | none => pn2.key_ref
    { pn2 with key_ref := kr3 }

theorem list_len5 {α : Type} (l : List α) (h : l.length = 5) :
    ∃ a b c d e, l = [a, b, c, d, e] := by
  match l, h with
  | [a, b, c, d, e], _ => exact ⟨a, b, c, d, e, rfl⟩

/-- The pairs of the parent after the link: the new pair at index `i`, the next pair
redirected, the dummy moved one index up. -/
def link_pairs (E : List KeyReferencePair) (s i : Nat) (key : Int) (curr rh : Nat) :
    List KeyReferencePair :=
  E.take i ++ ⟨key, some curr⟩ ::
    ((E.drop i).take 1).map (fun kr => { kr with reference := some rh }) ++
    (E.drop (i + 1)).take (s - i) ++ E.drop (s + 2)

/-- The parent after the link of a new pair at index `i`. -/
def link_res (pn : Node) (i : Nat) (key : Int) (curr rh : Nat) : Node :=
  { pn with size := pn.size + 1, key_ref := link_pairs pn.key_ref pn.size i key curr rh }

theorem link_node_eq (pn : Node) (hty : pn.type = NodeType.INTERNAL)
    (hlen : pn.key_ref.length = 5) (hs : pn.size ≤ 3)
    (i : Nat) (hi : i ≤ pn.size) (key : Int) (curr rh : Nat)
    (hsort : ∀ j k, j < k → k ≤ pn.size → pn.sep j < pn.sep k)
    (h1 : ∀ j, j < i → pn.sep j < key)
    (h2 : ∀ j, i ≤ j → j ≤ pn.size → key < pn.sep j) :
    link_node pn curr key rh = some (link_res pn i key curr rh) := by
  obtain ⟨e0, e1, e2, e3, e4, he⟩ := list_len5 pn.key_ref hlen
  have hsz : pn.size = 0 ∨ pn.size = 1 ∨ pn.size = 2 ∨ pn.size = 3 := by omega
  have s01 := hsort 0 1 (by omega)
  have s12 := hsort 1 2 (by omega)
  have s23 := hsort 2 3 (by omega)
  have a0 := h1 0
  have a1 := h1 1
  have a2 := h1 2
  have b0 := h2 0
  have b1 := h2 1
  have b2 := h2 2
  have b3 := h2 3
  simp only [Node.sep, he, List.get?_eq_getElem?, List.getElem?_cons_zero, List.getElem?_cons_succ,
    Option.map_some', Option.getD_some] at s01 s12 s23 a0 a1 a2 b0 b1 b2 b3
  rcases hsz with h | h | h | h
  · have hi0 : i = 0 := by omega
    subst hi0
    have p0 := b0 (by omega) (by omega)
    have q0 : ¬ e0.key ≤ key := by omega
    simp only [link_node, arr_set, he, h, sort_entry_by_key, hty, link_pairs, link_res]
    simp [List.insertionSort, List.orderedInsert, List.findIdx?_cons, p0, q0]
  · have hic : i = 0 ∨ i = 1 := by omega
    rcases hic with hi0 | hi0
    · subst hi0
      have p0 := b0 (by omega) (by omega)
      have q0 : ¬ e0.key ≤ key := by omega
      have p1 := b1 (by omega) (by omega)
      have q1 : ¬ e1.key ≤ key := by omega
      have ts01 := s01 (by omega)
      have l01 : e0.key ≤ e1.key := by omega
      simp only [link_node, arr_set, he, h, sort_entry_by_key, hty, link_pairs, link_res]
      simp [List.insertionSort, List.orderedInsert, List.findIdx?_cons, p0, q0, p1, q1, l01]
    · subst hi0
      have p0 := a0 (by omega)
      have q0 : e0.key ≤ key := by omega
      have r0 : ¬ key < e0.key := by omega
      have p1 := b1 (by omega) (by omega)
      have q1 : ¬ e1.key ≤ key := by omega
      have ts01 := s01 (by omega)
      have l01 : e0.key ≤ e1.key := by omega
      simp only [link_node, arr_set, he, h, sort_entry_by_key, hty, link_pairs, link_res]
      simp [List.insertionSort, List.orderedInsert, List.findIdx?_cons, q0, r0, p1, q1, l01]
  · have hic : i = 0 ∨ i = 1 ∨ i = 2 := by omega
    rcases hic with hi0 | hi0 | hi0
    · subst hi0
      have p0 := b0 (by omega) (by omega)
      have q0 : ¬ e0.key ≤ key := by omega
      have p1 := b1 (by omega) (by omega)
      have q1 : ¬ e1.key ≤ key := by omega
      have p2 := b2 (by omega) (by omega)
      have q2 : ¬ e2.key ≤ key := by omega
      have ts01 := s01 (by omega)
      have ts12 := s12 (by omega)
      have l01 : e0.key ≤ e1.key := by omega
      have l02 : e0.key ≤ e2.key := by omega
      have l12 : e1.key ≤ e2.key := by omega
      simp only [link_node, arr_set, he, h, sort_entry_by_key, hty, link_pairs, link_res]
      simp [List.insertionSort, List.orderedInsert, List.findIdx?_cons, p0, q0, p1, q1, p2, q2, l01, l02, l12]
    · subst hi0
      have p0 := a0 (by omega)
      have q0 : e0.key ≤ key := by omega
      have r0 : ¬ key < e0.key := by omega
      have p1 := b1 (by omega) (by omega)
      have q1 : ¬ e1.key ≤ key := by omega
      have p2 := b2 (by omega) (by omega)
      have q2 : ¬ e2.key ≤ key := by omega
      have ts01 := s01 (by omega)
      have ts12 := s12 (by omega)
      have l01 : e0.key ≤ e1.key := by omega
      have l02 : e0.key ≤ e2.key := by omega
      have l12 : e1.key ≤ e2.key := by omega
      simp only [link_node, arr_set, he, h, sort_entry_by_key, hty, link_pairs, link_res]
      simp [List.insertionSort, List.orderedInsert, List.findIdx?_cons, q0, r0, p1, q1, p2, q2, l01, l02, l12]
    · subst hi0
      have p0 := a0 (by omega)
      have q0 : e0.key ≤ key := by omega
      have r0 : ¬ key < e0.key := by omega
      have p1 := a1 (by omega)
      have q1 : e1.key ≤ key := by omega
      have r1 : ¬ key < e1.key := by omega
      have p2 := b2 (by omega) (by omega)
      have q2 : ¬ e2.key ≤ key := by omega
      have ts01 := s01 (by omega)
      have ts12 := s12 (by omega)
      have l01 : e0.key ≤ e1.key := by omega
      have l02 : e0.key ≤ e2.key := by omega
      have l12 : e1.key ≤ e2.key := by omega
      simp only [link_node, arr_set, he, h, sort_entry_by_key, hty, link_pairs, link_res]
      simp [List.insertionSort, List.orderedInsert, List.findIdx?_cons, q0, r0, q1, r1, p2, q2, l01, l02, l12]
  · have hic : i = 0 ∨ i = 1 ∨ i = 2 ∨ i = 3 := by omega
    rcases hic with hi0 | hi0 | hi0 | hi0
    · subst hi0
      have p0 := b0 (by omega) (by omega)
      have q0 : ¬ e0.key ≤ key := by omega
      have p1 := b1 (by omega) (by omega)
      have q1 : ¬ e1.key ≤ key := by omega
      have p2 := b2 (by omega) (by omega)
      have q2 : ¬ e2.key ≤ key := by omega
      have p3 := b3 (by omega) (by omega)
      have q3 : ¬ e3.key ≤ key := by omega
      have ts01 := s01 (by omega)
      have ts12 := s12 (by omega)
      have ts23 := s23 (by omega)
      have l01 : e0.key ≤ e1.key := by omega
      have l02 : e0.key ≤ e2.key := by omega
      have l03 : e0.key ≤ e3.key := by omega
      have l12 : e1.key ≤ e2.key := by omega
      have l13 : e1.key ≤ e3.key := by omega
      have l23 : e2.key ≤ e3.key := by omega
      simp only [link_node, arr_set, he, h, sort_entry_by_key, hty, link_pairs, link_res]
      simp [List.insertionSort, List.orderedInsert, List.findIdx?_cons, p0, q0, p1, q1, p2, q2, p3, q3, l01, l02, l03, l12, l13, l23]
    · subst hi0
      have p0 := a0 (by omega)
      have q0 : e0.key ≤ key := by omega
      have r0 : ¬ key < e0.key := by omega
      have p1 := b1 (by omega) (by omega)
      have q1 : ¬ e1.key ≤ key := by omega
      have p2 := b2 (by omega) (by omega)
      have q2 : ¬ e2.key ≤ key := by omega
      have p3 := b3 (by omega) (by omega)
      have q3 : ¬ e3.key ≤ key := by omega
      have ts01 := s01 (by omega)
      have ts12 := s12 (by omega)
      have ts23 := s23 (by omega)
      have l01 : e0.key ≤ e1.key := by omega
      have l02 : e0.key ≤ e2.key := by omega
      have l03 : e0.key ≤ e3.key := by omega
      have l12 : e1.key ≤ e2.key := by omega
      have l13 : e1.key ≤ e3.key := by omega
      have l23 : e2.key ≤ e3.key := by omega
      simp only [link_node, arr_set, he, h, sort_entry_by_key, hty, link_pairs, link_res]
      simp [List.insertionSort, List.orderedInsert, List.findIdx?_cons, q0, r0, p1, q1, p2, q2, p3, q3, l01, l02, l03, l12, l13, l23]
    · subst hi0
      have p0 := a0 (by omega)
      have q0 : e0.key ≤ key := by omega
      have r0 : ¬ key < e0.key := by omega
      have p1 := a1 (by omega)
      have q1 : e1.key ≤ key := by omega
      have r1 : ¬ key < e1.key := by omega
      have p2 := b2 (by omega) (by omega)
      have q2 : ¬ e2.key ≤ key := by omega
      have p3 := b3 (by omega) (by omega)
      have q3 : ¬ e3.key ≤ key := by omega
      have ts01 := s01 (by omega)
      have ts12 := s12 (by omega)
      have ts23 := s23 (by omega)
      have l01 : e0.key ≤ e1.key := by omega
      have l02 : e0.key ≤ e2.key := by omega
      have l03 : e0.key ≤ e3.key := by omega
      have l12 : e1.key ≤ e2.key := by omega
      have l13 : e1.key ≤ e3.key := by omega
      have l23 : e2.key ≤ e3.key := by omega
      simp only [link_node, arr_set, he, h, sort_entry_by_key, hty, link_pairs, link_res]
      simp [List.insertionSort, List.orderedInsert, List.findIdx?_cons, q0, r0, q1, r1, p2, q2, p3, q3, l01, l02, l03, l12, l13, l23]
    · subst hi0
      have p0 := a0 (by omega)
      have q0 : e0.key ≤ key := by omega
      have r0 : ¬ key < e0.key := by omega
      have p1 := a1 (by omega)
      have q1 : e1.key ≤ key := by omega
      have r1 : ¬ key < e1.key := by omega
      have p2 := a2 (by omega)
      have q2 : e2.key ≤ key := by omega
      have r2 : ¬ key < e2.key := by omega
      have p3 := b3 (by omega) (by omega)
      have q3 : ¬ e3.key ≤ key := by omega
      have ts01 := s01 (by omega)
      have ts12 := s12 (by omega)
      have ts23 := s23 (by omega)
      have l01 : e0.key ≤ e1.key := by omega
      have l02 : e0.key ≤ e2.key := by omega
      have l03 : e0.key ≤ e3.key := by omega
      have l12 : e1.key ≤ e2.key := by omega
      have l13 : e1.key ≤ e3.key := by omega
      have l23 : e2.key ≤ e3.key := by omega
      simp only [link_node, arr_set, he, h, sort_entry_by_key, hty, link_pairs, link_res]
      simp [List.insertionSort, List.orderedInsert, List.findIdx?_cons, q0, r0, q1, r1, q2, r2, p3, q3, l01, l02, l03, l12, l13, l23]


theorem link_res_sep (pn : Node) (hlen : pn.key_ref.length = 5) (hs : pn.size ≤ 3)
    (i : Nat) (hi : i ≤ pn.size) (key : Int) (curr rh : Nat) (j : Nat) (hj : j ≤ pn.size + 1) :
    (link_res pn i key curr rh).sep j = if j < i then pn.sep j else if j = i then key else pn.sep (j - 1) := by
  obtain ⟨e0, e1, e2, e3, e4, he⟩ := list_len5 pn.key_ref hlen
  have hsz : pn.size = 0 ∨ pn.size = 1 ∨ pn.size = 2 ∨ pn.size = 3 := by omega
  rcases hsz with h | h | h | h <;> rw [h] at hi hj
  · have hic : i = 0 := by omega
    have hjc : j = 0 ∨ j = 1 := by omega
    subst hic
    rcases hjc with hj0 | hj0 <;> subst hj0 <;>
      simp [link_res, link_pairs, Node.sep, he, h]
  · have hic : i = 0 ∨ i = 1 := by omega
    have hjc : j = 0 ∨ j = 1 ∨ j = 2 := by omega
    rcases hic with hi0 | hi0 <;> rcases hjc with hj0 | hj0 | hj0 <;> subst hi0 <;> subst hj0 <;>
      simp [link_res, link_pairs, Node.sep, he, h]
  · have hic : i = 0 ∨ i = 1 ∨ i = 2 := by omega
    have hjc : j = 0 ∨ j = 1 ∨ j = 2 ∨ j = 3 := by omega
    rcases hic with hi0 | hi0 | hi0 <;> rcases hjc with hj0 | hj0 | hj0 | hj0 <;> subst hi0 <;> subst hj0 <;>
      simp [link_res, link_pairs, Node.sep, he, h]
  · have hic : i = 0 ∨ i = 1 ∨ i = 2 ∨ i = 3 := by omega
    have hjc : j = 0 ∨ j = 1 ∨ j = 2 ∨ j = 3 ∨ j = 4 := by omega
    rcases hic with hi0 | hi0 | hi0 | hi0 <;> rcases hjc with hj0 | hj0 | hj0 | hj0 | hj0 <;> subst hi0 <;> subst hj0 <;>
      simp [link_res, link_pairs, Node.sep, he, h]

theorem link_res_kid (pn : Node) (hlen : pn.key_ref.length = 5) (hs : pn.size ≤ 3)
    (i : Nat) (hi : i ≤ pn.size) (key : Int) (curr rh : Nat) (j : Nat) (hj : j ≤ pn.size + 1) :
    (link_res pn i key curr rh).kid j = if j < i then pn.kid j else if j = i then some curr
      else if j = i + 1 then some rh else pn.kid (j - 1) := by
  obtain ⟨e0, e1, e2, e3, e4, he⟩ := list_len5 pn.key_ref hlen
  have hsz : pn.size = 0 ∨ pn.size = 1 ∨ pn.size = 2 ∨ pn.size = 3 := by omega
  rcases hsz with h | h | h | h <;> rw [h] at hi hj
  · have hic : i = 0 := by omega
    have hjc : j = 0 ∨ j = 1 := by omega
    subst hic
    rcases hjc with hj0 | hj0 <;> subst hj0 <;>
      simp [link_res, link_pairs, Node.kid, he, h]
  · have hic : i = 0 ∨ i = 1 := by omega
    have hjc : j = 0 ∨ j = 1 ∨ j = 2 := by omega
    rcases hic with hi0 | hi0 <;> rcases hjc with hj0 | hj0 | hj0 <;> subst hi0 <;> subst hj0 <;>
      simp [link_res, link_pairs, Node.kid, he, h]
  · have hic : i = 0 ∨ i = 1 ∨ i = 2 := by omega
    have hjc : j = 0 ∨ j = 1 ∨ j = 2 ∨ j = 3 := by omega
    rcases hic with hi0 | hi0 | hi0 <;> rcases hjc with hj0 | hj0 | hj0 | hj0 <;> subst hi0 <;> subst hj0 <;>
      simp [link_res, link_pairs, Node.kid, he, h]
  · have hic : i = 0 ∨ i = 1 ∨ i = 2 ∨ i = 3 := by omega
    have hjc : j = 0 ∨ j = 1 ∨ j = 2 ∨ j = 3 ∨ j = 4 := by omega
    rcases hic with hi0 | hi0 | hi0 | hi0 <;> rcases hjc with hj0 | hj0 | hj0 | hj0 | hj0 <;> subst hi0 <;> subst hj0 <;>
      simp [link_res, link_pairs, Node.kid, he, h]

theorem link_res_len (pn : Node) (hlen : pn.key_ref.length = 5) (hs : pn.size ≤ 3)
    (i : Nat) (hi : i ≤ pn.size) (key : Int) (curr rh : Nat) :
    (link_res pn i key curr rh).key_ref.length = 5 := by
  simp only [link_res, link_pairs, List.length_append, List.length_take, List.length_cons,
    List.length_map, List.length_drop, hlen]
  omega


theorem LeafGood.weaken {root : Nat} {ov un : Option Nat} {a : Nat} {n : Node} {lv : Nat}
    {lo hi : Int} (h : LeafGood root none none a n lv lo hi) :
    LeafGood root ov un a n lv lo hi := by
  constructor
  · exact h.lvl0
  · exact h.len
  · exact h.noref
  · rcases h.size_le with h1 | h1
    · exact Or.inl h1
    · simp at h1
  · rcases h.size_ge with h1 | h1 | h1
    · exact Or.inl h1
    · exact Or.inr (Or.inl h1)
    · simp at h1
  · exact h.sorted
  · exact h.range

/-- The invariant of an unchanged node carries over to a new store and new ghost values when
what it reads of its parent, its children and its siblings is as before. -/
theorem NodeGood.frame {h g : Nat → Option Node} {root root2 : Nat} {lvl lvl2 : Nat → Nat}
    {lo hi lo2 hi2 : Nat → Int} {ov un : Option Nat} {b : Nat} {n : Node}
    (old : NodeGood h root lvl lo hi none none b n)
    (hroot : n.parent = none → b = root2) (hroot2 : b = root → b = root2)
    (hpar : ∀ q, n.parent = some q → ∃ qn, g q = some qn ∧ qn.type = NodeType.INTERNAL ∧
      ∃ j, j ≤ qn.size ∧ qn.kid j = some b)
    (hlvl : lvl2 b ≤ lvl2 root2)
    (hl : lvl2 b = lvl b) (hlo : lo2 b = lo b) (hhi : hi2 b = hi b)
    (hkids : n.type = NodeType.INTERNAL → ∀ j c, j ≤ n.size → n.kid j = some c →
      ∃ cn, g c = some cn ∧ cn.parent = some b ∧ lvl2 c = lvl c ∧ lo2 c = lo c ∧ hi2 c = hi c)
    (hsib : n.type = NodeType.INTERNAL → ∀ j, j < n.size →
      rightOf g (n.kid j) = rightOf h (n.kid j) ∧
      leftOf g (n.kid (j + 1)) = leftOf h (n.kid (j + 1)))
    (hleft : n.type = NodeType.INTERNAL → leftOf g (n.kid 0) = lastKid g n.left_sibling)
    (hright : n.type = NodeType.INTERNAL →
      rightOf g (n.kid n.size) = firstKid g n.right_sibling) :
    NodeGood g root2 lvl2 lo2 hi2 ov un b n := by
  constructor
  · exact hroot
  · exact hpar
  · exact hlvl
  · intro hty
    rw [hl, hlo, hhi]
    have o := old.leaf hty
    constructor
    · exact o.lvl0
    · exact o.len
    · exact o.noref
    · rcases o.size_le with h1 | h1
      · exact Or.inl h1
      · simp at h1
    · rcases o.size_ge with h1 | h1 | h1
      · exact Or.inl (hroot2 h1)
      · exact Or.inr (Or.inl h1)
      · simp at h1
    · exact o.sorted
    · exact o.range
  · intro hty
    obtain ⟨o1, o⟩ := old.internal hty
    refine ⟨by omega, ?_⟩
    constructor
    · exact o.len
    · rcases o.size_le with h1 | h1
      · exact Or.inl h1
      · simp at h1
    · rcases o.size_ge with h1 | h1
      · exact Or.inl h1
      · simp at h1
    · exact o.sep_sorted
    · rw [hlo]; exact o.sep_lo
    · rw [hhi]; exact o.sep_hi
    · exact o.sep_max
    · exact o.dummy
    · intro j hj
      obtain ⟨c, cn, h1, h2, h3, h4, h5, h6⟩ := o.kids j hj
      obtain ⟨dn, g1, g2, g3, g4, g5⟩ := hkids hty j c hj h1
      exact ⟨c, dn, h1, g1, g2, by omega, by rw [g4, hlo]; exact h5, by rw [g5, hhi]; exact h6⟩
    · exact o.kid_inj
    · intro j hj
      rw [(hsib hty j hj).1, (hsib hty j hj).2]
      exact o.sib_in j hj
    · exact hleft hty
    · exact hright hty


theorem NodeGood.drop_exc {h : Nat → Option Node} {root : Nat} {lvl : Nat → Nat}
    {lo hi : Nat → Int} {ov un : Option Nat} {b : Nat} {n : Node}
    (old : NodeGood h root lvl lo hi ov un b n) (h1 : ov ≠ some b) (h2 : un ≠ some b) :
    NodeGood h root lvl lo hi none none b n := by
  constructor
  · exact old.is_root
  · exact old.has_parent
  · exact old.lvl_le
  · intro hty
    have o := old.leaf hty
    constructor
    · exact o.lvl0
    · exact o.len
    · exact o.noref
    · rcases o.size_le with g | g
      · exact Or.inl g
      · exact absurd g.2 h1
    · rcases o.size_ge with g | g | g
      · exact Or.inl g
      · exact Or.inr (Or.inl g)
      · exact absurd g.2 h2
    · exact o.sorted
    · exact o.range
  · intro hty
    obtain ⟨o1, o⟩ := old.internal hty
    refine ⟨o1, ?_⟩
    constructor
    · exact o.len
    · rcases o.size_le with g | g
      · exact Or.inl g
      · exact absurd g.2 h1
    · rcases o.size_ge with g | g
      · exact Or.inl g
      · exact absurd g h2
    · exact o.sep_sorted
    · exact o.sep_lo
    · exact o.sep_hi
    · exact o.sep_max
    · exact o.dummy
    · exact o.kids
    · exact o.kid_inj
    · exact o.sib_in
    · exact o.sib_left
    · exact o.sib_right

namespace Good

variable {t : SeqBPlusTree} {lvl : Nat → Nat} {lo hi : Nat → Int} {ov un : Option Nat}

/-- A child slot determines the parent pointer. -/
theorem kid_parent (hg : Good t lvl lo hi ov un) {a c : Nat} {n cn : Node} {j : Nat}
    (ha : t.heap a = some n) (hj : j ≤ n.size) (hk : n.kid j = some c)
    (hc : t.heap c = some cn) : cn.parent = some a ∧ lvl c + 1 = lvl a := by
  have hty := hg.internal_of_kid ha hk
  obtain ⟨c2, cn2, h1, h2, h3, h4, _⟩ := (hg.internal_good ha hty).kids j hj
  rw [hk] at h1; cases h1
  rw [hc] at h2; cases h2
  exact ⟨h3, h4⟩

theorem kid_live (hg : Good t lvl lo hi ov un) {a c : Nat} {n : Node} {j : Nat}
    (ha : t.heap a = some n) (hj : j ≤ n.size) (hk : n.kid j = some c) :
    ∃ cn, t.heap c = some cn ∧ cn.parent = some a ∧ lvl c + 1 = lvl a ∧
      lo c = lob n (lo a) j ∧ hi c = hib n (hi a) j := by
  have hty := hg.internal_of_kid ha hk
  obtain ⟨c2, cn2, h1, h2, h3, h4, h5⟩ := (hg.internal_good ha hty).kids j hj
  rw [hk] at h1; cases h1
  exact ⟨cn2, h2, h3, h4, h5⟩

/-- The key range of a live node is not empty when it holds a key or a separator. -/
theorem sep_between (hg : Good t lvl lo hi ov un) {a : Nat} {n : Node}
    (ha : t.heap a = some n) (hty : n.type = NodeType.INTERNAL) (j : Nat) (hj : j ≤ n.size) :
    lo a ≤ lob n (lo a) j ∧ hib n (hi a) j ≤ hi a := by
  have hin := hg.internal_good ha hty
  unfold lob hib
  constructor
  · split
    · exact le_refl _
    · exact le_of_lt (hin.sep_lo _ (by omega))
  · split
    · exact le_refl _
    · exact le_of_lt (hin.sep_hi _ (by omega))

end Good


/-- The result of one split below an existing parent: node `x` (with node `c` before) is
split at key `m` into `x` (now `X`) and the new node `rh` (`R`); the parent `p` (`pn` before)
gets the pair for `rh`; the right sibling of `x` points back to `rh`; the children in `D`
moved to `rh`. -/
structure SplitStep (t s : SeqBPlusTree) (lvl : Nat → Nat) (lo hi : Nat → Int)
    (un : Option Nat) (x p rh : Nat) (c pn X R : Node) (i : Nat) (m : Int) (D : Nat → Prop) : Prop where
  good : Good t lvl lo hi (some x) un
  hun : un = none ∨ un = some p
  prange : lo p < hi p
  hx : t.heap x = some c
  hcp : c.parent = some p
  hpn : t.heap p = some pn
  hi1 : i ≤ pn.size
  hk : pn.kid i = some x
  hfree : t.heap rh = none
  hm1 : lo x < m
  hm2 : m < hi x
  hm3 : m < INT_MAX
  root_eq : s.root = t.root
  next_le : t.next ≤ s.next
  rh_lt : rh < s.next
  depth_eq : s.depth = t.depth
  hP : s.heap p = some (link_res pn i m x rh)
  hX : s.heap x = some X
  hR : s.heap rh = some R
  hRS : ∀ rs, c.right_sibling = some rs → ∃ rsn, t.heap rs = some rsn ∧
    s.heap rs = some { rsn with left_sibling := some rh }
  hD : ∀ d, D d → ∃ dn, t.heap d = some dn ∧ s.heap d = some { dn with parent := some rh }
  hO : ∀ a, a ≠ p → a ≠ x → a ≠ rh → c.right_sibling ≠ some a → ¬ D a → s.heap a = t.heap a
  Xty : X.type = c.type
  Rty : R.type = c.type
  Xpar : X.parent = some p
  Rpar : R.parent = some p
  Xleft : X.left_sibling = c.left_sibling
  Xright : X.right_sibling = some rh
  Rleft : R.left_sibling = some x
  Rright : R.right_sibling = c.right_sibling
  Xfirst : X.kid 0 = c.kid 0
  Rlast : R.kid R.size = c.kid c.size
  Xkid : ∀ a j, j ≤ c.size → c.kid j = some a → ¬ D a → ∃ j2, j2 ≤ X.size ∧ X.kid j2 = some a
  Dkid : ∀ d, D d → (∃ j, j ≤ R.size ∧ R.kid j = some d) ∧ ∃ j, j ≤ c.size ∧ c.kid j = some d
  Xleaf : c.type = NodeType.LEAF → LeafGood t.root none none x X 0 (lo x) m
  Rleaf : c.type = NodeType.LEAF → LeafGood t.root none none rh R 0 m (hi x)
  Xint : c.type = NodeType.INTERNAL → InternalGood s.heap (Function.update lvl rh (lvl x))
    (Function.update lo rh m) (Function.update (Function.update hi rh (hi x)) x m)
    none none x X
  Rint : c.type = NodeType.INTERNAL → InternalGood s.heap (Function.update lvl rh (lvl x))
    (Function.update lo rh m) (Function.update (Function.update hi rh (hi x)) x m)
    none none rh R

namespace SplitStep

variable {t s : SeqBPlusTree} {lvl : Nat → Nat} {lo hi : Nat → Int} {un : Option Nat}
  {x p rh : Nat} {c pn X R : Node} {i : Nat} {m : Int} {D : Nat → Prop}

theorem facts (st : SplitStep t s lvl lo hi un x p rh c pn X R i m D) :
    pn.type = NodeType.INTERNAL ∧ lvl x + 1 = lvl p ∧ lo x = lob pn (lo p) i ∧
    hi x = hib pn (hi p) i ∧ pn.size ≤ 3 ∧ pn.key_ref.length = 5 ∧ t.heap rh = none ∧
    p ≠ x ∧ p ≠ rh ∧ x ≠ rh ∧ InternalGood t.heap lvl lo hi none un p pn := by
  obtain ⟨pn2, i2, h1, h2, h3, h4, h5, h6, h7⟩ := st.good.parent_info st.hx st.hcp
  rw [st.hpn] at h1; cases h1
  have hin := st.good.internal_good st.hpn h2
  have hie : i2 = i := hin.kid_inj i2 i h3 st.hi1 (by rw [h4, st.hk])
  subst hie
  have hpx : p ≠ x := by intro h; rw [h] at h5; omega
  have hfresh : t.heap rh = none := st.hfree
  have hprh : p ≠ rh := by intro h; rw [← h, st.hpn] at hfresh; cases hfresh
  have hxrh : x ≠ rh := by intro h; rw [← h, st.hx] at hfresh; cases hfresh
  have hsz : pn.size ≤ 3 := by
    rcases hin.size_le with g | g
    · simpa only [ORDER] using g
    · exact absurd (Option.some.inj g.2).symm hpx
  have hin2 : InternalGood t.heap lvl lo hi none un p pn := by
    constructor
    · exact hin.len
    · left; simpa only [ORDER] using hsz
    · exact hin.size_ge
    · exact hin.sep_sorted
    · exact hin.sep_lo
    · exact hin.sep_hi
    · exact hin.sep_max
    · exact hin.dummy
    · exact hin.kids
    · exact hin.kid_inj
    · exact hin.sib_in
    · exact hin.sib_left
    · exact hin.sib_right
  exact ⟨h2, h5, h6, h7, hsz, hin.len, hfresh, hpx, hprh, hxrh, hin2⟩

end SplitStep


namespace SplitStep

variable {t s : SeqBPlusTree} {lvl : Nat → Nat} {lo hi : Nat → Int} {un : Option Nat}
  {x p rh : Nat} {c pn X R : Node} {i : Nat} {m : Int} {D : Nat → Prop}

theorem link_fields (pn : Node) (i : Nat) (m : Int) (x rh : Nat) :
    (link_res pn i m x rh).type = pn.type ∧ (link_res pn i m x rh).parent = pn.parent ∧
    (link_res pn i m x rh).left_sibling = pn.left_sibling ∧
    (link_res pn i m x rh).right_sibling = pn.right_sibling ∧
    (link_res pn i m x rh).size = pn.size + 1 := ⟨rfl, rfl, rfl, rfl, rfl⟩

theorem rs_facts (st : SplitStep t s lvl lo hi un x p rh c pn X R i m D) {rs : Nat}
    (hrs : c.right_sibling = some rs) :
    ∃ rsn, t.heap rs = some rsn ∧ rsn.left_sibling = some x ∧ lvl rs = lvl x ∧
      lo rs = hi x ∧ rs ≠ x ∧ rs ≠ p ∧ rs ≠ rh ∧ ¬ D rs ∧
      s.heap rs = some { rsn with left_sibling := some rh } := by
  obtain ⟨f1, f2, f3, f4, f5, f6, f7, f8, f9, f10, f11⟩ := st.facts
  obtain ⟨rsn, h1, h2, h3, h4⟩ := st.good.right_info _ x c rs rfl st.hx hrs
  obtain ⟨rsn2, g1, g2⟩ := st.hRS rs hrs
  rw [h1] at g1; cases g1
  refine ⟨rsn, h1, h2, h3, h4, ?_, ?_, ?_, ?_, g2⟩
  · intro h; rw [h] at h4; have := st.hm1; have := st.hm2; omega
  · intro h; rw [h] at h3; omega
  · intro h; rw [h, f7] at h1; cases h1
  · intro hd
    obtain ⟨_, j, hj, hkj⟩ := st.Dkid rs hd
    have := (st.good.kid_parent st.hx hj hkj h1).2
    omega

theorem d_facts (st : SplitStep t s lvl lo hi un x p rh c pn X R i m D) {d : Nat} (hd : D d) :
    ∃ dn, t.heap d = some dn ∧ dn.parent = some x ∧ lvl d + 1 = lvl x ∧ d ≠ x ∧ d ≠ p ∧
      d ≠ rh ∧ c.right_sibling ≠ some d ∧ s.heap d = some { dn with parent := some rh } := by
  obtain ⟨f1, f2, f3, f4, f5, f6, f7, f8, f9, f10, f11⟩ := st.facts
  obtain ⟨dn, h1, h2⟩ := st.hD d hd
  obtain ⟨_, j, hj, hkj⟩ := st.Dkid d hd
  obtain ⟨g1, g2⟩ := st.good.kid_parent st.hx hj hkj h1
  refine ⟨dn, h1, g1, g2, ?_, ?_, ?_, ?_, h2⟩
  · intro h; rw [h] at g2; omega
  · intro h; rw [h] at g2; omega
  · intro h; rw [h, f7] at h1; cases h1
  · intro h
    obtain ⟨_, _, _, _, _, _, _, _, h9, _⟩ := st.rs_facts h
    exact h9 hd

/-- What the step leaves of an old node. -/
theorem summary (st : SplitStep t s lvl lo hi un x p rh c pn X R i m D) {a : Nat} {an : Node}
    (ha : t.heap a = some an) :
    ∃ bn, s.heap a = some bn ∧ bn.type = an.type ∧
      bn.right_sibling = (if a = x then some rh else an.right_sibling) ∧
      bn.left_sibling = (if c.right_sibling = some a then some rh else an.left_sibling) ∧
      (¬ D a → bn.parent = an.parent) ∧ (D a → bn.parent = some rh) ∧
      bn.kid 0 = an.kid 0 ∧
      (a ≠ x → a ≠ p → bn.size = an.size ∧ bn.key_ref = an.key_ref ∧
        bn.key_value = an.key_value) ∧
      (a ≠ x → a ≠ p → c.right_sibling ≠ some a → ¬ D a → bn = an) := by
  obtain ⟨f1, f2, f3, f4, f5, f6, f7, f8, f9, f10, f11⟩ := st.facts
  have harh : a ≠ rh := by intro h; rw [h, f7] at ha; cases ha
  by_cases hax : a = x
  · subst hax
    rw [st.hx] at ha; cases ha
    have hnrs : c.right_sibling ≠ some a := by
      intro h; obtain ⟨_, _, _, _, _, h5, _⟩ := st.rs_facts h; exact h5 rfl
    have hnd : ¬ D a := by
      intro h; obtain ⟨_, _, _, _, h5, _⟩ := st.d_facts h; exact h5 rfl
    refine ⟨X, st.hX, st.Xty, by rw [if_pos rfl]; exact st.Xright,
      by rw [if_neg hnrs]; exact st.Xleft, fun _ => by rw [st.Xpar, st.hcp],
      fun h => absurd h hnd, st.Xfirst, fun h => absurd rfl h, fun h => absurd rfl h⟩
  by_cases hap : a = p
  · subst hap
    rw [st.hpn] at ha; cases ha
    have hnrs : c.right_sibling ≠ some a := by
      intro h; obtain ⟨_, _, _, _, _, _, h6, _⟩ := st.rs_facts h; exact h6 rfl
    have hnd : ¬ D a := by
      intro h; obtain ⟨_, _, _, _, _, h6, _⟩ := st.d_facts h; exact h6 rfl
    refine ⟨_, st.hP, rfl, by rw [if_neg hax]; rfl, by rw [if_neg hnrs]; rfl,
      fun _ => rfl, fun h => absurd h hnd, ?_, fun _ h => absurd rfl h,
      fun _ h => absurd rfl h⟩
    rw [link_res_kid pn f6 f5 i st.hi1 m x rh 0 (by omega)]
    by_cases hi0 : i = 0
    · subst hi0; simp [st.hk]
    · rw [if_pos (by omega)]
  by_cases hars : c.right_sibling = some a
  · obtain ⟨rsn, h1, h2, h3, h4, h5, h6, h7, h8, h9⟩ := st.rs_facts hars
    rw [ha] at h1; cases h1
    refine ⟨_, h9, rfl, by rw [if_neg hax], by rw [if_pos hars], fun _ => rfl,
      fun h => absurd h h8, rfl, fun _ _ => ⟨rfl, rfl, rfl⟩, fun _ _ h => absurd hars h⟩
  by_cases had : D a
  · obtain ⟨dn, h1, h2, h3, h4, h5, h6, h7, h8⟩ := st.d_facts had
    rw [ha] at h1; cases h1
    refine ⟨_, h8, rfl, by rw [if_neg hax], by rw [if_neg hars], fun h => absurd had h,
      fun _ => rfl, rfl, fun _ _ => ⟨rfl, rfl, rfl⟩, fun _ _ _ h => absurd had h⟩
  · have := st.hO a hap hax harh hars had
    rw [ha] at this
    exact ⟨an, this, rfl, by rw [if_neg hax], by rw [if_neg hars], fun _ => rfl,
      fun h => absurd h had, rfl, fun _ _ => ⟨rfl, rfl, rfl⟩, fun _ _ _ _ => rfl⟩

end SplitStep


namespace SplitStep

variable {t s : SeqBPlusTree} {lvl : Nat → Nat} {lo hi : Nat → Int} {un : Option Nat}
  {x p rh : Nat} {c pn X R : Node} {i : Nat} {m : Int} {D : Nat → Prop}

theorem leftOf_s (st : SplitStep t s lvl lo hi un x p rh c pn X R i m D) {a : Nat} {an : Node}
    (ha : t.heap a = some an) :
    leftOf s.heap (some a) =
      if c.right_sibling = some a then some rh else leftOf t.heap (some a) := by
  obtain ⟨bn, h1, _, _, h4, _⟩ := st.summary ha
  simp only [leftOf, Option.some_bind, h1, ha, h4]

theorem rightOf_s (st : SplitStep t s lvl lo hi un x p rh c pn X R i m D) {a : Nat} {an : Node}
    (ha : t.heap a = some an) :
    rightOf s.heap (some a) = if a = x then some rh else rightOf t.heap (some a) := by
  obtain ⟨bn, h1, _, h3, _⟩ := st.summary ha
  simp only [rightOf, Option.some_bind, h1, ha, h3]

theorem firstKid_s (st : SplitStep t s lvl lo hi un x p rh c pn X R i m D) {a : Nat} {an : Node}
    (ha : t.heap a = some an) : firstKid s.heap (some a) = firstKid t.heap (some a) := by
  obtain ⟨bn, h1, _, _, _, _, _, h7, _⟩ := st.summary ha
  simp only [firstKid, Option.some_bind, h1, ha, h7]

theorem lastKid_s (st : SplitStep t s lvl lo hi un x p rh c pn X R i m D) {a : Nat} {an : Node}
    (ha : t.heap a = some an) (hax : a ≠ x) (hap : a ≠ p) :
    lastKid s.heap (some a) = lastKid t.heap (some a) := by
  obtain ⟨bn, h1, _, _, _, _, _, _, h8, _⟩ := st.summary ha
  obtain ⟨g1, g2, _⟩ := h8 hax hap
  simp only [lastKid, Option.some_bind, h1, ha, Node.kid, g1, g2]

/-- The separators of the parent left of the slot of `x` are below the median, the others
above. -/
theorem sep_sides (st : SplitStep t s lvl lo hi un x p rh c pn X R i m D) :
    (∀ j, j < i → pn.sep j < m) ∧ (∀ j, i ≤ j → j ≤ pn.size → m < pn.sep j) ∧
    (∀ j k, j < k → k ≤ pn.size → pn.sep j < pn.sep k) := by
  obtain ⟨f1, f2, f3, f4, f5, f6, f7, f8, f9, f10, hin⟩ := st.facts
  have hm1 := st.hm1
  have hm2 := st.hm2
  have hm3 := st.hm3
  have hd := hin.dummy
  have hsrt : ∀ j k, j < k → k ≤ pn.size → pn.sep j < pn.sep k := by
    intro j k hjk hk
    by_cases hks : k = pn.size
    · rw [hks, hd]; exact hin.sep_max j (by omega)
    · exact hin.sep_sorted j k hjk (by omega)
  refine ⟨?_, ?_, hsrt⟩
  · intro j hj
    have e : lo x = pn.sep (i - 1) := by rw [f3]; unfold lob; rw [if_neg (by omega)]
    by_cases hji : j = i - 1
    · rw [hji]; omega
    · have := hsrt j (i - 1) (by omega) (by have := st.hi1; omega)
      omega
  · intro j hj hjs
    by_cases his : i = pn.size
    · have : j = pn.size := by omega
      rw [this, hd]; exact hm3
    · have e : hi x = pn.sep i := by rw [f4]; unfold hib; rw [if_neg his]
      by_cases hji : j = i
      · rw [hji]; omega
      · have := hsrt i j (by omega) hjs
        omega

end SplitStep


theorem InternalGood.widen {h : Nat → Option Node} {lvl : Nat → Nat} {lo hi : Nat → Int}
    {ov un : Option Nat} {a : Nat} {n : Node} (o : InternalGood h lvl lo hi none none a n) :
    InternalGood h lvl lo hi ov un a n := by
  constructor
  · exact o.len
  · rcases o.size_le with g | g
    · exact Or.inl g
    · simp at g
  · rcases o.size_ge with g | g
    · exact Or.inl g
    · simp at g
  · exact o.sep_sorted
  · exact o.sep_lo
  · exact o.sep_hi
  · exact o.sep_max
  · exact o.dummy
  · exact o.kids
  · exact o.kid_inj
  · exact o.sib_in
  · exact o.sib_left
  · exact o.sib_right

namespace SplitStep

variable {t s : SeqBPlusTree} {lvl : Nat → Nat} {lo hi : Nat → Int} {un : Option Nat}
  {x p rh : Nat} {c pn X R : Node} {i : Nat} {m : Int} {D : Nat → Prop}

/-- The separators of the parent after the link. -/
theorem parent_sep (st : SplitStep t s lvl lo hi un x p rh c pn X R i m D) (j : Nat)
    (hj : j ≤ pn.size + 1) :
    (link_res pn i m x rh).sep j =
      if j < i then pn.sep j else if j = i then m else pn.sep (j - 1) := by
  obtain ⟨f1, f2, f3, f4, f5, f6, f7, f8, f9, f10, f11⟩ := st.facts
  exact link_res_sep pn f6 f5 i st.hi1 m x rh j hj

/-- The children of the parent after the link. -/
theorem parent_kid (st : SplitStep t s lvl lo hi un x p rh c pn X R i m D) (j : Nat)
    (hj : j ≤ pn.size + 1) :
    (link_res pn i m x rh).kid j =
      if j < i then pn.kid j else if j = i then some x
      else if j = i + 1 then some rh else pn.kid (j - 1) := by
  obtain ⟨f1, f2, f3, f4, f5, f6, f7, f8, f9, f10, f11⟩ := st.facts
  exact link_res_kid pn f6 f5 i st.hi1 m x rh j hj

theorem parent_sorted (st : SplitStep t s lvl lo hi un x p rh c pn X R i m D) (j k : Nat)
    (hjk : j < k) (hk : k ≤ pn.size + 1) :
    (link_res pn i m x rh).sep j < (link_res pn i m x rh).sep k := by
  obtain ⟨h1, h2, hs⟩ := st.sep_sides
  have hi1 := st.hi1
  rw [st.parent_sep j (by omega), st.parent_sep k hk]
  split_ifs <;>
    first
    | omega
    | exact hs _ _ (by omega) (by omega)
    | exact h1 _ (by omega)
    | exact h2 _ (by omega) (by omega)

theorem parent_bounds (st : SplitStep t s lvl lo hi un x p rh c pn X R i m D) (j : Nat)
    (hj : j < pn.size + 1) :
    lo p < (link_res pn i m x rh).sep j ∧ (link_res pn i m x rh).sep j < hi p ∧
    (link_res pn i m x rh).sep j < INT_MAX := by
  obtain ⟨f1, f2, f3, f4, f5, f6, f7, f8, f9, f10, hin⟩ := st.facts
  have hi1 := st.hi1
  have hm1 := st.hm1
  have hm2 := st.hm2
  have hm3 := st.hm3
  rw [st.parent_sep j (by omega)]
  by_cases c1 : j < i
  · rw [if_pos c1]
    exact ⟨hin.sep_lo j (by omega), hin.sep_hi j (by omega), hin.sep_max j (by omega)⟩
  · rw [if_neg c1]
    by_cases c2 : j = i
    · rw [if_pos c2]
      refine ⟨?_, ?_, hm3⟩
      · rw [f3] at hm1
        unfold lob at hm1
        split_ifs at hm1
        · exact hm1
        · have := hin.sep_lo (i - 1) (by omega); omega
      · rw [f4] at hm2
        unfold hib at hm2
        split_ifs at hm2
        · exact hm2
        · have := hin.sep_hi i (by omega); omega
    · rw [if_neg c2]
      exact ⟨hin.sep_lo _ (by omega), hin.sep_hi _ (by omega), hin.sep_max _ (by omega)⟩

theorem parent_dummy (st : SplitStep t s lvl lo hi un x p rh c pn X R i m D) :
    (link_res pn i m x rh).sep (pn.size + 1) = INT_MAX := by
  obtain ⟨f1, f2, f3, f4, f5, f6, f7, f8, f9, f10, hin⟩ := st.facts
  have hi1 := st.hi1
  rw [st.parent_sep _ (Nat.le_refl _), if_neg (by omega), if_neg (by omega)]
  exact hin.dummy

end SplitStep


namespace SplitStep

variable {t s : SeqBPlusTree} {lvl : Nat → Nat} {lo hi : Nat → Int} {un : Option Nat}
  {x p rh : Nat} {c pn X R : Node} {i : Nat} {m : Int} {D : Nat → Prop}

/-- The range of the parent is not empty. -/
theorem parent_range (st : SplitStep t s lvl lo hi un x p rh c pn X R i m D) : lo p < hi p := by
  exact st.prange

/-- The left sibling of the parent is not the parent, nor the split node. -/
theorem parent_left (st : SplitStep t s lvl lo hi un x p rh c pn X R i m D) {q : Nat}
    (hq : pn.left_sibling = some q) :
    ∃ qn, t.heap q = some qn ∧ q ≠ p ∧ q ≠ x ∧ lvl q = lvl p := by
  obtain ⟨f1, f2, f3, f4, f5, f6, f7, f8, f9, f10, hin⟩ := st.facts
  obtain ⟨qn, h1, h2, h3, h4⟩ := st.good.left_info _ p pn q rfl st.hpn hq
  refine ⟨qn, h1, ?_, ?_, h3⟩
  · intro h; rw [h] at h4; have := st.parent_range; omega
  · intro h; rw [h] at h3; omega

/-- The right sibling of the parent is not the parent, nor the split node. -/
theorem parent_right (st : SplitStep t s lvl lo hi un x p rh c pn X R i m D) {q : Nat}
    (hq : pn.right_sibling = some q) :
    ∃ qn, t.heap q = some qn ∧ q ≠ p ∧ q ≠ x ∧ lvl q = lvl p := by
  obtain ⟨f1, f2, f3, f4, f5, f6, f7, f8, f9, f10, hin⟩ := st.facts
  obtain ⟨qn, h1, h2, h3, h4⟩ := st.good.right_info _ p pn q rfl st.hpn hq
  refine ⟨qn, h1, ?_, ?_, h3⟩
  · intro h; rw [h] at h4; have := st.parent_range; omega
  · intro h; rw [h] at h3; omega

/-- No moved child is at the level of the split node. -/
theorem not_moved (st : SplitStep t s lvl lo hi un x p rh c pn X R i m D) {a : Nat}
    (hl : lvl a = lvl x) : ¬ D a := by
  intro hd
  obtain ⟨dn, _, _, h3, _⟩ := st.d_facts hd
  omega

/-- The right sibling of the split node, when it is a child of the same parent, is the next
child. -/
theorem rs_slot (st : SplitStep t s lvl lo hi un x p rh c pn X R i m D) {j a : Nat}
    (hj : j ≤ pn.size) (hk : pn.kid j = some a) (hrs : c.right_sibling = some a) :
    j = i + 1 := by
  obtain ⟨f1, f2, f3, f4, f5, f6, f7, f8, f9, f10, hin⟩ := st.facts
  obtain ⟨rsn, h1, h2, h3, h4, h5, h6, h7, h8, h9⟩ := st.rs_facts hrs
  by_cases hj0 : j = 0
  · subst hj0
    have hl := hin.sib_left
    rw [hk] at hl
    simp only [leftOf, Option.some_bind, h1, h2] at hl
    cases hq : pn.left_sibling with
    | none => rw [hq] at hl; simp [lastKid] at hl
    | some q =>
      obtain ⟨qn, g1, g2, g3, g4⟩ := st.parent_left hq
      rw [hq] at hl
      simp only [lastKid, Option.some_bind, g1] at hl
      have := st.good.kid_parent g1 (Nat.le_refl _) hl.symm st.hx
      rw [st.hcp] at this
      exact absurd (Option.some.inj this.1).symm g2
  · have hl := (hin.sib_in (j - 1) (by omega)).2
    rw [show j - 1 + 1 = j by omega, hk] at hl
    simp only [leftOf, Option.some_bind, h1, h2] at hl
    have := hin.kid_inj (j - 1) i (by omega) st.hi1 (by rw [← hl, st.hk])
    omega

/-- What the step leaves of an old child of the parent. -/
theorem old_kid (st : SplitStep t s lvl lo hi un x p rh c pn X R i m D) (j : Nat)
    (hj : j ≤ pn.size) :
    ∃ a an bn, pn.kid j = some a ∧ t.heap a = some an ∧ s.heap a = some bn ∧
      bn.parent = some p ∧ lvl a + 1 = lvl p ∧ lo a = lob pn (lo p) j ∧
      hi a = hib pn (hi p) j ∧ a ≠ rh ∧ a ≠ p ∧ (a = x → j = i) ∧
      (c.right_sibling = some a → j = i + 1) := by
  obtain ⟨f1, f2, f3, f4, f5, f6, f7, f8, f9, f10, hin⟩ := st.facts
  obtain ⟨a, an, h1, h2, h3, h4, h5, h6⟩ := hin.kids j hj
  obtain ⟨bn, g1, g2, g3, g4, g5, g6, g7, g8, g9⟩ := st.summary h2
  have hnd : ¬ D a := st.not_moved (by omega)
  refine ⟨a, an, bn, h1, h2, g1, ?_, h4, h5, h6, ?_, ?_, ?_, ?_⟩
  · rw [g5 hnd, h3]
  · intro h; rw [h, f7] at h2; cases h2
  · intro h; rw [h] at h4; omega
  · intro h
    exact hin.kid_inj j i hj st.hi1 (by rw [h1, st.hk, h])
  · intro h
    exact st.rs_slot hj h1 h

end SplitStep


namespace SplitStep

variable {t s : SeqBPlusTree} {lvl : Nat → Nat} {lo hi : Nat → Int} {un : Option Nat}
  {x p rh : Nat} {c pn X R : Node} {i : Nat} {m : Int} {D : Nat → Prop}

theorem parent_lob (st : SplitStep t s lvl lo hi un x p rh c pn X R i m D) (l : Int) (j : Nat)
    (hj : j ≤ pn.size + 1) :
    lob (link_res pn i m x rh) l j =
      if j ≤ i then lob pn l j else if j = i + 1 then m else lob pn l (j - 1) := by
  have hi1 := st.hi1
  unfold lob
  by_cases h0 : j = 0
  · subst h0; simp
  · rw [if_neg h0, st.parent_sep (j - 1) (by omega)]
    by_cases h1 : j ≤ i
    · rw [if_pos h1, if_neg h0, if_pos (by omega)]
    · rw [if_neg h1, if_neg (by omega)]
      by_cases h2 : j = i + 1
      · rw [if_pos h2, if_pos (by omega)]
      · rw [if_neg h2, if_neg (by omega), if_neg (by omega)]

theorem parent_hib (st : SplitStep t s lvl lo hi un x p rh c pn X R i m D) (u : Int) (j : Nat)
    (hj : j ≤ pn.size + 1) :
    hib (link_res pn i m x rh) u j =
      if j < i then hib pn u j else if j = i then m else hib pn u (j - 1) := by
  have hi1 := st.hi1
  unfold hib
  rw [show (link_res pn i m x rh).size = pn.size + 1 from rfl]
  by_cases h1 : j < i
  · rw [if_pos h1, if_neg (by omega), if_neg (by omega), st.parent_sep j hj, if_pos h1]
  · rw [if_neg h1]
    by_cases h2 : j = i
    · rw [if_pos h2, if_neg (by omega), st.parent_sep j hj, if_neg h1, if_pos h2]
    · rw [if_neg h2]
      by_cases h3 : j = pn.size + 1
      · rw [if_pos h3, if_pos (by omega)]
      · rw [if_neg h3, if_neg (by omega), st.parent_sep j hj, if_neg h1, if_neg h2]

/-- The children of the parent after the link, with their levels and bounds. -/
theorem parent_kids (st : SplitStep t s lvl lo hi un x p rh c pn X R i m D) (j : Nat)
    (hj : j ≤ pn.size + 1) :
    ∃ a an, (link_res pn i m x rh).kid j = some a ∧ s.heap a = some an ∧
      an.parent = some p ∧
      Function.update lvl rh (lvl x) a + 1 = Function.update lvl rh (lvl x) p ∧
      Function.update lo rh m a = lob (link_res pn i m x rh) (Function.update lo rh m p) j ∧
      Function.update (Function.update hi rh (hi x)) x m a =
        hib (link_res pn i m x rh) (Function.update (Function.update hi rh (hi x)) x m p) j := by
  obtain ⟨f1, f2, f3, f4, f5, f6, f7, f8, f9, f10, hin⟩ := st.facts
  have hi1 := st.hi1
  rw [st.parent_kid j hj, st.parent_lob _ j hj, st.parent_hib _ j hj,
    Function.update_noteq f9, Function.update_noteq f9, Function.update_noteq f8,
    Function.update_noteq f9]
  by_cases h1 : j < i
  · obtain ⟨a, an, bn, g1, g2, g3, g4, g5, g6, g7, g8, g9, g10, g11⟩ := st.old_kid j (by omega)
    have hax : a ≠ x := fun h => by have := g10 h; omega
    refine ⟨a, bn, by rw [if_pos h1, g1], g3, g4, ?_, ?_, ?_⟩
    · rw [Function.update_noteq g8]; exact g5
    · rw [Function.update_noteq g8, if_pos (by omega)]; exact g6
    · rw [Function.update_noteq hax, Function.update_noteq g8, if_pos h1]; exact g7
  · by_cases h2 : j = i
    · subst h2
      refine ⟨x, X, by rw [if_neg h1, if_pos rfl], st.hX, st.Xpar, ?_, ?_, ?_⟩
      · rw [Function.update_noteq f10]; exact f2
      · rw [Function.update_noteq f10, if_pos (Nat.le_refl _)]; exact f3
      · rw [Function.update_same, if_neg h1, if_pos rfl]
    · by_cases h3 : j = i + 1
      · subst h3
        refine ⟨rh, R, by rw [if_neg h1, if_neg h2, if_pos rfl], st.hR, st.Rpar, ?_, ?_, ?_⟩
        · rw [Function.update_same]; exact f2
        · rw [Function.update_same, if_neg (by omega), if_pos rfl]
        · rw [Function.update_noteq (Ne.symm f10), Function.update_same, if_neg h1, if_neg h2,
            Nat.add_sub_cancel]
          exact f4
      · obtain ⟨a, an, bn, g1, g2, g3, g4, g5, g6, g7, g8, g9, g10, g11⟩ :=
          st.old_kid (j - 1) (by omega)
        have hax : a ≠ x := fun h => by have := g10 h; omega
        refine ⟨a, bn, by rw [if_neg h1, if_neg h2, if_neg h3, g1], g3, g4, ?_, ?_, ?_⟩
        · rw [Function.update_noteq g8]; exact g5
        · rw [Function.update_noteq g8, if_neg (by omega), if_neg h3]; exact g6
        · rw [Function.update_noteq hax, Function.update_noteq g8, if_neg h1, if_neg h2]
          exact g7

theorem parent_kid_inj (st : SplitStep t s lvl lo hi un x p rh c pn X R i m D) (j k : Nat)
    (hj : j ≤ pn.size + 1) (hk : k ≤ pn.size + 1)
    (he : (link_res pn i m x rh).kid j = (link_res pn i m x rh).kid k) : j = k := by
  obtain ⟨f1, f2, f3, f4, f5, f6, f7, f8, f9, f10, hin⟩ := st.facts
  have hi1 := st.hi1
  have key : ∀ j, j ≤ pn.size + 1 → ∀ a, (link_res pn i m x rh).kid j = some a →
      (a = x ∧ j = i) ∨ (a = rh ∧ j = i + 1) ∨
      (a ≠ x ∧ a ≠ rh ∧ ((j < i ∧ pn.kid j = some a) ∨ (i + 1 < j ∧ pn.kid (j - 1) = some a))) := by
    intro j hj a ha
    rw [st.parent_kid j hj] at ha
    by_cases h1 : j < i
    · rw [if_pos h1] at ha
      obtain ⟨a2, an, bn, g1, g2, g3, g4, g5, g6, g7, g8, g9, g10, g11⟩ := st.old_kid j (by omega)
      rw [ha] at g1; cases g1
      exact Or.inr (Or.inr ⟨fun h => by have := g10 h; omega, g8, Or.inl ⟨h1, ha⟩⟩)
    · rw [if_neg h1] at ha
      by_cases h2 : j = i
      · rw [if_pos h2] at ha; cases ha; exact Or.inl ⟨rfl, h2⟩
      · rw [if_neg h2] at ha
        by_cases h3 : j = i + 1
        · rw [if_pos h3] at ha; cases ha; exact Or.inr (Or.inl ⟨rfl, h3⟩)
        · rw [if_neg h3] at ha
          obtain ⟨a2, an, bn, g1, g2, g3, g4, g5, g6, g7, g8, g9, g10, g11⟩ :=
            st.old_kid (j - 1) (by omega)
          rw [ha] at g1; cases g1
          exact Or.inr (Or.inr ⟨fun h => by have := g10 h; omega, g8,
            Or.inr ⟨by omega, ha⟩⟩)
  obtain ⟨a, an, ha, _⟩ := st.parent_kids j hj
  have hka : (link_res pn i m x rh).kid k = some a := by rw [← he, ha]
  rcases key j hj a ha with ⟨e1, e2⟩ | ⟨e1, e2⟩ | ⟨e1, e2, e3⟩ <;>
    rcases key k hk a hka with ⟨d1, d2⟩ | ⟨d1, d2⟩ | ⟨d1, d2, d3⟩
  · omega
  · exact absurd (e1.symm.trans d1) f10
  · exact absurd e1 d1
  · exact absurd (d1.symm.trans e1) f10
  · omega
  · exact absurd e1 d2
  · exact absurd d1 e1
  · exact absurd d1 e2
  · rcases e3 with ⟨e4, e5⟩ | ⟨e4, e5⟩ <;> rcases d3 with ⟨d4, d5⟩ | ⟨d4, d5⟩
    · exact hin.kid_inj j k (by omega) (by omega) (by rw [e5, d5])
    · have := hin.kid_inj j (k - 1) (by omega) (by omega) (by rw [e5, d5]); omega
    · have := hin.kid_inj (j - 1) k (by omega) (by omega) (by rw [e5, d5]); omega
    · have := hin.kid_inj (j - 1) (k - 1) (by omega) (by omega) (by rw [e5, d5]); omega

end SplitStep


namespace SplitStep

variable {t s : SeqBPlusTree} {lvl : Nat → Nat} {lo hi : Nat → Int} {un : Option Nat}
  {x p rh : Nat} {c pn X R : Node} {i : Nat} {m : Int} {D : Nat → Prop}

theorem right_old (st : SplitStep t s lvl lo hi un x p rh c pn X R i m D) {k : Nat}
    (hk : k ≤ pn.size) (hki : k ≠ i) :
    rightOf s.heap (pn.kid k) = rightOf t.heap (pn.kid k) := by
  obtain ⟨a, an, bn, g1, g2, g3, g4, g5, g6, g7, g8, g9, g10, g11⟩ := st.old_kid k hk
  rw [g1, st.rightOf_s g2, if_neg (fun h => hki (g10 h))]

theorem left_old (st : SplitStep t s lvl lo hi un x p rh c pn X R i m D) {k : Nat}
    (hk : k ≤ pn.size) (hki : k ≠ i + 1) :
    leftOf s.heap (pn.kid k) = leftOf t.heap (pn.kid k) := by
  obtain ⟨a, an, bn, g1, g2, g3, g4, g5, g6, g7, g8, g9, g10, g11⟩ := st.old_kid k hk
  rw [g1, st.leftOf_s g2, if_neg (fun h => hki (g11 h))]

theorem right_x (st : SplitStep t s lvl lo hi un x p rh c pn X R i m D) :
    rightOf s.heap (some x) = some rh := by
  simp only [rightOf, Option.some_bind, st.hX, st.Xright]

theorem left_x (st : SplitStep t s lvl lo hi un x p rh c pn X R i m D) :
    leftOf s.heap (some x) = leftOf t.heap (some x) := by
  simp only [leftOf, Option.some_bind, st.hX, st.Xleft, st.hx]

theorem right_rh (st : SplitStep t s lvl lo hi un x p rh c pn X R i m D) :
    rightOf s.heap (some rh) = rightOf t.heap (some x) := by
  simp only [rightOf, Option.some_bind, st.hR, st.Rright, st.hx]

theorem left_rh (st : SplitStep t s lvl lo hi un x p rh c pn X R i m D) :
    leftOf s.heap (some rh) = some x := by
  simp only [leftOf, Option.some_bind, st.hR, st.Rleft]

/-- The old right neighbour of the split node below the same parent now follows `rh`. -/
theorem left_rs (st : SplitStep t s lvl lo hi un x p rh c pn X R i m D) (hi2 : i < pn.size) :
    leftOf s.heap (pn.kid (i + 1)) = some rh ∧ rightOf t.heap (some x) = pn.kid (i + 1) := by
  obtain ⟨f1, f2, f3, f4, f5, f6, f7, f8, f9, f10, hin⟩ := st.facts
  obtain ⟨e1, e2⟩ := hin.sib_in i hi2
  rw [st.hk] at e1
  obtain ⟨a, an, bn, g1, g2, g3, g4, g5, g6, g7, g8, g9, g10, g11⟩ := st.old_kid (i + 1) (by omega)
  refine ⟨?_, e1⟩
  have hr : c.right_sibling = some a := by
    simp only [rightOf, Option.some_bind, st.hx] at e1
    rw [e1, g1]
  rw [g1, st.leftOf_s g2, if_pos hr]

theorem parent_sib_in (st : SplitStep t s lvl lo hi un x p rh c pn X R i m D) (j : Nat)
    (hj : j < pn.size + 1) :
    rightOf s.heap ((link_res pn i m x rh).kid j) = (link_res pn i m x rh).kid (j + 1) ∧
    leftOf s.heap ((link_res pn i m x rh).kid (j + 1)) = (link_res pn i m x rh).kid j := by
  obtain ⟨f1, f2, f3, f4, f5, f6, f7, f8, f9, f10, hin⟩ := st.facts
  have hi1 := st.hi1
  rw [st.parent_kid j (by omega), st.parent_kid (j + 1) (by omega)]
  by_cases h1 : j + 1 < i
  · rw [if_pos (by omega), if_pos h1, st.right_old (by omega) (by omega),
      st.left_old (by omega) (by omega)]
    exact hin.sib_in j (by omega)
  · by_cases h2 : j + 1 = i
    · rw [if_pos (by omega), if_neg h1, if_pos h2, st.right_old (by omega) (by omega), st.left_x]
      have := hin.sib_in j (by omega)
      rw [h2, st.hk] at this
      exact this
    · by_cases h3 : j = i
      · subst h3
        rw [if_neg (by omega), if_pos rfl, if_neg (by omega), if_neg (by omega), if_pos rfl,
          st.right_x, st.left_rh]
        exact ⟨rfl, rfl⟩
      · by_cases h4 : j = i + 1
        · subst h4
          rw [if_neg (by omega), if_neg (by omega), if_pos rfl, if_neg (by omega),
            if_neg (by omega), if_neg (by omega), Nat.add_sub_cancel, st.right_rh]
          obtain ⟨e1, e2⟩ := st.left_rs (by omega)
          exact ⟨e2, e1⟩
        · rw [if_neg (by omega), if_neg h3, if_neg h4, if_neg (by omega), if_neg (by omega),
            if_neg (by omega), Nat.add_sub_cancel, st.right_old (by omega) (by omega),
            st.left_old (by omega) (by omega)]
          have := hin.sib_in (j - 1) (by omega)
          rw [show j - 1 + 1 = j by omega] at this
          exact this

/-- The last child of a live node other than `x` and `p` is as before; so is that of NULL. -/
theorem lastKid_o (st : SplitStep t s lvl lo hi un x p rh c pn X R i m D) {q : Option Nat}
    (hq : ∀ a, q = some a → ∃ an, t.heap a = some an ∧ a ≠ p ∧ a ≠ x) :
    lastKid s.heap q = lastKid t.heap q := by
  cases q with
  | none => rfl
  | some a =>
    obtain ⟨an, h1, h2, h3⟩ := hq a rfl
    exact st.lastKid_s h1 h3 h2

/-- The first child of a live node is as before; so is that of NULL. -/
theorem firstKid_o (st : SplitStep t s lvl lo hi un x p rh c pn X R i m D) {q : Option Nat}
    (hq : ∀ a, q = some a → ∃ an, t.heap a = some an) :
    firstKid s.heap q = firstKid t.heap q := by
  cases q with
  | none => rfl
  | some a =>
    obtain ⟨an, h1⟩ := hq a rfl
    exact st.firstKid_s h1

theorem parent_sib_left (st : SplitStep t s lvl lo hi un x p rh c pn X R i m D) :
    leftOf s.heap ((link_res pn i m x rh).kid 0) = lastKid s.heap pn.left_sibling := by
  obtain ⟨f1, f2, f3, f4, f5, f6, f7, f8, f9, f10, hin⟩ := st.facts
  have hi1 := st.hi1
  have hl : lastKid s.heap pn.left_sibling = lastKid t.heap pn.left_sibling := by
    apply st.lastKid_o
    intro a ha
    obtain ⟨qn, g1, g2, g3, g4⟩ := st.parent_left ha
    exact ⟨qn, g1, g2, g3⟩
  rw [hl, st.parent_kid 0 (by omega), ← hin.sib_left]
  by_cases h1 : 0 < i
  · rw [if_pos h1, st.left_old (by omega) (by omega)]
  · have h0 : i = 0 := by omega
    rw [if_neg h1, if_pos h0.symm, st.left_x, ← st.hk, h0]

theorem parent_sib_right (st : SplitStep t s lvl lo hi un x p rh c pn X R i m D) :
    rightOf s.heap ((link_res pn i m x rh).kid (pn.size + 1)) =
      firstKid s.heap pn.right_sibling := by
  obtain ⟨f1, f2, f3, f4, f5, f6, f7, f8, f9, f10, hin⟩ := st.facts
  have hi1 := st.hi1
  have hl : firstKid s.heap pn.right_sibling = firstKid t.heap pn.right_sibling := by
    apply st.firstKid_o
    intro a ha
    obtain ⟨qn, g1, g2, g3, g4⟩ := st.parent_right ha
    exact ⟨qn, g1⟩
  rw [hl, st.parent_kid _ (Nat.le_refl _), ← hin.sib_right, if_neg (by omega), if_neg (by omega)]
  by_cases h1 : i = pn.size
  · rw [if_pos (by omega), st.right_rh, ← st.hk, h1]
  · rw [if_neg (by omega), Nat.add_sub_cancel, st.right_old (Nat.le_refl _) (by omega)]

/-- The parent satisfies its clause after the link. -/
theorem parent_good (st : SplitStep t s lvl lo hi un x p rh c pn X R i m D) :
    InternalGood s.heap (Function.update lvl rh (lvl x)) (Function.update lo rh m)
      (Function.update (Function.update hi rh (hi x)) x m)
      (if pn.size = 3 then some p else none) none p (link_res pn i m x rh) := by
  obtain ⟨f1, f2, f3, f4, f5, f6, f7, f8, f9, f10, hin⟩ := st.facts
  constructor
  · exact link_res_len pn f6 f5 i st.hi1 m x rh
  · show pn.size + 1 ≤ ORDER - 1 ∨ (pn.size + 1 = ORDER ∧ _)
    by_cases h3 : pn.size = 3
    · right; rw [if_pos h3]; exact ⟨by rw [h3], rfl⟩
    · left; simp only [ORDER]; omega
  · left; show 1 ≤ pn.size + 1; omega
  · intro j k hjk hk; exact st.parent_sorted j k hjk (by exact Nat.le_of_lt hk)
  · intro j hj
    rw [Function.update_noteq f9]
    exact (st.parent_bounds j hj).1
  · intro j hj
    rw [Function.update_noteq f8, Function.update_noteq f9]
    exact (st.parent_bounds j hj).2.1
  · intro j hj; exact (st.parent_bounds j hj).2.2
  · exact st.parent_dummy
  · intro j hj; exact st.parent_kids j hj
  · intro j k hj hk he; exact st.parent_kid_inj j k hj hk he
  · intro j hj; exact st.parent_sib_in j hj
  · exact st.parent_sib_left
  · exact st.parent_sib_right

end SplitStep


/-- The invariant of a node whose keys, entries and children are unchanged carries over to new
pointers, a new store and new ghost values when what it reads of its parent, its children and
its siblings is as before. -/
theorem NodeGood.reframe {h g : Nat → Option Node} {root root2 : Nat} {lvl lvl2 : Nat → Nat}
    {lo hi lo2 hi2 : Nat → Int} {ov un ov2 un2 : Option Nat} {b : Nat} {n n2 : Node}
    (old : NodeGood h root lvl lo hi ov un b n)
    (hty : n2.type = n.type) (hsz : n2.size = n.size) (hkr : n2.key_ref = n.key_ref)
    (hkv : n2.key_value = n.key_value)
    (hov : ov = some b → ov2 = some b) (hun : un = some b → un2 = some b)
    (hroot : n2.parent = none → b = root2)
    (hroot2 : b = root → n.type = NodeType.LEAF → b = root2 ∨ ORDER / 2 ≤ n.size)
    (hpar : ∀ q, n2.parent = some q → ∃ qn, g q = some qn ∧ qn.type = NodeType.INTERNAL ∧
      ∃ j, j ≤ qn.size ∧ qn.kid j = some b)
    (hlvl : lvl2 b ≤ lvl2 root2)
    (hl : lvl2 b = lvl b) (hlo : lo2 b = lo b) (hhi : hi2 b = hi b)
    (hkids : n.type = NodeType.INTERNAL → ∀ j c, j ≤ n.size → n.kid j = some c →
      ∃ cn, g c = some cn ∧ cn.parent = some b ∧ lvl2 c = lvl c ∧ lo2 c = lo c ∧ hi2 c = hi c)
    (hsib : n.type = NodeType.INTERNAL → ∀ j, j < n.size →
      rightOf g (n.kid j) = rightOf h (n.kid j) ∧
      leftOf g (n.kid (j + 1)) = leftOf h (n.kid (j + 1)))
    (hleft : n.type = NodeType.INTERNAL → leftOf g (n.kid 0) = lastKid g n2.left_sibling)
    (hright : n.type = NodeType.INTERNAL →
      rightOf g (n.kid n.size) = firstKid g n2.right_sibling) :
    NodeGood g root2 lvl2 lo2 hi2 ov2 un2 b n2 := by
  obtain ⟨ty, sz, par, ls, rs, id, kv, kr⟩ := n
  obtain ⟨ty2, sz2, par2, ls2, rs2, id2, kv2, kr2⟩ := n2
  simp only at hty hsz hkr hkv
  subst hty hsz hkr hkv
  simp only at hroot2
  constructor
  · exact hroot
  · exact hpar
  · exact hlvl
  · intro hty
    rw [hl, hlo, hhi]
    have o := old.leaf hty
    constructor
    · exact o.lvl0
    · exact o.len
    · exact o.noref
    · rcases o.size_le with h1 | h1
      · exact Or.inl h1
      · exact Or.inr ⟨h1.1, hov h1.2⟩
    · rcases o.size_ge with h1 | h1 | h1
      · rcases hroot2 h1 hty with h2 | h2
        · exact Or.inl h2
        · exact Or.inr (Or.inl h2)
      · exact Or.inr (Or.inl h1)
      · exact Or.inr (Or.inr ⟨h1.1, hun h1.2⟩)
    · exact o.sorted
    · exact o.range
  · intro hty
    obtain ⟨o1, o⟩ := old.internal hty
    refine ⟨by omega, ?_⟩
    constructor
    · exact o.len
    · rcases o.size_le with h1 | h1
      · exact Or.inl h1
      · exact Or.inr ⟨h1.1, hov h1.2⟩
    · rcases o.size_ge with h1 | h1
      · exact Or.inl h1
      · exact Or.inr (hun h1)
    · exact o.sep_sorted
    · rw [hlo]; exact o.sep_lo
    · rw [hhi]; exact o.sep_hi
    · exact o.sep_max
    · exact o.dummy
    · intro j hj
      obtain ⟨c, cn, h1, h2, h3, h4, h5, h6⟩ := o.kids j hj
      obtain ⟨dn, g1, g2, g3, g4, g5⟩ := hkids hty j c hj h1
      exact ⟨c, dn, h1, g1, g2, by omega, by rw [g4, hlo]; exact h5, by rw [g5, hhi]; exact h6⟩
    · exact o.kid_inj
    · intro j hj
      have := hsib hty j hj
      have o2 := o.sib_in j hj
      exact ⟨this.1.trans o2.1, this.2.trans o2.2⟩
    · exact hleft hty
    · exact hright hty


namespace SplitStep

variable {t s : SeqBPlusTree} {lvl : Nat → Nat} {lo hi : Nat → Int} {un : Option Nat}
  {x p rh : Nat} {c pn X R : Node} {i : Nat} {m : Int} {D : Nat → Prop}

/-- Every old child of the parent is still a child after the link. -/
theorem kid_kept (st : SplitStep t s lvl lo hi un x p rh c pn X R i m D) (j : Nat)
    (hj : j ≤ pn.size) :
    ∃ j2, j2 ≤ pn.size + 1 ∧ (link_res pn i m x rh).kid j2 = pn.kid j := by
  have hi1 := st.hi1
  by_cases h1 : j < i
  · exact ⟨j, by omega, by rw [st.parent_kid j (by omega), if_pos h1]⟩
  · by_cases h2 : j = i
    · exact ⟨j, by omega, by
        rw [st.parent_kid j (by omega), if_neg h1, if_pos h2, h2, st.hk]⟩
    · exact ⟨j + 1, by omega, by
        rw [st.parent_kid (j + 1) (by omega), if_neg (by omega), if_neg (by omega),
          if_neg (by omega), Nat.add_sub_cancel]⟩

/-- A live node of the old store is not the new node. -/
theorem live_ne (st : SplitStep t s lvl lo hi un x p rh c pn X R i m D) {a : Nat} {an : Node}
    (ha : t.heap a = some an) : a ≠ rh := by
  obtain ⟨f1, f2, f3, f4, f5, f6, f7, f8, f9, f10, hin⟩ := st.facts
  intro h; rw [h, f7] at ha; cases ha

/-- The split node is internal when it has a moved child. -/
theorem moved_internal (st : SplitStep t s lvl lo hi un x p rh c pn X R i m D) {d : Nat}
    (hd : D d) : c.type = NodeType.INTERNAL := by
  obtain ⟨_, j, hj, hkj⟩ := st.Dkid d hd
  exact st.good.internal_of_kid st.hx hkj

/-- The parent clause of an old node other than the split node and its parent. -/
theorem old_hpar (st : SplitStep t s lvl lo hi un x p rh c pn X R i m D) {b : Nat} {n bn : Node}
    (hb : t.heap b = some n) (hs : s.heap b = some bn) (hbx : b ≠ x) (hbp : b ≠ p) :
    ∀ q, bn.parent = some q → ∃ qn, s.heap q = some qn ∧ qn.type = NodeType.INTERNAL ∧
      ∃ j, j ≤ qn.size ∧ qn.kid j = some b := by
  obtain ⟨f1, f2, f3, f4, f5, f6, f7, f8, f9, f10, hin⟩ := st.facts
  obtain ⟨bn2, g1, g2, g3, g4, g5, g6, g7, g8, g9⟩ := st.summary hb
  rw [hs] at g1; cases g1
  intro q hq
  by_cases hd : D b
  · rw [g6 hd] at hq; cases hq
    obtain ⟨⟨j, hj, hkj⟩, _⟩ := st.Dkid b hd
    exact ⟨R, st.hR, by rw [st.Rty]; exact st.moved_internal hd, j, hj, hkj⟩
  · rw [g5 hd] at hq
    obtain ⟨qn, j, e1, e2, e3, e4, e5, e6, e7⟩ := st.good.parent_info hb hq
    by_cases hqp : q = p
    · subst hqp
      rw [st.hpn] at e1; cases e1
      obtain ⟨j2, k1, k2⟩ := st.kid_kept j e3
      exact ⟨_, st.hP, f1, j2, k1, by rw [k2, e4]⟩
    · by_cases hqx : q = x
      · subst hqx
        rw [st.hx] at e1; cases e1
        obtain ⟨j2, k1, k2⟩ := st.Xkid b j e3 e4 hd
        exact ⟨X, st.hX, by rw [st.Xty]; exact e2, j2, k1, k2⟩
      · obtain ⟨qn2, k1, k2, k3, k4, k5, k6, k7, k8, k9⟩ := st.summary e1
        obtain ⟨k10, k11, k12⟩ := k8 hqx hqp
        refine ⟨qn2, k1, by rw [k2]; exact e2, j, by rw [k10]; exact e3, ?_⟩
        simp only [Node.kid, k11]
        exact e4

/-- The children of an old node other than the split node and its parent keep it as parent. -/
theorem old_kids (st : SplitStep t s lvl lo hi un x p rh c pn X R i m D) {b : Nat} {n : Node}
    (hb : t.heap b = some n) (hbx : b ≠ x) (hbp : b ≠ p) :
    ∀ j a, j ≤ n.size → n.kid j = some a →
      ∃ an, s.heap a = some an ∧ an.parent = some b ∧
        Function.update lvl rh (lvl x) a = lvl a ∧ Function.update lo rh m a = lo a ∧
        Function.update (Function.update hi rh (hi x)) x m a = hi a := by
  intro j a hj hk
  obtain ⟨an, h1, h2, h3, h4, h5⟩ := st.good.kid_live hb hj hk
  obtain ⟨bn, g1, g2, g3, g4, g5, g6, g7, g8, g9⟩ := st.summary h1
  have harh := st.live_ne h1
  have hax : a ≠ x := by
    intro h; subst h
    rw [st.hx] at h1; cases h1
    rw [st.hcp] at h2
    exact hbp (Option.some.inj h2).symm
  have hnd : ¬ D a := by
    intro hd
    obtain ⟨dn, e1, e2, _⟩ := st.d_facts hd
    rw [h1] at e1; cases e1
    rw [h2] at e2
    exact hbx (Option.some.inj e2)
  exact ⟨bn, g1, by rw [g5 hnd, h2], Function.update_noteq harh _ _,
    Function.update_noteq harh _ _, by
      rw [Function.update_noteq hax, Function.update_noteq harh]⟩

/-- The sibling pointers of the children of an old node other than the parent. -/
theorem old_sib (st : SplitStep t s lvl lo hi un x p rh c pn X R i m D) {b : Nat} {n : Node}
    (hb : t.heap b = some n) (hty : n.type = NodeType.INTERNAL) (hbp : b ≠ p) :
    ∀ j, j < n.size →
      rightOf s.heap (n.kid j) = rightOf t.heap (n.kid j) ∧
      leftOf s.heap (n.kid (j + 1)) = leftOf t.heap (n.kid (j + 1)) := by
  intro j hj
  have hin := st.good.internal_good hb hty
  obtain ⟨a, an, h1, h2, h3, _⟩ := hin.kids j (by omega)
  obtain ⟨a2, an2, k1, k2, k3, _⟩ := hin.kids (j + 1) (by omega)
  have hax : a ≠ x := by
    intro h; subst h
    rw [st.hx] at h2; cases h2
    rw [st.hcp] at h3
    exact hbp (Option.some.inj h3).symm
  constructor
  · rw [h1, st.rightOf_s h2, if_neg hax]
  · rw [k1, st.leftOf_s k2, if_neg]
    intro hr
    obtain ⟨rsn, e1, e2, _⟩ := st.rs_facts hr
    have := (hin.sib_in j hj).2
    rw [k1, h1] at this
    simp only [leftOf, Option.some_bind, e1, e2] at this
    exact hax (Option.some.inj this).symm

end SplitStep


namespace SplitStep

variable {t s : SeqBPlusTree} {lvl : Nat → Nat} {lo hi : Nat → Int} {un : Option Nat}
  {x p rh : Nat} {c pn X R : Node} {i : Nat} {m : Int} {D : Nat → Prop}

/-- The last child of the parent after the link. -/
theorem parent_last (st : SplitStep t s lvl lo hi un x p rh c pn X R i m D) :
    lastKid s.heap (some p) = if i = pn.size then some rh else lastKid t.heap (some p) := by
  have hi1 := st.hi1
  simp only [lastKid, Option.some_bind, st.hP, st.hpn]
  rw [show (link_res pn i m x rh).size = pn.size + 1 from rfl,
    st.parent_kid _ (Nat.le_refl _), if_neg (by omega), if_neg (by omega)]
  by_cases h : i = pn.size
  · rw [if_pos (by omega), if_pos h]
  · rw [if_neg (by omega), if_neg h, Nat.add_sub_cancel]

theorem old_right (st : SplitStep t s lvl lo hi un x p rh c pn X R i m D) {b : Nat} {n bn : Node}
    (hb : t.heap b = some n) (hs : s.heap b = some bn) (hty : n.type = NodeType.INTERNAL)
    (hbx : b ≠ x) (hbp : b ≠ p) :
    rightOf s.heap (n.kid n.size) = firstKid s.heap bn.right_sibling := by
  obtain ⟨bn2, g1, g2, g3, g4, g5, g6, g7, g8, g9⟩ := st.summary hb
  rw [hs] at g1; cases g1
  have hin := st.good.internal_good hb hty
  obtain ⟨a, an, h1, h2, h3, _⟩ := hin.kids n.size (Nat.le_refl _)
  have hax : a ≠ x := by
    intro h; subst h
    rw [st.hx] at h2; cases h2
    rw [st.hcp] at h3
    exact hbp (Option.some.inj h3).symm
  rw [g3, if_neg hbx, st.firstKid_o, ← hin.sib_right, h1, st.rightOf_s h2, if_neg hax]
  intro q hq
  obtain ⟨qn, e1, _⟩ := st.good.right_info _ b n q rfl hb hq
  exact ⟨qn, e1⟩

theorem old_left (st : SplitStep t s lvl lo hi un x p rh c pn X R i m D) {b : Nat} {n bn : Node}
    (hb : t.heap b = some n) (hs : s.heap b = some bn) (hty : n.type = NodeType.INTERNAL)
    (hbx : b ≠ x) (hbp : b ≠ p) :
    leftOf s.heap (n.kid 0) = lastKid s.heap bn.left_sibling := by
  obtain ⟨f1, f2, f3, f4, f5, f6, f7, f8, f9, f10, hinp⟩ := st.facts
  obtain ⟨bn2, g1, g2, g3, g4, g5, g6, g7, g8, g9⟩ := st.summary hb
  rw [hs] at g1; cases g1
  have hin := st.good.internal_good hb hty
  obtain ⟨a, an, h1, h2, h3, h4, _⟩ := hin.kids 0 (Nat.zero_le _)
  have hold := hin.sib_left
  rw [h1] at hold ⊢
  rw [g4, st.leftOf_s h2]
  by_cases hA : c.right_sibling = some b
  · obtain ⟨rsn, e1, e2, e3, _⟩ := st.rs_facts hA
    rw [hb] at e1; cases e1
    have hna : c.right_sibling ≠ some a := by
      intro h; rw [hA] at h; have e := Option.some.inj h; rw [e] at h4; omega
    rw [if_pos hA, if_neg hna, hold, e2]
    simp only [lastKid, Option.some_bind, st.hR, st.hx, st.Rlast]
  · rw [if_neg hA]
    by_cases hB : c.right_sibling = some a
    · rw [if_pos hB]
      obtain ⟨rsn, e1, e2, e3, _⟩ := st.rs_facts hB
      rw [h2] at e1; cases e1
      simp only [leftOf, Option.some_bind, h2, e2] at hold
      cases hq : n.left_sibling with
      | none => rw [hq] at hold; simp [lastKid] at hold
      | some q =>
        rw [hq] at hold
        obtain ⟨qn, k1, k2, k3, k4⟩ := st.good.left_info _ b n q rfl hb hq
        simp only [lastKid, Option.some_bind, k1] at hold
        have := (st.good.kid_parent k1 (Nat.le_refl _) hold.symm st.hx).1
        rw [st.hcp] at this
        have hqp : p = q := Option.some.inj this
        subst hqp
        rw [st.hpn] at k1; cases k1
        have hie := hinp.kid_inj i pn.size st.hi1 (Nat.le_refl _) (by rw [st.hk, ← hold])
        rw [st.parent_last, if_pos hie]
    · rw [if_neg hB, hold]
      cases hq : n.left_sibling with
      | none => rfl
      | some q =>
        obtain ⟨qn, k1, k2, k3, k4⟩ := st.good.left_info _ b n q rfl hb hq
        have hqx : q ≠ x := by
          intro h; subst h
          rw [st.hx] at k1; cases k1
          exact hA k2
        by_cases hqp : q = p
        · subst hqp
          rw [st.hpn] at k1; cases k1
          rw [st.parent_last, if_neg]
          intro hie
          have := hinp.sib_right
          rw [← hie, st.hk, k2] at this
          simp only [rightOf, firstKid, Option.some_bind, st.hx, hb, h1] at this
          exact hB this
        · exact (st.lastKid_s k1 hqx hqp).symm

end SplitStep


namespace SplitStep

variable {t s : SeqBPlusTree} {lvl : Nat → Nat} {lo hi : Nat → Int} {un : Option Nat}
  {x p rh : Nat} {c pn X R : Node} {i : Nat} {m : Int} {D : Nat → Prop}

/-- The root is an old node, it is not the split node and its level is the largest. -/
theorem root_facts (st : SplitStep t s lvl lo hi un x p rh c pn X R i m D) :
    t.root ≠ rh ∧ t.root ≠ x ∧ lvl x < lvl t.root + 1 ∧ lvl p ≤ lvl t.root := by
  obtain ⟨f1, f2, f3, f4, f5, f6, f7, f8, f9, f10, hin⟩ := st.facts
  obtain ⟨rn, h1, h2, _⟩ := st.good.root_live
  have h3 := (st.good.nodes p pn st.hpn).lvl_le
  refine ⟨st.live_ne h1, ?_, by omega, h3⟩
  intro h; rw [h] at h3; omega

/-- An old node other than the split node and its parent satisfies the invariant after the
step. -/
theorem node_old (st : SplitStep t s lvl lo hi un x p rh c pn X R i m D) {b : Nat} {n bn : Node}
    (hb : t.heap b = some n) (hs : s.heap b = some bn) (hbx : b ≠ x) (hbp : b ≠ p) :
    NodeGood s.heap s.root (Function.update lvl rh (lvl x)) (Function.update lo rh m)
      (Function.update (Function.update hi rh (hi x)) x m)
      (if pn.size = 3 then some p else none) none b bn := by
  obtain ⟨r1, r2, r3, r4⟩ := st.root_facts
  obtain ⟨bn2, g1, g2, g3, g4, g5, g6, g7, g8, g9⟩ := st.summary hb
  rw [hs] at g1; cases g1
  obtain ⟨g10, g11, g12⟩ := g8 hbx hbp
  have hbrh := st.live_ne hb
  have old := (st.good.nodes b n hb).drop_exc
    (by intro h; exact hbx (Option.some.inj h).symm)
    (by
      intro h
      rcases st.hun with h1 | h1
      · rw [h1] at h; cases h
      · rw [h1] at h; exact hbp (Option.some.inj h).symm)
  apply old.reframe g2 g10 g11 g12 (by simp) (by simp)
  · intro hp
    by_cases hd : D b
    · rw [g6 hd] at hp; cases hp
    · rw [g5 hd] at hp; rw [st.root_eq]; exact old.is_root hp
  · intro h _; left; rw [st.root_eq]; exact h
  · exact st.old_hpar hb hs hbx hbp
  · rw [st.root_eq, Function.update_noteq hbrh, Function.update_noteq r1]
    exact old.lvl_le
  · exact Function.update_noteq hbrh _ _
  · exact Function.update_noteq hbrh _ _
  · rw [Function.update_noteq hbx, Function.update_noteq hbrh]
  · intro _; exact st.old_kids hb hbx hbp
  · intro hty; exact st.old_sib hb hty hbp
  · intro hty; exact st.old_left hb hs hty hbx hbp
  · intro hty; exact st.old_right hb hs hty hbx hbp

/-- The parent satisfies the invariant after the step, up to its size. -/
theorem node_p (st : SplitStep t s lvl lo hi un x p rh c pn X R i m D) :
    NodeGood s.heap s.root (Function.update lvl rh (lvl x)) (Function.update lo rh m)
      (Function.update (Function.update hi rh (hi x)) x m)
      (if pn.size = 3 then some p else none) none p (link_res pn i m x rh) := by
  obtain ⟨f1, f2, f3, f4, f5, f6, f7, f8, f9, f10, hin⟩ := st.facts
  obtain ⟨r1, r2, r3, r4⟩ := st.root_facts
  have old := st.good.nodes p pn st.hpn
  constructor
  · intro hp; rw [st.root_eq]; exact old.is_root hp
  · intro q hq
    obtain ⟨qn, j, e1, e2, e3, e4, e5, e6, e7⟩ := st.good.parent_info st.hpn hq
    have hqp : q ≠ p := by intro h; rw [h] at e5; omega
    have hqx : q ≠ x := by intro h; rw [h] at e5; omega
    obtain ⟨qn2, k1, k2, k3, k4, k5, k6, k7, k8, k9⟩ := st.summary e1
    obtain ⟨k10, k11, k12⟩ := k8 hqx hqp
    refine ⟨qn2, k1, by rw [k2]; exact e2, j, by rw [k10]; exact e3, ?_⟩
    simp only [Node.kid, k11]
    exact e4
  · rw [st.root_eq, Function.update_noteq f9, Function.update_noteq r1]
    exact r4
  · intro hty
    have : pn.type = NodeType.LEAF := hty
    rw [f1] at this; cases this
  · intro _
    refine ⟨?_, st.parent_good⟩
    rw [Function.update_noteq f9]; omega

/-- The left half satisfies the invariant after the step. -/
theorem node_x (st : SplitStep t s lvl lo hi un x p rh c pn X R i m D) :
    NodeGood s.heap s.root (Function.update lvl rh (lvl x)) (Function.update lo rh m)
      (Function.update (Function.update hi rh (hi x)) x m)
      (if pn.size = 3 then some p else none) none x X := by
  obtain ⟨f1, f2, f3, f4, f5, f6, f7, f8, f9, f10, hin⟩ := st.facts
  obtain ⟨r1, r2, r3, r4⟩ := st.root_facts
  have old := st.good.nodes x c st.hx
  constructor
  · intro hp; rw [st.Xpar] at hp; cases hp
  · intro q hq
    rw [st.Xpar] at hq; cases hq
    refine ⟨_, st.hP, f1, i, ?_, ?_⟩
    · show i ≤ pn.size + 1
      have := st.hi1; omega
    · rw [st.parent_kid i (by have := st.hi1; omega), if_neg (by omega), if_pos rfl]
  · rw [st.root_eq, Function.update_noteq f10, Function.update_noteq r1]
    omega
  · intro hty
    rw [st.Xty] at hty
    have h0 := (old.leaf hty).lvl0
    rw [Function.update_noteq f10, Function.update_noteq f10, Function.update_same, h0,
      st.root_eq]
    exact (st.Xleaf hty).weaken
  · intro hty
    rw [st.Xty] at hty
    refine ⟨?_, (st.Xint hty).widen⟩
    rw [Function.update_noteq f10]
    exact (old.internal hty).1

/-- The new right half satisfies the invariant after the step. -/
theorem node_rh (st : SplitStep t s lvl lo hi un x p rh c pn X R i m D) :
    NodeGood s.heap s.root (Function.update lvl rh (lvl x)) (Function.update lo rh m)
      (Function.update (Function.update hi rh (hi x)) x m)
      (if pn.size = 3 then some p else none) none rh R := by
  obtain ⟨f1, f2, f3, f4, f5, f6, f7, f8, f9, f10, hin⟩ := st.facts
  obtain ⟨r1, r2, r3, r4⟩ := st.root_facts
  have old := st.good.nodes x c st.hx
  constructor
  · intro hp; rw [st.Rpar] at hp; cases hp
  · intro q hq
    rw [st.Rpar] at hq; cases hq
    refine ⟨_, st.hP, f1, i + 1, ?_, ?_⟩
    · show i + 1 ≤ pn.size + 1
      have := st.hi1; omega
    · rw [st.parent_kid (i + 1) (by have := st.hi1; omega), if_neg (by omega),
        if_neg (by omega), if_pos rfl]
  · rw [st.root_eq, Function.update_same, Function.update_noteq r1]
    omega
  · intro hty
    rw [st.Rty] at hty
    have h0 := (old.leaf hty).lvl0
    rw [Function.update_same, Function.update_same, Function.update_noteq (Ne.symm f10),
      Function.update_same, h0, st.root_eq]
    exact (st.Rleaf hty).weaken
  · intro hty
    rw [st.Rty] at hty
    refine ⟨?_, (st.Rint hty).widen⟩
    rw [Function.update_same]
    exact (old.internal hty).1

/-- One split step below an existing parent preserves the invariant; the parent may now be
full. -/
theorem good_after (st : SplitStep t s lvl lo hi un x p rh c pn X R i m D) :
    Good s (Function.update lvl rh (lvl x)) (Function.update lo rh m)
      (Function.update (Function.update hi rh (hi x)) x m)
      (if pn.size = 3 then some p else none) none := by
  obtain ⟨f1, f2, f3, f4, f5, f6, f7, f8, f9, f10, hin⟩ := st.facts
  obtain ⟨r1, r2, r3, r4⟩ := st.root_facts
  have hg := st.good
  have hlive : ∀ a, s.heap a ≠ none → a ≠ rh → t.heap a ≠ none := by
    intro a ha harh h0
    apply ha
    by_cases hap : a = p
    · rw [hap, st.hpn] at h0; cases h0
    by_cases hax : a = x
    · rw [hax, st.hx] at h0; cases h0
    rw [st.hO a hap hax harh ?_ ?_, h0]
    · intro hr
      obtain ⟨rsn, e1, _⟩ := st.rs_facts hr
      rw [h0] at e1; cases e1
    · intro hd
      obtain ⟨dn, e1, _⟩ := st.d_facts hd
      rw [h0] at e1; cases e1
  constructor
  · intro a ha
    by_contra hne
    have harh : a ≠ rh := by have := st.rh_lt; omega
    have := hlive a hne harh
    exact this (hg.fresh a (by have := st.next_le; omega))
  · obtain ⟨rn, h1, h2, h3, h4⟩ := hg.root_live
    obtain ⟨bn, g1, g2, g3, g4, g5, g6, g7, g8, g9⟩ := st.summary h1
    rw [st.root_eq]
    refine ⟨bn, g1, ?_, ?_, ?_⟩
    · rw [g5, h2]
      intro hd
      obtain ⟨dn, e1, e2, _⟩ := st.d_facts hd
      rw [h1] at e1; cases e1
      rw [h2] at e2; cases e2
    · rw [g4, if_neg, h3]
      intro hr
      obtain ⟨rsn, e1, e2, _⟩ := st.rs_facts hr
      rw [h1] at e1; cases e1
      rw [h3] at e2; cases e2
    · rw [g3, if_neg r2, h4]
  · rw [st.root_eq, st.depth_eq, Function.update_noteq r1]; exact hg.root_lvl
  · rw [st.root_eq, Function.update_noteq r1]; exact hg.root_lo
  · rw [st.root_eq, Function.update_noteq r2, Function.update_noteq r1]; exact hg.root_hi
  · rw [st.root_eq, Function.update_noteq r1]
    have := hg.fuel_ok; have := st.next_le; omega
  · intro a n ha
    by_cases hap : a = p
    · subst hap
      rw [st.hP] at ha; cases ha
      exact st.node_p
    by_cases hax : a = x
    · subst hax
      rw [st.hX] at ha; cases ha
      exact st.node_x
    by_cases harh : a = rh
    · subst harh
      rw [st.hR] at ha; cases ha
      exact st.node_rh
    have h0 := hlive a (by rw [ha]; simp) harh
    cases hb : t.heap a with
    | none => exact absurd hb h0
    | some an => exact st.node_old hb ha hax hap

end SplitStep


/-- An internal node without separators over the single child `x`: the new root of
`parent_insert` before the pair of the right half is linked. -/
def root_over (x : Nat) (id : Int) : Node :=
  { InternalNode.new with
    id := id, key_ref := ⟨INT_MAX, some x⟩ :: List.replicate ORDER ⟨0, none⟩ }

/-- The tree with a new root at address `r` over the old root `x`. -/
def SeqBPlusTree.with_root (t : SeqBPlusTree) (x r : Nat) (c : Node) (id : Int) :
    SeqBPlusTree :=
  { t with
    heap := Function.update (Function.update t.heap r (some (root_over x id))) x
      (some { c with parent := some r })
    root := r, depth := t.depth + 1, next := r + 1 }

namespace Good

variable {t : SeqBPlusTree} {lvl : Nat → Nat} {lo hi : Nat → Int}

/-- A new root over the old root preserves the invariant, except that the new root has no
separator yet. -/
theorem add_root {x r : Nat} {c : Node} (id : Int) (hg : Good t lvl lo hi (some x) none)
    (hx : t.heap x = some c) (hcp : c.parent = none) (hr : t.next ≤ r)
    (hleaf : c.type = NodeType.LEAF → ORDER / 2 ≤ c.size) :
    Good (t.with_root x r c id) (Function.update lvl r (lvl x + 1))
      (Function.update lo r INT_MIN) (Function.update hi r (INT_MAX + 1)) (some x) (some r) := by
  have hxr : x = t.root := (hg.nodes x c hx).is_root hcp
  have hlive : ∀ a an, t.heap a = some an → a ≠ r := by
    intro a an ha h
    have := hg.live_lt ha
    omega
  have hrx : x ≠ r := hlive x c hx
  obtain ⟨rn, h1, h2, h3, h4⟩ := hg.root_live
  rw [← hxr, hx] at h1; cases h1
  have hgo : ∀ a, a ≠ r → a ≠ x → (t.with_root x r c id).heap a = t.heap a := by
    intro a h1 h2
    simp only [SeqBPlusTree.with_root]
    rw [Function.update_noteq h2, Function.update_noteq h1]
  have hgx : (t.with_root x r c id).heap x = some { c with parent := some r } := by
    simp only [SeqBPlusTree.with_root]
    rw [Function.update_same]
  have hgr : (t.with_root x r c id).heap r = some (root_over x id) := by
    simp only [SeqBPlusTree.with_root]
    rw [Function.update_noteq (Ne.symm hrx), Function.update_same]
  have hfr : t.heap r = none := hg.fresh r hr
  have hL : ∀ q, leftOf (t.with_root x r c id).heap q = leftOf t.heap q := by
    intro q
    cases q with
    | none => rfl
    | some a =>
      by_cases ha : a = r
      · subst ha; simp [leftOf, hgr, hfr, root_over, InternalNode.new]
      by_cases hax : a = x
      · subst hax; simp [leftOf, hgx, hx]
      simp only [leftOf, Option.some_bind, hgo a ha hax]
  have hR : ∀ q, rightOf (t.with_root x r c id).heap q = rightOf t.heap q := by
    intro q
    cases q with
    | none => rfl
    | some a =>
      by_cases ha : a = r
      · subst ha; simp [rightOf, hgr, hfr, root_over, InternalNode.new]
      by_cases hax : a = x
      · subst hax; simp [rightOf, hgx, hx]
      simp only [rightOf, Option.some_bind, hgo a ha hax]
  have hF : ∀ q, q ≠ some r → firstKid (t.with_root x r c id).heap q = firstKid t.heap q := by
    intro q hq
    cases q with
    | none => rfl
    | some a =>
      have ha : a ≠ r := fun h => hq (by rw [h])
      by_cases hax : a = x
      · subst hax; simp [firstKid, hgx, hx, Node.kid]
      simp only [firstKid, Option.some_bind, hgo a ha hax]
  have hK : ∀ q, q ≠ some r → lastKid (t.with_root x r c id).heap q = lastKid t.heap q := by
    intro q hq
    cases q with
    | none => rfl
    | some a =>
      have ha : a ≠ r := fun h => hq (by rw [h])
      by_cases hax : a = x
      · subst hax; simp [lastKid, hgx, hx, Node.kid]
      simp only [lastKid, Option.some_bind, hgo a ha hax]
  -- every old node, with its new parent pointer if it is `x`
  have hold : ∀ b n n2, t.heap b = some n → (t.with_root x r c id).heap b = some n2 →
      n2.type = n.type → n2.size = n.size → n2.key_ref = n.key_ref →
      n2.key_value = n.key_value → n2.left_sibling = n.left_sibling →
      n2.right_sibling = n.right_sibling →
      (n2.parent = none → False) →
      (∀ q, n2.parent = some q → ∃ qn, (t.with_root x r c id).heap q = some qn ∧
        qn.type = NodeType.INTERNAL ∧ ∃ j, j ≤ qn.size ∧ qn.kid j = some b) →
      (b = t.root → n.type = NodeType.LEAF → ORDER / 2 ≤ n.size) →
      NodeGood (t.with_root x r c id).heap r (Function.update lvl r (lvl x + 1))
        (Function.update lo r INT_MIN) (Function.update hi r (INT_MAX + 1)) (some x) (some r)
        b n2 := by
    intro b n n2 hb hb2 e1 e2 e3 e4 e5 e6 hnp hpar hrt
    have old := hg.nodes b n hb
    have hbr := hlive b n hb
    apply old.reframe e1 e2 e3 e4 (fun h => h) (by simp)
    · intro h; exact absurd h (fun h => hnp h)
    · intro h hty; right; exact hrt h hty
    · exact hpar
    · rw [Function.update_noteq hbr, Function.update_same]
      have := old.lvl_le
      rw [← hxr] at this
      omega
    · exact Function.update_noteq hbr _ _
    · exact Function.update_noteq hbr _ _
    · exact Function.update_noteq hbr _ _
    · intro hty j a hj hk
      obtain ⟨an, k1, k2, k3, k4, k5⟩ := hg.kid_live hb hj hk
      have har := hlive a an k1
      have hax : a ≠ x := by
        intro h; subst h
        rw [hx] at k1; cases k1
        rw [hcp] at k2; cases k2
      exact ⟨an, by rw [hgo a har hax]; exact k1, k2, Function.update_noteq har _ _,
        Function.update_noteq har _ _, Function.update_noteq har _ _⟩
    · intro hty j hj
      exact ⟨hR _, hL _⟩
    · intro hty
      rw [hL, e5, hK]
      · exact (hg.internal_good hb hty).sib_left
      · intro h
        obtain ⟨qn, k1, _⟩ := hg.left_info _ b n r rfl hb h
        rw [hfr] at k1; cases k1
    · intro hty
      rw [hR, e6, hF]
      · exact (hg.internal_good hb hty).sib_right
      · intro h
        obtain ⟨qn, k1, _⟩ := hg.right_info _ b n r rfl hb h
        rw [hfr] at k1; cases k1
  constructor
  · intro a ha
    have h1 : a ≠ r := by simp only [SeqBPlusTree.with_root] at ha; omega
    have h2 : a ≠ x := by
      intro h; subst h
      have := hg.live_lt hx
      simp only [SeqBPlusTree.with_root] at ha; omega
    rw [hgo a h1 h2]
    exact hg.fresh a (by simp only [SeqBPlusTree.with_root] at ha; omega)
  · exact ⟨_, hgr, rfl, rfl, rfl⟩
  · show ((Function.update lvl r (lvl x + 1) r : Nat) : Int) = t.depth + 1
    rw [Function.update_same]
    have := hg.root_lvl
    rw [← hxr] at this
    omega
  · show Function.update lo r INT_MIN r = INT_MIN
    rw [Function.update_same]
  · show Function.update hi r (INT_MAX + 1) r = INT_MAX + 1
    rw [Function.update_same]
  · show Function.update lvl r (lvl x + 1) r + 1 < r + 1
    rw [Function.update_same]
    have := hg.fuel_ok
    rw [← hxr] at this
    omega
  · intro a n ha
    by_cases har : a = r
    · subst har
      rw [hgr] at ha; cases ha
      constructor
      · intro _; rfl
      · intro q hq; simp [root_over, InternalNode.new] at hq
      · exact Nat.le_refl _
      · intro hty; simp [root_over, InternalNode.new] at hty
      · intro _
        refine ⟨by show 0 < Function.update lvl a (lvl x + 1) a; rw [Function.update_same]; omega, ?_⟩
        constructor
        · simp [root_over]
        · left; simp [root_over, InternalNode.new]
        · right; rfl
        · intro i j hij hj; simp [root_over, InternalNode.new] at hj
        · intro i hi1; simp [root_over, InternalNode.new] at hi1
        · intro i hi1; simp [root_over, InternalNode.new] at hi1
        · intro i hi1; simp [root_over, InternalNode.new] at hi1
        · simp [root_over, InternalNode.new, Node.sep]
        · intro i hi1
          have hi0 : i = 0 := by simpa [root_over, InternalNode.new] using hi1
          subst hi0
          refine ⟨x, _, by simp [root_over, Node.kid], hgx, rfl, ?_, ?_, ?_⟩
          · rw [Function.update_noteq hrx, Function.update_same]
          · rw [Function.update_noteq hrx, Function.update_same, hxr, hg.root_lo]
            simp [lob]
          · rw [Function.update_noteq hrx, Function.update_same, hxr, hg.root_hi]
            simp [hib, root_over, InternalNode.new]
        · intro i j hi1 hj1 _
          have hi0 : i = 0 := by simpa [root_over, InternalNode.new] using hi1
          have hj0 : j = 0 := by simpa [root_over, InternalNode.new] using hj1
          rw [hi0, hj0]
        · intro i hi1; simp [root_over, InternalNode.new] at hi1
        · simp [root_over, InternalNode.new, Node.kid, leftOf, lastKid, hgx, h3]
        · simp [root_over, InternalNode.new, Node.kid, rightOf, firstKid, hgx, h4]
    by_cases hax : a = x
    · subst hax
      rw [hgx] at ha; cases ha
      apply hold a c _ hx hgx rfl rfl rfl rfl rfl rfl
      · intro h; cases h
      · intro q hq
        cases hq
        exact ⟨_, hgr, rfl, 0, Nat.zero_le _, by simp [root_over, Node.kid]⟩
      · intro _ hty; exact hleaf hty
    · have hb : t.heap a = some n := by rw [← hgo a har hax]; exact ha
      apply hold a n n hb ha rfl rfl rfl rfl rfl rfl
      · intro h
        exact hax (((hg.nodes a n hb).is_root h).trans hxr.symm)
      · intro q hq
        obtain ⟨qn, k1, k2, j, k3, k4⟩ := (hg.nodes a n hb).has_parent q hq
        have hqr := hlive q qn k1
        by_cases hqx : q = x
        · subst hqx
          rw [hx] at k1; cases k1
          exact ⟨_, hgx, k2, j, k3, k4⟩
        · exact ⟨qn, by rw [hgo q hqr hqx]; exact k1, k2, j, k3, k4⟩
      · intro h; exact absurd (h.trans hxr.symm) hax

end Good


namespace SeqBPlusTree

/-- The state and the parent that `parent_insert` works on: the parent of the split node, or
a new root if the split node is the root. -/
def link_parent (t : SeqBPlusTree) (c : Node) : SeqBPlusTree × Nat :=
  match c.parent with
  | some p => (t, p)
  | none =>
    (({ t with next := t.next + 1, depth := t.depth + 1,
               id_accumulator := t.id_accumulator + 1,
               node_count := t.node_count + 1, root := t.next } : SeqBPlusTree).set t.next
        { InternalNode.new with id := t.id_accumulator + 1 }, t.next)

/-- The link of the pair in the parent and the parent pointers of the two halves. The result
is the new state and whether the parent was full. -/
def link_at (t1 : SeqBPlusTree) (parent curr_node : Nat) (key : Int) (right_half : Nat) :
    Option (SeqBPlusTree × Bool) :=
  (t1.heap parent).bind fun pn =>
  (link_node pn curr_node key right_half).bind fun pn3 =>
  ((t1.set parent pn3).upd curr_node (fun x => { x with parent := some parent })).bind fun t3 =>
  (t3.upd right_half (fun x => { x with parent := some parent })).bind fun t4 =>
  some (t4, pn.isFull)

set_option linter.unusedTactic false in
set_option linter.unreachableTactic false in
theorem link_at_bind (F : SeqBPlusTree → Option SeqBPlusTree) (t1 : SeqBPlusTree)
    (parent curr_node : Nat) (key : Int) (right_half : Nat) :
    ((t1.heap parent).bind fun pn =>
      (arr_set pn.key_ref (pn.size + 1) ⟨key, some curr_node⟩).bind fun kr1 =>
      let pn2 := sort_entry_by_key { pn with size := pn.size + 1, key_ref := kr1 }
      let kr3 :=
        match (pn2.key_ref.take (pn2.size + 1)).findIdx? (fun kr => decide (key < kr.key)) with
        | some i => pn2.key_ref.modify (fun kr => { kr with reference := some right_half }) i
        | none => pn2.key_ref
      let t2 := t1.set parent { pn2 with key_ref := kr3 }
      (t2.upd curr_node (fun x => { x with parent := some parent })).bind fun t3 =>
      (t3.upd right_half (fun x => { x with parent := some parent })).bind fun t4 =>
      if pn.isFull then F t4 else some t4) =
    (link_at t1 parent curr_node key right_half).bind fun r =>
      if r.2 then F r.1 else some r.1 := by
  simp only [link_at, link_node]
  cases t1.heap parent with
  | none => rfl
  | some pn =>
    simp only [Option.some_bind]
    cases arr_set pn.key_ref (pn.size + 1) ⟨key, some curr_node⟩ with
    | none => rfl
    | some kr1 =>
      simp only [Option.some_bind, Option.map_some', Option.bind_assoc]
      all_goals rfl

theorem parent_insert_succ (fuel : Nat) (t : SeqBPlusTree) (curr_node : Nat) (key : Int)
    (right_half : Nat) :
    parent_insert (fuel + 1) t curr_node key right_half =
      (t.heap curr_node).bind fun c =>
      (link_at (t.link_parent c).1 (t.link_parent c).2 curr_node key right_half).bind fun r =>
        if r.2 then split_internal_with (parent_insert fuel) r.1 (some (t.link_parent c).2)
        else some r.1 := by
  simp only [parent_insert, Option.seqBind_eq]
  cases t.heap curr_node with
  | none => rfl
  | some c =>
    simp only [Option.some_bind]
    exact link_at_bind (fun t4 => split_internal_with (parent_insert fuel) t4
      (some (t.link_parent c).2)) (t.link_parent c).1 (t.link_parent c).2 curr_node key right_half

end SeqBPlusTree


/-- The store after one split step, address by address: the new right half, the left half, the
parent, the old right sibling (which points back to the right half), the moved children
(whose parent is the right half), and everything else as before. -/
def split_heap (h : Nat → Option Node) (rs : Option Nat) (ds : List Nat) (rh x p : Nat)
    (R X P : Node) : Nat → Option Node :=
  fun a =>
    if a = rh then some R
    else if a = x then some X
    else if a = p then some P
    else if rs = some a then (h a).map (fun n => { n with left_sibling := some rh })
    else if a ∈ ds then (h a).map (fun n => { n with parent := some rh })
    else h a

/-- A split step from the description of its store. -/
theorem SplitStep.of_heap {t s : SeqBPlusTree} {lvl : Nat → Nat} {lo hi : Nat → Int}
    {un : Option Nat} {x p rh : Nat} {c pn X R : Node} {i : Nat} {m : Int} {ds : List Nat}
    (good : Good t lvl lo hi (some x) un) (hun : un = none ∨ un = some p)
    (prange : lo p < hi p) (hx : t.heap x = some c) (hcp : c.parent = some p)
    (hpn : t.heap p = some pn) (hi1 : i ≤ pn.size) (hk : pn.kid i = some x)
    (hfree : t.heap rh = none) (hm1 : lo x < m) (hm2 : m < hi x) (hm3 : m < INT_MAX)
    (root_eq : s.root = t.root) (next_le : t.next ≤ s.next) (rh_lt : rh < s.next)
    (depth_eq : s.depth = t.depth)
    (hs : s.heap = split_heap t.heap c.right_sibling ds rh x p R X (link_res pn i m x rh))
    (Xty : X.type = c.type) (Rty : R.type = c.type)
    (Xpar : X.parent = some p) (Rpar : R.parent = some p)
    (Xleft : X.left_sibling = c.left_sibling) (Xright : X.right_sibling = some rh)
    (Rleft : R.left_sibling = some x) (Rright : R.right_sibling = c.right_sibling)
    (Xfirst : X.kid 0 = c.kid 0) (Rlast : R.kid R.size = c.kid c.size)
    (Xkid : ∀ a j, j ≤ c.size → c.kid j = some a → a ∉ ds → ∃ j2, j2 ≤ X.size ∧ X.kid j2 = some a)
    (Dkid : ∀ d, d ∈ ds → (∃ j, j ≤ R.size ∧ R.kid j = some d) ∧ ∃ j, j ≤ c.size ∧ c.kid j = some d)
    (Xleaf : c.type = NodeType.LEAF → LeafGood t.root none none x X 0 (lo x) m)
    (Rleaf : c.type = NodeType.LEAF → LeafGood t.root none none rh R 0 m (hi x))
    (Xint : c.type = NodeType.INTERNAL → InternalGood s.heap (Function.update lvl rh (lvl x))
      (Function.update lo rh m) (Function.update (Function.update hi rh (hi x)) x m)
      none none x X)
    (Rint : c.type = NodeType.INTERNAL → InternalGood s.heap (Function.update lvl rh (lvl x))
      (Function.update lo rh m) (Function.update (Function.update hi rh (hi x)) x m)
      none none rh R) :
    SplitStep t s lvl lo hi un x p rh c pn X R i m (fun d => d ∈ ds) := by
  have hxrh : x ≠ rh := by intro h; rw [h, hfree] at hx; cases hx
  have hprh : p ≠ rh := by intro h; rw [h, hfree] at hpn; cases hpn
  obtain ⟨pn2, i2, h1, h2, h3, h4, h5, h6, h7⟩ := good.parent_info hx hcp
  have hpx : p ≠ x := by intro h; rw [h] at h5; omega
  have hd : ∀ d, d ∈ ds → ∃ dn, t.heap d = some dn ∧ lvl d + 1 = lvl x := by
    intro d hd
    obtain ⟨_, j, hj, hkj⟩ := Dkid d hd
    obtain ⟨dn, e1, e2, e3, _⟩ := good.kid_live hx hj hkj
    exact ⟨dn, e1, e3⟩
  have hr : ∀ rs, c.right_sibling = some rs → ∃ rsn, t.heap rs = some rsn ∧ lvl rs = lvl x ∧
      rs ≠ x := by
    intro rs hrs
    obtain ⟨rsn, e1, e2, e3, e4⟩ := good.right_info _ x c rs rfl hx hrs
    refine ⟨rsn, e1, e3, ?_⟩
    intro h; rw [h] at e4; omega
  exact
    { good := good, hun := hun, prange := prange, hx := hx, hcp := hcp, hpn := hpn, hi1 := hi1,
      hk := hk, hfree := hfree, hm1 := hm1, hm2 := hm2, hm3 := hm3, root_eq := root_eq,
      next_le := next_le, rh_lt := rh_lt, depth_eq := depth_eq,
      hP := by rw [hs]; simp only [split_heap, if_neg hprh, if_neg hpx, if_true]
      hX := by rw [hs]; simp only [split_heap, if_neg hxrh, if_true]
      hR := by rw [hs]; simp only [split_heap, if_true]
      hRS := by
        intro rs hrs
        obtain ⟨rsn, e1, e2, e3⟩ := hr rs hrs
        refine ⟨rsn, e1, ?_⟩
        have h1 : rs ≠ rh := by intro h; rw [h, hfree] at e1; cases e1
        have h2 : rs ≠ p := by intro h; rw [h] at e2; omega
        rw [hs]
        simp only [split_heap, if_neg h1, if_neg e3, if_neg h2, hrs, if_true, e1, Option.map_some']
      hD := by
        intro d hdd
        obtain ⟨dn, e1, e2⟩ := hd d hdd
        refine ⟨dn, e1, ?_⟩
        have h1 : d ≠ rh := by intro h; rw [h, hfree] at e1; cases e1
        have h2 : d ≠ p := by intro h; rw [h] at e2; omega
        have h3 : d ≠ x := by intro h; rw [h] at e2; omega
        have h4 : c.right_sibling ≠ some d := by
          intro h
          obtain ⟨rsn, k1, k2, k3⟩ := hr d h
          omega
        rw [hs]
        simp only [split_heap, if_neg h1, if_neg h3, if_neg h2, if_neg h4, if_pos hdd, e1,
          Option.map_some']
      hO := by
        intro a h1 h2 h3 h4 h5
        rw [hs]
        simp only [split_heap, if_neg h3, if_neg h2, if_neg h1, if_neg h4, if_neg h5]
      Xty := Xty, Rty := Rty, Xpar := Xpar, Rpar := Rpar, Xleft := Xleft, Xright := Xright,
      Rleft := Rleft, Rright := Rright, Xfirst := Xfirst, Rlast := Rlast, Xkid := Xkid,
      Dkid := Dkid, Xleaf := Xleaf, Rleaf := Rleaf, Xint := Xint, Rint := Rint }


namespace SeqBPlusTree

theorem upd_live {t : SeqBPlusTree} {a : Nat} {n : Node} (f : Node → Node)
    (h : t.heap a = some n) : t.upd a f = some (t.set a (f n)) := by
  simp only [upd, h, Option.map_some']

/-- The pointer update `rs->left_sibling = right_half` of the two split functions, when the
right sibling is NULL or live. -/
def relink (t : SeqBPlusTree) (rs : Option Nat) (rh : Nat) : SeqBPlusTree :=
  match rs with
  | none => t
  | some a =>
    match t.heap a with
    | none => t
    | some n => t.set a { n with left_sibling := some rh }

/-- The right half that `split_leaf` creates. -/
def leaf_right (t : SeqBPlusTree) (x : Nat) (c : Node) : Node :=
  { Leaf.new with
    key_value := (c.key_value.take c.size).drop (c.size / 2) ++
      Leaf.new.key_value.drop ((c.key_value.take c.size).drop (c.size / 2)).length
    size := ((c.key_value.take c.size).drop (c.size / 2)).length
    id := t.id_accumulator + 1
    right_sibling := c.right_sibling, left_sibling := some x }

/-- The state of `split_leaf` at its call of `parent_insert`. -/
def leaf_cut (t : SeqBPlusTree) (x : Nat) (c : Node) : SeqBPlusTree :=
  ((relink { t with next := t.next + 1, id_accumulator := t.id_accumulator + 1,
                    node_count := t.node_count + 1 } c.right_sibling t.next).set t.next
    (leaf_right t x c)).set x { c with size := c.size / 2, right_sibling := some t.next }

theorem list_len4 {α : Type} (l : List α) (h : l.length = 4) :
    ∃ a b c d, l = [a, b, c, d] := by
  match l, h with
  | [a, b, c, d], _ => exact ⟨a, b, c, d, rfl⟩

theorem split_leaf_eq (fuel : Nat) {t : SeqBPlusTree} {x : Nat} {c : Node}
    (hx : t.heap x = some c) (hty : c.type = NodeType.LEAF) (hsz : c.size = 4)
    (hlen : c.key_value.length = 4) (hxn : x ≠ t.next)
    (hrs : ∀ rs, c.right_sibling = some rs → rs ≠ x ∧ rs ≠ t.next ∧ t.heap rs ≠ none) :
    split_leaf fuel t (some x) =
      parent_insert fuel (leaf_cut t x c) x
        (((c.key_value.get? 2).map (fun kv => kv.key)).getD 0) t.next := by
  obtain ⟨e0, e1, e2, e3, he⟩ := list_len4 c.key_value hlen
  cases hr : c.right_sibling with
  | none =>
    simp [split_leaf, hx, hty, hsz, he, hr, Node.isFull, arr_blit, Leaf.new, leaf_cut,
      leaf_right, relink, upd, set, Function.update_noteq hxn]
  | some rs =>
    obtain ⟨h1, h2, h3⟩ := hrs rs hr
    cases hn : t.heap rs with
    | none => exact absurd hn h3
    | some rsn =>
      simp [split_leaf, hx, hty, hsz, he, hr, Node.isFull, arr_blit, Leaf.new, leaf_cut,
        leaf_right, relink, upd, set, Function.update_noteq hxn, hn,
        Function.update_noteq (Ne.symm h1), Function.update_noteq (Ne.symm h2)]

end SeqBPlusTree


namespace Good

variable {t : SeqBPlusTree} {lvl : Nat → Nat} {lo hi : Nat → Int} {ov un : Option Nat}

/-- The link of a new pair for the right half of `x`, split at a key inside its range, is the
insertion of the pair right after the slot of `x`. -/
theorem link_ok (hg : Good t lvl lo hi ov un) {x p : Nat} {c pn : Node} {m : Int}
    (hx : t.heap x = some c) (hcp : c.parent = some p) (hpn : t.heap p = some pn)
    (hsz : pn.size ≤ 3) (hm1 : lo x < m) (hm2 : m < hi x) (hm3 : m < INT_MAX) (rh : Nat) :
    ∃ i, i ≤ pn.size ∧ pn.kid i = some x ∧
      link_node pn x m rh = some (link_res pn i m x rh) := by
  obtain ⟨pn2, i, h1, h2, h3, h4, h5, h6, h7⟩ := hg.parent_info hx hcp
  rw [hpn] at h1; cases h1
  have hin := hg.internal_good hpn h2
  have hd := hin.dummy
  have hsrt : ∀ j k, j < k → k ≤ pn.size → pn.sep j < pn.sep k := by
    intro j k hjk hk
    by_cases hks : k = pn.size
    · rw [hks, hd]; exact hin.sep_max j (by omega)
    · exact hin.sep_sorted j k hjk (by omega)
  refine ⟨i, h3, h4, link_node_eq pn h2 hin.len hsz i h3 m x rh hsrt ?_ ?_⟩
  · intro j hj
    have e : lo x = pn.sep (i - 1) := by rw [h6]; unfold lob; rw [if_neg (by omega)]
    by_cases hji : j = i - 1
    · rw [hji]; omega
    · have := hsrt j (i - 1) (by omega) (by omega)
      omega
  · intro j hj hjs
    by_cases his : i = pn.size
    · have : j = pn.size := by omega
      rw [this, hd]; exact hm3
    · have e : hi x = pn.sep i := by rw [h7]; unfold hib; rw [if_neg his]
      by_cases hji : j = i
      · rw [hji]; omega
      · have := hsrt i j (by omega) hjs
        omega

/-- The key range of every live node lies within the range of `int`: the upper bound is at
most `INT_MAX + 1`, the lower bound at least `INT_MIN`. -/
theorem range_int (hg : Good t lvl lo hi ov un) :
    ∀ k a n, lvl t.root - lvl a = k → t.heap a = some n →
      INT_MIN ≤ lo a ∧ hi a ≤ INT_MAX + 1 := by
  intro k
  induction k with
  | zero =>
    intro a n hk ha
    have := (hg.nodes a n ha).lvl_le
    have hroot : a = t.root := hg.top_is_root ha (by omega)
    rw [hroot, hg.root_lo, hg.root_hi]
    exact ⟨le_refl _, le_refl _⟩
  | succ k ih =>
    intro a n hk ha
    cases hp : n.parent with
    | none =>
      have := (hg.nodes a n ha).is_root hp
      subst this; omega
    | some p =>
      obtain ⟨pn, i, hpn, hty, hi1, hkid, h4, h5, h6⟩ := hg.parent_info ha hp
      have := (hg.nodes p pn hpn).lvl_le
      obtain ⟨e1, e2⟩ := ih p pn (by omega) hpn
      obtain ⟨b1, b2⟩ := hg.sep_between hpn hty i hi1
      rw [h5, h6]
      omega

end Good


namespace SeqBPlusTree

theorem link_at_eq {T : SeqBPlusTree} {p x rh : Nat} {pn P X1 R1 : Node} {m : Int}
    (hp : T.heap p = some pn) (hl : link_node pn x m rh = some P)
    (hx : T.heap x = some X1) (hr : T.heap rh = some R1) (hpx : p ≠ x) (hpr : p ≠ rh)
    (hxr : x ≠ rh) :
    link_at T p x m rh =
      some (((T.set p P).set x { X1 with parent := some p }).set rh
        { R1 with parent := some p }, pn.isFull) := by
  have h1 : (T.set p P).heap x = some X1 := by
    simp only [set, Function.update_noteq (Ne.symm hpx), hx]
  have h2 : ((T.set p P).set x { X1 with parent := some p }).heap rh = some R1 := by
    simp only [set, Function.update_noteq (Ne.symm hxr), Function.update_noteq (Ne.symm hpr), hr]
  simp only [link_at, hp, hl, Option.some_bind, upd_live _ h1, upd_live _ h2]

/-- The store of `leaf_cut`, address by address. -/
theorem leaf_cut_heap (t : SeqBPlusTree) (x : Nat) (c : Node) (a : Nat)
    (hxn : x ≠ t.next) :
    (leaf_cut t x c).heap a =
      if a = x then some { c with size := c.size / 2, right_sibling := some t.next }
      else if a = t.next then some (leaf_right t x c)
      else if c.right_sibling = some a then
        (t.heap a).map (fun n => { n with left_sibling := some t.next })
      else t.heap a := by
  simp only [leaf_cut, set]
  by_cases h1 : a = x
  · subst h1; rw [Function.update_same, if_pos rfl]
  rw [Function.update_noteq h1, if_neg h1]
  by_cases h2 : a = t.next
  · subst h2; rw [Function.update_same, if_pos rfl]
  rw [Function.update_noteq h2, if_neg h2]
  cases hr : c.right_sibling with
  | none => simp [relink]
  | some rs =>
    simp only [relink]
    cases hn : t.heap rs with
    | none =>
      simp only []
      by_cases h3 : rs = a
      · subst h3; simp [hn]
      · simp [h3]
    | some rsn =>
      simp only [set]
      by_cases h3 : rs = a
      · subst h3; simp [hn]
      · simp [h3, Function.update_noteq (Ne.symm h3)]

end SeqBPlusTree


/-- The node with a new parent pointer. -/
def Node.with_parent (n : Node) (p : Nat) : Node := { n with parent := some p }

/-- A leaf with four entries, which a split is pending for. -/
theorem LeafGood.four {root : Nat} {ov un : Option Nat} {a : Nat} {n : Node} {lv : Nat}
    {lo hi : Int} (h : LeafGood root ov un a n lv lo hi) (hs : n.size = 4) :
    ∃ e0 e1 e2 e3, n.key_value = [e0, e1, e2, e3] ∧ lo ≤ e0.key ∧ e0.key < e1.key ∧
      e1.key < e2.key ∧ e2.key < e3.key ∧ e3.key < hi := by
  obtain ⟨e0, e1, e2, e3, he⟩ := SeqBPlusTree.list_len4 n.key_value h.len
  have hsrt := h.sorted
  have hr := h.range
  simp only [Node.keys, Node.entries, he, hs, List.take, List.map, List.pairwise_cons,
    List.mem_cons, List.mem_singleton, forall_eq_or_imp, forall_eq] at hsrt hr
  refine ⟨e0, e1, e2, e3, he, hr.1.1, hsrt.1.1, hsrt.2.1.1, hsrt.2.2.1.1, ?_⟩
  have := hr.2.2.2
  simp only [List.not_mem_nil, false_imp_iff, implies_true, and_true] at this
  exact this.2

namespace SeqBPlusTree

@[simp] theorem relink_root (t : SeqBPlusTree) (rs : Option Nat) (rh : Nat) :
    (t.relink rs rh).root = t.root := by
  unfold relink; split
  · rfl
  · split <;> rfl

@[simp] theorem relink_next (t : SeqBPlusTree) (rs : Option Nat) (rh : Nat) :
    (t.relink rs rh).next = t.next := by
  unfold relink; split
  · rfl
  · split <;> rfl

@[simp] theorem relink_depth (t : SeqBPlusTree) (rs : Option Nat) (rh : Nat) :
    (t.relink rs rh).depth = t.depth := by
  unfold relink; split
  · rfl
  · split <;> rfl

@[simp] theorem relink_node_count (t : SeqBPlusTree) (rs : Option Nat) (rh : Nat) :
    (t.relink rs rh).node_count = t.node_count := by
  unfold relink; split
  · rfl
  · split <;> rfl

@[simp] theorem relink_id_accumulator (t : SeqBPlusTree) (rs : Option Nat) (rh : Nat) :
    (t.relink rs rh).id_accumulator = t.id_accumulator := by
  unfold relink; split
  · rfl
  · split <;> rfl

end SeqBPlusTree

/-- The two halves of a leaf with four entries satisfy the clause of a leaf, with the third
key as the bound between them. -/
theorem LeafGood.halves {root : Nat} {ov un : Option Nat} {x : Nat} {c : Node} {lv : Nat}
    {lo hi : Int} (hl : LeafGood root ov un x c lv lo hi) (hsz : c.size = 4)
    (root2 : Nat) (t : SeqBPlusTree) (p : Nat) :
    ∃ m, ((c.key_value.get? 2).map (fun kv => kv.key)).getD 0 = m ∧ lo < m ∧ m < hi ∧
      (Node.with_parent { c with size := c.size / 2, right_sibling := some t.next } p).entries =
        c.entries.take 2 ∧
      (Node.with_parent (t.leaf_right x c) p).entries = c.entries.drop 2 ∧
      LeafGood root2 none none x
        (Node.with_parent { c with size := c.size / 2, right_sibling := some t.next } p)
        0 lo m ∧
      LeafGood root2 none none t.next (Node.with_parent (t.leaf_right x c) p) 0 m hi := by
  obtain ⟨e0, e1, e2, e3, he, k0, k1, k2, k3, k4⟩ := hl.four hsz
  refine ⟨e2.key, by simp [he], by omega, by omega, ?_, ?_, ?_, ?_⟩
  · simp [Node.entries, Node.with_parent, he, hsz]
  · simp [Node.entries, Node.with_parent, SeqBPlusTree.leaf_right, he, hsz]
  · constructor
    · rfl
    · exact hl.len
    · exact hl.noref
    · left; show c.size / 2 ≤ ORDER - 1; rw [hsz]; decide
    · right; left; show ORDER / 2 ≤ c.size / 2; rw [hsz]
    · simp only [Node.keys, Node.entries, Node.with_parent, he, hsz, List.take, List.map,
        List.pairwise_cons,
        List.mem_singleton, forall_eq, List.not_mem_nil, false_imp_iff, implies_true,
        List.Pairwise.nil, and_true]
      exact k1
    · intro k hk
      simp only [Node.keys, Node.entries, Node.with_parent, he, hsz, List.take, List.map,
        List.mem_cons,
        List.mem_singleton, List.not_mem_nil, or_false] at hk
      rcases hk with h | h <;> rw [h] <;> omega
  · constructor
    · rfl
    · simp [Node.with_parent, SeqBPlusTree.leaf_right, he, hsz, Leaf.new, ORDER]
    · rfl
    · left; simp [Node.with_parent, SeqBPlusTree.leaf_right, he, hsz, ORDER]
    · right; left; simp [Node.with_parent, SeqBPlusTree.leaf_right, he, hsz, ORDER]
    · simp only [Node.keys, Node.entries, Node.with_parent, SeqBPlusTree.leaf_right, he, hsz]
      simp [k3]
    · intro k hk
      simp only [Node.keys, Node.entries, Node.with_parent, SeqBPlusTree.leaf_right, he,
        hsz] at hk
      simp at hk
      rcases hk with h | h <;> rw [h] <;> omega

namespace Good

variable {t : SeqBPlusTree} {lvl : Nat → Nat} {lo hi : Nat → Int}

/-- The split of a full leaf below an existing parent: `split_leaf` up to the recursive call
is a split step. -/
theorem leaf_split {x p : Nat} {c : Node} (hg : Good t lvl lo hi (some x) none)
    (hx : t.heap x = some c) (hty : c.type = NodeType.LEAF) (hsz : c.size = 4)
    (hcp : c.parent = some p) :
    ∃ s pn i X R,
      SeqBPlusTree.link_at (t.leaf_cut x c) p x
        (((c.key_value.get? 2).map (fun kv => kv.key)).getD 0) t.next = some (s, pn.isFull) ∧
      SplitStep t s lvl lo hi none x p t.next c pn X R i
        (((c.key_value.get? 2).map (fun kv => kv.key)).getD 0) (fun d => d ∈ ([] : List Nat)) ∧
      X.entries = c.entries.take 2 ∧ R.entries = c.entries.drop 2 ∧
      s.node_count = t.node_count + 1 := by
  have hl := hg.leaf_good hx hty
  obtain ⟨m, hm, hm1, hm2, hXe, hRe, hXl, hRl⟩ := hl.halves hsz t.root t p
  obtain ⟨pn, i0, hpn, hpty, hi0, hk0, hlv, hlo, hhi⟩ := hg.parent_info hx hcp
  have hpx : p ≠ x := by intro h; rw [h] at hlv; omega
  have hin := hg.internal_good hpn hpty
  have hpsz : pn.size ≤ 3 := by
    rcases hin.size_le with g | g
    · simpa only [ORDER] using g
    · exact absurd (Option.some.inj g.2).symm hpx
  have hxn : x ≠ t.next := by have := hg.live_lt hx; omega
  have hpn2 : p ≠ t.next := by have := hg.live_lt hpn; omega
  have hfree : t.heap t.next = none := hg.fresh _ (Nat.le_refl _)
  obtain ⟨b1, b2⟩ := hg.range_int _ x c rfl hx
  rw [hm]
  have hm3 : m < INT_MAX := by
    obtain ⟨e0, e1, e2, e3, he, k0, k1, k2, k3, k4⟩ := hl.four hsz
    have : m = e2.key := by rw [← hm]; simp [he]
    omega
  obtain ⟨i, hi1, hk, hlink⟩ := hg.link_ok hx hcp hpn hpsz hm1 hm2 hm3 t.next
  have hrs : ∀ rs, c.right_sibling = some rs → ∃ rsn, t.heap rs = some rsn ∧ rs ≠ x ∧
      rs ≠ t.next ∧ rs ≠ p := by
    intro rs hr
    obtain ⟨rsn, g1, g2, g3, g4⟩ := hg.right_info _ x c rs rfl hx hr
    refine ⟨rsn, g1, ?_, ?_, ?_⟩
    · intro h; rw [h] at g4; omega
    · have := hg.live_lt g1; omega
    · intro h; rw [h] at g3; omega
  have hTp : (t.leaf_cut x c).heap p = some pn := by
    rw [SeqBPlusTree.leaf_cut_heap t x c p hxn, if_neg hpx, if_neg hpn2, if_neg, hpn]
    intro h
    obtain ⟨_, _, _, _, g⟩ := hrs p h
    exact g rfl
  have hTx : (t.leaf_cut x c).heap x =
      some { c with size := c.size / 2, right_sibling := some t.next } := by
    rw [SeqBPlusTree.leaf_cut_heap t x c x hxn, if_pos rfl]
  have hTr : (t.leaf_cut x c).heap t.next = some (t.leaf_right x c) := by
    rw [SeqBPlusTree.leaf_cut_heap t x c _ hxn, if_neg (Ne.symm hxn), if_pos rfl]
  refine ⟨_, pn, i,
    Node.with_parent { c with size := c.size / 2, right_sibling := some t.next } p,
    Node.with_parent (t.leaf_right x c) p,
    SeqBPlusTree.link_at_eq hTp hlink hTx hTr hpx hpn2 hxn, ?_, hXe, hRe, ?_⟩
  · have hprange : lo p < hi p := by
      rcases hin.size_ge with g | g
      · have := hin.sep_lo 0 (by omega)
        have := hin.sep_hi 0 (by omega)
        omega
      · cases g
    have hs : SeqBPlusTree.heap ((((t.leaf_cut x c).set p (link_res pn i m x t.next)).set x
        (Node.with_parent { c with size := c.size / 2, right_sibling := some t.next } p)).set
          t.next (Node.with_parent (t.leaf_right x c) p)) =
        split_heap t.heap c.right_sibling [] t.next x p
          (Node.with_parent (t.leaf_right x c) p)
          (Node.with_parent { c with size := c.size / 2, right_sibling := some t.next } p)
          (link_res pn i m x t.next) := by
      funext a
      simp only [SeqBPlusTree.set, split_heap]
      by_cases h1 : a = t.next
      · subst h1; rw [Function.update_same, if_pos rfl]
      rw [Function.update_noteq h1, if_neg h1]
      by_cases h2 : a = x
      · subst h2; rw [Function.update_same, if_pos rfl]
      rw [Function.update_noteq h2, if_neg h2]
      by_cases h3 : a = p
      · subst h3; rw [Function.update_same, if_pos rfl]
      rw [Function.update_noteq h3, if_neg h3, SeqBPlusTree.leaf_cut_heap t x c a hxn,
        if_neg h2, if_neg h1]
      simp
    exact SplitStep.of_heap hg (Or.inl rfl) hprange hx hcp hpn hi1 hk hfree hm1 hm2 hm3
      (by simp [SeqBPlusTree.set, SeqBPlusTree.leaf_cut])
      (by simp [SeqBPlusTree.set, SeqBPlusTree.leaf_cut])
      (by simp [SeqBPlusTree.set, SeqBPlusTree.leaf_cut])
      (by simp [SeqBPlusTree.set, SeqBPlusTree.leaf_cut])
      hs rfl hty.symm rfl rfl rfl rfl rfl rfl rfl
      (by
        simp only [Node.with_parent, SeqBPlusTree.leaf_right, Node.kid, Leaf.new]
        rw [hl.noref]
        rfl)
      (by
        intro a j hj hkj
        have := Node.kid_of_noref c hl.noref j
        rw [hkj] at this; cases this)
      (by intro d hd; cases hd)
      (fun _ => hXl) (fun _ => hRl)
      (by intro h; rw [hty] at h; cases h)
      (by intro h; rw [hty] at h; cases h)
  · simp [SeqBPlusTree.set, SeqBPlusTree.leaf_cut]

end Good


/-- The link of the first pair in a new root. -/
theorem link_node_root (id : Int) (x rh : Nat) (m : Int) (hm : m < INT_MAX) :
    link_node { InternalNode.new with id := id } x m rh =
      some (link_res (root_over x id) 0 m x rh) := by
  have h1 : m ≤ 2147483647 := by simp only [INT_MAX] at hm; omega
  have h2 : ¬ (2147483647 : Int) < m := by omega
  have h3 : ¬ (2147483647 : Int) ≤ m := by simp only [INT_MAX] at hm; omega
  simp [link_node, InternalNode.new, arr_set, sort_entry_by_key, List.insertionSort,
    List.orderedInsert, link_res, link_pairs, root_over, h1, h2, h3, hm, INT_MAX,
    List.findIdx?, List.modify, ORDER, List.replicate]

namespace Good

variable {t : SeqBPlusTree} {lvl : Nat → Nat} {lo hi : Nat → Int}

/-- The split of a full root leaf: `split_leaf` makes a new root over the two halves. -/
theorem leaf_split_root {x : Nat} {c : Node} (hg : Good t lvl lo hi (some x) none)
    (hx : t.heap x = some c) (hty : c.type = NodeType.LEAF) (hsz : c.size = 4)
    (hcp : c.parent = none) (fuel : Nat) :
    ∃ s X R,
      SeqBPlusTree.split_leaf (fuel + 1) t (some x) = some s ∧
      SplitStep (t.with_root x (t.next + 1) c (t.id_accumulator + 2)) s
        (Function.update lvl (t.next + 1) (lvl x + 1))
        (Function.update lo (t.next + 1) INT_MIN)
        (Function.update hi (t.next + 1) (INT_MAX + 1))
        (some (t.next + 1)) x (t.next + 1) t.next { c with parent := some (t.next + 1) }
        (root_over x (t.id_accumulator + 2)) X R 0
        (((c.key_value.get? 2).map (fun kv => kv.key)).getD 0) (fun d => d ∈ ([] : List Nat)) ∧
      X.entries = c.entries.take 2 ∧ R.entries = c.entries.drop 2 ∧
      s.node_count = t.node_count + 2 ∧
      ∃ X1 b, (t.leaf_cut x c).heap x = some X1 ∧
        SeqBPlusTree.link_at ((t.leaf_cut x c).link_parent X1).1
          ((t.leaf_cut x c).link_parent X1).2 x
          (((c.key_value.get? 2).map (fun kv => kv.key)).getD 0) t.next = some (s, b) ∧
        b = false := by
  have hl := hg.leaf_good hx hty
  obtain ⟨m, hm, hm1, hm2, hXe, hRe, hXl, hRl⟩ := hl.halves hsz (t.next + 1) t (t.next + 1)
  have hxn : x ≠ t.next := by have := hg.live_lt hx; omega
  have hxr : x ≠ t.next + 1 := by have := hg.live_lt hx; omega
  have hfree : t.heap t.next = none := hg.fresh _ (Nat.le_refl _)
  obtain ⟨b1, b2⟩ := hg.range_int _ x c rfl hx
  have hm3 : m < INT_MAX := by
    obtain ⟨e0, e1, e2, e3, he, k0, k1, k2, k3, k4⟩ := hl.four hsz
    have : m = e2.key := by rw [← hm]; simp [he]
    omega
  have hroot : x = t.root := (hg.nodes x c hx).is_root hcp
  obtain ⟨rn, r1, r2, r3, r4⟩ := hg.root_live
  rw [← hroot, hx] at r1; cases r1
  have e1 := SeqBPlusTree.split_leaf_eq (fuel + 1) hx hty hsz hl.len hxn
    (by intro rs h; rw [r4] at h; cases h)
  rw [hm] at e1 ⊢
  have hTx : (t.leaf_cut x c).heap x =
      some { c with size := c.size / 2, right_sibling := some t.next } := by
    rw [SeqBPlusTree.leaf_cut_heap t x c x hxn, if_pos rfl]
  have hlp2 : ((t.leaf_cut x c).link_parent
      { c with size := c.size / 2, right_sibling := some t.next }).2 = t.next + 1 := by
    simp [SeqBPlusTree.link_parent, hcp, SeqBPlusTree.leaf_cut, SeqBPlusTree.set]
  have hgen : ∀ a, ((t.leaf_cut x c).link_parent
      { c with size := c.size / 2, right_sibling := some t.next }).1.heap a =
      if a = t.next + 1 then some { InternalNode.new with id := t.id_accumulator + 2 }
      else if a = x then some { c with size := c.size / 2, right_sibling := some t.next }
      else if a = t.next then some (t.leaf_right x c) else t.heap a := by
    intro a
    simp only [SeqBPlusTree.link_parent, hcp, SeqBPlusTree.set]
    have hn : (t.leaf_cut x c).next = t.next + 1 := by
      simp [SeqBPlusTree.leaf_cut, SeqBPlusTree.set]
    have hid : (t.leaf_cut x c).id_accumulator = t.id_accumulator + 1 := by
      simp [SeqBPlusTree.leaf_cut, SeqBPlusTree.set]
    rw [hn, hid]
    by_cases h1 : a = t.next + 1
    · subst h1; rw [Function.update_same, if_pos rfl]
      simp only [add_assoc]; rfl
    rw [Function.update_noteq h1, if_neg h1, SeqBPlusTree.leaf_cut_heap t x c a hxn, r4]
    simp [hcp]
  have hTp := hgen (t.next + 1)
  rw [if_pos rfl] at hTp
  have hTx2 := hgen x
  rw [if_neg hxr, if_pos rfl] at hTx2
  have hTr := hgen t.next
  rw [if_neg (by omega), if_neg (Ne.symm hxn), if_pos rfl] at hTr
  have hlink := link_node_root (t.id_accumulator + 2) x t.next m hm3
  have hla := SeqBPlusTree.link_at_eq hTp hlink hTx2 hTr (Ne.symm hxr) (by omega) hxn
  refine ⟨((((t.leaf_cut x c).link_parent
          { c with size := c.size / 2, right_sibling := some t.next }).1.set (t.next + 1)
          (link_res (root_over x (t.id_accumulator + 2)) 0 m x t.next)).set x
        (Node.with_parent { c with size := c.size / 2, right_sibling := some t.next }
          (t.next + 1))).set
          t.next (Node.with_parent (t.leaf_right x c) (t.next + 1)),
      Node.with_parent { c with size := c.size / 2, right_sibling := some t.next }
      (t.next + 1), Node.with_parent (t.leaf_right x c) (t.next + 1), ?_, ?_, hXe, hRe, ?_,
      _, _, hTx, by rw [hlp2]; exact hla, by simp [Node.isFull, InternalNode.new]⟩
  · rw [e1, SeqBPlusTree.parent_insert_succ, hTx]
    simp only [Option.some_bind]
    rw [hlp2, hla]
    simp only [Option.some_bind]
    rw [if_neg]
    · rfl
    · simp [Node.isFull, InternalNode.new]
  · have hg2 := hg.add_root (t.id_accumulator + 2) hx hcp (Nat.le_succ t.next)
      (by intro _; rw [hsz]; decide)
    have hx' : (t.with_root x (t.next + 1) c (t.id_accumulator + 2)).heap x =
        some { c with parent := some (t.next + 1) } := by
      simp only [SeqBPlusTree.with_root]; rw [Function.update_same]
    have hp' : (t.with_root x (t.next + 1) c (t.id_accumulator + 2)).heap (t.next + 1) =
        some (root_over x (t.id_accumulator + 2)) := by
      simp only [SeqBPlusTree.with_root]
      rw [Function.update_noteq (Ne.symm hxr), Function.update_same]
    have hf' : (t.with_root x (t.next + 1) c (t.id_accumulator + 2)).heap t.next = none := by
      simp only [SeqBPlusTree.with_root]
      rw [Function.update_noteq (Ne.symm hxn), Function.update_noteq (by omega), hfree]
    have hs : SeqBPlusTree.heap (((((t.leaf_cut x c).link_parent
          { c with size := c.size / 2, right_sibling := some t.next }).1.set (t.next + 1)
          (link_res (root_over x (t.id_accumulator + 2)) 0 m x t.next)).set x
        (Node.with_parent { c with size := c.size / 2, right_sibling := some t.next }
          (t.next + 1))).set
          t.next (Node.with_parent (t.leaf_right x c) (t.next + 1))) =
        split_heap (t.with_root x (t.next + 1) c (t.id_accumulator + 2)).heap
          ({ c with parent := some (t.next + 1) } : Node).right_sibling [] t.next x (t.next + 1)
          (Node.with_parent (t.leaf_right x c) (t.next + 1))
          (Node.with_parent { c with size := c.size / 2, right_sibling := some t.next }
            (t.next + 1))
          (link_res (root_over x (t.id_accumulator + 2)) 0 m x t.next) := by
      funext a
      simp only [SeqBPlusTree.set, split_heap]
      by_cases h1 : a = t.next
      · subst h1; rw [Function.update_same, if_pos rfl]
      rw [Function.update_noteq h1, if_neg h1]
      by_cases h2 : a = x
      · subst h2; rw [Function.update_same, if_pos rfl]
      rw [Function.update_noteq h2, if_neg h2]
      by_cases h3 : a = t.next + 1
      · subst h3; rw [Function.update_same, if_pos rfl]
      rw [Function.update_noteq h3, if_neg h3, hgen a, if_neg h3, if_neg h2, if_neg h1, r4]
      simp [SeqBPlusTree.with_root, Function.update_noteq h2, Function.update_noteq h3]
    exact SplitStep.of_heap hg2 (Or.inr rfl)
      (by rw [Function.update_same, Function.update_same]; decide)
      hx' rfl hp' (Nat.zero_le _) (by simp [root_over, Node.kid]) hf'
      (by rw [Function.update_noteq hxr]; exact hm1)
      (by rw [Function.update_noteq hxr]; exact hm2) hm3
      (by simp [SeqBPlusTree.set, SeqBPlusTree.link_parent, hcp, SeqBPlusTree.leaf_cut,
            SeqBPlusTree.with_root])
      (by simp [SeqBPlusTree.set, SeqBPlusTree.link_parent, hcp, SeqBPlusTree.leaf_cut,
            SeqBPlusTree.with_root])
      (by simp [SeqBPlusTree.set, SeqBPlusTree.link_parent, hcp, SeqBPlusTree.leaf_cut,
            SeqBPlusTree.with_root]; omega)
      (by simp [SeqBPlusTree.set, SeqBPlusTree.link_parent, hcp, SeqBPlusTree.leaf_cut,
            SeqBPlusTree.with_root])
      hs rfl hty.symm rfl rfl rfl rfl rfl rfl rfl
      (by
        simp only [Node.with_parent, SeqBPlusTree.leaf_right, Node.kid, Leaf.new]
        rw [hl.noref]
        rfl)
      (by
        intro a j hj hkj
        have := Node.kid_of_noref c hl.noref j
        have h2 : c.kid j = some a := hkj
        rw [h2] at this; cases this)
      (by intro d hd; cases hd)
      (fun _ => by rw [Function.update_noteq hxr]; exact hXl)
      (fun _ => by rw [Function.update_noteq hxr]; exact hRl)
      (by intro h; rw [hty] at h; cases h)
      (by intro h; rw [hty] at h; cases h)
  · simp [SeqBPlusTree.set, SeqBPlusTree.link_parent, hcp, SeqBPlusTree.leaf_cut]
    omega

end Good


namespace SeqBPlusTree

/-- The right half that `split_internal` creates. -/
def internal_right (t : SeqBPlusTree) (x : Nat) (c : Node) : Node :=
  { InternalNode.new with
    key_ref := (c.key_ref.take (c.size + 1)).drop (c.size / 2 + 1) ++
      InternalNode.new.key_ref.drop ((c.key_ref.take (c.size + 1)).drop (c.size / 2 + 1)).length
    size := ((c.key_ref.take (c.size + 1)).drop (c.size / 2 + 1)).length - 1
    id := t.id_accumulator + 1
    right_sibling := c.right_sibling, left_sibling := some x }

/-- The left half that `split_internal` leaves. -/
def internal_left (t : SeqBPlusTree) (c : Node) : Node :=
  { c with
    size := c.size / 2
    key_ref := c.key_ref.modify (fun kr => { kr with key := INT_MAX }) (c.size / 2)
    right_sibling := some t.next }

/-- The pointer update `child->parent = right_half` of `split_internal`, for a live child. -/
def reparent1 (t : SeqBPlusTree) (d rh : Nat) : SeqBPlusTree :=
  match t.heap d with
  | none => t
  | some n => t.set d { n with parent := some rh }

/-- The pointer updates `child->parent = right_half` of `split_internal`. -/
def reparent (t : SeqBPlusTree) (ds : List Nat) (rh : Nat) : SeqBPlusTree :=
  ds.foldl (fun s d => reparent1 s d rh) t

/-- The counters of the state after the allocation of a right half. -/
def bump (t : SeqBPlusTree) : SeqBPlusTree :=
  { t with
    next := t.next + 1
    id_accumulator := t.id_accumulator + 1
    node_count := t.node_count + 1 }

/-- The state of `split_internal` at its call of `parent_insert`. -/
def internal_cut (t : SeqBPlusTree) (x : Nat) (c : Node) (ds : List Nat) : SeqBPlusTree :=
  ((relink (reparent t.bump ds t.next) c.right_sibling t.next).set t.next
    (internal_right t x c)).set x (internal_left t c)

end SeqBPlusTree

namespace SeqBPlusTree

set_option maxHeartbeats 2000000 in
theorem split_internal_eq (pins : SeqBPlusTree → Nat → Int → Nat → Option SeqBPlusTree)
    {t : SeqBPlusTree} {x k3 k4 : Nat} {c n3 n4 : Node}
    (hx : t.heap x = some c) (hsz : c.size = 4)
    (hlen : c.key_ref.length = 5) (hxn : x ≠ t.next)
    (h3 : c.kid 3 = some k3) (h4 : c.kid 4 = some k4)
    (l3 : t.heap k3 = some n3) (l4 : t.heap k4 = some n4)
    (d34 : k3 ≠ k4) (d3x : k3 ≠ x) (d4x : k4 ≠ x)
    (hrs : ∀ rs, c.right_sibling = some rs → rs ≠ x ∧ rs ≠ t.next ∧ rs ≠ k3 ∧ rs ≠ k4 ∧
      t.heap rs ≠ none) :
    split_internal_with pins t (some x) =
      pins (internal_cut t x c [k3, k4]) x (c.sep 2) t.next := by
  obtain ⟨e0, e1, e2, e3, e4, he⟩ := list_len5 c.key_ref hlen
  simp only [Node.kid, he] at h3 h4
  simp at h3 h4
  cases hr : c.right_sibling with
  | none =>
    simp [split_internal_with, hx, hsz, he, hr, Node.isFull, arr_blit, arr_set, size_dec,
      InternalNode.new, internal_cut, internal_right, internal_left, relink, reparent,
      reparent1, bump, upd, set, Function.update_noteq hxn, h3, h4, l3, l4,
      Function.update_noteq (Ne.symm d34), Function.update_noteq (Ne.symm d3x),
      Function.update_noteq (Ne.symm d4x), Function.update_noteq d34, Node.sep, List.modify]
  | some rs =>
    obtain ⟨g1, g2, g3, g4, g5⟩ := hrs rs hr
    cases hn : t.heap rs with
    | none => exact absurd hn g5
    | some rsn =>
      simp [split_internal_with, hx, hsz, he, hr, Node.isFull, arr_blit, arr_set, size_dec,
        InternalNode.new, internal_cut, internal_right, internal_left, relink, reparent,
        reparent1, bump, upd, set, Function.update_noteq hxn, h3, h4, l3, l4,
        Function.update_noteq (Ne.symm d34), Function.update_noteq (Ne.symm d3x),
        Function.update_noteq (Ne.symm d4x), Function.update_noteq d34, Node.sep, List.modify,
        hn, Function.update_noteq (Ne.symm g1), Function.update_noteq (Ne.symm g2),
        Function.update_noteq g3, Function.update_noteq g4,
        Function.update_noteq (Ne.symm g3), Function.update_noteq (Ne.symm g4)]

end SeqBPlusTree


namespace SeqBPlusTree

theorem reparent1_heap (t : SeqBPlusTree) (d rh a : Nat) :
    (reparent1 t d rh).heap a =
      if a = d then (t.heap a).map (fun n => { n with parent := some rh }) else t.heap a := by
  unfold reparent1
  cases hd : t.heap d with
  | none =>
    by_cases h : a = d
    · subst h; simp [hd]
    · simp [h]
  | some n =>
    by_cases h : a = d
    · subst h; simp [set, hd]
    · simp [set, h, Function.update_noteq h]

theorem reparent_heap (ds : List Nat) (rh a : Nat) : ∀ t : SeqBPlusTree,
    (reparent t ds rh).heap a =
      if a ∈ ds then (t.heap a).map (fun n => { n with parent := some rh }) else t.heap a := by
  induction ds with
  | nil => intro t; simp [reparent]
  | cons d ds ih =>
    intro t
    have := ih (reparent1 t d rh)
    simp only [reparent, List.foldl_cons] at this ⊢
    rw [this, reparent1_heap]
    by_cases h1 : a = d
    · subst h1
      by_cases h2 : a ∈ ds
      · simp [h2]
        cases t.heap a <;> rfl
      · simp [h2]
    · by_cases h2 : a ∈ ds
      · simp [h1, h2]
      · simp [h1, h2]

@[simp] theorem reparent1_next (t : SeqBPlusTree) (d rh : Nat) :
    (reparent1 t d rh).next = t.next := by
  unfold reparent1; split <;> rfl

@[simp] theorem reparent1_root (t : SeqBPlusTree) (d rh : Nat) :
    (reparent1 t d rh).root = t.root := by
  unfold reparent1; split <;> rfl

@[simp] theorem reparent1_depth (t : SeqBPlusTree) (d rh : Nat) :
    (reparent1 t d rh).depth = t.depth := by
  unfold reparent1; split <;> rfl

@[simp] theorem reparent1_node_count (t : SeqBPlusTree) (d rh : Nat) :
    (reparent1 t d rh).node_count = t.node_count := by
  unfold reparent1; split <;> rfl

@[simp] theorem reparent1_id_accumulator (t : SeqBPlusTree) (d rh : Nat) :
    (reparent1 t d rh).id_accumulator = t.id_accumulator := by
  unfold reparent1; split <;> rfl

theorem relink_heap (t : SeqBPlusTree) (rs : Option Nat) (rh a : Nat) :
    (relink t rs rh).heap a =
      if rs = some a then (t.heap a).map (fun n => { n with left_sibling := some rh })
      else t.heap a := by
  cases rs with
  | none => simp [relink]
  | some r =>
    simp only [relink]
    cases hn : t.heap r with
    | none =>
      by_cases h3 : r = a
      · subst h3; simp [hn]
      · simp [h3]
    | some rsn =>
      by_cases h3 : r = a
      · subst h3; simp [hn, set]
      · simp [h3, set, Function.update_noteq (Ne.symm h3)]

/-- The store of `internal_cut`, address by address. -/
theorem internal_cut_heap (t : SeqBPlusTree) (x : Nat) (c : Node) (ds : List Nat) (a : Nat) :
    (internal_cut t x c ds).heap a =
      if a = x then some (internal_left t c)
      else if a = t.next then some (internal_right t x c)
      else if c.right_sibling = some a then
        ((if a ∈ ds then (t.heap a).map (fun n => { n with parent := some t.next })
          else t.heap a)).map (fun n => { n with left_sibling := some t.next })
      else if a ∈ ds then (t.heap a).map (fun n => { n with parent := some t.next })
      else t.heap a := by
  simp only [internal_cut, set]
  by_cases h1 : a = x
  · subst h1; rw [Function.update_same, if_pos rfl]
  rw [Function.update_noteq h1, if_neg h1]
  by_cases h2 : a = t.next
  · subst h2; rw [Function.update_same, if_pos rfl]
  rw [Function.update_noteq h2, if_neg h2, relink_heap, reparent_heap]
  rfl

end SeqBPlusTree


namespace SeqBPlusTree

/-- The separators and children of the two halves of an internal node with four separators. -/
theorem internal_halves_fields (t0 : SeqBPlusTree) (x p : Nat) (c : Node)
    (hlen : c.key_ref.length = 5) (hsz : c.size = 4) :
    (∀ j, (Node.with_parent (internal_left t0 c) p).kid j = c.kid j) ∧
    (∀ j, (Node.with_parent (internal_left t0 c) p).sep j =
      if j = 2 then INT_MAX else c.sep j) ∧
    (∀ j, j ≤ 1 → (Node.with_parent (internal_right t0 x c) p).kid j = c.kid (j + 3)) ∧
    (∀ j, j ≤ 1 → (Node.with_parent (internal_right t0 x c) p).sep j = c.sep (j + 3)) ∧
    (Node.with_parent (internal_left t0 c) p).size = 2 ∧
    (Node.with_parent (internal_right t0 x c) p).size = 1 ∧
    (Node.with_parent (internal_left t0 c) p).key_ref.length = 5 ∧
    (Node.with_parent (internal_right t0 x c) p).key_ref.length = 5 := by
  obtain ⟨e0, e1, e2, e3, e4, he⟩ := list_len5 c.key_ref hlen
  refine ⟨?_, ?_, ?_, ?_, ?_, ?_, ?_, ?_⟩
  · intro j
    simp only [Node.with_parent, internal_left, Node.kid, he, hsz]
    match j with
    | 0 => rfl
    | 1 => rfl
    | 2 => rfl
    | 3 => rfl
    | 4 => rfl
    | (n + 5) => rfl
  · intro j
    simp only [Node.with_parent, internal_left, Node.sep, he, hsz]
    match j with
    | 0 => rfl
    | 1 => rfl
    | 2 => rfl
    | 3 => rfl
    | 4 => rfl
    | (n + 5) => simp
  · intro j hj
    simp only [Node.with_parent, internal_right, Node.kid, he, hsz]
    match j, hj with
    | 0, _ => rfl
    | 1, _ => rfl
  · intro j hj
    simp only [Node.with_parent, internal_right, Node.sep, he, hsz]
    match j, hj with
    | 0, _ => rfl
    | 1, _ => rfl
  · simp [Node.with_parent, internal_left, hsz]
  · simp [Node.with_parent, internal_right, he, hsz]
  · simp [Node.with_parent, internal_left, he]
  · simp [Node.with_parent, internal_right, he, hsz, InternalNode.new, ORDER]

end SeqBPlusTree


namespace Good

variable {t : SeqBPlusTree} {lvl : Nat → Nat} {lo hi : Nat → Int} {un : Option Nat}

/-- The store after the split of the internal node `x`, as the children and the siblings of
`x` see it. -/
theorem split_heap_kids {x : Nat} {c : Node} (hg : Good t lvl lo hi (some x) un)
    (hx : t.heap x = some c) (hty : c.type = NodeType.INTERNAL) (hsz : c.size = 4)
    (rh : Nat) (hfree : t.heap rh = none) (p : Nat) (hp : lvl p = lvl x + 1) (R X P : Node)
    {k3 k4 : Nat} (h3 : c.kid 3 = some k3) (h4 : c.kid 4 = some k4) :
    (∀ j a an, j ≤ 4 → c.kid j = some a → t.heap a = some an →
      split_heap t.heap c.right_sibling [k3, k4] rh x p R X P a =
        some (if 3 ≤ j then { an with parent := some rh } else an)) ∧
    (∀ a an, t.heap a = some an → lvl a = lvl x → a ≠ x →
      ∃ bn, split_heap t.heap c.right_sibling [k3, k4] rh x p R X P a = some bn ∧
        bn.key_ref = an.key_ref ∧ bn.size = an.size) := by
  have hin := hg.internal_good hx hty
  constructor
  · intro j a an hj hk ha
    obtain ⟨an2, e1, e2, e3, e4, e5⟩ := hg.kid_live hx (by omega) hk
    have h1 : a ≠ rh := by intro h; rw [h, hfree] at ha; cases ha
    have h2 : a ≠ x := by intro h; rw [h] at e3; omega
    have h5 : a ≠ p := by intro h; rw [h] at e3; omega
    have h6 : c.right_sibling ≠ some a := by
      intro h
      obtain ⟨rsn, g1, g2, g3, g4⟩ := hg.right_info _ x c a rfl hx h
      omega
    have h7 : a ∈ [k3, k4] ↔ 3 ≤ j := by
      simp only [List.mem_cons, List.mem_singleton, List.not_mem_nil, or_false]
      constructor
      · rintro (h | h)
        · have := hin.kid_inj j 3 (by omega) (by omega) (by rw [hk, h3, h]); omega
        · have := hin.kid_inj j 4 (by omega) (by omega) (by rw [hk, h4, h]); omega
      · intro h
        have : j = 3 ∨ j = 4 := by omega
        rcases this with h | h
        · left; rw [h, h3] at hk; exact (Option.some.inj hk).symm
        · right; rw [h, h4] at hk; exact (Option.some.inj hk).symm
    simp only [split_heap, if_neg h1, if_neg h2, if_neg h5, if_neg h6]
    by_cases h8 : 3 ≤ j
    · rw [if_pos (h7.mpr h8), if_pos h8, ha]; rfl
    · rw [if_neg (fun h => h8 (h7.mp h)), if_neg h8, ha]
  · intro a an ha hl hax
    have h1 : a ≠ rh := by intro h; rw [h, hfree] at ha; cases ha
    have h5 : a ≠ p := by intro h; rw [h] at hl; omega
    have h7 : a ∉ [k3, k4] := by
      simp only [List.mem_cons, List.mem_singleton, List.not_mem_nil, or_false]
      rintro (h | h)
      · obtain ⟨an2, e1, e2, e3, e4, e5⟩ := hg.kid_live hx (by omega) h3
        rw [h] at hl; omega
      · obtain ⟨an2, e1, e2, e3, e4, e5⟩ := hg.kid_live hx (by omega) h4
        rw [h] at hl; omega
    simp only [split_heap, if_neg h1, if_neg hax, if_neg h5, if_neg h7]
    by_cases h8 : c.right_sibling = some a
    · rw [if_pos h8, ha]; exact ⟨_, rfl, rfl, rfl⟩
    · rw [if_neg h8, ha]; exact ⟨_, rfl, rfl, rfl⟩

end Good


namespace Good

variable {t : SeqBPlusTree} {lvl : Nat → Nat} {lo hi : Nat → Int} {un : Option Nat}

/-- Facts about an internal node with four separators. -/
theorem four_seps {x : Nat} {c : Node} (hg : Good t lvl lo hi (some x) un)
    (hx : t.heap x = some c) (hty : c.type = NodeType.INTERNAL) (hsz : c.size = 4) :
    lo x < c.sep 0 ∧ c.sep 0 < c.sep 1 ∧ c.sep 1 < c.sep 2 ∧ c.sep 2 < c.sep 3 ∧
    c.sep 3 < hi x ∧ c.sep 3 < INT_MAX ∧ c.sep 4 = INT_MAX := by
  have hin := hg.internal_good hx hty
  refine ⟨hin.sep_lo 0 (by omega), hin.sep_sorted 0 1 (by omega) (by omega),
    hin.sep_sorted 1 2 (by omega) (by omega), hin.sep_sorted 2 3 (by omega) (by omega),
    hin.sep_hi 3 (by omega), hin.sep_max 3 (by omega), ?_⟩
  have := hin.dummy
  rw [hsz] at this
  exact this

/-- The sibling pointers and the neighbours' children are the same in the store after the
split of the internal node `x`. -/
theorem split_heap_sibs {x : Nat} {c : Node} (hg : Good t lvl lo hi (some x) un)
    (hx : t.heap x = some c) (hty : c.type = NodeType.INTERNAL) (hsz : c.size = 4)
    (rh : Nat) (hfree : t.heap rh = none) (p : Nat) (hp : lvl p = lvl x + 1) (R X P : Node)
    {k3 k4 : Nat} (h3 : c.kid 3 = some k3) (h4 : c.kid 4 = some k4) :
    (∀ j, j ≤ 4 → leftOf (split_heap t.heap c.right_sibling [k3, k4] rh x p R X P) (c.kid j) =
      leftOf t.heap (c.kid j)) ∧
    (∀ j, j ≤ 4 → rightOf (split_heap t.heap c.right_sibling [k3, k4] rh x p R X P) (c.kid j) =
      rightOf t.heap (c.kid j)) ∧
    lastKid (split_heap t.heap c.right_sibling [k3, k4] rh x p R X P) c.left_sibling =
      lastKid t.heap c.left_sibling ∧
    firstKid (split_heap t.heap c.right_sibling [k3, k4] rh x p R X P) c.right_sibling =
      firstKid t.heap c.right_sibling := by
  have hin := hg.internal_good hx hty
  obtain ⟨G1, G2⟩ := hg.split_heap_kids hx hty hsz rh hfree p hp R X P h3 h4
  obtain ⟨s0, s1, s2, s3, s4, s5, s6⟩ := hg.four_seps hx hty hsz
  refine ⟨?_, ?_, ?_, ?_⟩
  · intro j hj
    obtain ⟨a, an, e1, e2, _⟩ := hin.kids j (by omega)
    rw [e1]
    simp only [leftOf, Option.some_bind, G1 j a an hj e1 e2, e2]
    split <;> rfl
  · intro j hj
    obtain ⟨a, an, e1, e2, _⟩ := hin.kids j (by omega)
    rw [e1]
    simp only [rightOf, Option.some_bind, G1 j a an hj e1 e2, e2]
    split <;> rfl
  · cases hl : c.left_sibling with
    | none => rfl
    | some l =>
      obtain ⟨ln, e1, e2, e3, e4⟩ := hg.left_info _ x c l rfl hx hl
      have hlx : l ≠ x := by intro h; rw [h] at e4; omega
      obtain ⟨bn, g1, g2, g3⟩ := G2 l ln e1 e3 hlx
      simp only [lastKid, Option.some_bind, g1, e1, Node.kid, g2, g3]
  · cases hr : c.right_sibling with
    | none => rfl
    | some r =>
      obtain ⟨rn, e1, e2, e3, e4⟩ := hg.right_info _ x c r rfl hx hr
      have hrx : r ≠ x := by intro h; rw [h] at e4; omega
      have := G2 r rn e1 e3 hrx
      rw [hr] at this
      obtain ⟨bn, g1, g2, g3⟩ := this
      simp only [firstKid, Option.some_bind, g1, e1, Node.kid, g2]

end Good


namespace Good

variable {t : SeqBPlusTree} {lvl : Nat → Nat} {lo hi : Nat → Int} {un : Option Nat}

/-- The left half of a split internal node satisfies its clause in the store after the
split. -/
theorem left_half_good {x : Nat} {c : Node} (hg : Good t lvl lo hi (some x) un)
    (hx : t.heap x = some c) (hty : c.type = NodeType.INTERNAL) (hsz : c.size = 4)
    (t0 : SeqBPlusTree) (hfree : t.heap t0.next = none) (p : Nat) (hp : lvl p = lvl x + 1)
    (P : Node) {k3 k4 : Nat} (h3 : c.kid 3 = some k3) (h4 : c.kid 4 = some k4) :
    InternalGood
      (split_heap t.heap c.right_sibling [k3, k4] t0.next x p
        (Node.with_parent (t0.internal_right x c) p) (Node.with_parent (t0.internal_left c) p) P)
      (Function.update lvl t0.next (lvl x)) (Function.update lo t0.next (c.sep 2))
      (Function.update (Function.update hi t0.next (hi x)) x (c.sep 2)) none none x
      (Node.with_parent (t0.internal_left c) p) := by
  have hin := hg.internal_good hx hty
  obtain ⟨G1, G2⟩ := hg.split_heap_kids hx hty hsz t0.next hfree p hp
    (Node.with_parent (t0.internal_right x c) p) (Node.with_parent (t0.internal_left c) p) P h3 h4
  obtain ⟨L, Rt, LK, FK⟩ := hg.split_heap_sibs hx hty hsz t0.next hfree p hp
    (Node.with_parent (t0.internal_right x c) p) (Node.with_parent (t0.internal_left c) p) P h3 h4
  obtain ⟨s0, s1, s2, s3, s4, s5, s6⟩ := hg.four_seps hx hty hsz
  obtain ⟨fk, fs, rk, rsp, xs, rsz, xl, rl⟩ :=
    SeqBPlusTree.internal_halves_fields t0 x p c hin.len hsz
  have hxr : x ≠ t0.next := by intro h; rw [h, hfree] at hx; cases hx
  have gr : split_heap t.heap c.right_sibling [k3, k4] t0.next x p
      (Node.with_parent (t0.internal_right x c) p) (Node.with_parent (t0.internal_left c) p) P
      t0.next = some (Node.with_parent (t0.internal_right x c) p) := by
    simp only [split_heap, if_true]
  constructor
  · exact xl
  · left; rw [xs]; decide
  · left; rw [xs]; decide
  · intro i j hij hj
    rw [xs] at hj
    have hi0 : i = 0 := by omega
    have hj1 : j = 1 := by omega
    subst hi0 hj1
    rw [fs, fs, if_neg (by omega), if_neg (by omega)]
    exact s1
  · intro i hi1
    rw [xs] at hi1
    rw [fs, if_neg (by omega), Function.update_noteq hxr]
    have : i = 0 ∨ i = 1 := by omega
    rcases this with h | h <;> subst h <;> omega
  · intro i hi1
    rw [xs] at hi1
    rw [fs, if_neg (by omega), Function.update_same]
    have : i = 0 ∨ i = 1 := by omega
    rcases this with h | h <;> subst h <;> omega
  · intro i hi1
    rw [xs] at hi1
    rw [fs, if_neg (by omega)]
    have : i = 0 ∨ i = 1 := by omega
    rcases this with h | h <;> subst h <;> omega
  · rw [xs, fs, if_pos rfl]
  · intro j hj
    rw [xs] at hj
    obtain ⟨a, an, e1, e2, e3, e4, e5, e6⟩ := hin.kids j (by omega)
    have har : a ≠ t0.next := by intro h; rw [h, hfree] at e2; cases e2
    have hax : a ≠ x := by intro h; rw [h] at e4; omega
    refine ⟨a, an, by rw [fk, e1], ?_, e3, ?_, ?_, ?_⟩
    · rw [G1 j a an (by omega) e1 e2, if_neg (by omega)]
    · rw [Function.update_noteq har, Function.update_noteq hxr]; exact e4
    · rw [Function.update_noteq har, Function.update_noteq hxr, e5]
      unfold lob
      by_cases h0 : j = 0
      · rw [if_pos h0, if_pos h0]
      · rw [if_neg h0, if_neg h0, fs, if_neg (by omega)]
    · rw [Function.update_noteq hax, Function.update_noteq har, Function.update_same, e6]
      unfold hib
      rw [xs, hsz, if_neg (by omega)]
      by_cases h2 : j = 2
      · rw [if_pos h2, h2]
      · rw [if_neg h2, fs, if_neg h2]
  · intro i j hi1 hj1 he
    rw [xs] at hi1 hj1
    rw [fk, fk] at he
    exact hin.kid_inj i j (by omega) (by omega) he
  · intro j hj
    rw [xs] at hj
    rw [fk, fk, L (j + 1) (by omega), Rt j (by omega)]
    exact hin.sib_in j (by omega)
  · rw [fk, L 0 (by omega)]
    show _ = lastKid _ c.left_sibling
    rw [LK]
    exact hin.sib_left
  · rw [xs, fk, Rt 2 (by omega)]
    show _ = firstKid _ (some t0.next)
    simp only [firstKid, Option.some_bind, gr]
    rw [rk 0 (by omega)]
    exact (hin.sib_in 2 (by omega)).1

end Good


namespace Good

variable {t : SeqBPlusTree} {lvl : Nat → Nat} {lo hi : Nat → Int} {un : Option Nat}

/-- The right half of a split internal node satisfies its clause in the store after the
split. -/
theorem right_half_good {x : Nat} {c : Node} (hg : Good t lvl lo hi (some x) un)
    (hx : t.heap x = some c) (hty : c.type = NodeType.INTERNAL) (hsz : c.size = 4)
    (t0 : SeqBPlusTree) (hfree : t.heap t0.next = none) (p : Nat) (hp : lvl p = lvl x + 1)
    (P : Node) {k3 k4 : Nat} (h3 : c.kid 3 = some k3) (h4 : c.kid 4 = some k4) :
    InternalGood
      (split_heap t.heap c.right_sibling [k3, k4] t0.next x p
        (Node.with_parent (t0.internal_right x c) p) (Node.with_parent (t0.internal_left c) p) P)
      (Function.update lvl t0.next (lvl x)) (Function.update lo t0.next (c.sep 2))
      (Function.update (Function.update hi t0.next (hi x)) x (c.sep 2)) none none t0.next
      (Node.with_parent (t0.internal_right x c) p) := by
  have hin := hg.internal_good hx hty
  obtain ⟨G1, G2⟩ := hg.split_heap_kids hx hty hsz t0.next hfree p hp
    (Node.with_parent (t0.internal_right x c) p) (Node.with_parent (t0.internal_left c) p) P h3 h4
  obtain ⟨L, Rt, LK, FK⟩ := hg.split_heap_sibs hx hty hsz t0.next hfree p hp
    (Node.with_parent (t0.internal_right x c) p) (Node.with_parent (t0.internal_left c) p) P h3 h4
  obtain ⟨s0, s1, s2, s3, s4, s5, s6⟩ := hg.four_seps hx hty hsz
  obtain ⟨fk, fs, rk, rsp, xs, rsz, xl, rl⟩ :=
    SeqBPlusTree.internal_halves_fields t0 x p c hin.len hsz
  have hxr : x ≠ t0.next := by intro h; rw [h, hfree] at hx; cases hx
  have gx : split_heap t.heap c.right_sibling [k3, k4] t0.next x p
      (Node.with_parent (t0.internal_right x c) p) (Node.with_parent (t0.internal_left c) p) P
      x = some (Node.with_parent (t0.internal_left c) p) := by
    simp only [split_heap, if_neg hxr, if_true]
  constructor
  · exact rl
  · left; rw [rsz]; decide
  · left; rw [rsz]
  · intro i j hij hj
    rw [rsz] at hj
    omega
  · intro i hi1
    rw [rsz] at hi1
    have : i = 0 := by omega
    subst this
    rw [rsp 0 (by omega), Function.update_same]
    exact s3
  · intro i hi1
    rw [rsz] at hi1
    have : i = 0 := by omega
    subst this
    rw [rsp 0 (by omega), Function.update_noteq (Ne.symm hxr), Function.update_same]
    exact s4
  · intro i hi1
    rw [rsz] at hi1
    have : i = 0 := by omega
    subst this
    rw [rsp 0 (by omega)]
    exact s5
  · rw [rsz, rsp 1 (by omega)]
    exact s6
  · intro j hj
    rw [rsz] at hj
    obtain ⟨a, an, e1, e2, e3, e4, e5, e6⟩ := hin.kids (j + 3) (by omega)
    have har : a ≠ t0.next := by intro h; rw [h, hfree] at e2; cases e2
    have hax : a ≠ x := by intro h; rw [h] at e4; omega
    refine ⟨a, { an with parent := some t0.next }, by rw [rk j hj, e1], ?_, rfl, ?_, ?_, ?_⟩
    · rw [G1 (j + 3) a an (by omega) e1 e2, if_pos (by omega)]
    · rw [Function.update_noteq har, Function.update_same]; exact e4
    · rw [Function.update_noteq har, Function.update_same, e5]
      unfold lob
      rw [if_neg (by omega)]
      by_cases h0 : j = 0
      · rw [if_pos h0, h0]
      · rw [if_neg h0, rsp (j - 1) (by omega)]
        have : j = 1 := by omega
        subst this
        rfl
    · rw [Function.update_noteq hax, Function.update_noteq har,
        Function.update_noteq (Ne.symm hxr), Function.update_same, e6]
      unfold hib
      rw [rsz, hsz]
      by_cases h1 : j = 1
      · rw [if_pos h1, if_pos (by omega)]
      · rw [if_neg h1, if_neg (by omega), rsp j hj]
  · intro i j hi1 hj1 he
    rw [rsz] at hi1 hj1
    rw [rk i hi1, rk j hj1] at he
    have := hin.kid_inj (i + 3) (j + 3) (by omega) (by omega) he
    omega
  · intro j hj
    rw [rsz] at hj
    have : j = 0 := by omega
    subst this
    rw [rk 0 (by omega), rk 1 (by omega), L 4 (by omega), Rt 3 (by omega)]
    exact hin.sib_in 3 (by omega)
  · rw [rk 0 (by omega), L 3 (by omega)]
    show _ = lastKid _ (some x)
    simp only [lastKid, Option.some_bind, gx]
    rw [xs, fk]
    exact (hin.sib_in 2 (by omega)).2
  · rw [rsz, rk 1 (by omega), Rt 4 (by omega)]
    show _ = firstKid _ c.right_sibling
    rw [FK]
    have := hin.sib_right
    rw [hsz] at this
    exact this

end Good


namespace SeqBPlusTree

theorem parent_insert_step {T s : SeqBPlusTree} {x p rh : Nat} {X1 : Node} {m : Int} {b : Bool}
    (hx : T.heap x = some X1) (hp : X1.parent = some p)
    (hl : link_at T p x m rh = some (s, b)) (f : Nat) :
    parent_insert (f + 1) T x m rh =
      if b then split_internal_with (parent_insert f) s (some p) else some s := by
  rw [parent_insert_succ, hx]
  simp only [Option.some_bind, link_parent, hp, hl]

end SeqBPlusTree

namespace Good

variable {t : SeqBPlusTree} {lvl : Nat → Nat} {lo hi : Nat → Int}

/-- The split of a full leaf below an existing parent is a split step, followed by the split
of the parent if the parent was full. -/
theorem leaf_split_step {x p : Nat} {c : Node} (hg : Good t lvl lo hi (some x) none)
    (hx : t.heap x = some c) (hty : c.type = NodeType.LEAF) (hsz : c.size = 4)
    (hcp : c.parent = some p) :
    ∃ s pn i X R,
      (∀ f, SeqBPlusTree.split_leaf (f + 1) t (some x) =
        if pn.isFull then
          SeqBPlusTree.split_internal_with (SeqBPlusTree.parent_insert f) s (some p)
        else some s) ∧
      SplitStep t s lvl lo hi none x p t.next c pn X R i
        (((c.key_value.get? 2).map (fun kv => kv.key)).getD 0) (fun d => d ∈ ([] : List Nat)) ∧
      X.entries = c.entries.take 2 ∧ R.entries = c.entries.drop 2 ∧
      s.node_count = t.node_count + 1 := by
  obtain ⟨s, pn, i, X, R, h1, h2, h3, h4, h5⟩ := hg.leaf_split hx hty hsz hcp
  refine ⟨s, pn, i, X, R, ?_, h2, h3, h4, h5⟩
  intro f
  have hl := hg.leaf_good hx hty
  have hxn : x ≠ t.next := by have := hg.live_lt hx; omega
  have e1 := SeqBPlusTree.split_leaf_eq (f + 1) hx hty hsz hl.len hxn (by
    intro rs hr
    obtain ⟨rsn, g1, g2, g3, g4⟩ := hg.right_info _ x c rs rfl hx hr
    refine ⟨?_, ?_, by rw [g1]; simp⟩
    · intro h
      rw [h] at g4
      obtain ⟨e0, e1, e2, e3, he, k0, k1, k2, k3, k4⟩ := hl.four hsz
      omega
    · have := hg.live_lt g1; omega)
  have hTx : (t.leaf_cut x c).heap x =
      some { c with size := c.size / 2, right_sibling := some t.next } := by
    rw [SeqBPlusTree.leaf_cut_heap t x c x hxn, if_pos rfl]
  rw [e1]
  exact SeqBPlusTree.parent_insert_step hTx hcp h1 f

end Good


namespace Good

variable {t : SeqBPlusTree} {lvl : Nat → Nat} {lo hi : Nat → Int} {un : Option Nat}

/-- The last two children of an internal node with four separators. -/
theorem last_kids {x : Nat} {c : Node} (hg : Good t lvl lo hi (some x) un)
    (hx : t.heap x = some c) (hty : c.type = NodeType.INTERNAL) (hsz : c.size = 4) :
    ∃ k3 k4 n3 n4, c.kid 3 = some k3 ∧ c.kid 4 = some k4 ∧ t.heap k3 = some n3 ∧
      t.heap k4 = some n4 ∧ k3 ≠ k4 ∧ k3 ≠ x ∧ k4 ≠ x ∧ lvl k3 + 1 = lvl x ∧
      lvl k4 + 1 = lvl x ∧
      (∀ rs, c.right_sibling = some rs → rs ≠ x ∧ rs ≠ k3 ∧ rs ≠ k4 ∧ lvl rs = lvl x ∧
        ∃ rsn, t.heap rs = some rsn) := by
  have hin := hg.internal_good hx hty
  obtain ⟨s0, s1, s2, s3, s4, s5, s6⟩ := hg.four_seps hx hty hsz
  obtain ⟨k3, n3, a1, a2, a3, a4, a5, a6⟩ := hin.kids 3 (by omega)
  obtain ⟨k4, n4, b1, b2, b3, b4, b5, b6⟩ := hin.kids 4 (by omega)
  refine ⟨k3, k4, n3, n4, a1, b1, a2, b2, ?_, ?_, ?_, a4, b4, ?_⟩
  · intro h
    have := hin.kid_inj 3 4 (by omega) (by omega) (by rw [a1, b1, h])
    omega
  · intro h; rw [h] at a4; omega
  · intro h; rw [h] at b4; omega
  · intro rs hr
    obtain ⟨rsn, g1, g2, g3, g4⟩ := hg.right_info _ x c rs rfl hx hr
    refine ⟨?_, ?_, ?_, g3, rsn, g1⟩
    · intro h; rw [h] at g4; omega
    · intro h; rw [h] at g3; omega
    · intro h; rw [h] at g3; omega

end Good

namespace Good

variable {t : SeqBPlusTree} {lvl : Nat → Nat} {lo hi : Nat → Int}

/-- The split of a full internal node below an existing parent is a split step, followed by
the split of the parent if the parent was full. -/
theorem internal_split_step {x p : Nat} {c : Node} (hg : Good t lvl lo hi (some x) none)
    (hx : t.heap x = some c) (hty : c.type = NodeType.INTERNAL) (hsz : c.size = 4)
    (hcp : c.parent = some p) :
    ∃ s pn i X R, ∃ ds : List Nat,
      (∀ f, SeqBPlusTree.split_internal_with (SeqBPlusTree.parent_insert (f + 1)) t (some x) =
        if pn.isFull then
          SeqBPlusTree.split_internal_with (SeqBPlusTree.parent_insert f) s (some p)
        else some s) ∧
      SplitStep t s lvl lo hi none x p t.next c pn X R i (c.sep 2) (fun d => d ∈ ds) ∧
      s.node_count = t.node_count + 1 ∧
      ∃ T X1, (∀ pins, SeqBPlusTree.split_internal_with pins t (some x) =
          pins T x (c.sep 2) t.next) ∧
        T.heap x = some X1 ∧ X1.parent = some p ∧
        SeqBPlusTree.link_at T p x (c.sep 2) t.next = some (s, pn.isFull) := by
  have hin := hg.internal_good hx hty
  obtain ⟨k3, k4, n3, n4, h3, h4, l3, l4, d34, d3x, d4x, v3, v4, hrs⟩ :=
    hg.last_kids hx hty hsz
  obtain ⟨s0, s1, s2, s3, s4, s5, s6⟩ := hg.four_seps hx hty hsz
  obtain ⟨pn, i0, hpn, hpty, hi0, hk0, hlv, hlo, hhi⟩ := hg.parent_info hx hcp
  have hpx : p ≠ x := by intro h; rw [h] at hlv; omega
  have hinp := hg.internal_good hpn hpty
  have hpsz : pn.size ≤ 3 := by
    rcases hinp.size_le with g | g
    · simpa only [ORDER] using g
    · exact absurd (Option.some.inj g.2).symm hpx
  have hxn : x ≠ t.next := by have := hg.live_lt hx; omega
  have hpn2 : p ≠ t.next := by have := hg.live_lt hpn; omega
  have hfree : t.heap t.next = none := hg.fresh _ (Nat.le_refl _)
  have hm1 : lo x < c.sep 2 := by omega
  have hm2 : c.sep 2 < hi x := by omega
  have hm3 : c.sep 2 < INT_MAX := by omega
  obtain ⟨i, hi1, hk, hlink⟩ := hg.link_ok hx hcp hpn hpsz hm1 hm2 hm3 t.next
  have hp3 : p ≠ k3 := by intro h; rw [h] at hlv; omega
  have hp4 : p ≠ k4 := by intro h; rw [h] at hlv; omega
  have hprs : c.right_sibling ≠ some p := by
    intro h
    obtain ⟨_, _, _, g, _⟩ := hrs p h
    omega
  have hTp : (t.internal_cut x c [k3, k4]).heap p = some pn := by
    rw [SeqBPlusTree.internal_cut_heap, if_neg hpx, if_neg hpn2, if_neg hprs, if_neg, hpn]
    simp [hp3, hp4]
  have hTx : (t.internal_cut x c [k3, k4]).heap x = some (t.internal_left c) := by
    rw [SeqBPlusTree.internal_cut_heap, if_pos rfl]
  have hTr : (t.internal_cut x c [k3, k4]).heap t.next = some (t.internal_right x c) := by
    rw [SeqBPlusTree.internal_cut_heap, if_neg (Ne.symm hxn), if_pos rfl]
  have hla := SeqBPlusTree.link_at_eq hTp hlink hTx hTr hpx hpn2 hxn
  have hprange : lo p < hi p := by
    rcases hinp.size_ge with g | g
    · have := hinp.sep_lo 0 (by omega)
      have := hinp.sep_hi 0 (by omega)
      omega
    · cases g
  have hs : SeqBPlusTree.heap ((((t.internal_cut x c [k3, k4]).set p
        (link_res pn i (c.sep 2) x t.next)).set x
        (Node.with_parent (t.internal_left c) p)).set
          t.next (Node.with_parent (t.internal_right x c) p)) =
        split_heap t.heap c.right_sibling [k3, k4] t.next x p
          (Node.with_parent (t.internal_right x c) p)
          (Node.with_parent (t.internal_left c) p)
          (link_res pn i (c.sep 2) x t.next) := by
    funext a
    simp only [SeqBPlusTree.set, split_heap]
    by_cases h1 : a = t.next
    · subst h1; rw [Function.update_same, if_pos rfl]
    rw [Function.update_noteq h1, if_neg h1]
    by_cases h2 : a = x
    · subst h2; rw [Function.update_same, if_pos rfl]
    rw [Function.update_noteq h2, if_neg h2]
    by_cases h5 : a = p
    · subst h5; rw [Function.update_same, if_pos rfl]
    rw [Function.update_noteq h5, if_neg h5, SeqBPlusTree.internal_cut_heap,
      if_neg h2, if_neg h1]
    by_cases h6 : c.right_sibling = some a
    · obtain ⟨_, g3, g4, _⟩ := hrs a h6
      rw [if_pos h6, if_pos h6, if_neg]
      simp [g3, g4]
    · rw [if_neg h6, if_neg h6]
  obtain ⟨fk, fs, rk, rsp, xs, rsz, xl, rl⟩ :=
    SeqBPlusTree.internal_halves_fields t x p c hin.len hsz
  refine ⟨(((t.internal_cut x c [k3, k4]).set p
        (link_res pn i (c.sep 2) x t.next)).set x
        (Node.with_parent (t.internal_left c) p)).set
          t.next (Node.with_parent (t.internal_right x c) p),
    pn, i, Node.with_parent (t.internal_left c) p,
    Node.with_parent (t.internal_right x c) p, [k3, k4], ?_, ?_, ?_,
    t.internal_cut x c [k3, k4], _, ?_, hTx, hcp, hla⟩
  · intro f
    rw [SeqBPlusTree.split_internal_eq _ hx hsz hin.len hxn h3 h4 l3 l4 d34 d3x d4x (by
      intro rs hr
      obtain ⟨g1, g2, g3, g4, rsn, g5⟩ := hrs rs hr
      refine ⟨g1, ?_, g2, g3, by rw [g5]; simp⟩
      have := hg.live_lt g5; omega)]
    exact SeqBPlusTree.parent_insert_step hTx hcp hla f
  · exact SplitStep.of_heap hg (Or.inl rfl) hprange hx hcp hpn hi1 hk hfree hm1 hm2 hm3
      (by simp [SeqBPlusTree.set, SeqBPlusTree.internal_cut, SeqBPlusTree.reparent,
            SeqBPlusTree.bump])
      (by simp [SeqBPlusTree.set, SeqBPlusTree.internal_cut, SeqBPlusTree.reparent,
            SeqBPlusTree.bump])
      (by simp [SeqBPlusTree.set, SeqBPlusTree.internal_cut, SeqBPlusTree.reparent,
            SeqBPlusTree.bump])
      (by simp [SeqBPlusTree.set, SeqBPlusTree.internal_cut, SeqBPlusTree.reparent,
            SeqBPlusTree.bump])
      hs rfl hty.symm rfl rfl rfl rfl rfl rfl (fk 0)
      (by rw [rsz, rk 1 (by omega), hsz])
      (by
        intro a j hj hkj hnd
        rw [hsz] at hj
        have hj2 : j ≤ 2 := by
          by_contra hc
          have : j = 3 ∨ j = 4 := by omega
          rcases this with h | h
          · rw [h, h3] at hkj; exact hnd (by simp [Option.some.inj hkj])
          · rw [h, h4] at hkj; exact hnd (by simp [Option.some.inj hkj])
        exact ⟨j, by rw [xs]; exact hj2, by rw [fk, hkj]⟩)
      (by
        intro d hd
        simp only [List.mem_cons, List.mem_singleton, List.not_mem_nil, or_false] at hd
        rcases hd with h | h
        · exact ⟨⟨0, by rw [rsz]; omega, by rw [rk 0 (by omega), h3, h]⟩,
            ⟨3, by omega, by rw [h3, h]⟩⟩
        · exact ⟨⟨1, by rw [rsz], by rw [rk 1 (by omega), h4, h]⟩,
            ⟨4, by omega, by rw [h4, h]⟩⟩)
      (by intro h; rw [hty] at h; cases h)
      (by intro h; rw [hty] at h; cases h)
      (fun _ => by
        rw [hs]
        exact hg.left_half_good hx hty hsz t hfree p hlv.symm _ h3 h4)
      (fun _ => by
        rw [hs]
        exact hg.right_half_good hx hty hsz t hfree p hlv.symm _ h3 h4)
  · simp [SeqBPlusTree.set, SeqBPlusTree.internal_cut, SeqBPlusTree.reparent,
      SeqBPlusTree.bump]
  · intro pins
    exact SeqBPlusTree.split_internal_eq pins hx hsz hin.len hxn h3 h4 l3 l4 d34 d3x d4x (by
      intro rs hr
      obtain ⟨g1, g2, g3, g4, rsn, g5⟩ := hrs rs hr
      refine ⟨g1, ?_, g2, g3, by rw [g5]; simp⟩
      have := hg.live_lt g5; omega)

end Good


namespace Good

variable {t : SeqBPlusTree} {lvl : Nat → Nat} {lo hi : Nat → Int}

/-- The split of a full internal root: `split_internal` makes a new root over the two
halves. -/
theorem internal_split_root {x : Nat} {c : Node} (hg : Good t lvl lo hi (some x) none)
    (hx : t.heap x = some c) (hty : c.type = NodeType.INTERNAL) (hsz : c.size = 4)
    (hcp : c.parent = none) (fuel : Nat) :
    ∃ s X R, ∃ ds : List Nat,
      SeqBPlusTree.split_internal_with (SeqBPlusTree.parent_insert (fuel + 1)) t (some x) =
        some s ∧
      SplitStep (t.with_root x (t.next + 1) c (t.id_accumulator + 2)) s
        (Function.update lvl (t.next + 1) (lvl x + 1))
        (Function.update lo (t.next + 1) INT_MIN)
        (Function.update hi (t.next + 1) (INT_MAX + 1))
        (some (t.next + 1)) x (t.next + 1) t.next { c with parent := some (t.next + 1) }
        (root_over x (t.id_accumulator + 2)) X R 0 (c.sep 2) (fun d => d ∈ ds) ∧
      s.node_count = t.node_count + 2 ∧
      ∃ T X1 b, (∀ pins, SeqBPlusTree.split_internal_with pins t (some x) =
          pins T x (c.sep 2) t.next) ∧
        T.heap x = some X1 ∧
        SeqBPlusTree.link_at (T.link_parent X1).1 (T.link_parent X1).2 x (c.sep 2) t.next =
          some (s, b) ∧ b = false := by
  have hin := hg.internal_good hx hty
  obtain ⟨k3, k4, n3, n4, h3, h4, l3, l4, d34, d3x, d4x, v3, v4, hrs⟩ :=
    hg.last_kids hx hty hsz
  obtain ⟨s0, s1, s2, s3, s4, s5, s6⟩ := hg.four_seps hx hty hsz
  have hxn : x ≠ t.next := by have := hg.live_lt hx; omega
  have hxr : x ≠ t.next + 1 := by have := hg.live_lt hx; omega
  have h3n : k3 ≠ t.next := by have := hg.live_lt l3; omega
  have h3r : k3 ≠ t.next + 1 := by have := hg.live_lt l3; omega
  have h4n : k4 ≠ t.next := by have := hg.live_lt l4; omega
  have h4r : k4 ≠ t.next + 1 := by have := hg.live_lt l4; omega
  have hfree : t.heap t.next = none := hg.fresh _ (Nat.le_refl _)
  have hm1 : lo x < c.sep 2 := by omega
  have hm2 : c.sep 2 < hi x := by omega
  have hm3 : c.sep 2 < INT_MAX := by omega
  have hroot : x = t.root := (hg.nodes x c hx).is_root hcp
  obtain ⟨rn, r1, r2, r3, r4⟩ := hg.root_live
  rw [← hroot, hx] at r1; cases r1
  have e1 := SeqBPlusTree.split_internal_eq (SeqBPlusTree.parent_insert (fuel + 1)) hx hsz
    hin.len hxn h3 h4 l3 l4 d34 d3x d4x (by intro rs h; rw [r4] at h; cases h)
  have hTx : (t.internal_cut x c [k3, k4]).heap x = some (t.internal_left c) := by
    rw [SeqBPlusTree.internal_cut_heap, if_pos rfl]
  have hn : (t.internal_cut x c [k3, k4]).next = t.next + 1 := by
    simp [SeqBPlusTree.set, SeqBPlusTree.internal_cut, SeqBPlusTree.reparent,
      SeqBPlusTree.bump]
  have hid : (t.internal_cut x c [k3, k4]).id_accumulator = t.id_accumulator + 1 := by
    simp [SeqBPlusTree.set, SeqBPlusTree.internal_cut, SeqBPlusTree.reparent,
      SeqBPlusTree.bump]
  have hlp2 : ((t.internal_cut x c [k3, k4]).link_parent (t.internal_left c)).2 =
      t.next + 1 := by
    simp only [SeqBPlusTree.link_parent, SeqBPlusTree.internal_left, hcp, hn]
  have hgen : ∀ a, ((t.internal_cut x c [k3, k4]).link_parent (t.internal_left c)).1.heap a =
      if a = t.next + 1 then some { InternalNode.new with id := t.id_accumulator + 2 }
      else if a = x then some (t.internal_left c)
      else if a = t.next then some (t.internal_right x c)
      else if a ∈ [k3, k4] then (t.heap a).map (fun n => { n with parent := some t.next })
      else t.heap a := by
    intro a
    simp only [SeqBPlusTree.link_parent, SeqBPlusTree.internal_left, hcp, SeqBPlusTree.set]
    rw [hn, hid]
    by_cases h1 : a = t.next + 1
    · subst h1; rw [Function.update_same, if_pos rfl]
      simp only [add_assoc]; rfl
    rw [Function.update_noteq h1, if_neg h1, SeqBPlusTree.internal_cut_heap, r4]
    simp [SeqBPlusTree.internal_left, hcp]
  have hTp := hgen (t.next + 1)
  rw [if_pos rfl] at hTp
  have hTx2 := hgen x
  rw [if_neg hxr, if_pos rfl] at hTx2
  have hTr := hgen t.next
  rw [if_neg (by omega), if_neg (Ne.symm hxn), if_pos rfl] at hTr
  have hlink := link_node_root (t.id_accumulator + 2) x t.next (c.sep 2) hm3
  have hla := SeqBPlusTree.link_at_eq hTp hlink hTx2 hTr (Ne.symm hxr) (by omega) hxn
  obtain ⟨fk, fs, rk, rsp, xs, rsz, xl, rl⟩ :=
    SeqBPlusTree.internal_halves_fields t x (t.next + 1) c hin.len hsz
  refine ⟨((((t.internal_cut x c [k3, k4]).link_parent (t.internal_left c)).1.set (t.next + 1)
          (link_res (root_over x (t.id_accumulator + 2)) 0 (c.sep 2) x t.next)).set x
        (Node.with_parent (t.internal_left c) (t.next + 1))).set
          t.next (Node.with_parent (t.internal_right x c) (t.next + 1)),
      Node.with_parent (t.internal_left c) (t.next + 1),
      Node.with_parent (t.internal_right x c) (t.next + 1), [k3, k4], ?_, ?_, ?_,
      t.internal_cut x c [k3, k4], _, _, ?_, hTx, by rw [hlp2]; exact hla,
      by simp [Node.isFull, InternalNode.new]⟩
  · rw [e1, SeqBPlusTree.parent_insert_succ, hTx]
    simp only [Option.some_bind]
    rw [hlp2, hla]
    simp only [Option.some_bind]
    rw [if_neg]
    · rfl
    · simp [Node.isFull, InternalNode.new]
  · have hg2 := hg.add_root (t.id_accumulator + 2) hx hcp (Nat.le_succ t.next)
      (by intro h; rw [hty] at h; cases h)
    have hx' : (t.with_root x (t.next + 1) c (t.id_accumulator + 2)).heap x =
        some { c with parent := some (t.next + 1) } := by
      simp only [SeqBPlusTree.with_root]; rw [Function.update_same]
    have hp' : (t.with_root x (t.next + 1) c (t.id_accumulator + 2)).heap (t.next + 1) =
        some (root_over x (t.id_accumulator + 2)) := by
      simp only [SeqBPlusTree.with_root]
      rw [Function.update_noteq (Ne.symm hxr), Function.update_same]
    have hf' : (t.with_root x (t.next + 1) c (t.id_accumulator + 2)).heap t.next = none := by
      simp only [SeqBPlusTree.with_root]
      rw [Function.update_noteq (Ne.symm hxn), Function.update_noteq (by omega), hfree]
    have hs : SeqBPlusTree.heap (((((t.internal_cut x c [k3, k4]).link_parent
          (t.internal_left c)).1.set (t.next + 1)
          (link_res (root_over x (t.id_accumulator + 2)) 0 (c.sep 2) x t.next)).set x
        (Node.with_parent (t.internal_left c) (t.next + 1))).set
          t.next (Node.with_parent (t.internal_right x c) (t.next + 1))) =
        split_heap (t.with_root x (t.next + 1) c (t.id_accumulator + 2)).heap
          ({ c with parent := some (t.next + 1) } : Node).right_sibling [k3, k4] t.next x
          (t.next + 1)
          (Node.with_parent (t.internal_right x c) (t.next + 1))
          (Node.with_parent (t.internal_left c) (t.next + 1))
          (link_res (root_over x (t.id_accumulator + 2)) 0 (c.sep 2) x t.next) := by
      funext a
      simp only [SeqBPlusTree.set, split_heap]
      by_cases h1 : a = t.next
      · subst h1; rw [Function.update_same, if_pos rfl]
      rw [Function.update_noteq h1, if_neg h1]
      by_cases h2 : a = x
      · subst h2; rw [Function.update_same, if_pos rfl]
      rw [Function.update_noteq h2, if_neg h2]
      by_cases h5 : a = t.next + 1
      · subst h5; rw [Function.update_same, if_pos rfl]
      rw [Function.update_noteq h5, if_neg h5, hgen a, if_neg h5, if_neg h2, if_neg h1, r4]
      simp [SeqBPlusTree.with_root, Function.update_noteq h2, Function.update_noteq h5]
    have hlv' : Function.update lvl (t.next + 1) (lvl x + 1) (t.next + 1) =
        Function.update lvl (t.next + 1) (lvl x + 1) x + 1 := by
      rw [Function.update_same, Function.update_noteq hxr]
    exact SplitStep.of_heap hg2 (Or.inr rfl)
      (by rw [Function.update_same, Function.update_same]; decide)
      hx' rfl hp' (Nat.zero_le _) (by simp [root_over, Node.kid]) hf'
      (by rw [Function.update_noteq hxr]; exact hm1)
      (by rw [Function.update_noteq hxr]; exact hm2) hm3
      (by simp [SeqBPlusTree.set, SeqBPlusTree.link_parent, SeqBPlusTree.internal_left, hcp,
            SeqBPlusTree.with_root, hn])
      (by simp [SeqBPlusTree.set, SeqBPlusTree.link_parent, SeqBPlusTree.internal_left, hcp,
            SeqBPlusTree.with_root, hn])
      (by simp [SeqBPlusTree.set, SeqBPlusTree.link_parent, SeqBPlusTree.internal_left, hcp,
            SeqBPlusTree.with_root, hn]; omega)
      (by simp [SeqBPlusTree.set, SeqBPlusTree.link_parent, SeqBPlusTree.internal_left, hcp,
            SeqBPlusTree.with_root, SeqBPlusTree.internal_cut, SeqBPlusTree.reparent,
            SeqBPlusTree.bump])
      hs rfl hty.symm rfl rfl rfl rfl rfl rfl (fk 0)
      (by rw [rsz, rk 1 (by omega)]; show c.kid 4 = c.kid c.size; rw [hsz])
      (by
        intro a j hj hkj hnd
        have hj' : j ≤ 4 := by rw [← hsz]; exact hj
        have hkj' : c.kid j = some a := hkj
        have hj2 : j ≤ 2 := by
          by_contra hc
          have : j = 3 ∨ j = 4 := by omega
          rcases this with h | h
          · rw [h, h3] at hkj'; exact hnd (by simp [Option.some.inj hkj'])
          · rw [h, h4] at hkj'; exact hnd (by simp [Option.some.inj hkj'])
        exact ⟨j, by rw [xs]; exact hj2, by rw [fk, hkj']⟩)
      (by
        intro d hd
        simp only [List.mem_cons, List.mem_singleton, List.not_mem_nil, or_false] at hd
        rcases hd with h | h
        · exact ⟨⟨0, by rw [rsz]; omega, by rw [rk 0 (by omega), h3, h]⟩,
            ⟨3, by show 3 ≤ c.size; omega, by show c.kid 3 = _; rw [h3, h]⟩⟩
        · exact ⟨⟨1, by rw [rsz], by rw [rk 1 (by omega), h4, h]⟩,
            ⟨4, by show 4 ≤ c.size; omega, by show c.kid 4 = _; rw [h4, h]⟩⟩)
      (by intro h; rw [show ({ c with parent := some (t.next + 1) } : Node).type = c.type from rfl,
            hty] at h; cases h)
      (by intro h; rw [show ({ c with parent := some (t.next + 1) } : Node).type = c.type from rfl,
            hty] at h; cases h)
      (fun _ => by
        rw [hs]
        exact hg2.left_half_good hx' hty hsz t hf' (t.next + 1) hlv' _ h3 h4)
      (fun _ => by
        rw [hs]
        exact hg2.right_half_good hx' hty hsz t hf' (t.next + 1) hlv' _ h3 h4)
  · simp [SeqBPlusTree.set, SeqBPlusTree.link_parent, SeqBPlusTree.internal_left, hcp,
      SeqBPlusTree.internal_cut, SeqBPlusTree.reparent, SeqBPlusTree.bump]
    omega
  · intro pins
    exact SeqBPlusTree.split_internal_eq pins hx hsz hin.len hxn h3 h4 l3 l4 d34 d3x d4x
      (by intro rs h; rw [r4] at h; cases h)

end Good


/-- What a leaf holds and where its sibling pointers go; nothing for an internal node. -/
def Node.leafView (n : Node) : Option (List KeyValuePair × Option Nat × Option Nat) :=
  if n.type = NodeType.LEAF then some (n.entries, n.left_sibling, n.right_sibling) else none

/-- Two stores have the same leaves, with the same entries and sibling pointers. -/
def LeafSame (h g : Nat → Option Node) : Prop :=
  ∀ a, (h a).bind Node.leafView = (g a).bind Node.leafView

namespace LeafSame

theorem refl (h : Nat → Option Node) : LeafSame h h := fun _ => rfl

theorem trans {h g k : Nat → Option Node} (a : LeafSame h g) (b : LeafSame g k) :
    LeafSame h k := fun x => (a x).trans (b x)

theorem stored {t s : SeqBPlusTree} (e : LeafSame t.heap s.heap) (kv : KeyValuePair) :
    s.Stored kv ↔ t.Stored kv := by
  have key : ∀ (h g : Nat → Option Node), LeafSame h g →
      (∃ a n, h a = some n ∧ n.type = NodeType.LEAF ∧ kv ∈ n.entries) →
      ∃ a n, g a = some n ∧ n.type = NodeType.LEAF ∧ kv ∈ n.entries := by
    intro h g e ⟨a, n, h1, h2, h3⟩
    have := e a
    rw [h1] at this
    simp only [Option.some_bind, Node.leafView, if_pos h2] at this
    cases hg : g a with
    | none => rw [hg] at this; cases this
    | some m =>
      rw [hg] at this
      simp only [Option.some_bind] at this
      by_cases hm : m.type = NodeType.LEAF
      · rw [if_pos hm] at this
        have h4 := (Prod.mk.inj (Option.some.inj this)).1
        exact ⟨a, m, hg, hm, by rw [← h4]; exact h3⟩
      · rw [if_neg hm] at this; cases this
  exact ⟨key s.heap t.heap (fun a => (e a).symm), key t.heap s.heap e⟩

end LeafSame

namespace SplitStep

variable {t s : SeqBPlusTree} {lvl : Nat → Nat} {lo hi : Nat → Int} {un : Option Nat}
  {x p rh : Nat} {c pn X R : Node} {i : Nat} {m : Int} {D : Nat → Prop}

/-- The split of an internal node leaves the leaves as they are. -/
theorem leaf_same (st : SplitStep t s lvl lo hi un x p rh c pn X R i m D)
    (hty : c.type = NodeType.INTERNAL) : LeafSame t.heap s.heap := by
  obtain ⟨f1, f2, f3, f4, f5, f6, f7, f8, f9, f10, hin⟩ := st.facts
  intro a
  by_cases har : a = rh
  · subst har
    rw [f7, st.hR]
    simp [Node.leafView, st.Rty, hty]
  cases ha : t.heap a with
  | none =>
    have : s.heap a = none := by
      by_cases hap : a = p
      · rw [hap, st.hpn] at ha; cases ha
      by_cases hax : a = x
      · rw [hax, st.hx] at ha; cases ha
      rw [st.hO a hap hax har ?_ ?_, ha]
      · intro hr
        obtain ⟨rsn, e1, _⟩ := st.rs_facts hr
        rw [ha] at e1; cases e1
      · intro hd
        obtain ⟨dn, e1, _⟩ := st.d_facts hd
        rw [ha] at e1; cases e1
    rw [this]
  | some an =>
    by_cases hax : a = x
    · subst hax
      rw [st.hx] at ha; cases ha
      rw [st.hX]
      simp [Node.leafView, st.Xty, hty]
    by_cases hap : a = p
    · subst hap
      rw [st.hpn] at ha; cases ha
      rw [st.hP]
      simp [Node.leafView, link_res, f1]
    obtain ⟨bn, g1, g2, g3, g4, g5, g6, g7, g8, g9⟩ := st.summary ha
    obtain ⟨g10, g11, g12⟩ := g8 hax hap
    rw [g1]
    simp only [Option.some_bind, Node.leafView, g2, Node.entries, g10, g12, g3, g4, if_neg hax]
    by_cases hl : an.type = NodeType.LEAF
    · rw [if_pos hl, if_pos hl, if_neg]
      intro hr
      obtain ⟨rsn, e1, e2, e3, _⟩ := st.rs_facts hr
      rw [ha] at e1; cases e1
      have := st.good.type_of_lvl ha st.hx e3
      rw [hl, hty] at this; cases this
    · rw [if_neg hl, if_neg hl]

/-- The split of a leaf keeps every entry. -/
theorem stored_iff (st : SplitStep t s lvl lo hi un x p rh c pn X R i m D)
    (hty : c.type = NodeType.LEAF) (he : ∀ kv, kv ∈ c.entries ↔ kv ∈ X.entries ∨ kv ∈ R.entries)
    (kv : KeyValuePair) : s.Stored kv ↔ t.Stored kv := by
  obtain ⟨f1, f2, f3, f4, f5, f6, f7, f8, f9, f10, hin⟩ := st.facts
  have hnd : ∀ a, ¬ D a := by
    intro a hd
    have := st.moved_internal hd
    rw [hty] at this; cases this
  constructor
  · rintro ⟨a, n, h1, h2, h3⟩
    by_cases har : a = rh
    · subst har
      rw [st.hR] at h1; cases h1
      exact ⟨x, c, st.hx, hty, (he kv).mpr (Or.inr h3)⟩
    by_cases hax : a = x
    · subst hax
      rw [st.hX] at h1; cases h1
      exact ⟨a, c, st.hx, hty, (he kv).mpr (Or.inl h3)⟩
    by_cases hap : a = p
    · subst hap
      rw [st.hP] at h1; cases h1
      have : pn.type = NodeType.LEAF := h2
      rw [f1] at this; cases this
    cases ha : t.heap a with
    | none =>
      rw [st.hO a hap hax har ?_ (hnd a), ha] at h1
      · cases h1
      · intro hr
        obtain ⟨rsn, e1, _⟩ := st.rs_facts hr
        rw [ha] at e1; cases e1
    | some an =>
      obtain ⟨bn, g1, g2, g3, g4, g5, g6, g7, g8, g9⟩ := st.summary ha
      obtain ⟨g10, g11, g12⟩ := g8 hax hap
      rw [h1] at g1; cases g1
      refine ⟨a, an, ha, by rw [← g2]; exact h2, ?_⟩
      simp only [Node.entries, g10, g12] at h3 ⊢
      exact h3
  · rintro ⟨a, n, h1, h2, h3⟩
    by_cases hax : a = x
    · subst hax
      rw [st.hx] at h1; cases h1
      rcases (he kv).mp h3 with h | h
      · exact ⟨a, X, st.hX, by rw [st.Xty]; exact hty, h⟩
      · exact ⟨rh, R, st.hR, by rw [st.Rty]; exact hty, h⟩
    by_cases hap : a = p
    · subst hap
      rw [st.hpn] at h1; cases h1
      rw [f1] at h2; cases h2
    obtain ⟨bn, g1, g2, g3, g4, g5, g6, g7, g8, g9⟩ := st.summary h1
    obtain ⟨g10, g11, g12⟩ := g8 hax hap
    refine ⟨a, bn, g1, by rw [g2]; exact h2, ?_⟩
    simp only [Node.entries, g10, g12] at h3 ⊢
    exact h3

end SplitStep


theorem LeafSame.with_root {t : SeqBPlusTree} {x r : Nat} {c : Node} (id : Int)
    (hx : t.heap x = some c) (hr : t.heap r = none) :
    LeafSame t.heap (t.with_root x r c id).heap := by
  intro a
  simp only [SeqBPlusTree.with_root]
  by_cases hax : a = x
  · subst hax
    rw [Function.update_same, hx]
    rfl
  rw [Function.update_noteq hax]
  by_cases har : a = r
  · subst har
    rw [Function.update_same, hr]
    rfl
  rw [Function.update_noteq har]

namespace SplitStep

variable {t s : SeqBPlusTree} {lvl : Nat → Nat} {lo hi : Nat → Int} {un : Option Nat}
  {x p rh : Nat} {c pn X R : Node} {i : Nat} {m : Int} {D : Nat → Prop}

/-- An address free after the step was free before. -/
theorem free_before (st : SplitStep t s lvl lo hi un x p rh c pn X R i m D) {a : Nat}
    (ha : s.heap a = none) : t.heap a = none := by
  cases hb : t.heap a with
  | none => rfl
  | some an =>
    obtain ⟨bn, g1, _⟩ := st.summary hb
    rw [ha] at g1; cases g1

end SplitStep

namespace Good

/-- The split cascade above a full internal node: with enough fuel `split_internal` returns
a tree that satisfies the invariant, with the same leaves; the depth grows by one exactly
when a new root is made. -/
theorem cascade : ∀ (k : Nat) (t : SeqBPlusTree) (lvl : Nat → Nat) (lo hi : Nat → Int)
    (x : Nat) (c : Node), Good t lvl lo hi (some x) none → t.heap x = some c →
    c.type = NodeType.INTERNAL → c.size = 4 → lvl t.root - lvl x = k → ∀ f, k < f →
    ∃ s lvl2 lo2 hi2,
      SeqBPlusTree.split_internal_with (SeqBPlusTree.parent_insert f) t (some x) = some s ∧
      Good s lvl2 lo2 hi2 none none ∧ LeafSame t.heap s.heap ∧
      ((s.root = t.root ∧ s.depth = t.depth) ∨
        (t.heap s.root = none ∧ s.depth = t.depth + 1)) := by
  intro k
  induction k with
  | zero =>
    intro t lvl lo hi x c hg hx hty hsz hk f hf
    obtain ⟨f, rfl⟩ : ∃ g, f = g + 1 := ⟨f - 1, by omega⟩
    cases hp : c.parent with
    | some p =>
      obtain ⟨pn, i, hpn, _, _, _, h4, _, _⟩ := hg.parent_info hx hp
      have := (hg.nodes p pn hpn).lvl_le
      omega
    | none =>
      obtain ⟨s, X, R, ds, e1, st, _⟩ := hg.internal_split_root hx hty hsz hp f
      have hg2 := st.good_after
      rw [if_neg (by simp [root_over, InternalNode.new])] at hg2
      have hfr : t.heap (t.next + 1) = none := hg.fresh _ (by omega)
      refine ⟨s, _, _, _, e1, hg2, (LeafSame.with_root _ hx hfr).trans (st.leaf_same hty), ?_⟩
      right
      rw [st.root_eq, st.depth_eq]
      exact ⟨hfr, rfl⟩
  | succ k ih =>
    intro t lvl lo hi x c hg hx hty hsz hk f hf
    obtain ⟨f, rfl⟩ : ∃ g, f = g + 1 := ⟨f - 1, by omega⟩
    cases hp : c.parent with
    | none =>
      have := (hg.nodes x c hx).is_root hp
      rw [this] at hk; omega
    | some p =>
      obtain ⟨s, pn, i, X, R, ds, e1, st, _⟩ := hg.internal_split_step hx hty hsz hp
      obtain ⟨f1, f2, f3, f4, f5, f6, f7, f8, f9, f10, hin⟩ := st.facts
      obtain ⟨r1, r2, r3, r4⟩ := st.root_facts
      have hg2 := st.good_after
      rw [e1 f]
      by_cases hfull : pn.isFull = true
      · have hs3 : pn.size = 3 := by
          simp only [Node.isFull, ORDER, decide_eq_true_eq] at hfull
          omega
        rw [if_pos hs3] at hg2
        rw [if_pos hfull]
        have hk2 : Function.update lvl t.next (lvl x) s.root -
            Function.update lvl t.next (lvl x) p = k := by
          rw [st.root_eq, Function.update_noteq r1, Function.update_noteq f9]
          omega
        obtain ⟨s2, lvl3, lo3, hi3, e2, hg3, ls, hd⟩ :=
          ih s _ _ _ p (link_res pn i (c.sep 2) x t.next) hg2 st.hP f1
            (by show pn.size + 1 = 4; omega) hk2 f (by omega)
        refine ⟨s2, lvl3, lo3, hi3, e2, hg3, (st.leaf_same hty).trans ls, ?_⟩
        rcases hd with ⟨d1, d2⟩ | ⟨d1, d2⟩
        · left; rw [d1, d2, st.root_eq, st.depth_eq]; exact ⟨rfl, rfl⟩
        · right; rw [d2, st.depth_eq]; exact ⟨st.free_before d1, rfl⟩
      · have hs3 : pn.size ≠ 3 := by
          intro h
          apply hfull
          simp [Node.isFull, h]
        rw [if_neg hs3] at hg2
        rw [if_neg hfull]
        exact ⟨s, _, _, _, rfl, hg2, st.leaf_same hty, Or.inl ⟨st.root_eq, st.depth_eq⟩⟩

end Good


namespace SplitStep

variable {t s : SeqBPlusTree} {lvl : Nat → Nat} {lo hi : Nat → Int} {un : Option Nat}
  {x p rh : Nat} {c pn X R : Node} {i : Nat} {m : Int} {D : Nat → Prop}

/-- The leaves after the split of a leaf: the two halves, the old right sibling, which now
follows the right half, and the other leaves, which are as before. -/
theorem leaf_views (st : SplitStep t s lvl lo hi un x p rh c pn X R i m D)
    (hty : c.type = NodeType.LEAF) :
    (s.heap x).bind Node.leafView = some (X.entries, c.left_sibling, some rh) ∧
    (s.heap rh).bind Node.leafView = some (R.entries, some x, c.right_sibling) ∧
    (∀ rs rsn, c.right_sibling = some rs → t.heap rs = some rsn →
      (s.heap rs).bind Node.leafView = some (rsn.entries, some rh, rsn.right_sibling)) ∧
    (∀ a, a ≠ x → a ≠ rh → c.right_sibling ≠ some a →
      (s.heap a).bind Node.leafView = (t.heap a).bind Node.leafView) := by
  obtain ⟨f1, f2, f3, f4, f5, f6, f7, f8, f9, f10, hin⟩ := st.facts
  have hnd : ∀ a, ¬ D a := by
    intro a hd
    have := st.moved_internal hd
    rw [hty] at this; cases this
  refine ⟨?_, ?_, ?_, ?_⟩
  · rw [st.hX]
    simp only [Option.some_bind, Node.leafView, st.Xty, hty, if_true, st.Xleft, st.Xright]
  · rw [st.hR]
    simp only [Option.some_bind, Node.leafView, st.Rty, hty, if_true, st.Rleft, st.Rright]
  · intro rs rsn hr hl
    obtain ⟨rsn2, e1, e2, e3, e4, e5, e6, e7, e8, e9⟩ := st.rs_facts hr
    rw [hl] at e1; cases e1
    have hrt := st.good.type_of_lvl hl st.hx e3
    rw [e9]
    simp only [Option.some_bind, Node.leafView, hrt, hty, if_true, Node.entries]
  · intro a hax har hars
    by_cases hap : a = p
    · subst hap
      rw [st.hP, st.hpn]
      simp [Node.leafView, link_res, f1]
    · rw [st.hO a hap hax har hars (hnd a)]

end SplitStep


/-- What a completed `insert` call guarantees: the invariant, the result, the stored pairs and
the depth. -/
structure InsertOk (t s : SeqBPlusTree) (key value : Int) (b : Bool) : Prop where
  inv : TreeInv s
  result : b = true ↔ ¬ t.HasKey key
  stored : ∀ kv, s.Stored kv ↔ (t.Stored kv ∧ kv.key ≠ key) ∨ kv = ⟨key, value⟩
  depth : (s.root = t.root ∧ s.depth = t.depth) ∨
    (t.heap s.root = none ∧ s.depth = t.depth + 1)

/-- The leaves after `split_leaf` on the leaf `x` (node `c` before): the halves of `x`, the
new right half at the address `t.next`, the old right sibling, and the other leaves. -/
structure LeafSplit (t s : SeqBPlusTree) (x : Nat) (c : Node) : Prop where
  fresh : t.heap t.next = none
  left : (s.heap x).bind Node.leafView =
    some (c.entries.take (ORDER / 2), c.left_sibling, some t.next)
  right : (s.heap t.next).bind Node.leafView =
    some (c.entries.drop (ORDER / 2), some x, c.right_sibling)
  next : ∀ rs rsn, c.right_sibling = some rs → t.heap rs = some rsn →
    (s.heap rs).bind Node.leafView = some (rsn.entries, some t.next, rsn.right_sibling)
  others : ∀ a, a ≠ x → a ≠ t.next → c.right_sibling ≠ some a →
    (s.heap a).bind Node.leafView = (t.heap a).bind Node.leafView

theorem LeafSplit.same {t s s2 : SeqBPlusTree} {x : Nat} {c : Node} (h : LeafSplit t s x c)
    (e : LeafSame s.heap s2.heap) : LeafSplit t s2 x c := by
  constructor
  · exact h.fresh
  · rw [← e]; exact h.left
  · rw [← e]; exact h.right
  · intro rs rsn h1 h2; rw [← e]; exact h.next rs rsn h1 h2
  · intro a h1 h2 h3; rw [← e]; exact h.others a h1 h2 h3

namespace Good

variable {t : SeqBPlusTree} {lvl : Nat → Nat} {lo hi : Nat → Int}

/-- The split of a leaf with four entries, with the cascade above it: `split_leaf` returns a
tree that satisfies the invariant and stores the same pairs. -/
theorem split_leaf_ok {x : Nat} {c : Node} (hg : Good t lvl lo hi (some x) none)
    (hx : t.heap x = some c) (hty : c.type = NodeType.LEAF) (hsz : c.size = 4) :
    ∃ s, SeqBPlusTree.split_leaf t.next t (some x) = some s ∧ TreeInv s ∧
      (∀ kv, s.Stored kv ↔ t.Stored kv) ∧
      ((s.root = t.root ∧ s.depth = t.depth) ∨
        (t.heap s.root = none ∧ s.depth = t.depth + 1)) ∧ LeafSplit t s x c := by
  have hfuel := hg.fuel_ok
  have hfree : t.heap t.next = none := hg.fresh _ (Nat.le_refl _)
  obtain ⟨f, hf⟩ : ∃ f, t.next = f + 1 := ⟨t.next - 1, by omega⟩
  rw [hf]
  have hl0 := (hg.leaf_good hx hty).lvl0
  have hmem : ∀ (X R : Node), X.entries = c.entries.take 2 → R.entries = c.entries.drop 2 →
      ∀ kv, kv ∈ c.entries ↔ kv ∈ X.entries ∨ kv ∈ R.entries := by
    intro X R h1 h2 kv
    rw [h1, h2, ← List.mem_append, List.take_append_drop]
  cases hp : c.parent with
  | none =>
    obtain ⟨s, X, R, e1, st, hXe, hRe, _⟩ := hg.leaf_split_root hx hty hsz hp f
    have hg2 := st.good_after
    rw [if_neg (by simp [root_over, InternalNode.new])] at hg2
    have hfr : t.heap (t.next + 1) = none := hg.fresh _ (by omega)
    obtain ⟨v1, v2, v3, v4⟩ := st.leaf_views hty
    refine ⟨s, e1, ⟨_, _, _, hg2⟩, ?_, ?_, ?_⟩
    · intro kv
      rw [st.stored_iff hty (hmem X R hXe hRe) kv]
      exact (LeafSame.with_root _ hx hfr).stored kv
    · right
      rw [st.root_eq, st.depth_eq]
      exact ⟨hfr, rfl⟩
    · constructor
      · exact hfree
      · rw [v1, hXe]; rfl
      · rw [v2, hRe]; rfl
      · intro rs rsn h1 h2
        obtain ⟨rn, r1, r2, r3, r4⟩ := hg.root_live
        have hroot : x = t.root := (hg.nodes x c hx).is_root hp
        rw [← hroot, hx] at r1; cases r1
        rw [r4] at h1; cases h1
      · intro a h1 h2 h3
        rw [v4 a h1 h2 h3]
        exact ((LeafSame.with_root _ hx hfr) a).symm
  | some p =>
    obtain ⟨s, pn, i, X, R, e1, st, hXe, hRe, _⟩ := hg.leaf_split_step hx hty hsz hp
    obtain ⟨f1, f2, f3, f4, f5, f6, f7, f8, f9, f10, hin⟩ := st.facts
    obtain ⟨r1, r2, r3, r4⟩ := st.root_facts
    have hg2 := st.good_after
    have hst := st.stored_iff hty (hmem X R hXe hRe)
    obtain ⟨v1, v2, v3, v4⟩ := st.leaf_views hty
    have hview : LeafSplit t s x c := by
      constructor
      · exact hfree
      · rw [v1, hXe]; rfl
      · rw [v2, hRe]; rfl
      · exact v3
      · exact v4
    rw [e1 f]
    by_cases hfull : pn.isFull = true
    · have hs3 : pn.size = 3 := by
        simp only [Node.isFull, ORDER, decide_eq_true_eq] at hfull
        omega
      rw [if_pos hs3] at hg2
      rw [if_pos hfull]
      obtain ⟨s2, lvl3, lo3, hi3, e2, hg3, ls, hd⟩ :=
        hg2.cascade _ s _ _ _ p (link_res pn i _ x t.next) st.hP f1
          (by show pn.size + 1 = 4; omega) rfl f (by
            rw [st.root_eq, Function.update_noteq r1, Function.update_noteq f9]
            omega)
      refine ⟨s2, e2, ⟨_, _, _, hg3⟩, ?_, ?_, hview.same ls⟩
      · intro kv
        rw [ls.stored kv]
        exact hst kv
      · rcases hd with ⟨d1, d2⟩ | ⟨d1, d2⟩
        · left; rw [d1, d2, st.root_eq, st.depth_eq]; exact ⟨rfl, rfl⟩
        · right; rw [d2, st.depth_eq]; exact ⟨st.free_before d1, rfl⟩
    · have hs3 : pn.size ≠ 3 := by
        intro h
        apply hfull
        simp [Node.isFull, h]
      rw [if_neg hs3] at hg2
      rw [if_neg hfull]
      exact ⟨s, rfl, ⟨_, _, _, hg2⟩, hst, Or.inl ⟨st.root_eq, st.depth_eq⟩, hview⟩

/-- Every `insert` call on a tree that satisfies the invariant, with a key in the range of
`int`, returns, and the result satisfies `InsertOk`. -/
theorem insert_ok (hg : Good t lvl lo hi none none) (key value : Int)
    (h1 : INT_MIN ≤ key) (h2 : key ≤ INT_MAX) :
    ∃ s b, t.insert key value = some (s, b) ∧ InsertOk t s key value b := by
  obtain ⟨x, xn, hx, hxn, hty, b1, b2⟩ := hg.search_leaf key h1 h2
  cases hfi : (xn.key_value.take xn.size).findIdx? (fun kv => decide (key = kv.key)) with
  | some i =>
    obtain ⟨e1, hg1, hk, hst⟩ := hg.insert_update key value hx hxn hty b1 b2 i hfi
    exact ⟨_, false, e1, ⟨_, _, _, hg1⟩, by simp [hk], hst, Or.inl ⟨rfl, rfl⟩⟩
  | none =>
    obtain ⟨e1, hg1, hk, hsz, hty1, hst⟩ := hg.insert_fresh key value hx hxn hty b1 b2 hfi
    obtain ⟨hle, _⟩ := hg.leaf_size_le hxn hty
    by_cases hfull : xn.isFull = true
    · have hs3 : xn.size = 3 := by
        simp only [Node.isFull, ORDER, decide_eq_true_eq] at hfull
        omega
      rw [if_pos hs3] at hg1
      rw [if_pos hfull] at e1
      have hx1 : (t.set x (ins_node xn key value)).heap x = some (ins_node xn key value) := by
        rw [SeqBPlusTree.set_heap, Function.update_same]
      obtain ⟨s, e2, inv, st2, hd, _⟩ := hg1.split_leaf_ok hx1 hty1 (by rw [hsz, hs3])
      have e3 : SeqBPlusTree.split_leaf t.fuel (t.set x (ins_node xn key value)) (some x) =
          some s := e2
      rw [e3] at e1
      refine ⟨s, true, e1, inv, by simp [hk], ?_, ?_⟩
      · intro kv
        rw [st2 kv]
        exact hst kv
      · rcases hd with ⟨d1, d2⟩ | ⟨d1, d2⟩
        · exact Or.inl ⟨d1, d2⟩
        · right
          refine ⟨?_, d2⟩
          rw [SeqBPlusTree.set_heap] at d1
          by_cases hr : s.root = x
          · rw [hr, Function.update_same] at d1; cases d1
          · rw [Function.update_noteq hr] at d1; exact d1
    · have hs3 : xn.size ≠ 3 := by
        intro h
        apply hfull
        simp [Node.isFull, h]
      rw [if_neg hs3] at hg1
      rw [if_neg hfull] at e1
      exact ⟨_, true, e1, ⟨_, _, _, hg1⟩, by simp [hk], hst, Or.inl ⟨rfl, rfl⟩⟩

end Good

/-- Every `insert` call on a tree that satisfies the invariant, with a key in the range of
`int`, returns a tree that satisfies the invariant. -/
theorem TreeInv.insert {t : SeqBPlusTree} (h : TreeInv t) (key value : Int)
    (h1 : INT_MIN ≤ key) (h2 : key ≤ INT_MAX) :
    ∃ s b, t.insert key value = some (s, b) ∧ InsertOk t s key value b := by
  obtain ⟨lvl, lo, hi, hg⟩ := h
  exact hg.insert_ok key value h1 h2


/-- The value of the last pair with key `k` in a list of (key, value) pairs. -/
def lastInsert : List (Int × Int) → Int → Option Int
  | [], _ => none
  | (k1, v1) :: ops, k =>
    match lastInsert ops k with
    | some v => some v
    | none => if k1 = k then some v1 else none

/-- The `insert` calls for a list of (key, value) pairs, in the order of the list. -/
def insertCalls (ops : List (Int × Int)) : List Op :=
  ops.map (fun kv => Op.insert kv.1 kv.2)

theorem lastInsert_isSome (ops : List (Int × Int)) (k : Int) :
    (∃ v, lastInsert ops k = some v) ↔ k ∈ ops.map Prod.fst := by
  induction ops with
  | nil => simp [lastInsert]
  | cons kv ops ih =>
    obtain ⟨k1, v1⟩ := kv
    simp only [lastInsert, List.map_cons, List.mem_cons]
    cases h : lastInsert ops k with
    | some v =>
      have : k ∈ ops.map Prod.fst := ih.mp ⟨v, h⟩
      simp [this]
    | none =>
      have : ¬ k ∈ ops.map Prod.fst := by
        intro hk
        obtain ⟨v, hv⟩ := ih.mpr hk
        rw [h] at hv; cases hv
      by_cases hk : k1 = k
      · simp [hk]
      · simp [hk, this, Ne.symm hk]

theorem SeqBPlusTree.new_stored (kv : KeyValuePair) : ¬ SeqBPlusTree.new.Stored kv := by
  rintro ⟨a, n, h1, h2, h3⟩
  simp only [SeqBPlusTree.new] at h1
  by_cases ha : a = 1
  · subst ha
    rw [Function.update_same] at h1
    cases h1
    simp [Node.entries, Leaf.new] at h3
  · rw [Function.update_noteq ha] at h1
    cases h1

/-- A sequence of `insert` calls with keys in the range of `int`, on a tree that satisfies the
invariant, returns a tree that satisfies the invariant and stores, for every key of the
sequence, the value of its last call, and the pairs of the other keys as before. -/
theorem TreeInv.run_inserts : ∀ (ops : List (Int × Int)) (t0 : SeqBPlusTree), TreeInv t0 →
    (∀ kv ∈ ops, INT_MIN ≤ kv.1 ∧ kv.1 ≤ INT_MAX) →
    ∃ t, t0.run (insertCalls ops) = some t ∧ TreeInv t ∧
      ∀ kv : KeyValuePair, t.Stored kv ↔
        lastInsert ops kv.key = some kv.value ∨ (lastInsert ops kv.key = none ∧ t0.Stored kv) := by
  intro ops
  induction ops with
  | nil =>
    intro t0 h0 _
    exact ⟨t0, rfl, h0, by simp [lastInsert]⟩
  | cons op ops ih =>
    intro t0 h0 hr
    obtain ⟨k1, v1⟩ := op
    obtain ⟨r1, r2⟩ := hr (k1, v1) (List.mem_cons_self _ _)
    obtain ⟨t1, b, e1, ok⟩ := h0.insert k1 v1 r1 r2
    obtain ⟨t, e2, h2, hst⟩ := ih t1 ok.inv (fun kv hkv => hr kv (List.mem_cons_of_mem _ hkv))
    refine ⟨t, ?_, h2, ?_⟩
    · simp only [insertCalls, List.map_cons, SeqBPlusTree.run, SeqBPlusTree.step, e1,
        Option.map_some', Option.some_bind]
      exact e2
    · intro kv
      rw [hst kv, ok.stored kv]
      simp only [lastInsert]
      cases h : lastInsert ops kv.key with
      | some v => simp
      | none =>
        obtain ⟨k, v⟩ := kv
        by_cases hk : k1 = k
        · subst hk
          simp
          constructor
          · intro h; exact h.symm
          · intro h; exact h.symm
        · simp [hk]
          constructor
          · rintro (h | h)
            · exact h.1
            · exact absurd h.1.symm hk
          · intro h; exact Or.inl ⟨h, Ne.symm hk⟩

/-- C1: for every sequence of `insert` calls (keys in the range of `int`) on a new tree, all
calls return, and for every key of the sequence `search` then returns the value of the last
call with that key. -/
theorem insert_search_round_trip (ops : List (Int × Int))
    (hr : ∀ kv ∈ ops, INT_MIN ≤ kv.1 ∧ kv.1 ≤ INT_MAX) :
    ∃ t, SeqBPlusTree.new.run (insertCalls ops) = some t ∧
      ∀ k, k ∈ ops.map Prod.fst →
        ∃ v, lastInsert ops k = some v ∧ t.search k = some v := by
  obtain ⟨t, e, ⟨lvl, lo, hi, hg⟩, hst⟩ := TreeInv.run_inserts ops _ TreeInv_new hr
  refine ⟨t, e, ?_⟩
  intro k hk
  obtain ⟨v, hv⟩ := (lastInsert_isSome ops k).mpr hk
  refine ⟨v, hv, ?_⟩
  exact hg.search_stored ⟨k, v⟩ ((hst ⟨k, v⟩).mpr (Or.inl hv))

theorem insert_search_round_trip_witness :
    (∀ kv ∈ [((1 : Int), (10 : Int)), (2, 20), (1, 30), (3, 5), (4, 7), (2, 21)],
      INT_MIN ≤ kv.1 ∧ kv.1 ≤ INT_MAX) ∧
    ∃ t, SeqBPlusTree.new.run
        (insertCalls [((1 : Int), (10 : Int)), (2, 20), (1, 30), (3, 5), (4, 7), (2, 21)]) =
          some t ∧
      ∀ k, k ∈ [((1 : Int), (10 : Int)), (2, 20), (1, 30), (3, 5), (4, 7), (2, 21)].map Prod.fst →
        ∃ v, lastInsert [((1 : Int), (10 : Int)), (2, 20), (1, 30), (3, 5), (4, 7), (2, 21)] k =
          some v ∧ t.search k = some v :=
  ⟨by decide, insert_search_round_trip _ (by decide)⟩

/-- C14: inserting a list of (key, value) pairs (keys in the range of `int`) and inserting a
permutation of it into new trees gives two trees that hold a leaf entry for exactly the same
keys, the keys of the list. -/
theorem insert_order_independent (ops ops2 : List (Int × Int)) (hp : ops.Perm ops2)
    (hr : ∀ kv ∈ ops, INT_MIN ≤ kv.1 ∧ kv.1 ≤ INT_MAX) :
    ∃ t t2, SeqBPlusTree.new.run (insertCalls ops) = some t ∧
      SeqBPlusTree.new.run (insertCalls ops2) = some t2 ∧
      ∀ k, (t.HasKey k ↔ k ∈ ops.map Prod.fst) ∧ (t2.HasKey k ↔ k ∈ ops.map Prod.fst) := by
  obtain ⟨t, e, _, hst⟩ := TreeInv.run_inserts ops _ TreeInv_new hr
  obtain ⟨t2, e2, _, hst2⟩ := TreeInv.run_inserts ops2 _ TreeInv_new
    (fun kv hkv => hr kv (hp.mem_iff.mpr hkv))
  have key : ∀ (l : List (Int × Int)) (s : SeqBPlusTree),
      (∀ kv : KeyValuePair, s.Stored kv ↔ lastInsert l kv.key = some kv.value ∨
        (lastInsert l kv.key = none ∧ SeqBPlusTree.new.Stored kv)) →
      ∀ k, s.HasKey k ↔ k ∈ l.map Prod.fst := by
    intro l s h k
    rw [← lastInsert_isSome]
    constructor
    · rintro ⟨v, hv⟩
      rcases (h ⟨k, v⟩).mp hv with h1 | h1
      · exact ⟨v, h1⟩
      · exact absurd h1.2 (SeqBPlusTree.new_stored _)
    · rintro ⟨v, hv⟩
      exact ⟨v, (h ⟨k, v⟩).mpr (Or.inl hv)⟩
  refine ⟨t, t2, e, e2, fun k => ⟨key ops t hst k, ?_⟩⟩
  rw [key ops2 t2 hst2 k]
  exact (hp.map Prod.fst).mem_iff.symm

theorem insert_order_independent_witness :
    [((3 : Int), (30 : Int)), (1, 10), (2, 20), (5, 50), (4, 40)].Perm
      [((1 : Int), (10 : Int)), (2, 20), (3, 30), (4, 40), (5, 50)] ∧
    (∀ kv ∈ [((3 : Int), (30 : Int)), (1, 10), (2, 20), (5, 50), (4, 40)],
      INT_MIN ≤ kv.1 ∧ kv.1 ≤ INT_MAX) ∧
    ∃ t t2, SeqBPlusTree.new.run
        (insertCalls [((3 : Int), (30 : Int)), (1, 10), (2, 20), (5, 50), (4, 40)]) = some t ∧
      SeqBPlusTree.new.run
        (insertCalls [((1 : Int), (10 : Int)), (2, 20), (3, 30), (4, 40), (5, 50)]) = some t2 ∧
      ∀ k, (t.HasKey k ↔
          k ∈ [((3 : Int), (30 : Int)), (1, 10), (2, 20), (5, 50), (4, 40)].map Prod.fst) ∧
        (t2.HasKey k ↔
          k ∈ [((3 : Int), (30 : Int)), (1, 10), (2, 20), (5, 50), (4, 40)].map Prod.fst) :=
  ⟨by decide, by decide, insert_order_independent _ _ (by decide) (by decide)⟩


/-- A leaf with the four pairs `(1, 1)` ... `(4, 4)`. -/
def fullLeaf : Node :=
  { Leaf.new with id := 1, size := 4, key_value := [⟨1, 1⟩, ⟨2, 2⟩, ⟨3, 3⟩, ⟨4, 4⟩] }

/-- The tree whose root leaf holds the four pairs `(1, 1)` ... `(4, 4)`: the state of
`insert 4 4` on the tree with the keys 1, 2, 3 at its call of `split_leaf`. -/
def fullRootLeaf : SeqBPlusTree := SeqBPlusTree.new.set 1 fullLeaf

theorem fullRootLeaf_good :
    Good fullRootLeaf (fun _ => 0) (fun _ => INT_MIN) (fun _ => INT_MAX + 1) (some 1) none := by
  constructor
  · intro a ha
    simp only [fullRootLeaf, SeqBPlusTree.new, SeqBPlusTree.set] at ha ⊢
    rw [Function.update_noteq (by omega), Function.update_noteq (by omega)]
  · refine ⟨fullLeaf, ?_, rfl, rfl, rfl⟩
    simp only [fullRootLeaf, SeqBPlusTree.set, SeqBPlusTree.new]
    rw [Function.update_same]
  · simp [fullRootLeaf, SeqBPlusTree.new, SeqBPlusTree.set]
  · rfl
  · rfl
  · simp [fullRootLeaf, SeqBPlusTree.new, SeqBPlusTree.set]
  · intro a n hn
    simp only [fullRootLeaf, SeqBPlusTree.new, SeqBPlusTree.set] at hn ⊢
    by_cases ha : a = 1
    · subst ha
      rw [Function.update_same] at hn
      cases hn
      constructor
      · intro _; rfl
      · intro p hp; simp [fullLeaf, Leaf.new] at hp
      · exact Nat.le_refl _
      · intro _
        constructor
        · rfl
        · simp [fullLeaf]
        · rfl
        · right; exact ⟨rfl, rfl⟩
        · left; rfl
        · simp [Node.keys, Node.entries, fullLeaf]
        · simp [Node.keys, Node.entries, fullLeaf, INT_MIN, INT_MAX]
      · intro hty; simp [fullLeaf, Leaf.new] at hty
    · rw [Function.update_noteq ha, Function.update_noteq ha] at hn
      cases hn

/-- C20: on a tree that satisfies the invariant except that the leaf `x` holds `ORDER` entries
(in ascending key order), `split_leaf` returns a tree that satisfies the invariant, in which
`x` keeps its first `ORDER / 2` entries and its left sibling, the entries after them are, in
the same order, those of a leaf at a new address, the two point to each other as right and
left sibling, the new leaf has the old right sibling of `x`, which points back to the new
leaf, and the other leaves are as before; the key that `split_leaf` passes to `parent_insert`
is the first key of the new leaf; the two halves together are the old entries, each has at
least `ORDER / 2` of them, and the stored pairs are the same. -/
theorem split_leaf_halves {t : SeqBPlusTree} {lvl : Nat → Nat} {lo hi : Nat → Int} {x : Nat}
    {c : Node} (hg : Good t lvl lo hi (some x) none) (hx : t.heap x = some c)
    (hty : c.type = NodeType.LEAF) (hsz : c.size = ORDER) :
    c.keys.Pairwise (fun a b => a < b) ∧
    ∃ s, SeqBPlusTree.split_leaf t.fuel t (some x) = some s ∧ TreeInv s ∧ LeafSplit t s x c ∧
      SeqBPlusTree.split_leaf t.fuel t (some x) =
        SeqBPlusTree.parent_insert t.fuel (t.leaf_cut x c) x
          (((c.entries.drop (ORDER / 2)).head?.map (fun kv => kv.key)).getD 0) t.next ∧
      c.entries.take (ORDER / 2) ++ c.entries.drop (ORDER / 2) = c.entries ∧
      ORDER / 2 ≤ (c.entries.take (ORDER / 2)).length ∧
      ORDER / 2 ≤ (c.entries.drop (ORDER / 2)).length ∧
      ∀ kv, s.Stored kv ↔ t.Stored kv := by
  have hl := hg.leaf_good hx hty
  obtain ⟨s, e1, inv, hst, _, hv⟩ := hg.split_leaf_ok hx hty hsz
  obtain ⟨e0, k1, k2, k3, he, _⟩ := hl.four hsz
  have hxn : x ≠ t.next := by have := hg.live_lt hx; omega
  have e2 := SeqBPlusTree.split_leaf_eq t.fuel hx hty hsz hl.len hxn (by
    intro rs hr
    obtain ⟨rsn, g1, g2, g3, g4⟩ := hg.right_info _ x c rs rfl hx hr
    refine ⟨?_, ?_, by rw [g1]; simp⟩
    · intro h
      rw [h] at g4
      obtain ⟨e0, e1, e2, e3, he, k0, k1, k2, k3, k4⟩ := hl.four hsz
      omega
    · have := hg.live_lt g1; omega)
  have hm : ((c.entries.drop (ORDER / 2)).head?.map (fun kv => kv.key)).getD 0 =
      ((c.key_value.get? 2).map (fun kv => kv.key)).getD 0 := by
    simp [Node.entries, he, hsz, ORDER]
  refine ⟨hl.sorted, s, e1, inv, hv, ?_, List.take_append_drop _ _, ?_, ?_, hst⟩
  · rw [hm]; exact e2
  · simp [Node.entries, he, hsz, ORDER]
  · simp [Node.entries, he, hsz, ORDER]

theorem split_leaf_halves_witness :
    fullRootLeaf.heap 1 = some fullLeaf ∧
    fullLeaf.keys.Pairwise (fun a b => a < b) ∧
    ∃ s, SeqBPlusTree.split_leaf fullRootLeaf.fuel fullRootLeaf (some 1) = some s ∧ TreeInv s ∧
      LeafSplit fullRootLeaf s 1 fullLeaf :=
  have h := split_leaf_halves fullRootLeaf_good
    (show fullRootLeaf.heap 1 = some fullLeaf by
        simp [fullRootLeaf, SeqBPlusTree.set]) rfl rfl
  ⟨by simp [fullRootLeaf, SeqBPlusTree.set], h.1,
    h.2.imp fun _ hs => ⟨hs.1, hs.2.1, hs.2.2.1⟩⟩


/-- The separator slot between two adjacent siblings: the node `A` whose children `i` and
`i + 1` are the tops of two chains of parents, one from `N1` upwards through last children,
one from `N2` upwards through first children. -/
structure Adj (h : Nat → Option Node) (A : Nat) (An : Node) (i : Nat) (up1 up2 : List Nat)
    (N1 N2 : Nat) : Prop where
  hA : h A = some An
  hi : i < An.size
  c1 : up1.Chain' (fun x y => lastKid h (some y) = some x)
  c2 : up2.Chain' (fun x y => firstKid h (some y) = some x)
  h1 : up1.head? = some N1
  h2 : up2.head? = some N2
  t1 : up1.getLast? = An.kid i
  t2 : up2.getLast? = An.kid (i + 1)
  len : up1.length = up2.length
  hr : rightOf h (some N1) = some N2

namespace Good

variable {t : SeqBPlusTree} {lvl : Nat → Nat} {lo hi : Nat → Int} {ov un : Option Nat}

/-- Two adjacent siblings have a separator slot between them. -/
theorem adjacent (hg : Good t lvl lo hi ov un) :
    ∀ k N1 n1 N2, lvl t.root - lvl N1 = k → t.heap N1 = some n1 →
      n1.right_sibling = some N2 →
      ∃ A An i up1 up2, Adj t.heap A An i up1 up2 N1 N2 := by
  intro k
  induction k with
  | zero =>
    intro N1 n1 N2 hk h1 hr
    have := (hg.nodes N1 n1 h1).lvl_le
    have hroot : N1 = t.root := hg.top_is_root h1 (by omega)
    obtain ⟨rn, r1, _, _, r4⟩ := hg.root_live
    rw [← hroot, h1] at r1; cases r1
    rw [hr] at r4; cases r4
  | succ k ih =>
    intro N1 n1 N2 hk h1 hr
    cases hp : n1.parent with
    | none =>
      have := (hg.nodes N1 n1 h1).is_root hp
      subst this; omega
    | some p =>
      obtain ⟨pn, j, hpn, hty, hj, hkj, h4, h5, h6⟩ := hg.parent_info h1 hp
      have hin := hg.internal_good hpn hty
      by_cases hlt : j < pn.size
      · obtain ⟨e1, e2⟩ := hin.sib_in j hlt
        rw [hkj] at e1
        simp only [rightOf, Option.some_bind, h1, hr] at e1
        refine ⟨p, pn, j, [N1], [N2], hpn, hlt, List.chain'_singleton _,
          List.chain'_singleton _, rfl, rfl, ?_, ?_, rfl, ?_⟩
        · rw [hkj]; rfl
        · rw [← e1]; rfl
        · simp only [rightOf, Option.some_bind, h1, hr]
      · have hjs : j = pn.size := by omega
        subst hjs
        have e1 := hin.sib_right
        rw [hkj] at e1
        simp only [rightOf, Option.some_bind, h1, hr] at e1
        cases hq : pn.right_sibling with
        | none => rw [hq] at e1; simp [firstKid] at e1
        | some p2 =>
          rw [hq] at e1
          have := (hg.nodes p pn hpn).lvl_le
          obtain ⟨A, An, i, up1, up2, adj⟩ := ih p pn p2 (by omega) hpn hq
          refine ⟨A, An, i, N1 :: up1, N2 :: up2, adj.hA, adj.hi, ?_, ?_, rfl, rfl, ?_, ?_,
            by simp [adj.len], by simp only [rightOf, Option.some_bind, h1, hr]⟩
          · apply List.Chain'.cons' adj.c1
            intro y hy
            rw [adj.h1] at hy
            cases hy
            simp only [lastKid, Option.some_bind, hpn, hkj]
          · apply List.Chain'.cons' adj.c2
            intro y hy
            rw [adj.h2] at hy
            cases hy
            exact e1.symm
          · cases hu : up1 with
            | nil => have := adj.h1; rw [hu] at this; cases this
            | cons a r => rw [List.getLast?_cons_cons, ← hu]; exact adj.t1
          · cases hu : up2 with
            | nil => have := adj.h2; rw [hu] at this; cases this
            | cons a r => rw [List.getLast?_cons_cons, ← hu]; exact adj.t2

end Good


/-- In a chain every element is the last one or has a successor. -/
theorem chain_succ {α : Type} (R : α → α → Prop) :
    ∀ l : List α, l.Chain' R → ∀ c ∈ l, l.getLast? = some c ∨ ∃ y ∈ l, R c y := by
  intro l
  induction l with
  | nil => intro _ c hc; cases hc
  | cons x rest ih =>
    intro hch c hc
    cases rest with
    | nil =>
      simp only [List.mem_singleton] at hc
      subst hc
      left; rfl
    | cons y r =>
      rw [List.chain'_cons] at hch
      rw [List.getLast?_cons_cons]
      rcases List.mem_cons.1 hc with e | e
      · subst e
        right
        exact ⟨y, by simp, hch.1⟩
      · rcases ih hch.2 c e with h1 | ⟨z, hz, h2⟩
        · exact Or.inl h1
        · exact Or.inr ⟨z, List.mem_cons_of_mem _ hz, h2⟩

/-- In a chain every element is the first one or has a predecessor. -/
theorem chain_pred {α : Type} (R : α → α → Prop) :
    ∀ l : List α, l.Chain' R → ∀ c ∈ l, l.head? = some c ∨ ∃ y ∈ l, R y c := by
  intro l
  induction l with
  | nil => intro _ c hc; cases hc
  | cons x rest ih =>
    intro hch c hc
    cases rest with
    | nil =>
      simp only [List.mem_singleton] at hc
      subst hc
      left; rfl
    | cons y r =>
      rw [List.chain'_cons] at hch
      rcases List.mem_cons.1 hc with e | e
      · subst e
        left; rfl
      · right
        rcases ih hch.2 c e with h1 | ⟨z, hz, h2⟩
        · simp only [List.head?_cons, Option.some.injEq] at h1
          subst h1
          exact ⟨x, by simp, hch.1⟩
        · exact ⟨z, List.mem_cons_of_mem _ hz, h2⟩

namespace Good

variable {t : SeqBPlusTree} {lvl : Nat → Nat} {lo hi : Nat → Int} {ov un : Option Nat}

/-- The key range of a child is not empty when its parent holds a separator or has a range
that is not empty. -/
theorem kid_range (hg : Good t lvl lo hi ov un) {p : Nat} {pn : Node}
    (hp : t.heap p = some pn) (hty : pn.type = NodeType.INTERNAL) (hr : lo p < hi p)
    (j : Nat) (hj : j ≤ pn.size) : lob pn (lo p) j < hib pn (hi p) j := by
  have hin := hg.internal_good hp hty
  unfold lob hib
  by_cases h0 : j = 0
  · by_cases hs : j = pn.size
    · rw [if_pos h0, if_pos hs]; exact hr
    · rw [if_pos h0, if_neg hs]; exact hin.sep_lo j (by omega)
  · by_cases hs : j = pn.size
    · rw [if_neg h0, if_pos hs]; exact hin.sep_hi (j - 1) (by omega)
    · rw [if_neg h0, if_neg hs]; exact hin.sep_sorted (j - 1) j (by omega) (by omega)

/-- The key range of every live node is not empty. -/
theorem range_pos (hg : Good t lvl lo hi ov un) :
    ∀ k a n, lvl t.root - lvl a = k → t.heap a = some n → lo a < hi a := by
  intro k
  induction k with
  | zero =>
    intro a n hk ha
    have := (hg.nodes a n ha).lvl_le
    have hroot : a = t.root := hg.top_is_root ha (by omega)
    rw [hroot, hg.root_lo, hg.root_hi]
    decide
  | succ k ih =>
    intro a n hk ha
    cases hp : n.parent with
    | none =>
      have := (hg.nodes a n ha).is_root hp
      subst this; omega
    | some p =>
      obtain ⟨pn, i, hpn, hty, hi1, hkid, h4, h5, h6⟩ := hg.parent_info ha hp
      have := (hg.nodes p pn hpn).lvl_le
      have e := ih p pn (by omega) hpn
      rw [h5, h6]
      exact hg.kid_range hpn hty e i hi1

/-- The key range of a live node is not empty. -/
theorem range_ne (hg : Good t lvl lo hi ov un) {a : Nat} {n : Node} (ha : t.heap a = some n) :
    lo a < hi a := hg.range_pos _ a n rfl ha

/-- Down a chain of last children: every node is live, below the top, and has the upper
bound of the top. -/
theorem chain1_top (hg : Good t lvl lo hi ov un) :
    ∀ (l : List Nat) (top : Nat) (tn : Node),
      l.Chain' (fun x y => lastKid t.heap (some y) = some x) → l.getLast? = some top →
      t.heap top = some tn →
      ∀ b ∈ l, ∃ bn, t.heap b = some bn ∧ lvl b ≤ lvl top ∧ hi b = hi top ∧ lo top ≤ lo b := by
  intro l
  induction l with
  | nil => intro _ _ _ _ _ b hb; cases hb
  | cons x rest ih =>
    intro top tn hch hl ht b hb
    cases rest with
    | nil =>
      simp only [List.getLast?_singleton, Option.some.injEq] at hl
      simp only [List.mem_singleton] at hb
      subst hl hb
      exact ⟨tn, ht, le_refl _, rfl, le_refl _⟩
    | cons y r =>
      rw [List.chain'_cons] at hch
      rw [List.getLast?_cons_cons] at hl
      have IH := ih top tn hch.2 hl ht
      rcases List.mem_cons.1 hb with e | e
      · subst e
        obtain ⟨yn, hy, h2, h3, h4⟩ := IH y (by simp)
        have hR := hch.1
        simp only [lastKid, Option.some_bind, hy] at hR
        obtain ⟨bn, g1, g2, g3, g4, g5⟩ := hg.kid_live hy (le_refl _) hR
        have hty := hg.internal_of_kid hy hR
        obtain ⟨b1, b2⟩ := hg.sep_between hy hty yn.size (le_refl _)
        refine ⟨bn, g1, by omega, ?_, ?_⟩
        · rw [g5, ← h3]; unfold hib; rw [if_pos rfl]
        · rw [g4]; omega
      · exact IH b e

/-- Up a chain of last children from its first node `bot`: the lower bounds and separators of
the nodes above are at most the lower bound of `bot`. -/
theorem chain1_bot (hg : Good t lvl lo hi ov un) :
    ∀ (l : List Nat) (bot : Nat),
      l.Chain' (fun x y => lastKid t.heap (some y) = some x) → l.head? = some bot →
      (∀ b ∈ l, ∃ bn, t.heap b = some bn) →
      ∀ b ∈ l, lvl bot ≤ lvl b ∧ lo b ≤ lo bot ∧ (b ≠ bot → lvl bot < lvl b ∧
        ∃ bn, t.heap b = some bn ∧ bn.type = NodeType.INTERNAL ∧
          (∀ j, j < bn.size → bn.sep j ≤ lo bot) ∧
          ∃ c ∈ l, bn.kid bn.size = some c) := by
  intro l
  induction l with
  | nil => intro _ _ _ _ b hb; cases hb
  | cons x rest ih =>
    intro bot hch hh hlive b hb
    simp only [List.head?_cons, Option.some.injEq] at hh
    subst hh
    rcases List.mem_cons.1 hb with e | e
    · subst e
      exact ⟨le_refl _, le_refl _, fun h => absurd rfl h⟩
    · cases rest with
      | nil => cases e
      | cons y r =>
        rw [List.chain'_cons] at hch
        have IH := ih y hch.2 rfl (fun b hb => hlive b (List.mem_cons_of_mem _ hb)) b e
        obtain ⟨yn, hy⟩ := hlive y (by simp)
        have hR := hch.1
        simp only [lastKid, Option.some_bind, hy] at hR
        obtain ⟨xn, g1, g2, g3, g4, g5⟩ := hg.kid_live hy (le_refl _) hR
        have hty := hg.internal_of_kid hy hR
        obtain ⟨b1, b2⟩ := hg.sep_between hy hty yn.size (le_refl _)
        have hin := hg.internal_good hy hty
        have hsep : ∀ j, j < yn.size → yn.sep j ≤ lo x := by
          intro j hj
          rw [g4]
          unfold lob
          rw [if_neg (by omega)]
          by_cases hjl : j = yn.size - 1
          · rw [hjl]
          · exact le_of_lt (hin.sep_sorted j (yn.size - 1) (by omega) (by omega))
        refine ⟨by omega, by rw [g4]; omega, fun _ => ⟨by omega, ?_⟩⟩
        by_cases hby : b = y
        · subst hby
          exact ⟨yn, hy, hty, hsep, x, by simp, hR⟩
        · obtain ⟨_, bn, q1, q2, q3, c, q4, q5⟩ := IH.2.2 hby
          refine ⟨bn, q1, q2, ?_, c, List.mem_cons_of_mem _ q4, q5⟩
          intro j hj
          have := q3 j hj
          rw [g4]
          omega

/-- Down a chain of first children: every node is live, below the top, and has the lower
bound of the top. -/
theorem chain2_top (hg : Good t lvl lo hi ov un) :
    ∀ (l : List Nat) (top : Nat) (tn : Node),
      l.Chain' (fun x y => firstKid t.heap (some y) = some x) → l.getLast? = some top →
      t.heap top = some tn →
      ∀ b ∈ l, ∃ bn, t.heap b = some bn ∧ lvl b ≤ lvl top ∧ lo b = lo top ∧ hi b ≤ hi top := by
  intro l
  induction l with
  | nil => intro _ _ _ _ _ b hb; cases hb
  | cons x rest ih =>
    intro top tn hch hl ht b hb
    cases rest with
    | nil =>
      simp only [List.getLast?_singleton, Option.some.injEq] at hl
      simp only [List.mem_singleton] at hb
      subst hl hb
      exact ⟨tn, ht, le_refl _, rfl, le_refl _⟩
    | cons y r =>
      rw [List.chain'_cons] at hch
      rw [List.getLast?_cons_cons] at hl
      have IH := ih top tn hch.2 hl ht
      rcases List.mem_cons.1 hb with e | e
      · subst e
        obtain ⟨yn, hy, h2, h3, h4⟩ := IH y (by simp)
        have hR := hch.1
        simp only [firstKid, Option.some_bind, hy] at hR
        obtain ⟨bn, g1, g2, g3, g4, g5⟩ := hg.kid_live hy (Nat.zero_le _) hR
        have hty := hg.internal_of_kid hy hR
        obtain ⟨b1, b2⟩ := hg.sep_between hy hty 0 (Nat.zero_le _)
        refine ⟨bn, g1, by omega, ?_, ?_⟩
        · rw [g4, ← h3]; unfold lob; rw [if_pos rfl]
        · rw [g5]; omega
      · exact IH b e

/-- Up a chain of first children from its first node `bot`: the upper bounds and separators
of the nodes above are at least the upper bound of `bot`. -/
theorem chain2_bot (hg : Good t lvl lo hi ov un) :
    ∀ (l : List Nat) (bot : Nat),
      l.Chain' (fun x y => firstKid t.heap (some y) = some x) → l.head? = some bot →
      (∀ b ∈ l, ∃ bn, t.heap b = some bn) →
      ∀ b ∈ l, lvl bot ≤ lvl b ∧ hi bot ≤ hi b ∧ (b ≠ bot → lvl bot < lvl b ∧
        ∃ bn, t.heap b = some bn ∧ bn.type = NodeType.INTERNAL ∧
          (∀ j, j < bn.size → hi bot ≤ bn.sep j) ∧
          ∃ c ∈ l, bn.kid 0 = some c) := by
  intro l
  induction l with
  | nil => intro _ _ _ _ b hb; cases hb
  | cons x rest ih =>
    intro bot hch hh hlive b hb
    simp only [List.head?_cons, Option.some.injEq] at hh
    subst hh
    rcases List.mem_cons.1 hb with e | e
    · subst e
      exact ⟨le_refl _, le_refl _, fun h => absurd rfl h⟩
    · cases rest with
      | nil => cases e
      | cons y r =>
        rw [List.chain'_cons] at hch
        have IH := ih y hch.2 rfl (fun b hb => hlive b (List.mem_cons_of_mem _ hb)) b e
        obtain ⟨yn, hy⟩ := hlive y (by simp)
        have hR := hch.1
        simp only [firstKid, Option.some_bind, hy] at hR
        obtain ⟨xn, g1, g2, g3, g4, g5⟩ := hg.kid_live hy (Nat.zero_le _) hR
        have hty := hg.internal_of_kid hy hR
        obtain ⟨b1, b2⟩ := hg.sep_between hy hty 0 (Nat.zero_le _)
        have hin := hg.internal_good hy hty
        have hsep : ∀ j, j < yn.size → hi x ≤ yn.sep j := by
          intro j hj
          rw [g5]
          unfold hib
          rw [if_neg (by omega)]
          by_cases hjl : j = 0
          · rw [hjl]
          · exact le_of_lt (hin.sep_sorted 0 j (by omega) (by omega))
        refine ⟨by omega, by rw [g5]; omega, fun _ => ⟨by omega, ?_⟩⟩
        by_cases hby : b = y
        · subst hby
          exact ⟨yn, hy, hty, hsep, x, by simp, hR⟩
        · obtain ⟨_, bn, q1, q2, q3, c, q4, q5⟩ := IH.2.2 hby
          refine ⟨bn, q1, q2, ?_, c, List.mem_cons_of_mem _ q4, q5⟩
          intro j hj
          have := q3 j hj
          rw [g5]
          omega

end Good


namespace Adj

variable {t : SeqBPlusTree} {lvl : Nat → Nat} {lo hi : Nat → Int} {ov un : Option Nat}
  {A : Nat} {An : Node} {i : Nat} {up1 up2 : List Nat} {N1 N2 : Nat}

theorem N1_mem (adj : Adj t.heap A An i up1 up2 N1 N2) : N1 ∈ up1 :=
  List.mem_of_mem_head? adj.h1

theorem N2_mem (adj : Adj t.heap A An i up1 up2 N1 N2) : N2 ∈ up2 :=
  List.mem_of_mem_head? adj.h2

theorem internal (adj : Adj t.heap A An i up1 up2 N1 N2) (hg : Good t lvl lo hi ov un) :
    An.type = NodeType.INTERNAL := by
  have h := adj.t1
  cases hk : An.kid i with
  | none =>
    rw [hk] at h
    have := adj.h1
    cases hu : up1 with
    | nil => rw [hu] at this; cases this
    | cons a r => rw [hu] at h; simp [List.getLast?_cons] at h
  | some c => exact hg.internal_of_kid adj.hA hk

/-- The tops of the two chains are the children `i` and `i + 1` of `A`. -/
theorem tops (adj : Adj t.heap A An i up1 up2 N1 N2) (hg : Good t lvl lo hi ov un) :
    ∃ c1 c2 c1n c2n, An.kid i = some c1 ∧ An.kid (i + 1) = some c2 ∧
      up1.getLast? = some c1 ∧ up2.getLast? = some c2 ∧
      t.heap c1 = some c1n ∧ t.heap c2 = some c2n ∧ lvl c1 + 1 = lvl A ∧ lvl c2 + 1 = lvl A ∧
      lo c1 = lob An (lo A) i ∧ hi c1 = An.sep i ∧ lo c2 = An.sep i ∧
      hi c2 = hib An (hi A) (i + 1) := by
  have hin := hg.internal_good adj.hA (adj.internal hg)
  obtain ⟨c1, c1n, a1, a2, a3, a4, a5, a6⟩ := hin.kids i (le_of_lt adj.hi)
  obtain ⟨c2, c2n, b1, b2, b3, b4, b5, b6⟩ := hin.kids (i + 1) adj.hi
  refine ⟨c1, c2, c1n, c2n, a1, b1, by rw [adj.t1, a1], by rw [adj.t2, b1], a2, b2, a4, b4,
    a5, ?_, ?_, b6⟩
  · rw [a6]; unfold hib; rw [if_neg (by have := adj.hi; omega)]
  · rw [b5]; unfold lob; rw [if_neg (by omega)]; rfl

theorem mem1 (adj : Adj t.heap A An i up1 up2 N1 N2) (hg : Good t lvl lo hi ov un)
    {b : Nat} (hb : b ∈ up1) :
    ∃ bn, t.heap b = some bn ∧ lvl N1 ≤ lvl b ∧ lvl b < lvl A ∧ hi b = An.sep i ∧
      lob An (lo A) i ≤ lo b ∧ lo b ≤ lo N1 := by
  obtain ⟨c1, c2, c1n, c2n, a1, a2, a3, a4, a5, a6, a7, a8, a9, a10, a11, a12⟩ := adj.tops hg
  have top := hg.chain1_top up1 c1 c1n adj.c1 a3 a5
  obtain ⟨bn, g1, g2, g3, g4⟩ := top b hb
  have bot := hg.chain1_bot up1 N1 adj.c1 adj.h1
    (fun b hb => by obtain ⟨bn, g, _⟩ := top b hb; exact ⟨bn, g⟩) b hb
  exact ⟨bn, g1, bot.1, by omega, by rw [g3, a10], by rw [← a9]; exact g4, bot.2.1⟩

theorem mem2 (adj : Adj t.heap A An i up1 up2 N1 N2) (hg : Good t lvl lo hi ov un)
    {b : Nat} (hb : b ∈ up2) :
    ∃ bn, t.heap b = some bn ∧ lvl N2 ≤ lvl b ∧ lvl b < lvl A ∧ lo b = An.sep i ∧
      hi b ≤ hib An (hi A) (i + 1) ∧ hi N2 ≤ hi b := by
  obtain ⟨c1, c2, c1n, c2n, a1, a2, a3, a4, a5, a6, a7, a8, a9, a10, a11, a12⟩ := adj.tops hg
  have top := hg.chain2_top up2 c2 c2n adj.c2 a4 a6
  obtain ⟨bn, g1, g2, g3, g4⟩ := top b hb
  have bot := hg.chain2_bot up2 N2 adj.c2 adj.h2
    (fun b hb => by obtain ⟨bn, g, _⟩ := top b hb; exact ⟨bn, g⟩) b hb
  exact ⟨bn, g1, bot.1, by omega, by rw [g3, a11], by rw [← a12]; exact g4, bot.2.1⟩

theorem above1 (adj : Adj t.heap A An i up1 up2 N1 N2) (hg : Good t lvl lo hi ov un)
    {b : Nat} (hb : b ∈ up1) (hne : b ≠ N1) :
    lvl N1 < lvl b ∧ ∃ bn, t.heap b = some bn ∧ bn.type = NodeType.INTERNAL ∧
      (∀ j, j < bn.size → bn.sep j ≤ lo N1) ∧ ∃ c ∈ up1, bn.kid bn.size = some c := by
  have bot := hg.chain1_bot up1 N1 adj.c1 adj.h1
    (fun b hb => by obtain ⟨bn, g, _⟩ := adj.mem1 hg hb; exact ⟨bn, g⟩) b hb
  exact bot.2.2 hne

theorem above2 (adj : Adj t.heap A An i up1 up2 N1 N2) (hg : Good t lvl lo hi ov un)
    {b : Nat} (hb : b ∈ up2) (hne : b ≠ N2) :
    lvl N2 < lvl b ∧ ∃ bn, t.heap b = some bn ∧ bn.type = NodeType.INTERNAL ∧
      (∀ j, j < bn.size → hi N2 ≤ bn.sep j) ∧ ∃ c ∈ up2, bn.kid 0 = some c := by
  have bot := hg.chain2_bot up2 N2 adj.c2 adj.h2
    (fun b hb => by obtain ⟨bn, g, _⟩ := adj.mem2 hg hb; exact ⟨bn, g⟩) b hb
  exact bot.2.2 hne

/-- The parent of a node of the first chain is `A` or the next node of the chain. -/
theorem kid1 (adj : Adj t.heap A An i up1 up2 N1 N2) (hg : Good t lvl lo hi ov un)
    {b c j : Nat} {bn : Node} (hc : c ∈ up1) (hb : t.heap b = some bn) (hj : j ≤ bn.size)
    (hk : bn.kid j = some c) :
    (b = A ∧ j = i) ∨ (b ∈ up1 ∧ b ≠ N1 ∧ j = bn.size) := by
  obtain ⟨c1, c2, c1n, c2n, a1, a2, a3, a4, a5, a6, a7, a8, a9, a10, a11, a12⟩ := adj.tops hg
  obtain ⟨cn, g1, g2, _⟩ := adj.mem1 hg hc
  have hpar := (hg.kid_parent hb hj hk g1)
  rcases chain_succ _ up1 adj.c1 c hc with h | ⟨y, hy, h⟩
  · rw [a3] at h
    cases h
    have := (hg.kid_parent adj.hA (le_of_lt adj.hi) a1 g1).1
    rw [hpar.1] at this
    cases this
    rw [adj.hA] at hb
    cases hb
    have hin := hg.internal_good adj.hA (adj.internal hg)
    exact Or.inl ⟨rfl, hin.kid_inj j i hj (le_of_lt adj.hi) (hk.trans a1.symm)⟩
  · obtain ⟨yn, q1, _⟩ := adj.mem1 hg hy
    simp only [lastKid, Option.some_bind, q1] at h
    have := (hg.kid_parent q1 (le_refl _) h g1).1
    rw [hpar.1] at this
    cases this
    rw [q1] at hb
    cases hb
    have hin := hg.internal_good q1 (hg.internal_of_kid q1 h)
    refine Or.inr ⟨hy, ?_, hin.kid_inj j bn.size hj (le_refl _) (hk.trans h.symm)⟩
    intro e
    have := hpar.2
    rw [e] at this
    omega

/-- The parent of a node of the second chain is `A` or the next node of the chain. -/
theorem kid2 (adj : Adj t.heap A An i up1 up2 N1 N2) (hg : Good t lvl lo hi ov un)
    {b c j : Nat} {bn : Node} (hc : c ∈ up2) (hb : t.heap b = some bn) (hj : j ≤ bn.size)
    (hk : bn.kid j = some c) :
    (b = A ∧ j = i + 1) ∨ (b ∈ up2 ∧ b ≠ N2 ∧ j = 0) := by
  obtain ⟨c1, c2, c1n, c2n, a1, a2, a3, a4, a5, a6, a7, a8, a9, a10, a11, a12⟩ := adj.tops hg
  obtain ⟨cn, g1, g2, _⟩ := adj.mem2 hg hc
  have hpar := (hg.kid_parent hb hj hk g1)
  rcases chain_succ _ up2 adj.c2 c hc with h | ⟨y, hy, h⟩
  · rw [a4] at h
    cases h
    have := (hg.kid_parent adj.hA adj.hi a2 g1).1
    rw [hpar.1] at this
    cases this
    rw [adj.hA] at hb
    cases hb
    have hin := hg.internal_good adj.hA (adj.internal hg)
    exact Or.inl ⟨rfl, hin.kid_inj j (i + 1) hj adj.hi (hk.trans a2.symm)⟩
  · obtain ⟨yn, q1, _⟩ := adj.mem2 hg hy
    simp only [firstKid, Option.some_bind, q1] at h
    have := (hg.kid_parent q1 (Nat.zero_le _) h g1).1
    rw [hpar.1] at this
    cases this
    rw [q1] at hb
    cases hb
    have hin := hg.internal_good q1 (hg.internal_of_kid q1 h)
    refine Or.inr ⟨hy, ?_, hin.kid_inj j 0 hj (Nat.zero_le _) (hk.trans h.symm)⟩
    intro e
    have := hpar.2
    rw [e] at this
    omega

/-- The two chains share no node. -/
theorem disjoint (adj : Adj t.heap A An i up1 up2 N1 N2) (hg : Good t lvl lo hi ov un)
    {b : Nat} (h1 : b ∈ up1) (h2 : b ∈ up2) : False := by
  obtain ⟨bn, g1, _, _, g4, _⟩ := adj.mem1 hg h1
  obtain ⟨_, _, _, _, q4, _⟩ := adj.mem2 hg h2
  have := hg.range_ne g1
  omega

theorem A_not1 (adj : Adj t.heap A An i up1 up2 N1 N2) (hg : Good t lvl lo hi ov un) :
    A ∉ up1 := by
  intro h
  obtain ⟨_, _, _, g, _⟩ := adj.mem1 hg h
  omega

theorem A_not2 (adj : Adj t.heap A An i up1 up2 N1 N2) (hg : Good t lvl lo hi ov un) :
    A ∉ up2 := by
  intro h
  obtain ⟨_, _, _, g, _⟩ := adj.mem2 hg h
  omega

end Adj


/-- The ghost bound `f` with the value `m` on the nodes of the list `l`. -/
def rebound (f : Nat → Int) (l : List Nat) (m : Int) : Nat → Int :=
  fun a => if a ∈ l then m else f a

theorem rebound_mem {f : Nat → Int} {l : List Nat} {m : Int} {a : Nat} (h : a ∈ l) :
    rebound f l m a = m := by
  unfold rebound; rw [if_pos h]

theorem rebound_not {f : Nat → Int} {l : List Nat} {m : Int} {a : Nat} (h : a ∉ l) :
    rebound f l m a = f a := by
  unfold rebound; rw [if_neg h]

/-- The invariant of a node whose keys, entries and children are unchanged carries over to a
new store and new ghost bounds when its keys lie within its new bounds and the new bounds of
its children are what its separators say. -/
theorem NodeGood.reghost {h g : Nat → Option Node} {root root2 : Nat} {lvl lvl2 : Nat → Nat}
    {lo hi lo2 hi2 : Nat → Int} {ov un ov2 un2 : Option Nat} {b : Nat} {n n2 : Node}
    (old : NodeGood h root lvl lo hi ov un b n)
    (hty : n2.type = n.type) (hsz : n2.size = n.size) (hkr : n2.key_ref = n.key_ref)
    (hkv : n2.key_value = n.key_value)
    (hov : ov = some b → ov2 = some b) (hun : un = some b → un2 = some b)
    (hroot : n2.parent = none → b = root2)
    (hroot2 : b = root → n.type = NodeType.LEAF → b = root2 ∨ ORDER / 2 ≤ n.size)
    (hpar : ∀ q, n2.parent = some q → ∃ qn, g q = some qn ∧ qn.type = NodeType.INTERNAL ∧
      ∃ j, j ≤ qn.size ∧ qn.kid j = some b)
    (hlvl : lvl2 b ≤ lvl2 root2)
    (hl : lvl2 b = lvl b)
    (hrange : n.type = NodeType.LEAF → ∀ k ∈ n.keys, lo2 b ≤ k ∧ k < hi2 b)
    (hseplo : n.type = NodeType.INTERNAL → ∀ j, j < n.size → lo2 b < n.sep j)
    (hsephi : n.type = NodeType.INTERNAL → ∀ j, j < n.size → n.sep j < hi2 b)
    (hkids : n.type = NodeType.INTERNAL → ∀ j c, j ≤ n.size → n.kid j = some c →
      ∃ cn, g c = some cn ∧ cn.parent = some b ∧ lvl2 c = lvl c ∧
        lo2 c = lob n (lo2 b) j ∧ hi2 c = hib n (hi2 b) j)
    (hsib : n.type = NodeType.INTERNAL → ∀ j, j < n.size →
      rightOf g (n.kid j) = rightOf h (n.kid j) ∧
      leftOf g (n.kid (j + 1)) = leftOf h (n.kid (j + 1)))
    (hleft : n.type = NodeType.INTERNAL → leftOf g (n.kid 0) = lastKid g n2.left_sibling)
    (hright : n.type = NodeType.INTERNAL →
      rightOf g (n.kid n.size) = firstKid g n2.right_sibling) :
    NodeGood g root2 lvl2 lo2 hi2 ov2 un2 b n2 := by
  obtain ⟨ty, sz, par, ls, rs, id, kv, kr⟩ := n
  obtain ⟨ty2, sz2, par2, ls2, rs2, id2, kv2, kr2⟩ := n2
  simp only at hty hsz hkr hkv
  subst hty hsz hkr hkv
  simp only at hroot2
  constructor
  · exact hroot
  · exact hpar
  · exact hlvl
  · intro hty
    rw [hl]
    have o := old.leaf hty
    constructor
    · exact o.lvl0
    · exact o.len
    · exact o.noref
    · rcases o.size_le with h1 | h1
      · exact Or.inl h1
      · exact Or.inr ⟨h1.1, hov h1.2⟩
    · rcases o.size_ge with h1 | h1 | h1
      · rcases hroot2 h1 hty with h2 | h2
        · exact Or.inl h2
        · exact Or.inr (Or.inl h2)
      · exact Or.inr (Or.inl h1)
      · exact Or.inr (Or.inr ⟨h1.1, hun h1.2⟩)
    · exact o.sorted
    · exact hrange hty
  · intro hty
    obtain ⟨o1, o⟩ := old.internal hty
    refine ⟨by omega, ?_⟩
    constructor
    · exact o.len
    · rcases o.size_le with h1 | h1
      · exact Or.inl h1
      · exact Or.inr ⟨h1.1, hov h1.2⟩
    · rcases o.size_ge with h1 | h1
      · exact Or.inl h1
      · exact Or.inr (hun h1)
    · exact o.sep_sorted
    · exact hseplo hty
    · exact hsephi hty
    · exact o.sep_max
    · exact o.dummy
    · intro j hj
      obtain ⟨c, cn, h1, h2, h3, h4, h5, h6⟩ := o.kids j hj
      obtain ⟨dn, g1, g2, g3, g4, g5⟩ := hkids hty j c hj h1
      exact ⟨c, dn, h1, g1, g2, by omega, g4, g5⟩
    · exact o.kid_inj
    · intro j hj
      have := hsib hty j hj
      have o2 := o.sib_in j hj
      exact ⟨this.1.trans o2.1, this.2.trans o2.2⟩
    · exact hleft hty
    · exact hright hty


/-- The node with the key of its slot `i` set to `k` (`slot->key = k`). -/
def Node.set_sep (n : Node) (i : Nat) (k : Int) : Node :=
  { n with key_ref := n.key_ref.modify (fun kr => { kr with key := k }) i }

namespace Node

theorem set_sep_kid (n : Node) (i : Nat) (k : Int) (j : Nat) :
    (n.set_sep i k).kid j = n.kid j := by
  unfold Node.kid Node.set_sep
  simp only [List.get?_eq_getElem?, List.getElem?_modify]
  cases n.key_ref[j]? with
  | none => rfl
  | some kr =>
    by_cases h : i = j
    · simp [h]
    · simp [h]

theorem set_sep_same (n : Node) (i : Nat) (k : Int) (h : i < n.key_ref.length) :
    (n.set_sep i k).sep i = k := by
  unfold Node.sep Node.set_sep
  simp only [List.get?_eq_getElem?, List.getElem?_modify]
  rw [List.getElem?_eq_getElem h]
  simp

theorem set_sep_ne (n : Node) (i : Nat) (k : Int) (j : Nat) (h : j ≠ i) :
    (n.set_sep i k).sep j = n.sep j := by
  unfold Node.sep Node.set_sep
  simp only [List.get?_eq_getElem?, List.getElem?_modify]
  cases n.key_ref[j]? with
  | none => rfl
  | some kr => simp [Ne.symm h]

theorem set_sep_fields (n : Node) (i : Nat) (k : Int) :
    (n.set_sep i k).type = n.type ∧ (n.set_sep i k).size = n.size ∧
    (n.set_sep i k).parent = n.parent ∧ (n.set_sep i k).left_sibling = n.left_sibling ∧
    (n.set_sep i k).right_sibling = n.right_sibling ∧
    (n.set_sep i k).key_value = n.key_value ∧
    (n.set_sep i k).key_ref.length = n.key_ref.length :=
  ⟨rfl, rfl, rfl, rfl, rfl, rfl, by simp [Node.set_sep]⟩

end Node

/-- The sibling and child pointers of two stores agree, but for the first child of `N2` and
the last child of `N1`. -/
def SibSame (h g : Nat → Option Node) (N1 N2 : Nat) : Prop :=
  (∀ p, leftOf g p = leftOf h p) ∧ (∀ p, rightOf g p = rightOf h p) ∧
  (∀ p, p ≠ some N2 → firstKid g p = firstKid h p) ∧
  (∀ p, p ≠ some N1 → lastKid g p = lastKid h p)

/-- One move of the boundary between two adjacent siblings `N1` and `N2`: the separator
between them, slot `i` of `A`, becomes `m`; the two nodes get new contents `m1` and `m2`;
the children in `D` move between the two and get the parent `q`; all other nodes stay. -/
structure BoundaryStep (t s : SeqBPlusTree) (lvl : Nat → Nat) (lo hi : Nat → Int)
    (ov ov2 un un2 : Option Nat) (A : Nat) (An : Node) (i : Nat) (up1 up2 : List Nat)
    (N1 N2 : Nat) (n1 n2 m1 m2 : Node) (m : Int) (D : Nat → Prop) (q : Nat) : Prop where
  good : Good t lvl lo hi ov un
  adj : Adj t.heap A An i up1 up2 N1 N2
  h1 : t.heap N1 = some n1
  h2 : t.heap N2 = some n2
  hr : n1.right_sibling = some N2
  hm1 : lo N1 < m
  hm2 : m < hi N2
  hm3 : m < INT_MAX
  hov : ∀ b, ov = some b → b ≠ N1 → b ≠ N2 → ov2 = some b
  hun : ∀ b, un = some b → b ≠ N1 → b ≠ N2 → un2 = some b
  root_eq : s.root = t.root
  next_eq : s.next = t.next
  depth_eq : s.depth = t.depth
  sA : s.heap A = some (An.set_sep i m)
  s1 : s.heap N1 = some m1
  s2 : s.heap N2 = some m2
  sD : ∀ d, D d → ∃ dn, t.heap d = some dn ∧ (dn.parent = some N1 ∨ dn.parent = some N2) ∧
    s.heap d = some { dn with parent := some q }
  sO : ∀ a, a ≠ A → a ≠ N1 → a ≠ N2 → ¬ D a → s.heap a = t.heap a
  ty1 : m1.type = n1.type
  par1 : m1.parent = n1.parent
  left1 : m1.left_sibling = n1.left_sibling
  right1 : m1.right_sibling = n1.right_sibling
  ty2 : m2.type = n2.type
  par2 : m2.parent = n2.parent
  left2 : m2.left_sibling = n2.left_sibling
  right2 : m2.right_sibling = n2.right_sibling
  first1 : m1.kid 0 = n1.kid 0
  last2 : m2.kid m2.size = n2.kid n2.size
  kid1 : ∀ a j, j ≤ n1.size → n1.kid j = some a → ¬ D a →
    ∃ j2, j2 ≤ m1.size ∧ m1.kid j2 = some a
  kid2 : ∀ a j, j ≤ n2.size → n2.kid j = some a → ¬ D a →
    ∃ j2, j2 ≤ m2.size ∧ m2.kid j2 = some a
  kidD : ∀ d, D d → ∃ qn j, s.heap q = some qn ∧ qn.type = NodeType.INTERNAL ∧
    j ≤ qn.size ∧ qn.kid j = some d
  leaf1 : n1.type = NodeType.LEAF → LeafGood t.root ov2 un2 N1 m1 (lvl N1) (lo N1) m
  leaf2 : n2.type = NodeType.LEAF → LeafGood t.root ov2 un2 N2 m2 (lvl N2) m (hi N2)
  int1 : n1.type = NodeType.INTERNAL → SibSame t.heap s.heap N1 N2 →
    InternalGood s.heap lvl (rebound lo up2 m) (rebound hi up1 m) ov2 un2 N1 m1
  int2 : n2.type = NodeType.INTERNAL → SibSame t.heap s.heap N1 N2 →
    InternalGood s.heap lvl (rebound lo up2 m) (rebound hi up1 m) ov2 un2 N2 m2

namespace BoundaryStep

variable {t s : SeqBPlusTree} {lvl : Nat → Nat} {lo hi : Nat → Int}
  {ov ov2 un un2 : Option Nat}
  {A : Nat} {An : Node} {i : Nat} {up1 up2 : List Nat} {N1 N2 : Nat} {n1 n2 m1 m2 : Node}
  {m : Int} {D : Nat → Prop} {q : Nat}

/-- Levels and distinctness of the nodes of a boundary move. -/
theorem b_basics (st : BoundaryStep t s lvl lo hi ov ov2 un un2 A An i up1 up2 N1 N2 n1 n2 m1 m2 m D q) :
    lvl N2 = lvl N1 ∧ n2.left_sibling = some N1 ∧ lvl N1 < lvl A ∧ N1 ≠ N2 ∧ A ≠ N1 ∧
    A ≠ N2 ∧ hi N1 = An.sep i ∧ lo N2 = An.sep i ∧ n2.type = n1.type ∧
    (∀ d, D d → lvl d + 1 = lvl N1 ∧ d ≠ A ∧ d ≠ N1 ∧ d ≠ N2 ∧ d ∉ up1 ∧ d ∉ up2) := by
  have hg := st.good
  obtain ⟨bn, g1, g2, g3, g4⟩ := hg.right_info _ N1 n1 N2 rfl st.h1 st.hr
  rw [st.h2] at g1; cases g1
  obtain ⟨_, e1, e2, e3, e4, e5, e6⟩ := st.adj.mem1 hg st.adj.N1_mem
  obtain ⟨_, f1, f2, f3, f4, f5, f6⟩ := st.adj.mem2 hg st.adj.N2_mem
  have hne : N1 ≠ N2 := by
    intro e
    have := hg.range_ne st.h1
    rw [← e] at g4
    omega
  refine ⟨g3, g2, e3, hne, ?_, ?_, e4, f4, hg.type_of_lvl st.h2 st.h1 g3, ?_⟩
  · intro e; rw [e] at e3; omega
  · intro e; rw [e] at f3; omega
  · intro d hd
    obtain ⟨dn, d1, d2, d3⟩ := st.sD d hd
    have hl : lvl d + 1 = lvl N1 := by
      rcases d2 with d2 | d2
      · obtain ⟨pn, j, p1, p2, p3, p4, p5, _⟩ := hg.parent_info d1 d2
        exact p5
      · obtain ⟨pn, j, p1, p2, p3, p4, p5, _⟩ := hg.parent_info d1 d2
        omega
    refine ⟨hl, ?_, ?_, ?_, ?_, ?_⟩
    · intro e; rw [e] at hl; omega
    · intro e; rw [e] at hl; omega
    · intro e; rw [e] at hl; omega
    · intro h
      obtain ⟨_, _, k2, _⟩ := st.adj.mem1 hg h
      omega
    · intro h
      obtain ⟨_, _, k2, _⟩ := st.adj.mem2 hg h
      omega

/-- What the store after the move holds where the store before holds a node. -/
theorem b_summary (st : BoundaryStep t s lvl lo hi ov ov2 un un2 A An i up1 up2 N1 N2 n1 n2 m1 m2 m D q)
    {a : Nat} {an : Node} (ha : t.heap a = some an) :
    ∃ bn, s.heap a = some bn ∧ bn.type = an.type ∧
      bn.left_sibling = an.left_sibling ∧ bn.right_sibling = an.right_sibling ∧
      (¬ D a → bn.parent = an.parent) ∧ (D a → bn.parent = some q) ∧
      (a ≠ N1 → a ≠ N2 → bn.size = an.size ∧ (∀ j, bn.kid j = an.kid j) ∧
        bn.key_value = an.key_value) ∧
      (a ≠ N1 → a ≠ N2 → a ≠ A → bn.size = an.size ∧ bn.key_ref = an.key_ref ∧
        bn.key_value = an.key_value) ∧
      (a ≠ N1 → a ≠ N2 → a ≠ A → ¬ D a → bn = an) := by
  obtain ⟨b1, b2, b3, b4, b5, b6, b7, b8, b9, bD⟩ := st.b_basics
  by_cases hA : a = A
  · subst hA
    rw [st.adj.hA] at ha; cases ha
    refine ⟨_, st.sA, rfl, rfl, rfl, fun _ => rfl, ?_, ?_, ?_, ?_⟩
    · intro hd; exact absurd rfl (bD a hd).2.1
    · intro _ _; exact ⟨rfl, fun j => Node.set_sep_kid _ _ _ j, rfl⟩
    · intro _ _ h; exact absurd rfl h
    · intro _ _ h; exact absurd rfl h
  by_cases h1 : a = N1
  · subst h1
    rw [st.h1] at ha; cases ha
    refine ⟨_, st.s1, st.ty1, st.left1, st.right1, fun _ => st.par1, ?_, ?_, ?_, ?_⟩
    · intro hd; exact absurd rfl (bD a hd).2.2.1
    · intro h; exact absurd rfl h
    · intro h; exact absurd rfl h
    · intro h; exact absurd rfl h
  by_cases h2 : a = N2
  · subst h2
    rw [st.h2] at ha; cases ha
    refine ⟨_, st.s2, st.ty2, st.left2, st.right2, fun _ => st.par2, ?_, ?_, ?_, ?_⟩
    · intro hd; exact absurd rfl (bD a hd).2.2.2.1
    · intro _ h; exact absurd rfl h
    · intro _ h; exact absurd rfl h
    · intro _ h; exact absurd rfl h
  by_cases hd : D a
  · obtain ⟨dn, d1, d2, d3⟩ := st.sD a hd
    rw [ha] at d1; cases d1
    refine ⟨_, d3, rfl, rfl, rfl, fun h => absurd hd h, fun _ => rfl, ?_, ?_, ?_⟩
    · intro _ _; exact ⟨rfl, fun j => rfl, rfl⟩
    · intro _ _ _; exact ⟨rfl, rfl, rfl⟩
    · intro _ _ _ h; exact absurd hd h
  · refine ⟨an, by rw [st.sO a hA h1 h2 hd, ha], rfl, rfl, rfl, fun _ => rfl,
      fun h => absurd h hd, ?_, ?_, ?_⟩
    · intro _ _; exact ⟨rfl, fun j => rfl, rfl⟩
    · intro _ _ _; exact ⟨rfl, rfl, rfl⟩
    · intro _ _ _ _; rfl

/-- The move keeps the set of live addresses. -/
theorem b_dead (st : BoundaryStep t s lvl lo hi ov ov2 un un2 A An i up1 up2 N1 N2 n1 n2 m1 m2 m D q)
    {a : Nat} (ha : t.heap a = none) : s.heap a = none := by
  have hA : a ≠ A := by intro e; rw [e, st.adj.hA] at ha; cases ha
  have h1 : a ≠ N1 := by intro e; rw [e, st.h1] at ha; cases ha
  have h2 : a ≠ N2 := by intro e; rw [e, st.h2] at ha; cases ha
  have hd : ¬ D a := by
    intro hd
    obtain ⟨dn, d1, _⟩ := st.sD a hd
    rw [ha] at d1; cases d1
  rw [st.sO a hA h1 h2 hd, ha]

theorem b_live_back (st : BoundaryStep t s lvl lo hi ov ov2 un un2 A An i up1 up2 N1 N2 n1 n2 m1 m2 m D q)
    {a : Nat} {bn : Node} (ha : s.heap a = some bn) : ∃ an, t.heap a = some an := by
  cases h : t.heap a with
  | none => rw [st.b_dead h] at ha; cases ha
  | some an => exact ⟨an, rfl⟩

theorem leftOf_b (st : BoundaryStep t s lvl lo hi ov ov2 un un2 A An i up1 up2 N1 N2 n1 n2 m1 m2 m D q)
    (p : Option Nat) : leftOf s.heap p = leftOf t.heap p := by
  cases p with
  | none => rfl
  | some a =>
    simp only [leftOf, Option.some_bind]
    cases h : t.heap a with
    | none => rw [st.b_dead h]
    | some an =>
      obtain ⟨bn, g1, _, g3, _⟩ := st.b_summary h
      rw [g1]; simp [g3]

theorem rightOf_b (st : BoundaryStep t s lvl lo hi ov ov2 un un2 A An i up1 up2 N1 N2 n1 n2 m1 m2 m D q)
    (p : Option Nat) : rightOf s.heap p = rightOf t.heap p := by
  cases p with
  | none => rfl
  | some a =>
    simp only [rightOf, Option.some_bind]
    cases h : t.heap a with
    | none => rw [st.b_dead h]
    | some an =>
      obtain ⟨bn, g1, _, _, g4, _⟩ := st.b_summary h
      rw [g1]; simp [g4]

theorem firstKid_b (st : BoundaryStep t s lvl lo hi ov ov2 un un2 A An i up1 up2 N1 N2 n1 n2 m1 m2 m D q)
    (p : Option Nat) (hp : p ≠ some N2) : firstKid s.heap p = firstKid t.heap p := by
  cases p with
  | none => rfl
  | some a =>
    simp only [firstKid, Option.some_bind]
    cases h : t.heap a with
    | none => rw [st.b_dead h]
    | some an =>
      obtain ⟨bn, g1, _, _, _, _, _, g7, _⟩ := st.b_summary h
      rw [g1]
      simp only [Option.some_bind]
      by_cases h1 : a = N1
      · subst h1
        rw [st.s1] at g1; cases g1
        rw [st.h1] at h; cases h
        exact st.first1
      · exact (g7 h1 (fun e => hp (by rw [e]))).2.1 0

theorem lastKid_b (st : BoundaryStep t s lvl lo hi ov ov2 un un2 A An i up1 up2 N1 N2 n1 n2 m1 m2 m D q)
    (p : Option Nat) (hp : p ≠ some N1) : lastKid s.heap p = lastKid t.heap p := by
  cases p with
  | none => rfl
  | some a =>
    simp only [lastKid, Option.some_bind]
    cases h : t.heap a with
    | none => rw [st.b_dead h]
    | some an =>
      obtain ⟨bn, g1, _, _, _, _, _, g7, _⟩ := st.b_summary h
      rw [g1]
      simp only [Option.some_bind]
      by_cases h2 : a = N2
      · subst h2
        rw [st.s2] at g1; cases g1
        rw [st.h2] at h; cases h
        exact st.last2
      · obtain ⟨e1, e2, _⟩ := g7 (fun e => hp (by rw [e])) h2
        rw [e1, e2]

end BoundaryStep


namespace BoundaryStep

variable {t s : SeqBPlusTree} {lvl : Nat → Nat} {lo hi : Nat → Int}
  {ov ov2 un un2 : Option Nat}
  {A : Nat} {An : Node} {i : Nat} {up1 up2 : List Nat} {N1 N2 : Nat} {n1 n2 m1 m2 : Node}
  {m : Int} {D : Nat → Prop} {q : Nat}

/-- After the move every node is a child of its parent. -/
theorem b_parent_ok (st : BoundaryStep t s lvl lo hi ov ov2 un un2 A An i up1 up2 N1 N2 n1 n2 m1 m2 m D q)
    {a : Nat} {an bn : Node} (ha : t.heap a = some an) (hb : s.heap a = some bn) :
    ∀ p, bn.parent = some p → ∃ pn, s.heap p = some pn ∧ pn.type = NodeType.INTERNAL ∧
      ∃ j, j ≤ pn.size ∧ pn.kid j = some a := by
  intro p hp
  have hg := st.good
  obtain ⟨bn2, g1, g2, g3, g4, g5, g6, g7, g8, g9⟩ := st.b_summary ha
  rw [hb] at g1; cases g1
  by_cases hd : D a
  · rw [g6 hd] at hp; cases hp
    obtain ⟨qn, j, k1, k2, k3, k4⟩ := st.kidD a hd
    exact ⟨qn, k1, k2, j, k3, k4⟩
  · rw [g5 hd] at hp
    obtain ⟨pn, j, p1, p2, p3, p4, _⟩ := hg.parent_info ha hp
    by_cases e1 : p = N1
    · subst e1
      rw [st.h1] at p1; cases p1
      obtain ⟨j2, k1, k2⟩ := st.kid1 a j p3 p4 hd
      exact ⟨m1, st.s1, by rw [st.ty1]; exact p2, j2, k1, k2⟩
    by_cases e2 : p = N2
    · subst e2
      rw [st.h2] at p1; cases p1
      obtain ⟨j2, k1, k2⟩ := st.kid2 a j p3 p4 hd
      exact ⟨m2, st.s2, by rw [st.ty2]; exact p2, j2, k1, k2⟩
    obtain ⟨qn, q1, q2, _, _, _, _, q7, _⟩ := st.b_summary p1
    obtain ⟨r1, r2, _⟩ := q7 e1 e2
    exact ⟨qn, q1, by rw [q2]; exact p2, j, by rw [r1]; exact p3, by rw [r2]; exact p4⟩

/-- A node other than the separator node and the two siblings keeps the invariant. -/
theorem b_node_other
    (st : BoundaryStep t s lvl lo hi ov ov2 un un2 A An i up1 up2 N1 N2 n1 n2 m1 m2 m D q)
    {a : Nat} {an bn : Node} (ha : t.heap a = some an) (hb : s.heap a = some bn)
    (hA : a ≠ A) (h1 : a ≠ N1) (h2 : a ≠ N2) :
    NodeGood s.heap s.root lvl (rebound lo up2 m) (rebound hi up1 m) ov2 un2 a bn := by
  have hg := st.good
  obtain ⟨b1, b2, b3, b4, b5, b6, b7, b8, b9, bD⟩ := st.b_basics
  obtain ⟨bn2, g1, g2, g3, g4, g5, g6, g7, g8, g9⟩ := st.b_summary ha
  rw [hb] at g1; cases g1
  obtain ⟨e1, e2, e3⟩ := g8 h1 h2 hA
  have old := hg.nodes a an ha
  have hleaf : an.type = NodeType.LEAF → a ∉ up1 ∧ a ∉ up2 := by
    intro hty
    constructor
    · intro hm
      obtain ⟨_, xn, x1, x2, _⟩ := st.adj.above1 hg hm h1
      rw [ha] at x1; cases x1
      rw [hty] at x2; cases x2
    · intro hm
      obtain ⟨_, xn, x1, x2, _⟩ := st.adj.above2 hg hm h2
      rw [ha] at x1; cases x1
      rw [hty] at x2; cases x2
  have hnotD : ∀ j c, j ≤ an.size → an.kid j = some c → ¬ D c := by
    intro j c hj hk hd
    obtain ⟨dn, d1, d2, _⟩ := st.sD c hd
    have := (hg.kid_parent ha hj hk d1).1
    rw [this] at d2
    rcases d2 with d2 | d2
    · exact h1 (Option.some.inj d2)
    · exact h2 (Option.some.inj d2)
  refine old.reghost g2 e1 e2 e3 (fun h => st.hov a h h1 h2) (fun h => st.hun a h h1 h2) ?_ ?_
    (st.b_parent_ok ha hb) ?_ rfl ?_ ?_ ?_ ?_ ?_ ?_ ?_
  · intro hp
    rw [st.root_eq]
    by_cases hd : D a
    · rw [g6 hd] at hp; cases hp
    · rw [g5 hd] at hp; exact old.is_root hp
  · intro hr _
    left; rw [st.root_eq]; exact hr
  · rw [st.root_eq]; exact old.lvl_le
  · intro hty k hk
    obtain ⟨x1, x2⟩ := hleaf hty
    rw [rebound_not x1, rebound_not x2]
    exact (old.leaf hty).range k hk
  · intro hty j hj
    by_cases hm : a ∈ up2
    · rw [rebound_mem hm]
      obtain ⟨_, xn, x1, x2, x3, _⟩ := st.adj.above2 hg hm h2
      rw [ha] at x1; cases x1
      have := x3 j hj
      have := st.hm2
      omega
    · rw [rebound_not hm]
      exact (old.internal hty).2.sep_lo j hj
  · intro hty j hj
    by_cases hm : a ∈ up1
    · rw [rebound_mem hm]
      obtain ⟨_, xn, x1, x2, x3, _⟩ := st.adj.above1 hg hm h1
      rw [ha] at x1; cases x1
      have := x3 j hj
      have := st.hm1
      omega
    · rw [rebound_not hm]
      exact (old.internal hty).2.sep_hi j hj
  · intro hty j c hj hk
    obtain ⟨cn, c1, c2, c3, c4, c5⟩ := hg.kid_live ha hj hk
    obtain ⟨dn, d1, d2, d3, d4, d5, _⟩ := st.b_summary c1
    refine ⟨dn, d1, by rw [d5 (hnotD j c hj hk)]; exact c2, rfl, ?_, ?_⟩
    · by_cases hc : c ∈ up2
      · rcases st.adj.kid2 hg hc ha hj hk with ⟨x, _⟩ | ⟨x1, x2, x3⟩
        · exact absurd x hA
        · rw [rebound_mem hc, rebound_mem x1, x3]
          unfold lob; rw [if_pos rfl]
      · rw [rebound_not hc, c4]
        by_cases hj0 : j = 0
        · have hm : a ∉ up2 := by
            intro hm
            obtain ⟨_, xn, x1, x2, x3, y, y1, y2⟩ := st.adj.above2 hg hm h2
            rw [ha] at x1; cases x1
            rw [hj0, y2] at hk
            cases hk
            exact hc y1
          rw [rebound_not hm]
        · unfold lob; rw [if_neg hj0, if_neg hj0]
    · by_cases hc : c ∈ up1
      · rcases st.adj.kid1 hg hc ha hj hk with ⟨x, _⟩ | ⟨x1, x2, x3⟩
        · exact absurd x hA
        · rw [rebound_mem hc, rebound_mem x1, x3]
          unfold hib; rw [if_pos rfl]
      · rw [rebound_not hc, c5]
        by_cases hj0 : j = an.size
        · have hm : a ∉ up1 := by
            intro hm
            obtain ⟨_, xn, x1, x2, x3, y, y1, y2⟩ := st.adj.above1 hg hm h1
            rw [ha] at x1; cases x1
            rw [hj0, y2] at hk
            cases hk
            exact hc y1
          rw [rebound_not hm]
        · unfold hib; rw [if_neg hj0, if_neg hj0]
  · intro _ j _
    exact ⟨st.rightOf_b _, st.leftOf_b _⟩
  · intro hty
    rw [st.leftOf_b, g3, st.lastKid_b]
    · exact (old.internal hty).2.sib_left
    · intro e
      obtain ⟨xn, x1, x2, _⟩ := hg.left_info _ a an N1 rfl ha e
      rw [st.h1] at x1; cases x1
      rw [st.hr] at x2
      exact h2 (Option.some.inj x2).symm
  · intro hty
    rw [st.rightOf_b, g4, st.firstKid_b]
    · exact (old.internal hty).2.sib_right
    · intro e
      obtain ⟨xn, x1, x2, _⟩ := hg.right_info _ a an N2 rfl ha e
      rw [st.h2] at x1; cases x1
      rw [b2] at x2
      exact h1 (Option.some.inj x2).symm

end BoundaryStep


namespace BoundaryStep

variable {t s : SeqBPlusTree} {lvl : Nat → Nat} {lo hi : Nat → Int}
  {ov ov2 un un2 : Option Nat}
  {A : Nat} {An : Node} {i : Nat} {up1 up2 : List Nat} {N1 N2 : Nat} {n1 n2 m1 m2 : Node}
  {m : Int} {D : Nat → Prop} {q : Nat}

/-- Where the new separator lies among the old ones. -/
theorem sep_place
    (st : BoundaryStep t s lvl lo hi ov ov2 un un2 A An i up1 up2 N1 N2 n1 n2 m1 m2 m D q) :
    lob An (lo A) i < m ∧ m < hib An (hi A) (i + 1) ∧ An.type = NodeType.INTERNAL ∧
    i < An.key_ref.length := by
  have hg := st.good
  obtain ⟨_, e1, e2, e3, e4, e5, e6⟩ := st.adj.mem1 hg st.adj.N1_mem
  obtain ⟨_, f1, f2, f3, f4, f5, f6⟩ := st.adj.mem2 hg st.adj.N2_mem
  have := st.hm1
  have := st.hm2
  have hty := st.adj.internal hg
  have := st.adj.hi
  obtain ⟨_, _⟩ := hg.size_le_four st.adj.hA hty
  exact ⟨by omega, by omega, hty, by omega⟩

/-- The separator node keeps the invariant. -/
theorem node_A (st : BoundaryStep t s lvl lo hi ov ov2 un un2 A An i up1 up2 N1 N2 n1 n2 m1 m2 m D q) :
    NodeGood s.heap s.root lvl (rebound lo up2 m) (rebound hi up1 m) ov2 un2 A
      (An.set_sep i m) := by
  have hg := st.good
  obtain ⟨b1, b2, b3, b4, b5, b6, b7, b8, b9, bD⟩ := st.b_basics
  obtain ⟨p1, p2, hty, p4⟩ := st.sep_place
  have old := hg.nodes A An st.adj.hA
  obtain ⟨o1, o⟩ := old.internal hty
  obtain ⟨c1, c2, c1n, c2n, a1, a2, a3, a4, a5, a6, a7, a8, a9, a10, a11, a12⟩ :=
    st.adj.tops hg
  have hc1 : c1 ∈ up1 := List.mem_of_mem_getLast? a3
  have hc2 : c2 ∈ up2 := List.mem_of_mem_getLast? a4
  have hii := st.adj.hi
  have hA1 := st.adj.A_not1 hg
  have hA2 := st.adj.A_not2 hg
  obtain ⟨sb1, sb2⟩ := hg.sep_between st.adj.hA hty i (le_of_lt hii)
  obtain ⟨sc1, sc2⟩ := hg.sep_between st.adj.hA hty (i + 1) hii
  have hsame := Node.set_sep_same An i m p4
  have hlob : lob An (lo A) i = if i = 0 then lo A else An.sep (i - 1) := rfl
  have hhib : hib An (hi A) (i + 1) = if i + 1 = An.size then hi A else An.sep (i + 1) := rfl
  have hlow : ∀ j, j < i → An.sep j < m := by
    intro j hj
    rw [hlob, if_neg (by omega)] at p1
    by_cases e : j = i - 1
    · rw [e]; exact p1
    · have := o.sep_sorted j (i - 1) (by omega) (by omega)
      omega
  have hhigh : ∀ j, i < j → j < An.size → m < An.sep j := by
    intro j hj hjs
    rw [hhib, if_neg (by omega)] at p2
    by_cases e : j = i + 1
    · rw [e]; exact p2
    · have := o.sep_sorted (i + 1) j (by omega) (by omega)
      omega
  constructor
  · rw [st.root_eq]; exact old.is_root
  · exact st.b_parent_ok st.adj.hA st.sA
  · rw [st.root_eq]; exact old.lvl_le
  · intro h
    have : An.type = NodeType.LEAF := h
    rw [hty] at this; cases this
  · intro _
    refine ⟨o1, ?_⟩
    constructor
    · rw [(Node.set_sep_fields An i m).2.2.2.2.2.2]; exact o.len
    · rcases o.size_le with h | h
      · exact Or.inl h
      · exact Or.inr ⟨h.1, st.hov A h.2 b5 b6⟩
    · left
      show 1 ≤ An.size
      omega
    · intro a b hab hb
      have hb : b < An.size := hb
      by_cases ea : a = i
      · subst ea
        rw [hsame, Node.set_sep_ne _ _ _ _ (by omega)]
        exact hhigh b hab hb
      · by_cases eb : b = i
        · subst eb
          rw [hsame, Node.set_sep_ne _ _ _ _ ea]
          exact hlow a hab
        · rw [Node.set_sep_ne _ _ _ _ ea, Node.set_sep_ne _ _ _ _ eb]
          exact o.sep_sorted a b hab hb
    · intro j hj
      have hj : j < An.size := hj
      rw [rebound_not hA2]
      by_cases e : j = i
      · subst e; rw [hsame]; omega
      · rw [Node.set_sep_ne _ _ _ _ e]; exact o.sep_lo j hj
    · intro j hj
      have hj : j < An.size := hj
      rw [rebound_not hA1]
      by_cases e : j = i
      · subst e; rw [hsame]; omega
      · rw [Node.set_sep_ne _ _ _ _ e]; exact o.sep_hi j hj
    · intro j hj
      have hj : j < An.size := hj
      by_cases e : j = i
      · subst e; rw [hsame]; exact st.hm3
      · rw [Node.set_sep_ne _ _ _ _ e]; exact o.sep_max j hj
    · show (An.set_sep i m).sep An.size = INT_MAX
      rw [Node.set_sep_ne _ _ _ _ (by omega)]; exact o.dummy
    · intro j hj
      have hj : j ≤ An.size := hj
      obtain ⟨c, cn, k1, k2, k3, k4, k5, k6⟩ := o.kids j hj
      obtain ⟨dn, d1, d2, d3, d4, d5, _⟩ := st.b_summary k2
      have hnd : ¬ D c := by
        intro hd
        obtain ⟨xn, x1, x2, _⟩ := st.sD c hd
        rw [k2] at x1; cases x1
        rw [k3] at x2
        rcases x2 with x2 | x2
        · exact b5 (Option.some.inj x2)
        · exact b6 (Option.some.inj x2)
      refine ⟨c, dn, by rw [Node.set_sep_kid]; exact k1, d1, by rw [d5 hnd]; exact k3, k4,
        ?_, ?_⟩
      · rw [rebound_not hA2]
        by_cases hc : c ∈ up2
        · rcases st.adj.kid2 hg hc st.adj.hA hj k1 with ⟨_, x⟩ | ⟨x, _⟩
          · rw [rebound_mem hc, x]
            unfold lob
            rw [if_neg (by omega)]
            exact hsame.symm
          · exact absurd x hA2
        · rw [rebound_not hc, k5]
          have hne : j ≠ i + 1 := by
            intro e
            rw [e, a2] at k1
            cases k1
            exact hc hc2
          unfold lob
          by_cases hj0 : j = 0
          · rw [if_pos hj0, if_pos hj0]
          · rw [if_neg hj0, if_neg hj0, Node.set_sep_ne _ _ _ _ (by omega)]
      · rw [rebound_not hA1]
        by_cases hc : c ∈ up1
        · rcases st.adj.kid1 hg hc st.adj.hA hj k1 with ⟨_, x⟩ | ⟨x, _⟩
          · rw [rebound_mem hc, x]
            unfold hib
            rw [if_neg (show i ≠ (An.set_sep i m).size from by
              show i ≠ An.size
              omega)]
            exact hsame.symm
          · exact absurd x hA1
        · rw [rebound_not hc, k6]
          have hne : j ≠ i := by
            intro e
            rw [e, a1] at k1
            cases k1
            exact hc hc1
          unfold hib
          show (if j = An.size then hi A else An.sep j) =
            if j = An.size then hi A else (An.set_sep i m).sep j
          rw [Node.set_sep_ne _ _ _ _ hne]
    · intro a b ha hb hk
      rw [Node.set_sep_kid, Node.set_sep_kid] at hk
      exact o.kid_inj a b ha hb hk
    · intro j hj
      rw [Node.set_sep_kid, Node.set_sep_kid, st.rightOf_b, st.leftOf_b]
      exact o.sib_in j hj
    · rw [Node.set_sep_kid, st.leftOf_b]
      show leftOf t.heap (An.kid 0) = lastKid s.heap An.left_sibling
      rw [st.lastKid_b]
      · exact o.sib_left
      · intro e
        obtain ⟨xn, x1, x2, x3, _⟩ := hg.left_info _ A An N1 rfl st.adj.hA e
        omega
    · rw [Node.set_sep_kid, st.rightOf_b]
      show rightOf t.heap (An.kid An.size) = firstKid s.heap An.right_sibling
      rw [st.firstKid_b]
      · exact o.sib_right
      · intro e
        obtain ⟨xn, x1, x2, x3, _⟩ := hg.right_info _ A An N2 rfl st.adj.hA e
        omega

/-- The left one of the two siblings keeps the invariant. -/
theorem node_N1 (st : BoundaryStep t s lvl lo hi ov ov2 un un2 A An i up1 up2 N1 N2 n1 n2 m1 m2 m D q) :
    NodeGood s.heap s.root lvl (rebound lo up2 m) (rebound hi up1 m) ov2 un2 N1 m1 := by
  have hg := st.good
  have old := hg.nodes N1 n1 st.h1
  constructor
  · intro hp
    rw [st.par1] at hp
    rw [st.root_eq]; exact old.is_root hp
  · exact st.b_parent_ok st.h1 st.s1
  · rw [st.root_eq]; exact old.lvl_le
  · intro hty
    rw [st.ty1] at hty
    rw [rebound_mem st.adj.N1_mem,
      rebound_not (fun h => st.adj.disjoint hg st.adj.N1_mem h), st.root_eq]
    exact st.leaf1 hty
  · intro hty
    rw [st.ty1] at hty
    exact ⟨(old.internal hty).1,
      st.int1 hty ⟨st.leftOf_b, st.rightOf_b, st.firstKid_b, st.lastKid_b⟩⟩

/-- The right one of the two siblings keeps the invariant. -/
theorem node_N2 (st : BoundaryStep t s lvl lo hi ov ov2 un un2 A An i up1 up2 N1 N2 n1 n2 m1 m2 m D q) :
    NodeGood s.heap s.root lvl (rebound lo up2 m) (rebound hi up1 m) ov2 un2 N2 m2 := by
  have hg := st.good
  have old := hg.nodes N2 n2 st.h2
  constructor
  · intro hp
    rw [st.par2] at hp
    rw [st.root_eq]; exact old.is_root hp
  · exact st.b_parent_ok st.h2 st.s2
  · rw [st.root_eq]; exact old.lvl_le
  · intro hty
    rw [st.ty2] at hty
    rw [rebound_mem st.adj.N2_mem,
      rebound_not (fun h => st.adj.disjoint hg h st.adj.N2_mem), st.root_eq]
    exact st.leaf2 hty
  · intro hty
    rw [st.ty2] at hty
    exact ⟨(old.internal hty).1,
      st.int2 hty ⟨st.leftOf_b, st.rightOf_b, st.firstKid_b, st.lastKid_b⟩⟩

/-- A move of the boundary between two adjacent siblings keeps the invariant, with the new
separator as the bound of the nodes along the two chains. -/
theorem b_good_after
    (st : BoundaryStep t s lvl lo hi ov ov2 un un2 A An i up1 up2 N1 N2 n1 n2 m1 m2 m D q) :
    Good s lvl (rebound lo up2 m) (rebound hi up1 m) ov2 un2 := by
  have hg := st.good
  have hroot1 : t.root ∉ up1 := by
    intro h
    obtain ⟨xn, x1, x2, x3, _⟩ := st.adj.mem1 hg h
    have := (hg.nodes A An st.adj.hA).lvl_le
    omega
  have hroot2 : t.root ∉ up2 := by
    intro h
    obtain ⟨xn, x1, x2, x3, _⟩ := st.adj.mem2 hg h
    have := (hg.nodes A An st.adj.hA).lvl_le
    omega
  constructor
  · intro a ha
    rw [st.next_eq] at ha
    exact st.b_dead (hg.fresh a ha)
  · obtain ⟨rn, r1, r2, r3, r4⟩ := hg.root_live
    obtain ⟨bn, g1, g2, g3, g4, g5, g6, _⟩ := st.b_summary r1
    have hnd : ¬ D t.root := by
      intro hd
      obtain ⟨xn, x1, x2, _⟩ := st.sD _ hd
      rw [r1] at x1; cases x1
      rw [r2] at x2
      rcases x2 with x2 | x2 <;> cases x2
    rw [st.root_eq]
    exact ⟨bn, g1, by rw [g5 hnd]; exact r2, by rw [g3]; exact r3, by rw [g4]; exact r4⟩
  · rw [st.root_eq, st.depth_eq]; exact hg.root_lvl
  · rw [st.root_eq, rebound_not hroot2]; exact hg.root_lo
  · rw [st.root_eq, rebound_not hroot1]; exact hg.root_hi
  · rw [st.root_eq, st.next_eq]; exact hg.fuel_ok
  · intro a bn hb
    obtain ⟨an, ha⟩ := st.b_live_back hb
    by_cases hA : a = A
    · subst hA
      rw [st.sA] at hb; cases hb
      exact st.node_A
    by_cases h1 : a = N1
    · subst h1
      rw [st.s1] at hb; cases hb
      exact st.node_N1
    by_cases h2 : a = N2
    · subst h2
      rw [st.s2] at hb; cases hb
      exact st.node_N2
    exact st.b_node_other ha hb hA h1 h2

end BoundaryStep


/-- The slot of a child in the first `size + 1` slots of its parent. -/
theorem Node.slot_of_kid (n : Node) (i c : Nat) (hi : i ≤ n.size)
    (hlen : n.size < n.key_ref.length) (hk : n.kid i = some c)
    (hinj : ∀ j, j < i → n.kid j ≠ some c) :
    (n.key_ref.take (n.size + 1)).findIdx? (fun kr => decide (kr.reference = some c)) = some i ∧
    (n.key_ref.take (n.size + 1)).findIdx (fun kr => decide (kr.reference = some c)) = i := by
  have hl : i < (n.key_ref.take (n.size + 1)).length := by
    simp only [List.length_take]; omega
  have key : (n.key_ref.take (n.size + 1)).findIdx?
      (fun kr => decide (kr.reference = some c)) = some i := by
    rw [List.findIdx?_eq_some_iff_getElem]
    refine ⟨hl, ?_, ?_⟩
    · simp only [Node.kid, List.get?_eq_getElem?] at hk
      have h2 : i < n.key_ref.length := by omega
      rw [List.getElem?_eq_getElem h2] at hk
      simp only [Option.some_bind] at hk
      simp only [List.getElem_take, decide_eq_true_eq]
      exact hk
    · intro j hj
      have := hinj j hj
      simp only [Node.kid, List.get?_eq_getElem?] at this
      have h2 : j < n.key_ref.length := by omega
      rw [List.getElem?_eq_getElem h2] at this
      simp only [Option.some_bind] at this
      simp only [List.getElem_take, decide_eq_true_eq]
      exact this
  exact ⟨key, (List.findIdx?_eq_some_iff_findIdx_eq.1 key).2⟩

/-- A list of nodes each of which has the next one as its parent, the last one has `A`. -/
def PChain (h : Nat → Option Node) (A : Nat) : List Nat → Prop
  | [] => True
  | [a] => ∃ n, h a = some n ∧ n.parent = some A
  | a :: b :: r => (∃ n, h a = some n ∧ n.parent = some b) ∧ PChain h A (b :: r)

theorem PChain.carry {h g : Nat → Option Node} {A : Nat} :
    ∀ l : List Nat, PChain h A l →
      (∀ b ∈ l, ∀ n, h b = some n → ∃ n2, g b = some n2 ∧ n2.parent = n.parent) →
      PChain g A l := by
  intro l
  induction l with
  | nil => intro _ _; trivial
  | cons a r ih =>
    intro hp hs
    cases r with
    | nil =>
      obtain ⟨n, h1, h2⟩ := hp
      obtain ⟨n2, g1, g2⟩ := hs a (by simp) n h1
      exact ⟨n2, g1, by rw [g2]; exact h2⟩
    | cons b r =>
      obtain ⟨⟨n, h1, h2⟩, hp2⟩ := hp
      obtain ⟨n2, g1, g2⟩ := hs a (by simp) n h1
      exact ⟨⟨n2, g1, by rw [g2]; exact h2⟩,
        ih hp2 (fun x hx => hs x (List.mem_cons_of_mem _ hx))⟩

theorem PChain.head_live {h : Nat → Option Node} {A : Nat} {a : Nat} {r : List Nat}
    (hp : PChain h A (a :: r)) : ∃ n, h a = some n := by
  cases r with
  | nil => obtain ⟨n, h1, _⟩ := hp; exact ⟨n, h1⟩
  | cons b r => obtain ⟨⟨n, h1, _⟩, _⟩ := hp; exact ⟨n, h1⟩

/-- The lockstep walk up two chains of parents of the same length that meet in `A` ends with
the last node of the chain on the side of the sibling. -/
theorem walk_chain (h : Nat → Option Node) (A : Nat) :
    ∀ (u1 u2 : List Nat), u1.length = u2.length → PChain h A u1 → PChain h A u2 →
      (∀ b, b ∈ u1 → b ∉ u2) →
      ∀ x y xn yn, u1.head? = some x → u2.head? = some y → h x = some xn → h y = some yn →
      ∀ f, u1.length ≤ f →
        SeqBPlusTree.ancestor_walk h f yn.parent xn.parent x = u1.getLast? := by
  intro u1
  induction u1 with
  | nil => intro u2 _ _ _ _ x y xn yn hx; cases hx
  | cons a r ih =>
    intro u2 hlen p1 p2 hdis x y xn yn hx hy hxn hyn f hf
    simp only [List.head?_cons, Option.some.injEq] at hx
    subst hx
    cases u2 with
    | nil => cases hy
    | cons b r2 =>
      simp only [List.head?_cons, Option.some.injEq] at hy
      subst hy
      cases f with
      | zero => simp at hf
      | succ f =>
        cases r with
        | nil =>
          cases r2 with
          | cons _ _ => simp at hlen
          | nil =>
            obtain ⟨n, h1, h2⟩ := p1
            obtain ⟨n2, g1, g2⟩ := p2
            rw [hxn] at h1; cases h1
            rw [hyn] at g1; cases g1
            simp [SeqBPlusTree.ancestor_walk, h2, g2]
        | cons a2 r =>
          cases r2 with
          | nil => simp at hlen
          | cons b2 r2 =>
            obtain ⟨⟨n, h1, h2⟩, p1⟩ := p1
            obtain ⟨⟨n2, g1, g2⟩, p2⟩ := p2
            rw [hxn] at h1; cases h1
            rw [hyn] at g1; cases g1
            have hne : b2 ≠ a2 := by
              intro e
              exact hdis a2 (by simp) (by simp [e])
            obtain ⟨an, ha⟩ := p1.head_live
            obtain ⟨bn, hb⟩ := p2.head_live
            have IH := ih (b2 :: r2) (by simpa using hlen) p1 p2
              (fun z hz hz2 => hdis z (List.mem_cons_of_mem _ hz) (by
                rcases List.mem_cons.1 hz2 with e | e
                · exact List.mem_cons_of_mem _ (by rw [e]; simp)
                · exact List.mem_cons_of_mem _ (List.mem_cons_of_mem _ e)))
              a2 b2 an bn rfl rfl ha hb f (by simpa using hf)
            rw [List.getLast?_cons_cons, ← IH]
            simp [SeqBPlusTree.ancestor_walk, h2, g2, hne, ha, hb]

/-- The walk down through first children, from the top of a chain: it gives what it gives
from the first node of the chain, with one more unit of fuel for every node above. -/
theorem min_key_up (h : Nat → Option Node) (v : Option Int) :
    ∀ (l : List Nat) (bot : Nat),
      l.Chain' (fun x y => firstKid h (some y) = some x) → l.head? = some bot →
      (∀ b ∈ l.tail, ∃ n, h b = some n ∧ n.type = NodeType.INTERNAL) →
      ∀ k, (∀ f, k ≤ f → SeqBPlusTree.min_key_in_subtree h f (some bot) = v) →
      ∀ top, l.getLast? = some top → ∀ f, k + l.length ≤ f + 1 →
        SeqBPlusTree.min_key_in_subtree h f (some top) = v := by
  intro l
  induction l with
  | nil => intro bot _ hh; cases hh
  | cons x r ih =>
    intro bot hch hh hint k hk top hl f hf
    simp only [List.head?_cons, Option.some.injEq] at hh
    subst hh
    cases r with
    | nil =>
      simp only [List.getLast?_singleton, Option.some.injEq] at hl
      subst hl
      exact hk f (by simpa using hf)
    | cons y r =>
      rw [List.chain'_cons] at hch
      rw [List.getLast?_cons_cons] at hl
      obtain ⟨yn, hy, hty⟩ := hint y (by simp)
      have hR := hch.1
      simp only [firstKid, Option.some_bind, hy, Node.kid, List.get?_eq_getElem?] at hR
      refine ih y hch.2 rfl (fun b hb => hint b (by
        simp only [List.tail_cons] at hb ⊢
        exact List.mem_cons_of_mem _ hb)) (k + 1) ?_ top hl f (by
        simp only [List.length_cons] at hf ⊢
        omega)
      intro f2 hf2
      cases f2 with
      | zero => omega
      | succ f2 =>
        cases hkr : yn.key_ref[0]? with
        | none => rw [hkr] at hR; cases hR
        | some kr =>
          rw [hkr] at hR
          simp only [Option.some_bind] at hR
          simp only [SeqBPlusTree.min_key_in_subtree, Option.seqBind_eq, Option.some_bind, hy,
            hty, List.get?_eq_getElem?, hkr, hR]
          simp only [ne_eq, reduceCtorEq, not_false_eq_true, if_true]
          exact hk f2 (by omega)

/-- The walk down through first children ends at the first leaf of a chain and reads its
first key. -/
theorem min_key_chain (h : Nat → Option Node) (l : List Nat) (bot : Nat) (bn : Node)
    (hch : l.Chain' (fun x y => firstKid h (some y) = some x)) (hh : l.head? = some bot)
    (hb : h bot = some bn) (hty : bn.type = NodeType.LEAF)
    (hint : ∀ b ∈ l.tail, ∃ n, h b = some n ∧ n.type = NodeType.INTERNAL)
    (top : Nat) (hl : l.getLast? = some top) (f : Nat) (hf : l.length ≤ f) :
    SeqBPlusTree.min_key_in_subtree h f (some top) =
      (bn.key_value.get? 0).map (fun kv => kv.key) := by
  refine min_key_up h _ l bot hch hh hint 1 ?_ top hl f (by omega)
  intro f2 hf2
  cases f2 with
  | zero => omega
  | succ f2 =>
    simp [SeqBPlusTree.min_key_in_subtree, hb, hty]


/-- The lookup of the slot of a child in its parent. -/
theorem slot_lookup (h : Nat → Option Node) {c p i : Nat} {cn pn : Node}
    (hc : h c = some cn) (hp : cn.parent = some p) (hpn : h p = some pn)
    (hi : i ≤ pn.size) (hlen : pn.size < pn.key_ref.length) (hk : pn.kid i = some c)
    (hinj : ∀ j, j < i → pn.kid j ≠ some c) :
    SeqBPlusTree.get_key_ref_pair_from_parent h (some c) = some (p, i) := by
  simp only [SeqBPlusTree.get_key_ref_pair_from_parent, Option.seqBind_eq, hc, Option.some_bind,
    hp, hpn, (pn.slot_of_kid i c hi hlen hk hinj).1, Option.map_some']

namespace Good

variable {t : SeqBPlusTree} {lvl : Nat → Nat} {lo hi : Nat → Int} {ov un : Option Nat}

/-- A chain of children climbs one level with every node, and every node has the next one as
its parent. -/
theorem chain_levels (hg : Good t lvl lo hi ov un) (F : Node → Nat) (hF : ∀ n, F n ≤ n.size) :
    ∀ (l : List Nat) (top A : Nat) (tn : Node),
      l.Chain' (fun x y => (t.heap y).bind (fun n => n.kid (F n)) = some x) →
      l.getLast? = some top → t.heap top = some tn → tn.parent = some A →
      PChain t.heap A l ∧ ∀ bot, l.head? = some bot → lvl bot + l.length = lvl top + 1 := by
  intro l
  induction l with
  | nil => intro _ _ _ _ hl; cases hl
  | cons x r ih =>
    intro top A tn hch hl ht hp
    cases r with
    | nil =>
      simp only [List.getLast?_singleton, Option.some.injEq] at hl
      subst hl
      refine ⟨⟨tn, ht, hp⟩, ?_⟩
      intro bot hb
      simp only [List.head?_cons, Option.some.injEq] at hb
      subst hb
      simp
    | cons y r =>
      rw [List.chain'_cons] at hch
      rw [List.getLast?_cons_cons] at hl
      obtain ⟨IH1, IH2⟩ := ih top A tn hch.2 hl ht hp
      obtain ⟨yn, hy⟩ := IH1.head_live
      have hR := hch.1
      simp only [hy, Option.some_bind] at hR
      obtain ⟨xn, g1, g2, g3, _⟩ := hg.kid_live hy (hF yn) hR
      refine ⟨⟨⟨xn, g1, g2⟩, IH1⟩, ?_⟩
      intro bot hb
      simp only [List.head?_cons, Option.some.injEq] at hb
      subst hb
      have := IH2 y rfl
      simp only [List.length_cons] at this ⊢
      omega

end Good

namespace Adj

variable {t : SeqBPlusTree} {lvl : Nat → Nat} {lo hi : Nat → Int} {ov un : Option Nat}
  {A : Nat} {An : Node} {i : Nat} {up1 up2 : List Nat} {N1 N2 : Nat}

/-- The two chains as chains of parents, and their length. -/
theorem pchains (adj : Adj t.heap A An i up1 up2 N1 N2) (hg : Good t lvl lo hi ov un) :
    PChain t.heap A up1 ∧ PChain t.heap A up2 ∧ lvl N1 + up1.length = lvl A ∧
    lvl N2 + up2.length = lvl A ∧ lvl N1 = lvl N2 := by
  obtain ⟨c1, c2, c1n, c2n, a1, a2, a3, a4, a5, a6, a7, a8, a9, a10, a11, a12⟩ := adj.tops hg
  have hp1 := (hg.kid_parent adj.hA (le_of_lt adj.hi) a1 a5).1
  have hp2 := (hg.kid_parent adj.hA adj.hi a2 a6).1
  obtain ⟨p1, l1⟩ := hg.chain_levels (fun n => n.size) (fun _ => le_refl _) up1 c1 A c1n
    adj.c1 a3 a5 hp1
  obtain ⟨p2, l2⟩ := hg.chain_levels (fun _ => 0) (fun _ => Nat.zero_le _) up2 c2 A c2n
    adj.c2 a4 a6 hp2
  have e1 := l1 N1 adj.h1
  have e2 := l2 N2 adj.h2
  have := adj.len
  exact ⟨p1, p2, by omega, by omega, by omega⟩

/-- The walk of the borrow and merge functions from two adjacent siblings ends below the
separator slot, on the side of the left one. -/
theorem walk (adj : Adj t.heap A An i up1 up2 N1 N2) (hg : Good t lvl lo hi ov un)
    (h : Nat → Option Node)
    (hsame : ∀ b, b ∈ up1 ∨ b ∈ up2 → ∀ n, t.heap b = some n →
      ∃ n2, h b = some n2 ∧ n2.parent = n.parent)
    {n1 n2 : Node} (h1 : h N1 = some n1) (h2 : h N2 = some n2) :
    SeqBPlusTree.ancestor_walk h t.fuel n2.parent n1.parent N1 = An.kid i := by
  obtain ⟨p1, p2, l1, l2, l3⟩ := adj.pchains hg
  have q1 := PChain.carry up1 p1 (fun b hb => hsame b (Or.inl hb))
  have q2 := PChain.carry up2 p2 (fun b hb => hsame b (Or.inr hb))
  rw [← adj.t1]
  refine walk_chain h A up1 up2 adj.len q1 q2 (fun b hb hb2 => adj.disjoint hg hb hb2)
    N1 N2 n1 n2 adj.h1 adj.h2 h1 h2 t.fuel ?_
  have := (hg.nodes A An adj.hA).lvl_le
  have := hg.fuel_ok
  unfold SeqBPlusTree.fuel
  omega

end Adj


theorem set_slot_key_eq (t : SeqBPlusTree) {A : Nat} {An : Node} (i : Nat) (k : Int)
    (hA : t.heap A = some An) (hi : i < An.key_ref.length) :
    SeqBPlusTree.set_slot_key t (A, i) k = some (t.set A (An.set_sep i k)) := by
  simp only [SeqBPlusTree.set_slot_key, Option.seqBind_eq, hA, Option.some_bind,
    List.get?_eq_getElem?, List.getElem?_eq_getElem hi, arr_set, if_pos hi, Option.map_some',
    Node.set_sep, List.modify_eq_set_get?]
  rfl

namespace Adj

variable {t : SeqBPlusTree} {lvl : Nat → Nat} {lo hi : Nat → Int} {ov un : Option Nat}
  {A : Nat} {An : Node} {i : Nat} {up1 up2 : List Nat} {N1 N2 : Nat}

/-- The walk from two adjacent siblings followed by the lookup of the slot finds the
separator slot, in every store that has the parent pointers of the tree and the children of
the separator node. -/
theorem find_slot (adj : Adj t.heap A An i up1 up2 N1 N2) (hg : Good t lvl lo hi ov un)
    (h : Nat → Option Node)
    (hsame : ∀ b n, t.heap b = some n → ∃ n2, h b = some n2 ∧ n2.parent = n.parent)
    {An2 : Node} (hA : h A = some An2) (hi2 : i ≤ An2.size)
    (hlen : An2.size < An2.key_ref.length) (hkid : ∀ j, j ≤ i → An2.kid j = An.kid j)
    {n1 n2 : Node} (h1 : h N1 = some n1) (h2 : h N2 = some n2) :
    (SeqBPlusTree.ancestor_walk h t.fuel n2.parent n1.parent N1).bind
      (fun l => SeqBPlusTree.get_key_ref_pair_from_parent h (some l)) = some (A, i) := by
  obtain ⟨c1, c2, c1n, c2n, a1, a2, a3, a4, a5, a6, a7, a8, a9, a10, a11, a12⟩ := adj.tops hg
  rw [adj.walk hg h (fun b _ n hn => hsame b n hn) h1 h2, a1]
  simp only [Option.some_bind]
  obtain ⟨d1, e1, e2⟩ := hsame c1 c1n a5
  have hp := (hg.kid_parent adj.hA (le_of_lt adj.hi) a1 a5).1
  have hty := adj.internal hg
  have hin := hg.internal_good adj.hA hty
  obtain ⟨s1, s2⟩ := hg.size_le_four adj.hA hty
  refine slot_lookup h e1 (by rw [e2]; exact hp) hA hi2 hlen
    (by rw [hkid i (le_refl _)]; exact a1) ?_
  intro j hj e
  rw [hkid j (le_of_lt hj), ← a1] at e
  have := hin.kid_inj j i (by have := adj.hi; omega) (le_of_lt adj.hi) e
  omega

end Adj


namespace BoundaryStep

variable {t s : SeqBPlusTree} {lvl : Nat → Nat} {lo hi : Nat → Int}
  {ov ov2 un un2 : Option Nat}
  {A : Nat} {An : Node} {i : Nat} {up1 up2 : List Nat} {N1 N2 : Nat} {n1 n2 m1 m2 : Node}
  {m : Int} {D : Nat → Prop} {q : Nat}

/-- A move between two leaves keeps the stored pairs when the two leaves together hold the
same pairs as before. -/
theorem b_stored_leaf
    (st : BoundaryStep t s lvl lo hi ov ov2 un un2 A An i up1 up2 N1 N2 n1 n2 m1 m2 m D q)
    (hmem : ∀ kv, (kv ∈ m1.entries ∨ kv ∈ m2.entries) ↔ (kv ∈ n1.entries ∨ kv ∈ n2.entries))
    (hty : n1.type = NodeType.LEAF) (kv : KeyValuePair) : s.Stored kv ↔ t.Stored kv := by
  obtain ⟨b1, b2, b3, b4, b5, b6, b7, b8, b9, bD⟩ := st.b_basics
  have hty2 : n2.type = NodeType.LEAF := b9.trans hty
  have hAty := st.adj.internal st.good
  constructor
  · rintro ⟨a, n, h1, h2, h3⟩
    obtain ⟨an, ha⟩ := st.b_live_back h1
    by_cases e1 : a = N1
    · subst e1
      rw [st.s1] at h1; cases h1
      rcases (hmem kv).1 (Or.inl h3) with h | h
      · exact ⟨a, n1, st.h1, hty, h⟩
      · exact ⟨N2, n2, st.h2, hty2, h⟩
    by_cases e2 : a = N2
    · subst e2
      rw [st.s2] at h1; cases h1
      rcases (hmem kv).1 (Or.inr h3) with h | h
      · exact ⟨N1, n1, st.h1, hty, h⟩
      · exact ⟨a, n2, st.h2, hty2, h⟩
    obtain ⟨bn, g1, g2, g3, g4, g5, g6, g7, g8, g9⟩ := st.b_summary ha
    rw [h1] at g1; cases g1
    obtain ⟨x1, x2, x3⟩ := g7 e1 e2
    exact ⟨a, an, ha, by rw [← g2]; exact h2, by
      simp only [Node.entries] at h3 ⊢
      rw [← x1, ← x3]; exact h3⟩
  · rintro ⟨a, n, h1, h2, h3⟩
    by_cases e1 : a = N1
    · subst e1
      rw [st.h1] at h1; cases h1
      rcases (hmem kv).2 (Or.inl h3) with h | h
      · exact ⟨a, m1, st.s1, st.ty1.trans hty, h⟩
      · exact ⟨N2, m2, st.s2, st.ty2.trans hty2, h⟩
    by_cases e2 : a = N2
    · subst e2
      rw [st.h2] at h1; cases h1
      rcases (hmem kv).2 (Or.inr h3) with h | h
      · exact ⟨N1, m1, st.s1, st.ty1.trans hty, h⟩
      · exact ⟨a, m2, st.s2, st.ty2.trans hty2, h⟩
    obtain ⟨bn, g1, g2, g3, g4, g5, g6, g7, g8, g9⟩ := st.b_summary h1
    obtain ⟨x1, x2, x3⟩ := g7 e1 e2
    exact ⟨a, bn, g1, by rw [g2]; exact h2, by
      simp only [Node.entries] at h3 ⊢
      rw [x1, x3]; exact h3⟩

/-- A move between two internal nodes leaves the leaves as they are. -/
theorem b_leaf_same
    (st : BoundaryStep t s lvl lo hi ov ov2 un un2 A An i up1 up2 N1 N2 n1 n2 m1 m2 m D q)
    (hty : n1.type = NodeType.INTERNAL) : LeafSame t.heap s.heap := by
  obtain ⟨b1, b2, b3, b4, b5, b6, b7, b8, b9, bD⟩ := st.b_basics
  intro a
  cases ha : t.heap a with
  | none => rw [st.b_dead ha]
  | some an =>
    obtain ⟨bn, g1, g2, g3, g4, g5, g6, g7, g8, g9⟩ := st.b_summary ha
    rw [g1]
    simp only [Option.some_bind, Node.leafView, g2, g3, g4]
    by_cases hl : an.type = NodeType.LEAF
    · have e1 : a ≠ N1 := by
        intro e; rw [e, st.h1] at ha; cases ha; rw [hty] at hl; cases hl
      have e2 : a ≠ N2 := by
        intro e; rw [e, st.h2] at ha; cases ha; rw [b9, hty] at hl; cases hl
      obtain ⟨x1, x2, x3⟩ := g7 e1 e2
      simp only [Node.entries, x1, x3]
    · rw [if_neg hl, if_neg hl]

end BoundaryStep


/-- What a leaf borrow from the left leaves behind: the last entry `e` of the sibling `L` is
the new first entry of the leaf `x`, the separator in slot `i` of the node `A` is the key of
`e`, and nothing else is different. -/
structure LeafBorrowed (t s : SeqBPlusTree) (x L A : Nat) (cn ln An : Node) (i : Nat)
    (e : KeyValuePair) : Prop where
  last : ln.entries.getLast? = some e
  leaf : ∃ xm, s.heap x = some xm ∧ xm.entries = e :: cn.entries ∧ xm.type = cn.type ∧
    xm.parent = cn.parent ∧ xm.left_sibling = cn.left_sibling ∧
    xm.right_sibling = cn.right_sibling
  sib : ∃ lm, s.heap L = some lm ∧ lm.entries = ln.entries.dropLast ∧ lm.type = ln.type ∧
    lm.parent = ln.parent ∧ lm.left_sibling = ln.left_sibling ∧
    lm.right_sibling = ln.right_sibling
  anc : t.heap A = some An ∧ s.heap A = some (An.set_sep i e.key)
  moved : e.key < An.sep i
  others : ∀ a, a ≠ x → a ≠ L → a ≠ A → s.heap a = t.heap a
  count : s.node_count = t.node_count

namespace Good

variable {t : SeqBPlusTree} {lvl : Nat → Nat} {lo hi : Nat → Int} {ov un : Option Nat}

/-- The code of `borrow_leaf` from the left sibling, up to the walk to the separator. -/
theorem borrow_leaf_left_eq {x L : Nat} {cn ln : Node} (hne : x ≠ L)
    (hx : t.heap x = some cn) (hL : t.heap L = some ln) (hcty : cn.type = NodeType.LEAF)
    {a b c d x0 y z w : KeyValuePair}
    (hlk : ln.key_value = [a, b, c, d]) (hlsz : ln.size = 3)
    (hck : cn.key_value = [x0, y, z, w]) (hcsz : cn.size = 1) (hlt : c.key < x0.key) :
    SeqBPlusTree.borrow_leaf t x L true =
      ((SeqBPlusTree.ancestor_walk
          ((t.set L { ln with size := 2 }).set x
            { cn with key_value := [c, x0, z, w], size := 2 }).heap t.fuel cn.parent ln.parent L).bind
        (fun l => SeqBPlusTree.get_key_ref_pair_from_parent
          ((t.set L { ln with size := 2 }).set x
            { cn with key_value := [c, x0, z, w], size := 2 }).heap (some l))).bind
        (fun slot => SeqBPlusTree.set_slot_key ((t.set L { ln with size := 2 }).set x
            { cn with key_value := [c, x0, z, w], size := 2 }) slot c.key) := by
  have h1 : ¬ x0.key ≤ c.key := by omega
  simp [SeqBPlusTree.borrow_leaf, hL, hlsz, size_dec, hlk, hx, hck, hcsz, arr_set,
    sort_entry_by_key, hcty, Function.update_noteq hne, Function.update_noteq (Ne.symm hne),
    List.orderedInsert, h1, Option.bind_assoc, SeqBPlusTree.fuel]

end Good

namespace Good

variable {t : SeqBPlusTree} {lvl : Nat → Nat} {lo hi : Nat → Int} {ov un : Option Nat}

/-- Facts about a leaf that holds three entries. -/
theorem leaf_three (hg : Good t lvl lo hi ov un) {L : Nat} {ln : Node}
    (hL : t.heap L = some ln) (hty : ln.type = NodeType.LEAF) (hsz : ln.size = 3) :
    ∃ a b c d, ln.key_value = [a, b, c, d] ∧ lo L ≤ a.key ∧ a.key < b.key ∧ b.key < c.key ∧
      c.key < hi L := by
  have hl := hg.leaf_good hL hty
  obtain ⟨a, b, c, d, he⟩ := SeqBPlusTree.list_len4 ln.key_value hl.len
  have hs := hl.sorted
  have hr := hl.range
  simp only [Node.keys, Node.entries, he, hsz, List.take, List.map_cons, List.map_nil,
    List.pairwise_cons, List.mem_cons, List.mem_singleton, forall_eq_or_imp, forall_eq,
    List.not_mem_nil, IsEmpty.forall_iff, implies_true, List.Pairwise.nil, and_true,
    List.mem_nil_iff, false_implies] at hs hr
  exact ⟨a, b, c, d, he, by omega, by omega, by omega, by omega⟩

/-- Facts about a leaf that holds one entry. -/
theorem leaf_one (hg : Good t lvl lo hi ov un) {x : Nat} {cn : Node}
    (hx : t.heap x = some cn) (hty : cn.type = NodeType.LEAF) (hsz : cn.size = 1) :
    ∃ a b c d, cn.key_value = [a, b, c, d] ∧ lo x ≤ a.key ∧ a.key < hi x := by
  have hl := hg.leaf_good hx hty
  obtain ⟨a, b, c, d, he⟩ := SeqBPlusTree.list_len4 cn.key_value hl.len
  have hr := hl.range
  simp only [Node.keys, Node.entries, he, hsz, List.take, List.map_cons, List.map_nil,
    List.mem_cons, List.mem_singleton, forall_eq_or_imp, forall_eq,
    List.not_mem_nil, IsEmpty.forall_iff, implies_true, and_true,
    List.mem_nil_iff, false_implies] at hr
  exact ⟨a, b, c, d, he, hr.1, hr.2⟩

/-- The function `borrow_leaf` from the left sibling: the deficient leaf gets the last entry
of its left sibling, and the invariant holds again. -/
theorem borrow_leaf_left {x L : Nat} {cn ln : Node} (hg : Good t lvl lo hi none (some x))
    (hx : t.heap x = some cn) (hcty : cn.type = NodeType.LEAF) (hcsz : cn.size = 1)
    (hl : cn.left_sibling = some L) (hL : t.heap L = some ln) (hlsz : ln.size = 3) :
    ∃ s lo2 hi2, SeqBPlusTree.borrow_leaf t x L true = some s ∧ Good s lvl lo2 hi2 none none ∧
      (∀ kv, s.Stored kv ↔ t.Stored kv) ∧ s.root = t.root ∧ s.depth = t.depth ∧
      s.next = t.next ∧
      ∃ A An i up1 up2 e, Adj t.heap A An i up1 up2 L x ∧
        LeafBorrowed t s x L A cn ln An i e := by
  obtain ⟨ln2, l1, l2, l3, l4⟩ := hg.left_info _ x cn L rfl hx hl
  rw [hL] at l1; cases l1
  have hlty : ln.type = NodeType.LEAF := (hg.type_of_lvl hL hx l3).trans hcty
  obtain ⟨a, b, c, d, hlk, k1, k2, k3, k4⟩ := hg.leaf_three hL hlty hlsz
  obtain ⟨x0, y, z, w, hck, k5, k6⟩ := hg.leaf_one hx hcty hcsz
  obtain ⟨A, An, i, up1, up2, adj⟩ := hg.adjacent _ L ln x rfl hL l2
  have hne : x ≠ L := by
    intro e
    have := hg.range_ne hL
    rw [e] at l4
    omega
  obtain ⟨_, e1, e2, e3, e4, e5, e6⟩ := adj.mem1 hg adj.N1_mem
  obtain ⟨_, f1, f2, f3, f4, f5, f6⟩ := adj.mem2 hg adj.N2_mem
  have hAL : A ≠ L := by intro e; rw [e] at e3; omega
  have hAx : A ≠ x := by intro e; rw [e] at f3; omega
  have hAty := adj.internal hg
  obtain ⟨s1, s2⟩ := hg.size_le_four adj.hA hAty
  have hri := hg.range_int _ x cn rfl hx
  have hlc := hg.leaf_good hx hcty
  have hll := hg.leaf_good hL hlty
  have heq := borrow_leaf_left_eq hne hx hL hcty hlk hlsz hck hcsz (show c.key < x0.key by omega)
  have hfs := adj.find_slot hg ((t.set L { ln with size := 2 }).set x
      { cn with key_value := [c, x0, z, w], size := 2 }).heap
    (by
      intro b n hb
      simp only [SeqBPlusTree.set_heap]
      by_cases hbx : b = x
      · subst hbx
        rw [hx] at hb; cases hb
        exact ⟨_, Function.update_same _ _ _, rfl⟩
      · rw [Function.update_noteq hbx]
        by_cases hbL : b = L
        · subst hbL
          rw [hL] at hb; cases hb
          exact ⟨_, Function.update_same _ _ _, rfl⟩
        · rw [Function.update_noteq hbL]
          exact ⟨n, hb, rfl⟩)
    (show _ = some An by
      simp only [SeqBPlusTree.set_heap]
      rw [Function.update_noteq hAx, Function.update_noteq hAL]; exact adj.hA)
    (le_of_lt adj.hi) (by have := adj.hi; omega) (fun _ _ => rfl)
    (show _ = some { ln with size := 2 } by
      simp only [SeqBPlusTree.set_heap]
      rw [Function.update_noteq (Ne.symm hne), Function.update_same])
    (show _ = some { cn with key_value := [c, x0, z, w], size := 2 } by
      simp only [SeqBPlusTree.set_heap]
      rw [Function.update_same])
  rw [show SeqBPlusTree.fuel _ = t.fuel from rfl] at hfs
  have hfs2 : (SeqBPlusTree.ancestor_walk
      ((t.set L { ln with size := 2 }).set x
        { cn with key_value := [c, x0, z, w], size := 2 }).heap t.fuel cn.parent ln.parent L).bind
      (fun l => SeqBPlusTree.get_key_ref_pair_from_parent
        ((t.set L { ln with size := 2 }).set x
          { cn with key_value := [c, x0, z, w], size := 2 }).heap (some l)) = some (A, i) := hfs
  rw [hfs2, Option.some_bind, set_slot_key_eq _ i c.key (show _ = some An by
      simp only [SeqBPlusTree.set_heap]
      rw [Function.update_noteq hAx, Function.update_noteq hAL]; exact adj.hA)
    (by have := adj.hi; omega)] at heq
  have st : BoundaryStep t (((t.set L { ln with size := 2 }).set x
      { cn with key_value := [c, x0, z, w], size := 2 }).set A (An.set_sep i c.key))
      lvl lo hi none none (some x) none A An i up1 up2 L x ln cn { ln with size := 2 }
      { cn with key_value := [c, x0, z, w], size := 2 } c.key (fun _ => False) 0 := by
    refine {
      good := hg
      adj := adj
      h1 := hL
      h2 := hx
      hr := l2
      hm1 := by omega
      hm2 := by omega
      hm3 := by omega
      hov := fun b h => by cases h
      hun := fun b h _ h2 => absurd (Option.some.inj h).symm h2
      root_eq := rfl
      next_eq := rfl
      depth_eq := rfl
      sA := by simp only [SeqBPlusTree.set_heap, Function.update_same]
      s1 := by
        simp only [SeqBPlusTree.set_heap]
        rw [Function.update_noteq (Ne.symm hAL), Function.update_noteq (Ne.symm hne),
          Function.update_same]
      s2 := by
        simp only [SeqBPlusTree.set_heap]
        rw [Function.update_noteq (Ne.symm hAx), Function.update_same]
      sD := fun d h => h.elim
      sO := by
        intro a h1 h2 h3 _
        simp only [SeqBPlusTree.set_heap]
        rw [Function.update_noteq h1, Function.update_noteq h3, Function.update_noteq h2]
      ty1 := rfl
      par1 := rfl
      left1 := rfl
      right1 := rfl
      ty2 := rfl
      par2 := rfl
      left2 := rfl
      right2 := rfl
      first1 := rfl
      last2 := by
        rw [Node.kid_of_noref _ (show ({ cn with key_value := [c, x0, z, w], size := 2 } :
          Node).key_ref = [] from hlc.noref), Node.kid_of_noref _ hlc.noref]
      kid1 := by
        intro a j _ hk
        rw [Node.kid_of_noref _ hll.noref] at hk; cases hk
      kid2 := by
        intro a j _ hk
        rw [Node.kid_of_noref _ hlc.noref] at hk; cases hk
      kidD := fun d h => h.elim
      leaf1 := ?_
      leaf2 := ?_
      int1 := fun h => by rw [hlty] at h; cases h
      int2 := fun h => by rw [hcty] at h; cases h }
    · intro _
      constructor
      · exact hll.lvl0
      · exact hll.len
      · exact hll.noref
      · left; show 2 ≤ ORDER - 1; decide
      · right; left; show ORDER / 2 ≤ 2; decide
      · simp [Node.keys, Node.entries, hlk, k2]
      · simp only [Node.keys, Node.entries, hlk, List.take, List.map_cons, List.map_nil,
          List.mem_cons, List.mem_singleton, forall_eq_or_imp, forall_eq, List.not_mem_nil,
          IsEmpty.forall_iff, implies_true, and_true, List.mem_nil_iff, false_implies]
        omega
    · intro _
      constructor
      · exact hlc.lvl0
      · simp
      · exact hlc.noref
      · left; show 2 ≤ ORDER - 1; decide
      · right; left; show ORDER / 2 ≤ 2; decide
      · simp only [Node.keys, Node.entries, List.take, List.map_cons, List.map_nil,
          List.pairwise_cons, List.mem_cons, List.mem_singleton, forall_eq_or_imp, forall_eq,
          List.not_mem_nil, IsEmpty.forall_iff, implies_true, List.Pairwise.nil, and_true,
          List.mem_nil_iff, false_implies]
        omega
      · simp only [Node.keys, Node.entries, List.take, List.map_cons, List.map_nil,
          List.mem_cons, List.mem_singleton, forall_eq_or_imp, forall_eq, List.not_mem_nil,
          IsEmpty.forall_iff, implies_true, and_true, List.mem_nil_iff, false_implies]
        omega
  refine ⟨_, _, _, heq, st.b_good_after, ?_, rfl, rfl, rfl, A, An, i, up1, up2, c, adj, ?_⟩
  · intro kv
    apply st.b_stored_leaf _ hlty
    intro kv
    simp only [Node.entries, hlk, hck, hlsz, hcsz, List.take, List.mem_cons,
      List.mem_singleton, List.not_mem_nil, List.mem_nil_iff, or_false]
    tauto
  · constructor
    · simp [Node.entries, hlk, hlsz]
    · refine ⟨{ cn with key_value := [c, x0, z, w], size := 2 }, ?_, ?_, rfl, rfl, rfl, rfl⟩
      · simp only [SeqBPlusTree.set_heap]
        rw [Function.update_noteq (Ne.symm hAx), Function.update_same]
      · simp [Node.entries, hck, hcsz]
    · refine ⟨{ ln with size := 2 }, ?_, ?_, rfl, rfl, rfl, rfl⟩
      · simp only [SeqBPlusTree.set_heap]
        rw [Function.update_noteq (Ne.symm hAL), Function.update_noteq (Ne.symm hne),
          Function.update_same]
      · simp [Node.entries, hlk, hlsz]
    · refine ⟨adj.hA, ?_⟩
      simp only [SeqBPlusTree.set_heap, Function.update_same]
    · rw [← e4]; exact k4
    · intro u h1 h2 h3
      simp only [SeqBPlusTree.set_heap]
      rw [Function.update_noteq h3, Function.update_noteq h1, Function.update_noteq h2]
    · rfl

end Good


/-- The effect of a borrow between leaves: the entry `e` of the sibling `S`, its last one
when the sibling is on the left and its first one when it is on the right, has moved to the
leaf `x`, to the front of its entries or to their end; no node is created or released. -/
structure LeafTook (t s : SeqBPlusTree) (x S : Nat) (cn sn : Node) (fromLeft : Bool)
    (e : KeyValuePair) : Prop where
  entry : (if fromLeft then sn.entries.getLast? else sn.entries.head?) = some e
  leaf : ∃ xm, s.heap x = some xm ∧ xm.type = cn.type ∧
    xm.entries = (if fromLeft then e :: cn.entries else cn.entries ++ [e])
  sib : ∃ sm, s.heap S = some sm ∧ sm.type = sn.type ∧
    sm.entries = (if fromLeft then sn.entries.dropLast else sn.entries.tail)
  live : ∀ a, (s.heap a).isSome = (t.heap a).isSome
  count : s.node_count = t.node_count

/-- The effect of a borrow between internal nodes: the child `B` of the sibling `S`, its
last one when the sibling is on the left and its first one when it is on the right, has
become the first or the last child of the node `x` and has `x` as parent; the other children
of the two nodes keep their order; no node is created or released. -/
structure NodeTook (t s : SeqBPlusTree) (x S : Nat) (cn sn : Node) (fromLeft : Bool)
    (B : Nat) : Prop where
  child : sn.kid (if fromLeft then sn.size else 0) = some B
  node : ∃ xm, s.heap x = some xm ∧ xm.type = cn.type ∧ xm.size = cn.size + 1 ∧
    ∀ j, j ≤ xm.size → xm.kid j =
      if fromLeft then (if j = 0 then some B else cn.kid (j - 1))
      else (if j = xm.size then some B else cn.kid j)
  sib : ∃ sm, s.heap S = some sm ∧ sm.type = sn.type ∧ sm.size + 1 = sn.size ∧
    ∀ j, j ≤ sm.size → sm.kid j = if fromLeft then sn.kid j else sn.kid (j + 1)
  moved : ∃ bm, s.heap B = some bm ∧ bm.parent = some x
  live : ∀ a, (s.heap a).isSome = (t.heap a).isSome
  count : s.node_count = t.node_count

/-- The effect of a merge of the internal node `x` into its sibling `S`, in the state in
which `merge_internal` looks at the parent: `S` has the children of both nodes, those of the
left node first, the children that came from `x` have `S` as parent, and `x` is released. -/
structure NodeMerged (t s : SeqBPlusTree) (x S : Nat) (cn sn : Node) (toLeft : Bool) :
    Prop where
  gone : s.heap x = none
  merged : ∃ sm, s.heap S = some sm ∧ sm.type = sn.type ∧ sm.size = sn.size + cn.size + 1 ∧
    ∀ j, j ≤ sm.size → sm.kid j =
      if toLeft then (if j ≤ sn.size then sn.kid j else cn.kid (j - sn.size - 1))
      else (if j ≤ cn.size then cn.kid j else sn.kid (j - cn.size - 1))
  moved : ∀ j, j ≤ cn.size → ∀ B, cn.kid j = some B →
    ∃ bm, s.heap B = some bm ∧ bm.parent = some S
  others : ∀ a, a ≠ x → (s.heap a).isSome = (t.heap a).isSome
  count : s.node_count = t.node_count - 1

namespace Good

variable {t : SeqBPlusTree} {lvl : Nat → Nat} {lo hi : Nat → Int} {ov un : Option Nat}

/-- Two neighbouring children of a node, with their separator slot. -/
theorem adj_slot (hg : Good t lvl lo hi ov un) {p : Nat} {pn : Node}
    (hp : t.heap p = some pn) (hty : pn.type = NodeType.INTERNAL) {i : Nat} (hi : i < pn.size) :
    ∃ c1 c2 c1n c2n, pn.kid i = some c1 ∧ pn.kid (i + 1) = some c2 ∧ t.heap c1 = some c1n ∧
      t.heap c2 = some c2n ∧ c1n.right_sibling = some c2 ∧
      Adj t.heap p pn i [c1] [c2] c1 c2 := by
  have hin := hg.internal_good hp hty
  obtain ⟨c1, c1n, a1, a2, a3, a4, a5, a6⟩ := hin.kids i (le_of_lt hi)
  obtain ⟨c2, c2n, b1, b2, b3, b4, b5, b6⟩ := hin.kids (i + 1) hi
  have hs := (hin.sib_in i hi).1
  rw [a1, b1] at hs
  have hr : c1n.right_sibling = some c2 := by
    simpa only [rightOf, Option.some_bind, a2] using hs
  exact ⟨c1, c2, c1n, c2n, a1, b1, a2, b2, hr, hp, hi, List.chain'_singleton _,
    List.chain'_singleton _, rfl, rfl, by rw [a1]; rfl, by rw [b1]; rfl, rfl, hs⟩

/-- A node without a left sibling is the first child of its parent. -/
theorem first_of_no_left (hg : Good t lvl lo hi ov un) {x p : Nat} {cn : Node}
    (hx : t.heap x = some cn) (hp : cn.parent = some p) (hl : cn.left_sibling = none) :
    ∃ pn, t.heap p = some pn ∧ pn.type = NodeType.INTERNAL ∧ pn.kid 0 = some x := by
  obtain ⟨pn, j, hpn, hty, hj, hkj, h4, h5, h6⟩ := hg.parent_info hx hp
  have hin := hg.internal_good hpn hty
  refine ⟨pn, hpn, hty, ?_⟩
  by_cases h0 : j = 0
  · rw [h0] at hkj; exact hkj
  · have := (hin.sib_in (j - 1) (by omega)).2
    rw [show j - 1 + 1 = j by omega, hkj] at this
    simp only [leftOf, Option.some_bind, hx, hl] at this
    obtain ⟨c, cn2, k1, _⟩ := hin.kids (j - 1) (by omega)
    rw [k1] at this; cases this

/-- A node without a right sibling is the last child of its parent. -/
theorem last_of_no_right (hg : Good t lvl lo hi ov un) {x p : Nat} {cn : Node}
    (hx : t.heap x = some cn) (hp : cn.parent = some p) (hr : cn.right_sibling = none) :
    ∃ pn, t.heap p = some pn ∧ pn.type = NodeType.INTERNAL ∧ pn.kid pn.size = some x := by
  obtain ⟨pn, j, hpn, hty, hj, hkj, h4, h5, h6⟩ := hg.parent_info hx hp
  have hin := hg.internal_good hpn hty
  refine ⟨pn, hpn, hty, ?_⟩
  by_cases h0 : j = pn.size
  · rw [h0] at hkj; exact hkj
  · have := (hin.sib_in j (by omega)).1
    rw [hkj] at this
    simp only [rightOf, Option.some_bind, hx, hr] at this
    obtain ⟨c, cn2, k1, _⟩ := hin.kids (j + 1) (by omega)
    rw [k1] at this; cases this

/-- The code of `borrow_leaf` from the right sibling, up to the lookup of the slot. -/
theorem borrow_leaf_right_eq {x R : Nat} {cn rn : Node} (hne : x ≠ R)
    (hx : t.heap x = some cn) (hR : t.heap R = some rn)
    {a b c d x0 y z w : KeyValuePair}
    (hrk : rn.key_value = [a, b, c, d]) (hrsz : rn.size = 3)
    (hck : cn.key_value = [x0, y, z, w]) (hcsz : cn.size = 1) :
    SeqBPlusTree.borrow_leaf t x R false =
      (SeqBPlusTree.get_key_ref_pair_from_parent
          ((t.set x { cn with key_value := [x0, a, z, w], size := 2 }).set R
            { rn with key_value := [b, c, c, d], size := 2 }).heap (some x)).bind
        (fun slot => SeqBPlusTree.set_slot_key
          ((t.set x { cn with key_value := [x0, a, z, w], size := 2 }).set R
            { rn with key_value := [b, c, c, d], size := 2 }) slot b.key) := by
  simp [SeqBPlusTree.borrow_leaf, hR, hrsz, size_dec, hrk, hx, hck, hcsz, arr_set, arr_shift,
    Function.update_noteq hne, Function.update_noteq (Ne.symm hne)]

/-- The function `borrow_leaf` from the right sibling: the deficient leaf gets the first
entry of its right sibling, and the invariant holds again. -/
theorem borrow_leaf_right {x R : Nat} {cn rn : Node} (hg : Good t lvl lo hi none (some x))
    (hx : t.heap x = some cn) (hcty : cn.type = NodeType.LEAF) (hcsz : cn.size = 1)
    (hl : cn.left_sibling = none) (hr : cn.right_sibling = some R) (hR : t.heap R = some rn)
    (hrsz : rn.size = 3) :
    ∃ s lo2 hi2, SeqBPlusTree.borrow_leaf t x R false = some s ∧
      Good s lvl lo2 hi2 none none ∧
      (∀ kv, s.Stored kv ↔ t.Stored kv) ∧ s.root = t.root ∧ s.depth = t.depth ∧
      s.next = t.next ∧ ∃ e, LeafTook t s x R cn rn false e := by
  obtain ⟨rn2, l1, l2, l3, l4⟩ := hg.right_info _ x cn R rfl hx hr
  rw [hR] at l1; cases l1
  have hrty : rn.type = NodeType.LEAF := (hg.type_of_lvl hR hx l3).trans hcty
  obtain ⟨a, b, c, d, hrk, k1, k2, k3, k4⟩ := hg.leaf_three hR hrty hrsz
  obtain ⟨x0, y, z, w, hck, k5, k6⟩ := hg.leaf_one hx hcty hcsz
  have hne : x ≠ R := by
    intro e
    have := hg.range_ne hx
    rw [← e] at l4
    omega
  cases hpar : cn.parent with
  | none =>
    have := (hg.nodes x cn hx).is_root hpar
    obtain ⟨rt, r1, r2, r3, r4⟩ := hg.root_live
    rw [← this, hx] at r1; cases r1
    rw [hr] at r4; cases r4
  | some p =>
    obtain ⟨pn, hpn, hpty, hk0⟩ := hg.first_of_no_left hx hpar hl
    have hin := hg.internal_good hpn hpty
    have hps : 0 < pn.size := by
      rcases hin.size_ge with h | h
      · exact h
      · cases h
        rw [hx] at hpn; cases hpn
        rw [hcty] at hpty; cases hpty
    obtain ⟨c1, c2, c1n, c2n, a1, a2, a3, a4, a5, adj⟩ := hg.adj_slot hpn hpty hps
    rw [hk0] at a1; cases a1
    rw [hx] at a3; cases a3
    rw [hr] at a5; cases a5
    have hlv := (hg.kid_parent hpn (Nat.zero_le _) hk0 hx).2
    have hpx : p ≠ x := by intro e; rw [e] at hlv; omega
    have hpR : p ≠ R := by intro e; rw [e] at hlv; omega
    obtain ⟨s1, s2⟩ := hg.size_le_four hpn hpty
    have hri := hg.range_int _ R rn rfl hR
    have hlc := hg.leaf_good hx hcty
    have hlr := hg.leaf_good hR hrty
    have heq := borrow_leaf_right_eq hne hx hR hrk hrsz hck hcsz
    have hsl := slot_lookup ((t.set x { cn with key_value := [x0, a, z, w], size := 2 }).set R
        { rn with key_value := [b, c, c, d], size := 2 }).heap
      (c := x) (p := p) (i := 0)
      (show _ = some { cn with key_value := [x0, a, z, w], size := 2 } by
        simp only [SeqBPlusTree.set_heap]
        rw [Function.update_noteq hne, Function.update_same])
      hpar
      (show _ = some pn by
        simp only [SeqBPlusTree.set_heap]
        rw [Function.update_noteq hpR, Function.update_noteq hpx]; exact hpn)
      (Nat.zero_le _) (by omega) hk0 (fun j hj => by omega)
    rw [hsl, Option.some_bind, set_slot_key_eq _ 0 b.key (show _ = some pn by
        simp only [SeqBPlusTree.set_heap]
        rw [Function.update_noteq hpR, Function.update_noteq hpx]; exact hpn)
      (by omega)] at heq
    have st : BoundaryStep t (((t.set x { cn with key_value := [x0, a, z, w], size := 2 }).set R
        { rn with key_value := [b, c, c, d], size := 2 }).set p (pn.set_sep 0 b.key))
        lvl lo hi none none (some x) none p pn 0 [x] [R] x R cn rn
        { cn with key_value := [x0, a, z, w], size := 2 }
        { rn with key_value := [b, c, c, d], size := 2 } b.key (fun _ => False) 0 := by
      refine {
        good := hg
        adj := adj
        h1 := hx
        h2 := hR
        hr := hr
        hm1 := by omega
        hm2 := by omega
        hm3 := by omega
        hov := fun b h => by cases h
        hun := fun b h h1 _ => absurd (Option.some.inj h).symm h1
        root_eq := rfl
        next_eq := rfl
        depth_eq := rfl
        sA := by simp only [SeqBPlusTree.set_heap, Function.update_same]
        s1 := by
          simp only [SeqBPlusTree.set_heap]
          rw [Function.update_noteq (Ne.symm hpx), Function.update_noteq hne,
            Function.update_same]
        s2 := by
          simp only [SeqBPlusTree.set_heap]
          rw [Function.update_noteq (Ne.symm hpR), Function.update_same]
        sD := fun d h => h.elim
        sO := by
          intro a h1 h2 h3 _
          simp only [SeqBPlusTree.set_heap]
          rw [Function.update_noteq h1, Function.update_noteq h3, Function.update_noteq h2]
        ty1 := rfl
        par1 := rfl
        left1 := rfl
        right1 := rfl
        ty2 := rfl
        par2 := rfl
        left2 := rfl
        right2 := rfl
        first1 := rfl
        last2 := by
          rw [Node.kid_of_noref _ (show ({ rn with key_value := [b, c, c, d], size := 2 } :
            Node).key_ref = [] from hlr.noref), Node.kid_of_noref _ hlr.noref]
        kid1 := by
          intro a j _ hk
          rw [Node.kid_of_noref _ hlc.noref] at hk; cases hk
        kid2 := by
          intro a j _ hk
          rw [Node.kid_of_noref _ hlr.noref] at hk; cases hk
        kidD := fun d h => h.elim
        leaf1 := ?_
        leaf2 := ?_
        int1 := fun h => by rw [hcty] at h; cases h
        int2 := fun h => by rw [hrty] at h; cases h }
      · intro _
        constructor
        · exact hlc.lvl0
        · simp
        · exact hlc.noref
        · left; show 2 ≤ ORDER - 1; decide
        · right; left; show ORDER / 2 ≤ 2; decide
        · simp only [Node.keys, Node.entries, List.take, List.map_cons, List.map_nil,
            List.pairwise_cons, List.mem_cons, List.mem_singleton, forall_eq_or_imp, forall_eq,
            List.not_mem_nil, IsEmpty.forall_iff, implies_true, List.Pairwise.nil, and_true,
            List.mem_nil_iff, false_implies]
          omega
        · simp only [Node.keys, Node.entries, List.take, List.map_cons, List.map_nil,
            List.mem_cons, List.mem_singleton, forall_eq_or_imp, forall_eq, List.not_mem_nil,
            IsEmpty.forall_iff, implies_true, and_true, List.mem_nil_iff, false_implies]
          omega
      · intro _
        constructor
        · exact hlr.lvl0
        · simp
        · exact hlr.noref
        · left; show 2 ≤ ORDER - 1; decide
        · right; left; show ORDER / 2 ≤ 2; decide
        · simp only [Node.keys, Node.entries, List.take, List.map_cons, List.map_nil,
            List.pairwise_cons, List.mem_cons, List.mem_singleton, forall_eq_or_imp, forall_eq,
            List.not_mem_nil, IsEmpty.forall_iff, implies_true, List.Pairwise.nil, and_true,
            List.mem_nil_iff, false_implies]
          omega
        · simp only [Node.keys, Node.entries, List.take, List.map_cons, List.map_nil,
            List.mem_cons, List.mem_singleton, forall_eq_or_imp, forall_eq, List.not_mem_nil,
            IsEmpty.forall_iff, implies_true, and_true, List.mem_nil_iff, false_implies]
          omega
    refine ⟨_, _, _, heq, st.b_good_after, ?_, rfl, rfl, rfl, a, ?_⟩
    · intro kv
      apply st.b_stored_leaf _ hcty
      intro kv
      simp only [Node.entries, hrk, hck, hrsz, hcsz, List.take, List.mem_cons,
        List.mem_singleton, List.not_mem_nil, List.mem_nil_iff, or_false]
      tauto
    · refine ⟨?_, ⟨_, st.s1, rfl, ?_⟩, ⟨_, st.s2, rfl, ?_⟩, ?_, rfl⟩
      · simp [Node.entries, hrk, hrsz]
      · simp [Node.entries, hck, hcsz]
      · simp [Node.entries, hrk, hrsz]
      · intro u
        by_cases e1 : u = p
        · rw [e1, st.sA, hpn]; rfl
        · by_cases e2 : u = x
          · rw [e2, st.s1, hx]; rfl
          · by_cases e3 : u = R
            · rw [e3, st.s2, hR]; rfl
            · rw [st.sO u e1 e2 e3 (fun h => h)]

end Good


/-- One merge of two neighbouring children `X` and `Y` of a node `p`: the survivor `Z`, one
of the two, holds what both held, the victim `V`, the other one, is freed, and `p` loses the
separator between the two. The children `D` of the victim get `Z` as parent. -/
structure MergeStep (t s : SeqBPlusTree) (lvl : Nat → Nat) (lo hi : Nat → Int)
    (un ov2 un2 : Option Nat) (p : Nat) (pn pm : Node) (idx : Nat) (X Y Z V : Nat)
    (xn yn zn : Node) (D : Nat → Prop) : Prop where
  good : Good t lvl lo hi none un
  hp : t.heap p = some pn
  hidx : idx < pn.size
  hX : pn.kid idx = some X
  hY : pn.kid (idx + 1) = some Y
  hx : t.heap X = some xn
  hy : t.heap Y = some yn
  hZ : (Z = X ∧ V = Y) ∨ (Z = Y ∧ V = X)
  hun : ∀ b, un = some b → b = X ∨ b = Y ∨ un2 = some b
  psz : 2 ≤ pn.size ∨ un2 = some p
  root_eq : s.root = t.root
  next_eq : s.next = t.next
  depth_eq : s.depth = t.depth
  sV : s.heap V = none
  sZ : s.heap Z = some zn
  sP : s.heap p = some pm
  sL : ∀ l, xn.left_sibling = some l → ∃ lsn, t.heap l = some lsn ∧
    s.heap l = some { lsn with right_sibling := some Z }
  sR : ∀ r, yn.right_sibling = some r → ∃ rsn, t.heap r = some rsn ∧
    s.heap r = some { rsn with left_sibling := some Z }
  sD : ∀ d, D d → ∃ dn, t.heap d = some dn ∧ dn.parent = some V ∧
    s.heap d = some { dn with parent := some Z }
  sO : ∀ a, a ≠ p → a ≠ X → a ≠ Y → xn.left_sibling ≠ some a → yn.right_sibling ≠ some a →
    ¬ D a → s.heap a = t.heap a
  hD : ∀ d dn, t.heap d = some dn → dn.parent = some V → D d
  pty : pm.type = pn.type
  ppar : pm.parent = pn.parent
  pleft : pm.left_sibling = pn.left_sibling
  pright : pm.right_sibling = pn.right_sibling
  plen : pm.key_ref.length = pn.key_ref.length
  psize : pm.size + 1 = pn.size
  psep : ∀ j, j < pm.size → pm.sep j = if j < idx then pn.sep j else pn.sep (j + 1)
  pdummy : pm.sep pm.size = INT_MAX
  pkid : ∀ j, j ≤ pm.size →
    pm.kid j = if j < idx then pn.kid j else if j = idx then some Z else pn.kid (j + 1)
  zty : zn.type = xn.type
  zpar : zn.parent = some p
  zleft : zn.left_sibling = xn.left_sibling
  zright : zn.right_sibling = yn.right_sibling
  zleaf : xn.type = NodeType.LEAF → LeafGood t.root ov2 un2 Z zn (lvl X) (lo X) (hi Y)
  zlen : xn.type = NodeType.INTERNAL → zn.key_ref.length = ORDER + 1
  zsize : xn.type = NodeType.INTERNAL → zn.size = xn.size + yn.size + 1
  zsz_le : xn.type = NodeType.INTERNAL → zn.size ≤ ORDER - 1 ∨ (zn.size = ORDER ∧ ov2 = some Z)
  zsep : xn.type = NodeType.INTERNAL → ∀ j, j < zn.size →
    zn.sep j = if j < xn.size then xn.sep j else if j = xn.size then pn.sep idx
      else yn.sep (j - xn.size - 1)
  zdummy : xn.type = NodeType.INTERNAL → zn.sep zn.size = INT_MAX
  zkid : xn.type = NodeType.INTERNAL → ∀ j, j ≤ zn.size →
    zn.kid j = if j ≤ xn.size then xn.kid j else yn.kid (j - xn.size - 1)

namespace MergeStep

variable {t s : SeqBPlusTree} {lvl : Nat → Nat} {lo hi : Nat → Int}
  {un ov2 un2 : Option Nat} {p : Nat} {pn pm : Node} {idx : Nat} {X Y Z V : Nat}
  {xn yn zn : Node} {D : Nat → Prop}

/-- Levels, bounds and links of the nodes of a merge. -/
theorem m_basics (st : MergeStep t s lvl lo hi un ov2 un2 p pn pm idx X Y Z V xn yn zn D) :
    pn.type = NodeType.INTERNAL ∧ InternalGood t.heap lvl lo hi none un p pn ∧
    xn.parent = some p ∧ yn.parent = some p ∧ lvl X + 1 = lvl p ∧ lvl Y + 1 = lvl p ∧
    X ≠ Y ∧ X ≠ p ∧ Y ≠ p ∧ xn.right_sibling = some Y ∧ yn.left_sibling = some X ∧
    lo X = lob pn (lo p) idx ∧ hi X = pn.sep idx ∧ lo Y = pn.sep idx ∧
    hi Y = hib pn (hi p) (idx + 1) ∧ yn.type = xn.type ∧ lvl Z = lvl X ∧
    (Z = X ∨ Z = Y) ∧ (V = X ∨ V = Y) ∧ Z ≠ V ∧ Z ≠ p ∧ V ≠ p := by
  have hg := st.good
  have hty := hg.internal_of_kid st.hp st.hX
  have hin := hg.internal_good st.hp hty
  have hidx := st.hidx
  obtain ⟨_, x1, g1, g2, g3, g4⟩ := hg.kid_live st.hp (le_of_lt hidx) st.hX
  obtain ⟨_, y1, k1, k2, k3, k4⟩ := hg.kid_live st.hp hidx st.hY
  rw [st.hx] at x1; cases x1
  rw [st.hy] at y1; cases y1
  have hXY : X ≠ Y := by
    intro e
    have := hin.kid_inj idx (idx + 1) (by omega) (by omega) (by rw [st.hX, st.hY, e])
    omega
  have hs := hin.sib_in idx hidx
  rw [st.hX, st.hY] at hs
  simp only [rightOf, leftOf, Option.some_bind, st.hx, st.hy] at hs
  have e1 : hi X = pn.sep idx := by
    rw [g4]; unfold hib; rw [if_neg (by omega)]
  have e2 : lo Y = pn.sep idx := by
    rw [k3]; unfold lob; rw [if_neg (by omega)]; rfl
  have hXp : X ≠ p := by intro e; rw [e] at g2; omega
  have hYp : Y ≠ p := by intro e; rw [e] at k2; omega
  refine ⟨hty, hin, g1, k1, g2, k2, hXY, hXp, hYp, hs.1, hs.2, g3, e1, e2, k4,
    hg.type_of_lvl st.hy st.hx (by omega), ?_, ?_, ?_, ?_, ?_, ?_⟩
  · rcases st.hZ with ⟨h1, _⟩ | ⟨h1, _⟩
    · rw [h1]
    · rw [h1]; omega
  · rcases st.hZ with ⟨h1, _⟩ | ⟨h1, _⟩
    · exact Or.inl h1
    · exact Or.inr h1
  · rcases st.hZ with ⟨_, h1⟩ | ⟨_, h1⟩
    · exact Or.inr h1
    · exact Or.inl h1
  · rcases st.hZ with ⟨h1, h2⟩ | ⟨h1, h2⟩
    · rw [h1, h2]; exact hXY
    · rw [h1, h2]; exact Ne.symm hXY
  · rcases st.hZ with ⟨h1, _⟩ | ⟨h1, _⟩
    · rw [h1]; exact hXp
    · rw [h1]; exact hYp
  · rcases st.hZ with ⟨_, h1⟩ | ⟨_, h1⟩
    · rw [h1]; exact hYp
    · rw [h1]; exact hXp

/-- The outer left sibling of the two merged nodes. -/
theorem ls_facts (st : MergeStep t s lvl lo hi un ov2 un2 p pn pm idx X Y Z V xn yn zn D)
    {l : Nat} (hl : xn.left_sibling = some l) :
    ∃ lsn, t.heap l = some lsn ∧ lsn.right_sibling = some X ∧ lvl l = lvl X ∧ hi l = lo X ∧
      l ≠ X ∧ l ≠ Y ∧ l ≠ p ∧ yn.right_sibling ≠ some l ∧ ¬ D l ∧
      s.heap l = some { lsn with right_sibling := some Z } := by
  have hg := st.good
  obtain ⟨hty, hin, b1, b2, b3, b4, b5, b6, b7, b8, b9, b10, b11, b12, b13, b14, _⟩ := st.m_basics
  obtain ⟨lsn, g1, g2, g3, g4⟩ := hg.left_info _ X xn l rfl st.hx hl
  obtain ⟨lsn2, k1, k2⟩ := st.sL l hl
  rw [g1] at k1; cases k1
  have r1 := hg.range_ne g1
  have r2 := hg.range_ne st.hx
  have r3 := hg.range_ne st.hy
  refine ⟨lsn, g1, g2, g3, g4, ?_, ?_, ?_, ?_, ?_, k2⟩
  · intro e; rw [e] at g4; omega
  · intro e; rw [e] at g4 r1; omega
  · intro e; rw [e] at g3; omega
  · intro e
    obtain ⟨_, q1, q2, q3, q4⟩ := hg.right_info _ Y yn l rfl st.hy e
    omega
  · intro hd
    obtain ⟨dn, d1, d2, _⟩ := st.sD l hd
    obtain ⟨_, _, _, _, _, _, q, _⟩ := hg.parent_info d1 d2
    rcases st.m_basics.2.2.2.2.2.2.2.2.2.2.2.2.2.2.2.2.2.2.1 with e | e
    · rw [e] at q; omega
    · rw [e] at q; omega

/-- The outer right sibling of the two merged nodes. -/
theorem m_rs_facts (st : MergeStep t s lvl lo hi un ov2 un2 p pn pm idx X Y Z V xn yn zn D)
    {r : Nat} (hr : yn.right_sibling = some r) :
    ∃ rsn, t.heap r = some rsn ∧ rsn.left_sibling = some Y ∧ lvl r = lvl X ∧ lo r = hi Y ∧
      r ≠ X ∧ r ≠ Y ∧ r ≠ p ∧ xn.left_sibling ≠ some r ∧ ¬ D r ∧
      s.heap r = some { rsn with left_sibling := some Z } := by
  have hg := st.good
  obtain ⟨hty, hin, b1, b2, b3, b4, b5, b6, b7, b8, b9, b10, b11, b12, b13, b14, _⟩ := st.m_basics
  obtain ⟨rsn, g1, g2, g3, g4⟩ := hg.right_info _ Y yn r rfl st.hy hr
  obtain ⟨rsn2, k1, k2⟩ := st.sR r hr
  rw [g1] at k1; cases k1
  have r1 := hg.range_ne g1
  have r2 := hg.range_ne st.hx
  have r3 := hg.range_ne st.hy
  refine ⟨rsn, g1, g2, by omega, g4, ?_, ?_, ?_, ?_, ?_, k2⟩
  · intro e; rw [e] at g4 r1; omega
  · intro e; rw [e] at g4; omega
  · intro e; rw [e] at g3; omega
  · intro e
    obtain ⟨_, q1, q2, q3, q4⟩ := hg.left_info _ X xn r rfl st.hx e
    omega
  · intro hd
    obtain ⟨dn, d1, d2, _⟩ := st.sD r hd
    obtain ⟨_, _, _, _, _, _, q, _⟩ := hg.parent_info d1 d2
    rcases st.m_basics.2.2.2.2.2.2.2.2.2.2.2.2.2.2.2.2.2.2.1 with e | e
    · rw [e] at q; omega
    · rw [e] at q; omega

/-- The children of the victim. -/
theorem m_d_facts (st : MergeStep t s lvl lo hi un ov2 un2 p pn pm idx X Y Z V xn yn zn D)
    {d : Nat} (hd : D d) :
    ∃ dn, t.heap d = some dn ∧ dn.parent = some V ∧ lvl d + 1 = lvl X ∧ d ≠ X ∧ d ≠ Y ∧
      d ≠ p ∧ xn.left_sibling ≠ some d ∧ yn.right_sibling ≠ some d ∧
      s.heap d = some { dn with parent := some Z } := by
  have hg := st.good
  obtain ⟨hty, hin, b1, b2, b3, b4, b5, b6, b7, b8, b9, b10, b11, b12, b13, b14, b15, b16,
    b17, _⟩ := st.m_basics
  obtain ⟨dn, d1, d2, d3⟩ := st.sD d hd
  obtain ⟨_, _, _, _, _, _, q, _⟩ := hg.parent_info d1 d2
  have hl : lvl d + 1 = lvl X := by
    rcases b17 with e | e
    · rw [e] at q; exact q
    · rw [e] at q; omega
  refine ⟨dn, d1, d2, hl, ?_, ?_, ?_, ?_, ?_, d3⟩
  · intro e; rw [e] at hl; omega
  · intro e; rw [e] at hl; omega
  · intro e; rw [e] at hl; omega
  · intro e
    obtain ⟨_, _, _, g, _⟩ := st.ls_facts e
    omega
  · intro e
    obtain ⟨_, _, _, g, _⟩ := st.m_rs_facts e
    omega

end MergeStep


namespace MergeStep

variable {t s : SeqBPlusTree} {lvl : Nat → Nat} {lo hi : Nat → Int}
  {un ov2 un2 : Option Nat} {p : Nat} {pn pm : Node} {idx : Nat} {X Y Z V : Nat}
  {xn yn zn : Node} {D : Nat → Prop}

/-- What the store after the merge holds where the store before holds a node other than the
victim. -/
theorem m_summary (st : MergeStep t s lvl lo hi un ov2 un2 p pn pm idx X Y Z V xn yn zn D)
    {a : Nat} {an : Node} (ha : t.heap a = some an) (hV : a ≠ V) :
    ∃ bn, s.heap a = some bn ∧ bn.type = an.type ∧
      bn.left_sibling = (if yn.right_sibling = some a then some Z
        else if a = Z then xn.left_sibling else an.left_sibling) ∧
      bn.right_sibling = (if xn.left_sibling = some a then some Z
        else if a = Z then yn.right_sibling else an.right_sibling) ∧
      (¬ D a → bn.parent = an.parent) ∧ (D a → bn.parent = some Z) ∧
      (a ≠ p → a ≠ Z → bn.size = an.size ∧ bn.key_ref = an.key_ref ∧
        bn.key_value = an.key_value) := by
  obtain ⟨hty, hin, b1, b2, b3, b4, b5, b6, b7, b8, b9, b10, b11, b12, b13, b14, b15, b16,
    b17, b18, b19, b20⟩ := st.m_basics
  by_cases hap : a = p
  · subst hap
    rw [st.hp] at ha; cases ha
    have h1 : yn.right_sibling ≠ some a := fun e => (st.m_rs_facts e).choose_spec.2.2.2.2.2.2.1 rfl
    have h2 : xn.left_sibling ≠ some a := fun e => (st.ls_facts e).choose_spec.2.2.2.2.2.2.1 rfl
    refine ⟨pm, st.sP, st.pty, ?_, ?_, fun _ => st.ppar, ?_, fun h => absurd rfl h⟩
    · rw [if_neg h1, if_neg (Ne.symm b19)]; exact st.pleft
    · rw [if_neg h2, if_neg (Ne.symm b19)]; exact st.pright
    · intro hd; exact absurd rfl (st.m_d_facts hd).choose_spec.2.2.2.2.2.1
  by_cases haz : a = Z
  · subst haz
    have h1 : yn.right_sibling ≠ some a := by
      intro e
      obtain ⟨_, _, _, _, _, q1, q2, _⟩ := st.m_rs_facts e
      rcases b16 with e | e
      · exact q1 e
      · exact q2 e
    have h2 : xn.left_sibling ≠ some a := by
      intro e
      obtain ⟨_, _, _, _, _, q1, q2, _⟩ := st.ls_facts e
      rcases b16 with e | e
      · exact q1 e
      · exact q2 e
    have hnd : ¬ D a := by
      intro hd
      obtain ⟨_, _, _, _, q1, q2, _⟩ := st.m_d_facts hd
      rcases b16 with e | e
      · exact q1 e
      · exact q2 e
    have hpar : an.parent = some p := by
      rcases b16 with e | e
      · rw [e, st.hx] at ha; cases ha; exact b1
      · rw [e, st.hy] at ha; cases ha; exact b2
    have hty2 : an.type = xn.type := by
      rcases b16 with e | e
      · rw [e, st.hx] at ha; cases ha; rfl
      · rw [e, st.hy] at ha; cases ha; exact b14
    refine ⟨zn, st.sZ, by rw [st.zty, hty2], ?_, ?_, fun _ => by rw [st.zpar, hpar],
      fun h => absurd h hnd, fun _ h => absurd rfl h⟩
    · rw [if_neg h1, if_pos rfl]; exact st.zleft
    · rw [if_neg h2, if_pos rfl]; exact st.zright
  have hax : a ≠ X := by
    intro e
    rcases b16 with e2 | e2
    · exact haz (e.trans e2.symm)
    · rcases b17 with e3 | e3
      · exact hV (e.trans e3.symm)
      · exact b18 (e2.trans e3.symm)
  have hay : a ≠ Y := by
    intro e
    rcases b16 with e2 | e2
    · rcases b17 with e3 | e3
      · exact b18 (e2.trans e3.symm)
      · exact hV (e.trans e3.symm)
    · exact haz (e.trans e2.symm)
  by_cases hl : xn.left_sibling = some a
  · obtain ⟨lsn, g1, g2, g3, g4, g5, g6, g7, g8, g9, g10⟩ := st.ls_facts hl
    rw [ha] at g1; cases g1
    refine ⟨_, g10, rfl, ?_, ?_, fun _ => rfl, fun h => absurd h g9, fun _ _ => ⟨rfl, rfl, rfl⟩⟩
    · rw [if_neg g8, if_neg haz]
    · rw [if_pos hl]
  by_cases hr : yn.right_sibling = some a
  · obtain ⟨rsn, g1, g2, g3, g4, g5, g6, g7, g8, g9, g10⟩ := st.m_rs_facts hr
    rw [ha] at g1; cases g1
    refine ⟨_, g10, rfl, ?_, ?_, fun _ => rfl, fun h => absurd h g9, fun _ _ => ⟨rfl, rfl, rfl⟩⟩
    · rw [if_pos hr]
    · rw [if_neg hl, if_neg haz]
  by_cases hd : D a
  · obtain ⟨dn, d1, d2, d3, d4, d5, d6, d7, d8, d9⟩ := st.m_d_facts hd
    rw [ha] at d1; cases d1
    refine ⟨_, d9, rfl, ?_, ?_, fun h => absurd hd h, fun _ => rfl, fun _ _ => ⟨rfl, rfl, rfl⟩⟩
    · rw [if_neg hr, if_neg haz]
    · rw [if_neg hl, if_neg haz]
  · refine ⟨an, by rw [st.sO a hap hax hay hl hr hd, ha], rfl, ?_, ?_, fun _ => rfl,
      fun h => absurd h hd, fun _ _ => ⟨rfl, rfl, rfl⟩⟩
    · rw [if_neg hr, if_neg haz]
    · rw [if_neg hl, if_neg haz]

/-- The merge frees the victim only. -/
theorem m_dead (st : MergeStep t s lvl lo hi un ov2 un2 p pn pm idx X Y Z V xn yn zn D)
    {a : Nat} (ha : t.heap a = none) : s.heap a = none := by
  have hp : a ≠ p := by intro e; rw [e, st.hp] at ha; cases ha
  have hx : a ≠ X := by intro e; rw [e, st.hx] at ha; cases ha
  have hy : a ≠ Y := by intro e; rw [e, st.hy] at ha; cases ha
  have hl : xn.left_sibling ≠ some a := by
    intro e
    obtain ⟨_, g, _⟩ := st.ls_facts e
    rw [ha] at g; cases g
  have hr : yn.right_sibling ≠ some a := by
    intro e
    obtain ⟨_, g, _⟩ := st.m_rs_facts e
    rw [ha] at g; cases g
  have hd : ¬ D a := by
    intro hd
    obtain ⟨dn, d1, _⟩ := st.sD a hd
    rw [ha] at d1; cases d1
  rw [st.sO a hp hx hy hl hr hd, ha]

theorem m_live_back (st : MergeStep t s lvl lo hi un ov2 un2 p pn pm idx X Y Z V xn yn zn D)
    {a : Nat} {bn : Node} (ha : s.heap a = some bn) : ∃ an, t.heap a = some an ∧ a ≠ V := by
  cases h : t.heap a with
  | none => rw [st.m_dead h] at ha; cases ha
  | some an =>
    refine ⟨an, rfl, ?_⟩
    intro e
    rw [e, st.sV] at ha; cases ha

theorem leftOf_m (st : MergeStep t s lvl lo hi un ov2 un2 p pn pm idx X Y Z V xn yn zn D)
    {a : Nat} {an : Node} (ha : t.heap a = some an) (hV : a ≠ V) :
    leftOf s.heap (some a) = if yn.right_sibling = some a then some Z
      else if a = Z then xn.left_sibling else an.left_sibling := by
  obtain ⟨bn, g1, g2, g3, _⟩ := st.m_summary ha hV
  simp only [leftOf, Option.some_bind, g1, g3]

theorem rightOf_m (st : MergeStep t s lvl lo hi un ov2 un2 p pn pm idx X Y Z V xn yn zn D)
    {a : Nat} {an : Node} (ha : t.heap a = some an) (hV : a ≠ V) :
    rightOf s.heap (some a) = if xn.left_sibling = some a then some Z
      else if a = Z then yn.right_sibling else an.right_sibling := by
  obtain ⟨bn, g1, g2, g3, g4, _⟩ := st.m_summary ha hV
  simp only [rightOf, Option.some_bind, g1, g4]

theorem firstKid_m (st : MergeStep t s lvl lo hi un ov2 un2 p pn pm idx X Y Z V xn yn zn D)
    (q : Option Nat) (h1 : q ≠ some p) (h2 : q ≠ some Z) (h3 : q ≠ some V) :
    firstKid s.heap q = firstKid t.heap q := by
  cases q with
  | none => rfl
  | some a =>
    simp only [firstKid, Option.some_bind]
    cases h : t.heap a with
    | none => rw [st.m_dead h]
    | some an =>
      obtain ⟨bn, g1, _, _, _, _, _, g7⟩ := st.m_summary h (fun e => h3 (by rw [e]))
      obtain ⟨_, e2, _⟩ := g7 (fun e => h1 (by rw [e])) (fun e => h2 (by rw [e]))
      rw [g1]
      simp only [Option.some_bind, Node.kid, e2]

theorem lastKid_m (st : MergeStep t s lvl lo hi un ov2 un2 p pn pm idx X Y Z V xn yn zn D)
    (q : Option Nat) (h1 : q ≠ some p) (h2 : q ≠ some Z) (h3 : q ≠ some V) :
    lastKid s.heap q = lastKid t.heap q := by
  cases q with
  | none => rfl
  | some a =>
    simp only [lastKid, Option.some_bind]
    cases h : t.heap a with
    | none => rw [st.m_dead h]
    | some an =>
      obtain ⟨bn, g1, _, _, _, _, _, g7⟩ := st.m_summary h (fun e => h3 (by rw [e]))
      obtain ⟨e1, e2, _⟩ := g7 (fun e => h1 (by rw [e])) (fun e => h2 (by rw [e]))
      rw [g1]
      simp only [Option.some_bind, Node.kid, e2, e1]

end MergeStep


namespace MergeStep

variable {t s : SeqBPlusTree} {lvl : Nat → Nat} {lo hi : Nat → Int}
  {un ov2 un2 : Option Nat} {p : Nat} {pn pm : Node} {idx : Nat} {X Y Z V : Nat}
  {xn yn zn : Node} {D : Nat → Prop}

/-- The children of the left node are children of the survivor. -/
theorem zkid_x (st : MergeStep t s lvl lo hi un ov2 un2 p pn pm idx X Y Z V xn yn zn D)
    (hty : xn.type = NodeType.INTERNAL) {j : Nat} (hj : j ≤ xn.size) :
    j ≤ zn.size ∧ zn.kid j = xn.kid j := by
  have := st.zsize hty
  refine ⟨by omega, ?_⟩
  rw [st.zkid hty j (by omega), if_pos hj]

/-- The children of the right node are children of the survivor. -/
theorem zkid_y (st : MergeStep t s lvl lo hi un ov2 un2 p pn pm idx X Y Z V xn yn zn D)
    (hty : xn.type = NodeType.INTERNAL) {j : Nat} (hj : j ≤ yn.size) :
    j + xn.size + 1 ≤ zn.size ∧ zn.kid (j + xn.size + 1) = yn.kid j := by
  have := st.zsize hty
  refine ⟨by omega, ?_⟩
  rw [st.zkid hty _ (by omega), if_neg (by omega)]
  congr 1
  omega

/-- The children of `p` other than the victim are children of `p` after the merge. -/
theorem pkid_old (st : MergeStep t s lvl lo hi un ov2 un2 p pn pm idx X Y Z V xn yn zn D)
    {j a : Nat} (hj : j ≤ pn.size) (hk : pn.kid j = some a) (hV : a ≠ V) :
    ∃ j2, j2 ≤ pm.size ∧ pm.kid j2 = some a := by
  obtain ⟨hty, hin, b1, b2, b3, b4, b5, b6, b7, b8, b9, b10, b11, b12, b13, b14, b15, b16,
    b17, b18, b19, b20⟩ := st.m_basics
  have hps := st.psize
  have hidx := st.hidx
  by_cases haz : a = Z
  · refine ⟨idx, by omega, ?_⟩
    rw [st.pkid idx (by omega), if_neg (by omega), if_pos rfl, haz]
  have hax : a ≠ X := by
    intro e
    rcases b16 with e2 | e2
    · exact haz (e.trans e2.symm)
    · rcases b17 with e3 | e3
      · exact hV (e.trans e3.symm)
      · exact b18 (e2.trans e3.symm)
  have hay : a ≠ Y := by
    intro e
    rcases b16 with e2 | e2
    · rcases b17 with e3 | e3
      · exact b18 (e2.trans e3.symm)
      · exact hV (e.trans e3.symm)
    · exact haz (e.trans e2.symm)
  have h1 : j ≠ idx := by
    intro e; rw [e, st.hX] at hk; exact hax (Option.some.inj hk).symm
  have h2 : j ≠ idx + 1 := by
    intro e; rw [e, st.hY] at hk; exact hay (Option.some.inj hk).symm
  by_cases hlt : j < idx
  · refine ⟨j, by omega, ?_⟩
    rw [st.pkid j (by omega), if_pos hlt]; exact hk
  · refine ⟨j - 1, by omega, ?_⟩
    rw [st.pkid (j - 1) (by omega), if_neg (by omega), if_neg (by omega),
      show j - 1 + 1 = j by omega]
    exact hk

/-- After the merge every node is a child of its parent. -/
theorem m_parent_ok (st : MergeStep t s lvl lo hi un ov2 un2 p pn pm idx X Y Z V xn yn zn D)
    {a : Nat} {an bn : Node} (ha : t.heap a = some an) (hV : a ≠ V)
    (hb : s.heap a = some bn) :
    ∀ q, bn.parent = some q → ∃ qn, s.heap q = some qn ∧ qn.type = NodeType.INTERNAL ∧
      ∃ j, j ≤ qn.size ∧ qn.kid j = some a := by
  intro q hq
  have hg := st.good
  obtain ⟨hty, hin, b1, b2, b3, b4, b5, b6, b7, b8, b9, b10, b11, b12, b13, b14, b15, b16,
    b17, b18, b19, b20⟩ := st.m_basics
  obtain ⟨bn2, g1, g2, g3, g4, g5, g6, g7⟩ := st.m_summary ha hV
  rw [hb] at g1; cases g1
  have inZ : ∀ w wn j0, (w = X ∨ w = Y) → t.heap w = some wn → j0 ≤ wn.size →
      wn.kid j0 = some a →
      ∃ qn, s.heap Z = some qn ∧ qn.type = NodeType.INTERNAL ∧
        ∃ j, j ≤ qn.size ∧ qn.kid j = some a := by
    intro w wn j0 hw hwn hj0 hk
    have hwty := hg.internal_of_kid hwn hk
    rcases hw with e | e
    · subst e
      rw [st.hx] at hwn; cases hwn
      obtain ⟨z1, z2⟩ := st.zkid_x hwty hj0
      exact ⟨zn, st.sZ, by rw [st.zty]; exact hwty, j0, z1, by rw [z2]; exact hk⟩
    · subst e
      rw [st.hy] at hwn; cases hwn
      have hxty : xn.type = NodeType.INTERNAL := by rw [← b14]; exact hwty
      obtain ⟨z1, z2⟩ := st.zkid_y hxty hj0
      exact ⟨zn, st.sZ, by rw [st.zty]; exact hxty, _, z1, by rw [z2]; exact hk⟩
  by_cases hd : D a
  · rw [g6 hd] at hq; cases hq
    obtain ⟨dn, d1, d2, _⟩ := st.m_d_facts hd
    rw [ha] at d1; cases d1
    obtain ⟨vn, j0, v1, v2, v3, v4, _⟩ := hg.parent_info ha d2
    exact inZ V vn j0 b17 v1 v3 v4
  · rw [g5 hd] at hq
    obtain ⟨qn, j0, q1, q2, q3, q4, _⟩ := hg.parent_info ha hq
    have hqV : q ≠ V := by
      intro e
      rw [e] at hq
      exact hd (st.hD a an ha hq)
    by_cases hqZ : q = Z
    · rw [hqZ] at q1 ⊢
      exact inZ Z qn j0 b16 q1 q3 q4
    by_cases hqp : q = p
    · rw [hqp] at q1 ⊢
      rw [st.hp] at q1; cases q1
      obtain ⟨j2, k1, k2⟩ := st.pkid_old q3 q4 hV
      exact ⟨pm, st.sP, by rw [st.pty]; exact hty, j2, k1, k2⟩
    obtain ⟨rn, r1, r2, _, _, _, _, r7⟩ := st.m_summary q1 hqV
    obtain ⟨e1, e2, _⟩ := r7 hqp hqZ
    exact ⟨rn, r1, by rw [r2]; exact q2, j0, by rw [e1]; exact q3, by
      simp only [Node.kid, e2]; exact q4⟩

end MergeStep


namespace MergeStep

variable {t s : SeqBPlusTree} {lvl : Nat → Nat} {lo hi : Nat → Int}
  {un ov2 un2 : Option Nat} {p : Nat} {pn pm : Node} {idx : Nat} {X Y Z V : Nat}
  {xn yn zn : Node} {D : Nat → Prop}

/-- A child of a node other than `p` is none of the nodes of the merge. -/
theorem kid_plain (st : MergeStep t s lvl lo hi un ov2 un2 p pn pm idx X Y Z V xn yn zn D)
    {a c j : Nat} {an : Node} (ha : t.heap a = some an) (hap : a ≠ p) (haV : a ≠ V)
    (hj : j ≤ an.size) (hk : an.kid j = some c) :
    ∃ cn, t.heap c = some cn ∧ cn.parent = some a ∧ c ≠ X ∧ c ≠ Y ∧ c ≠ Z ∧ c ≠ V ∧ ¬ D c ∧
      lvl c + 1 = lvl a := by
  have hg := st.good
  obtain ⟨hty, hin, b1, b2, b3, b4, b5, b6, b7, b8, b9, b10, b11, b12, b13, b14, b15, b16,
    b17, b18, b19, b20⟩ := st.m_basics
  obtain ⟨cn, c1, c2, c3, _⟩ := hg.kid_live ha hj hk
  have hcx : c ≠ X := by
    intro e; rw [e, st.hx] at c1; cases c1
    rw [b1] at c2; exact hap (Option.some.inj c2).symm
  have hcy : c ≠ Y := by
    intro e; rw [e, st.hy] at c1; cases c1
    rw [b2] at c2; exact hap (Option.some.inj c2).symm
  refine ⟨cn, c1, c2, hcx, hcy, ?_, ?_, ?_, c3⟩
  · rcases b16 with e | e
    · rw [e]; exact hcx
    · rw [e]; exact hcy
  · rcases b17 with e | e
    · rw [e]; exact hcx
    · rw [e]; exact hcy
  · intro hd
    obtain ⟨dn, d1, d2, _⟩ := st.m_d_facts hd
    rw [c1] at d1; cases d1
    rw [c2] at d2
    exact haV (Option.some.inj d2)

/-- A node other than `p` and the survivor keeps the invariant. -/
theorem m_node_other (st : MergeStep t s lvl lo hi un ov2 un2 p pn pm idx X Y Z V xn yn zn D)
    {a : Nat} {an bn : Node} (ha : t.heap a = some an) (hb : s.heap a = some bn)
    (hap : a ≠ p) (haZ : a ≠ Z) (haV : a ≠ V) :
    NodeGood s.heap s.root lvl (Function.update lo Z (lo X)) (Function.update hi Z (hi Y))
      ov2 un2 a bn := by
  have hg := st.good
  obtain ⟨hty, hin, b1, b2, b3, b4, b5, b6, b7, b8, b9, b10, b11, b12, b13, b14, b15, b16,
    b17, b18, b19, b20⟩ := st.m_basics
  obtain ⟨bn2, g1, g2, g3, g4, g5, g6, g7⟩ := st.m_summary ha haV
  rw [hb] at g1; cases g1
  obtain ⟨e1, e2, e3⟩ := g7 hap haZ
  have old := hg.nodes a an ha
  have hax : a ≠ X := by
    intro e
    rcases b16 with e2 | e2
    · exact haZ (e.trans e2.symm)
    · rcases b17 with e3 | e3
      · exact haV (e.trans e3.symm)
      · exact b18 (e2.trans e3.symm)
  have hay : a ≠ Y := by
    intro e
    rcases b16 with e2 | e2
    · rcases b17 with e3 | e3
      · exact b18 (e2.trans e3.symm)
      · exact haV (e.trans e3.symm)
    · exact haZ (e.trans e2.symm)
  have hpm : pm.size + 1 = pn.size := st.psize
  have hidx := st.hidx
  refine old.reframe g2 e1 e2 e3 (fun h => by cases h) ?_ ?_ ?_ (st.m_parent_ok ha haV hb) ?_ rfl
    (Function.update_noteq haZ _ _) (Function.update_noteq haZ _ _) ?_ ?_ ?_ ?_
  · intro h
    rcases st.hun a h with e | e | e
    · exact absurd e hax
    · exact absurd e hay
    · exact e
  · intro hp
    rw [st.root_eq]
    by_cases hd : D a
    · rw [g6 hd] at hp; cases hp
    · rw [g5 hd] at hp; exact old.is_root hp
  · intro hr _
    left; rw [st.root_eq]; exact hr
  · rw [st.root_eq]; exact old.lvl_le
  · intro _ j c hj hk
    obtain ⟨cn, c1, c2, c3, c4, c5, c6, c7, c8⟩ := st.kid_plain ha hap haV hj hk
    obtain ⟨dn, d1, d2, d3, d4, d5, _⟩ := st.m_summary c1 c6
    exact ⟨dn, d1, by rw [d5 c7]; exact c2, rfl, Function.update_noteq c5 _ _,
      Function.update_noteq c5 _ _⟩
  · intro hity j hj
    have oi := (old.internal hity).2
    obtain ⟨c, cn, k1, k2, _⟩ := oi.kids j (le_of_lt hj)
    obtain ⟨c', cn', k1', k2', _⟩ := oi.kids (j + 1) hj
    obtain ⟨_, _, _, q3, q4, q5, q6, _⟩ := st.kid_plain ha hap haV (le_of_lt hj) k1
    obtain ⟨_, _, _, r3, r4, r5, r6, _⟩ := st.kid_plain ha hap haV hj k1'
    have os := oi.sib_in j hj
    rw [k1, k1'] at os ⊢
    rw [st.rightOf_m k2 q6, st.leftOf_m k2' r6]
    constructor
    · rw [if_neg, if_neg q5]
      · simp only [rightOf, Option.some_bind, k2]
      · intro e
        obtain ⟨lsn, l1, l2, _⟩ := st.ls_facts e
        rw [k2] at l1; cases l1
        have := os.1
        simp only [rightOf, Option.some_bind, k2, l2] at this
        exact r3 (Option.some.inj this).symm
    · rw [if_neg, if_neg r5]
      · simp only [leftOf, Option.some_bind, k2']
      · intro e
        obtain ⟨rsn, l1, l2, _⟩ := st.m_rs_facts e
        rw [k2'] at l1; cases l1
        have := os.2
        simp only [leftOf, Option.some_bind, k2', l2] at this
        exact q4 (Option.some.inj this).symm
  · intro hity
    have oi := (old.internal hity).2
    obtain ⟨c0, c0n, k1, k2, _⟩ := oi.kids 0 (Nat.zero_le _)
    obtain ⟨_, _, _, q3, q4, q5, q6, q7, q8⟩ := st.kid_plain ha hap haV (Nat.zero_le _) k1
    have os := oi.sib_left
    rw [k1] at os ⊢
    simp only [leftOf, Option.some_bind, k2] at os
    rw [st.leftOf_m k2 q6, if_neg q5, g3, if_neg haZ]
    by_cases hr : yn.right_sibling = some a
    · obtain ⟨rsn, r1, r2, r3, _⟩ := st.m_rs_facts hr
      rw [ha] at r1; cases r1
      have hxty : xn.type = NodeType.INTERNAL := (hg.type_of_lvl st.hx ha r3.symm).trans hity
      rw [if_pos hr, if_neg]
      · rw [os, r2]
        simp only [lastKid, Option.some_bind, st.hy, st.sZ]
        have := (st.zkid_y hxty (le_refl yn.size)).2
        rw [← this, st.zsize hxty]
        congr 1
        omega
      · intro e
        obtain ⟨_, _, _, r4, _⟩ := st.m_rs_facts e
        omega
    · rw [if_neg hr]
      by_cases hr0 : yn.right_sibling = some c0
      · obtain ⟨rsn, r1, r2, r3, _⟩ := st.m_rs_facts hr0
        rw [k2] at r1; cases r1
        rw [r2] at os
        rw [if_pos hr0]
        cases hal : an.left_sibling with
        | none => rw [hal] at os; simp [lastKid] at os
        | some b =>
          rw [hal] at os
          cases hbn : t.heap b with
          | none => simp [lastKid, hbn] at os
          | some bbn =>
            simp only [lastKid, Option.some_bind, hbn] at os
            have hbp := (hg.kid_parent hbn (le_refl _) os.symm st.hy).1
            rw [b2] at hbp
            cases hbp
            rw [st.hp] at hbn; cases hbn
            have := hin.kid_inj (idx + 1) pn.size (by omega) (le_refl _)
              (by rw [st.hY, ← os])
            simp only [lastKid, Option.some_bind, st.sP]
            rw [st.pkid pm.size (le_refl _), if_neg (by omega), if_pos (by omega)]
      · rw [if_neg hr0, os]
        cases hal : an.left_sibling with
        | none => rfl
        | some b =>
          obtain ⟨bbn, l1, l2, l3, l4⟩ := hg.left_info _ a an b rfl ha hal
          have hbx : b ≠ X := by
            intro e
            rw [e, st.hx] at l1; cases l1
            rw [b8] at l2
            exact hay (Option.some.inj l2).symm
          have hby : b ≠ Y := by
            intro e
            rw [e, st.hy] at l1; cases l1
            exact hr l2
          by_cases hbp : b = p
          · rw [hbp]
            simp only [lastKid, Option.some_bind, st.hp, st.sP]
            rw [st.pkid pm.size (le_refl _), if_neg (by omega)]
            by_cases hi2 : pm.size = idx
            · exfalso
              rw [hal, hbp] at os
              simp only [lastKid, Option.some_bind, st.hp] at os
              rw [show pn.size = idx + 1 by omega, st.hY] at os
              obtain ⟨_, w1, w2, _⟩ := hg.left_info _ c0 c0n Y rfl k2 os
              rw [st.hy] at w1; cases w1
              exact hr0 w2
            · rw [if_neg hi2, hpm]
          · apply (st.lastKid_m (some b) _ _ _).symm
            · intro e; exact hbp (Option.some.inj e)
            · intro e
              rcases b16 with e2 | e2
              · exact hbx ((Option.some.inj e).trans e2)
              · exact hby ((Option.some.inj e).trans e2)
            · intro e
              rcases b17 with e2 | e2
              · exact hbx ((Option.some.inj e).trans e2)
              · exact hby ((Option.some.inj e).trans e2)
  · intro hity
    have oi := (old.internal hity).2
    obtain ⟨cl, cln, k1, k2, _⟩ := oi.kids an.size (le_refl _)
    obtain ⟨_, _, _, q3, q4, q5, q6, q7, q8⟩ := st.kid_plain ha hap haV (le_refl _) k1
    have os := oi.sib_right
    rw [k1] at os ⊢
    simp only [rightOf, Option.some_bind, k2] at os
    rw [st.rightOf_m k2 q6, if_neg q5, g4, if_neg haZ]
    by_cases hl : xn.left_sibling = some a
    · obtain ⟨lsn, r1, r2, r3, _⟩ := st.ls_facts hl
      rw [ha] at r1; cases r1
      have hxty : xn.type = NodeType.INTERNAL := (hg.type_of_lvl st.hx ha r3.symm).trans hity
      rw [if_pos hl, if_neg]
      · rw [os, r2]
        simp only [firstKid, Option.some_bind, st.hx, st.sZ]
        exact ((st.zkid_x hxty (Nat.zero_le _)).2).symm
      · intro e
        obtain ⟨_, _, _, r4, _⟩ := st.ls_facts e
        omega
    · rw [if_neg hl]
      by_cases hl0 : xn.left_sibling = some cl
      · obtain ⟨lsn, r1, r2, r3, _⟩ := st.ls_facts hl0
        rw [k2] at r1; cases r1
        rw [r2] at os
        rw [if_pos hl0]
        cases har : an.right_sibling with
        | none => rw [har] at os; simp [firstKid] at os
        | some b =>
          rw [har] at os
          cases hbn : t.heap b with
          | none => simp [firstKid, hbn] at os
          | some bbn =>
            simp only [firstKid, Option.some_bind, hbn] at os
            have hbp := (hg.kid_parent hbn (Nat.zero_le _) os.symm st.hx).1
            rw [b1] at hbp
            cases hbp
            rw [st.hp] at hbn; cases hbn
            have := hin.kid_inj idx 0 (by omega) (Nat.zero_le _) (by rw [st.hX, ← os])
            simp only [firstKid, Option.some_bind, st.sP]
            rw [st.pkid 0 (Nat.zero_le _), if_neg (by omega), if_pos (by omega)]
      · rw [if_neg hl0, os]
        cases har : an.right_sibling with
        | none => rfl
        | some b =>
          obtain ⟨bbn, l1, l2, l3, l4⟩ := hg.right_info _ a an b rfl ha har
          have hbx : b ≠ X := by
            intro e
            rw [e, st.hx] at l1; cases l1
            exact hl l2
          have hby : b ≠ Y := by
            intro e
            rw [e, st.hy] at l1; cases l1
            rw [b9] at l2
            exact hax (Option.some.inj l2).symm
          by_cases hbp : b = p
          · rw [hbp]
            simp only [firstKid, Option.some_bind, st.hp, st.sP]
            rw [st.pkid 0 (Nat.zero_le _)]
            by_cases hi2 : 0 < idx
            · rw [if_pos hi2]
            · exfalso
              rw [har, hbp] at os
              simp only [firstKid, Option.some_bind, st.hp] at os
              rw [show 0 = idx by omega, st.hX] at os
              obtain ⟨_, w1, w2, _⟩ := hg.right_info _ cl cln X rfl k2 os
              rw [st.hx] at w1; cases w1
              exact hl0 w2
          · apply (st.firstKid_m (some b) _ _ _).symm
            · intro e; exact hbp (Option.some.inj e)
            · intro e
              rcases b16 with e2 | e2
              · exact hbx ((Option.some.inj e).trans e2)
              · exact hby ((Option.some.inj e).trans e2)
            · intro e
              rcases b17 with e2 | e2
              · exact hbx ((Option.some.inj e).trans e2)
              · exact hby ((Option.some.inj e).trans e2)

end MergeStep


namespace MergeStep

variable {t s : SeqBPlusTree} {lvl : Nat → Nat} {lo hi : Nat → Int}
  {un ov2 un2 : Option Nat} {p : Nat} {pn pm : Node} {idx : Nat} {X Y Z V : Nat}
  {xn yn zn : Node} {D : Nat → Prop}

/-- The separators of `p` compared by index. -/
theorem psep_mono (st : MergeStep t s lvl lo hi un ov2 un2 p pn pm idx X Y Z V xn yn zn D)
    {i j : Nat} (hij : i ≤ j) (hj : j < pn.size) : pn.sep i ≤ pn.sep j := by
  have hin := st.m_basics.2.1
  by_cases e : i = j
  · rw [e]
  · exact le_of_lt (hin.sep_sorted i j (by omega) hj)

/-- A child of `p` and its place among the nodes of the merge. -/
theorem p_kid (st : MergeStep t s lvl lo hi un ov2 un2 p pn pm idx X Y Z V xn yn zn D)
    {j c : Nat} (hj : j ≤ pn.size) (hk : pn.kid j = some c) :
    ∃ cn, t.heap c = some cn ∧ cn.parent = some p ∧ lvl c + 1 = lvl p ∧
      lo c = lob pn (lo p) j ∧ hi c = hib pn (hi p) j ∧
      (xn.left_sibling = some c → j + 1 = idx) ∧ (yn.right_sibling = some c → j = idx + 2) ∧
      (c = X → j = idx) ∧ (c = Y → j = idx + 1) ∧ ¬ D c := by
  have hg := st.good
  obtain ⟨hty, hin, b1, b2, b3, b4, b5, b6, b7, b8, b9, b10, b11, b12, b13, b14, b15, b16,
    b17, b18, b19, b20⟩ := st.m_basics
  obtain ⟨cn, c1, c2, c3, c4, c5⟩ := hg.kid_live st.hp hj hk
  have hidx := st.hidx
  have rX := hg.range_ne st.hx
  have rY := hg.range_ne st.hy
  have hlob : lob pn (lo p) idx = if idx = 0 then lo p else pn.sep (idx - 1) := rfl
  have hhib : hib pn (hi p) (idx + 1) = if idx + 1 = pn.size then hi p
    else pn.sep (idx + 1) := rfl
  have hhj : hib pn (hi p) j = if j = pn.size then hi p else pn.sep j := rfl
  have hlj : lob pn (lo p) j = if j = 0 then lo p else pn.sep (j - 1) := rfl
  refine ⟨cn, c1, c2, c3, c4, c5, ?_, ?_, ?_, ?_, ?_⟩
  · intro e
    obtain ⟨_, _, _, _, q, _⟩ := st.ls_facts e
    rw [c5, hhj, b10, hlob] at q
    by_cases h1 : j = pn.size
    · rw [if_pos h1] at q
      have := hin.sep_hi idx hidx
      omega
    · rw [if_neg h1] at q
      by_cases h2 : idx = 0
      · rw [if_pos h2] at q
        have := hin.sep_lo j (by omega)
        omega
      · rw [if_neg h2] at q
        rcases Nat.lt_trichotomy j (idx - 1) with h | h | h
        · have := hin.sep_sorted j (idx - 1) h (by omega)
          omega
        · omega
        · have := hin.sep_sorted (idx - 1) j h (by omega)
          omega
  · intro e
    obtain ⟨_, _, _, _, q, _⟩ := st.m_rs_facts e
    rw [c4, hlj, b13, hhib] at q
    by_cases h1 : j = 0
    · rw [if_pos h1] at q
      by_cases h2 : idx + 1 = pn.size
      · rw [if_pos h2] at q
        have := hin.sep_lo idx hidx
        have := hin.sep_hi idx hidx
        omega
      · rw [if_neg h2] at q
        have := hin.sep_lo (idx + 1) (by omega)
        omega
    · rw [if_neg h1] at q
      by_cases h2 : idx + 1 = pn.size
      · rw [if_pos h2] at q
        have := hin.sep_hi (j - 1) (by omega)
        omega
      · rw [if_neg h2] at q
        rcases Nat.lt_trichotomy (j - 1) (idx + 1) with h | h | h
        · have := hin.sep_sorted (j - 1) (idx + 1) h (by omega)
          omega
        · omega
        · have := hin.sep_sorted (idx + 1) (j - 1) h (by omega)
          omega
  · intro e
    rw [e, ← st.hX] at hk
    exact hin.kid_inj j idx hj (by omega) hk
  · intro e
    rw [e, ← st.hY] at hk
    exact hin.kid_inj j (idx + 1) hj (by omega) hk
  · intro hd
    obtain ⟨_, _, _, q, _⟩ := st.m_d_facts hd
    omega

/-- The node `p` keeps the invariant without the separator between the merged children. -/
theorem m_node_p (st : MergeStep t s lvl lo hi un ov2 un2 p pn pm idx X Y Z V xn yn zn D) :
    NodeGood s.heap s.root lvl (Function.update lo Z (lo X)) (Function.update hi Z (hi Y))
      ov2 un2 p pm := by
  have hg := st.good
  obtain ⟨hty, hin, b1, b2, b3, b4, b5, b6, b7, b8, b9, b10, b11, b12, b13, b14, b15, b16,
    b17, b18, b19, b20⟩ := st.m_basics
  have old := hg.nodes p pn st.hp
  have hpm : pm.size + 1 = pn.size := st.psize
  have hidx := st.hidx
  have hlop : Function.update lo Z (lo X) p = lo p := Function.update_noteq (Ne.symm b19) _ _
  have hhip : Function.update hi Z (hi Y) p = hi p := Function.update_noteq (Ne.symm b19) _ _
  have hs4 := (hg.size_le_four st.hp hty).1
  have hs3 : pn.size ≤ 3 := by
    rcases hin.size_le with h | h
    · exact h
    · cases h.2
  -- the child of `pm` at index `j`, with its old index
  have hkid : ∀ j, j ≤ pm.size → j ≠ idx → ∃ j0 c cn, (j0 = if j < idx then j else j + 1) ∧
      j0 ≤ pn.size ∧ pn.kid j0 = some c ∧ pm.kid j = some c ∧ t.heap c = some cn ∧
      c ≠ Z ∧ c ≠ V ∧ c ≠ X ∧ c ≠ Y := by
    intro j hj hne
    have hj0 : (if j < idx then j else j + 1) ≤ pn.size := by
      by_cases h : j < idx
      · rw [if_pos h]; omega
      · rw [if_neg h]; omega
    obtain ⟨c, cn, k1, k2, _⟩ := hin.kids _ hj0
    obtain ⟨_, _, _, _, _, _, _, _, q1, q2, _⟩ := st.p_kid hj0 k1
    have hcx : c ≠ X := by
      intro e
      have := q1 e
      by_cases h : j < idx
      · rw [if_pos h] at this; omega
      · rw [if_neg h] at this; omega
    have hcy : c ≠ Y := by
      intro e
      have := q2 e
      by_cases h : j < idx
      · rw [if_pos h] at this; omega
      · rw [if_neg h] at this; omega
    refine ⟨_, c, cn, rfl, hj0, k1, ?_, k2, ?_, ?_, hcx, hcy⟩
    · rw [st.pkid j hj, ← k1]
      by_cases h : j < idx
      · rw [if_pos h, if_pos h]
      · rw [if_neg h, if_neg hne, if_neg h]
    · rcases b16 with e | e
      · rw [e]; exact hcx
      · rw [e]; exact hcy
    · rcases b17 with e | e
      · rw [e]; exact hcx
      · rw [e]; exact hcy
  constructor
  · intro h
    rw [st.ppar] at h
    rw [st.root_eq]; exact old.is_root h
  · exact st.m_parent_ok st.hp (Ne.symm b20) st.sP
  · rw [st.root_eq]; exact old.lvl_le
  · intro h
    rw [st.pty, hty] at h; cases h
  · intro _
    refine ⟨(old.internal hty).1, ?_⟩
    constructor
    · rw [st.plen]; exact hin.len
    · left; simp only [ORDER]; omega
    · rcases st.psz with h | h
      · left; omega
      · exact Or.inr h
    · intro i j hij hj
      rw [st.psep i (by omega), st.psep j hj]
      by_cases h1 : i < idx
      · rw [if_pos h1]
        by_cases h2 : j < idx
        · rw [if_pos h2]; exact hin.sep_sorted i j hij (by omega)
        · rw [if_neg h2]; exact hin.sep_sorted i (j + 1) (by omega) (by omega)
      · rw [if_neg h1, if_neg (by omega)]
        exact hin.sep_sorted (i + 1) (j + 1) (by omega) (by omega)
    · intro j hj
      rw [hlop, st.psep j hj]
      by_cases h1 : j < idx
      · rw [if_pos h1]; exact hin.sep_lo j (by omega)
      · rw [if_neg h1]; exact hin.sep_lo (j + 1) (by omega)
    · intro j hj
      rw [hhip, st.psep j hj]
      by_cases h1 : j < idx
      · rw [if_pos h1]; exact hin.sep_hi j (by omega)
      · rw [if_neg h1]; exact hin.sep_hi (j + 1) (by omega)
    · intro j hj
      rw [st.psep j hj]
      by_cases h1 : j < idx
      · rw [if_pos h1]; exact hin.sep_max j (by omega)
      · rw [if_neg h1]; exact hin.sep_max (j + 1) (by omega)
    · exact st.pdummy
    · intro j hj
      by_cases hji : j = idx
      · subst hji
        refine ⟨Z, zn, ?_, st.sZ, st.zpar, by omega, ?_, ?_⟩
        · rw [st.pkid j hj, if_neg (by omega), if_pos rfl]
        · rw [Function.update_same, hlop, b10]
          unfold lob
          by_cases h0 : j = 0
          · rw [if_pos h0, if_pos h0]
          · rw [if_neg h0, if_neg h0, st.psep (j - 1) (by omega), if_pos (by omega)]
        · rw [Function.update_same, hhip, b13]
          unfold hib
          by_cases h0 : j = pm.size
          · rw [if_pos h0, if_pos (by omega)]
          · rw [if_neg h0, if_neg (by omega), st.psep j (by omega), if_neg (by omega)]
      · obtain ⟨j0, c, cn, e0, h1, h2, h3, h4, h5, h6, h7, h8⟩ := hkid j hj hji
        obtain ⟨_, q1, q2, q3, q4, q5, _, _, _, _, q10⟩ := st.p_kid h1 h2
        rw [h4] at q1; cases q1
        obtain ⟨dn, d1, d2, d3, d4, d5, _⟩ := st.m_summary h4 h6
        refine ⟨c, dn, h3, d1, by rw [d5 q10]; exact q2, q3, ?_, ?_⟩
        · rw [Function.update_noteq h5, hlop, q4]
          unfold lob
          by_cases hlt : j < idx
          · rw [if_pos hlt] at e0
            subst e0
            by_cases h0 : j0 = 0
            · rw [if_pos h0, if_pos h0]
            · rw [if_neg h0, if_neg h0, st.psep (j0 - 1) (by omega), if_pos (by omega)]
          · rw [if_neg hlt] at e0
            subst e0
            rw [if_neg (by omega), if_neg (by omega), st.psep (j - 1) (by omega),
              if_neg (by omega)]
            congr 1
            omega
        · rw [Function.update_noteq h5, hhip, q5]
          unfold hib
          by_cases hlt : j < idx
          · rw [if_pos hlt] at e0
            subst e0
            rw [if_neg (by omega), if_neg (by omega), st.psep j0 (by omega), if_pos hlt]
          · rw [if_neg hlt] at e0
            subst e0
            by_cases h0 : j = pm.size
            · rw [if_pos (by omega), if_pos h0]
            · rw [if_neg (by omega), if_neg h0, st.psep j (by omega), if_neg hlt]
    · intro i j hi hj hk
      by_cases h1 : i = idx
      · by_cases h2 : j = idx
        · omega
        · exfalso
          obtain ⟨j0, c, cn, e0, k1, k2, k3, k4, k5, k6, k7, k8⟩ := hkid j hj h2
          rw [st.pkid i hi, h1, if_neg (by omega), if_pos rfl, k3] at hk
          exact k5 (Option.some.inj hk).symm
      · by_cases h2 : j = idx
        · exfalso
          obtain ⟨j0, c, cn, e0, k1, k2, k3, k4, k5, k6, k7, k8⟩ := hkid i hi h1
          rw [st.pkid j hj, h2, if_neg (by omega), if_pos rfl, k3] at hk
          exact k5 (Option.some.inj hk)
        · obtain ⟨i0, c, cn, e0, k1, k2, k3, _⟩ := hkid i hi h1
          obtain ⟨j0, c', cn', e0', k1', k2', k3', _⟩ := hkid j hj h2
          rw [k3, k3'] at hk
          have := hin.kid_inj i0 j0 k1 k1' (by rw [k2, k2', hk])
          rw [e0, e0'] at this
          by_cases a1 : i < idx
          · by_cases a2 : j < idx
            · rw [if_pos a1, if_pos a2] at this; exact this
            · rw [if_pos a1, if_neg a2] at this; omega
          · by_cases a2 : j < idx
            · rw [if_neg a1, if_pos a2] at this; omega
            · rw [if_neg a1, if_neg a2] at this; omega
    · intro j hj
      have hXl : leftOf t.heap (some X) = xn.left_sibling := by
        simp only [leftOf, Option.some_bind, st.hx]
      have hYr : rightOf t.heap (some Y) = yn.right_sibling := by
        simp only [rightOf, Option.some_bind, st.hy]
      constructor
      · by_cases hji : j = idx
        · subst hji
          rw [st.pkid j (by omega), if_neg (by omega), if_pos rfl,
            st.pkid (j + 1) (by omega), if_neg (by omega), if_neg (by omega)]
          have hZl : t.heap Z ≠ none := by
            rcases b16 with e | e
            · rw [e, st.hx]; simp
            · rw [e, st.hy]; simp
          cases hz : t.heap Z with
          | none => exact absurd hz hZl
          | some zo =>
            rw [st.rightOf_m hz b18, if_neg, if_pos rfl]
            · have := (hin.sib_in (j + 1) (by omega)).1
              rw [st.hY, hYr] at this
              exact this
            · intro e
              obtain ⟨_, _, _, _, _, q1, q2, _⟩ := st.ls_facts e
              rcases b16 with e | e
              · exact q1 e
              · exact q2 e
        · obtain ⟨j0, c, cn, e0, k1, k2, k3, k4, k5, k6, k7, k8⟩ := hkid j (by omega) hji
          obtain ⟨_, _, _, _, _, _, q1, _⟩ := st.p_kid k1 k2
          rw [k3, st.rightOf_m k4 k6, if_neg k5]
          have hj0 : j0 < pn.size := by
            rw [e0]
            by_cases h : j < idx
            · rw [if_pos h]; omega
            · rw [if_neg h]; omega
          have os := hin.sib_in j0 hj0
          rw [k2] at os
          by_cases hl : xn.left_sibling = some c
          · rw [if_pos hl]
            have := q1 hl
            have hj2 : j + 1 = idx := by
              rw [e0] at this
              by_cases h : j < idx
              · rw [if_pos h] at this; exact this
              · rw [if_neg h] at this; omega
            rw [st.pkid (j + 1) (by omega), if_neg (by omega), if_pos hj2]
          · rw [if_neg hl]
            have o1 := os.1
            simp only [rightOf, Option.some_bind, k4] at o1
            rw [o1, st.pkid (j + 1) (by omega)]
            by_cases h : j + 1 < idx
            · rw [if_pos h]
              rw [e0, if_pos (by omega)]
            · rw [if_neg h]
              by_cases h2 : j + 1 = idx
              · exfalso
                have hj0v : j0 = j := by rw [e0, if_pos (by omega)]
                rw [hj0v] at k2
                have := (hin.sib_in j (by omega)).2
                rw [h2, st.hX, hXl, k2] at this
                exact hl this
              · rw [if_neg h2, e0, if_neg (by omega)]
      · by_cases hji : j + 1 = idx
        · rw [st.pkid (j + 1) (by omega), if_neg (by omega), if_pos hji,
            st.pkid j (by omega), if_pos (by omega)]
          have hZl : t.heap Z ≠ none := by
            rcases b16 with e | e
            · rw [e, st.hx]; simp
            · rw [e, st.hy]; simp
          cases hz : t.heap Z with
          | none => exact absurd hz hZl
          | some zo =>
            rw [st.leftOf_m hz b18, if_neg, if_pos rfl]
            · have := (hin.sib_in j (by omega)).2
              rw [hji, st.hX, hXl] at this
              exact this
            · intro e
              obtain ⟨_, _, _, _, _, q1, q2, _⟩ := st.m_rs_facts e
              rcases b16 with e | e
              · exact q1 e
              · exact q2 e
        · obtain ⟨j0, c, cn, e0, k1, k2, k3, k4, k5, k6, k7, k8⟩ := hkid (j + 1) (by omega) hji
          obtain ⟨_, _, _, _, _, _, _, q1, _⟩ := st.p_kid k1 k2
          rw [k3, st.leftOf_m k4 k6, if_neg k5]
          have hj0 : 0 < j0 := by
            rw [e0]
            by_cases h : j + 1 < idx
            · rw [if_pos h]; omega
            · rw [if_neg h]; omega
          have os := hin.sib_in (j0 - 1) (by omega)
          rw [show j0 - 1 + 1 = j0 by omega, k2] at os
          by_cases hr : yn.right_sibling = some c
          · rw [if_pos hr]
            have := q1 hr
            have hj2 : j = idx := by
              rw [e0] at this
              by_cases h : j + 1 < idx
              · rw [if_pos h] at this; omega
              · rw [if_neg h] at this; omega
            rw [st.pkid j (by omega), if_neg (by omega), if_pos hj2]
          · rw [if_neg hr]
            have o1 := os.2
            simp only [leftOf, Option.some_bind, k4] at o1
            rw [o1, st.pkid j (by omega)]
            by_cases h : j + 1 < idx
            · rw [if_pos (by omega), e0, if_pos h]
              rfl
            · rw [if_neg (by omega)]
              by_cases h2 : j = idx
              · exfalso
                have hj0v : j0 = idx + 2 := by rw [e0, if_neg h, h2]
                rw [hj0v] at k2
                have := (hin.sib_in (idx + 1) (by omega)).1
                rw [st.hY, hYr, k2] at this
                exact hr this
              · rw [if_neg h2, e0, if_neg h]
                rfl
    · have hXl : leftOf t.heap (some X) = xn.left_sibling := by
        simp only [leftOf, Option.some_bind, st.hx]
      have hl : lastKid s.heap pm.left_sibling = lastKid t.heap pn.left_sibling := by
        rw [st.pleft]
        cases hpl : pn.left_sibling with
        | none => rfl
        | some b =>
          obtain ⟨bbn, l1, l2, l3, l4⟩ := hg.left_info _ p pn b rfl st.hp hpl
          apply st.lastKid_m
          · intro e
            have := hg.range_ne st.hp
            rw [Option.some.inj e] at l4
            omega
          · intro e
            rw [Option.some.inj e] at l3
            omega
          · intro e
            rw [Option.some.inj e] at l3
            rcases b17 with e | e
            · rw [e] at l3; omega
            · rw [e] at l3; omega
      rw [hl, ← hin.sib_left, st.pkid 0 (Nat.zero_le _)]
      by_cases h0 : 0 < idx
      · rw [if_pos h0]
        obtain ⟨c, cn, k1, k2, _⟩ := hin.kids 0 (Nat.zero_le _)
        obtain ⟨_, q1, _, _, _, _, _, q7, q8, q9, _⟩ := st.p_kid (Nat.zero_le _) k1
        rw [k2] at q1; cases q1
        have hcV : c ≠ V := by
          rcases b17 with e | e
          · rw [e]; intro e2; have := q8 e2; omega
          · rw [e]; intro e2; have := q9 e2; omega
        have hcZ : c ≠ Z := by
          rcases b16 with e | e
          · rw [e]; intro e2; have := q8 e2; omega
          · rw [e]; intro e2; have := q9 e2; omega
        rw [k1, st.leftOf_m k2 hcV, if_neg (fun e => by have := q7 e; omega), if_neg hcZ]
        simp only [leftOf, Option.some_bind, k2]
      · rw [if_neg h0, if_pos (by omega)]
        have hZl : t.heap Z ≠ none := by
          rcases b16 with e | e
          · rw [e, st.hx]; simp
          · rw [e, st.hy]; simp
        cases hz : t.heap Z with
        | none => exact absurd hz hZl
        | some zo =>
          rw [st.leftOf_m hz b18, if_neg, if_pos rfl]
          · rw [show 0 = idx by omega, st.hX, hXl]
          · intro e
            obtain ⟨_, _, _, _, _, q1, q2, _⟩ := st.m_rs_facts e
            rcases b16 with e | e
            · exact q1 e
            · exact q2 e
    · have hYr : rightOf t.heap (some Y) = yn.right_sibling := by
        simp only [rightOf, Option.some_bind, st.hy]
      have hr : firstKid s.heap pm.right_sibling = firstKid t.heap pn.right_sibling := by
        rw [st.pright]
        cases hpl : pn.right_sibling with
        | none => rfl
        | some b =>
          obtain ⟨bbn, l1, l2, l3, l4⟩ := hg.right_info _ p pn b rfl st.hp hpl
          apply st.firstKid_m
          · intro e
            have := hg.range_ne st.hp
            rw [Option.some.inj e] at l4
            omega
          · intro e
            rw [Option.some.inj e] at l3
            omega
          · intro e
            rw [Option.some.inj e] at l3
            rcases b17 with e | e
            · rw [e] at l3; omega
            · rw [e] at l3; omega
      rw [hr, ← hin.sib_right, st.pkid pm.size (le_refl _)]
      by_cases h0 : pm.size = idx
      · rw [if_neg (by omega), if_pos h0]
        have hZl : t.heap Z ≠ none := by
          rcases b16 with e | e
          · rw [e, st.hx]; simp
          · rw [e, st.hy]; simp
        cases hz : t.heap Z with
        | none => exact absurd hz hZl
        | some zo =>
          rw [st.rightOf_m hz b18, if_neg, if_pos rfl]
          · rw [show pn.size = idx + 1 by omega, st.hY, hYr]
          · intro e
            obtain ⟨_, _, _, _, _, q1, q2, _⟩ := st.ls_facts e
            rcases b16 with e | e
            · exact q1 e
            · exact q2 e
      · rw [if_neg (by omega), if_neg h0, hpm]
        obtain ⟨c, cn, k1, k2, _⟩ := hin.kids pn.size (le_refl _)
        obtain ⟨_, q1, _, _, _, _, q6, _, q8, q9, _⟩ := st.p_kid (le_refl _) k1
        rw [k2] at q1; cases q1
        have hcV : c ≠ V := by
          rcases b17 with e | e
          · rw [e]; intro e2; have := q8 e2; omega
          · rw [e]; intro e2; have := q9 e2; omega
        have hcZ : c ≠ Z := by
          rcases b16 with e | e
          · rw [e]; intro e2; have := q8 e2; omega
          · rw [e]; intro e2; have := q9 e2; omega
        rw [k1, st.rightOf_m k2 hcV, if_neg (fun e => by have := q6 e; omega), if_neg hcZ]
        simp only [rightOf, Option.some_bind, k2]

end MergeStep


namespace MergeStep

variable {t s : SeqBPlusTree} {lvl : Nat → Nat} {lo hi : Nat → Int}
  {un ov2 un2 : Option Nat} {p : Nat} {pn pm : Node} {idx : Nat} {X Y Z V : Nat}
  {xn yn zn : Node} {D : Nat → Prop}

/-- A node one level below the merged nodes keeps its sibling pointers and its bounds. -/
theorem low (st : MergeStep t s lvl lo hi un ov2 un2 p pn pm idx X Y Z V xn yn zn D)
    {c : Nat} {cn : Node} (hc : t.heap c = some cn) (hl : lvl c + 1 = lvl X) :
    c ≠ Z ∧ c ≠ V ∧ leftOf s.heap (some c) = leftOf t.heap (some c) ∧
    rightOf s.heap (some c) = rightOf t.heap (some c) := by
  obtain ⟨hty, hin, b1, b2, b3, b4, b5, b6, b7, b8, b9, b10, b11, b12, b13, b14, b15, b16,
    b17, b18, b19, b20⟩ := st.m_basics
  have hcZ : c ≠ Z := by intro e; rw [e] at hl; omega
  have hcV : c ≠ V := by
    intro e
    rcases b17 with e2 | e2
    · rw [e, e2] at hl; omega
    · rw [e, e2] at hl; omega
  refine ⟨hcZ, hcV, ?_, ?_⟩
  · rw [st.leftOf_m hc hcV, if_neg, if_neg hcZ]
    · simp only [leftOf, Option.some_bind, hc]
    · intro e
      obtain ⟨_, _, _, q, _⟩ := st.m_rs_facts e
      omega
  · rw [st.rightOf_m hc hcV, if_neg, if_neg hcZ]
    · simp only [rightOf, Option.some_bind, hc]
    · intro e
      obtain ⟨_, _, _, q, _⟩ := st.ls_facts e
      omega

/-- The survivor of a merge of two internal nodes keeps the invariant. -/
theorem z_internal (st : MergeStep t s lvl lo hi un ov2 un2 p pn pm idx X Y Z V xn yn zn D)
    (hxty : xn.type = NodeType.INTERNAL) :
    InternalGood s.heap lvl (Function.update lo Z (lo X)) (Function.update hi Z (hi Y))
      ov2 un2 Z zn := by
  have hg := st.good
  obtain ⟨hty, hin, b1, b2, b3, b4, b5, b6, b7, b8, b9, b10, b11, b12, b13, b14, b15, b16,
    b17, b18, b19, b20⟩ := st.m_basics
  have hyty : yn.type = NodeType.INTERNAL := b14.trans hxty
  have ox := hg.internal_good st.hx hxty
  have oy := hg.internal_good st.hy hyty
  have hzs := st.zsize hxty
  have rX := hg.range_ne st.hx
  have rY := hg.range_ne st.hy
  have hidx := st.hidx
  have hsep : ∀ j, j < zn.size → zn.sep j = if j < xn.size then xn.sep j
      else if j = xn.size then pn.sep idx else yn.sep (j - xn.size - 1) := st.zsep hxty
  have hxlt : ∀ j, j < xn.size → xn.sep j < pn.sep idx := by
    intro j hj; rw [← b11]; exact ox.sep_hi j hj
  have hylt : ∀ j, j < yn.size → pn.sep idx < yn.sep j := by
    intro j hj; rw [← b12]; exact oy.sep_lo j hj
  -- the children of the survivor
  have hkx : ∀ j, j ≤ xn.size → ∃ c cn dn, zn.kid j = some c ∧ xn.kid j = some c ∧
      t.heap c = some cn ∧ s.heap c = some dn ∧ dn.parent = some Z ∧ lvl c + 1 = lvl X ∧
      lo c = lob xn (lo X) j ∧ hi c = hib xn (hi X) j := by
    intro j hj
    obtain ⟨c, cn, k1, k2, k3, k4, k5, k6⟩ := ox.kids j hj
    obtain ⟨l1, l2, _⟩ := st.low k2 k4
    obtain ⟨dn, d1, d2, d3, d4, d5, d6, _⟩ := st.m_summary k2 l2
    refine ⟨c, cn, dn, by rw [(st.zkid_x hxty hj).2]; exact k1, k1, k2, d1, ?_, k4, k5, k6⟩
    by_cases hd : D c
    · exact d6 hd
    · rw [d5 hd, k3]
      rcases b16 with e | e
      · rw [e]
      · exfalso
        rcases b17 with e2 | e2
        · rw [← e2] at k3
          exact hd (st.hD c cn k2 k3)
        · exact b18 (e.trans e2.symm)
  have hky : ∀ j, j ≤ yn.size → ∃ c cn dn, zn.kid (j + xn.size + 1) = some c ∧
      yn.kid j = some c ∧
      t.heap c = some cn ∧ s.heap c = some dn ∧ dn.parent = some Z ∧ lvl c + 1 = lvl X ∧
      lo c = lob yn (lo Y) j ∧ hi c = hib yn (hi Y) j := by
    intro j hj
    obtain ⟨c, cn, k1, k2, k3, k4, k5, k6⟩ := oy.kids j hj
    obtain ⟨l1, l2, _⟩ := st.low k2 (by omega)
    obtain ⟨dn, d1, d2, d3, d4, d5, d6, _⟩ := st.m_summary k2 l2
    refine ⟨c, cn, dn, by rw [(st.zkid_y hxty hj).2]; exact k1, k1, k2, d1, ?_, by omega,
      k5, k6⟩
    by_cases hd : D c
    · exact d6 hd
    · rw [d5 hd, k3]
      rcases b16 with e | e
      · exfalso
        rcases b17 with e2 | e2
        · exact b18 (e.trans e2.symm)
        · rw [← e2] at k3
          exact hd (st.hD c cn k2 k3)
      · rw [e]
  constructor
  · exact st.zlen hxty
  · exact st.zsz_le hxty
  · left; omega
  · intro i j hij hj
    rw [hsep i (by omega), hsep j hj]
    by_cases h1 : i < xn.size
    · rw [if_pos h1]
      by_cases h2 : j < xn.size
      · rw [if_pos h2]; exact ox.sep_sorted i j hij h2
      · rw [if_neg h2]
        by_cases h3 : j = xn.size
        · rw [if_pos h3]; exact hxlt i h1
        · rw [if_neg h3]
          have := hxlt i h1
          have := hylt (j - xn.size - 1) (by omega)
          omega
    · rw [if_neg h1, if_neg (show ¬ j < xn.size by omega),
        if_neg (show ¬ j = xn.size by omega)]
      by_cases h3 : i = xn.size
      · rw [if_pos h3]; exact hylt _ (by omega)
      · rw [if_neg h3]; exact oy.sep_sorted _ _ (by omega) (by omega)
  · intro j hj
    rw [Function.update_same, hsep j hj]
    by_cases h1 : j < xn.size
    · rw [if_pos h1]; exact ox.sep_lo j h1
    · rw [if_neg h1]
      by_cases h3 : j = xn.size
      · rw [if_pos h3]; omega
      · rw [if_neg h3]
        have := hylt (j - xn.size - 1) (by omega)
        omega
  · intro j hj
    rw [Function.update_same, hsep j hj]
    by_cases h1 : j < xn.size
    · rw [if_pos h1]
      have := hxlt j h1
      omega
    · rw [if_neg h1]
      by_cases h3 : j = xn.size
      · rw [if_pos h3]; omega
      · rw [if_neg h3]; exact oy.sep_hi _ (by omega)
  · intro j hj
    rw [hsep j hj]
    by_cases h1 : j < xn.size
    · rw [if_pos h1]; exact ox.sep_max j h1
    · rw [if_neg h1]
      by_cases h3 : j = xn.size
      · rw [if_pos h3]; exact hin.sep_max idx hidx
      · rw [if_neg h3]; exact oy.sep_max _ (by omega)
  · exact st.zdummy hxty
  · intro j hj
    by_cases h1 : j ≤ xn.size
    · obtain ⟨c, cn, dn, k1, k2, k3, k4, k5, k6, k7, k8⟩ := hkx j h1
      obtain ⟨l1, _⟩ := st.low k3 k6
      refine ⟨c, dn, k1, k4, k5, by omega, ?_, ?_⟩
      · rw [Function.update_noteq l1, Function.update_same, k7]
        unfold lob
        by_cases h0 : j = 0
        · rw [if_pos h0, if_pos h0]
        · rw [if_neg h0, if_neg h0, hsep (j - 1) (by omega),
            if_pos (show j - 1 < xn.size by omega)]
      · rw [Function.update_noteq l1, Function.update_same, k8]
        unfold hib
        rw [if_neg (show ¬ j = zn.size by omega), hsep j (by omega)]
        by_cases h0 : j = xn.size
        · rw [if_pos h0, if_neg (show ¬ j < xn.size by omega), if_pos h0]; exact b11
        · rw [if_neg h0, if_pos (show j < xn.size by omega)]
    · obtain ⟨c, cn, dn, k1, k2, k3, k4, k5, k6, k7, k8⟩ := hky (j - xn.size - 1) (by omega)
      rw [show j - xn.size - 1 + xn.size + 1 = j by omega] at k1
      obtain ⟨l1, _⟩ := st.low k3 k6
      refine ⟨c, dn, k1, k4, k5, by omega, ?_, ?_⟩
      · rw [Function.update_noteq l1, Function.update_same, k7]
        unfold lob
        rw [if_neg (show ¬ j = 0 by omega), hsep (j - 1) (by omega),
          if_neg (show ¬ j - 1 < xn.size by omega)]
        by_cases h0 : j - xn.size - 1 = 0
        · rw [if_pos h0, if_pos (show j - 1 = xn.size by omega)]; exact b12
        · rw [if_neg h0, if_neg (show ¬ j - 1 = xn.size by omega)]
          congr 1
          omega
      · rw [Function.update_noteq l1, Function.update_same, k8]
        unfold hib
        by_cases h0 : j = zn.size
        · rw [if_pos h0, if_pos (show j - xn.size - 1 = yn.size by omega)]
        · rw [if_neg h0, if_neg (show ¬ j - xn.size - 1 = yn.size by omega),
            hsep j (by omega), if_neg (show ¬ j < xn.size by omega),
            if_neg (show ¬ j = xn.size by omega)]
  · intro i j hi hj hk
    by_cases h1 : i ≤ xn.size
    · obtain ⟨c, cn, dn, k1, k2, k3, k4, k5, k6, k7, k8⟩ := hkx i h1
      by_cases h2 : j ≤ xn.size
      · obtain ⟨c', cn', dn', k1', k2', _⟩ := hkx j h2
        exact ox.kid_inj i j h1 h2 (by rw [k2, k2', ← k1, ← k1', hk])
      · exfalso
        obtain ⟨c', cn', dn', k1', k2', k3', _⟩ := hky (j - xn.size - 1) (by omega)
        rw [show j - xn.size - 1 + xn.size + 1 = j by omega] at k1'
        rw [k1, k1'] at hk
        cases hk
        have e1 := (hg.kid_parent st.hx h1 k2 k3).1
        have e2 := (hg.kid_parent st.hy (by omega) k2' k3).1
        rw [e1] at e2
        exact b5 (Option.some.inj e2)
    · obtain ⟨c, cn, dn, k1, k2, k3, _⟩ := hky (i - xn.size - 1) (by omega)
      rw [show i - xn.size - 1 + xn.size + 1 = i by omega] at k1
      by_cases h2 : j ≤ xn.size
      · exfalso
        obtain ⟨c', cn', dn', k1', k2', k3', _⟩ := hkx j h2
        rw [k1, k1'] at hk
        cases hk
        have e1 := (hg.kid_parent st.hx h2 k2' k3).1
        have e2 := (hg.kid_parent st.hy (by omega) k2 k3).1
        rw [e1] at e2
        exact b5 (Option.some.inj e2)
      · obtain ⟨c', cn', dn', k1', k2', _⟩ := hky (j - xn.size - 1) (by omega)
        rw [show j - xn.size - 1 + xn.size + 1 = j by omega] at k1'
        have := oy.kid_inj (i - xn.size - 1) (j - xn.size - 1) (by omega) (by omega)
          (by rw [k2, k2', ← k1, ← k1', hk])
        omega
  · intro j hj
    have hR : ∀ i, i ≤ zn.size → ∃ c cn, zn.kid i = some c ∧ t.heap c = some cn ∧
        lvl c + 1 = lvl X := by
      intro i hi
      by_cases h1 : i ≤ xn.size
      · obtain ⟨c, cn, dn, k1, k2, k3, k4, k5, k6, _⟩ := hkx i h1
        exact ⟨c, cn, k1, k3, k6⟩
      · obtain ⟨c, cn, dn, k1, k2, k3, k4, k5, k6, _⟩ := hky (i - xn.size - 1) (by omega)
        rw [show i - xn.size - 1 + xn.size + 1 = i by omega] at k1
        exact ⟨c, cn, k1, k3, k6⟩
    obtain ⟨c, cn, k1, k2, k3⟩ := hR j (by omega)
    obtain ⟨c', cn', k1', k2', k3'⟩ := hR (j + 1) (by omega)
    rw [k1, k1', (st.low k2 k3).2.2.2, (st.low k2' k3').2.2.1, ← k1, ← k1']
    by_cases h1 : j < xn.size
    · rw [(st.zkid_x hxty (le_of_lt h1)).2, (st.zkid_x hxty (show j + 1 ≤ xn.size from h1)).2]
      exact ox.sib_in j h1
    · by_cases h2 : j = xn.size
      · have e1 := (st.zkid_x hxty (show j ≤ xn.size by omega)).2
        have e2 := (st.zkid_y hxty (Nat.zero_le yn.size)).2
        rw [show 0 + xn.size + 1 = j + 1 by omega] at e2
        rw [e1, e2, h2]
        have o1 := ox.sib_right
        have o2 := oy.sib_left
        rw [b8] at o1
        rw [b9] at o2
        simp only [firstKid, lastKid, Option.some_bind, st.hx, st.hy] at o1 o2
        exact ⟨o1, o2⟩
      · have e1 := (st.zkid_y hxty (show j - xn.size - 1 ≤ yn.size by omega)).2
        have e2 := (st.zkid_y hxty (show j - xn.size - 1 + 1 ≤ yn.size by omega)).2
        rw [show j - xn.size - 1 + xn.size + 1 = j by omega] at e1
        rw [show j - xn.size - 1 + 1 + xn.size + 1 = j + 1 by omega] at e2
        rw [e1, e2]
        exact oy.sib_in (j - xn.size - 1) (by omega)
  · obtain ⟨c, cn, dn, k1, k2, k3, k4, k5, k6, _⟩ := hkx 0 (Nat.zero_le _)
    rw [k1, (st.low k3 k6).2.2.1, ← k2, ox.sib_left, st.zleft]
    cases hl : xn.left_sibling with
    | none => rfl
    | some l =>
      obtain ⟨lsn, q1, q2, q3, q4, q5, q6, q7, _⟩ := st.ls_facts hl
      apply (st.lastKid_m (some l) _ _ _).symm
      · intro e; exact q7 (Option.some.inj e)
      · intro e
        rcases b16 with e2 | e2
        · exact q5 ((Option.some.inj e).trans e2)
        · exact q6 ((Option.some.inj e).trans e2)
      · intro e
        rcases b17 with e2 | e2
        · exact q5 ((Option.some.inj e).trans e2)
        · exact q6 ((Option.some.inj e).trans e2)
  · obtain ⟨c, cn, dn, k1, k2, k3, k4, k5, k6, _⟩ := hky yn.size (le_refl _)
    rw [show yn.size + xn.size + 1 = zn.size by omega] at k1
    rw [k1, (st.low k3 k6).2.2.2, ← k2, oy.sib_right, st.zright]
    cases hl : yn.right_sibling with
    | none => rfl
    | some l =>
      obtain ⟨lsn, q1, q2, q3, q4, q5, q6, q7, _⟩ := st.m_rs_facts hl
      apply (st.firstKid_m (some l) _ _ _).symm
      · intro e; exact q7 (Option.some.inj e)
      · intro e
        rcases b16 with e2 | e2
        · exact q5 ((Option.some.inj e).trans e2)
        · exact q6 ((Option.some.inj e).trans e2)
      · intro e
        rcases b17 with e2 | e2
        · exact q5 ((Option.some.inj e).trans e2)
        · exact q6 ((Option.some.inj e).trans e2)

end MergeStep


namespace MergeStep

variable {t s : SeqBPlusTree} {lvl : Nat → Nat} {lo hi : Nat → Int}
  {un ov2 un2 : Option Nat} {p : Nat} {pn pm : Node} {idx : Nat} {X Y Z V : Nat}
  {xn yn zn : Node} {D : Nat → Prop}

/-- The survivor of the merge keeps the invariant, with the bounds of both nodes. -/
theorem node_Z (st : MergeStep t s lvl lo hi un ov2 un2 p pn pm idx X Y Z V xn yn zn D) :
    NodeGood s.heap s.root lvl (Function.update lo Z (lo X)) (Function.update hi Z (hi Y))
      ov2 un2 Z zn := by
  have hg := st.good
  obtain ⟨hty, hin, b1, b2, b3, b4, b5, b6, b7, b8, b9, b10, b11, b12, b13, b14, b15, b16,
    b17, b18, b19, b20⟩ := st.m_basics
  have oldx := hg.nodes X xn st.hx
  have hZl : ∃ zo, t.heap Z = some zo := by
    rcases b16 with e | e
    · rw [e]; exact ⟨xn, st.hx⟩
    · rw [e]; exact ⟨yn, st.hy⟩
  obtain ⟨zo, hz⟩ := hZl
  constructor
  · intro h
    rw [st.zpar] at h; cases h
  · exact st.m_parent_ok hz b18 st.sZ
  · rw [st.root_eq, b15]; exact oldx.lvl_le
  · intro h
    rw [st.zty] at h
    rw [Function.update_same, Function.update_same, b15, st.root_eq]
    exact st.zleaf h
  · intro h
    rw [st.zty] at h
    refine ⟨?_, st.z_internal h⟩
    rw [b15]
    exact (oldx.internal h).1

/-- A merge of two neighbouring children keeps the invariant. -/
theorem m_good_after (st : MergeStep t s lvl lo hi un ov2 un2 p pn pm idx X Y Z V xn yn zn D) :
    Good s lvl (Function.update lo Z (lo X)) (Function.update hi Z (hi Y)) ov2 un2 := by
  have hg := st.good
  obtain ⟨hty, hin, b1, b2, b3, b4, b5, b6, b7, b8, b9, b10, b11, b12, b13, b14, b15, b16,
    b17, b18, b19, b20⟩ := st.m_basics
  have hrp := (hg.nodes p pn st.hp).lvl_le
  have hrZ : t.root ≠ Z := by intro e; rw [e] at hrp; omega
  have hrV : t.root ≠ V := by
    intro e
    rcases b17 with e2 | e2
    · rw [e, e2] at hrp; omega
    · rw [e, e2] at hrp; omega
  constructor
  · intro a ha
    rw [st.next_eq] at ha
    exact st.m_dead (hg.fresh a ha)
  · obtain ⟨rn, r1, r2, r3, r4⟩ := hg.root_live
    obtain ⟨bn, g1, g2, g3, g4, g5, g6, _⟩ := st.m_summary r1 hrV
    have hnd : ¬ D t.root := by
      intro hd
      obtain ⟨xn, x1, x2, _⟩ := st.sD _ hd
      rw [r1] at x1; cases x1
      rw [r2] at x2; cases x2
    have h1 : yn.right_sibling ≠ some t.root := by
      intro e
      obtain ⟨_, q1, q2, _⟩ := st.m_rs_facts e
      rw [r1] at q1; cases q1
      rw [r3] at q2; cases q2
    have h2 : xn.left_sibling ≠ some t.root := by
      intro e
      obtain ⟨_, q1, q2, _⟩ := st.ls_facts e
      rw [r1] at q1; cases q1
      rw [r4] at q2; cases q2
    rw [st.root_eq]
    refine ⟨bn, g1, by rw [g5 hnd]; exact r2, ?_, ?_⟩
    · rw [g3, if_neg h1, if_neg hrZ]; exact r3
    · rw [g4, if_neg h2, if_neg hrZ]; exact r4
  · rw [st.root_eq, st.depth_eq]; exact hg.root_lvl
  · rw [st.root_eq, Function.update_noteq hrZ]; exact hg.root_lo
  · rw [st.root_eq, Function.update_noteq hrZ]; exact hg.root_hi
  · rw [st.root_eq, st.next_eq]; exact hg.fuel_ok
  · intro a bn hb
    obtain ⟨an, ha, haV⟩ := st.m_live_back hb
    by_cases hap : a = p
    · subst hap
      rw [st.sP] at hb; cases hb
      exact st.m_node_p
    by_cases haZ : a = Z
    · subst haZ
      rw [st.sZ] at hb; cases hb
      exact st.node_Z
    exact st.m_node_other ha hb hap haZ haV

end MergeStep


namespace MergeStep

variable {t s : SeqBPlusTree} {lvl : Nat → Nat} {lo hi : Nat → Int}
  {un ov2 un2 : Option Nat} {p : Nat} {pn pm : Node} {idx : Nat} {X Y Z V : Nat}
  {xn yn zn : Node} {D : Nat → Prop}

/-- A merge of two leaves keeps the stored pairs when the survivor holds the pairs of
both. -/
theorem m_stored_leaf (st : MergeStep t s lvl lo hi un ov2 un2 p pn pm idx X Y Z V xn yn zn D)
    (hmem : ∀ kv, kv ∈ zn.entries ↔ (kv ∈ xn.entries ∨ kv ∈ yn.entries))
    (hty : xn.type = NodeType.LEAF) (kv : KeyValuePair) : s.Stored kv ↔ t.Stored kv := by
  obtain ⟨hpty, hin, b1, b2, b3, b4, b5, b6, b7, b8, b9, b10, b11, b12, b13, b14, b15, b16,
    b17, b18, b19, b20⟩ := st.m_basics
  have hty2 : yn.type = NodeType.LEAF := b14.trans hty
  constructor
  · rintro ⟨a, n, h1, h2, h3⟩
    obtain ⟨an, ha, haV⟩ := st.m_live_back h1
    by_cases e1 : a = Z
    · subst e1
      rw [st.sZ] at h1; cases h1
      rcases (hmem kv).1 h3 with h | h
      · exact ⟨X, xn, st.hx, hty, h⟩
      · exact ⟨Y, yn, st.hy, hty2, h⟩
    by_cases e2 : a = p
    · subst e2
      rw [st.sP] at h1; cases h1
      rw [st.pty, hpty] at h2; cases h2
    obtain ⟨bn, g1, g2, g3, g4, g5, g6, g7⟩ := st.m_summary ha haV
    rw [h1] at g1; cases g1
    obtain ⟨x1, x2, x3⟩ := g7 e2 e1
    exact ⟨a, an, ha, by rw [← g2]; exact h2, by
      simp only [Node.entries] at h3 ⊢
      rw [← x1, ← x3]; exact h3⟩
  · rintro ⟨a, n, h1, h2, h3⟩
    by_cases e1 : a = X
    · subst e1
      rw [st.hx] at h1; cases h1
      exact ⟨Z, zn, st.sZ, st.zty.trans hty, (hmem kv).2 (Or.inl h3)⟩
    by_cases e2 : a = Y
    · subst e2
      rw [st.hy] at h1; cases h1
      exact ⟨Z, zn, st.sZ, st.zty.trans hty, (hmem kv).2 (Or.inr h3)⟩
    have haV : a ≠ V := by
      rcases b17 with e | e
      · rw [e]; exact e1
      · rw [e]; exact e2
    have haZ : a ≠ Z := by
      rcases b16 with e | e
      · rw [e]; exact e1
      · rw [e]; exact e2
    have hap : a ≠ p := by
      intro e
      rw [e, st.hp] at h1; cases h1
      rw [hpty] at h2; cases h2
    obtain ⟨bn, g1, g2, g3, g4, g5, g6, g7⟩ := st.m_summary h1 haV
    obtain ⟨x1, x2, x3⟩ := g7 hap haZ
    exact ⟨a, bn, g1, by rw [g2]; exact h2, by
      simp only [Node.entries] at h3 ⊢
      rw [x1, x3]; exact h3⟩

/-- A merge of two internal nodes leaves the leaves as they are. -/
theorem m_leaf_same (st : MergeStep t s lvl lo hi un ov2 un2 p pn pm idx X Y Z V xn yn zn D)
    (hty : xn.type = NodeType.INTERNAL) : LeafSame t.heap s.heap := by
  have hg := st.good
  obtain ⟨hpty, hin, b1, b2, b3, b4, b5, b6, b7, b8, b9, b10, b11, b12, b13, b14, b15, b16,
    b17, b18, b19, b20⟩ := st.m_basics
  have hty2 : yn.type = NodeType.INTERNAL := b14.trans hty
  intro a
  cases ha : t.heap a with
  | none => rw [st.m_dead ha]
  | some an =>
    by_cases haV : a = V
    · rw [haV, st.sV]
      have : an.type = NodeType.INTERNAL := by
        rcases b17 with e | e
        · rw [haV, e, st.hx] at ha; cases ha; exact hty
        · rw [haV, e, st.hy] at ha; cases ha; exact hty2
      simp [Node.leafView, this]
    obtain ⟨bn, g1, g2, g3, g4, g5, g6, g7⟩ := st.m_summary ha haV
    rw [g1]
    simp only [Option.some_bind, Node.leafView, g2]
    by_cases hl : an.type = NodeType.LEAF
    · have haZ : a ≠ Z := by
        intro e
        rcases b16 with e2 | e2
        · rw [e, e2, st.hx] at ha; cases ha; rw [hty] at hl; cases hl
        · rw [e, e2, st.hy] at ha; cases ha; rw [hty2] at hl; cases hl
      have hap : a ≠ p := by
        intro e; rw [e, st.hp] at ha; cases ha; rw [hpty] at hl; cases hl
      have h1 : yn.right_sibling ≠ some a := by
        intro e
        obtain ⟨rsn, q1, q2, q3, _⟩ := st.m_rs_facts e
        have := hg.type_of_lvl q1 st.hx q3
        rw [ha] at q1; cases q1
        rw [hl, hty] at this; cases this
      have h2 : xn.left_sibling ≠ some a := by
        intro e
        obtain ⟨rsn, q1, q2, q3, _⟩ := st.ls_facts e
        have := hg.type_of_lvl q1 st.hx q3
        rw [ha] at q1; cases q1
        rw [hl, hty] at this; cases this
      obtain ⟨x1, x2, x3⟩ := g7 hap haZ
      rw [g3, g4, if_neg h1, if_neg h2, if_neg haZ, if_neg haZ]
      simp only [Node.entries, x1, x3]
    · rw [if_neg hl, if_neg hl]

end MergeStep

/-- The count of nodes plays no part in the invariant. -/
theorem Good.with_count {t : SeqBPlusTree} {lvl : Nat → Nat} {lo hi : Nat → Int}
    {ov un : Option Nat} (hg : Good t lvl lo hi ov un) (k : Int) :
    Good { t with node_count := k } lvl lo hi ov un :=
  ⟨hg.fresh, hg.root_live, hg.root_lvl, hg.root_lo, hg.root_hi, hg.fuel_ok, hg.nodes⟩

/-- The array after the shift loop `for (i = lo; i < hi; ++i) a[i] = a[i+1]`. -/
def shifted {α : Type} (a : List α) (lo hi : Nat) : List α :=
  if hi ≤ lo then a else a.take lo ++ (a.drop (lo + 1)).take (hi - lo) ++ a.drop hi

theorem arr_shift_eq {α : Type} (a : List α) (lo hi : Nat) (h : hi ≤ lo ∨ hi < a.length) :
    arr_shift a lo hi = some (shifted a lo hi) := by
  unfold arr_shift shifted
  by_cases h1 : hi ≤ lo
  · rw [if_pos h1, if_pos h1]
  · rw [if_neg h1, if_neg h1, if_pos (by omega)]

theorem shifted_length {α : Type} (a : List α) (lo hi : Nat) (h : hi < a.length) :
    (shifted a lo hi).length = a.length := by
  unfold shifted
  by_cases h1 : hi ≤ lo
  · rw [if_pos h1]
  · rw [if_neg h1]
    simp only [List.length_append, List.length_take, List.length_drop]
    omega

theorem shifted_get {α : Type} (a : List α) (lo hi : Nat) (h : hi < a.length) (hl : lo < hi)
    (j : Nat) :
    (shifted a lo hi)[j]? = if j < lo then a[j]? else if j < hi then a[j + 1]? else a[j]? := by
  unfold shifted
  rw [if_neg (by omega)]
  have l1 : (a.take lo).length = lo := by simp only [List.length_take]; omega
  have l2 : ((a.drop (lo + 1)).take (hi - lo)).length = hi - lo := by
    simp only [List.length_take, List.length_drop]; omega
  by_cases h1 : j < lo
  · rw [if_pos h1, List.append_assoc, List.getElem?_append_left (by omega),
      List.getElem?_take, if_pos h1]
  · rw [if_neg h1]
    by_cases h2 : j < hi
    · rw [if_pos h2, List.getElem?_append_left (by
        simp only [List.length_append, l1, l2]; omega),
        List.getElem?_append_right (by omega), l1, List.getElem?_take,
        if_pos (by omega), List.getElem?_drop]
      congr 1
      omega
    · rw [if_neg h2, List.getElem?_append_right (by
        simp only [List.length_append, l1, l2]; omega)]
      simp only [List.length_append, l1, l2, List.getElem?_drop]
      congr 1
      omega

/-- The node after the removal of its slot `c`: the shift loop and `size--`. -/
def Node.drop_slot (n : Node) (c : Nat) : Node :=
  { n with key_ref := shifted n.key_ref c n.size, size := n.size - 1 }

theorem Node.drop_slot_kid (n : Node) (c : Nat) (hc : c < n.size) (hs : n.size < n.key_ref.length)
    (j : Nat) (hj : j < n.size) :
    (n.drop_slot c).kid j = if j < c then n.kid j else n.kid (j + 1) := by
  simp only [Node.kid, Node.drop_slot, List.get?_eq_getElem?, shifted_get _ _ _ hs hc, if_pos hj]
  by_cases h : j < c
  · rw [if_pos h, if_pos h]
  · rw [if_neg h, if_neg h]

theorem Node.drop_slot_sep (n : Node) (c : Nat) (hc : c < n.size) (hs : n.size < n.key_ref.length)
    (j : Nat) (hj : j < n.size) :
    (n.drop_slot c).sep j = if j < c then n.sep j else n.sep (j + 1) := by
  simp only [Node.sep, Node.drop_slot, List.get?_eq_getElem?, shifted_get _ _ _ hs hc, if_pos hj]
  by_cases h : j < c
  · rw [if_pos h, if_pos h]
  · rw [if_neg h, if_neg h]


/-- A leaf with new entries. -/
def Node.with_entries (n : Node) (kv : List KeyValuePair) (sz : Nat) : Node :=
  { n with key_value := kv, size := sz }

/-- A node with a new right sibling. -/
def Node.with_right (n : Node) (r : Option Nat) : Node := { n with right_sibling := r }

/-- A node with a new left sibling. -/
def Node.with_left (n : Node) (l : Option Nat) : Node := { n with left_sibling := l }

/-- Evaluation of a sequence of statements goes from the outside to the inside: the
continuation is left alone until its argument is known. -/
@[congr] theorem Option.seqBind_congr {α β : Type} {o o2 : Option α} (f : α → Option β)
    (h : o = o2) : o.seqBind f = o2.seqBind f := by rw [h]

theorem Option.some_seqBind {α β : Type} (a : α) (f : α → Option β) :
    (some a).seqBind f = f a := rfl

theorem Option.none_seqBind {α β : Type} (f : α → Option β) :
    (none : Option α).seqBind f = none := rfl

namespace SeqBPlusTree

/-- The end of the two merge functions: the node is freed, and the parent is repaired when it
became deficient. -/
def finish_merge (bmi : SeqBPlusTree → Nat → Option SeqBPlusTree) (t5 : SeqBPlusTree)
    (x p : Nat) : Option SeqBPlusTree :=
  (((({ t5 with node_count := t5.node_count - 1 } : SeqBPlusTree).free x).heap p).bind
    fun pn => if pn.isDeficient then
      bmi (({ t5 with node_count := t5.node_count - 1 } : SeqBPlusTree).free x) p
    else some (({ t5 with node_count := t5.node_count - 1 } : SeqBPlusTree).free x))

/-- The state of `merge_leaf` to the left at its walk to the separator. -/
def merge_left_cut (t : SeqBPlusTree) (_x L p c : Nat) (cn ln pn : Node) (kv : List KeyValuePair) :
    SeqBPlusTree :=
  relink (((t.set L (ln.with_entries kv (ln.size + cn.size))).set p (pn.drop_slot c)).set L
    ((ln.with_entries kv (ln.size + cn.size)).with_right cn.right_sibling)) cn.right_sibling L

set_option maxHeartbeats 1000000 in
theorem merge_leaf_left_eq (bmi : SeqBPlusTree → Nat → Option SeqBPlusTree)
    {t : SeqBPlusTree} {x L p c : Nat} {cn ln pn : Node} {kr : KeyReferencePair}
    (hx : t.heap x = some cn) (hL : t.heap L = some ln) (hp : t.heap p = some pn)
    (hcp : cn.parent = some p) (hxL : x ≠ L) (hxp : x ≠ p) (hLp : L ≠ p)
    (hslot : get_key_ref_pair_from_parent t.heap (some x) = some (p, c))
    (hfind : (pn.key_ref.take (pn.size + 1)).findIdx
      (fun kr => decide (kr.reference = some x)) = c)
    (hkr : pn.key_ref.get? c = some kr) (hps : 0 < pn.size)
    (hsh : pn.size ≤ c ∨ pn.size < pn.key_ref.length)
    {a b c0 d x0 y z w : KeyValuePair}
    (hlk : ln.key_value = [a, b, c0, d]) (hlsz : ln.size = 2)
    (hck : cn.key_value = [x0, y, z, w]) (hcsz : cn.size = 1)
    (hrs : ∀ rs, cn.right_sibling = some rs → rs ≠ x ∧ rs ≠ L ∧ rs ≠ p ∧ t.heap rs ≠ none) :
    merge_leaf_with bmi t x L true =
      (((ancestor_walk (merge_left_cut t x L p c cn ln pn [a, b, x0, d]).heap t.fuel (some p)
          ln.parent L).bind (fun last => get_key_ref_pair_from_parent
            (merge_left_cut t x L p c cn ln pn [a, b, x0, d]).heap (some last))).bind
        (fun aslot =>
          if INT_MAX = kr.key then
            set_slot_key (merge_left_cut t x L p c cn ln pn [a, b, x0, d]) aslot INT_MAX
          else cn.right_sibling.bind fun rs =>
            ((merge_left_cut t x L p c cn ln pn [a, b, x0, d]).heap rs).bind fun rn =>
            (rn.key_value.get? 0).bind fun e0 =>
            set_slot_key (merge_left_cut t x L p c cn ln pn [a, b, x0, d]) aslot e0.key)).bind
        (fun t5 => finish_merge bmi t5 x p) := by
  have hsd : size_dec pn.size = some (pn.size - 1) := by
    unfold size_dec; rw [if_pos hps]
  have hblit : arr_blit [a, b, c0, d] 2 (List.take 1 [x0, y, z, w]) = some [a, b, x0, d] := rfl
  simp only [merge_leaf_with]
  simp only [hx, Option.some_seqBind, if_true, hslot, hp, hkr,
    hL, hlk, hlsz, hck, hcsz, hblit, hcp, set_heap, Function.update_noteq (Ne.symm hLp),
    parent_remove_slot, hfind, arr_shift_eq _ _ _ hsh, hsd, Option.map_some',
    Function.update_noteq hxp, Function.update_noteq hxL, upd, Function.update_same,
    Function.update_noteq hLp]
  cases hr : cn.right_sibling with
  | none =>
    simp only [Option.some_seqBind, set_heap, Function.update_same, merge_left_cut, relink,
      Node.with_entries, Node.with_right, Node.drop_slot, hlsz, hcsz, hr]
    simp only [Option.seqBind_eq, fuel, set_next, decide_eq_true_eq, finish_merge,
      Option.bind_assoc]
  | some rs =>
    obtain ⟨h1, h2, h3, h4⟩ := hrs rs hr
    cases hn : t.heap rs with
    | none => exact absurd hn h4
    | some rsn =>
      simp only [Option.some_seqBind, set_heap, Function.update_same, merge_left_cut, relink,
        Node.with_entries, Node.with_right, Node.drop_slot, hlsz, hcsz, hr,
        Function.update_noteq h2, Function.update_noteq h3, hn, Option.map_some',
        Function.update_noteq (Ne.symm h2)]
      simp only [Option.seqBind_eq, fuel, set_next, decide_eq_true_eq, finish_merge,
        Option.bind_assoc, Option.some_bind, Function.update_same]

end SeqBPlusTree


theorem Node.left_eta (n : Node) {a : Option Nat} (h : n.left_sibling = a) :
    ({ n with left_sibling := a } : Node) = n := by
  cases n; simp only at h; subst h; rfl

theorem Node.right_eta (n : Node) {a : Option Nat} (h : n.right_sibling = a) :
    ({ n with right_sibling := a } : Node) = n := by
  cases n; simp only at h; subst h; rfl

namespace Good

variable {t : SeqBPlusTree} {lvl : Nat → Nat} {lo hi : Nat → Int} {ov un : Option Nat}

/-- The slot of a node in its parent, as the code looks it up. -/
theorem slot_of (hg : Good t lvl lo hi ov un) {x p : Nat} {cn : Node}
    (hx : t.heap x = some cn) (hp : cn.parent = some p) :
    ∃ pn c kr, t.heap p = some pn ∧ pn.type = NodeType.INTERNAL ∧ c ≤ pn.size ∧
      pn.kid c = some x ∧ lvl x + 1 = lvl p ∧ pn.size ≤ 4 ∧ pn.key_ref.length = 5 ∧
      SeqBPlusTree.get_key_ref_pair_from_parent t.heap (some x) = some (p, c) ∧
      (pn.key_ref.take (pn.size + 1)).findIdx (fun kr => decide (kr.reference = some x)) = c ∧
      pn.key_ref.get? c = some kr ∧ kr.key = pn.sep c := by
  obtain ⟨pn, c, hpn, hty, hc, hk, hl, _⟩ := hg.parent_info hx hp
  have hin := hg.internal_good hpn hty
  obtain ⟨s1, s2⟩ := hg.size_le_four hpn hty
  have hinj : ∀ j, j < c → pn.kid j ≠ some x := by
    intro j hj e
    have := hin.kid_inj j c (by omega) hc (e.trans hk.symm)
    omega
  have hlt : c < pn.key_ref.length := by omega
  refine ⟨pn, c, pn.key_ref[c], hpn, hty, hc, hk, hl, s1, s2,
    slot_lookup t.heap hx hp hpn hc (by omega) hk hinj,
    (pn.slot_of_kid c x hc (by omega) hk hinj).2, ?_, ?_⟩
  · rw [List.get?_eq_getElem?, List.getElem?_eq_getElem hlt]
  · simp only [Node.sep, List.get?_eq_getElem?, List.getElem?_eq_getElem hlt, Option.map_some',
      Option.getD_some]

/-- Facts about a leaf that holds two entries. -/
theorem leaf_two (hg : Good t lvl lo hi ov un) {L : Nat} {ln : Node}
    (hL : t.heap L = some ln) (hty : ln.type = NodeType.LEAF) (hsz : ln.size = 2) :
    ∃ a b c d, ln.key_value = [a, b, c, d] ∧ lo L ≤ a.key ∧ a.key < b.key ∧ b.key < hi L := by
  have hl := hg.leaf_good hL hty
  obtain ⟨a, b, c, d, he⟩ := SeqBPlusTree.list_len4 ln.key_value hl.len
  have hs := hl.sorted
  have hr := hl.range
  simp only [Node.keys, Node.entries, he, hsz, List.take, List.map_cons, List.map_nil,
    List.pairwise_cons, List.mem_cons, List.mem_singleton, forall_eq_or_imp, forall_eq,
    List.not_mem_nil, IsEmpty.forall_iff, implies_true, List.Pairwise.nil, and_true,
    List.mem_nil_iff, false_implies] at hs hr
  exact ⟨a, b, c, d, he, by omega, by omega, by omega⟩

end Good


namespace SeqBPlusTree

theorem merge_left_cut_heap (t : SeqBPlusTree) (x L p c : Nat) (cn ln pn : Node)
    (kv : List KeyValuePair) (hLp : L ≠ p)
    (hrs : ∀ rs, cn.right_sibling = some rs → rs ≠ L ∧ rs ≠ p) (a : Nat) :
    (merge_left_cut t x L p c cn ln pn kv).heap a =
      if cn.right_sibling = some a then (t.heap a).map (fun n => n.with_left (some L))
      else if a = L then
        some ((ln.with_entries kv (ln.size + cn.size)).with_right cn.right_sibling)
      else if a = p then some (pn.drop_slot c) else t.heap a := by
  unfold merge_left_cut
  rw [relink_heap]
  by_cases h : cn.right_sibling = some a
  · obtain ⟨h1, h2⟩ := hrs a h
    rw [if_pos h, if_pos h]
    simp only [set_heap, Function.update_noteq h1, Function.update_noteq h2]
    rfl
  · rw [if_neg h, if_neg h]
    by_cases h1 : a = L
    · subst h1
      simp only [set_heap, Function.update_same, if_true]
    · rw [if_neg h1]
      by_cases h2 : a = p
      · subst h2
        simp only [set_heap, Function.update_noteq h1, Function.update_same, if_true]
      · rw [if_neg h2]
        simp only [set_heap, Function.update_noteq h1, Function.update_noteq h2]

@[simp] theorem merge_left_cut_next (t : SeqBPlusTree) (x L p c : Nat) (cn ln pn : Node)
    (kv : List KeyValuePair) : (merge_left_cut t x L p c cn ln pn kv).next = t.next := by
  unfold merge_left_cut; simp

@[simp] theorem merge_left_cut_root (t : SeqBPlusTree) (x L p c : Nat) (cn ln pn : Node)
    (kv : List KeyValuePair) : (merge_left_cut t x L p c cn ln pn kv).root = t.root := by
  unfold merge_left_cut; simp

@[simp] theorem merge_left_cut_depth (t : SeqBPlusTree) (x L p c : Nat) (cn ln pn : Node)
    (kv : List KeyValuePair) : (merge_left_cut t x L p c cn ln pn kv).depth = t.depth := by
  unfold merge_left_cut; simp

end SeqBPlusTree


namespace SeqBPlusTree

/-- The state after a merge has set the separator and freed the node. -/
def merge_done (t4 : SeqBPlusTree) (A : Nat) (An : Node) (x : Nat) : SeqBPlusTree :=
  ({ (t4.set A An) with node_count := (t4.set A An).node_count - 1 } : SeqBPlusTree).free x

theorem merge_done_heap (t4 : SeqBPlusTree) (A : Nat) (An : Node) (x a : Nat) :
    (merge_done t4 A An x).heap a =
      if a = x then none else if a = A then some An else t4.heap a := by
  unfold merge_done free
  by_cases h : a = x
  · subst h; simp
  · rw [if_neg h]
    by_cases h2 : a = A
    · subst h2; simp [Function.update_noteq h]
    · simp [Function.update_noteq h, Function.update_noteq h2, if_neg h2]

@[simp] theorem merge_done_next (t4 : SeqBPlusTree) (A : Nat) (An : Node) (x : Nat) :
    (merge_done t4 A An x).next = t4.next := rfl

@[simp] theorem merge_done_root (t4 : SeqBPlusTree) (A : Nat) (An : Node) (x : Nat) :
    (merge_done t4 A An x).root = t4.root := rfl

@[simp] theorem merge_done_depth (t4 : SeqBPlusTree) (A : Nat) (An : Node) (x : Nat) :
    (merge_done t4 A An x).depth = t4.depth := rfl

theorem finish_merge_eq (bmi : SeqBPlusTree → Nat → Option SeqBPlusTree) (t4 : SeqBPlusTree)
    (A : Nat) (An : Node) (x p : Nat) {pm : Node}
    (hp : (merge_done t4 A An x).heap p = some pm) :
    finish_merge bmi (t4.set A An) x p =
      if pm.isDeficient then bmi (merge_done t4 A An x) p else some (merge_done t4 A An x) := by
  unfold finish_merge
  rw [show (({ (t4.set A An) with node_count := (t4.set A An).node_count - 1 } :
    SeqBPlusTree).free x) = merge_done t4 A An x from rfl, hp]
  rfl

end SeqBPlusTree

namespace Good

variable {t : SeqBPlusTree} {lvl : Nat → Nat} {lo hi : Nat → Int} {ov un : Option Nat}

/-- The neighbours of a deficient leaf that has a left sibling. -/
theorem merge_left_facts {x L p : Nat} {cn ln pn : Node}
    (hg : Good t lvl lo hi none (some x))
    (hx : t.heap x = some cn) (hcty : cn.type = NodeType.LEAF)
    (hl : cn.left_sibling = some L) (hL : t.heap L = some ln)
    (hcp : cn.parent = some p) (hp : t.heap p = some pn) :
    ln.type = NodeType.LEAF ∧ ln.right_sibling = some x ∧ lvl L = lvl x ∧ hi L = lo x ∧
    x ≠ L ∧ x ≠ p ∧ L ≠ p ∧ pn.type = NodeType.INTERNAL ∧ 1 ≤ pn.size ∧ pn.size ≤ 3 ∧
    pn.key_ref.length = 5 ∧ lvl x + 1 = lvl p ∧
    (∀ rs, cn.right_sibling = some rs → ∃ rsn, t.heap rs = some rsn ∧
      rsn.left_sibling = some x ∧ rsn.type = NodeType.LEAF ∧ lvl rs = lvl x ∧ lo rs = hi x ∧
      rs ≠ x ∧ rs ≠ L ∧ rs ≠ p) := by
  obtain ⟨ln2, l1, l2, l3, l4⟩ := hg.left_info _ x cn L rfl hx hl
  rw [hL] at l1; cases l1
  have hlty : ln.type = NodeType.LEAF := (hg.type_of_lvl hL hx l3).trans hcty
  obtain ⟨pn2, c, kr, q1, q2, q3, q4, q5, q6, q7, _⟩ := hg.slot_of hx hcp
  rw [hp] at q1; cases q1
  have hin := hg.internal_good hp q2
  have rx := hg.range_ne hx
  have rL := hg.range_ne hL
  have hxL : x ≠ L := by intro e; rw [e] at l4; omega
  have hxp : x ≠ p := by intro e; rw [e] at q5; omega
  have hLp : L ≠ p := by intro e; rw [e] at l3; omega
  have hs1 : 1 ≤ pn.size := by
    rcases hin.size_ge with h | h
    · exact h
    · exact absurd (Option.some.inj h) hxp
  have hs3 : pn.size ≤ 3 := by
    rcases hin.size_le with h | h
    · exact h
    · cases h.2
  refine ⟨hlty, l2, l3, l4, hxL, hxp, hLp, q2, hs1, hs3, q7, q5, ?_⟩
  intro rs hr
  obtain ⟨rsn, r1, r2, r3, r4⟩ := hg.right_info _ x cn rs rfl hx hr
  have rr := hg.range_ne r1
  refine ⟨rsn, r1, r2, (hg.type_of_lvl r1 hx r3).trans hcty, r3, r4, ?_, ?_, ?_⟩
  · intro e; rw [e] at r4; omega
  · intro e; rw [e] at r4; omega
  · intro e; rw [e] at r3; omega

end Good


/-- What a leaf merge leaves behind, at the point where `merge_leaf` looks at the parent: the
leaf `x` is released and counted out, no other node is created or released, the sibling `S`
holds the entries of both leaves, the sibling chain is closed over `x`, and the parent has
lost the slot `c` of `x` and kept the order of the others. -/
structure LeafMerged (t s : SeqBPlusTree) (x S : Nat) (cn sn pn pm : Node) (c : Nat)
    (toLeft : Bool) : Prop where
  gone : s.heap x = none
  count : s.node_count = t.node_count - 1
  others : ∀ a, a ≠ x → ((s.heap a).isSome = (t.heap a).isSome)
  merged : ∃ sm, s.heap S = some sm ∧ sm.type = NodeType.LEAF ∧
    sm.entries = (if toLeft then sn.entries ++ cn.entries else cn.entries ++ sn.entries) ∧
    sm.left_sibling = (if toLeft then sn.left_sibling else cn.left_sibling) ∧
    sm.right_sibling = (if toLeft then cn.right_sibling else sn.right_sibling)
  back : toLeft = true → ∀ r, cn.right_sibling = some r →
    ∃ rm, s.heap r = some rm ∧ rm.left_sibling = some S
  slot : c ≤ pn.size ∧ pn.kid c = some x
  kids : ∀ j, j ≤ pm.size → pm.kid j = if j < c then pn.kid j else pn.kid (j + 1)

namespace Good

variable {t : SeqBPlusTree} {lvl : Nat → Nat} {lo hi : Nat → Int} {ov un : Option Nat}

/-- The function `merge_leaf` to the left when the deficient leaf is the last child of its
parent: the left sibling takes its entry, the parent loses its last child, and the invariant
holds up to the size of the parent. -/
theorem merge_leaf_last {x L p : Nat} {cn ln pn : Node}
    (hg : Good t lvl lo hi none (some x))
    (hx : t.heap x = some cn) (hcty : cn.type = NodeType.LEAF) (hcsz : cn.size = 1)
    (hl : cn.left_sibling = some L) (hL : t.heap L = some ln) (hlsz : ln.size = 2)
    (hcp : cn.parent = some p) (hp : t.heap p = some pn) (hlast : pn.kid pn.size = some x) :
    ∃ s pm lo2 hi2, (∀ bmi, SeqBPlusTree.merge_leaf_with bmi t x L true =
        (if pm.isDeficient then bmi s p else some s)) ∧
      s.heap p = some pm ∧ pm.type = NodeType.INTERNAL ∧ pm.size + 1 = pn.size ∧
      pm.parent = pn.parent ∧
      Good s lvl lo2 hi2 none (if pm.size = 0 then some p else none) ∧
      (∀ kv, s.Stored kv ↔ t.Stored kv) ∧ s.root = t.root ∧ s.depth = t.depth ∧
      s.next = t.next ∧ LeafMerged t s x L cn ln pn pm pn.size true := by
  obtain ⟨hlty, l2, l3, l4, hxL, hxp, hLp, hpty, hs1, hs3, hlen, hlv, hrs⟩ :=
    hg.merge_left_facts hx hcty hl hL hcp hp
  obtain ⟨pn2, c, kr, q1, q2, q3, q4, q5, q6, q7, hslot, hfind, hkr, hkrk⟩ := hg.slot_of hx hcp
  rw [hp] at q1; cases q1
  have hin := hg.internal_good hp hpty
  have hc : c = pn.size := hin.kid_inj c pn.size q3 (le_refl _) (q4.trans hlast.symm)
  subst hc
  obtain ⟨c1, c2, c1n, c2n, a1, a2, a3, a4, a5, adj⟩ :=
    hg.adj_slot hp hpty (show pn.size - 1 < pn.size by omega)
  rw [show pn.size - 1 + 1 = pn.size by omega] at a2
  rw [hlast] at a2; cases a2
  rw [hx] at a4; cases a4
  obtain ⟨_, r1, r2, _⟩ := hg.right_info _ c1 c1n x rfl a3 a5
  rw [hx] at r1; cases r1
  rw [hl] at r2; cases r2
  rw [hL] at a3; cases a3
  obtain ⟨a, b, c0, d, hlk, k1, k2, k3⟩ := hg.leaf_two hL hlty hlsz
  obtain ⟨x0, y, z, w, hck, k5, k6⟩ := hg.leaf_one hx hcty hcsz
  have hlc := hg.leaf_good hx hcty
  have hll := hg.leaf_good hL hlty
  have hrs2 : ∀ rs, cn.right_sibling = some rs → rs ≠ x ∧ rs ≠ L ∧ rs ≠ p ∧
      t.heap rs ≠ none := by
    intro rs h
    obtain ⟨rsn, e1, _, _, _, _, e6, e7, e8⟩ := hrs rs h
    exact ⟨e6, e7, e8, by rw [e1]; simp⟩
  have hT4 := SeqBPlusTree.merge_left_cut_heap t x L p pn.size cn ln pn [a, b, x0, d] hLp
    (fun rs h => ⟨(hrs2 rs h).2.1, (hrs2 rs h).2.2.1⟩)
  have hT4p : (SeqBPlusTree.merge_left_cut t x L p pn.size cn ln pn [a, b, x0, d]).heap p =
      some (pn.drop_slot pn.size) := by
    rw [hT4, if_neg (fun h => (hrs2 p h).2.2.1 rfl), if_neg (Ne.symm hLp), if_pos rfl]
  have hT4L : (SeqBPlusTree.merge_left_cut t x L p pn.size cn ln pn [a, b, x0, d]).heap L =
      some ((ln.with_entries [a, b, x0, d] (ln.size + cn.size)).with_right
        cn.right_sibling) := by
    rw [hT4, if_neg (fun h => (hrs2 L h).2.1 rfl), if_pos rfl]
  have hT4x : (SeqBPlusTree.merge_left_cut t x L p pn.size cn ln pn [a, b, x0, d]).heap x =
      some cn := by
    rw [hT4, if_neg (fun h => (hrs2 x h).1 rfl), if_neg hxL, if_neg hxp, hx]
  have hkeep : (pn.drop_slot pn.size).key_ref = pn.key_ref := by
    simp only [Node.drop_slot, shifted, le_refl, if_true]
  have hfs := adj.find_slot hg
    (SeqBPlusTree.merge_left_cut t x L p pn.size cn ln pn [a, b, x0, d]).heap
    (by
      intro b n hb
      rw [hT4]
      by_cases e1 : cn.right_sibling = some b
      · rw [if_pos e1, hb]; exact ⟨_, rfl, rfl⟩
      · rw [if_neg e1]
        by_cases e2 : b = L
        · subst e2; rw [hL] at hb; cases hb
          rw [if_pos rfl]; exact ⟨_, rfl, rfl⟩
        · rw [if_neg e2]
          by_cases e3 : b = p
          · subst e3; rw [hp] at hb; cases hb
            rw [if_pos rfl]; exact ⟨_, rfl, rfl⟩
          · rw [if_neg e3]; exact ⟨n, hb, rfl⟩)
    hT4p (le_refl _)
    (by rw [hkeep]; show pn.size - 1 < pn.key_ref.length; omega)
    (fun j _ => by simp only [Node.kid, hkeep])
    hT4L hT4x
  rw [hcp] at hfs
  have hkk : INT_MAX = kr.key := by rw [hkrk, hin.dummy]
  have hfs2 : (SeqBPlusTree.ancestor_walk
      (SeqBPlusTree.merge_left_cut t x L p pn.size cn ln pn [a, b, x0, d]).heap t.fuel (some p)
      ln.parent L).bind (fun last => SeqBPlusTree.get_key_ref_pair_from_parent
        (SeqBPlusTree.merge_left_cut t x L p pn.size cn ln pn [a, b, x0, d]).heap
        (some last)) = some (p, pn.size - 1) := hfs
  have hsp : (SeqBPlusTree.merge_done
      (SeqBPlusTree.merge_left_cut t x L p pn.size cn ln pn [a, b, x0, d]) p
      ((pn.drop_slot pn.size).set_sep (pn.size - 1) INT_MAX) x).heap p =
      some ((pn.drop_slot pn.size).set_sep (pn.size - 1) INT_MAX) := by
    rw [SeqBPlusTree.merge_done_heap, if_neg (Ne.symm hxp), if_pos rfl]
  have hsh : ∀ u, (SeqBPlusTree.merge_done
      (SeqBPlusTree.merge_left_cut t x L p pn.size cn ln pn [a, b, x0, d]) p
      ((pn.drop_slot pn.size).set_sep (pn.size - 1) INT_MAX) x).heap u =
      if u = x then none else if u = p then
        some ((pn.drop_slot pn.size).set_sep (pn.size - 1) INT_MAX)
      else if cn.right_sibling = some u then (t.heap u).map (fun n => n.with_left (some L))
      else if u = L then
        some ((ln.with_entries [a, b, x0, d] (ln.size + cn.size)).with_right
          cn.right_sibling)
      else t.heap u := by
    intro u
    rw [SeqBPlusTree.merge_done_heap, hT4]
    by_cases e1 : u = x
    · rw [if_pos e1, if_pos e1]
    · rw [if_neg e1, if_neg e1]
      by_cases e2 : u = p
      · rw [if_pos e2, if_pos e2]
      · rw [if_neg e2, if_neg e2, if_neg e2]
  have hlen2 : pn.size - 1 < (pn.drop_slot pn.size).key_ref.length := by rw [hkeep]; omega
  have st : MergeStep t (SeqBPlusTree.merge_done
      (SeqBPlusTree.merge_left_cut t x L p pn.size cn ln pn [a, b, x0, d]) p
      ((pn.drop_slot pn.size).set_sep (pn.size - 1) INT_MAX) x) lvl lo hi (some x) none
      (if ((pn.drop_slot pn.size).set_sep (pn.size - 1) INT_MAX).size = 0 then some p else none)
      p pn ((pn.drop_slot pn.size).set_sep (pn.size - 1) INT_MAX) (pn.size - 1) L x L x ln cn
      ((ln.with_entries [a, b, x0, d] (ln.size + cn.size)).with_right cn.right_sibling)
      (fun _ => False) := by
    refine {
      good := hg
      hp := hp
      hidx := by omega
      hX := a1
      hY := by rw [show pn.size - 1 + 1 = pn.size by omega]; exact hlast
      hx := hL
      hy := hx
      hZ := Or.inl ⟨rfl, rfl⟩
      hun := fun b h => Or.inr (Or.inl (Option.some.inj h).symm)
      psz := ?_
      root_eq := by simp
      next_eq := by simp
      depth_eq := by simp
      sV := by rw [hsh, if_pos rfl]
      sZ := by
        rw [hsh, if_neg (Ne.symm hxL), if_neg hLp, if_neg (fun h => (hrs2 L h).2.1 rfl),
          if_pos rfl]
      sP := hsp
      sL := ?_
      sR := ?_
      sD := fun d h => h.elim
      sO := ?_
      hD := ?_
      pty := rfl
      ppar := rfl
      pleft := rfl
      pright := rfl
      plen := by rw [(Node.set_sep_fields _ _ _).2.2.2.2.2.2, hkeep]
      psize := by show pn.size - 1 + 1 = pn.size; omega
      psep := ?_
      pdummy := Node.set_sep_same _ _ _ hlen2
      pkid := ?_
      zty := rfl
      zpar := by
        show ln.parent = some p
        exact (hg.kid_parent hp (by omega) a1 hL).1
      zleft := rfl
      zright := rfl
      zleaf := ?_
      zlen := fun h => by rw [hlty] at h; cases h
      zsize := fun h => by rw [hlty] at h; cases h
      zsz_le := fun h => by rw [hlty] at h; cases h
      zsep := fun h => by rw [hlty] at h; cases h
      zdummy := fun h => by rw [hlty] at h; cases h
      zkid := fun h => by rw [hlty] at h; cases h }
    · by_cases h : 2 ≤ pn.size
      · exact Or.inl h
      · right
        rw [if_pos]
        show pn.size - 1 = 0
        omega
    · intro l hl2
      obtain ⟨lsn, g1, g2, g3, g4⟩ := hg.left_info _ L ln l rfl hL hl2
      have rl := hg.range_ne g1
      have rL := hg.range_ne hL
      have rx := hg.range_ne hx
      have e1 : l ≠ x := by intro e; rw [e] at g4; omega
      have e2 : l ≠ p := by intro e; rw [e] at g3; omega
      have e3 : l ≠ L := by intro e; rw [e] at g4; omega
      have e4 : cn.right_sibling ≠ some l := by
        intro e
        obtain ⟨_, _, _, _, _, e5, _⟩ := hrs l e
        omega
      refine ⟨lsn, g1, ?_⟩
      rw [hsh, if_neg e1, if_neg e2, if_neg e4, if_neg e3, g1, Node.right_eta lsn g2]
    · intro r hr
      obtain ⟨rsn, e1, e2, e3, e4, e5, e6, e7, e8⟩ := hrs r hr
      refine ⟨rsn, e1, ?_⟩
      rw [hsh, if_neg e6, if_neg e8, if_pos hr, e1]
      rfl
    · intro a h1 h2 h3 _ h5 _
      rw [hsh, if_neg h3, if_neg h1, if_neg h5, if_neg h2]
    · intro d dn hd hdp
      obtain ⟨vn, j, v1, v2, _⟩ := hg.parent_info hd hdp
      rw [hx] at v1; cases v1
      rw [hcty] at v2; cases v2
    · intro j hj
      have hj : j < pn.size - 1 := hj
      rw [Node.set_sep_ne _ _ _ _ (by omega), if_pos hj]
      simp only [Node.sep, hkeep]
    · intro j hj
      have hj : j ≤ pn.size - 1 := hj
      rw [Node.set_sep_kid]
      by_cases h : j < pn.size - 1
      · rw [if_pos h]; simp only [Node.kid, hkeep]
      · rw [if_neg h, if_pos (by omega), ← a1, show j = pn.size - 1 by omega]
        simp only [Node.kid, hkeep]
    · intro _
      constructor
      · exact hll.lvl0
      · simp [Node.with_entries, Node.with_right]
      · exact hll.noref
      · left; show ln.size + cn.size ≤ ORDER - 1; rw [hlsz, hcsz]; decide
      · right; left; show ORDER / 2 ≤ ln.size + cn.size; rw [hlsz, hcsz]; decide
      · simp only [Node.keys, Node.entries, Node.with_entries, Node.with_right, hlsz, hcsz,
          List.take, List.map_cons, List.map_nil,
          List.pairwise_cons, List.mem_cons, List.mem_singleton, forall_eq_or_imp, forall_eq,
          List.not_mem_nil, IsEmpty.forall_iff, implies_true, List.Pairwise.nil, and_true,
          List.mem_nil_iff, false_implies]
        omega
      · simp only [Node.keys, Node.entries, Node.with_entries, Node.with_right, hlsz, hcsz,
          List.take, List.map_cons, List.map_nil,
          List.mem_cons, List.mem_singleton, forall_eq_or_imp, forall_eq, List.not_mem_nil,
          IsEmpty.forall_iff, implies_true, and_true, List.mem_nil_iff, false_implies]
        omega
  refine ⟨_, _, _, _, ?_, hsp, hpty, by show pn.size - 1 + 1 = pn.size; omega, rfl,
    st.m_good_after, ?_, by simp, by simp, by simp, ?_⟩
  · intro bmi
    have heq := SeqBPlusTree.merge_leaf_left_eq bmi hx hL hp hcp hxL hxp hLp hslot hfind hkr
      hs1 (Or.inl (le_refl _)) hlk hlsz hck hcsz hrs2
    rw [hfs2, Option.some_bind, if_pos hkk, set_slot_key_eq _ (pn.size - 1) INT_MAX hT4p
      (by rw [hkeep]; omega), Option.some_bind] at heq
    rw [SeqBPlusTree.finish_merge_eq bmi _ p _ x p hsp] at heq
    exact heq
  · intro kv
    apply st.m_stored_leaf _ hlty
    intro kv
    simp only [Node.entries, Node.with_entries, Node.with_right, hlk, hck, hlsz, hcsz,
      List.take, List.mem_cons, List.mem_singleton, List.not_mem_nil, List.mem_nil_iff,
      or_false]
    tauto
  · constructor
    · rw [hsh, if_pos rfl]
    · simp [SeqBPlusTree.merge_done, SeqBPlusTree.merge_left_cut, SeqBPlusTree.free,
        SeqBPlusTree.set, SeqBPlusTree.relink_node_count]
    · intro u hu
      rw [hsh, if_neg hu]
      by_cases e2 : u = p
      · rw [if_pos e2, e2, hp]; rfl
      · rw [if_neg e2]
        by_cases e3 : cn.right_sibling = some u
        · rw [if_pos e3]; cases t.heap u <;> rfl
        · rw [if_neg e3]
          by_cases e4 : u = L
          · rw [if_pos e4, e4, hL]; rfl
          · rw [if_neg e4]
    · refine ⟨(ln.with_entries [a, b, x0, d] (ln.size + cn.size)).with_right cn.right_sibling,
        ?_, hlty, ?_, rfl, rfl⟩
      · rw [hsh, if_neg (Ne.symm hxL), if_neg hLp, if_neg (fun h => (hrs2 L h).2.1 rfl),
          if_pos rfl]
      · simp [Node.entries, Node.with_entries, Node.with_right, hlk, hck, hlsz, hcsz]
    · intro _ r hr
      obtain ⟨rsn, e1, e2, e3, e4, e5, e6, e7, e8⟩ := hrs r hr
      refine ⟨rsn.with_left (some L), ?_, rfl⟩
      rw [hsh, if_neg e6, if_neg e8, if_pos hr, e1]
      rfl
    · exact ⟨le_refl _, hlast⟩
    · intro j hj
      have hj : j ≤ pn.size - 1 := hj
      rw [if_pos (by omega), Node.set_sep_kid]
      simp only [Node.kid, hkeep]

end Good


/-- The invariant of a leaf reads its entries, its size and nothing else of the node. -/
theorem LeafGood.congr {root : Nat} {ov un : Option Nat} {a : Nat} {n n2 : Node} {lv : Nat}
    {lo hi : Int} (h : LeafGood root ov un a n lv lo hi) (h1 : n2.key_value = n.key_value)
    (h2 : n2.size = n.size) (h3 : n2.key_ref = n.key_ref) :
    LeafGood root ov un a n2 lv lo hi := by
  have hk : n2.keys = n.keys := by simp only [Node.keys, Node.entries, h1, h2]
  exact ⟨h.lvl0, by rw [h1]; exact h.len, by rw [h3]; exact h.noref, by rw [h2]; exact h.size_le,
    by rw [h2]; exact h.size_ge, by rw [hk]; exact h.sorted, by rw [hk]; exact h.range⟩

/-- A leaf within bounds is within every wider or tighter pair of bounds that holds its
keys. -/
theorem LeafGood.rebound {root : Nat} {ov un ov2 un2 : Option Nat} {a : Nat} {n : Node}
    {lv : Nat} {lo hi lo2 hi2 : Int} (h : LeafGood root ov un a n lv lo hi)
    (hr : ∀ k ∈ n.keys, lo2 ≤ k ∧ k < hi2)
    (hov : ov = some a → ov2 = some a) (hun : un = some a → un2 = some a) :
    LeafGood root ov2 un2 a n lv lo2 hi2 := by
  refine ⟨h.lvl0, h.len, h.noref, ?_, ?_, h.sorted, hr⟩
  · rcases h.size_le with h1 | h1
    · exact Or.inl h1
    · exact Or.inr ⟨h1.1, hov h1.2⟩
  · rcases h.size_ge with h1 | h1 | h1
    · exact Or.inl h1
    · exact Or.inr (Or.inl h1)
    · exact Or.inr (Or.inr ⟨h1.1, hun h1.2⟩)

/-- The first key of a leaf is the least of its keys. -/
theorem LeafGood.first_key {root : Nat} {ov un : Option Nat} {a : Nat} {n : Node} {lv : Nat}
    {lo hi : Int} (h : LeafGood root ov un a n lv lo hi) (hs : 0 < n.size) :
    ∃ e, n.key_value.get? 0 = some e ∧ lo ≤ e.key ∧ e.key < hi ∧
      (∀ k ∈ n.keys, e.key ≤ k) ∧ (2 ≤ n.size → e.key < INT_MAX ∨ INT_MAX + 1 < hi) := by
  obtain ⟨e0, e1, e2, e3, he⟩ := SeqBPlusTree.list_len4 n.key_value h.len
  have hs2 := h.sorted
  have hr := h.range
  have hk : n.keys = e0.key :: ((n.key_value.take n.size).tail.map (fun kv => kv.key)) := by
    simp only [Node.keys, Node.entries, he]
    cases hn : n.size with
    | zero => omega
    | succ m => simp
  rw [hk] at hs2 hr
  rw [List.pairwise_cons] at hs2
  refine ⟨e0, by rw [he]; rfl, (hr e0.key (by simp)).1, (hr e0.key (by simp)).2, ?_, ?_⟩
  · intro k hkm
    rw [hk] at hkm
    rcases List.mem_cons.1 hkm with e | e
    · rw [e]
    · exact le_of_lt (hs2.1 k e)
  · intro h2
    have : ∃ k, k ∈ (n.key_value.take n.size).tail.map (fun kv => kv.key) := by
      rw [he]
      cases hn : n.size with
      | zero => omega
      | succ m =>
        cases m with
        | zero => omega
        | succ m => exact ⟨e1.key, by simp⟩
    obtain ⟨k, hkm⟩ := this
    have h3 := hs2.1 k hkm
    have h4 := (hr k (List.mem_cons_of_mem _ hkm)).2
    by_cases h5 : e0.key < INT_MAX
    · exact Or.inl h5
    · right; omega


namespace SeqBPlusTree

/-- The deficient leaf merged into its right sibling: a state between the states of
`merge_leaf` to the left, in which the left sibling has not yet taken the entry. -/
def merge_mid (t : SeqBPlusTree) (x L p RS : Nat) (ln pm zn : Node) : SeqBPlusTree :=
  ((((t.set RS zn).set p pm).set L (ln.with_right (some RS))).free x)

theorem merge_mid_heap (t : SeqBPlusTree) (x L p RS : Nat) (ln pm zn : Node) (u : Nat) :
    (merge_mid t x L p RS ln pm zn).heap u =
      if u = x then none else if u = L then some (ln.with_right (some RS))
      else if u = p then some pm else if u = RS then some zn else t.heap u := by
  unfold merge_mid free
  by_cases h1 : u = x
  · subst h1; simp
  · rw [if_neg h1]
    by_cases h2 : u = L
    · subst h2; simp [Function.update_noteq h1]
    · rw [if_neg h2]
      by_cases h3 : u = p
      · subst h3; simp [Function.update_noteq h1, Function.update_noteq h2]
      · rw [if_neg h3]
        by_cases h4 : u = RS
        · subst h4
          simp [Function.update_noteq h1, Function.update_noteq h2, Function.update_noteq h3]
        · simp [Function.update_noteq h1, Function.update_noteq h2, Function.update_noteq h3,
            Function.update_noteq h4, if_neg h4]

@[simp] theorem merge_mid_next (t : SeqBPlusTree) (x L p RS : Nat) (ln pm zn : Node) :
    (merge_mid t x L p RS ln pm zn).next = t.next := rfl

@[simp] theorem merge_mid_root (t : SeqBPlusTree) (x L p RS : Nat) (ln pm zn : Node) :
    (merge_mid t x L p RS ln pm zn).root = t.root := rfl

@[simp] theorem merge_mid_depth (t : SeqBPlusTree) (x L p RS : Nat) (ln pm zn : Node) :
    (merge_mid t x L p RS ln pm zn).depth = t.depth := rfl

end SeqBPlusTree

namespace Good

variable {t : SeqBPlusTree} {lvl : Nat → Nat} {lo hi : Nat → Int} {ov un : Option Nat}

/-- A deficient leaf merged into its right sibling under the same parent: the invariant holds
with the right sibling possibly over-full and the parent possibly deficient. -/
theorem merge_into_next {x RS p c : Nat} {cn rsn pn : Node}
    (hg : Good t lvl lo hi none (some x))
    (hx : t.heap x = some cn) (hcty : cn.type = NodeType.LEAF) (hcsz : cn.size = 1)
    (hp : t.heap p = some pn) (hc : pn.kid c = some x) (hclt : c < pn.size)
    (hr : cn.right_sibling = some RS) (hR : t.heap RS = some rsn)
    {x0 y z w : KeyValuePair} (hck : cn.key_value = [x0, y, z, w])
    {q0 q1 q2 : KeyValuePair} (hq : [q0, q1, q2].take rsn.size = rsn.key_value.take rsn.size)
    (s : SeqBPlusTree) (hroot : s.root = t.root) (hnext : s.next = t.next)
    (hdepth : s.depth = t.depth)
    (hs : ∀ u, s.heap u = if u = x then none
      else if cn.left_sibling = some u then (t.heap u).map (fun n => n.with_right (some RS))
      else if u = p then some (pn.drop_slot c)
      else if u = RS then some ((rsn.with_entries [x0, q0, q1, q2]
        (rsn.size + 1)).with_left cn.left_sibling)
      else t.heap u) :
    Good s lvl (Function.update lo RS (lo x)) (Function.update hi RS (hi RS))
      (if rsn.size = 3 then some RS else none)
      (if pn.size = 1 then some p else none) ∧
    (∀ kv, s.Stored kv ↔ t.Stored kv) ∧ pn.kid (c + 1) = some RS ∧
    rsn.type = NodeType.LEAF := by
  have hpty := hg.internal_of_kid hp hc
  have hin := hg.internal_good hp hpty
  obtain ⟨s1, s2⟩ := hg.size_le_four hp hpty
  have hs3 : pn.size ≤ 3 := by
    rcases hin.size_le with h | h
    · exact h
    · cases h.2
  have hsib := (hin.sib_in c hclt).1
  rw [hc] at hsib
  simp only [rightOf, Option.some_bind, hx, hr] at hsib
  obtain ⟨_, g1, g2, g3, g4, g5⟩ := hg.kid_live hp (le_of_lt hclt) hc
  rw [hx] at g1; cases g1
  obtain ⟨_, k1, k2, k3, k4, k5⟩ := hg.kid_live hp hclt hsib.symm
  rw [hR] at k1; cases k1
  obtain ⟨rsn2, r1, r2, r3, r4⟩ := hg.right_info _ x cn RS rfl hx hr
  rw [hR] at r1; cases r1
  have hrty : rsn.type = NodeType.LEAF := (hg.type_of_lvl hR hx r3).trans hcty
  have hlc := hg.leaf_good hx hcty
  have hlr := hg.leaf_good hR hrty
  have rx := hg.range_ne hx
  have rR := hg.range_ne hR
  have hxR : x ≠ RS := by intro e; rw [← e] at r4; omega
  have hxp : x ≠ p := by intro e; rw [e] at g3; omega
  have hRp : RS ≠ p := by intro e; rw [e] at k3; omega
  have hRsz : rsn.size = 2 ∨ rsn.size = 3 := by
    rcases hlr.size_le with h | h
    · rcases hlr.size_ge with h2 | h2 | h2
      · exfalso
        obtain ⟨rt, q1, q2, _⟩ := hg.root_live
        rw [← h2, hR] at q1; cases q1
        rw [k2] at q2; cases q2
      · simp only [ORDER] at h h2; omega
      · exact absurd (Option.some.inj h2.2) hxR
    · cases h.2
  obtain ⟨r0, r1, r2, r3, hrk⟩ := SeqBPlusTree.list_len4 rsn.key_value hlr.len
  obtain ⟨hq0, hq1, hq2⟩ : q0 = r0 ∧ q1 = r1 ∧ (rsn.size = 3 → q2 = r2) := by
    rcases hRsz with h2 | h2
    · simp only [hrk, h2, List.take, List.cons.injEq, and_true] at hq
      exact ⟨hq.1, hq.2, fun h => by omega⟩
    · simp only [hrk, h2, List.take, List.cons.injEq, and_true] at hq
      exact ⟨hq.1, hq.2.1, fun _ => hq.2.2⟩
  subst hq0 hq1
  have hxk := hlc.range
  simp only [Node.keys, Node.entries, hck, hcsz, List.take, List.map_cons, List.map_nil,
    List.mem_cons, List.mem_singleton, forall_eq_or_imp, forall_eq,
    List.not_mem_nil, IsEmpty.forall_iff, implies_true, and_true,
    List.mem_nil_iff, false_implies] at hxk
  have hLfacts : ∀ l, cn.left_sibling = some l → ∃ lsn, t.heap l = some lsn ∧
      lsn.right_sibling = some x ∧ l ≠ x ∧ l ≠ p ∧ l ≠ RS := by
    intro l hl
    obtain ⟨lsn, q1, q2, q3, q4⟩ := hg.left_info _ x cn l rfl hx hl
    have := hg.range_ne q1
    refine ⟨lsn, q1, q2, ?_, ?_, ?_⟩
    · intro e; rw [e] at q4; omega
    · intro e; rw [e] at q3; omega
    · intro e; rw [e] at q4; omega
  have st : MergeStep t s lvl lo hi (some x) (if rsn.size = 3 then some RS else none)
      (if pn.size = 1 then some p else none) p pn (pn.drop_slot c) c x RS RS x cn rsn
      ((rsn.with_entries [x0, q0, q1, q2] (rsn.size + 1)).with_left
        cn.left_sibling) (fun _ => False) := by
    refine {
      good := hg
      hp := hp
      hidx := hclt
      hX := hc
      hY := hsib.symm
      hx := hx
      hy := hR
      hZ := Or.inr ⟨rfl, rfl⟩
      hun := fun b h => Or.inl (Option.some.inj h).symm
      psz := ?_
      root_eq := hroot
      next_eq := hnext
      depth_eq := hdepth
      sV := by rw [hs, if_pos rfl]
      sZ := ?_
      sP := ?_
      sL := ?_
      sR := ?_
      sD := fun d h => h.elim
      sO := ?_
      hD := ?_
      pty := rfl
      ppar := rfl
      pleft := rfl
      pright := rfl
      plen := shifted_length _ _ _ (by omega)
      psize := by show pn.size - 1 + 1 = pn.size; omega
      psep := ?_
      pdummy := ?_
      pkid := ?_
      zty := hrty.trans hcty.symm
      zpar := k2
      zleft := rfl
      zright := rfl
      zleaf := ?_
      zlen := fun h => by rw [hcty] at h; cases h
      zsize := fun h => by rw [hcty] at h; cases h
      zsz_le := fun h => by rw [hcty] at h; cases h
      zsep := fun h => by rw [hcty] at h; cases h
      zdummy := fun h => by rw [hcty] at h; cases h
      zkid := fun h => by rw [hcty] at h; cases h }
    · by_cases h : pn.size = 1
      · right; rw [if_pos h]
      · left; omega
    · rw [hs, if_neg (Ne.symm hxR), if_neg, if_neg hRp, if_pos rfl]
      intro e
      exact (hLfacts RS e).choose_spec.2.2.2.2 rfl
    · rw [hs, if_neg (Ne.symm hxp), if_neg, if_pos rfl]
      intro e
      exact (hLfacts p e).choose_spec.2.2.2.1 rfl
    · intro l hl
      obtain ⟨lsn, q1, q2, q3, q4, q5⟩ := hLfacts l hl
      exact ⟨lsn, q1, by rw [hs, if_neg q3, if_pos hl, q1]; rfl⟩
    · intro r hr2
      obtain ⟨rrn, q1, q2, q3, q4⟩ := hg.right_info _ RS rsn r rfl hR hr2
      have := hg.range_ne q1
      have e1 : r ≠ x := by intro e; rw [e] at q4; omega
      have e2 : r ≠ p := by intro e; rw [e] at q3; omega
      have e3 : r ≠ RS := by intro e; rw [e] at q4; omega
      have e4 : cn.left_sibling ≠ some r := by
        intro e
        obtain ⟨_, w1, w2, _⟩ := hLfacts r e
        rw [q1] at w1; cases w1
        obtain ⟨_, v1, v2, v3, v4⟩ := hg.left_info _ x cn r rfl hx e
        omega
      refine ⟨rrn, q1, ?_⟩
      rw [hs, if_neg e1, if_neg e4, if_neg e2, if_neg e3, q1, Node.left_eta rrn q2]
    · intro a h1 h2 h3 h4 _ _
      rw [hs, if_neg h2, if_neg h4, if_neg h1, if_neg h3]
    · intro d dn hd hdp
      obtain ⟨vn, j, v1, v2, _⟩ := hg.parent_info hd hdp
      rw [hx] at v1; cases v1
      rw [hcty] at v2; cases v2
    · intro j hj
      have hj : j < pn.size - 1 := hj
      exact Node.drop_slot_sep pn c hclt (by omega) j (by omega)
    · show (pn.drop_slot c).sep (pn.size - 1) = INT_MAX
      rw [Node.drop_slot_sep pn c hclt (by omega) _ (by omega), if_neg (by omega),
        show pn.size - 1 + 1 = pn.size by omega]
      exact hin.dummy
    · intro j hj
      have hj : j ≤ pn.size - 1 := hj
      rw [Node.drop_slot_kid pn c hclt (by omega) j (by omega)]
      by_cases h : j < c
      · rw [if_pos h, if_pos h]
      · rw [if_neg h, if_neg h]
        by_cases h2 : j = c
        · rw [if_pos h2, h2]; exact hsib.symm
        · rw [if_neg h2]
    · intro _
      have hlv0 := hlc.lvl0
      have hrs := hlr.sorted
      have hrr := hlr.range
      rcases hRsz with h2 | h2
      · simp only [Node.keys, Node.entries, hrk, h2, List.take, List.map_cons, List.map_nil,
          List.pairwise_cons, List.mem_cons, List.mem_singleton, forall_eq_or_imp, forall_eq,
          List.not_mem_nil, IsEmpty.forall_iff, implies_true, List.Pairwise.nil, and_true,
          List.mem_nil_iff, false_implies] at hrs hrr
        constructor
        · exact hlv0
        · simp [Node.with_entries, Node.with_left, hrk]
        · exact hlr.noref
        · left; show rsn.size + 1 ≤ ORDER - 1; rw [h2]; decide
        · right; left; show ORDER / 2 ≤ rsn.size + 1; rw [h2]; decide
        · simp only [Node.keys, Node.entries, Node.with_entries, Node.with_left, hrk, h2,
            List.take, List.map_cons, List.map_nil,
            List.pairwise_cons, List.mem_cons, List.mem_singleton, forall_eq_or_imp, forall_eq,
            List.not_mem_nil, IsEmpty.forall_iff, implies_true, List.Pairwise.nil, and_true,
            List.mem_nil_iff, false_implies]
          omega
        · simp only [Node.keys, Node.entries, Node.with_entries, Node.with_left, hrk, h2,
            List.take, List.map_cons, List.map_nil,
            List.mem_cons, List.mem_singleton, forall_eq_or_imp, forall_eq, List.not_mem_nil,
            IsEmpty.forall_iff, implies_true, and_true, List.mem_nil_iff, false_implies]
          omega
      · simp only [Node.keys, Node.entries, hrk, h2, List.take, List.map_cons, List.map_nil,
          List.pairwise_cons, List.mem_cons, List.mem_singleton, forall_eq_or_imp, forall_eq,
          List.not_mem_nil, IsEmpty.forall_iff, implies_true, List.Pairwise.nil, and_true,
          List.mem_nil_iff, false_implies] at hrs hrr
        have hq3 := hq2 h2
        subst hq3
        constructor
        · exact hlv0
        · simp [Node.with_entries, Node.with_left, hrk]
        · exact hlr.noref
        · right
          refine ⟨by show rsn.size + 1 = ORDER; rw [h2], by rw [if_pos h2]⟩
        · right; left; show ORDER / 2 ≤ rsn.size + 1; rw [h2]; decide
        · simp only [Node.keys, Node.entries, Node.with_entries, Node.with_left, hrk, h2,
            List.take, List.map_cons, List.map_nil,
            List.pairwise_cons, List.mem_cons, List.mem_singleton, forall_eq_or_imp, forall_eq,
            List.not_mem_nil, IsEmpty.forall_iff, implies_true, List.Pairwise.nil, and_true,
            List.mem_nil_iff, false_implies]
          omega
        · simp only [Node.keys, Node.entries, Node.with_entries, Node.with_left, hrk, h2,
            List.take, List.map_cons, List.map_nil,
            List.mem_cons, List.mem_singleton, forall_eq_or_imp, forall_eq, List.not_mem_nil,
            IsEmpty.forall_iff, implies_true, and_true, List.mem_nil_iff, false_implies]
          omega
  have hgood := st.m_good_after
  have hpm : (pn.drop_slot c).size = pn.size - 1 := rfl
  refine ⟨hgood, ?_, hsib.symm, hrty⟩
  intro kv
  apply st.m_stored_leaf _ hcty
  intro kv
  rcases hRsz with h2 | h2
  · simp only [Node.entries, Node.with_entries, Node.with_left, hrk, hck, h2, hcsz, List.take,
      List.mem_cons, List.mem_singleton, List.not_mem_nil, List.mem_nil_iff, or_false]
  · have hq3 := hq2 h2
    subst hq3
    simp only [Node.entries, Node.with_entries, Node.with_left, hrk, hck, h2, hcsz, List.take,
      List.mem_cons, List.mem_singleton, List.not_mem_nil, List.mem_nil_iff, or_false]

/-- The same with the entries of the right sibling kept in their slots. -/
theorem merge_into_right {x RS p c : Nat} {cn rsn pn : Node}
    (hg : Good t lvl lo hi none (some x))
    (hx : t.heap x = some cn) (hcty : cn.type = NodeType.LEAF) (hcsz : cn.size = 1)
    (hp : t.heap p = some pn) (hc : pn.kid c = some x) (hclt : c < pn.size)
    (hr : cn.right_sibling = some RS) (hR : t.heap RS = some rsn)
    {x0 y z w : KeyValuePair} (hck : cn.key_value = [x0, y, z, w])
    (s : SeqBPlusTree) (hroot : s.root = t.root) (hnext : s.next = t.next)
    (hdepth : s.depth = t.depth)
    (hs : ∀ u, s.heap u = if u = x then none
      else if cn.left_sibling = some u then (t.heap u).map (fun n => n.with_right (some RS))
      else if u = p then some (pn.drop_slot c)
      else if u = RS then some ((rsn.with_entries (x0 :: rsn.key_value.take 3)
        (rsn.size + 1)).with_left cn.left_sibling)
      else t.heap u) :
    Good s lvl (Function.update lo RS (lo x)) (Function.update hi RS (hi RS))
      (if rsn.size = 3 then some RS else none)
      (if pn.size = 1 then some p else none) ∧
    (∀ kv, s.Stored kv ↔ t.Stored kv) ∧ pn.kid (c + 1) = some RS ∧
    rsn.type = NodeType.LEAF := by
  have hpty := hg.internal_of_kid hp hc
  have hsib := ((hg.internal_good hp hpty).sib_in c hclt).1
  rw [hc] at hsib
  simp only [rightOf, Option.some_bind, hx, hr] at hsib
  obtain ⟨_, k1, _, k3, _⟩ := hg.kid_live hp hclt hsib.symm
  rw [hR] at k1; cases k1
  obtain ⟨_, g1, _, g3, _⟩ := hg.kid_live hp (le_of_lt hclt) hc
  rw [hx] at g1; cases g1
  have hrty : rsn.type = NodeType.LEAF := by
    refine (hg.type_of_lvl hR hx ?_).trans hcty
    omega
  obtain ⟨r0, r1, r2, r3, hrk⟩ := SeqBPlusTree.list_len4 rsn.key_value (hg.leaf_good hR hrty).len
  rw [hrk] at hs
  have hle : rsn.size ≤ 3 := by
    rcases (hg.leaf_good hR hrty).size_le with h | h
    · exact h
    · cases h.2
  refine hg.merge_into_next hx hcty hcsz hp hc hclt hr hR hck ?_ s hroot hnext hdepth hs
  rw [hrk]
  show _ = List.take rsn.size ([r0, r1, r2] ++ [r3])
  rw [List.take_append_of_le_length (by simpa using hle)]

end Good


namespace Good

variable {t : SeqBPlusTree} {lvl : Nat → Nat} {lo hi : Nat → Int} {ov un : Option Nat}

/-- A leaf that is not the root and not the deficient node holds two or three entries. -/
theorem leaf_sizes {x R : Nat} {rn : Node} (hg : Good t lvl lo hi none (some x))
    (hR : t.heap R = some rn) (hty : rn.type = NodeType.LEAF) (hne : R ≠ x)
    {p : Nat} (hpar : rn.parent = some p) : rn.size = 2 ∨ rn.size = 3 := by
  have hlr := hg.leaf_good hR hty
  rcases hlr.size_le with h | h
  · rcases hlr.size_ge with h2 | h2 | h2
    · exfalso
      obtain ⟨rt, q1, q2, _⟩ := hg.root_live
      rw [← h2, hR] at q1; cases q1
      rw [hpar] at q2; cases q2
    · simp only [ORDER] at h h2; omega
    · exact absurd (Option.some.inj h2.2).symm hne
  · cases h.2

/-- The function `merge_leaf` to the left when the deficient leaf is not the last child of
its parent: the left sibling takes its entry, the parent loses the slot, the separator above
the two neighbours becomes the first key of the right sibling, and the invariant holds up to
the size of the parent. -/
theorem merge_leaf_mid {x L p c : Nat} {cn ln pn : Node}
    (hg : Good t lvl lo hi none (some x))
    (hx : t.heap x = some cn) (hcty : cn.type = NodeType.LEAF) (hcsz : cn.size = 1)
    (hl : cn.left_sibling = some L) (hL : t.heap L = some ln) (hlsz : ln.size = 2)
    (hcp : cn.parent = some p) (hp : t.heap p = some pn)
    (hc : pn.kid c = some x) (hclt : c < pn.size) :
    ∃ s pm lo2 hi2, (∀ bmi, SeqBPlusTree.merge_leaf_with bmi t x L true =
        (if pm.isDeficient then bmi s p else some s)) ∧
      s.heap p = some pm ∧ pm.type = NodeType.INTERNAL ∧ pm.size + 1 = pn.size ∧
      pm.parent = pn.parent ∧
      Good s lvl lo2 hi2 none (if pm.size = 0 then some p else none) ∧
      (∀ kv, s.Stored kv ↔ t.Stored kv) ∧ s.root = t.root ∧ s.depth = t.depth ∧
      s.next = t.next ∧ LeafMerged t s x L cn ln pn pm c true := by
  obtain ⟨hlty, l2, l3, l4, hxL, hxp, hLp, hpty, hs1, hs3, hlen, hlv, hrs⟩ :=
    hg.merge_left_facts hx hcty hl hL hcp hp
  obtain ⟨pn2, c2, kr, q1, q2, q3, q4, q5, q6, q7, hslot, hfind, hkr, hkrk⟩ := hg.slot_of hx hcp
  rw [hp] at q1; cases q1
  have hin := hg.internal_good hp hpty
  have hcc : c2 = c := hin.kid_inj c2 c q3 (le_of_lt hclt) (q4.trans hc.symm)
  subst hcc
  obtain ⟨RS, rsn0, kR, hR0, hRpar0, _⟩ := hin.kids (c2 + 1) (by omega)
  have hr := (hin.sib_in c2 hclt).1
  rw [hc, kR] at hr
  simp only [rightOf, Option.some_bind, hx] at hr
  obtain ⟨rsn, hR, e2, hrty, e4, e5, e6, e7, e8⟩ := hrs RS hr
  have hRpar : rsn.parent = some p := by
    rw [hR] at hR0; cases hR0; exact hRpar0
  obtain ⟨a, b, c0, d, hlk, k1, k2, k3⟩ := hg.leaf_two hL hlty hlsz
  obtain ⟨x0, y, z, w, hck, k5, k6⟩ := hg.leaf_one hx hcty hcsz
  have hlc := hg.leaf_good hx hcty
  have hll := hg.leaf_good hL hlty
  have hlr := hg.leaf_good hR hrty
  have hRsz := hg.leaf_sizes hR hrty e6 hRpar
  obtain ⟨r0, hr0, f1, f2, f3, f4⟩ := hlr.first_key (by omega)
  have hriR := hg.range_int _ RS rsn rfl hR
  have hm3 : r0.key < INT_MAX := by
    rcases f4 (by omega) with h | h
    · exact h
    · omega
  have hrs2 : ∀ rs, cn.right_sibling = some rs → rs ≠ x ∧ rs ≠ L ∧ rs ≠ p ∧
      t.heap rs ≠ none := by
    intro rs h
    obtain ⟨rsn, e1, _, _, _, _, e6, e7, e8⟩ := hrs rs h
    exact ⟨e6, e7, e8, by rw [e1]; simp⟩
  have hT4 := SeqBPlusTree.merge_left_cut_heap t x L p c2 cn ln pn [a, b, x0, d] hLp
    (fun rs h => ⟨(hrs2 rs h).2.1, (hrs2 rs h).2.2.1⟩)
  have hT4L : (SeqBPlusTree.merge_left_cut t x L p c2 cn ln pn [a, b, x0, d]).heap L =
      some ((ln.with_entries [a, b, x0, d] (ln.size + cn.size)).with_right
        cn.right_sibling) := by
    rw [hT4, if_neg (fun h => (hrs2 L h).2.1 rfl), if_pos rfl]
  have hT4R : (SeqBPlusTree.merge_left_cut t x L p c2 cn ln pn [a, b, x0, d]).heap RS =
      some (rsn.with_left (some L)) := by
    rw [hT4, if_pos hr, hR]; rfl
  -- the state in which the right sibling holds the entry
  have hmid := hg.merge_into_right hx hcty hcsz hp hc hclt hr hR hck
    (SeqBPlusTree.merge_mid t x L p RS ln (pn.drop_slot c2)
      ((rsn.with_entries (x0 :: rsn.key_value.take 3) (rsn.size + 1)).with_left
        cn.left_sibling)) rfl rfl rfl
    (by
      intro u
      rw [SeqBPlusTree.merge_mid_heap, hl]
      by_cases h1 : u = x
      · rw [if_pos h1, if_pos h1]
      · rw [if_neg h1, if_neg h1]
        by_cases h2 : u = L
        · subst h2; rw [if_pos rfl, if_pos rfl, hL]; rfl
        · rw [if_neg h2, if_neg (fun h => h2 (Option.some.inj h).symm)])
  obtain ⟨hg1, hst1, _, _⟩ := hmid
  have hM := SeqBPlusTree.merge_mid_heap t x L p RS ln (pn.drop_slot c2)
      ((rsn.with_entries (x0 :: rsn.key_value.take 3) (rsn.size + 1)).with_left
        cn.left_sibling)
  have hML : (SeqBPlusTree.merge_mid t x L p RS ln (pn.drop_slot c2)
      ((rsn.with_entries (x0 :: rsn.key_value.take 3) (rsn.size + 1)).with_left
        cn.left_sibling)).heap L = some (ln.with_right (some RS)) := by
    rw [hM, if_neg (Ne.symm hxL), if_pos rfl]
  have hMR : (SeqBPlusTree.merge_mid t x L p RS ln (pn.drop_slot c2)
      ((rsn.with_entries (x0 :: rsn.key_value.take 3) (rsn.size + 1)).with_left
        cn.left_sibling)).heap RS =
      some ((rsn.with_entries (x0 :: rsn.key_value.take 3) (rsn.size + 1)).with_left
        cn.left_sibling) := by
    rw [hM, if_neg e6, if_neg e7, if_neg e8, if_pos rfl]
  obtain ⟨A, An, i, up1, up2, adj⟩ := hg1.adjacent _ L (ln.with_right (some RS)) RS rfl hML rfl
  obtain ⟨_, g1, g2, g3, g4, g5, g6⟩ := adj.mem1 hg1 adj.N1_mem
  obtain ⟨_, j1, j2, j3, j4, j5, j6⟩ := adj.mem2 hg1 adj.N2_mem
  have hAL : A ≠ L := by intro e; rw [e] at g3; omega
  have hAR : A ≠ RS := by intro e; rw [e] at j3; omega
  have hAx : A ≠ x := by
    intro e
    have := adj.hA
    rw [e, hM, if_pos rfl] at this; cases this
  have hAty := adj.internal hg1
  obtain ⟨s1, s2⟩ := hg1.size_le_four adj.hA hAty
  have hT4A : (SeqBPlusTree.merge_left_cut t x L p c2 cn ln pn [a, b, x0, d]).heap A =
      some An := by
    have := adj.hA
    rw [hM, if_neg hAx, if_neg hAL] at this
    rw [hT4, if_neg (fun h => hAR (Option.some.inj (hr.symm.trans h)).symm), if_neg hAL]
    by_cases h : A = p
    · rw [if_pos h] at this ⊢; exact this
    · rw [if_neg h, if_neg hAR] at this; rw [if_neg h]; exact this
  have hfs := adj.find_slot hg1
    (SeqBPlusTree.merge_left_cut t x L p c2 cn ln pn [a, b, x0, d]).heap
    (by
      intro u n hu
      rw [hM] at hu
      rw [hT4]
      by_cases u1 : u = x
      · rw [if_pos u1] at hu; cases hu
      · rw [if_neg u1] at hu
        by_cases u2 : u = L
        · subst u2
          rw [if_pos rfl] at hu; cases hu
          rw [if_neg (fun h => (hrs2 u h).2.1 rfl), if_pos rfl]
          exact ⟨_, rfl, rfl⟩
        · rw [if_neg u2] at hu
          by_cases u3 : u = p
          · subst u3
            rw [if_pos rfl] at hu; cases hu
            rw [if_neg (fun h => (hrs2 u h).2.2.1 rfl), if_neg u2, if_pos rfl]
            exact ⟨_, rfl, rfl⟩
          · rw [if_neg u3] at hu
            by_cases u4 : u = RS
            · subst u4
              rw [if_pos rfl] at hu; cases hu
              rw [if_pos hr, hR]
              exact ⟨_, rfl, rfl⟩
            · rw [if_neg u4] at hu
              rw [if_neg (fun h => u4 (Option.some.inj (hr.symm.trans h)).symm), if_neg u2,
                if_neg u3]
              exact ⟨n, hu, rfl⟩)
    hT4A (le_of_lt adj.hi) (by have := adj.hi; omega) (fun _ _ => rfl) hT4L hT4R
  have hfs2 : (SeqBPlusTree.ancestor_walk
      (SeqBPlusTree.merge_left_cut t x L p c2 cn ln pn [a, b, x0, d]).heap t.fuel (some p)
      ln.parent L).bind (fun last => SeqBPlusTree.get_key_ref_pair_from_parent
        (SeqBPlusTree.merge_left_cut t x L p c2 cn ln pn [a, b, x0, d]).heap
        (some last)) = some (A, i) := by
    rw [← hRpar]; exact hfs
  have hkk : ¬ INT_MAX = kr.key := by
    rw [hkrk]
    have := hin.sep_max c2 hclt
    omega
  have hr0b : (rsn.with_left (some L)).key_value.get? 0 = some r0 := hr0
  have hS := SeqBPlusTree.merge_done_heap
    (SeqBPlusTree.merge_left_cut t x L p c2 cn ln pn [a, b, x0, d]) A (An.set_sep i r0.key) x
  obtain ⟨pm, hsp, hpsz, hpmty, hppar, hpkid⟩ : ∃ pm, (SeqBPlusTree.merge_done
      (SeqBPlusTree.merge_left_cut t x L p c2 cn ln pn [a, b, x0, d]) A
      (An.set_sep i r0.key) x).heap p = some pm ∧ pm.size + 1 = pn.size ∧
      pm.type = NodeType.INTERNAL ∧ pm.parent = pn.parent ∧
      (∀ j, pm.kid j = (pn.drop_slot c2).kid j) := by
    by_cases h : A = p
    · subst h
      have hAn : An = pn.drop_slot c2 := by
        have := adj.hA
        rw [hM, if_neg hAx, if_neg hAL, if_pos rfl] at this
        exact (Option.some.inj this).symm
      refine ⟨An.set_sep i r0.key, by rw [hS, if_neg hAx, if_pos rfl], ?_, ?_, ?_, ?_⟩
      · rw [(Node.set_sep_fields _ _ _).2.1, hAn]; show pn.size - 1 + 1 = pn.size; omega
      · rw [(Node.set_sep_fields _ _ _).1, hAn]; exact hpty
      · rw [(Node.set_sep_fields _ _ _).2.2.1, hAn]; rfl
      · intro j; rw [Node.set_sep_kid, hAn]
    · refine ⟨pn.drop_slot c2, ?_, ?_, hpty, rfl, fun _ => rfl⟩
      · rw [hS, if_neg (Ne.symm hxp), if_neg (Ne.symm h), hT4,
          if_neg (fun h => (hrs2 p h).2.2.1 rfl), if_neg (Ne.symm hLp), if_pos rfl]
      · show pn.size - 1 + 1 = pn.size; omega
  have hun : (if pn.size = 1 then some p else none) = (if pm.size = 0 then some p else none) := by
    by_cases h : pn.size = 1
    · rw [if_pos h, if_pos (by omega)]
    · rw [if_neg h, if_neg (by omega)]
  rw [hun] at hg1
  have hlo1 : Function.update lo RS (lo x) L = lo L := Function.update_noteq (Ne.symm e7) _ _
  have hhi1 : Function.update hi RS (hi RS) RS = hi RS := Function.update_same _ _ _
  have st : BoundaryStep (SeqBPlusTree.merge_mid t x L p RS ln (pn.drop_slot c2)
      ((rsn.with_entries (x0 :: rsn.key_value.take 3) (rsn.size + 1)).with_left
        cn.left_sibling))
      (SeqBPlusTree.merge_done
        (SeqBPlusTree.merge_left_cut t x L p c2 cn ln pn [a, b, x0, d]) A
        (An.set_sep i r0.key) x)
      lvl (Function.update lo RS (lo x)) (Function.update hi RS (hi RS))
      (if rsn.size = 3 then some RS else none) none
      (if pm.size = 0 then some p else none) (if pm.size = 0 then some p else none)
      A An i up1 up2 L RS (ln.with_right (some RS))
      ((rsn.with_entries (x0 :: rsn.key_value.take 3) (rsn.size + 1)).with_left
        cn.left_sibling)
      ((ln.with_entries [a, b, x0, d] (ln.size + cn.size)).with_right cn.right_sibling)
      (rsn.with_left (some L)) r0.key (fun _ => False) 0 := by
    refine {
      good := hg1
      adj := adj
      h1 := hML
      h2 := hMR
      hr := rfl
      hm1 := by rw [hlo1]; omega
      hm2 := by rw [hhi1]; omega
      hm3 := hm3
      hov := ?_
      hun := fun b h _ _ => h
      root_eq := by simp
      next_eq := by simp
      depth_eq := by simp
      sA := by rw [hS, if_neg hAx, if_pos rfl]
      s1 := by rw [hS, if_neg (Ne.symm hxL), if_neg (Ne.symm hAL), hT4L]
      s2 := by rw [hS, if_neg e6, if_neg (Ne.symm hAR), hT4R]
      sD := fun d h => h.elim
      sO := ?_
      ty1 := rfl
      par1 := rfl
      left1 := rfl
      right1 := hr
      ty2 := rfl
      par2 := rfl
      left2 := hl.symm
      right2 := rfl
      first1 := rfl
      last2 := by
        rw [Node.kid_of_noref _ (show (rsn.with_left (some L)).key_ref = [] from hlr.noref),
          Node.kid_of_noref _ (show ((rsn.with_entries (x0 :: rsn.key_value.take 3)
            (rsn.size + 1)).with_left cn.left_sibling).key_ref = [] from hlr.noref)]
      kid1 := by
        intro a j _ hk
        rw [Node.kid_of_noref _ (show (ln.with_right (some RS)).key_ref = [] from hll.noref)]
          at hk
        cases hk
      kid2 := by
        intro a j _ hk
        rw [Node.kid_of_noref _ (show ((rsn.with_entries (x0 :: rsn.key_value.take 3)
            (rsn.size + 1)).with_left cn.left_sibling).key_ref = [] from hlr.noref)] at hk
        cases hk
      kidD := fun d h => h.elim
      leaf1 := ?_
      leaf2 := ?_
      int1 := fun h => by rw [show (ln.with_right (some RS)).type = ln.type from rfl, hlty] at h; cases h
      int2 := fun h => by
        rw [show ((rsn.with_entries (x0 :: rsn.key_value.take 3)
          (rsn.size + 1)).with_left cn.left_sibling).type = rsn.type from rfl, hrty] at h
        cases h }
    · intro u h _ h3
      by_cases h4 : rsn.size = 3
      · rw [if_pos h4] at h; exact absurd (Option.some.inj h).symm h3
      · rw [if_neg h4] at h; cases h
    · intro u h1 h2 h3 _
      rw [hS, hT4, hM]
      by_cases u1 : u = x
      · rw [if_pos u1, if_pos u1]
      · rw [if_neg u1, if_neg u1, if_neg h1,
          if_neg (fun h => h3 (Option.some.inj (hr.symm.trans h)).symm), if_neg h2, if_neg h2,
          if_neg h3]
    · intro _
      rw [hlo1]
      constructor
      · exact hll.lvl0
      · simp [Node.with_entries, Node.with_right]
      · exact hll.noref
      · left; show ln.size + cn.size ≤ ORDER - 1; rw [hlsz, hcsz]; decide
      · right; left; show ORDER / 2 ≤ ln.size + cn.size; rw [hlsz, hcsz]; decide
      · simp only [Node.keys, Node.entries, Node.with_entries, Node.with_right, hlsz, hcsz,
          List.take, List.map_cons, List.map_nil,
          List.pairwise_cons, List.mem_cons, List.mem_singleton, forall_eq_or_imp, forall_eq,
          List.not_mem_nil, IsEmpty.forall_iff, implies_true, List.Pairwise.nil, and_true,
          List.mem_nil_iff, false_implies]
        omega
      · simp only [Node.keys, Node.entries, Node.with_entries, Node.with_right, hlsz, hcsz,
          List.take, List.map_cons, List.map_nil,
          List.mem_cons, List.mem_singleton, forall_eq_or_imp, forall_eq, List.not_mem_nil,
          IsEmpty.forall_iff, implies_true, and_true, List.mem_nil_iff, false_implies]
        omega
    · intro _
      rw [hhi1]
      have h0 : LeafGood t.root none (some x) RS (rsn.with_left (some L)) (lvl RS) (lo RS)
          (hi RS) := hlr.congr rfl rfl rfl
      refine h0.rebound ?_ (fun h => by cases h)
        (fun h => absurd (Option.some.inj h).symm e6)
      intro k hk
      exact ⟨f3 k hk, (hlr.range k hk).2⟩
  refine ⟨_, pm, _, _, ?_, hsp, hpmty, hpsz, hppar, st.b_good_after, ?_, by simp, by simp,
    by simp, ?_⟩
  · intro bmi
    have heq := SeqBPlusTree.merge_leaf_left_eq bmi hx hL hp hcp hxL hxp hLp hslot hfind hkr
      hs1 (Or.inr (by omega)) hlk hlsz hck hcsz hrs2
    rw [hfs2, Option.some_bind, if_neg hkk, hr, Option.some_bind, hT4R, Option.some_bind,
      hr0b, Option.some_bind, set_slot_key_eq _ i r0.key hT4A (by have := adj.hi; omega),
      Option.some_bind] at heq
    rw [SeqBPlusTree.finish_merge_eq bmi _ A _ x p hsp] at heq
    exact heq
  · intro kv
    rw [← hst1 kv]
    apply st.b_stored_leaf _ hlty
    intro kv
    obtain ⟨r0b, r1, r2, r3, hrk⟩ := SeqBPlusTree.list_len4 rsn.key_value hlr.len
    rcases hRsz with h2 | h2
    · simp only [Node.entries, Node.with_entries, Node.with_right, Node.with_left, hlk, hck,
        hrk, hlsz, hcsz, h2, List.take, List.mem_cons, List.mem_singleton, List.not_mem_nil,
        List.mem_nil_iff, or_false, or_assoc]
    · simp only [Node.entries, Node.with_entries, Node.with_right, Node.with_left, hlk, hck,
        hrk, hlsz, hcsz, h2, List.take, List.mem_cons, List.mem_singleton, List.not_mem_nil,
        List.mem_nil_iff, or_false, or_assoc]
  · constructor
    · rw [hS, if_pos rfl]
    · simp [SeqBPlusTree.merge_done, SeqBPlusTree.merge_left_cut, SeqBPlusTree.free,
        SeqBPlusTree.set, SeqBPlusTree.relink_node_count]
    · intro u hu
      rw [hS, if_neg hu]
      by_cases e1 : u = A
      · rw [if_pos e1, e1]
        have := adj.hA
        rw [hM, if_neg hAx, if_neg hAL] at this
        by_cases h : A = p
        · rw [h, hp]; rfl
        · rw [if_neg h, if_neg hAR] at this; rw [this]; rfl
      · rw [if_neg e1, hT4]
        by_cases e3 : cn.right_sibling = some u
        · rw [if_pos e3]; cases t.heap u <;> rfl
        · rw [if_neg e3]
          by_cases e4 : u = L
          · rw [if_pos e4, e4, hL]; rfl
          · rw [if_neg e4]
            by_cases e5 : u = p
            · rw [if_pos e5, e5, hp]; rfl
            · rw [if_neg e5]
    · refine ⟨(ln.with_entries [a, b, x0, d] (ln.size + cn.size)).with_right cn.right_sibling,
        ?_, hlty, ?_, rfl, rfl⟩
      · rw [hS, if_neg (Ne.symm hxL), if_neg (Ne.symm hAL)]
        exact hT4L
      · simp [Node.entries, Node.with_entries, Node.with_right, hlk, hck, hlsz, hcsz]
    · intro _ r hr2
      rw [hr] at hr2; cases hr2
      refine ⟨rsn.with_left (some L), ?_, rfl⟩
      rw [hS, if_neg e6, if_neg (Ne.symm hAR)]
      exact hT4R
    · exact ⟨le_of_lt hclt, hc⟩
    · intro j hj
      rw [hpkid j]
      exact Node.drop_slot_kid pn c2 hclt (by omega) j (by omega)

end Good


namespace SeqBPlusTree

/-- The state of `merge_leaf` to the right once the parent has lost its first slot. -/
def merge_right_cut (t : SeqBPlusTree) (R p : Nat) (cn rn pn : Node)
    (kv : List KeyValuePair) : SeqBPlusTree :=
  (t.set R (rn.with_entries kv (rn.size + cn.size))).set p (pn.drop_slot 0)

set_option maxHeartbeats 1000000 in
/-- The code of `merge_leaf` to the right, up to the release of the node. -/
theorem merge_leaf_right_eq (bmi : SeqBPlusTree → Nat → Option SeqBPlusTree)
    {t : SeqBPlusTree} {x R p : Nat} {cn rn pn : Node}
    (hx : t.heap x = some cn) (hR : t.heap R = some rn) (hp : t.heap p = some pn)
    (hcp : cn.parent = some p) (hxR : x ≠ R) (hxp : x ≠ p) (hRp : R ≠ p)
    (hrty : rn.type = NodeType.LEAF) (hps : 0 < pn.size) (hlen : pn.size < pn.key_ref.length)
    {r0 r1 r2 r3 x0 y z w : KeyValuePair}
    (hrk : rn.key_value = [r0, r1, r2, r3]) (hrsz : rn.size = 2)
    (hck : cn.key_value = [x0, y, z, w]) (hcsz : cn.size = 1)
    (hlt : x0.key < r0.key) (hlt2 : r0.key < r1.key) :
    merge_leaf_with bmi t x R false =
      finish_merge bmi ((merge_right_cut t R p cn rn pn [x0, r0, r1, r3]).set R
        ((rn.with_entries [x0, r0, r1, r3] (rn.size + cn.size)).with_left cn.left_sibling))
        x p := by
  have hsd : size_dec pn.size = some (pn.size - 1) := by
    unfold size_dec; rw [if_pos hps]
  have hblit : arr_blit [r0, r1, r2, r3] 2 (List.take 1 [x0, y, z, w]) = some [r0, r1, x0, r3] :=
    rfl
  have n1 : ¬ r0.key ≤ x0.key := by omega
  have n2 : ¬ r1.key ≤ x0.key := by omega
  have n3 : r0.key ≤ r1.key := by omega
  have hsort : sort_entry_by_key
      { rn with key_value := [r0, r1, x0, r3], size := 2 + 1 } =
      rn.with_entries [x0, r0, r1, r3] (2 + 1) := by
    simp [sort_entry_by_key, hrty, Node.with_entries, List.orderedInsert, n1, n2, n3]
  simp only [merge_leaf_with]
  simp only [hx, Option.some_seqBind, Bool.false_eq_true, if_false, hR, hrk, hrsz, hck, hcsz,
    hblit, hcp]
  rw [hsort]
  simp only [Option.some_seqBind, set_heap, Function.update_noteq (Ne.symm hRp), hp,
    parent_remove_slot, arr_shift_eq _ _ _ (Or.inr hlen), hsd, Option.map_some',
    Function.update_noteq hxp, Function.update_noteq hxR, hx, upd, Function.update_same,
    Function.update_noteq hRp]
  simp only [Option.seqBind_eq, finish_merge, merge_right_cut, Node.drop_slot, Node.with_left,
    Option.some_bind, set_heap, hrsz, hcsz]

end SeqBPlusTree

namespace Good

variable {t : SeqBPlusTree} {lvl : Nat → Nat} {lo hi : Nat → Int} {ov un : Option Nat}

/-- The function `merge_leaf` to the right: the right sibling takes the entry of the
deficient leaf, which is the first child of its parent, the parent loses its first slot, and
the invariant holds up to the size of the parent. -/
theorem merge_leaf_right {x R p : Nat} {cn rn pn : Node}
    (hg : Good t lvl lo hi none (some x))
    (hx : t.heap x = some cn) (hcty : cn.type = NodeType.LEAF) (hcsz : cn.size = 1)
    (hl : cn.left_sibling = none) (hr : cn.right_sibling = some R)
    (hR : t.heap R = some rn) (hrsz : rn.size = 2)
    (hcp : cn.parent = some p) (hp : t.heap p = some pn) :
    ∃ s pm lo2 hi2, (∀ bmi, SeqBPlusTree.merge_leaf_with bmi t x R false =
        (if pm.isDeficient then bmi s p else some s)) ∧
      s.heap p = some pm ∧ pm.type = NodeType.INTERNAL ∧ pm.size + 1 = pn.size ∧
      pm.parent = pn.parent ∧
      Good s lvl lo2 hi2 none (if pm.size = 0 then some p else none) ∧
      (∀ kv, s.Stored kv ↔ t.Stored kv) ∧ s.root = t.root ∧ s.depth = t.depth ∧
      s.next = t.next ∧ LeafMerged t s x R cn rn pn pm 0 false := by
  obtain ⟨pn2, q1, hpty, hk0⟩ := hg.first_of_no_left hx hcp hl
  rw [hp] at q1; cases q1
  have hin := hg.internal_good hp hpty
  obtain ⟨s1, s2⟩ := hg.size_le_four hp hpty
  obtain ⟨_, g1, g2, g3, g4, g5⟩ := hg.kid_live hp (Nat.zero_le _) hk0
  have rx := hg.range_ne hx
  have hxp : x ≠ p := by intro e; rw [e] at g3; omega
  have hs1 : 1 ≤ pn.size := by
    rcases hin.size_ge with h | h
    · exact h
    · exact absurd (Option.some.inj h) hxp
  obtain ⟨rn2, r1, r2, r3, r4⟩ := hg.right_info _ x cn R rfl hx hr
  rw [hR] at r1; cases r1
  have hrty : rn.type = NodeType.LEAF := (hg.type_of_lvl hR hx r3).trans hcty
  have rR := hg.range_ne hR
  have hxR : x ≠ R := by intro e; rw [← e] at r4; omega
  have hRp : R ≠ p := by intro e; rw [e] at r3; omega
  obtain ⟨r0, r1, r2, r3, hrk, k1, k2, k3⟩ := hg.leaf_two hR hrty hrsz
  obtain ⟨x0, y, z, w, hck, k5, k6⟩ := hg.leaf_one hx hcty hcsz
  have hS := SeqBPlusTree.merge_done_heap
    (SeqBPlusTree.merge_right_cut t R p cn rn pn [x0, r0, r1, r3]) R
    ((rn.with_entries [x0, r0, r1, r3] (rn.size + 1)).with_left cn.left_sibling) x
  have hsp : (SeqBPlusTree.merge_done
      (SeqBPlusTree.merge_right_cut t R p cn rn pn [x0, r0, r1, r3]) R
      ((rn.with_entries [x0, r0, r1, r3] (rn.size + 1)).with_left cn.left_sibling) x).heap p =
      some (pn.drop_slot 0) := by
    rw [hS, if_neg (Ne.symm hxp), if_neg (Ne.symm hRp)]
    simp only [SeqBPlusTree.merge_right_cut, SeqBPlusTree.set_heap, Function.update_same]
  have hmid := hg.merge_into_next hx hcty hcsz hp hk0 (by omega) hr hR hck
    (show [r0, r1, r3].take rn.size = _ by rw [hrsz, hrk]; rfl)
    (SeqBPlusTree.merge_done
      (SeqBPlusTree.merge_right_cut t R p cn rn pn [x0, r0, r1, r3]) R
      ((rn.with_entries [x0, r0, r1, r3] (rn.size + 1)).with_left cn.left_sibling) x)
    rfl rfl rfl
    (by
      intro u
      rw [hS, hl]
      by_cases h1 : u = x
      · rw [if_pos h1, if_pos h1]
      · rw [if_neg h1, if_neg h1,
          if_neg (show ¬ (none : Option Nat) = some u from fun h => by cases h)]
        by_cases h2 : u = R
        · subst h2; rw [if_pos rfl, if_neg hRp, if_pos rfl]
        · rw [if_neg h2, if_neg h2]
          simp only [SeqBPlusTree.merge_right_cut, SeqBPlusTree.set_heap]
          by_cases h3 : u = p
          · subst h3; rw [if_pos rfl, Function.update_same]
          · rw [if_neg h3, Function.update_noteq h3, Function.update_noteq h2])
  obtain ⟨hg1, hst1, _, _⟩ := hmid
  rw [if_neg (by omega)] at hg1
  have hun : (if pn.size = 1 then some p else none) =
      (if (pn.drop_slot 0).size = 0 then some p else none) := by
    have e : (pn.drop_slot 0).size = pn.size - 1 := rfl
    by_cases h : pn.size = 1
    · rw [if_pos h, if_pos (by omega)]
    · rw [if_neg h, if_neg (by omega)]
  rw [hun] at hg1
  refine ⟨_, _, _, _, ?_, hsp, hpty, by show pn.size - 1 + 1 = pn.size; omega, rfl, hg1, hst1,
    rfl, rfl, rfl, ?_⟩
  · intro bmi
    have heq := SeqBPlusTree.merge_leaf_right_eq bmi hx hR hp hcp hxR hxp hRp hrty (by omega)
      (by omega) hrk hrsz hck hcsz (by omega) k2
    rw [hcsz] at heq
    rw [SeqBPlusTree.finish_merge_eq bmi _ R _ x p hsp] at heq
    exact heq
  · constructor
    · rw [hS, if_pos rfl]
    · simp [SeqBPlusTree.merge_done, SeqBPlusTree.merge_right_cut, SeqBPlusTree.free,
        SeqBPlusTree.set]
    · intro u hu
      rw [hS, if_neg hu]
      by_cases e1 : u = R
      · rw [if_pos e1, e1, hR]; rfl
      · rw [if_neg e1]
        simp only [SeqBPlusTree.merge_right_cut, SeqBPlusTree.set_heap]
        by_cases e2 : u = p
        · rw [e2, Function.update_same, hp]; rfl
        · rw [Function.update_noteq e2, Function.update_noteq e1]
    · refine ⟨(rn.with_entries [x0, r0, r1, r3] (rn.size + 1)).with_left cn.left_sibling,
        ?_, hrty, ?_, rfl, rfl⟩
      · rw [hS, if_neg (Ne.symm hxR), if_pos rfl]
      · simp [Node.entries, Node.with_entries, Node.with_left, hrk, hck, hrsz, hcsz]
    · intro h; cases h
    · exact ⟨Nat.zero_le _, hk0⟩
    · intro j hj
      have hj2 : j ≤ pn.size - 1 := hj
      rw [Node.drop_slot_kid pn 0 (by omega) (by omega) j (by omega)]

end Good


/-- In a chain every element but the first one has a predecessor. -/
theorem chain_tail_pred {α : Type} (R : α → α → Prop) (l : List α) (hch : l.Chain' R) :
    ∀ b ∈ l.tail, ∃ y ∈ l, R y b := by
  cases l with
  | nil => intro b hb; cases hb
  | cons x rest =>
    intro b hb
    simp only [List.tail_cons] at hb
    rw [List.chain'_cons'] at hch
    rcases chain_pred R rest hch.2 b hb with h | ⟨y, hy, hr⟩
    · exact ⟨x, List.mem_cons_self _ _, hch.1 b (by rw [h]; rfl)⟩
    · exact ⟨y, List.mem_cons_of_mem _ hy, hr⟩

/-- A chain of first children in one store is a chain in every store that has the same
first children at its nodes above the first one. -/
theorem chain_first_agree {h g : Nat → Option Node} :
    ∀ l : List Nat, (∀ b ∈ l.tail, firstKid h (some b) = firstKid g (some b)) →
      l.Chain' (fun x y => firstKid g (some y) = some x) →
      l.Chain' (fun x y => firstKid h (some y) = some x) := by
  intro l
  induction l with
  | nil => intro _ _; exact List.chain'_nil
  | cons x rest ih =>
    intro hag hch
    rw [List.chain'_cons'] at hch ⊢
    simp only [List.tail_cons] at hag
    refine ⟨?_, ih (fun b hb => hag b (List.mem_of_mem_tail hb)) hch.2⟩
    intro y hy
    have hm : y ∈ rest := by
      cases rest with
      | nil => cases hy
      | cons z r =>
        simp only [List.head?_cons, Option.mem_def, Option.some.injEq] at hy
        rw [← hy]; exact List.mem_cons_self _ _
    rw [hag y hm]
    exact hch.1 y hy

namespace Adj

variable {t : SeqBPlusTree} {lvl : Nat → Nat} {lo hi : Nat → Int} {ov un : Option Nat}
  {A : Nat} {An : Node} {i : Nat} {up1 up2 : List Nat} {N1 N2 : Nat}

/-- The separator slot of two adjacent internal nodes is the separator slot of the last child
of the left one and the first child of the right one. -/
theorem descend (adj : Adj t.heap A An i up1 up2 N1 N2) (hg : Good t lvl lo hi ov un)
    {n1 : Node} (h1 : t.heap N1 = some n1) (hty : n1.type = NodeType.INTERNAL) :
    ∃ d1 d2, lvl d1 + 1 = lvl N1 ∧ Adj t.heap A An i (d1 :: up1) (d2 :: up2) d1 d2 := by
  have hin1 := hg.internal_good h1 hty
  obtain ⟨d1, d1n, a1, a2, a3, a4, a5, a6⟩ := hin1.kids n1.size (le_refl _)
  have hr := adj.hr
  simp only [rightOf, Option.some_bind, h1] at hr
  obtain ⟨n2, b1, b2, b3, b4⟩ := hg.right_info _ N1 n1 N2 rfl h1 hr
  have hty2 : n2.type = NodeType.INTERNAL := (hg.type_of_lvl b1 h1 b3).trans hty
  have hin2 := hg.internal_good b1 hty2
  obtain ⟨d2, d2n, c1, c2, c3, c4, c5, c6⟩ := hin2.kids 0 (Nat.zero_le _)
  have hsr := hin1.sib_right
  rw [a1, hr] at hsr
  have hf : firstKid t.heap (some N2) = some d2 := by
    simp only [firstKid, Option.some_bind, b1, c1]
  rw [hf] at hsr
  have hne1 : ∃ r, up1 = N1 :: r := by
    have := adj.h1
    cases hu : up1 with
    | nil => rw [hu] at this; cases this
    | cons a r =>
      rw [hu] at this
      simp only [List.head?_cons, Option.some.injEq] at this
      exact ⟨r, by rw [this]⟩
  have hne2 : ∃ r, up2 = N2 :: r := by
    have := adj.h2
    cases hu : up2 with
    | nil => rw [hu] at this; cases this
    | cons a r =>
      rw [hu] at this
      simp only [List.head?_cons, Option.some.injEq] at this
      exact ⟨r, by rw [this]⟩
  obtain ⟨r1, e1⟩ := hne1
  obtain ⟨r2, e2⟩ := hne2
  refine ⟨d1, d2, a4, adj.hA, adj.hi, ?_, ?_, rfl, rfl, ?_, ?_, ?_, hsr⟩
  · rw [List.chain'_cons']
    refine ⟨?_, adj.c1⟩
    intro y hy
    rw [adj.h1] at hy
    simp only [Option.mem_def, Option.some.injEq] at hy
    rw [← hy]
    simp only [lastKid, Option.some_bind, h1, a1]
  · rw [List.chain'_cons']
    refine ⟨?_, adj.c2⟩
    intro y hy
    rw [adj.h2] at hy
    simp only [Option.mem_def, Option.some.injEq] at hy
    rw [← hy]
    exact hf
  · rw [← adj.t1, e1, List.getLast?_cons_cons]
  · rw [← adj.t2, e2, List.getLast?_cons_cons]
  · simp only [List.length_cons, adj.len]

/-- Below every separator slot there is a pair of adjacent leaves that it separates. -/
theorem to_leaves (hg : Good t lvl lo hi ov un) :
    ∀ k up1 up2 N1 N2, lvl N1 = k → Adj t.heap A An i up1 up2 N1 N2 →
      ∃ v1 v2 M1 M2 m1 m2, Adj t.heap A An i v1 v2 M1 M2 ∧ t.heap M1 = some m1 ∧
        m1.type = NodeType.LEAF ∧ t.heap M2 = some m2 ∧ m2.type = NodeType.LEAF ∧
        m1.right_sibling = some M2 := by
  intro k
  induction k with
  | zero =>
    intro up1 up2 N1 N2 hk adj
    obtain ⟨n1, g1, _⟩ := adj.mem1 hg adj.N1_mem
    have hr := adj.hr
    simp only [rightOf, Option.some_bind, g1] at hr
    obtain ⟨n2, b1, b2, b3, b4⟩ := hg.right_info _ N1 n1 N2 rfl g1 hr
    have hty : n1.type = NodeType.LEAF := by
      rcases NodeType.cases_eq n1.type with h | h
      · exact h
      · have := ((hg.nodes N1 n1 g1).internal h).1
        omega
    exact ⟨up1, up2, N1, N2, n1, n2, adj, g1, hty, b1, (hg.type_of_lvl b1 g1 b3).trans hty, hr⟩
  | succ k ih =>
    intro up1 up2 N1 N2 hk adj
    obtain ⟨n1, g1, _⟩ := adj.mem1 hg adj.N1_mem
    have hty : n1.type = NodeType.INTERNAL := by
      rcases NodeType.cases_eq n1.type with h | h
      · have := (hg.leaf_good g1 h).lvl0
        omega
      · exact h
    obtain ⟨d1, d2, hl, adj2⟩ := adj.descend hg g1 hty
    exact ih _ _ d1 d2 (by omega) adj2

end Adj


namespace Good

variable {t : SeqBPlusTree} {lvl : Nat → Nat} {lo hi : Nat → Int} {ov un : Option Nat}

/-- A separator can be raised to the least key of the subtree on its right: the invariant
holds with the new separator, and `min_key_in_subtree` computes that key in every store that
has the nodes below the separator. -/
theorem raise_sep (hg : Good t lvl lo hi ov un) {A : Nat} {An : Node} {i : Nat}
    (hA : t.heap A = some An) (hty : An.type = NodeType.INTERNAL) (hii : i < An.size)
    (hun : ∀ u, un = some u → 0 < lvl u) :
    ∃ m lo2 hi2, Good (t.set A (An.set_sep i m)) lvl lo2 hi2 ov un ∧ m < INT_MAX ∧
      LeafSame t.heap (t.set A (An.set_sep i m)).heap ∧
      ∀ (h : Nat → Option Node) (f : Nat),
        (∀ b n, lvl b < lvl A → t.heap b = some n → ∃ n2, h b = some n2 ∧ n2.type = n.type ∧
          n2.key_ref = n.key_ref ∧ n2.key_value = n.key_value) →
        lvl A ≤ f → SeqBPlusTree.min_key_in_subtree h f (An.kid (i + 1)) = some m := by
  obtain ⟨c1, c2, c1n, c2n, k1, k2, k3, k4, k5, adj0⟩ := hg.adj_slot hA hty hii
  obtain ⟨v1, v2, M1, M2, m1, m2, adj, h1, ty1, h2, ty2, hr⟩ :=
    Adj.to_leaves hg _ _ _ _ _ rfl adj0
  obtain ⟨_, e1, e2, e3, e4, e5, e6⟩ := adj.mem1 hg adj.N1_mem
  obtain ⟨_, f1, f2, f3, f4, f5, f6⟩ := adj.mem2 hg adj.N2_mem
  have hl1 := hg.leaf_good h1 ty1
  have hl2 := hg.leaf_good h2 ty2
  have hAl := (hg.nodes A An hA).lvl_le
  have hsz : 2 ≤ m2.size := by
    rcases hl2.size_ge with h | h | h
    · rw [h] at f3; omega
    · exact h
    · have := hun M2 h.2
      have := hl2.lvl0
      omega
  obtain ⟨e, g1, g2, g3, g4, g5⟩ := hl2.first_key (by omega)
  have hri := hg.range_int _ M2 m2 rfl h2
  have hm3 : e.key < INT_MAX := by
    rcases g5 hsz with h | h
    · exact h
    · omega
  have r1 := hg.range_ne h1
  have hAM1 : A ≠ M1 := by intro h; rw [h] at e3; omega
  have hAM2 : A ≠ M2 := by intro h; rw [h] at f3; omega
  have st : BoundaryStep t (t.set A (An.set_sep i e.key)) lvl lo hi ov ov un un A An i v1 v2
      M1 M2 m1 m2 m1 m2 e.key (fun _ => False) 0 := by
    refine {
      good := hg
      adj := adj
      h1 := h1
      h2 := h2
      hr := hr
      hm1 := by omega
      hm2 := g3
      hm3 := hm3
      hov := fun b h _ _ => h
      hun := fun b h _ _ => h
      root_eq := rfl
      next_eq := rfl
      depth_eq := rfl
      sA := by simp only [SeqBPlusTree.set_heap, Function.update_same]
      s1 := by simp only [SeqBPlusTree.set_heap]; rw [Function.update_noteq (Ne.symm hAM1), h1]
      s2 := by simp only [SeqBPlusTree.set_heap]; rw [Function.update_noteq (Ne.symm hAM2), h2]
      sD := fun d h => h.elim
      sO := by
        intro a h1 _ _ _
        simp only [SeqBPlusTree.set_heap]
        rw [Function.update_noteq h1]
      ty1 := rfl
      par1 := rfl
      left1 := rfl
      right1 := rfl
      ty2 := rfl
      par2 := rfl
      left2 := rfl
      right2 := rfl
      first1 := rfl
      last2 := rfl
      kid1 := fun a j hj hk _ => ⟨j, hj, hk⟩
      kid2 := fun a j hj hk _ => ⟨j, hj, hk⟩
      kidD := fun d h => h.elim
      leaf1 := ?_
      leaf2 := ?_
      int1 := fun h => by rw [ty1] at h; cases h
      int2 := fun h => by rw [ty2] at h; cases h }
    · intro _
      refine hl1.rebound ?_ id id
      intro k hk
      have := hl1.range k hk
      exact ⟨this.1, by omega⟩
    · intro _
      refine hl2.rebound ?_ id id
      intro k hk
      exact ⟨g4 k hk, (hl2.range k hk).2⟩
  refine ⟨e.key, _, _, st.b_good_after, hm3, ?_, ?_⟩
  · intro a
    simp only [SeqBPlusTree.set_heap]
    by_cases h : a = A
    · subst h
      rw [Function.update_same, hA]
      simp only [Option.some_bind, Node.leafView, (Node.set_sep_fields _ _ _).1, hty]
      rfl
    · rw [Function.update_noteq h]
  · intro h f hag hf
    obtain ⟨_, _, _, hlen, _⟩ := adj.pchains hg
    have hagk : ∀ b ∈ v2, ∃ bn n2, t.heap b = some bn ∧ h b = some n2 ∧ n2.type = bn.type ∧
        n2.key_ref = bn.key_ref ∧ n2.key_value = bn.key_value := by
      intro b hb
      obtain ⟨bn, q1, q2, q3, _⟩ := adj.mem2 hg hb
      obtain ⟨n2, q4, q5, q6, q7⟩ := hag b bn q3 q1
      exact ⟨bn, n2, q1, q4, q5, q6, q7⟩
    have hch : v2.Chain' (fun x y => firstKid h (some y) = some x) := by
      refine chain_first_agree v2 ?_ adj.c2
      intro b hb
      obtain ⟨bn, n2, q1, q4, q5, q6, q7⟩ := hagk b (List.mem_of_mem_tail hb)
      simp only [firstKid, Option.some_bind, q1, q4, Node.kid, q6]
    obtain ⟨_, n2, q1, q4, q5, q6, q7⟩ := hagk M2 adj.N2_mem
    rw [h2] at q1; cases q1
    rw [k2, ← adj.t2.trans k2]
    have := min_key_chain h v2 M2 n2 hch adj.h2 q4 (q5.trans ty2) ?_ c2 (adj.t2.trans k2) f
      (by omega)
    · rw [adj.t2.trans k2, this, q7, g1]; rfl
    · intro b hb
      obtain ⟨y, hy, hR⟩ := chain_tail_pred _ v2 adj.c2 b hb
      obtain ⟨bn, n3, p1, p4, p5, p6, p7⟩ := hagk b (List.mem_of_mem_tail hb)
      simp only [firstKid, Option.some_bind, p1] at hR
      exact ⟨n3, p4, p5.trans (hg.internal_of_kid p1 hR)⟩

end Good


/-- The node `m` is the node `n` with the child `B` added after its last child, below the
separator `σ`. -/
structure Node.PushBack (n m : Node) (B : Nat) (σ : Int) : Prop where
  ty : m.type = n.type
  par : m.parent = n.parent
  left : m.left_sibling = n.left_sibling
  right : m.right_sibling = n.right_sibling
  size : m.size = n.size + 1
  len : m.key_ref.length = ORDER + 1
  kid : ∀ j, j ≤ n.size → m.kid j = n.kid j
  kidB : m.kid (n.size + 1) = some B
  sep : ∀ j, j < n.size → m.sep j = n.sep j
  sepB : m.sep n.size = σ
  dummy : m.sep (n.size + 1) = INT_MAX

/-- The node `m` is the node `n` without its first child and first separator. -/
structure Node.DropFirst (n m : Node) : Prop where
  ty : m.type = n.type
  par : m.parent = n.parent
  left : m.left_sibling = n.left_sibling
  right : m.right_sibling = n.right_sibling
  size : m.size + 1 = n.size
  len : m.key_ref.length = ORDER + 1
  kid : ∀ j, j ≤ m.size → m.kid j = n.kid (j + 1)
  sep : ∀ j, j ≤ m.size → m.sep j = n.sep (j + 1)

namespace Adj

variable {t : SeqBPlusTree} {lvl : Nat → Nat} {lo hi : Nat → Int} {ov un : Option Nat}
  {A : Nat} {An : Node} {i : Nat} {up1 up2 : List Nat} {N1 N2 : Nat}

/-- The nodes below the two siblings keep their bounds when the separator moves. -/
theorem below (adj : Adj t.heap A An i up1 up2 N1 N2) (hg : Good t lvl lo hi ov un)
    (m : Int) {c : Nat} (hc : lvl c < lvl N1) :
    rebound lo up2 m c = lo c ∧ rebound hi up1 m c = hi c := by
  obtain ⟨_, _, _, _, e⟩ := adj.pchains hg
  constructor
  · refine rebound_not (fun h => ?_)
    obtain ⟨_, _, h2, _⟩ := adj.mem2 hg h
    omega
  · refine rebound_not (fun h => ?_)
    obtain ⟨_, _, h2, _⟩ := adj.mem1 hg h
    omega

/-- The two siblings at a separator slot. -/
theorem pair (adj : Adj t.heap A An i up1 up2 N1 N2) (hg : Good t lvl lo hi ov un)
    {n1 : Node} (h1 : t.heap N1 = some n1) :
    ∃ n2, t.heap N2 = some n2 ∧ n1.right_sibling = some N2 ∧ n2.left_sibling = some N1 ∧
      n2.type = n1.type ∧ lvl N2 = lvl N1 ∧ hi N1 = An.sep i ∧ lo N2 = An.sep i ∧
      lvl N1 < lvl A ∧ N1 ≠ N2 ∧ A ≠ N1 ∧ A ≠ N2 ∧ An.sep i < INT_MAX ∧
      N1 ∉ up2 ∧ N2 ∉ up1 := by
  have hr := adj.hr
  simp only [rightOf, Option.some_bind, h1] at hr
  obtain ⟨n2, b1, b2, b3, b4⟩ := hg.right_info _ N1 n1 N2 rfl h1 hr
  obtain ⟨_, e1, e2, e3, e4, e5, e6⟩ := adj.mem1 hg adj.N1_mem
  obtain ⟨_, f1, f2, f3, f4, f5, f6⟩ := adj.mem2 hg adj.N2_mem
  have r1 := hg.range_ne h1
  have hin := hg.internal_good adj.hA (adj.internal hg)
  refine ⟨n2, b1, hr, b2, hg.type_of_lvl b1 h1 b3, b3, e4, f4, e3, ?_, ?_, ?_,
    hin.sep_max i adj.hi, ?_, ?_⟩
  · intro e; rw [← e] at b4; omega
  · intro e; rw [e] at e3; omega
  · intro e; rw [e] at f3; omega
  · exact fun h => adj.disjoint hg adj.N1_mem h
  · exact fun h => adj.disjoint hg h adj.N2_mem

end Adj


namespace Good

variable {t : SeqBPlusTree} {lvl : Nat → Nat} {lo hi : Nat → Int} {ov un : Option Nat}
  {A : Nat} {An : Node} {i : Nat} {up1 up2 : List Nat} {N1 N2 : Nat}

/-- The first child of an internal node moves to the end of its left sibling: the separator
between the two comes down into the left sibling and the first separator of the right one
goes up in its place. The invariant holds with the new separator as the bound. -/
theorem rotate_to_left (hg : Good t lvl lo hi ov un) (adj : Adj t.heap A An i up1 up2 N1 N2)
    {n1 n2 m1 m2 bn : Node} {B : Nat} {s : SeqBPlusTree} (ov2 un2 : Option Nat)
    (h1 : t.heap N1 = some n1) (h2 : t.heap N2 = some n2)
    (hty : n1.type = NodeType.INTERNAL) (hs1 : n1.size ≤ 2) (hs2 : 2 ≤ n2.size)
    (hB : n2.kid 0 = some B) (hb : t.heap B = some bn)
    (p1 : n1.PushBack m1 B (An.sep i)) (p2 : n2.DropFirst m2)
    (hroot : s.root = t.root) (hnext : s.next = t.next) (hdepth : s.depth = t.depth)
    (sN1 : s.heap N1 = some m1) (sN2 : s.heap N2 = some m2)
    (sA : s.heap A = some (An.set_sep i (n2.sep 0)))
    (sB : s.heap B = some { bn with parent := some N1 })
    (sO : ∀ a, a ≠ N1 → a ≠ N2 → a ≠ A → a ≠ B → s.heap a = t.heap a)
    (hov : ∀ b, ov = some b → b ≠ N1 → b ≠ N2 → ov2 = some b)
    (hun : ∀ b, un = some b → b ≠ N1 → b ≠ N2 → un2 = some b) :
    Good s lvl (rebound lo up2 (n2.sep 0)) (rebound hi up1 (n2.sep 0)) ov2 un2 ∧
    LeafSame t.heap s.heap := by
  obtain ⟨n2b, b1, hr, hl2, hty2, hlv, hhi1, hlo2, hlA, hne, hA1, hA2, hσ, hno1, hno2⟩ :=
    adj.pair hg h1
  rw [h2] at b1; cases b1
  rw [hty] at hty2
  have hin1 := hg.internal_good h1 hty
  have hin2 := hg.internal_good h2 hty2
  obtain ⟨z1, z2⟩ := hg.size_le_four h2 hty2
  have r1 := hg.range_ne h1
  have r2 := hg.range_ne h2
  have hm1 : lo N1 < n2.sep 0 := by
    have := hin2.sep_lo 0 (by omega)
    omega
  have hm2 := hin2.sep_hi 0 (by omega)
  have hm3 := hin2.sep_max 0 (by omega)
  obtain ⟨_, k1, k2, k3, k4, k5⟩ := hg.kid_live h2 (Nat.zero_le _) hB
  rw [hb] at k1; cases k1
  have hloB : lo B = An.sep i := by rw [k4, ← hlo2]; rfl
  have hhiB : hi B = n2.sep 0 := by
    rw [k5]; unfold hib; rw [if_neg (by omega)]
  have hBN1 : B ≠ N1 := by intro e; rw [e] at k3; omega
  have hBN2 : B ≠ N2 := by intro e; rw [e] at k3; omega
  have hBA : B ≠ A := by intro e; rw [e] at k3; omega
  -- the children of the two nodes other than the one that moves
  have hkid1 : ∀ j, j ≤ n1.size → ∃ c cn, n1.kid j = some c ∧ s.heap c = some cn ∧
      t.heap c = some cn ∧ cn.parent = some N1 ∧ lvl c + 1 = lvl N1 ∧ c ≠ B ∧
      lo c = lob n1 (lo N1) j ∧ hi c = hib n1 (hi N1) j := by
    intro j hj
    obtain ⟨c, cn, a1, a2, a3, a4, a5, a6⟩ := hin1.kids j hj
    have hcB : c ≠ B := by
      intro e
      rw [e, hb] at a2; cases a2
      rw [k2] at a3
      exact hne (Option.some.inj a3).symm
    refine ⟨c, cn, a1, ?_, a2, a3, a4, hcB, a5, a6⟩
    rw [sO c (by intro e; rw [e] at a4; omega) (by intro e; rw [e] at a4; omega)
      (by intro e; rw [e] at a4; omega) hcB]
    exact a2
  have hkid2 : ∀ j, 1 ≤ j → j ≤ n2.size → ∃ c cn, n2.kid j = some c ∧ s.heap c = some cn ∧
      t.heap c = some cn ∧ cn.parent = some N2 ∧ lvl c + 1 = lvl N2 ∧ c ≠ B ∧
      lo c = lob n2 (lo N2) j ∧ hi c = hib n2 (hi N2) j := by
    intro j hj0 hj
    obtain ⟨c, cn, a1, a2, a3, a4, a5, a6⟩ := hin2.kids j hj
    have hcB : c ≠ B := by
      intro e
      rw [e, ← hB] at a1
      have := hin2.kid_inj j 0 hj (Nat.zero_le _) a1
      omega
    refine ⟨c, cn, a1, ?_, a2, a3, a4, hcB, a5, a6⟩
    rw [sO c (by intro e; rw [e] at a4; omega) (by intro e; rw [e] at a4; omega)
      (by intro e; rw [e] at a4; omega) hcB]
    exact a2
  have hnl : n1.left_sibling ≠ some N1 := by
    intro e
    obtain ⟨_, q1, q2, _⟩ := hg.left_info _ N1 n1 N1 rfl h1 e
    rw [h1] at q1; cases q1
    rw [hr] at q2
    exact hne (Option.some.inj q2).symm
  have hnr : n2.right_sibling ≠ some N2 := by
    intro e
    obtain ⟨_, q1, q2, _⟩ := hg.right_info _ N2 n2 N2 rfl h2 e
    rw [h2] at q1; cases q1
    rw [hl2] at q2
    exact hne (Option.some.inj q2)
  have st : BoundaryStep t s lvl lo hi ov ov2 un un2 A An i up1 up2 N1 N2 n1 n2 m1 m2
      (n2.sep 0) (fun d => d = B) N1 := by
    refine {
      good := hg
      adj := adj
      h1 := h1
      h2 := h2
      hr := hr
      hm1 := hm1
      hm2 := hm2
      hm3 := hm3
      hov := hov
      hun := hun
      root_eq := hroot
      next_eq := hnext
      depth_eq := hdepth
      sA := sA
      s1 := sN1
      s2 := sN2
      sD := ?_
      sO := fun a e1 e2 e3 e4 => sO a e2 e3 e1 e4
      ty1 := p1.ty
      par1 := p1.par
      left1 := p1.left
      right1 := p1.right
      ty2 := p2.ty
      par2 := p2.par
      left2 := p2.left
      right2 := p2.right
      first1 := p1.kid 0 (Nat.zero_le _)
      last2 := by rw [p2.kid _ (le_refl _), p2.size]
      kid1 := fun a j hj hk _ => ⟨j, by rw [p1.size]; omega, by rw [p1.kid j hj]; exact hk⟩
      kid2 := ?_
      kidD := ?_
      leaf1 := fun h => by rw [hty] at h; cases h
      leaf2 := fun h => by rw [hty2] at h; cases h
      int1 := ?_
      int2 := ?_ }
    · intro d hd
      rw [hd]
      exact ⟨bn, hb, Or.inr k2, sB⟩
    · intro a j hj hk hD
      have hj0 : j ≠ 0 := by
        intro e
        rw [e, hB] at hk
        exact hD (Option.some.inj hk).symm
      refine ⟨j - 1, by have := p2.size; omega, ?_⟩
      rw [p2.kid (j - 1) (by have := p2.size; omega), show j - 1 + 1 = j by omega]
      exact hk
    · intro d hd
      rw [hd]
      exact ⟨m1, n1.size + 1, sN1, p1.ty.trans hty, by rw [p1.size], p1.kidB⟩
    · -- the left node with the child added
      intro _ ⟨sl, sr, sf, slast⟩
      have eLo : rebound lo up2 (n2.sep 0) N1 = lo N1 := rebound_not hno1
      have eHi : rebound hi up1 (n2.sep 0) N1 = n2.sep 0 := rebound_mem adj.N1_mem
      constructor
      · exact p1.len
      · left; rw [p1.size]; show n1.size + 1 ≤ 3; omega
      · left; rw [p1.size]; omega
      · intro a b hab hb2
        rw [p1.size] at hb2
        rw [p1.sep a (by omega)]
        by_cases e : b = n1.size
        · rw [e, p1.sepB, ← hhi1]
          exact hin1.sep_hi a (by omega)
        · rw [p1.sep b (by omega)]
          exact hin1.sep_sorted a b hab (by omega)
      · intro a ha
        rw [p1.size] at ha
        rw [eLo]
        by_cases e : a = n1.size
        · rw [e, p1.sepB]; omega
        · rw [p1.sep a (by omega)]; exact hin1.sep_lo a (by omega)
      · intro a ha
        rw [p1.size] at ha
        rw [eHi]
        have := hin2.sep_lo 0 (by omega)
        by_cases e : a = n1.size
        · rw [e, p1.sepB]; omega
        · rw [p1.sep a (by omega)]
          have := hin1.sep_hi a (by omega)
          omega
      · intro a ha
        rw [p1.size] at ha
        by_cases e : a = n1.size
        · rw [e, p1.sepB]; exact hσ
        · rw [p1.sep a (by omega)]; exact hin1.sep_max a (by omega)
      · rw [p1.size]; exact p1.dummy
      · intro j hj
        rw [p1.size] at hj
        by_cases e : j = n1.size + 1
        · refine ⟨B, _, by rw [e]; exact p1.kidB, sB, rfl, by omega, ?_, ?_⟩
          · rw [(adj.below hg _ (show lvl B < lvl N1 by omega)).1, hloB]
            unfold lob
            rw [if_neg (by omega), e, show n1.size + 1 - 1 = n1.size by omega, p1.sepB]
          · rw [(adj.below hg _ (show lvl B < lvl N1 by omega)).2, hhiB, eHi]
            unfold hib
            rw [if_pos (by rw [p1.size, e])]
        · obtain ⟨c, cn, a1, a2, a3, a4, a5, a6, a7, a8⟩ := hkid1 j (by omega)
          refine ⟨c, cn, by rw [p1.kid j (by omega)]; exact a1, a2, a4, a5, ?_, ?_⟩
          · rw [(adj.below hg _ (show lvl c < lvl N1 by omega)).1, a7, eLo]
            unfold lob
            by_cases j0 : j = 0
            · rw [if_pos j0, if_pos j0]
            · rw [if_neg j0, if_neg j0, p1.sep (j - 1) (by omega)]
          · rw [(adj.below hg _ (show lvl c < lvl N1 by omega)).2, a8]
            unfold hib
            rw [if_neg (show ¬ j = m1.size by rw [p1.size]; omega)]
            by_cases e2 : j = n1.size
            · rw [if_pos e2, e2, p1.sepB, hhi1]
            · rw [if_neg e2, p1.sep j (by omega)]
      · intro a b ha hb2 hab
        rw [p1.size] at ha hb2
        by_cases ea : a = n1.size + 1
        · by_cases eb : b = n1.size + 1
          · omega
          · exfalso
            obtain ⟨c, cn, a1, a2, a3, a4, a5, a6, _⟩ := hkid1 b (by omega)
            rw [ea, p1.kidB, p1.kid b (by omega), a1] at hab
            exact a6 (Option.some.inj hab).symm
        · by_cases eb : b = n1.size + 1
          · exfalso
            obtain ⟨c, cn, a1, a2, a3, a4, a5, a6, _⟩ := hkid1 a (by omega)
            rw [eb, p1.kidB, p1.kid a (by omega), a1] at hab
            exact a6 (Option.some.inj hab)
          · rw [p1.kid a (by omega), p1.kid b (by omega)] at hab
            exact hin1.kid_inj a b (by omega) (by omega) hab
      · intro j hj
        rw [p1.size] at hj
        rw [sl, sr, p1.kid j (by omega)]
        by_cases e : j = n1.size
        · rw [e, p1.kidB]
          constructor
          · rw [hin1.sib_right, hr]
            simp only [firstKid, Option.some_bind, h2, hB]
          · rw [← hB, hin2.sib_left, hl2]
            simp only [lastKid, Option.some_bind, h1]
        · rw [p1.kid (j + 1) (by omega)]
          exact hin1.sib_in j (by omega)
      · rw [sl, p1.kid 0 (Nat.zero_le _), hin1.sib_left, p1.left, slast _ hnl]
      · rw [sr, p1.size, p1.kidB, p1.right, hr]
        simp only [firstKid, Option.some_bind, sN2, p2.kid 0 (Nat.zero_le _)]
        rw [← hB]
        exact (hin2.sib_in 0 (by omega)).1
    · -- the right node without its first child
      intro _ ⟨sl, sr, sf, slast⟩
      have eLo : rebound lo up2 (n2.sep 0) N2 = n2.sep 0 := rebound_mem adj.N2_mem
      have eHi : rebound hi up1 (n2.sep 0) N2 = hi N2 := rebound_not hno2
      have hsz := p2.size
      constructor
      · exact p2.len
      · left; show m2.size ≤ 3; omega
      · left; omega
      · intro a b hab hb2
        rw [p2.sep a (by omega), p2.sep b (by omega)]
        exact hin2.sep_sorted _ _ (by omega) (by omega)
      · intro a ha
        rw [eLo, p2.sep a (by omega)]
        exact hin2.sep_sorted _ _ (by omega) (by omega)
      · intro a ha
        rw [eHi, p2.sep a (by omega)]
        exact hin2.sep_hi _ (by omega)
      · intro a ha
        rw [p2.sep a (by omega)]
        exact hin2.sep_max _ (by omega)
      · rw [p2.sep _ (le_refl _), hsz]; exact hin2.dummy
      · intro j hj
        obtain ⟨c, cn, a1, a2, a3, a4, a5, a6, a7, a8⟩ := hkid2 (j + 1) (by omega) (by omega)
        refine ⟨c, cn, by rw [p2.kid j hj]; exact a1, a2, a4, a5, ?_, ?_⟩
        · rw [(adj.below hg _ (show lvl c < lvl N1 by omega)).1, a7, eLo]
          unfold lob
          rw [if_neg (by omega), show j + 1 - 1 = j by omega]
          by_cases j0 : j = 0
          · rw [if_pos j0, j0]
          · rw [if_neg j0, p2.sep (j - 1) (by omega), show j - 1 + 1 = j by omega]
        · rw [(adj.below hg _ (show lvl c < lvl N1 by omega)).2, a8, eHi]
          unfold hib
          by_cases e2 : j = m2.size
          · rw [if_pos e2, if_pos (by omega)]
          · rw [if_neg e2, if_neg (by omega), p2.sep j (by omega)]
      · intro a b ha hb2 hab
        rw [p2.kid a ha, p2.kid b hb2] at hab
        have := hin2.kid_inj _ _ (by omega) (by omega) hab
        omega
      · intro j hj
        rw [sl, sr, p2.kid j (by omega), p2.kid (j + 1) (by omega)]
        exact hin2.sib_in (j + 1) (by omega)
      · rw [sl, p2.kid 0 (Nat.zero_le _), p2.left, hl2]
        simp only [lastKid, Option.some_bind, sN1, p1.size, p1.kidB]
        rw [← hB]
        exact (hin2.sib_in 0 (by omega)).2
      · rw [sr, p2.kid _ (le_refl _), hsz, hin2.sib_right, p2.right, sf _ hnr]
  exact ⟨st.b_good_after, st.b_leaf_same hty⟩

end Good


/-- The node `m` is the node `n` without its last child; its last separator is the dummy. -/
structure Node.DropLast (n m : Node) : Prop where
  ty : m.type = n.type
  par : m.parent = n.parent
  left : m.left_sibling = n.left_sibling
  right : m.right_sibling = n.right_sibling
  size : m.size + 1 = n.size
  len : m.key_ref.length = ORDER + 1
  kid : ∀ j, j ≤ m.size → m.kid j = n.kid j
  sep : ∀ j, j < m.size → m.sep j = n.sep j
  dummy : m.sep m.size = INT_MAX

/-- The node `m` is the node `n` with the child `B` added before its first child, below the
separator `σ`. -/
structure Node.PushFront (n m : Node) (B : Nat) (σ : Int) : Prop where
  ty : m.type = n.type
  par : m.parent = n.parent
  left : m.left_sibling = n.left_sibling
  right : m.right_sibling = n.right_sibling
  size : m.size = n.size + 1
  len : m.key_ref.length = ORDER + 1
  kidB : m.kid 0 = some B
  kid : ∀ j, j ≤ n.size → m.kid (j + 1) = n.kid j
  sepB : m.sep 0 = σ
  sep : ∀ j, j ≤ n.size → m.sep (j + 1) = n.sep j

namespace Good

variable {t : SeqBPlusTree} {lvl : Nat → Nat} {lo hi : Nat → Int} {ov un : Option Nat}
  {A : Nat} {An : Node} {i : Nat} {up1 up2 : List Nat} {N1 N2 : Nat}

/-- The last child of an internal node moves to the front of its right sibling: the
separator between the two comes down into the right sibling and the last separator of the
left one goes up in its place. The invariant holds with the new separator as the bound. -/
theorem rotate_to_right (hg : Good t lvl lo hi ov un) (adj : Adj t.heap A An i up1 up2 N1 N2)
    {n1 n2 m1 m2 bn : Node} {B : Nat} {s : SeqBPlusTree} (ov2 un2 : Option Nat)
    (h1 : t.heap N1 = some n1) (h2 : t.heap N2 = some n2)
    (hty : n1.type = NodeType.INTERNAL) (hs1 : 2 ≤ n1.size) (hs2 : n2.size ≤ 2)
    (hB : n1.kid n1.size = some B) (hb : t.heap B = some bn)
    (p1 : n1.DropLast m1) (p2 : n2.PushFront m2 B (An.sep i))
    (hroot : s.root = t.root) (hnext : s.next = t.next) (hdepth : s.depth = t.depth)
    (sN1 : s.heap N1 = some m1) (sN2 : s.heap N2 = some m2)
    (sA : s.heap A = some (An.set_sep i (n1.sep (n1.size - 1))))
    (sB : s.heap B = some { bn with parent := some N2 })
    (sO : ∀ a, a ≠ N1 → a ≠ N2 → a ≠ A → a ≠ B → s.heap a = t.heap a)
    (hov : ∀ b, ov = some b → b ≠ N1 → b ≠ N2 → ov2 = some b)
    (hun : ∀ b, un = some b → b ≠ N1 → b ≠ N2 → un2 = some b) :
    Good s lvl (rebound lo up2 (n1.sep (n1.size - 1))) (rebound hi up1 (n1.sep (n1.size - 1)))
      ov2 un2 ∧
    LeafSame t.heap s.heap := by
  obtain ⟨n2b, b1, hr, hl2, hty2, hlv, hhi1, hlo2, hlA, hne, hA1, hA2, hσ, hno1, hno2⟩ :=
    adj.pair hg h1
  rw [h2] at b1; cases b1
  rw [hty] at hty2
  have hin1 := hg.internal_good h1 hty
  have hin2 := hg.internal_good h2 hty2
  obtain ⟨z1, z2⟩ := hg.size_le_four h1 hty
  have r1 := hg.range_ne h1
  have r2 := hg.range_ne h2
  have hm1 := hin1.sep_lo (n1.size - 1) (by omega)
  have hm2 := hin1.sep_hi (n1.size - 1) (by omega)
  have hm3 := hin1.sep_max (n1.size - 1) (by omega)
  obtain ⟨_, k1, k2, k3, k4, k5⟩ := hg.kid_live h1 (le_refl _) hB
  rw [hb] at k1; cases k1
  have hloB : lo B = n1.sep (n1.size - 1) := by
    rw [k4]; unfold lob; rw [if_neg (by omega)]
  have hhiB : hi B = An.sep i := by
    rw [k5, ← hhi1]; unfold hib; rw [if_pos rfl]
  have hBN1 : B ≠ N1 := by intro e; rw [e] at k3; omega
  have hBN2 : B ≠ N2 := by intro e; rw [e] at k3; omega
  have hBA : B ≠ A := by intro e; rw [e] at k3; omega
  have hsz1 := p1.size
  have hkid1 : ∀ j, j < n1.size → ∃ c cn, n1.kid j = some c ∧ s.heap c = some cn ∧
      t.heap c = some cn ∧ cn.parent = some N1 ∧ lvl c + 1 = lvl N1 ∧ c ≠ B ∧
      lo c = lob n1 (lo N1) j ∧ hi c = hib n1 (hi N1) j := by
    intro j hj
    obtain ⟨c, cn, a1, a2, a3, a4, a5, a6⟩ := hin1.kids j (by omega)
    have hcB : c ≠ B := by
      intro e
      rw [e, ← hB] at a1
      have := hin1.kid_inj j n1.size (by omega) (le_refl _) a1
      omega
    refine ⟨c, cn, a1, ?_, a2, a3, a4, hcB, a5, a6⟩
    rw [sO c (by intro e; rw [e] at a4; omega) (by intro e; rw [e] at a4; omega)
      (by intro e; rw [e] at a4; omega) hcB]
    exact a2
  have hkid2 : ∀ j, j ≤ n2.size → ∃ c cn, n2.kid j = some c ∧ s.heap c = some cn ∧
      t.heap c = some cn ∧ cn.parent = some N2 ∧ lvl c + 1 = lvl N2 ∧ c ≠ B ∧
      lo c = lob n2 (lo N2) j ∧ hi c = hib n2 (hi N2) j := by
    intro j hj
    obtain ⟨c, cn, a1, a2, a3, a4, a5, a6⟩ := hin2.kids j hj
    have hcB : c ≠ B := by
      intro e
      rw [e, hb] at a2; cases a2
      rw [k2] at a3
      exact hne (Option.some.inj a3)
    refine ⟨c, cn, a1, ?_, a2, a3, a4, hcB, a5, a6⟩
    rw [sO c (by intro e; rw [e] at a4; omega) (by intro e; rw [e] at a4; omega)
      (by intro e; rw [e] at a4; omega) hcB]
    exact a2
  have hnl : n1.left_sibling ≠ some N1 := by
    intro e
    obtain ⟨_, q1, q2, _⟩ := hg.left_info _ N1 n1 N1 rfl h1 e
    rw [h1] at q1; cases q1
    rw [hr] at q2
    exact hne (Option.some.inj q2).symm
  have hnr : n2.right_sibling ≠ some N2 := by
    intro e
    obtain ⟨_, q1, q2, _⟩ := hg.right_info _ N2 n2 N2 rfl h2 e
    rw [h2] at q1; cases q1
    rw [hl2] at q2
    exact hne (Option.some.inj q2)
  have st : BoundaryStep t s lvl lo hi ov ov2 un un2 A An i up1 up2 N1 N2 n1 n2 m1 m2
      (n1.sep (n1.size - 1)) (fun d => d = B) N2 := by
    refine {
      good := hg
      adj := adj
      h1 := h1
      h2 := h2
      hr := hr
      hm1 := hm1
      hm2 := by omega
      hm3 := hm3
      hov := hov
      hun := hun
      root_eq := hroot
      next_eq := hnext
      depth_eq := hdepth
      sA := sA
      s1 := sN1
      s2 := sN2
      sD := ?_
      sO := fun a e1 e2 e3 e4 => sO a e2 e3 e1 e4
      ty1 := p1.ty
      par1 := p1.par
      left1 := p1.left
      right1 := p1.right
      ty2 := p2.ty
      par2 := p2.par
      left2 := p2.left
      right2 := p2.right
      first1 := p1.kid 0 (Nat.zero_le _)
      last2 := by rw [p2.size, p2.kid _ (le_refl _)]
      kid1 := ?_
      kid2 := fun a j hj hk _ => ⟨j + 1, by rw [p2.size]; omega, by rw [p2.kid j hj]; exact hk⟩
      kidD := ?_
      leaf1 := fun h => by rw [hty] at h; cases h
      leaf2 := fun h => by rw [hty2] at h; cases h
      int1 := ?_
      int2 := ?_ }
    · intro d hd
      rw [hd]
      exact ⟨bn, hb, Or.inl k2, sB⟩
    · intro a j hj hk hD
      have hjn : j ≠ n1.size := by
        intro e
        rw [e, hB] at hk
        exact hD (Option.some.inj hk).symm
      exact ⟨j, by omega, by rw [p1.kid j (by omega)]; exact hk⟩
    · intro d hd
      rw [hd]
      exact ⟨m2, 0, sN2, p2.ty.trans hty2, Nat.zero_le _, p2.kidB⟩
    · -- the left node without its last child
      intro _ ⟨sl, sr, sf, slast⟩
      have eLo : rebound lo up2 (n1.sep (n1.size - 1)) N1 = lo N1 := rebound_not hno1
      have eHi : rebound hi up1 (n1.sep (n1.size - 1)) N1 = n1.sep (n1.size - 1) :=
        rebound_mem adj.N1_mem
      constructor
      · exact p1.len
      · left; show m1.size ≤ 3; omega
      · left; omega
      · intro a b hab hb2
        rw [p1.sep a (by omega), p1.sep b (by omega)]
        exact hin1.sep_sorted _ _ hab (by omega)
      · intro a ha
        rw [eLo, p1.sep a ha]
        exact hin1.sep_lo _ (by omega)
      · intro a ha
        rw [eHi, p1.sep a ha]
        exact hin1.sep_sorted _ _ (by omega) (by omega)
      · intro a ha
        rw [p1.sep a ha]
        exact hin1.sep_max _ (by omega)
      · exact p1.dummy
      · intro j hj
        obtain ⟨c, cn, a1, a2, a3, a4, a5, a6, a7, a8⟩ := hkid1 j (by omega)
        refine ⟨c, cn, by rw [p1.kid j hj]; exact a1, a2, a4, a5, ?_, ?_⟩
        · rw [(adj.below hg _ (show lvl c < lvl N1 by omega)).1, a7, eLo]
          unfold lob
          by_cases j0 : j = 0
          · rw [if_pos j0, if_pos j0]
          · rw [if_neg j0, if_neg j0, p1.sep (j - 1) (by omega)]
        · rw [(adj.below hg _ (show lvl c < lvl N1 by omega)).2, a8, eHi]
          unfold hib
          rw [if_neg (show ¬ j = n1.size by omega)]
          by_cases e2 : j = m1.size
          · rw [if_pos e2, e2, show m1.size = n1.size - 1 by omega]
          · rw [if_neg e2, p1.sep j (by omega)]
      · intro a b ha hb2 hab
        rw [p1.kid a ha, p1.kid b hb2] at hab
        exact hin1.kid_inj a b (by omega) (by omega) hab
      · intro j hj
        rw [sl, sr, p1.kid j (by omega), p1.kid (j + 1) (by omega)]
        exact hin1.sib_in j (by omega)
      · rw [sl, p1.kid 0 (Nat.zero_le _), hin1.sib_left, p1.left, slast _ hnl]
      · rw [sr, p1.kid _ (le_refl _), p1.right, hr]
        simp only [firstKid, Option.some_bind, sN2, p2.kidB]
        rw [← hB, ← hsz1]
        exact (hin1.sib_in m1.size (by omega)).1
    · -- the right node with the child added
      intro _ ⟨sl, sr, sf, slast⟩
      have eLo : rebound lo up2 (n1.sep (n1.size - 1)) N2 = n1.sep (n1.size - 1) :=
        rebound_mem adj.N2_mem
      have eHi : rebound hi up1 (n1.sep (n1.size - 1)) N2 = hi N2 := rebound_not hno2
      have hsz := p2.size
      constructor
      · exact p2.len
      · left; show m2.size ≤ 3; omega
      · left; omega
      · intro a b hab hb2
        obtain ⟨b0, rfl⟩ : ∃ b0, b = b0 + 1 := ⟨b - 1, by omega⟩
        rw [p2.sep b0 (by omega)]
        by_cases a0 : a = 0
        · rw [a0, p2.sepB, ← hlo2]
          exact hin2.sep_lo _ (by omega)
        · obtain ⟨a1, rfl⟩ : ∃ a1, a = a1 + 1 := ⟨a - 1, by omega⟩
          rw [p2.sep a1 (by omega)]
          exact hin2.sep_sorted _ _ (by omega) (by omega)
      · intro a ha
        rw [eLo]
        by_cases a0 : a = 0
        · rw [a0, p2.sepB]; omega
        · obtain ⟨a1, rfl⟩ : ∃ a1, a = a1 + 1 := ⟨a - 1, by omega⟩
          rw [p2.sep a1 (by omega)]
          have := hin2.sep_lo a1 (by omega)
          omega
      · intro a ha
        rw [eHi]
        by_cases a0 : a = 0
        · rw [a0, p2.sepB]; omega
        · obtain ⟨a1, rfl⟩ : ∃ a1, a = a1 + 1 := ⟨a - 1, by omega⟩
          rw [p2.sep a1 (by omega)]
          exact hin2.sep_hi a1 (by omega)
      · intro a ha
        by_cases a0 : a = 0
        · rw [a0, p2.sepB]; exact hσ
        · obtain ⟨a1, rfl⟩ : ∃ a1, a = a1 + 1 := ⟨a - 1, by omega⟩
          rw [p2.sep a1 (by omega)]
          exact hin2.sep_max a1 (by omega)
      · rw [hsz, p2.sep _ (le_refl _)]; exact hin2.dummy
      · intro j hj
        by_cases j0 : j = 0
        · refine ⟨B, _, by rw [j0]; exact p2.kidB, sB, rfl, by omega, ?_, ?_⟩
          · rw [(adj.below hg _ (show lvl B < lvl N1 by omega)).1, hloB, eLo, j0]
            unfold lob
            rw [if_pos rfl]
          · rw [(adj.below hg _ (show lvl B < lvl N1 by omega)).2, hhiB, j0]
            unfold hib
            rw [if_neg (by omega), p2.sepB]
        · obtain ⟨j1, rfl⟩ : ∃ j1, j = j1 + 1 := ⟨j - 1, by omega⟩
          obtain ⟨c, cn, a1, a2, a3, a4, a5, a6, a7, a8⟩ := hkid2 j1 (by omega)
          refine ⟨c, cn, by rw [p2.kid j1 (by omega)]; exact a1, a2, a4, a5, ?_, ?_⟩
          · rw [(adj.below hg _ (show lvl c < lvl N1 by omega)).1, a7]
            unfold lob
            rw [if_neg (show ¬ j1 + 1 = 0 by omega), show j1 + 1 - 1 = j1 by omega]
            by_cases e0 : j1 = 0
            · rw [if_pos e0, e0, p2.sepB, hlo2]
            · rw [if_neg e0]
              obtain ⟨j2, rfl⟩ : ∃ j2, j1 = j2 + 1 := ⟨j1 - 1, by omega⟩
              rw [p2.sep j2 (by omega), show j2 + 1 - 1 = j2 by omega]
          · rw [(adj.below hg _ (show lvl c < lvl N1 by omega)).2, a8, eHi]
            unfold hib
            by_cases e2 : j1 = n2.size
            · rw [if_pos e2, if_pos (by omega)]
            · rw [if_neg e2, if_neg (by omega), p2.sep j1 (by omega)]
      · intro a b ha hb2 hab
        by_cases ea : a = 0
        · by_cases eb : b = 0
          · omega
          · exfalso
            obtain ⟨b1, rfl⟩ : ∃ b1, b = b1 + 1 := ⟨b - 1, by omega⟩
            obtain ⟨c, cn, a1, a2, a3, a4, a5, a6, _⟩ := hkid2 b1 (by omega)
            rw [ea, p2.kidB, p2.kid b1 (by omega), a1] at hab
            exact a6 (Option.some.inj hab).symm
        · obtain ⟨a1, rfl⟩ : ∃ a1, a = a1 + 1 := ⟨a - 1, by omega⟩
          by_cases eb : b = 0
          · exfalso
            obtain ⟨c, cn, c1, a2, a3, a4, a5, a6, _⟩ := hkid2 a1 (by omega)
            rw [eb, p2.kidB, p2.kid a1 (by omega), c1] at hab
            exact a6 (Option.some.inj hab)
          · obtain ⟨b1, rfl⟩ : ∃ b1, b = b1 + 1 := ⟨b - 1, by omega⟩
            rw [p2.kid a1 (by omega), p2.kid b1 (by omega)] at hab
            have := hin2.kid_inj a1 b1 (by omega) (by omega) hab
            omega
      · intro j hj
        rw [sl, sr, p2.kid j (by omega)]
        by_cases e : j = 0
        · rw [e, p2.kidB]
          constructor
          · rw [← hB, hin1.sib_right, hr]
            simp only [firstKid, Option.some_bind, h2]
          · rw [hin2.sib_left, hl2]
            simp only [lastKid, Option.some_bind, h1, hB]
        · obtain ⟨j1, rfl⟩ : ∃ j1, j = j1 + 1 := ⟨j - 1, by omega⟩
          rw [p2.kid j1 (by omega)]
          exact hin2.sib_in j1 (by omega)
      · rw [sl, p2.kidB, p2.left, hl2]
        simp only [lastKid, Option.some_bind, sN1, p1.kid _ (le_refl _)]
        rw [← hB, ← hsz1]
        exact (hin1.sib_in m1.size (by omega)).2
      · rw [sr, hsz, p2.kid _ (le_refl _), hin2.sib_right, p2.right, sf _ hnr]
  exact ⟨st.b_good_after, st.b_leaf_same hty⟩

end Good


/-- An internal node with new slots and a new size. -/
def Node.with_refs (n : Node) (kr : List KeyReferencePair) (sz : Nat) : Node :=
  { n with key_ref := kr, size := sz }

/-- A node with a new parent. -/
def Node.with_par (n : Node) (p : Option Nat) : Node := { n with parent := p }

namespace SeqBPlusTree

/-- One step of the walk down through first children. -/
theorem min_key_step (h : Nat → Option Node) {f : Nat} (hf : 0 < f) {x : Nat} {n : Node}
    {kr : KeyReferencePair} (hx : h x = some n) (hty : n.type = NodeType.INTERNAL)
    (hk : n.key_ref.get? 0 = some kr) :
    min_key_in_subtree h f (some x) = min_key_in_subtree h (f - 1) kr.reference := by
  obtain ⟨g, rfl⟩ : ∃ g, f = g + 1 := ⟨f - 1, by omega⟩
  rw [List.get?_eq_getElem?] at hk
  simp [min_key_in_subtree, hx, hty, hk]

set_option maxHeartbeats 1000000 in
/-- The code of `borrow_internal` from the left sibling, for a node without separators. -/
theorem borrow_internal_left_eq {t : SeqBPlusTree} {x L A B i : Nat} (last : Nat)
    {cn ln An bn : Node} {k0 k1 k2 k3 k4 e le : KeyReferencePair} (mk mk2 : Int)
    (hx : t.heap x = some cn) (hL : t.heap L = some ln) (hxL : x ≠ L)
    (hcty : cn.type = NodeType.INTERNAL) (hcsz : cn.size = 0)
    (hck : cn.key_ref = [k0, k1, k2, k3, k4]) (hk0 : k0.key = INT_MAX)
    (hls : 0 < ln.size) (hlen : ln.size < ln.key_ref.length)
    (he : ln.key_ref.get? ln.size = some e) (hle : ln.key_ref.get? (ln.size - 1) = some le)
    (hB : e.reference = some B) (hb : t.heap B = some bn)
    (hA : t.heap A = some An) (hi : i < An.key_ref.length)
    (hAx : A ≠ x) (hAL : A ≠ L) (hBx : B ≠ x) (hBL : B ≠ L) (hBA : B ≠ A)
    (hmk : mk < INT_MAX)
    (hmk1 : ∀ h : Nat → Option Node,
      h x = some (cn.with_refs [k0, e, k2, k3, k4] 1) →
      h L = some (ln.with_refs ln.key_ref (ln.size - 1)) →
      (∀ a, a ≠ x → a ≠ L → h a = t.heap a) →
      min_key_in_subtree h t.next (some x) = some mk)
    (hw : ∀ h : Nat → Option Node,
      h x = some (cn.with_refs [⟨mk, e.reference⟩, k0, k2, k3, k4] 1) →
      h L = some (ln.with_refs (ln.key_ref.set (ln.size - 1) ⟨INT_MAX, le.reference⟩)
        (ln.size - 1)) →
      (∀ a, a ≠ x → a ≠ L → h a = t.heap a) →
      ancestor_walk h t.next cn.parent ln.parent L = some last ∧
      get_key_ref_pair_from_parent h (some last) = some (A, i) ∧
      min_key_in_subtree h t.next (some x) = some mk2) :
    borrow_internal t x L true =
      some ((((((t.set x (cn.with_refs [k0, e, k2, k3, k4] 1)).set L
        (ln.with_refs ln.key_ref (ln.size - 1))).set x
        (cn.with_refs [⟨mk, e.reference⟩, k0, k2, k3, k4] 1)).set L
        (ln.with_refs (ln.key_ref.set (ln.size - 1) ⟨INT_MAX, le.reference⟩)
          (ln.size - 1))).set A (An.set_sep i mk2)).set B (bn.with_par (some x))) := by
  have hsd : size_dec ln.size = some (ln.size - 1) := by
    unfold size_dec; rw [if_pos hls]
  have n1 : ¬ k0.key ≤ mk := by omega
  have hsort : sort_entry_by_key
      { cn with key_ref := [k0, ⟨mk, e.reference⟩, k2, k3, k4], size := 1 } =
      cn.with_refs [⟨mk, e.reference⟩, k0, k2, k3, k4] 1 := by
    simp [sort_entry_by_key, hcty, Node.with_refs, List.orderedInsert, n1]
  simp only [borrow_internal]
  simp only [hL, Option.some_seqBind, if_true, he, hx, hck, hcsz, arr_set, List.length_cons,
    List.length_nil, Nat.reduceAdd, Nat.lt_add_one, Nat.reduceLT, List.set_cons_succ,
    List.set_cons_zero, hsd, set_heap, Function.update_noteq (Ne.symm hxL),
    Function.update_same, Function.update_noteq hxL, fuel, set_next]
  rw [hmk1 _ (by rw [Function.update_noteq hxL, Function.update_same]; rfl)
    (by rw [Function.update_same]; rfl)
    (fun a h1 h2 => by rw [Function.update_noteq h2, Function.update_noteq h1])]
  simp only [Option.some_seqBind, List.get?_cons_succ, List.get?_cons_zero, hsort, hle,
    if_pos (show ln.size - 1 < ln.key_ref.length by omega)]
  obtain ⟨w1, w2, w3⟩ := hw (Function.update (Function.update (Function.update
    (Function.update t.heap x (some (cn.with_refs [k0, e, k2, k3, k4] 1))) L
    (some (ln.with_refs ln.key_ref (ln.size - 1)))) x
    (some (cn.with_refs [⟨mk, e.reference⟩, k0, k2, k3, k4] 1))) L
    (some (ln.with_refs (ln.key_ref.set (ln.size - 1) ⟨INT_MAX, le.reference⟩)
      (ln.size - 1))))
    (by rw [Function.update_noteq hxL, Function.update_same])
    (by rw [Function.update_same])
    (fun a h1 h2 => by
      rw [Function.update_noteq h2, Function.update_noteq h1, Function.update_noteq h2,
        Function.update_noteq h1])
  have w1b := w1
  simp only [Node.with_refs] at w1 w2 w3
  rw [show (cn.with_refs [⟨mk, e.reference⟩, k0, k2, k3, k4] 1).parent = cn.parent from rfl]
  simp only [Node.with_refs]
  rw [w1, Option.some_seqBind, w2, Option.some_seqBind, w3, Option.some_seqBind,
    set_slot_key_eq _ i mk2 (show _ = some An by
      simp only [set_heap]
      rw [Function.update_noteq hAL, Function.update_noteq hAx, Function.update_noteq hAL,
        Function.update_noteq hAx, hA]) hi]
  simp only [Option.map_some', Option.some_seqBind, hB, upd, set_heap,
    Function.update_noteq hBA, Function.update_noteq hBL, Function.update_noteq hBx, hb,
    Option.map_some', Node.with_par]

end SeqBPlusTree


/-- The invariant speaks of the store, the root, the allocator and the depth only. -/
theorem Good.of_same {t s : SeqBPlusTree} {lvl : Nat → Nat} {lo hi : Nat → Int}
    {ov un : Option Nat} (hg : Good t lvl lo hi ov un) (hh : ∀ u, s.heap u = t.heap u)
    (hr : s.root = t.root) (hn : s.next = t.next) (hd : s.depth = t.depth) :
    Good s lvl lo hi ov un := by
  have e : s.heap = t.heap := funext hh
  exact ⟨by rw [hn, e]; exact hg.fresh, by rw [hr, e]; exact hg.root_live,
    by rw [hr, hd]; exact hg.root_lvl, by rw [hr]; exact hg.root_lo,
    by rw [hr]; exact hg.root_hi, by rw [hr, hn]; exact hg.fuel_ok,
    by rw [hr, e]; exact hg.nodes⟩

theorem LeafSame.by_heap {h g k : Nat → Option Node} (a : LeafSame h g)
    (hh : ∀ u, k u = g u) : LeafSame h k := by
  intro u
  rw [hh u]; exact a u

/-- Writing a separator twice is writing the second value. -/
theorem Node.set_sep_twice (n : Node) (i : Nat) (a b : Int) :
    (n.set_sep i a).set_sep i b = n.set_sep i b := by
  unfold Node.set_sep
  simp only [List.modify_eq_set_get?, List.get?_eq_getElem?, List.getElem?_set]
  congr 1
  cases h : n.key_ref[i]? with
  | none => simp [h]
  | some kr =>
    have hi : i < n.key_ref.length := by
      rcases Nat.lt_or_ge i n.key_ref.length with h2 | h2
      · exact h2
      · rw [List.getElem?_eq_none h2] at h; cases h
    simp [h, hi]

/-- The walk down through first children from the top of a chain is the walk from its first
node, with one unit of fuel less for every node above. -/
theorem min_key_down (h : Nat → Option Node) :
    ∀ (l : List Nat) (bot : Nat),
      l.Chain' (fun x y => firstKid h (some y) = some x) → l.head? = some bot →
      (∀ b ∈ l.tail, ∃ n, h b = some n ∧ n.type = NodeType.INTERNAL) →
      ∀ top, l.getLast? = some top → ∀ f,
        SeqBPlusTree.min_key_in_subtree h (f + (l.length - 1)) (some top) =
          SeqBPlusTree.min_key_in_subtree h f (some bot) := by
  intro l
  induction l with
  | nil => intro bot _ hh; cases hh
  | cons x r ih =>
    intro bot hch hh hint top hl f
    simp only [List.head?_cons, Option.some.injEq] at hh
    subst hh
    cases r with
    | nil =>
      simp only [List.getLast?_singleton, Option.some.injEq] at hl
      subst hl
      rfl
    | cons y r2 =>
      rw [List.chain'_cons'] at hch
      have hxy := hch.1 y rfl
      obtain ⟨yn, hy, hty⟩ := hint y (by simp)
      simp only [firstKid, Option.some_bind, hy] at hxy
      have hk : ∃ kr, yn.key_ref.get? 0 = some kr ∧ kr.reference = some x := by
        unfold Node.kid at hxy
        cases hq : yn.key_ref.get? 0 with
        | none => rw [hq] at hxy; cases hxy
        | some kr => rw [hq] at hxy; exact ⟨kr, rfl, hxy⟩
      obtain ⟨kr, hk1, hk2⟩ := hk
      rw [List.getLast?_cons_cons] at hl
      have := ih y hch.2 rfl (fun b hb => hint b (by
        simp only [List.tail_cons] at hb ⊢
        exact List.mem_cons_of_mem _ hb)) top hl (f + 1)
      simp only [List.length_cons] at this ⊢
      rw [show f + (r2.length + 1 + 1 - 1) = f + 1 + (r2.length + 1 - 1) by omega, this,
        SeqBPlusTree.min_key_step h (by omega) hy hty hk1, hk2]
      rfl


/-- Children and separators are read from the slots only. -/
theorem Node.kid_congr {m n : Node} (h : m.key_ref = n.key_ref) (j : Nat) : m.kid j = n.kid j := by
  unfold Node.kid; rw [h]

theorem Node.sep_congr {m n : Node} (h : m.key_ref = n.key_ref) (j : Nat) : m.sep j = n.sep j := by
  unfold Node.sep; rw [h]

/-- The slots after a separator has been written. -/
theorem Node.set_sep_refs (n : Node) (i : Nat) (k : Int) {kr : KeyReferencePair}
    (h : n.key_ref.get? i = some kr) :
    (n.set_sep i k).key_ref = n.key_ref.set i ⟨k, kr.reference⟩ := by
  unfold Node.set_sep
  simp only [List.modify_eq_set_get?, h]
  rfl

/-- An internal node that gives its last child away. -/
theorem Node.drop_last_ok (n : Node) {le : KeyReferencePair} (hs : 0 < n.size)
    (hs4 : n.size ≤ ORDER) (hlen : n.key_ref.length = ORDER + 1)
    (hle : n.key_ref.get? (n.size - 1) = some le) :
    n.DropLast (n.with_refs (n.key_ref.set (n.size - 1) ⟨INT_MAX, le.reference⟩)
      (n.size - 1)) := by
  have e : (n.with_refs (n.key_ref.set (n.size - 1) ⟨INT_MAX, le.reference⟩)
      (n.size - 1)).key_ref = (n.set_sep (n.size - 1) INT_MAX).key_ref := by
    rw [Node.set_sep_refs n _ _ hle]; rfl
  refine ⟨rfl, rfl, rfl, rfl, ?_, ?_, ?_, ?_, ?_⟩
  · show n.size - 1 + 1 = n.size; omega
  · show (n.key_ref.set _ _).length = _; rw [List.length_set]; exact hlen
  · intro j _
    rw [Node.kid_congr e, Node.set_sep_kid]
  · intro j hj
    have hj : j < n.size - 1 := hj
    rw [Node.sep_congr e, Node.set_sep_ne _ _ _ _ (by omega)]
  · show Node.sep _ (n.size - 1) = INT_MAX
    rw [Node.sep_congr e, Node.set_sep_same _ _ _ (by rw [hlen]; omega)]

namespace Good

variable {t : SeqBPlusTree} {lvl : Nat → Nat} {lo hi : Nat → Int} {ov un : Option Nat}

/-- Facts about an internal node without separators: its slots and its only child. -/
theorem lone_kid (hg : Good t lvl lo hi ov un) {x : Nat} {cn : Node}
    (hx : t.heap x = some cn) (hty : cn.type = NodeType.INTERNAL) (hsz : cn.size = 0) :
    ∃ k0 k1 k2 k3 k4 K0 kn, cn.key_ref = [k0, k1, k2, k3, k4] ∧ k0.key = INT_MAX ∧
      k0.reference = some K0 ∧ cn.kid 0 = some K0 ∧ t.heap K0 = some kn ∧
      kn.parent = some x ∧ lvl K0 + 1 = lvl x := by
  have hin := hg.internal_good hx hty
  obtain ⟨k0, k1, k2, k3, k4, hk⟩ := list_len5 cn.key_ref hin.len
  obtain ⟨K0, kn, a1, a2, a3, a4, _⟩ := hin.kids 0 (Nat.zero_le _)
  have hd := hin.dummy
  rw [hsz] at hd
  simp only [Node.sep, hk, List.get?_cons_zero, Option.map_some', Option.getD_some] at hd
  have a1b := a1
  simp only [Node.kid, hk, List.get?_cons_zero, Option.some_bind] at a1b
  exact ⟨k0, k1, k2, k3, k4, K0, kn, hk, hd, a1b, a1, a2, a3, a4⟩

/-- Facts about the last slots of an internal node with a separator. -/
theorem last_slots (hg : Good t lvl lo hi ov un) {L : Nat} {ln : Node}
    (hL : t.heap L = some ln) (hty : ln.type = NodeType.INTERNAL) (hsz : 0 < ln.size) :
    ∃ e le B bn, ln.key_ref.get? ln.size = some e ∧ ln.key_ref.get? (ln.size - 1) = some le ∧
      e.reference = some B ∧ ln.kid ln.size = some B ∧ t.heap B = some bn ∧
      bn.parent = some L ∧ lvl B + 1 = lvl L ∧ ln.size < ln.key_ref.length := by
  have hin := hg.internal_good hL hty
  obtain ⟨s1, s2⟩ := hg.size_le_four hL hty
  obtain ⟨B, bn, a1, a2, a3, a4, _⟩ := hin.kids ln.size (le_refl _)
  have h1 : ln.size < ln.key_ref.length := by omega
  have h2 : ln.size - 1 < ln.key_ref.length := by omega
  refine ⟨ln.key_ref.get ⟨ln.size, h1⟩, ln.key_ref.get ⟨ln.size - 1, h2⟩, B, bn,
    List.get?_eq_get h1, List.get?_eq_get h2, ?_, a1, a2, a3, a4, h1⟩
  have := a1
  simp only [Node.kid, List.get?_eq_get h1, Option.some_bind] at this
  exact this

end Good


namespace SeqBPlusTree

/-- The state after a child has moved between two adjacent internal nodes. -/
def rot_state (t : SeqBPlusTree) (N1 N2 A B : Nat) (m1 m2 a1 b1 : Node) : SeqBPlusTree :=
  (((t.set N1 m1).set N2 m2).set A a1).set B b1

theorem rot_state_heap (t : SeqBPlusTree) (N1 N2 A B : Nat) (m1 m2 a1 b1 : Node) (u : Nat) :
    (rot_state t N1 N2 A B m1 m2 a1 b1).heap u =
      if u = B then some b1 else if u = A then some a1 else if u = N2 then some m2
      else if u = N1 then some m1 else t.heap u := by
  simp only [rot_state, set_heap, Function.update_apply]

end SeqBPlusTree

namespace Good

variable {t : SeqBPlusTree} {lvl : Nat → Nat} {lo hi : Nat → Int} {ov un : Option Nat}

/-- The allocator is above the level of every node. -/
theorem fuel_above (hg : Good t lvl lo hi ov un) {a : Nat} {n : Node} (ha : t.heap a = some n) :
    lvl a + 1 < t.next := by
  have := (hg.nodes a n ha).lvl_le
  have := hg.fuel_ok
  omega

set_option maxHeartbeats 1000000 in
/-- The function `borrow_internal` from the left sibling: the node without separators gets
the last child of its left sibling, and the invariant holds again. -/
theorem borrow_internal_left {x L : Nat} {cn ln : Node}
    (hg : Good t lvl lo hi none (some x))
    (hx : t.heap x = some cn) (hcty : cn.type = NodeType.INTERNAL) (hcsz : cn.size = 0)
    (hl : cn.left_sibling = some L) (hL : t.heap L = some ln) (hls : 2 ≤ ln.size) :
    ∃ s lo2 hi2, SeqBPlusTree.borrow_internal t x L true = some s ∧
      Good s lvl lo2 hi2 none none ∧ LeafSame t.heap s.heap ∧ s.root = t.root ∧
      s.depth = t.depth ∧ s.next = t.next ∧ ∃ B, NodeTook t s x L cn ln true B := by
  obtain ⟨ln2, l1, l2, l3, l4⟩ := hg.left_info _ x cn L rfl hx hl
  rw [hL] at l1; cases l1
  have hlty : ln.type = NodeType.INTERNAL := (hg.type_of_lvl hL hx l3).trans hcty
  obtain ⟨k0, k1, k2, k3, k4, K0, kn, hck, hk0, hk0r, hkid0, hK0, hK0p, hK0l⟩ :=
    hg.lone_kid hx hcty hcsz
  obtain ⟨e, le, B, bn, he, hle, hB, hkB, hb, hbp, hbl, hlen⟩ :=
    hg.last_slots hL hlty (by omega)
  obtain ⟨A, An, i, up1, up2, adj⟩ := hg.adjacent _ L ln x rfl hL l2
  obtain ⟨_, b1, hr, hl2, hty2, hlv, hhi1, hlo2, hlA, hne, hA1, hA2, hσ, hno1, hno2⟩ :=
    adj.pair hg hL
  rw [hx] at b1; cases b1
  have hAty := adj.internal hg
  obtain ⟨sA1, sA2⟩ := hg.size_le_four adj.hA hAty
  obtain ⟨sL1, sL2⟩ := hg.size_le_four hL hlty
  have hinL := hg.internal_good hL hlty
  have hinx := hg.internal_good hx hcty
  have hBx : B ≠ x := by intro h; rw [h] at hbl; omega
  have hBL : B ≠ L := by intro h; rw [h] at hbl; omega
  have hBA : B ≠ A := by intro h; rw [h] at hbl; omega
  have fx := hg.fuel_above hx
  have fA := hg.fuel_above adj.hA
  -- the two nodes after the move
  have p1 := ln.drop_last_ok (by omega) sL1 hinL.len hle
  have p2 : cn.PushFront (cn.with_refs [⟨An.sep i, some B⟩, k0, k2, k3, k4] 1) B (An.sep i) := by
    refine ⟨rfl, rfl, rfl, rfl, by rw [hcsz]; rfl, rfl, rfl, ?_, rfl, ?_⟩
    · intro j hj
      rw [hcsz] at hj
      obtain rfl : j = 0 := by omega
      simp only [Node.kid, Node.with_refs, hck, List.get?_cons_succ, List.get?_cons_zero]
    · intro j hj
      rw [hcsz] at hj
      obtain rfl : j = 0 := by omega
      simp only [Node.sep, Node.with_refs, hck, List.get?_cons_succ, List.get?_cons_zero]
  have hS1 := SeqBPlusTree.rot_state_heap t L x A B
    (ln.with_refs (ln.key_ref.set (ln.size - 1) ⟨INT_MAX, le.reference⟩) (ln.size - 1))
    (cn.with_refs [⟨An.sep i, some B⟩, k0, k2, k3, k4] 1)
    (An.set_sep i (ln.sep (ln.size - 1))) (bn.with_par (some x))
  obtain ⟨hg1, ls1⟩ := hg.rotate_to_right adj none none hL hx hlty hls (by omega) hkB hb p1 p2
    (s := SeqBPlusTree.rot_state t L x A B
      (ln.with_refs (ln.key_ref.set (ln.size - 1) ⟨INT_MAX, le.reference⟩) (ln.size - 1))
      (cn.with_refs [⟨An.sep i, some B⟩, k0, k2, k3, k4] 1)
      (An.set_sep i (ln.sep (ln.size - 1))) (bn.with_par (some x)))
    rfl rfl rfl
    (by rw [hS1, if_neg (Ne.symm hBL), if_neg (Ne.symm hA1), if_neg hne, if_pos rfl])
    (by rw [hS1, if_neg (Ne.symm hBx), if_neg (Ne.symm hA2), if_pos rfl])
    (by rw [hS1, if_neg (Ne.symm hBA), if_pos rfl])
    (by rw [hS1, if_pos rfl]; rfl)
    (fun a e1 e2 e3 e4 => by rw [hS1, if_neg e4, if_neg e3, if_neg e2, if_neg e1])
    (fun b h => by cases h)
    (fun b h _ h2 => absurd (Option.some.inj h).symm h2)
  -- the separator of the node becomes the least key below its old child
  obtain ⟨mk, lo2, hi2, hg2, hmk, ls2, hq1⟩ := hg1.raise_sep (A := x) (i := 0)
    (show _ = some (cn.with_refs [⟨An.sep i, some B⟩, k0, k2, k3, k4] 1) by
      rw [hS1, if_neg (Ne.symm hBx), if_neg (Ne.symm hA2), if_pos rfl])
    hcty (by show 0 < 1; omega) (fun u h => by cases h)
  have hX4 : (cn.with_refs [⟨An.sep i, some B⟩, k0, k2, k3, k4] 1).set_sep 0 mk =
      cn.with_refs [⟨mk, e.reference⟩, k0, k2, k3, k4] 1 := by
    simp [Node.set_sep, Node.with_refs, hB]
  rw [hX4] at hg2 ls2
  -- the separator above becomes the least key below the child that moved
  obtain ⟨mk2, lo3, hi3, hg3, hmk2, ls3, hq2⟩ := hg2.raise_sep (A := A) (i := i)
    (show _ = some (An.set_sep i (ln.sep (ln.size - 1))) by
      simp only [SeqBPlusTree.set_heap]
      rw [Function.update_noteq hA2, hS1, if_neg (Ne.symm hBA), if_pos rfl])
    hAty adj.hi (fun u h => by cases h)
  simp only [Node.set_sep_kid] at hq2
  rw [Node.set_sep_twice] at hg3 ls3
  obtain ⟨c1, c2, c1n, c2n, a1, a2, a3, a4, a5, a6, a7, a8, a9, a10, a11, a12⟩ := adj.tops hg
  have heq := SeqBPlusTree.borrow_internal_left_eq c1 mk mk2 (i := i)
    (A := A) hx hL (Ne.symm hne) hcty hcsz hck hk0 (by omega) hlen he hle hB hb
    adj.hA (by have := adj.hi; omega) hA2 hA1 hBx hBL hBA hmk
    (by
      intro h hhx hhL hho
      rw [SeqBPlusTree.min_key_step h (by omega) hhx hcty (show _ = some k0 from rfl), hk0r]
      have := hq1 h (t.next - 1) (by
        intro b n hbl2 hbn
        have e1 : b ≠ x := by intro e; rw [e] at hbl2; omega
        have e2 : b ≠ L := by intro e; rw [e] at hbl2; omega
        have e3 : b ≠ A := by intro e; rw [e] at hbl2; omega
        rw [hS1, if_neg e3, if_neg e1, if_neg e2] at hbn
        rw [hho b e1 e2]
        by_cases e4 : b = B
        · rw [if_pos e4] at hbn; cases hbn
          rw [e4, hb]; exact ⟨_, rfl, rfl, rfl, rfl⟩
        · rw [if_neg e4] at hbn
          exact ⟨n, hbn, rfl, rfl, rfl⟩) (by omega)
      rw [← this]
      simp only [Node.kid, Node.with_refs, List.get?_cons_succ, List.get?_cons_zero,
        Option.some_bind, hk0r])
    (by
      intro h hhx hhL hho
      have hsame : ∀ b n, t.heap b = some n → ∃ n2, h b = some n2 ∧ n2.parent = n.parent ∧
          (b ≠ x → n2.type = n.type ∧ n2.kid 0 = n.kid 0) := by
        intro b n hbn
        by_cases e1 : b = x
        · rw [e1, hx] at hbn; cases hbn
          rw [e1]; exact ⟨_, hhx, rfl, fun h => absurd rfl h⟩
        · by_cases e2 : b = L
          · rw [e2, hL] at hbn; cases hbn
            rw [e2]; exact ⟨_, hhL, rfl, fun _ => ⟨rfl, p1.kid 0 (Nat.zero_le _)⟩⟩
          · rw [hho b e1 e2]; exact ⟨n, hbn, rfl, fun _ => ⟨rfl, rfl⟩⟩
      refine ⟨?_, ?_, ?_⟩
      · have := adj.walk hg h (fun b _ n hn => by
          obtain ⟨n2, q1, q2, _⟩ := hsame b n hn
          exact ⟨n2, q1, q2⟩) hhL hhx
        rw [a1] at this
        exact this
      · obtain ⟨d1, q1, q2, _⟩ := hsame c1 c1n a5
        have hAh : h A = some An := by rw [hho A hA2 hA1]; exact adj.hA
        refine slot_lookup h q1 (by rw [q2]; exact (hg.kid_parent adj.hA
          (le_of_lt adj.hi) a1 a5).1) hAh (le_of_lt adj.hi) (by omega) a1 ?_
        intro j hj ej
        have := (hg.internal_good adj.hA hAty).kid_inj j i (by have := adj.hi; omega)
          (le_of_lt adj.hi) (ej.trans a1.symm)
        omega
      · have hch : up2.Chain' (fun a b => firstKid h (some b) = some a) := by
          refine chain_first_agree up2 ?_ adj.c2
          intro b hb
          have hbm := List.mem_of_mem_tail hb
          obtain ⟨bnn, q1, q2, q3, _⟩ := adj.mem2 hg hbm
          obtain ⟨y, hy, hR⟩ := chain_tail_pred _ up2 adj.c2 b hb
          obtain ⟨_, _, q5, _⟩ := adj.mem2 hg hy
          have hbx : b ≠ x := by
            intro e
            rw [e] at hR
            simp only [firstKid, Option.some_bind, hx, hkid0, Option.some.injEq] at hR
            rw [← hR] at q5
            omega
          obtain ⟨n2, r1, r2, r3⟩ := hsame b bnn q1
          simp only [firstKid, Option.some_bind, r1, q1, (r3 hbx).2]
        have hint : ∀ b ∈ up2.tail, ∃ n, h b = some n ∧ n.type = NodeType.INTERNAL := by
          intro b hb
          obtain ⟨y, hy, hR⟩ := chain_tail_pred _ up2 hch b hb
          cases hq : h b with
          | none => rw [firstKid, Option.some_bind, hq] at hR; cases hR
          | some n =>
            refine ⟨n, rfl, ?_⟩
            obtain ⟨bnn, q1, _⟩ := adj.mem2 hg (List.mem_of_mem_tail hb)
            have hbx : b ≠ x := by
              intro e
              obtain ⟨_, _, q5, _⟩ := adj.mem2 hg hy
              have hR2 := chain_tail_pred _ up2 adj.c2 b hb
              obtain ⟨y2, hy2, hR3⟩ := hR2
              obtain ⟨_, _, q6, _⟩ := adj.mem2 hg hy2
              rw [e] at hR3
              simp only [firstKid, Option.some_bind, hx, hkid0, Option.some.injEq] at hR3
              rw [← hR3] at q6
              omega
            obtain ⟨n2, r1, r2, r3⟩ := hsame b bnn q1
            rw [hq] at r1; cases r1
            rw [(r3 hbx).1]
            obtain ⟨y2, hy2, hR3⟩ := chain_tail_pred _ up2 adj.c2 b hb
            simp only [firstKid, Option.some_bind, q1] at hR3
            exact hg.internal_of_kid q1 hR3
        have hd := min_key_down h up2 x hch adj.h2 hint c2 a4 t.next
        rw [← hd, ← a2]
        refine hq2 h _ ?_ (by omega)
        intro b n hbl2 hbn
        simp only [SeqBPlusTree.set_heap] at hbn
        by_cases e1 : b = x
        · rw [e1, Function.update_same] at hbn; cases hbn
          rw [e1]; exact ⟨_, hhx, rfl, rfl, rfl⟩
        · rw [Function.update_noteq e1, hS1] at hbn
          have e3 : b ≠ A := by intro e; rw [e] at hbl2; omega
          rw [if_neg e3, if_neg e1] at hbn
          by_cases e4 : b = B
          · rw [if_pos e4] at hbn; cases hbn
            rw [e4, hho B hBx hBL, hb]; exact ⟨_, rfl, rfl, rfl, rfl⟩
          · rw [if_neg e4] at hbn
            by_cases e2 : b = L
            · rw [if_pos e2] at hbn; cases hbn
              rw [e2]; exact ⟨_, hhL, rfl, rfl, rfl⟩
            · rw [if_neg e2] at hbn
              rw [hho b e1 e2]; exact ⟨n, hbn, rfl, rfl, rfl⟩)
  have hF : ∀ u, ((((((t.set x (cn.with_refs [k0, e, k2, k3, k4] 1)).set L
        (ln.with_refs ln.key_ref (ln.size - 1))).set x
        (cn.with_refs [⟨mk, e.reference⟩, k0, k2, k3, k4] 1)).set L
        (ln.with_refs (ln.key_ref.set (ln.size - 1) ⟨INT_MAX, le.reference⟩)
          (ln.size - 1))).set A (An.set_sep i mk2)).set B (bn.with_par (some x))).heap u =
      (((SeqBPlusTree.rot_state t L x A B
      (ln.with_refs (ln.key_ref.set (ln.size - 1) ⟨INT_MAX, le.reference⟩) (ln.size - 1))
      (cn.with_refs [⟨An.sep i, some B⟩, k0, k2, k3, k4] 1)
      (An.set_sep i (ln.sep (ln.size - 1))) (bn.with_par (some x))).set x
        (cn.with_refs [⟨mk, e.reference⟩, k0, k2, k3, k4] 1)).set A
          (An.set_sep i mk2)).heap u := by
    intro u
    simp only [SeqBPlusTree.set_heap, SeqBPlusTree.rot_state, Function.update_apply]
    by_cases e1 : u = B
    · rw [if_pos e1, if_neg (by rw [e1]; exact hBA), if_neg (by rw [e1]; exact hBx), if_pos e1]
    · rw [if_neg e1, if_neg e1]
      by_cases e2 : u = A
      · rw [if_pos e2, if_pos e2]
      · rw [if_neg e2, if_neg e2, if_neg e2]
        by_cases e3 : u = L
        · rw [if_pos e3, if_neg (by rw [e3]; exact hne), if_neg (by rw [e3]; exact hne),
            if_pos e3]
        · rw [if_neg e3, if_neg e3, if_neg e3]
          by_cases e4 : u = x
          · rw [if_pos e4, if_pos e4]
          · rw [if_neg e4, if_neg e4, if_neg e4, if_neg e4]
  refine ⟨_, lo3, hi3, heq, hg3.of_same hF rfl rfl rfl, ?_, rfl, rfl, rfl, B, ?_⟩
  · exact ((ls1.trans ls2).trans ls3).by_heap hF
  · refine ⟨hkB, ⟨cn.with_refs [⟨mk, e.reference⟩, k0, k2, k3, k4] 1, ?_, rfl, ?_, ?_⟩,
      ⟨ln.with_refs (ln.key_ref.set (ln.size - 1) ⟨INT_MAX, le.reference⟩) (ln.size - 1),
        ?_, rfl, p1.size, ?_⟩, ⟨bn.with_par (some x), ?_, rfl⟩, ?_, rfl⟩
    · rw [hF, SeqBPlusTree.set_heap, Function.update_noteq (Ne.symm hA2),
        SeqBPlusTree.set_heap, Function.update_same]
    · rw [hcsz]; rfl
    · intro j hj
      have hj : j ≤ 1 := hj
      rw [if_pos rfl]
      by_cases h0 : j = 0
      · rw [if_pos h0, h0]
        simp only [Node.kid, Node.with_refs, List.get?_cons_zero, Option.some_bind, hB]
      · obtain rfl : j = 1 := by omega
        rw [if_neg h0]
        simp only [Node.kid, Node.with_refs, hck, List.get?_cons_succ, List.get?_cons_zero]
        rfl
    · rw [hF, SeqBPlusTree.set_heap, Function.update_noteq (Ne.symm hA1),
        SeqBPlusTree.set_heap, Function.update_noteq hne, hS1, if_neg (Ne.symm hBL),
        if_neg (Ne.symm hA1), if_neg hne, if_pos rfl]
    · intro j hj
      rw [if_pos rfl]
      exact p1.kid j hj
    · rw [hF, SeqBPlusTree.set_heap, Function.update_noteq hBA, SeqBPlusTree.set_heap,
        Function.update_noteq hBx, hS1, if_pos rfl]
    · intro u
      rw [hF]
      simp only [SeqBPlusTree.set_heap, Function.update_apply, hS1]
      by_cases e2 : u = A
      · rw [if_pos e2, e2, adj.hA]; rfl
      · rw [if_neg e2]
        by_cases e4 : u = x
        · rw [if_pos e4, e4, hx]; rfl
        · rw [if_neg e4]
          by_cases e1 : u = B
          · rw [if_pos e1, e1, hb]; rfl
          · rw [if_neg e1, if_neg e2, if_neg e4]
            by_cases e3 : u = L
            · rw [if_pos e3, e3, hL]; rfl
            · rw [if_neg e3]

end Good


namespace SeqBPlusTree

set_option maxHeartbeats 1000000 in
/-- The code of `borrow_internal` from the right sibling, for a node without separators. -/
theorem borrow_internal_right_eq {t : SeqBPlusTree} {x R A B i : Nat}
    {cn rn An bn : Node} {k0 k1 k2 k3 k4 e : KeyReferencePair} (mk mk2 : Int)
    (hx : t.heap x = some cn) (hR : t.heap R = some rn) (hxR : x ≠ R)
    (hcsz : cn.size = 0) (hck : cn.key_ref = [k0, k1, k2, k3, k4])
    (hrs : 0 < rn.size) (hlen : rn.size < rn.key_ref.length)
    (he : rn.key_ref.get? 0 = some e)
    (hB : e.reference = some B) (hb : t.heap B = some bn)
    (hA : t.heap A = some An) (hi : i < An.key_ref.length)
    (hAx : A ≠ x) (hAR : A ≠ R) (hBx : B ≠ x) (hBR : B ≠ R) (hBA : B ≠ A)
    (hmk1 : ∀ h : Nat → Option Node,
      h x = some (cn.with_refs [k0, e, k2, k3, k4] 1) →
      h R = some (rn.drop_slot 0) →
      (∀ a, a ≠ x → a ≠ R → h a = t.heap a) →
      min_key_in_subtree h t.next (some B) = some mk)
    (hw : ∀ h : Nat → Option Node,
      h x = some (cn.with_refs [⟨mk, k0.reference⟩, ⟨INT_MAX, e.reference⟩, k2, k3, k4] 1) →
      h R = some (rn.drop_slot 0) →
      (∀ a, a ≠ x → a ≠ R → h a = t.heap a) →
      get_key_ref_pair_from_parent h (some x) = some (A, i) ∧
      min_key_in_subtree h t.next cn.right_sibling = some mk2) :
    borrow_internal t x R false =
      some (((((t.set x (cn.with_refs [k0, e, k2, k3, k4] 1)).set R (rn.drop_slot 0)).set x
        (cn.with_refs [⟨mk, k0.reference⟩, ⟨INT_MAX, e.reference⟩, k2, k3, k4] 1)).set A
        (An.set_sep i mk2)).set B (bn.with_par (some x))) := by
  have hsd : size_dec rn.size = some (rn.size - 1) := by
    unfold size_dec; rw [if_pos hrs]
  have hsd1 : size_dec 1 = some 0 := rfl
  simp only [borrow_internal]
  simp only [hR, Option.some_seqBind, Bool.false_eq_true, if_false, if_true, he, hx, hck, hcsz, arr_set,
    List.length_cons, List.length_nil, Nat.reduceAdd, Nat.lt_add_one, Nat.reduceLT,
    List.set_cons_succ, List.set_cons_zero, hsd, set_heap,
    Function.update_noteq (Ne.symm hxR), Function.update_same, Function.update_noteq hxR, fuel,
    set_next, arr_shift_eq _ _ _ (Or.inr hlen), List.get?_cons_succ, List.get?_cons_zero, hB]
  rw [hmk1 _ (by rw [Function.update_noteq hxR, Function.update_same]; rfl)
    (by rw [Function.update_same]; rfl)
    (fun a h1 h2 => by rw [Function.update_noteq h2, Function.update_noteq h1])]
  simp only [Option.some_seqBind, hsd1, List.get?_cons_zero, Nat.zero_lt_succ, if_true,
    List.set_cons_zero, List.length_cons, List.length_nil, Nat.reduceAdd, Nat.lt_add_one,
    Nat.reduceLT, List.set_cons_succ, Function.update_same]
  obtain ⟨w1, w2⟩ := hw (Function.update (Function.update
    (Function.update t.heap x (some (cn.with_refs [k0, e, k2, k3, k4] 1))) R
    (some (rn.drop_slot 0))) x
    (some (cn.with_refs [⟨mk, k0.reference⟩, ⟨INT_MAX, e.reference⟩, k2, k3, k4] 1)))
    (by rw [Function.update_same])
    (by rw [Function.update_noteq (Ne.symm hxR), Function.update_same])
    (fun a h1 h2 => by
      rw [Function.update_noteq h1, Function.update_noteq h2, Function.update_noteq h1])
  simp only [Node.with_refs, Node.drop_slot, hB] at w1 w2
  simp only [Node.with_refs, Node.drop_slot]
  rw [w1, Option.some_seqBind, w2, Option.some_seqBind,
    set_slot_key_eq _ i mk2 (show _ = some An by
      simp only [set_heap]
      rw [Function.update_noteq hAx, Function.update_noteq hAR, Function.update_noteq hAx,
        hA]) hi]
  simp only [Option.map_some', Option.some_seqBind, hB, upd, set_heap,
    Function.update_noteq hBA, Function.update_noteq hBR, Function.update_noteq hBx, hb,
    Option.map_some', Node.with_par]

end SeqBPlusTree


/-- An internal node that gives its first child away. -/
theorem Node.drop_first_ok (n : Node) (hs : 0 < n.size) (hs4 : n.size ≤ ORDER)
    (hlen : n.key_ref.length = ORDER + 1) : n.DropFirst (n.drop_slot 0) := by
  have h1 : n.size < n.key_ref.length := by rw [hlen]; omega
  refine ⟨rfl, rfl, rfl, rfl, ?_, ?_, ?_, ?_⟩
  · show n.size - 1 + 1 = n.size; omega
  · show (shifted n.key_ref 0 n.size).length = _
    rw [shifted_length _ _ _ h1]; exact hlen
  · intro j hj
    have hj : j ≤ n.size - 1 := hj
    rw [Node.drop_slot_kid n 0 hs h1 j (by omega), if_neg (by omega)]
  · intro j hj
    have hj : j ≤ n.size - 1 := hj
    rw [Node.drop_slot_sep n 0 hs h1 j (by omega), if_neg (by omega)]

namespace Good

variable {t : SeqBPlusTree} {lvl : Nat → Nat} {lo hi : Nat → Int} {ov un : Option Nat}

/-- Facts about the first slot of an internal node. -/
theorem first_slot (hg : Good t lvl lo hi ov un) {R : Nat} {rn : Node}
    (hR : t.heap R = some rn) (hty : rn.type = NodeType.INTERNAL) :
    ∃ e B bn, rn.key_ref.get? 0 = some e ∧ e.reference = some B ∧ rn.kid 0 = some B ∧
      t.heap B = some bn ∧ bn.parent = some R ∧ lvl B + 1 = lvl R ∧
      rn.size < rn.key_ref.length := by
  have hin := hg.internal_good hR hty
  obtain ⟨s1, s2⟩ := hg.size_le_four hR hty
  obtain ⟨B, bn, a1, a2, a3, a4, _⟩ := hin.kids 0 (Nat.zero_le _)
  have h1 : 0 < rn.key_ref.length := by omega
  refine ⟨rn.key_ref.get ⟨0, h1⟩, B, bn, List.get?_eq_get h1, ?_, a1, a2, a3, a4, by omega⟩
  have := a1
  simp only [Node.kid, List.get?_eq_get h1, Option.some_bind] at this
  exact this

/-- A node with a sibling has a parent. -/
theorem parent_of_sibling (hg : Good t lvl lo hi ov un) {x r : Nat} {cn : Node}
    (hx : t.heap x = some cn) (hr : cn.right_sibling = some r) : ∃ p, cn.parent = some p := by
  cases hp : cn.parent with
  | none =>
    have := (hg.nodes x cn hx).is_root hp
    obtain ⟨rt, r1, r2, r3, r4⟩ := hg.root_live
    rw [← this, hx] at r1; cases r1
    rw [hr] at r4; cases r4
  | some p => exact ⟨p, rfl⟩

set_option maxHeartbeats 1000000 in
/-- The function `borrow_internal` from the right sibling: the node without separators gets
the first child of its right sibling, and the invariant holds again. -/
theorem borrow_internal_right {x R : Nat} {cn rn : Node}
    (hg : Good t lvl lo hi none (some x))
    (hx : t.heap x = some cn) (hcty : cn.type = NodeType.INTERNAL) (hcsz : cn.size = 0)
    (hl : cn.left_sibling = none) (hr : cn.right_sibling = some R)
    (hR : t.heap R = some rn) (hrs : 2 ≤ rn.size) :
    ∃ s lo2 hi2, SeqBPlusTree.borrow_internal t x R false = some s ∧
      Good s lvl lo2 hi2 none none ∧ LeafSame t.heap s.heap ∧ s.root = t.root ∧
      s.depth = t.depth ∧ s.next = t.next ∧ ∃ B, NodeTook t s x R cn rn false B := by
  obtain ⟨rn2, l1, l2, l3, l4⟩ := hg.right_info _ x cn R rfl hx hr
  rw [hR] at l1; cases l1
  have hrty : rn.type = NodeType.INTERNAL := (hg.type_of_lvl hR hx l3).trans hcty
  obtain ⟨k0, k1, k2, k3, k4, K0, kn, hck, hk0, hk0r, hkid0, hK0, hK0p, hK0l⟩ :=
    hg.lone_kid hx hcty hcsz
  obtain ⟨e, B, bn, he, hB, hkB, hb, hbp, hbl, hlen⟩ := hg.first_slot hR hrty
  obtain ⟨p, hcp⟩ := hg.parent_of_sibling hx hr
  obtain ⟨pn, hp, hpty, hp0⟩ := hg.first_of_no_left hx hcp hl
  have hinp := hg.internal_good hp hpty
  obtain ⟨_, g1, g2, g3, g4, g5⟩ := hg.kid_live hp (Nat.zero_le _) hp0
  have hxp : x ≠ p := by intro e; rw [e] at g3; omega
  have hps : 1 ≤ pn.size := by
    rcases hinp.size_ge with h | h
    · exact h
    · exact absurd (Option.some.inj h) hxp
  obtain ⟨c1, c2, c1n, c2n, a1, a2, a3, a4, a5, adj⟩ := hg.adj_slot hp hpty (i := 0) (by omega)
  rw [hp0] at a1; cases a1
  rw [hx] at a3; cases a3
  rw [hr] at a5; cases a5
  obtain ⟨_, b1, _, hl2, hty2, hlv, hhi1, hlo2, hlA, hne, hA1, hA2, hσ, hno1, hno2⟩ :=
    adj.pair hg hx
  obtain ⟨sA1, sA2⟩ := hg.size_le_four hp hpty
  obtain ⟨sR1, sR2⟩ := hg.size_le_four hR hrty
  have hinR := hg.internal_good hR hrty
  have hBx : B ≠ x := by intro h; rw [h] at hbl; omega
  have hBR : B ≠ R := by intro h; rw [h] at hbl; omega
  have hBA : B ≠ p := by intro h; rw [h] at hbl; omega
  have fx := hg.fuel_above hx
  have fA := hg.fuel_above hp
  have p1 : cn.PushBack (cn.with_refs [⟨pn.sep 0, k0.reference⟩, ⟨INT_MAX, some B⟩, k2, k3, k4] 1)
      B (pn.sep 0) := by
    refine ⟨rfl, rfl, rfl, rfl, by rw [hcsz]; rfl, rfl, ?_, ?_, ?_, ?_, ?_⟩
    · intro j hj
      rw [hcsz] at hj
      obtain rfl : j = 0 := by omega
      simp only [Node.kid, Node.with_refs, hck, List.get?_cons_zero, Option.some_bind]
    · rw [hcsz]; rfl
    · intro j hj
      rw [hcsz] at hj
      omega
    · rw [hcsz]; rfl
    · rw [hcsz]; rfl
  have p2 := rn.drop_first_ok (by omega) sR1 hinR.len
  have hS1 := SeqBPlusTree.rot_state_heap t x R p B
    (cn.with_refs [⟨pn.sep 0, k0.reference⟩, ⟨INT_MAX, some B⟩, k2, k3, k4] 1)
    (rn.drop_slot 0) (pn.set_sep 0 (rn.sep 0)) (bn.with_par (some x))
  obtain ⟨hg1, ls1⟩ := hg.rotate_to_left adj none none hx hR hcty (by omega) hrs hkB hb p1 p2
    (s := SeqBPlusTree.rot_state t x R p B
      (cn.with_refs [⟨pn.sep 0, k0.reference⟩, ⟨INT_MAX, some B⟩, k2, k3, k4] 1)
      (rn.drop_slot 0) (pn.set_sep 0 (rn.sep 0)) (bn.with_par (some x)))
    rfl rfl rfl
    (by rw [hS1, if_neg (Ne.symm hBx), if_neg (Ne.symm hA1), if_neg hne, if_pos rfl])
    (by rw [hS1, if_neg (Ne.symm hBR), if_neg (Ne.symm hA2), if_pos rfl])
    (by rw [hS1, if_neg (Ne.symm hBA), if_pos rfl])
    (by rw [hS1, if_pos rfl]; rfl)
    (fun a e1 e2 e3 e4 => by rw [hS1, if_neg e4, if_neg e3, if_neg e2, if_neg e1])
    (fun b h => by cases h)
    (fun b h h1 _ => absurd (Option.some.inj h).symm h1)
  -- the separator of the node becomes the least key below the child that moved
  obtain ⟨mk, lo2, hi2, hg2, hmk, ls2, hq1⟩ := hg1.raise_sep (A := x) (i := 0)
    (show _ = some (cn.with_refs [⟨pn.sep 0, k0.reference⟩, ⟨INT_MAX, some B⟩, k2, k3, k4] 1) by
      rw [hS1, if_neg (Ne.symm hBx), if_neg (Ne.symm hA1), if_neg hne, if_pos rfl])
    hcty (by show 0 < 1; omega) (fun u h => by cases h)
  have hX4 : (cn.with_refs [⟨pn.sep 0, k0.reference⟩, ⟨INT_MAX, some B⟩, k2, k3, k4] 1).set_sep
      0 mk = cn.with_refs [⟨mk, k0.reference⟩, ⟨INT_MAX, e.reference⟩, k2, k3, k4] 1 := by
    simp [Node.set_sep, Node.with_refs, hB]
  rw [hX4] at hg2 ls2
  -- the separator in the parent becomes the least key of the right sibling
  obtain ⟨mk2, lo3, hi3, hg3, hmk2, ls3, hq2⟩ := hg2.raise_sep (A := p) (i := 0)
    (show _ = some (pn.set_sep 0 (rn.sep 0)) by
      simp only [SeqBPlusTree.set_heap]
      rw [Function.update_noteq hA1, hS1, if_neg (Ne.symm hBA), if_pos rfl])
    hpty (by show 0 < pn.size; omega) (fun u h => by cases h)
  simp only [Node.set_sep_kid] at hq2
  rw [Node.set_sep_twice] at hg3 ls3
  have heq := SeqBPlusTree.borrow_internal_right_eq mk mk2 (i := 0)
    (A := p) hx hR hne hcsz hck (by omega) hlen he hB hb
    hp (by omega) hA1 hA2 hBx hBR hBA
    (by
      intro h hhx hhR hho
      have := hq1 h t.next (by
        intro b n hbl2 hbn
        have e1 : b ≠ x := by intro e; rw [e] at hbl2; omega
        have e2 : b ≠ R := by intro e; rw [e] at hbl2; omega
        have e3 : b ≠ p := by intro e; rw [e] at hbl2; omega
        rw [hS1, if_neg e3, if_neg e2, if_neg e1] at hbn
        rw [hho b e1 e2]
        by_cases e4 : b = B
        · rw [if_pos e4] at hbn; cases hbn
          rw [e4, hb]; exact ⟨_, rfl, rfl, rfl, rfl⟩
        · rw [if_neg e4] at hbn
          exact ⟨n, hbn, rfl, rfl, rfl⟩) (by omega)
      rw [← this]
      rfl)
    (by
      intro h hhx hhR hho
      constructor
      · have hAh : h p = some pn := by rw [hho p (Ne.symm hxp) hA2]; exact hp
        exact slot_lookup h hhx hcp hAh (Nat.zero_le _) (by omega) hp0
          (fun j hj => by omega)
      · rw [hr, ← a2]
        refine hq2 h _ ?_ (by omega)
        intro b n hbl2 hbn
        simp only [SeqBPlusTree.set_heap] at hbn
        by_cases e1 : b = x
        · rw [e1, Function.update_same] at hbn; cases hbn
          rw [e1]; exact ⟨_, hhx, rfl, rfl, rfl⟩
        · rw [Function.update_noteq e1, hS1] at hbn
          have e3 : b ≠ p := by intro e; rw [e] at hbl2; omega
          by_cases e4 : b = B
          · rw [if_pos e4] at hbn; cases hbn
            rw [e4, hho B hBx hBR, hb]; exact ⟨_, rfl, rfl, rfl, rfl⟩
          · rw [if_neg e4, if_neg e3] at hbn
            by_cases e2 : b = R
            · rw [if_pos e2] at hbn; cases hbn
              rw [e2]; exact ⟨_, hhR, rfl, rfl, rfl⟩
            · rw [if_neg e2, if_neg e1] at hbn
              rw [hho b e1 e2]; exact ⟨n, hbn, rfl, rfl, rfl⟩)
  have hF : ∀ u, (((((t.set x (cn.with_refs [k0, e, k2, k3, k4] 1)).set R
        (rn.drop_slot 0)).set x
        (cn.with_refs [⟨mk, k0.reference⟩, ⟨INT_MAX, e.reference⟩, k2, k3, k4] 1)).set p
        (pn.set_sep 0 mk2)).set B (bn.with_par (some x))).heap u =
      (((SeqBPlusTree.rot_state t x R p B
      (cn.with_refs [⟨pn.sep 0, k0.reference⟩, ⟨INT_MAX, some B⟩, k2, k3, k4] 1)
      (rn.drop_slot 0) (pn.set_sep 0 (rn.sep 0)) (bn.with_par (some x))).set x
        (cn.with_refs [⟨mk, k0.reference⟩, ⟨INT_MAX, e.reference⟩, k2, k3, k4] 1)).set p
          (pn.set_sep 0 mk2)).heap u := by
    intro u
    simp only [SeqBPlusTree.set_heap, SeqBPlusTree.rot_state, Function.update_apply]
    by_cases e1 : u = B
    · rw [if_pos e1, if_neg (by rw [e1]; exact hBA), if_neg (by rw [e1]; exact hBx), if_pos e1]
    · rw [if_neg e1, if_neg e1]
      by_cases e2 : u = p
      · rw [if_pos e2, if_pos e2]
      · rw [if_neg e2, if_neg e2, if_neg e2]
        by_cases e4 : u = x
        · rw [if_pos e4, if_pos e4]
        · rw [if_neg e4, if_neg e4, if_neg e4]
          by_cases e5 : u = R
          · rw [if_pos e5, if_pos e5]
          · rw [if_neg e5, if_neg e5, if_neg e4]
  refine ⟨_, lo3, hi3, heq, hg3.of_same hF rfl rfl rfl, ?_, rfl, rfl, rfl, B, ?_⟩
  · exact ((ls1.trans ls2).trans ls3).by_heap hF
  · refine ⟨hkB,
      ⟨cn.with_refs [⟨mk, k0.reference⟩, ⟨INT_MAX, e.reference⟩, k2, k3, k4] 1, ?_, rfl, ?_, ?_⟩,
      ⟨rn.drop_slot 0, ?_, rfl, p2.size, ?_⟩, ⟨bn.with_par (some x), ?_, rfl⟩, ?_, rfl⟩
    · rw [hF, SeqBPlusTree.set_heap, Function.update_noteq (Ne.symm hA1),
        SeqBPlusTree.set_heap, Function.update_same]
    · rw [hcsz]; rfl
    · intro j hj
      have hj : j ≤ 1 := hj
      rw [if_neg Bool.false_ne_true]
      show _ = if j = 1 then some B else cn.kid j
      by_cases h1 : j = 1
      · rw [h1, if_pos rfl]
        simp only [Node.kid, Node.with_refs, List.get?_cons_succ, List.get?_cons_zero,
          Option.some_bind, hB]
      · obtain rfl : j = 0 := by omega
        rw [if_neg (show ¬ (0 = 1) by omega)]
        simp only [Node.kid, Node.with_refs, hck, List.get?_cons_zero, Option.some_bind]
    · rw [hF, SeqBPlusTree.set_heap, Function.update_noteq (Ne.symm hA2),
        SeqBPlusTree.set_heap, Function.update_noteq (Ne.symm hne), hS1, if_neg (Ne.symm hBR),
        if_neg (Ne.symm hA2), if_pos rfl]
    · intro j hj
      rw [if_neg Bool.false_ne_true]
      exact p2.kid j hj
    · rw [hF, SeqBPlusTree.set_heap, Function.update_noteq hBA, SeqBPlusTree.set_heap,
        Function.update_noteq hBx, hS1, if_pos rfl]
    · intro u
      rw [hF]
      simp only [SeqBPlusTree.set_heap, Function.update_apply, hS1]
      by_cases e2 : u = p
      · rw [if_pos e2, e2, hp]; rfl
      · rw [if_neg e2]
        by_cases e4 : u = x
        · rw [if_pos e4, e4, hx]; rfl
        · rw [if_neg e4]
          by_cases e1 : u = B
          · rw [if_pos e1, e1, hb]; rfl
          · rw [if_neg e1, if_neg e2]
            by_cases e3 : u = R
            · rw [if_pos e3, e3, hR]; rfl
            · rw [if_neg e3, if_neg e4]

end Good


namespace Good

variable {t : SeqBPlusTree} {lvl : Nat → Nat} {lo hi : Nat → Int} {ov un : Option Nat}

/-- The only node whose parent is an internal node without separators is its one child. -/
theorem lone_child (hg : Good t lvl lo hi ov un) {x K0 : Nat} {cn : Node}
    (hx : t.heap x = some cn) (hcsz : cn.size = 0) (hK : cn.kid 0 = some K0)
    {d : Nat} {dn : Node} (hd : t.heap d = some dn) (hdp : dn.parent = some x) : d = K0 := by
  obtain ⟨vn, j, v1, v2, v3, v4, _⟩ := hg.parent_info hd hdp
  rw [hx] at v1; cases v1
  rw [hcsz] at v3
  obtain rfl : j = 0 := by omega
  rw [hK] at v4
  exact (Option.some.inj v4).symm

/-- A node of an internal node without separators merged into its right sibling under the
same parent, with the separator between them coming down from the parent: the invariant
holds with the right sibling possibly over-full and the parent possibly deficient. -/
theorem merge_node_right {x RS p c K0 : Nat} {cn rsn pn kn z0 : Node}
    (hg : Good t lvl lo hi none (some x))
    (hx : t.heap x = some cn) (hcty : cn.type = NodeType.INTERNAL) (hcsz : cn.size = 0)
    (hp : t.heap p = some pn) (hc : pn.kid c = some x) (hclt : c < pn.size)
    (hr : cn.right_sibling = some RS) (hR : t.heap RS = some rsn)
    (hK : cn.kid 0 = some K0) (hk : t.heap K0 = some kn)
    (pf : rsn.PushFront z0 K0 (pn.sep c))
    (s : SeqBPlusTree) (hroot : s.root = t.root) (hnext : s.next = t.next)
    (hdepth : s.depth = t.depth)
    (hs : ∀ u, s.heap u = if u = x then none
      else if u = K0 then some (kn.with_par (some RS))
      else if cn.left_sibling = some u then (t.heap u).map (fun n => n.with_right (some RS))
      else if u = p then some (pn.drop_slot c)
      else if u = RS then some (z0.with_left cn.left_sibling)
      else t.heap u) :
    Good s lvl (Function.update lo RS (lo x)) (Function.update hi RS (hi RS))
      (if rsn.size = 3 then some RS else none)
      (if pn.size = 1 then some p else none) ∧
    LeafSame t.heap s.heap ∧ pn.kid (c + 1) = some RS ∧ rsn.type = NodeType.INTERNAL ∧
    x ≠ RS ∧ x ≠ p ∧ RS ≠ p ∧ K0 ≠ x ∧ K0 ≠ RS ∧ K0 ≠ p ∧ rsn.parent = some p ∧
    1 ≤ rsn.size ∧ rsn.size ≤ 3 := by
  have hpty := hg.internal_of_kid hp hc
  have hin := hg.internal_good hp hpty
  obtain ⟨s1, s2⟩ := hg.size_le_four hp hpty
  have hs3 : pn.size ≤ 3 := by
    rcases hin.size_le with h | h
    · exact h
    · cases h.2
  have hsib := (hin.sib_in c hclt).1
  rw [hc] at hsib
  simp only [rightOf, Option.some_bind, hx, hr] at hsib
  obtain ⟨_, g1, g2, g3, g4, g5⟩ := hg.kid_live hp (le_of_lt hclt) hc
  rw [hx] at g1; cases g1
  obtain ⟨_, k1, k2, k3, k4, k5⟩ := hg.kid_live hp hclt hsib.symm
  rw [hR] at k1; cases k1
  obtain ⟨rsn2, r1, r2, r3, r4⟩ := hg.right_info _ x cn RS rfl hx hr
  rw [hR] at r1; cases r1
  have hrty : rsn.type = NodeType.INTERNAL := (hg.type_of_lvl hR hx r3).trans hcty
  have hinR := hg.internal_good hR hrty
  have rx := hg.range_ne hx
  have rR := hg.range_ne hR
  have hxR : x ≠ RS := by intro e; rw [← e] at r4; omega
  have hxp : x ≠ p := by intro e; rw [e] at g3; omega
  have hRp : RS ≠ p := by intro e; rw [e] at k3; omega
  obtain ⟨_, m1, m2, m3, m4, m5⟩ := hg.kid_live hx (Nat.zero_le _) hK
  rw [hk] at m1; cases m1
  have hKx : K0 ≠ x := by intro e; rw [e] at m3; omega
  have hKR : K0 ≠ RS := by intro e; rw [e] at m3; omega
  have hKp : K0 ≠ p := by intro e; rw [e] at m3; omega
  have hRs1 : 1 ≤ rsn.size := by
    rcases hinR.size_ge with h | h
    · exact h
    · exact absurd (Option.some.inj h) hxR
  have hRs3 : rsn.size ≤ 3 := by
    rcases hinR.size_le with h | h
    · exact h
    · cases h.2
  have hLfacts : ∀ l, cn.left_sibling = some l → ∃ lsn, t.heap l = some lsn ∧
      lsn.right_sibling = some x ∧ l ≠ x ∧ l ≠ p ∧ l ≠ RS ∧ l ≠ K0 := by
    intro l hl
    obtain ⟨lsn, q1, q2, q3, q4⟩ := hg.left_info _ x cn l rfl hx hl
    have := hg.range_ne q1
    refine ⟨lsn, q1, q2, ?_, ?_, ?_, ?_⟩
    · intro e; rw [e] at q4; omega
    · intro e; rw [e] at q3; omega
    · intro e; rw [e] at q4; omega
    · intro e; rw [e] at q3; omega
  have st : MergeStep t s lvl lo hi (some x) (if rsn.size = 3 then some RS else none)
      (if pn.size = 1 then some p else none) p pn (pn.drop_slot c) c x RS RS x cn rsn
      (z0.with_left cn.left_sibling) (fun d => d = K0) := by
    refine {
      good := hg
      hp := hp
      hidx := hclt
      hX := hc
      hY := hsib.symm
      hx := hx
      hy := hR
      hZ := Or.inr ⟨rfl, rfl⟩
      hun := fun b h => Or.inl (Option.some.inj h).symm
      psz := ?_
      root_eq := hroot
      next_eq := hnext
      depth_eq := hdepth
      sV := by rw [hs, if_pos rfl]
      sZ := ?_
      sP := ?_
      sL := ?_
      sR := ?_
      sD := ?_
      sO := ?_
      hD := fun d dn hd hdp => hg.lone_child hx hcsz hK hd hdp
      pty := rfl
      ppar := rfl
      pleft := rfl
      pright := rfl
      plen := shifted_length _ _ _ (by omega)
      psize := by show pn.size - 1 + 1 = pn.size; omega
      psep := ?_
      pdummy := ?_
      pkid := ?_
      zty := pf.ty.trans (hrty.trans hcty.symm)
      zpar := pf.par.trans k2
      zleft := rfl
      zright := pf.right
      zleaf := fun h => by rw [hcty] at h; cases h
      zlen := fun _ => pf.len
      zsize := fun _ => by
        show z0.size = cn.size + rsn.size + 1
        rw [pf.size, hcsz]; omega
      zsz_le := ?_
      zsep := ?_
      zdummy := ?_
      zkid := ?_ }
    · by_cases h : pn.size = 1
      · right; rw [if_pos h]
      · left; omega
    · rw [hs, if_neg (Ne.symm hxR), if_neg (Ne.symm hKR), if_neg, if_neg hRp, if_pos rfl]
      intro e
      exact (hLfacts RS e).choose_spec.2.2.2.2.1 rfl
    · rw [hs, if_neg (Ne.symm hxp), if_neg (Ne.symm hKp), if_neg, if_pos rfl]
      intro e
      exact (hLfacts p e).choose_spec.2.2.2.1 rfl
    · intro l hl
      obtain ⟨lsn, q1, q2, q3, q4, q5, q6⟩ := hLfacts l hl
      exact ⟨lsn, q1, by rw [hs, if_neg q3, if_neg q6, if_pos hl, q1]; rfl⟩
    · intro r hr2
      obtain ⟨rrn, q1, q2, q3, q4⟩ := hg.right_info _ RS rsn r rfl hR hr2
      have := hg.range_ne q1
      have e1 : r ≠ x := by intro e; rw [e] at q4; omega
      have e2 : r ≠ p := by intro e; rw [e] at q3; omega
      have e3 : r ≠ RS := by intro e; rw [e] at q4; omega
      have e5 : r ≠ K0 := by intro e; rw [e] at q3; omega
      have e4 : cn.left_sibling ≠ some r := by
        intro e
        obtain ⟨_, w1, w2, _⟩ := hLfacts r e
        rw [q1] at w1; cases w1
        obtain ⟨_, v1, v2, v3, v4⟩ := hg.left_info _ x cn r rfl hx e
        omega
      refine ⟨rrn, q1, ?_⟩
      rw [hs, if_neg e1, if_neg e5, if_neg e4, if_neg e2, if_neg e3, q1, Node.left_eta rrn q2]
    · intro d hd
      rw [hd]
      exact ⟨kn, hk, m2, by rw [hs, if_neg hKx, if_pos rfl]; rfl⟩
    · intro a h1 h2 h3 h4 _ h6
      rw [hs, if_neg h2, if_neg h6, if_neg h4, if_neg h1, if_neg h3]
    · intro j hj
      have hj : j < pn.size - 1 := hj
      exact Node.drop_slot_sep pn c hclt (by omega) j (by omega)
    · show (pn.drop_slot c).sep (pn.size - 1) = INT_MAX
      rw [Node.drop_slot_sep pn c hclt (by omega) _ (by omega), if_neg (by omega),
        show pn.size - 1 + 1 = pn.size by omega]
      exact hin.dummy
    · intro j hj
      have hj : j ≤ pn.size - 1 := hj
      rw [Node.drop_slot_kid pn c hclt (by omega) j (by omega)]
      by_cases h : j < c
      · rw [if_pos h, if_pos h]
      · rw [if_neg h, if_neg h]
        by_cases h2 : j = c
        · rw [if_pos h2, h2]; exact hsib.symm
        · rw [if_neg h2]
    · intro _
      by_cases h : rsn.size = 3
      · right
        exact ⟨by show z0.size = ORDER; rw [pf.size, h], by rw [if_pos h]⟩
      · left
        show z0.size ≤ 3
        rw [pf.size]; omega
    · intro _ j hj
      have hj : j < z0.size := hj
      rw [pf.size] at hj
      show z0.sep j = _
      rw [hcsz, if_neg (by omega)]
      by_cases h : j = 0
      · rw [if_pos h, h]; exact pf.sepB
      · rw [if_neg h]
        obtain ⟨j1, rfl⟩ : ∃ j1, j = j1 + 1 := ⟨j - 1, by omega⟩
        rw [pf.sep j1 (by omega)]
        rfl
    · intro _
      show z0.sep z0.size = INT_MAX
      rw [pf.size, pf.sep _ (le_refl _)]
      exact hinR.dummy
    · intro _ j hj
      have hj : j ≤ z0.size := hj
      rw [pf.size] at hj
      show z0.kid j = _
      rw [hcsz]
      by_cases h : j = 0
      · rw [if_pos (by omega), h, hK]; exact pf.kidB
      · rw [if_neg (by omega)]
        obtain ⟨j1, rfl⟩ : ∃ j1, j = j1 + 1 := ⟨j - 1, by omega⟩
        rw [pf.kid j1 (by omega)]
        rfl
  exact ⟨st.m_good_after, st.m_leaf_same hcty, hsib.symm, hrty, hxR, hxp, hRp, hKx, hKR, hKp, k2,
    hRs1, hRs3⟩

end Good


namespace Good

variable {t : SeqBPlusTree} {lvl : Nat → Nat} {lo hi : Nat → Int} {ov un : Option Nat}

/-- An internal node without separators that is the last child of its parent, merged into
its left sibling with the separator between them coming down from the parent: the invariant
holds with the parent possibly deficient. -/
theorem merge_node_last {x L p K0 : Nat} {cn ln pn kn z0 : Node}
    (hg : Good t lvl lo hi none (some x))
    (hx : t.heap x = some cn) (hcty : cn.type = NodeType.INTERNAL) (hcsz : cn.size = 0)
    (hp : t.heap p = some pn) (hlast : pn.kid pn.size = some x)
    (hl : cn.left_sibling = some L) (hL : t.heap L = some ln) (hls : ln.size ≤ 2)
    (hK : cn.kid 0 = some K0) (hk : t.heap K0 = some kn)
    (pb : ln.PushBack z0 K0 (pn.sep (pn.size - 1)))
    (s : SeqBPlusTree) (hroot : s.root = t.root) (hnext : s.next = t.next)
    (hdepth : s.depth = t.depth)
    (hs : ∀ u, s.heap u = if u = x then none
      else if u = K0 then some (kn.with_par (some L))
      else if cn.right_sibling = some u then (t.heap u).map (fun n => n.with_left (some L))
      else if u = p then some ((pn.drop_slot pn.size).set_sep (pn.size - 1) INT_MAX)
      else if u = L then some (z0.with_right cn.right_sibling)
      else t.heap u) :
    Good s lvl (Function.update lo L (lo L)) (Function.update hi L (hi x)) none
      (if pn.size = 1 then some p else none) ∧
    LeafSame t.heap s.heap ∧ x ≠ L ∧ x ≠ p ∧ L ≠ p ∧ K0 ≠ x ∧ K0 ≠ L ∧ K0 ≠ p ∧
    1 ≤ pn.size ∧ pn.size ≤ 3 ∧ pn.type = NodeType.INTERNAL := by
  have hpty := hg.internal_of_kid hp hlast
  have hin := hg.internal_good hp hpty
  obtain ⟨s1, s2⟩ := hg.size_le_four hp hpty
  have hs3 : pn.size ≤ 3 := by
    rcases hin.size_le with h | h
    · exact h
    · cases h.2
  obtain ⟨_, g1, g2, g3, g4, g5⟩ := hg.kid_live hp (le_refl _) hlast
  rw [hx] at g1; cases g1
  have hxp : x ≠ p := by intro e; rw [e] at g3; omega
  have hs1 : 1 ≤ pn.size := by
    rcases hin.size_ge with h | h
    · exact h
    · exact absurd (Option.some.inj h) hxp
  have hsib := (hin.sib_in (pn.size - 1) (by omega)).2
  rw [show pn.size - 1 + 1 = pn.size by omega, hlast] at hsib
  simp only [leftOf, Option.some_bind, hx, hl] at hsib
  obtain ⟨_, k1, k2, k3, k4, k5⟩ := hg.kid_live hp (show pn.size - 1 ≤ pn.size by omega)
    hsib.symm
  rw [hL] at k1; cases k1
  obtain ⟨ln2, r1, r2, r3, r4⟩ := hg.left_info _ x cn L rfl hx hl
  rw [hL] at r1; cases r1
  have hlty : ln.type = NodeType.INTERNAL := (hg.type_of_lvl hL hx r3).trans hcty
  have hinL := hg.internal_good hL hlty
  have rx := hg.range_ne hx
  have rL := hg.range_ne hL
  have hxL : x ≠ L := by intro e; rw [← e] at r4; omega
  have hLp : L ≠ p := by intro e; rw [e] at k3; omega
  obtain ⟨_, m1, m2, m3, m4, m5⟩ := hg.kid_live hx (Nat.zero_le _) hK
  rw [hk] at m1; cases m1
  have hKx : K0 ≠ x := by intro e; rw [e] at m3; omega
  have hKL : K0 ≠ L := by intro e; rw [e] at m3; omega
  have hKp : K0 ≠ p := by intro e; rw [e] at m3; omega
  have hRfacts : ∀ r, cn.right_sibling = some r → ∃ rsn, t.heap r = some rsn ∧
      rsn.left_sibling = some x ∧ r ≠ x ∧ r ≠ p ∧ r ≠ L ∧ r ≠ K0 := by
    intro r hr
    obtain ⟨rsn, q1, q2, q3, q4⟩ := hg.right_info _ x cn r rfl hx hr
    have := hg.range_ne q1
    refine ⟨rsn, q1, q2, ?_, ?_, ?_, ?_⟩
    · intro e; rw [e] at q4; omega
    · intro e; rw [e] at q3; omega
    · intro e; rw [e] at q4; omega
    · intro e; rw [e] at q3; omega
  have hkeep : (pn.drop_slot pn.size).key_ref = pn.key_ref := by
    simp only [Node.drop_slot, shifted, le_refl, if_true]
  have hlen2 : pn.size - 1 < (pn.drop_slot pn.size).key_ref.length := by rw [hkeep]; omega
  have st : MergeStep t s lvl lo hi (some x) none
      (if pn.size = 1 then some p else none) p pn
      ((pn.drop_slot pn.size).set_sep (pn.size - 1) INT_MAX) (pn.size - 1) L x L x ln cn
      (z0.with_right cn.right_sibling) (fun d => d = K0) := by
    refine {
      good := hg
      hp := hp
      hidx := by omega
      hX := hsib.symm
      hY := by rw [show pn.size - 1 + 1 = pn.size by omega]; exact hlast
      hx := hL
      hy := hx
      hZ := Or.inl ⟨rfl, rfl⟩
      hun := fun b h => Or.inr (Or.inl (Option.some.inj h).symm)
      psz := ?_
      root_eq := hroot
      next_eq := hnext
      depth_eq := hdepth
      sV := by rw [hs, if_pos rfl]
      sZ := ?_
      sP := ?_
      sL := ?_
      sR := ?_
      sD := ?_
      sO := ?_
      hD := fun d dn hd hdp => hg.lone_child hx hcsz hK hd hdp
      pty := rfl
      ppar := rfl
      pleft := rfl
      pright := rfl
      plen := by rw [(Node.set_sep_fields _ _ _).2.2.2.2.2.2, hkeep]
      psize := by show pn.size - 1 + 1 = pn.size; omega
      psep := ?_
      pdummy := Node.set_sep_same _ _ _ hlen2
      pkid := ?_
      zty := pb.ty
      zpar := pb.par.trans k2
      zleft := pb.left
      zright := rfl
      zleaf := fun h => by rw [hlty] at h; cases h
      zlen := fun _ => pb.len
      zsize := fun _ => by
        show z0.size = ln.size + cn.size + 1
        rw [pb.size, hcsz]
      zsz_le := fun _ => by
        left
        show z0.size ≤ 3
        rw [pb.size]; omega
      zsep := ?_
      zdummy := ?_
      zkid := ?_ }
    · by_cases h : pn.size = 1
      · right; rw [if_pos h]
      · left; omega
    · rw [hs, if_neg (Ne.symm hxL), if_neg (Ne.symm hKL), if_neg, if_neg hLp, if_pos rfl]
      intro e
      exact (hRfacts L e).choose_spec.2.2.2.2.1 rfl
    · rw [hs, if_neg (Ne.symm hxp), if_neg (Ne.symm hKp), if_neg, if_pos rfl]
      intro e
      exact (hRfacts p e).choose_spec.2.2.2.1 rfl
    · intro l hl2
      obtain ⟨lsn, q1, q2, q3, q4⟩ := hg.left_info _ L ln l rfl hL hl2
      have rl := hg.range_ne q1
      have e1 : l ≠ x := by intro e; rw [e] at q4; omega
      have e2 : l ≠ p := by intro e; rw [e] at q3; omega
      have e3 : l ≠ L := by intro e; rw [e] at q4; omega
      have e5 : l ≠ K0 := by intro e; rw [e] at q3; omega
      have e4 : cn.right_sibling ≠ some l := by
        intro e
        obtain ⟨_, v1, v2, v3, v4⟩ := hg.right_info _ x cn l rfl hx e
        omega
      refine ⟨lsn, q1, ?_⟩
      rw [hs, if_neg e1, if_neg e5, if_neg e4, if_neg e2, if_neg e3, q1, Node.right_eta lsn q2]
    · intro r hr
      obtain ⟨rsn, q1, q2, q3, q4, q5, q6⟩ := hRfacts r hr
      exact ⟨rsn, q1, by rw [hs, if_neg q3, if_neg q6, if_pos hr, q1]; rfl⟩
    · intro d hd
      rw [hd]
      exact ⟨kn, hk, m2, by rw [hs, if_neg hKx, if_pos rfl]; rfl⟩
    · intro a h1 h2 h3 _ h5 h6
      rw [hs, if_neg h3, if_neg h6, if_neg h5, if_neg h1, if_neg h2]
    · intro j hj
      have hj : j < pn.size - 1 := hj
      rw [Node.set_sep_ne _ _ _ _ (by omega), if_pos hj]
      simp only [Node.sep, hkeep]
    · intro j hj
      have hj : j ≤ pn.size - 1 := hj
      rw [Node.set_sep_kid]
      by_cases h : j < pn.size - 1
      · rw [if_pos h]; simp only [Node.kid, hkeep]
      · rw [if_neg h, if_pos (by omega), hsib, show j = pn.size - 1 by omega]
        simp only [Node.kid, hkeep]
    · intro _ j hj
      have hj : j < z0.size := hj
      rw [pb.size] at hj
      show z0.sep j = _
      by_cases h : j < ln.size
      · rw [if_pos h]; exact pb.sep j h
      · rw [if_neg h, if_pos (by omega), show j = ln.size by omega]; exact pb.sepB
    · intro _
      show z0.sep z0.size = INT_MAX
      rw [pb.size]; exact pb.dummy
    · intro _ j hj
      have hj : j ≤ z0.size := hj
      rw [pb.size] at hj
      show z0.kid j = _
      by_cases h : j ≤ ln.size
      · rw [if_pos h]; exact pb.kid j h
      · rw [if_neg h, show j = ln.size + 1 by omega, show ln.size + 1 - ln.size - 1 = 0 by omega,
          hK]
        exact pb.kidB
  have e1 : Function.update lo L (lo L) = lo := Function.update_eq_self L lo
  exact ⟨st.m_good_after, st.m_leaf_same hlty, hxL, hxp, hLp, hKx, hKL, hKp, hs1, hs3, hpty⟩

end Good


namespace SeqBPlusTree

/-- The replacement of the root by the sibling that took its last child; the end of
`merge_internal` when the parent is a root without separators. -/
def root_collapse (t7 : SeqBPlusTree) (sibling : Nat) : Option SeqBPlusTree :=
  (({ t7 with root := sibling } : SeqBPlusTree).upd sibling
    (fun x => { x with parent := none })).map fun t8 =>
  ({ t8 with node_count := t8.node_count - 1, depth := t8.depth - 1 } : SeqBPlusTree).free
    t7.root

/-- The end of `merge_internal`: the node is freed, and the parent is repaired or replaced
by the sibling when it became deficient. -/
def finish_node (bmi : SeqBPlusTree → Nat → Option SeqBPlusTree) (t6 : SeqBPlusTree)
    (x p sibling : Nat) : Option SeqBPlusTree :=
  (((({ t6 with node_count := t6.node_count - 1 } : SeqBPlusTree).free x).heap p).bind
    fun pn => if pn.isDeficient then
      if pn.isRoot then
        root_collapse (({ t6 with node_count := t6.node_count - 1 } : SeqBPlusTree).free x)
          sibling
      else bmi (({ t6 with node_count := t6.node_count - 1 } : SeqBPlusTree).free x) p
    else some (({ t6 with node_count := t6.node_count - 1 } : SeqBPlusTree).free x))

/-- The state of `merge_internal` to the left at its walk to the separator. -/
def merge_node_cut (t : SeqBPlusTree) (L p c K0 : Nat) (l1 l2 pn kn : Node)
    (rs : Option Nat) : SeqBPlusTree :=
  relink (((((t.set L l1).set K0 (kn.with_par (some L))).set L l2).set p
    (pn.drop_slot c)).set L (l2.with_right rs)) rs L

set_option maxHeartbeats 2000000 in
/-- The code of `merge_internal` to the left, up to the walk to the separator. -/
theorem merge_internal_left_eq (bmi : SeqBPlusTree → Nat → Option SeqBPlusTree)
    {t : SeqBPlusTree} {x L p c K0 : Nat} {cn ln pn kn : Node} {kr : KeyReferencePair}
    {k0 k1 k2 k3 k4 l0 l1 l2 l3 l4 : KeyReferencePair} (mk : Int)
    (hx : t.heap x = some cn) (hL : t.heap L = some ln) (hp : t.heap p = some pn)
    (hk : t.heap K0 = some kn)
    (hcp : cn.parent = some p) (hxL : x ≠ L) (hxp : x ≠ p) (hLp : L ≠ p)
    (hKx : K0 ≠ x) (hKL : K0 ≠ L) (hKp : K0 ≠ p)
    (hslot : get_key_ref_pair_from_parent t.heap (some x) = some (p, c))
    (hfind : (pn.key_ref.take (pn.size + 1)).findIdx
      (fun kr => decide (kr.reference = some x)) = c)
    (hkr : pn.key_ref.get? c = some kr) (hps : 0 < pn.size)
    (hsh : pn.size ≤ c ∨ pn.size < pn.key_ref.length)
    (hck : cn.key_ref = [k0, k1, k2, k3, k4]) (hcsz : cn.size = 0)
    (hk0 : k0.reference = some K0)
    (hlk : ln.key_ref = [l0, l1, l2, l3, l4]) (hlsz : ln.size = 1)
    (hrs : ∀ rs, cn.right_sibling = some rs → rs ≠ x ∧ rs ≠ L ∧ rs ≠ p ∧ rs ≠ K0 ∧
      t.heap rs ≠ none)
    (hmk1 : ∀ h : Nat → Option Node,
      h L = some (ln.with_refs [l0, l1, k0, l3, l4] 1) →
      h K0 = some (kn.with_par (some L)) →
      (∀ a, a ≠ L → a ≠ K0 → h a = t.heap a) →
      min_key_in_subtree h t.next (some K0) = some mk) :
    merge_internal_with bmi t x L true =
      (((ancestor_walk (merge_node_cut t L p c K0 (ln.with_refs [l0, l1, k0, l3, l4] 1)
            (ln.with_refs [l0, ⟨mk, l1.reference⟩, k0, l3, l4] 2) pn kn
            cn.right_sibling).heap t.next (some p) ln.parent L).bind
          (fun last => get_key_ref_pair_from_parent
            (merge_node_cut t L p c K0 (ln.with_refs [l0, l1, k0, l3, l4] 1)
              (ln.with_refs [l0, ⟨mk, l1.reference⟩, k0, l3, l4] 2) pn kn
              cn.right_sibling).heap (some last))).bind
        (fun aslot =>
          if INT_MAX = kr.key then
            set_slot_key (merge_node_cut t L p c K0 (ln.with_refs [l0, l1, k0, l3, l4] 1)
              (ln.with_refs [l0, ⟨mk, l1.reference⟩, k0, l3, l4] 2) pn kn
              cn.right_sibling) aslot INT_MAX
          else cn.right_sibling.bind fun rs =>
            ((merge_node_cut t L p c K0 (ln.with_refs [l0, l1, k0, l3, l4] 1)
              (ln.with_refs [l0, ⟨mk, l1.reference⟩, k0, l3, l4] 2) pn kn
              cn.right_sibling).heap rs).bind fun rn =>
            (rn.key_ref.get? 0).bind fun r0 =>
            (min_key_in_subtree (merge_node_cut t L p c K0
              (ln.with_refs [l0, l1, k0, l3, l4] 1)
              (ln.with_refs [l0, ⟨mk, l1.reference⟩, k0, l3, l4] 2) pn kn
              cn.right_sibling).heap t.next r0.reference).bind fun m =>
            set_slot_key (merge_node_cut t L p c K0 (ln.with_refs [l0, l1, k0, l3, l4] 1)
              (ln.with_refs [l0, ⟨mk, l1.reference⟩, k0, l3, l4] 2) pn kn
              cn.right_sibling) aslot m)).bind
        (fun t6 => finish_node bmi t6 x p L) := by
  have hsd : size_dec pn.size = some (pn.size - 1) := by
    unfold size_dec; rw [if_pos hps]
  have hblit : arr_blit [l0, l1, l2, l3, l4] (1 + 1) [k0] = some [l0, l1, k0, l3, l4] := rfl
  simp only [merge_internal_with]
  simp only [hx, Option.some_seqBind, if_true, hslot, hp, hkr, merge_copy, hL, hck, hcsz,
    hlk, hlsz, Nat.zero_add, List.take, List.length_singleton, ne_eq, not_true_eq_false,
    if_false, hblit, List.foldlM_cons, List.foldlM_nil, hk0, upd, set_heap,
    Function.update_noteq hKL, hk, Option.map_some', Option.pure_def, Option.bind_eq_bind,
    Option.some_bind, Function.update_noteq (Ne.symm hKx), Function.update_noteq hxL,
    List.get?_cons_zero, fuel, set_next]
  rw [hmk1 _ (by rw [Function.update_noteq (Ne.symm hKL), Function.update_same]; rfl)
    (by rw [Function.update_same]; rfl)
    (fun a h1 h2 => by rw [Function.update_noteq h2, Function.update_noteq h1])]
  simp only [Option.some_seqBind, Function.update_noteq (Ne.symm hKL), Function.update_same,
    List.get?_cons_succ, List.get?_cons_zero, arr_set, List.length_cons, List.length_nil,
    Nat.reduceAdd, Nat.lt_add_one, Nat.reduceLT, if_true, List.set_cons_succ,
    List.set_cons_zero, hcp, Function.update_noteq (Ne.symm hLp),
    Function.update_noteq (Ne.symm hKp), hp, parent_remove_slot, hfind,
    arr_shift_eq _ _ _ hsh, hsd, Option.map_some', set_heap, Function.update_noteq hxp,
    Function.update_noteq hxL, Function.update_noteq hKx.symm, hx, Function.update_noteq hLp]
  cases hr : cn.right_sibling with
  | none =>
    simp only [Option.some_seqBind, set_heap, Function.update_same, merge_node_cut, relink,
      Node.with_refs, Node.with_right, Node.with_par, Node.drop_slot, hr, set_next]
    simp only [Option.seqBind_eq, decide_eq_true_eq, finish_node, root_collapse, upd,
      Option.bind_assoc]
  | some rs =>
    obtain ⟨h1, h2, h3, h5, h4⟩ := hrs rs hr
    cases hn : t.heap rs with
    | none => exact absurd hn h4
    | some rsn =>
      simp only [Option.some_seqBind, set_heap, Function.update_same, merge_node_cut, relink,
        Node.with_refs, Node.with_right, Node.with_par, Node.drop_slot, hr,
        Function.update_noteq h2, Function.update_noteq h3, Function.update_noteq h5, hn,
        Option.map_some', Function.update_noteq (Ne.symm h2), set_next]
      simp only [Option.seqBind_eq, decide_eq_true_eq, finish_node, root_collapse, upd,
        Option.bind_assoc, Option.some_bind, Function.update_same]

end SeqBPlusTree


namespace SeqBPlusTree

theorem merge_node_cut_heap (t : SeqBPlusTree) (L p c K0 : Nat) (l1 l2 pn kn : Node)
    (rs : Option Nat) (hLp : L ≠ p) (hKL : K0 ≠ L) (hKp : K0 ≠ p)
    (hrs : ∀ r, rs = some r → r ≠ L ∧ r ≠ p ∧ r ≠ K0) (a : Nat) :
    (merge_node_cut t L p c K0 l1 l2 pn kn rs).heap a =
      if rs = some a then (t.heap a).map (fun n => n.with_left (some L))
      else if a = L then some (l2.with_right rs)
      else if a = p then some (pn.drop_slot c)
      else if a = K0 then some (kn.with_par (some L))
      else t.heap a := by
  unfold merge_node_cut
  rw [relink_heap]
  by_cases h : rs = some a
  · obtain ⟨h1, h2, h3⟩ := hrs a h
    rw [if_pos h, if_pos h]
    simp only [set_heap, Function.update_noteq h1, Function.update_noteq h2,
      Function.update_noteq h3]
    rfl
  · rw [if_neg h, if_neg h]
    by_cases h1 : a = L
    · subst h1
      simp only [set_heap, Function.update_same, if_true]
    · rw [if_neg h1]
      by_cases h2 : a = p
      · subst h2
        simp only [set_heap, Function.update_noteq h1, Function.update_same, if_true]
      · rw [if_neg h2]
        by_cases h3 : a = K0
        · subst h3
          simp only [set_heap, Function.update_noteq h1, Function.update_noteq h2,
            Function.update_same, if_true]
        · rw [if_neg h3]
          simp only [set_heap, Function.update_noteq h1, Function.update_noteq h2,
            Function.update_noteq h3]

@[simp] theorem merge_node_cut_next (t : SeqBPlusTree) (L p c K0 : Nat) (l1 l2 pn kn : Node)
    (rs : Option Nat) : (merge_node_cut t L p c K0 l1 l2 pn kn rs).next = t.next := by
  unfold merge_node_cut; simp

@[simp] theorem merge_node_cut_root (t : SeqBPlusTree) (L p c K0 : Nat) (l1 l2 pn kn : Node)
    (rs : Option Nat) : (merge_node_cut t L p c K0 l1 l2 pn kn rs).root = t.root := by
  unfold merge_node_cut; simp

@[simp] theorem merge_node_cut_depth (t : SeqBPlusTree) (L p c K0 : Nat) (l1 l2 pn kn : Node)
    (rs : Option Nat) : (merge_node_cut t L p c K0 l1 l2 pn kn rs).depth = t.depth := by
  unfold merge_node_cut; simp

theorem finish_node_eq (bmi : SeqBPlusTree → Nat → Option SeqBPlusTree) (t4 : SeqBPlusTree)
    (A : Nat) (An : Node) (x p sib : Nat) {pm : Node}
    (hp : (merge_done t4 A An x).heap p = some pm) :
    finish_node bmi (t4.set A An) x p sib =
      if pm.isDeficient then
        if pm.isRoot then root_collapse (merge_done t4 A An x) sib
        else bmi (merge_done t4 A An x) p
      else some (merge_done t4 A An x) := by
  unfold finish_node
  rw [show (({ (t4.set A An) with node_count := (t4.set A An).node_count - 1 } :
    SeqBPlusTree).free x) = merge_done t4 A An x from rfl, hp]
  rfl

end SeqBPlusTree

namespace Adj

variable {t : SeqBPlusTree} {lvl : Nat → Nat} {lo hi : Nat → Int} {ov un : Option Nat}
  {A : Nat} {An : Node} {i : Nat} {up1 up2 : List Nat} {N1 N2 : Nat}

/-- The walk from two adjacent siblings and the lookup of the slot, in every store that has
the parent pointers along the two chains and the children of the separator node. -/
theorem find_slot_on (adj : Adj t.heap A An i up1 up2 N1 N2) (hg : Good t lvl lo hi ov un)
    (h : Nat → Option Node)
    (hsame : ∀ b, b ∈ up1 ∨ b ∈ up2 → ∀ n, t.heap b = some n →
      ∃ n2, h b = some n2 ∧ n2.parent = n.parent)
    {An2 : Node} (hA : h A = some An2) (hi2 : i ≤ An2.size)
    (hlen : An2.size < An2.key_ref.length) (hkid : ∀ j, j ≤ i → An2.kid j = An.kid j)
    {n1 n2 : Node} (h1 : h N1 = some n1) (h2 : h N2 = some n2) :
    ∃ last, SeqBPlusTree.ancestor_walk h t.fuel n2.parent n1.parent N1 = some last ∧
      SeqBPlusTree.get_key_ref_pair_from_parent h (some last) = some (A, i) := by
  obtain ⟨c1, c2, c1n, c2n, a1, a2, a3, a4, a5, a6, a7, a8, a9, a10, a11, a12⟩ := adj.tops hg
  refine ⟨c1, by rw [adj.walk hg h hsame h1 h2, a1], ?_⟩
  have hc1 : c1 ∈ up1 := List.mem_of_mem_getLast? a3
  obtain ⟨d1, e1, e2⟩ := hsame c1 (Or.inl hc1) c1n a5
  have hp := (hg.kid_parent adj.hA (le_of_lt adj.hi) a1 a5).1
  have hty := adj.internal hg
  have hin := hg.internal_good adj.hA hty
  refine slot_lookup h e1 (by rw [e2]; exact hp) hA hi2 hlen
    (by rw [hkid i (le_refl _)]; exact a1) ?_
  intro j hj e
  rw [hkid j (le_of_lt hj), ← a1] at e
  have := hin.kid_inj j i (by have := adj.hi; omega) (le_of_lt adj.hi) e
  omega

end Adj


namespace Good

variable {t : SeqBPlusTree} {lvl : Nat → Nat} {lo hi : Nat → Int} {ov un : Option Nat}

/-- The right neighbour of a node without separators is none of the nodes around it. -/
theorem right_apart (hg : Good t lvl lo hi ov un) {x L p K0 : Nat} {cn ln kn : Node}
    (hx : t.heap x = some cn) (hL : t.heap L = some ln) (hl : cn.left_sibling = some L)
    (hcp : cn.parent = some p)
    (hK : t.heap K0 = some kn) (hKp : kn.parent = some x) :
    ∀ rs, cn.right_sibling = some rs → rs ≠ x ∧ rs ≠ L ∧ rs ≠ p ∧ rs ≠ K0 ∧
      t.heap rs ≠ none := by
  intro rs hr
  obtain ⟨rsn, q1, q2, q3, q4⟩ := hg.right_info _ x cn rs rfl hx hr
  obtain ⟨_, l1, l2, l3, l4⟩ := hg.left_info _ x cn L rfl hx hl
  rw [hL] at l1; cases l1
  have r1 := hg.range_ne q1
  have r2 := hg.range_ne hx
  have r3 := hg.range_ne hL
  obtain ⟨_, _, _, _, _, _, p5, _⟩ := hg.parent_info hx hcp
  obtain ⟨_, _, _, _, _, _, k5, _⟩ := hg.parent_info hK hKp
  refine ⟨?_, ?_, ?_, ?_, by rw [q1]; simp⟩
  · intro e; rw [e] at q4; omega
  · intro e; rw [e] at q4; omega
  · intro e; rw [e] at q3; omega
  · intro e; rw [e] at q3; omega

set_option maxHeartbeats 1000000 in
/-- The function `merge_internal` to the left when the node without separators is the last
child of its parent: the left sibling takes its child below the least key of that child,
the parent loses its last slot, and the invariant holds up to the size of the parent. -/
theorem merge_internal_last {x L p : Nat} {cn ln pn : Node}
    (hg : Good t lvl lo hi none (some x))
    (hx : t.heap x = some cn) (hcty : cn.type = NodeType.INTERNAL) (hcsz : cn.size = 0)
    (hl : cn.left_sibling = some L) (hL : t.heap L = some ln) (hlsz : ln.size = 1)
    (hcp : cn.parent = some p) (hp : t.heap p = some pn) (hlast : pn.kid pn.size = some x) :
    ∃ s pm lo2 hi2, (∀ bmi, SeqBPlusTree.merge_internal_with bmi t x L true =
        (if pm.isDeficient then
          (if pm.isRoot then SeqBPlusTree.root_collapse s L else bmi s p) else some s)) ∧
      s.heap p = some pm ∧ pm.type = NodeType.INTERNAL ∧ pm.size + 1 = pn.size ∧
      pm.parent = pn.parent ∧
      Good s lvl lo2 hi2 none (if pm.size = 0 then some p else none) ∧
      LeafSame t.heap s.heap ∧ s.root = t.root ∧ s.depth = t.depth ∧ s.next = t.next ∧
      (pm.size = 0 → pm.parent = none → pm.kid 0 = some L) ∧
      NodeMerged t s x L cn ln true := by
  obtain ⟨k0, k1, k2, k3, k4, K0, kn, hck, hk0, hk0r, hkid0, hK0, hK0p, hK0l⟩ :=
    hg.lone_kid hx hcty hcsz
  obtain ⟨_, l1, l2, l3, l4⟩ := hg.left_info _ x cn L rfl hx hl
  rw [hL] at l1; cases l1
  have hlty : ln.type = NodeType.INTERNAL := (hg.type_of_lvl hL hx l3).trans hcty
  have hinL := hg.internal_good hL hlty
  obtain ⟨l0, l1, l2e, l3e, l4e, hlk⟩ := list_len5 ln.key_ref hinL.len
  obtain ⟨pn2, c, kr, q1, q2, q3, q4, q5, q6, q7, hslot, hfind, hkr, hkrk⟩ := hg.slot_of hx hcp
  rw [hp] at q1; cases q1
  have hin := hg.internal_good hp q2
  have hc : c = pn.size := hin.kid_inj c pn.size q3 (le_refl _) (q4.trans hlast.symm)
  subst hc
  have hrs2 := hg.right_apart hx hL hl hcp hK0 hK0p
  have pb : ln.PushBack (ln.with_refs [l0, ⟨pn.sep (pn.size - 1), l1.reference⟩, k0, l3e, l4e] 2)
      K0 (pn.sep (pn.size - 1)) := by
    refine ⟨rfl, rfl, rfl, rfl, by rw [hlsz]; rfl, rfl, ?_, ?_, ?_, ?_, ?_⟩
    · intro j hj
      rw [hlsz] at hj
      rcases Nat.lt_or_ge j 1 with h | h
      · obtain rfl : j = 0 := by omega
        simp only [Node.kid, Node.with_refs, hlk, List.get?_cons_zero]
      · obtain rfl : j = 1 := by omega
        simp only [Node.kid, Node.with_refs, hlk, List.get?_cons_succ, List.get?_cons_zero,
          Option.some_bind]
    · rw [hlsz]
      simp only [Node.kid, Node.with_refs, List.get?_cons_succ, List.get?_cons_zero,
        Option.some_bind, hk0r]
    · intro j hj
      rw [hlsz] at hj
      obtain rfl : j = 0 := by omega
      simp only [Node.sep, Node.with_refs, hlk, List.get?_cons_zero]
    · rw [hlsz]; rfl
    · rw [hlsz]
      simp only [Node.sep, Node.with_refs, List.get?_cons_succ, List.get?_cons_zero,
        Option.map_some', Option.getD_some, hk0]
  have hcut := fun l2 => SeqBPlusTree.merge_node_cut_heap t L p pn.size K0
    (ln.with_refs [l0, l1, k0, l3e, l4e] 1) l2 pn kn cn.right_sibling
  have hS := fun l2 => SeqBPlusTree.merge_done_heap
    (SeqBPlusTree.merge_node_cut t L p pn.size K0 (ln.with_refs [l0, l1, k0, l3e, l4e] 1) l2
      pn kn cn.right_sibling) p ((pn.drop_slot pn.size).set_sep (pn.size - 1) INT_MAX) x
  obtain ⟨hg1, ls1, hxL, hxp, hLp, hKx, hKL, hKp, hs1, hs3, hpty⟩ :=
    hg.merge_node_last hx hcty hcsz hp hlast hl hL (by omega) hkid0 hK0 pb
      (SeqBPlusTree.merge_done
        (SeqBPlusTree.merge_node_cut t L p pn.size K0 (ln.with_refs [l0, l1, k0, l3e, l4e] 1)
          (ln.with_refs [l0, ⟨pn.sep (pn.size - 1), l1.reference⟩, k0, l3e, l4e] 2)
          pn kn cn.right_sibling) p ((pn.drop_slot pn.size).set_sep (pn.size - 1) INT_MAX) x)
      (by simp) (by simp) (by simp)
      (by
        intro u
        have hLp : L ≠ p := by
          intro e
          obtain ⟨_, _, _, _, _, _, p5, _⟩ := hg.parent_info hx hcp
          rw [e] at l3; omega
        have hKL : K0 ≠ L := by intro e; rw [e] at hK0l; omega
        have hKp : K0 ≠ p := by
          intro e
          obtain ⟨_, _, _, _, _, _, p5, _⟩ := hg.parent_info hx hcp
          rw [e] at hK0l; omega
        rw [hS, hcut _ hLp hKL hKp (fun r h => ⟨(hrs2 r h).2.1, (hrs2 r h).2.2.1,
          (hrs2 r h).2.2.2.1⟩)]
        by_cases e1 : u = x
        · simp only [e1, if_true]
        by_cases e2 : u = K0
        · have e3 : ¬ cn.right_sibling = some u := fun h => (hrs2 u h).2.2.2.1 e2
          have e4 : ¬ u = p := by rw [e2]; exact hKp
          have e5 : ¬ u = L := by rw [e2]; exact hKL
          simp only [if_neg e1, if_neg e3, if_neg e4, if_neg e5, if_pos e2]
        by_cases e3 : cn.right_sibling = some u
        · have e4 : ¬ u = p := (hrs2 u e3).2.2.1
          simp only [if_neg e1, if_neg e2, if_pos e3, if_neg e4]
        by_cases e4 : u = p
        · simp only [if_neg e1, if_neg e2, if_neg e3, if_pos e4]
        by_cases e5 : u = L
        · simp only [if_neg e1, if_neg e2, if_neg e3, if_neg e4, if_pos e5]
        simp only [if_neg e1, if_neg e2, if_neg e3, if_neg e4, if_neg e5])
  have hrs3 : ∀ r, cn.right_sibling = some r → r ≠ L ∧ r ≠ p ∧ r ≠ K0 :=
    fun r h => ⟨(hrs2 r h).2.1, (hrs2 r h).2.2.1, (hrs2 r h).2.2.2.1⟩
  have hS1L : (SeqBPlusTree.merge_done
        (SeqBPlusTree.merge_node_cut t L p pn.size K0 (ln.with_refs [l0, l1, k0, l3e, l4e] 1)
          (ln.with_refs [l0, ⟨pn.sep (pn.size - 1), l1.reference⟩, k0, l3e, l4e] 2)
          pn kn cn.right_sibling) p ((pn.drop_slot pn.size).set_sep (pn.size - 1) INT_MAX)
          x).heap L =
      some ((ln.with_refs [l0, ⟨pn.sep (pn.size - 1), l1.reference⟩, k0, l3e, l4e] 2).with_right
        cn.right_sibling) := by
    rw [hS, if_neg (Ne.symm hxL), if_neg hLp, hcut _ hLp hKL hKp hrs3,
      if_neg (fun h => (hrs2 L h).2.1 rfl), if_pos rfl]
  have hlp : 0 < lvl p := by
    obtain ⟨_, _, _, _, _, _, p5, _⟩ := hg.parent_info hx hcp
    omega
  obtain ⟨mk, lo2, hi2, hg2, hmk, ls2, hq⟩ := hg1.raise_sep (A := L) (i := 1) hS1L hlty
    (by show 1 < 2; omega)
    (fun u h => by
      by_cases e : pn.size = 1
      · rw [if_pos e] at h; cases h; exact hlp
      · rw [if_neg e] at h; cases h)
  have hZ : ((ln.with_refs [l0, ⟨pn.sep (pn.size - 1), l1.reference⟩, k0, l3e, l4e] 2).with_right
      cn.right_sibling).set_sep 1 mk =
      (ln.with_refs [l0, ⟨mk, l1.reference⟩, k0, l3e, l4e] 2).with_right cn.right_sibling := by
    simp [Node.set_sep, Node.with_refs, Node.with_right]
  rw [hZ] at hg2 ls2
  have fL := hg.fuel_above hL
  -- the walk to the separator ends in the parent
  obtain ⟨c1, c2, c1n, c2n, a1, a2, a3, a4, a5, adj⟩ :=
    hg.adj_slot hp hpty (show pn.size - 1 < pn.size by omega)
  rw [show pn.size - 1 + 1 = pn.size by omega, hlast] at a2; cases a2
  rw [hx] at a4; cases a4
  obtain ⟨_, r1, r2, _⟩ := hg.right_info _ c1 c1n x rfl a3 a5
  rw [hx] at r1; cases r1
  rw [hl] at r2; cases r2
  rw [hL] at a3; cases a3
  have hkeep : (pn.drop_slot pn.size).key_ref = pn.key_ref := by
    simp only [Node.drop_slot, shifted, le_refl, if_true]
  have hT5 := hcut (ln.with_refs [l0, ⟨mk, l1.reference⟩, k0, l3e, l4e] 2) hLp hKL hKp hrs3
  have hT5p : (SeqBPlusTree.merge_node_cut t L p pn.size K0
      (ln.with_refs [l0, l1, k0, l3e, l4e] 1)
      (ln.with_refs [l0, ⟨mk, l1.reference⟩, k0, l3e, l4e] 2) pn kn cn.right_sibling).heap p =
      some (pn.drop_slot pn.size) := by
    rw [hT5, if_neg (fun h => (hrs2 p h).2.2.1 rfl), if_neg (Ne.symm hLp), if_pos rfl]
  have hT5L : (SeqBPlusTree.merge_node_cut t L p pn.size K0
      (ln.with_refs [l0, l1, k0, l3e, l4e] 1)
      (ln.with_refs [l0, ⟨mk, l1.reference⟩, k0, l3e, l4e] 2) pn kn cn.right_sibling).heap L =
      some ((ln.with_refs [l0, ⟨mk, l1.reference⟩, k0, l3e, l4e] 2).with_right
        cn.right_sibling) := by
    rw [hT5, if_neg (fun h => (hrs2 L h).2.1 rfl), if_pos rfl]
  have hT5x : (SeqBPlusTree.merge_node_cut t L p pn.size K0
      (ln.with_refs [l0, l1, k0, l3e, l4e] 1)
      (ln.with_refs [l0, ⟨mk, l1.reference⟩, k0, l3e, l4e] 2) pn kn cn.right_sibling).heap x =
      some cn := by
    rw [hT5, if_neg (fun h => (hrs2 x h).1 rfl), if_neg hxL, if_neg hxp, if_neg (Ne.symm hKx),
      hx]
  obtain ⟨last, w1, w2⟩ := adj.find_slot_on hg _
    (by
      intro b hb n hbn
      simp only [List.mem_singleton] at hb
      rcases hb with e | e
      · rw [e, hL] at hbn; cases hbn
        rw [e]; exact ⟨_, hT5L, rfl⟩
      · rw [e, hx] at hbn; cases hbn
        rw [e]; exact ⟨_, hT5x, rfl⟩)
    hT5p (le_refl _)
    (by rw [hkeep]; show pn.size - 1 < pn.key_ref.length; omega)
    (fun j _ => by simp only [Node.kid, hkeep])
    hT5L hT5x
  rw [hcp] at w1
  have hkk : INT_MAX = kr.key := by rw [hkrk, hin.dummy]
  have w1b : SeqBPlusTree.ancestor_walk (SeqBPlusTree.merge_node_cut t L p pn.size K0
      (ln.with_refs [l0, l1, k0, l3e, l4e] 1)
      (ln.with_refs [l0, ⟨mk, l1.reference⟩, k0, l3e, l4e] 2) pn kn cn.right_sibling).heap
      t.next (some p) ln.parent L = some last := w1
  have hsp : (SeqBPlusTree.merge_done
      (SeqBPlusTree.merge_node_cut t L p pn.size K0 (ln.with_refs [l0, l1, k0, l3e, l4e] 1)
        (ln.with_refs [l0, ⟨mk, l1.reference⟩, k0, l3e, l4e] 2) pn kn cn.right_sibling) p
      ((pn.drop_slot pn.size).set_sep (pn.size - 1) INT_MAX) x).heap p =
      some ((pn.drop_slot pn.size).set_sep (pn.size - 1) INT_MAX) := by
    rw [hS, if_neg (Ne.symm hxp), if_pos rfl]
  have hF : ∀ u, (SeqBPlusTree.merge_done
      (SeqBPlusTree.merge_node_cut t L p pn.size K0 (ln.with_refs [l0, l1, k0, l3e, l4e] 1)
        (ln.with_refs [l0, ⟨mk, l1.reference⟩, k0, l3e, l4e] 2) pn kn cn.right_sibling) p
      ((pn.drop_slot pn.size).set_sep (pn.size - 1) INT_MAX) x).heap u =
      ((SeqBPlusTree.merge_done
        (SeqBPlusTree.merge_node_cut t L p pn.size K0 (ln.with_refs [l0, l1, k0, l3e, l4e] 1)
          (ln.with_refs [l0, ⟨pn.sep (pn.size - 1), l1.reference⟩, k0, l3e, l4e] 2)
          pn kn cn.right_sibling) p ((pn.drop_slot pn.size).set_sep (pn.size - 1) INT_MAX)
          x).set L ((ln.with_refs [l0, ⟨mk, l1.reference⟩, k0, l3e, l4e] 2).with_right
            cn.right_sibling)).heap u := by
    intro u
    simp only [SeqBPlusTree.set_heap, Function.update_apply]
    rw [hS, hS, hT5, hcut _ hLp hKL hKp hrs3]
    by_cases e1 : u = L
    · rw [if_pos e1, if_neg (by rw [e1]; exact Ne.symm hxL), if_neg (by rw [e1]; exact hLp),
        if_neg (fun h => (hrs2 u h).2.1 e1), if_pos e1]
    · rw [if_neg e1, if_neg e1, if_neg e1]
  have hun : (if pn.size = 1 then some p else none) =
      (if ((pn.drop_slot pn.size).set_sep (pn.size - 1) INT_MAX).size = 0 then some p
        else none) := by
    have e : ((pn.drop_slot pn.size).set_sep (pn.size - 1) INT_MAX).size = pn.size - 1 := rfl
    by_cases h : pn.size = 1
    · rw [if_pos h, if_pos (by omega)]
    · rw [if_neg h, if_neg (by omega)]
  rw [hun] at hg2
  refine ⟨_, _, lo2, hi2, ?_, hsp, hpty, by show pn.size - 1 + 1 = pn.size; omega, rfl,
    hg2.of_same hF (by simp) (by simp) (by simp), (ls1.trans ls2).by_heap hF,
    by simp, by simp, by simp, ?_, ?_⟩
  · intro bmi
    have heq := SeqBPlusTree.merge_internal_left_eq bmi mk hx hL hp hK0 hcp hxL hxp hLp
      hKx hKL hKp hslot hfind hkr (by omega) (Or.inl (le_refl _)) hck hcsz hk0r hlk hlsz hrs2
      (by
        intro h hhL hhK hho
        have := hq h t.next (by
          intro b n hbl hbn
          have e1 : b ≠ x := by intro e; rw [e] at hbl; omega
          have e2 : b ≠ L := by intro e; rw [e] at hbl; omega
          have e3 : b ≠ p := by
            intro e
            obtain ⟨_, _, _, _, _, _, p5, _⟩ := hg.parent_info hx hcp
            rw [e] at hbl; omega
          have e4 : cn.right_sibling ≠ some b := by
            intro e
            obtain ⟨_, _, _, w3, _⟩ := hg.right_info _ x cn b rfl hx e
            omega
          rw [hS, if_neg e1, if_neg e3, hcut _ hLp hKL hKp hrs3, if_neg e4, if_neg e2,
            if_neg e3] at hbn
          by_cases e5 : b = K0
          · rw [if_pos e5] at hbn; cases hbn
            rw [e5]; exact ⟨_, hhK, rfl, rfl, rfl⟩
          · rw [if_neg e5] at hbn
            rw [hho b e2 e5]; exact ⟨n, hbn, rfl, rfl, rfl⟩) (by omega)
        rw [← this]
        simp only [Node.kid, Node.with_refs, Node.with_right, List.get?_cons_succ,
          List.get?_cons_zero, Option.some_bind, hk0r])
    rw [w1b, Option.some_bind, w2, Option.some_bind, if_pos hkk,
      set_slot_key_eq _ (pn.size - 1) INT_MAX hT5p (by rw [hkeep]; omega), Option.some_bind,
      SeqBPlusTree.finish_node_eq bmi _ p _ x p L hsp] at heq
    exact heq
  · intro h0 _
    have h0 : pn.size - 1 = 0 := h0
    rw [Node.set_sep_kid]
    rw [h0] at a1
    simp only [Node.kid, hkeep]
    exact a1
  · refine ⟨?_, ⟨(ln.with_refs [l0, ⟨mk, l1.reference⟩, k0, l3e, l4e] 2).with_right
        cn.right_sibling, ?_, rfl, ?_, ?_⟩, ?_, ?_, ?_⟩
    · rw [hS, if_pos rfl]
    · rw [hS, if_neg (Ne.symm hxL), if_neg hLp, hT5L]
    · rw [hlsz, hcsz]; rfl
    · intro j hj
      have hj : j ≤ 2 := hj
      rw [if_pos rfl, hlsz]
      interval_cases j <;>
        simp [Node.kid, Node.with_refs, Node.with_right, hlk, hck]
    · intro j hj B hB
      rw [hcsz] at hj
      obtain rfl : j = 0 := by omega
      rw [hkid0] at hB; cases hB
      refine ⟨kn.with_par (some L), ?_, rfl⟩
      rw [hS, if_neg hKx, if_neg hKp, hT5, if_neg (fun h => (hrs2 K0 h).2.2.2.1 rfl),
        if_neg hKL, if_neg hKp, if_pos rfl]
    · intro u hu
      rw [hS, if_neg hu, hT5]
      by_cases e1 : u = p
      · rw [if_pos e1, e1, hp]; rfl
      · rw [if_neg e1]
        by_cases e2 : cn.right_sibling = some u
        · rw [if_pos e2]
          cases t.heap u <;> rfl
        · rw [if_neg e2]
          by_cases e3 : u = L
          · rw [if_pos e3, e3, hL]; rfl
          · rw [if_neg e3, if_neg e1]
            by_cases e4 : u = K0
            · rw [if_pos e4, e4, hK0]; rfl
            · rw [if_neg e4]
    · simp [SeqBPlusTree.merge_done, SeqBPlusTree.merge_node_cut, SeqBPlusTree.free,
        SeqBPlusTree.set, SeqBPlusTree.relink_node_count]

end Good


namespace SeqBPlusTree

/-- The state in which a node without separators has been folded into its right sibling
under the separator of their parent, before any key moves. -/
def fold_right (t : SeqBPlusTree) (x RS p K0 c : Nat) (cn pn kn z0 : Node) : SeqBPlusTree :=
  { t with heap := fun u =>
      if u = x then none
      else if u = K0 then some (kn.with_par (some RS))
      else if cn.left_sibling = some u then (t.heap u).map (fun n => n.with_right (some RS))
      else if u = p then some (pn.drop_slot c)
      else if u = RS then some (z0.with_left cn.left_sibling)
      else t.heap u }

end SeqBPlusTree

/-- A node with a new first entry is the node with a child pushed to its front. -/
theorem Node.push_front_ok (n : Node) {r0 r1 r2 r3 r4 : KeyReferencePair} (B : Nat) (σ : Int)
    (hk : n.key_ref = [r0, r1, r2, r3, r4]) (hs : n.size ≤ 3) :
    n.PushFront (n.with_refs [⟨σ, some B⟩, r0, r1, r2, r3] (n.size + 1)) B σ := by
  refine ⟨rfl, rfl, rfl, rfl, rfl, rfl, rfl, ?_, rfl, ?_⟩
  · intro j hj
    have : j ≤ 3 := by omega
    simp only [Node.kid, Node.with_refs, hk]
    interval_cases j <;> rfl
  · intro j hj
    have : j ≤ 3 := by omega
    simp only [Node.sep, Node.with_refs, hk]
    interval_cases j <;> rfl

namespace Adj

variable {t : SeqBPlusTree} {lvl : Nat → Nat} {lo hi : Nat → Int} {ov un : Option Nat}
  {A : Nat} {An : Node} {i : Nat} {up1 up2 : List Nat} {N1 N2 : Nat}

/-- The nodes of the second chain above its first node are internal nodes above it. -/
theorem tail_above (adj : Adj t.heap A An i up1 up2 N1 N2) (hg : Good t lvl lo hi ov un)
    {b : Nat} (hb : b ∈ up2.tail) :
    lvl N2 < lvl b ∧ ∃ bn, t.heap b = some bn ∧ bn.type = NodeType.INTERNAL := by
  obtain ⟨y, hy, hR⟩ := chain_tail_pred _ up2 adj.c2 b hb
  obtain ⟨bn, q1, _⟩ := adj.mem2 hg (List.mem_of_mem_tail hb)
  obtain ⟨_, _, q5, _⟩ := adj.mem2 hg hy
  simp only [firstKid, Option.some_bind, q1] at hR
  obtain ⟨_, _, _, k3, _⟩ := hg.kid_live q1 (Nat.zero_le _) hR
  exact ⟨by omega, bn, q1, hg.internal_of_kid q1 hR⟩

end Adj

namespace Good

variable {t : SeqBPlusTree} {lvl : Nat → Nat} {lo hi : Nat → Int} {ov un : Option Nat}

/-- The first child of the root has no left sibling. -/
theorem no_left_under_root (hg : Good t lvl lo hi ov un) {x p : Nat} {cn pn : Node}
    (hx : t.heap x = some cn) (hp : t.heap p = some pn) (hpp : pn.parent = none)
    (hk : pn.kid 0 = some x) : cn.left_sibling = none := by
  cases hl : cn.left_sibling with
  | none => rfl
  | some L =>
    exfalso
    obtain ⟨ln, l1, l2, l3, l4⟩ := hg.left_info _ x cn L rfl hx hl
    obtain ⟨A, An, i, up1, up2, adj⟩ := hg.adjacent _ L ln x rfl l1 l2
    obtain ⟨_, b1, -, -, -, hlv, hhi1, hlo2, hlA, -⟩ := adj.pair hg l1
    have hroot := (hg.nodes p pn hp).is_root hpp
    obtain ⟨_, k1, k2, k3, k4, k5⟩ := hg.kid_live hp (Nat.zero_le _) hk
    have hA : A = t.root := hg.top_is_root adj.hA (by rw [← hroot]; omega)
    have hAp : A = p := hA.trans hroot.symm
    have hAn := adj.hA
    rw [hAp, hp] at hAn; cases hAn
    have hin := hg.internal_good hp (adj.internal hg)
    have := hin.sep_lo i adj.hi
    rw [k4] at hlo2
    unfold lob at hlo2
    rw [if_pos rfl] at hlo2
    omega

end Good

namespace Good

variable {t : SeqBPlusTree} {lvl : Nat → Nat} {lo hi : Nat → Int} {ov un : Option Nat}

set_option maxHeartbeats 1000000 in
/-- The function `merge_internal` to the left when the node without separators is not the
last child of its parent: the left sibling takes its child, the parent loses the slot of
the node, and the separator over the left sibling becomes the least key of the right
sibling of the node. -/
theorem merge_internal_mid {x L p c : Nat} {cn ln pn : Node}
    (hg : Good t lvl lo hi none (some x))
    (hx : t.heap x = some cn) (hcty : cn.type = NodeType.INTERNAL) (hcsz : cn.size = 0)
    (hl : cn.left_sibling = some L) (hL : t.heap L = some ln) (hlsz : ln.size = 1)
    (hcp : cn.parent = some p) (hp : t.heap p = some pn) (hc : pn.kid c = some x)
    (hclt : c < pn.size) :
    ∃ s pm lo2 hi2, (∀ bmi, SeqBPlusTree.merge_internal_with bmi t x L true =
        (if pm.isDeficient then
          (if pm.isRoot then SeqBPlusTree.root_collapse s L else bmi s p) else some s)) ∧
      s.heap p = some pm ∧ pm.type = NodeType.INTERNAL ∧ pm.size + 1 = pn.size ∧
      pm.parent = pn.parent ∧
      Good s lvl lo2 hi2 none (if pm.size = 0 then some p else none) ∧
      LeafSame t.heap s.heap ∧ s.root = t.root ∧ s.depth = t.depth ∧ s.next = t.next ∧
      (pm.size = 0 → pm.parent = none → pm.kid 0 = some L) ∧
      NodeMerged t s x L cn ln true := by
  obtain ⟨k0, k1, k2, k3, k4, K0, kn, hck, hk0, hk0r, hkid0, hK0, hK0p, hK0l⟩ :=
    hg.lone_kid hx hcty hcsz
  obtain ⟨_, l1, l2, l3, l4⟩ := hg.left_info _ x cn L rfl hx hl
  rw [hL] at l1; cases l1
  have hlty : ln.type = NodeType.INTERNAL := (hg.type_of_lvl hL hx l3).trans hcty
  have hinL := hg.internal_good hL hlty
  obtain ⟨l0, l1, l2e, l3e, l4e, hlk⟩ := list_len5 ln.key_ref hinL.len
  obtain ⟨pn2, c2, kr, q1, q2, q3, q4, q5, q6, q7, hslot, hfind, hkr, hkrk⟩ := hg.slot_of hx hcp
  rw [hp] at q1; cases q1
  have hin := hg.internal_good hp q2
  have hcc : c2 = c := hin.kid_inj c2 c q3 (le_of_lt hclt) (q4.trans hc.symm)
  subst hcc
  obtain ⟨RS, rsn, b1, hR, b3, b4, b5, b6⟩ := hin.kids (c2 + 1) hclt
  have hr : cn.right_sibling = some RS := by
    have hsib := (hin.sib_in c2 hclt).1
    rw [hc, b1] at hsib
    simpa only [rightOf, Option.some_bind, hx] using hsib
  have hrs2 := hg.right_apart hx hL hl hcp hK0 hK0p
  have hrty : rsn.type = NodeType.INTERNAL :=
    (hg.type_of_lvl hR hx (by omega)).trans hcty
  have hinR := hg.internal_good hR hrty
  obtain ⟨r0, r1, r2, r3, r4, hrk⟩ := list_len5 rsn.key_ref hinR.len
  have hxR : x ≠ RS := fun e => (hrs2 RS hr).1 e.symm
  have hr3 : rsn.size ≤ 3 := by
    rcases hinR.size_le with h | h
    · exact h
    · cases h.2
  have hr1 : 1 ≤ rsn.size := by
    rcases hinR.size_ge with h | h
    · exact h
    · exact absurd (Option.some.inj h) hxR
  obtain ⟨z0, hz0⟩ : ∃ z0, z0 = rsn.with_refs [⟨pn.sep c2, some K0⟩, r0, r1, r2, r3]
    (rsn.size + 1) := ⟨_, rfl⟩
  have pf : rsn.PushFront z0 K0 (pn.sep c2) := by
    rw [hz0]; exact rsn.push_front_ok K0 (pn.sep c2) hrk hr3
  obtain ⟨M1, hM1e⟩ : ∃ M1, M1 = SeqBPlusTree.fold_right t x RS p K0 c2 cn pn kn z0 :=
    ⟨_, rfl⟩
  have hM1n : M1.next = t.next := by rw [hM1e]; rfl
  have hM1r : M1.root = t.root := by rw [hM1e]; rfl
  have hM1d : M1.depth = t.depth := by rw [hM1e]; rfl
  obtain ⟨hg1, ls1, hk1, -, -, hxp, hRp, hKx, hKR, hKp, hRpar, -, -⟩ :=
    hg.merge_node_right hx hcty hcsz hp hc hclt hr hR hkid0 hK0 pf M1 hM1r hM1n hM1d
      (fun u => by rw [hM1e]; rfl)
  have hxL : x ≠ L := by
    intro e
    have := hg.range_ne hx
    rw [e] at l4 this; omega
  have hLp : L ≠ p := by intro e; rw [e] at l3; omega
  have hKL : K0 ≠ L := by intro e; rw [e] at hK0l; omega
  have hLR : L ≠ RS := fun e => (hrs2 RS hr).2.1 e.symm
  have hM1 : ∀ u, M1.heap u =
      if u = x then none else if u = K0 then some (kn.with_par (some RS))
      else if u = L then some (ln.with_right (some RS))
      else if u = p then some (pn.drop_slot c2)
      else if u = RS then some (z0.with_left (some L))
      else t.heap u := by
    intro u
    rw [hM1e]
    simp only [SeqBPlusTree.fold_right, hl, Option.some.injEq]
    by_cases e : u = L
    · simp only [e, if_true, hL, Option.map_some', eq_comm]
    · have e2 : ¬ L = u := fun h => e h.symm
      simp only [e, e2, if_false]
  have hM1L : M1.heap L = some (ln.with_right (some RS)) := by
    rw [hM1, if_neg (Ne.symm hxL), if_neg (Ne.symm hKL), if_pos rfl]
  have hM1R : M1.heap RS = some (z0.with_left (some L)) := by
    rw [hM1, if_neg (Ne.symm hxR), if_neg (Ne.symm hKR), if_neg (Ne.symm hLR), if_neg hRp,
      if_pos rfl]
  have hM1K : M1.heap K0 = some (kn.with_par (some RS)) := by
    rw [hM1, if_neg hKx, if_pos rfl]
  -- the separator slot between the left sibling and the right sibling
  obtain ⟨A, An, i, up1, up2, adj⟩ := hg1.adjacent _ L _ RS rfl hM1L rfl
  obtain ⟨_, d1, -, -, -, hlv, hhi1, hlo2, hlA, -, hA1, hA2, hσ, hno1, hno2⟩ :=
    adj.pair hg1 hM1L
  have hAty := adj.internal hg1
  have hAx : A ≠ x := by
    intro e
    have := adj.hA
    rw [e, hM1, if_pos rfl] at this; cases this
  have hKA : K0 ≠ A := by intro e; rw [e] at hK0l; omega
  obtain ⟨m1, hm1⟩ : ∃ m1, m1 = (ln.with_refs [l0, ⟨An.sep i, l1.reference⟩, k0, l3e, l4e]
    2).with_right (some RS) := ⟨_, rfl⟩
  have p1 : (ln.with_right (some RS)).PushBack m1 K0 (An.sep i) := by
    rw [hm1]
    refine ⟨rfl, rfl, rfl, rfl, by show 2 = ln.size + 1; omega, rfl, ?_, ?_, ?_, ?_, ?_⟩
    · intro j hj
      have hj : j ≤ 1 := by rw [← hlsz]; exact hj
      simp only [Node.kid, Node.with_refs, Node.with_right, hlk]
      interval_cases j <;> rfl
    · show Node.kid _ (ln.size + 1) = _
      rw [hlsz]
      simp only [Node.kid, Node.with_refs, Node.with_right, List.get?_cons_succ,
        List.get?_cons_zero, Option.some_bind, hk0r]
    · intro j hj
      have hj : j < 1 := by rw [← hlsz]; exact hj
      obtain rfl : j = 0 := by omega
      simp only [Node.sep, Node.with_refs, Node.with_right, hlk, List.get?_cons_zero]
    · show Node.sep _ ln.size = _
      rw [hlsz]; rfl
    · show Node.sep _ (ln.size + 1) = _
      rw [hlsz]
      simp only [Node.sep, Node.with_refs, Node.with_right, List.get?_cons_succ,
        List.get?_cons_zero, Option.map_some', Option.getD_some, hk0]
  have p2 : (z0.with_left (some L)).DropFirst (rsn.with_left (some L)) :=
    ⟨pf.ty.symm, pf.par.symm, rfl, pf.right.symm, pf.size.symm, hinR.len,
      fun j hj => (pf.kid j hj).symm, fun j hj => (pf.sep j hj).symm⟩
  obtain ⟨M2, hM2e⟩ : ∃ M2, M2 = SeqBPlusTree.rot_state M1 L RS A K0 m1 (rsn.with_left (some L))
    (An.set_sep i (pn.sep c2)) (kn.with_par (some L)) := ⟨_, rfl⟩
  have hM2 : ∀ u, M2.heap u = if u = K0 then some (kn.with_par (some L))
      else if u = A then some (An.set_sep i (pn.sep c2))
      else if u = RS then some (rsn.with_left (some L))
      else if u = L then some m1 else M1.heap u := by
    intro u; rw [hM2e, SeqBPlusTree.rot_state_heap]
  have hsep0 : (z0.with_left (some L)).sep 0 = pn.sep c2 := pf.sepB
  have hrot : ∃ lo2 hi2, Good M2 lvl lo2 hi2 none
      (if pn.size = 1 then some p else none) ∧ LeafSame M1.heap M2.heap := by
    refine ⟨_, _, hg1.rotate_to_left (s := M2) adj _ _ hM1L hM1R hlty (by show ln.size ≤ 2; omega)
      (by have := pf.size; show 2 ≤ z0.size; omega) pf.kidB hM1K p1 p2
      (by rw [hM2e]; rfl) (by rw [hM2e]; rfl) (by rw [hM2e]; rfl)
      (by rw [hM2, if_neg (Ne.symm hKL), if_neg (Ne.symm hA1), if_neg hLR, if_pos rfl])
      (by rw [hM2, if_neg (Ne.symm hKR), if_neg (Ne.symm hA2), if_pos rfl])
      (by rw [hM2, if_neg (Ne.symm hKA), if_pos rfl, hsep0])
      (by rw [hM2, if_pos rfl]; rfl)
      (fun a e1 e2 e3 e4 => by rw [hM2, if_neg e4, if_neg e3, if_neg e2, if_neg e1])
      (fun b h _ h2 => by
        by_cases e : rsn.size = 3
        · rw [if_pos e] at h; exact absurd (Option.some.inj h).symm h2
        · rw [if_neg e] at h; cases h)
      (fun b h _ _ => h)⟩
  obtain ⟨lo2, hi2, hg2, ls2⟩ := hrot
  have hM2n : M2.next = t.next := by rw [hM2e]; exact hM1n
  have hM2r : M2.root = t.root := by rw [hM2e]; exact hM1r
  have hM2d : M2.depth = t.depth := by rw [hM2e]; exact hM1d
  have hM2L : M2.heap L = some m1 := by
    rw [hM2, if_neg (Ne.symm hKL), if_neg (Ne.symm hA1), if_neg hLR, if_pos rfl]
  have hlp : 0 < lvl p := by omega
  have hun : ∀ u, (if pn.size = 1 then some p else none) = some u → 0 < lvl u := by
    intro u h
    by_cases e : pn.size = 1
    · rw [if_pos e] at h; cases h; exact hlp
    · rw [if_neg e] at h; cases h
  -- the new separator of the left sibling becomes the least key below the child it took
  obtain ⟨mk, lo3, hi3, hg3, hmk, ls3, hq1⟩ := hg2.raise_sep (A := L) (i := 1) hM2L
    (by rw [hm1]; exact hlty) (by rw [hm1]; show 1 < 2; omega) hun
  have hZ : m1.set_sep 1 mk =
      (ln.with_refs [l0, ⟨mk, l1.reference⟩, k0, l3e, l4e] 2).with_right (some RS) := by
    rw [hm1]; simp [Node.set_sep, Node.with_refs, Node.with_right]
  rw [hZ] at hg3 ls3
  obtain ⟨M3, hM3e⟩ : ∃ M3, M3 = M2.set L
    ((ln.with_refs [l0, ⟨mk, l1.reference⟩, k0, l3e, l4e] 2).with_right (some RS)) := ⟨_, rfl⟩
  rw [← hM3e] at hg3 ls3
  have hM3 : ∀ u, M3.heap u = if u = L then
      some ((ln.with_refs [l0, ⟨mk, l1.reference⟩, k0, l3e, l4e] 2).with_right (some RS))
      else M2.heap u := by
    intro u; rw [hM3e]; simp only [SeqBPlusTree.set_heap, Function.update_apply]
  have hM3A : M3.heap A = some (An.set_sep i (pn.sep c2)) := by
    rw [hM3, if_neg hA1, hM2, if_neg (Ne.symm hKA), if_pos rfl]
  -- the separator above becomes the least key of the right sibling
  obtain ⟨mk2, lo4, hi4, hg4, hmk2, ls4, hq2⟩ := hg3.raise_sep (A := A) (i := i) hM3A
    hAty adj.hi hun
  simp only [Node.set_sep_kid] at hq2
  rw [Node.set_sep_twice] at hg4 ls4
  have hrs3 : ∀ r, cn.right_sibling = some r → r ≠ L ∧ r ≠ p ∧ r ≠ K0 :=
    fun r h => ⟨(hrs2 r h).2.1, (hrs2 r h).2.2.1, (hrs2 r h).2.2.2.1⟩
  have hT5 := SeqBPlusTree.merge_node_cut_heap t L p c2 K0
    (ln.with_refs [l0, l1, k0, l3e, l4e] 1)
    (ln.with_refs [l0, ⟨mk, l1.reference⟩, k0, l3e, l4e] 2) pn kn cn.right_sibling
    hLp hKL hKp hrs3
  rw [hr] at hT5
  obtain ⟨T5, hT5e⟩ : ∃ T5, T5 = SeqBPlusTree.merge_node_cut t L p c2 K0
    (ln.with_refs [l0, l1, k0, l3e, l4e] 1)
    (ln.with_refs [l0, ⟨mk, l1.reference⟩, k0, l3e, l4e] 2) pn kn (some RS) := ⟨_, rfl⟩
  rw [← hT5e] at hT5
  have hT5n : T5.next = t.next := by rw [hT5e]; simp
  have hT5r : T5.root = t.root := by rw [hT5e]; simp
  have hT5d : T5.depth = t.depth := by rw [hT5e]; simp
  have hT5L : T5.heap L = some ((ln.with_refs [l0, ⟨mk, l1.reference⟩, k0, l3e, l4e]
      2).with_right (some RS)) := by
    rw [hT5, if_neg (fun h => hLR (Option.some.inj h).symm), if_pos rfl]
  have hT5R : T5.heap RS = some (rsn.with_left (some L)) := by
    rw [hT5, if_pos rfl, hR]; rfl
  have hTM : ∀ u, u ≠ x → u ≠ K0 → u ≠ L → u ≠ RS → T5.heap u = M1.heap u := by
    intro u e1 e2 e3 e4
    have e5 : ¬ some RS = some u := fun h => e4 (Option.some.inj h).symm
    rw [hT5, hM1]
    simp only [if_neg e1, if_neg e2, if_neg e3, if_neg e4, if_neg e5]
  have hT3 : ∀ u, u ≠ x → u ≠ A → T5.heap u = M3.heap u := by
    intro u e1 e2
    rw [hM3]
    by_cases e3 : u = L
    · rw [if_pos e3, e3, hT5L]
    · rw [if_neg e3, hM2]
      by_cases e4 : u = K0
      · rw [if_pos e4, hT5, if_neg (fun h => hKR (e4.symm.trans (Option.some.inj h).symm)),
          if_neg e3, if_neg (by rw [e4]; exact hKp), if_pos e4]
      · rw [if_neg e4, if_neg e2]
        by_cases e5 : u = RS
        · rw [if_pos e5, e5, hT5R]
        · rw [if_neg e5, if_neg e3, hTM u e1 e4 e3 e5]
  have hT5A : T5.heap A = some An := by
    rw [hTM A hAx (Ne.symm hKA) hA1 hA2]; exact adj.hA
  obtain ⟨sA1, sA2⟩ := hg1.size_le_four adj.hA hAty
  obtain ⟨last, w1, w2⟩ := adj.find_slot_on hg1 T5.heap
    (by
      intro b hb n hbn
      have hlb : lvl L ≤ lvl b := by
        rcases hb with hb | hb
        · exact (adj.mem1 hg1 hb).choose_spec.2.1
        · have := (adj.mem2 hg1 hb).choose_spec.2.1
          omega
      have e1 : b ≠ x := by
        intro e; rw [e, hM1, if_pos rfl] at hbn; cases hbn
      have e2 : b ≠ K0 := by intro e; rw [e] at hlb; omega
      by_cases e3 : b = L
      · rw [e3, hM1L] at hbn; cases hbn
        rw [e3]; exact ⟨_, hT5L, rfl⟩
      · by_cases e4 : b = RS
        · rw [e4, hM1R] at hbn; cases hbn
          rw [e4]; exact ⟨_, hT5R, pf.par.symm⟩
        · rw [hTM b e1 e2 e3 e4]; exact ⟨n, hbn, rfl⟩)
    hT5A (le_of_lt adj.hi) (by omega) (fun j _ => rfl) hT5L hT5R
  have w1b : SeqBPlusTree.ancestor_walk T5.heap t.next (some p) ln.parent L = some last := by
    rw [← hRpar, ← hM1n]; exact w1
  have hkk : ¬ INT_MAX = kr.key := by
    rw [hkrk]
    have := hin.sep_max c2 hclt
    omega
  -- the least key of the right sibling
  obtain ⟨c1, c3, c1n, c3n, a1, a2, a3, a4, a5, a6, a7, a8, a9, a10, a11, a12⟩ := adj.tops hg1
  have hmin : SeqBPlusTree.min_key_in_subtree T5.heap t.next r0.reference = some mk2 := by
    have hsame : ∀ b ∈ up2.tail, T5.heap b = M1.heap b := by
      intro b hb
      obtain ⟨q1, bn, q2, q3⟩ := adj.tail_above hg1 hb
      refine hTM b ?_ ?_ ?_ ?_
      · intro e; rw [e, hM1, if_pos rfl] at q2; cases q2
      · intro e; rw [e] at q1; omega
      · intro e; rw [e] at q1; omega
      · intro e; rw [e] at q1; omega
    have hch : up2.Chain' (fun a b => firstKid T5.heap (some b) = some a) := by
      refine chain_first_agree up2 ?_ adj.c2
      intro b hb
      simp only [firstKid, Option.some_bind, hsame b hb]
    have hint : ∀ b ∈ up2.tail, ∃ n, T5.heap b = some n ∧ n.type = NodeType.INTERNAL := by
      intro b hb
      obtain ⟨q1, bn, q2, q3⟩ := adj.tail_above hg1 hb
      exact ⟨bn, by rw [hsame b hb]; exact q2, q3⟩
    have hd := min_key_down T5.heap up2 RS hch adj.h2 hint c3 a4 (t.next + 1)
    have hst := SeqBPlusTree.min_key_step T5.heap (f := t.next + 1) (by omega) hT5R hrty
      (show _ = some r0 by show rsn.key_ref.get? 0 = some r0; rw [hrk]; rfl)
    rw [Nat.add_sub_cancel] at hst
    rw [← hst, ← hd, ← a2]
    refine hq2 T5.heap _ ?_ (by have := hg1.fuel_above adj.hA; omega)
    intro b n hbl hbn
    have e1 : b ≠ A := by intro e; rw [e] at hbl; omega
    have e2 : b ≠ x := by
      intro e
      rw [e, hM3, if_neg hxL, hM2, if_neg (Ne.symm hKx), if_neg (Ne.symm hAx), if_neg hxR,
        if_neg hxL, hM1, if_pos rfl] at hbn
      cases hbn
    rw [← hT3 b e2 e1] at hbn
    exact ⟨n, hbn, rfl, rfl, rfl⟩
  have hr0 : (rsn.with_left (some L)).key_ref.get? 0 = some r0 := by
    show rsn.key_ref.get? 0 = some r0; rw [hrk]; rfl
  -- the parent after the merge
  obtain ⟨pm, hpm1, hpm2, hpm3, hpm4⟩ : ∃ pm,
      (SeqBPlusTree.merge_done T5 A (An.set_sep i mk2) x).heap p = some pm ∧
      pm.type = NodeType.INTERNAL ∧ pm.size + 1 = pn.size ∧ pm.parent = pn.parent := by
    rw [SeqBPlusTree.merge_done_heap, if_neg (Ne.symm hxp)]
    by_cases e : p = A
    · rw [if_pos e]
      have hAn := adj.hA
      rw [← e, hM1, if_neg (Ne.symm hxp), if_neg (Ne.symm hKp), if_neg (Ne.symm hLp),
        if_pos rfl] at hAn
      cases hAn
      exact ⟨_, rfl, q2, by show pn.size - 1 + 1 = pn.size; omega, rfl⟩
    · rw [if_neg e, hT5, if_neg (fun h => hRp (Option.some.inj h)), if_neg (Ne.symm hLp),
        if_pos rfl]
      exact ⟨_, rfl, q2, by show pn.size - 1 + 1 = pn.size; omega, rfl⟩
  have hM3x : M3.heap x = none := by
    rw [hM3, if_neg hxL, hM2, if_neg (Ne.symm hKx), if_neg (Ne.symm hAx), if_neg hxR,
      if_neg hxL, hM1, if_pos rfl]
  have hF : ∀ u, (SeqBPlusTree.merge_done T5 A (An.set_sep i mk2) x).heap u =
      (M3.set A (An.set_sep i mk2)).heap u := by
    intro u
    rw [SeqBPlusTree.merge_done_heap]
    simp only [SeqBPlusTree.set_heap, Function.update_apply]
    by_cases e1 : u = x
    · rw [if_pos e1, if_neg (by rw [e1]; exact Ne.symm hAx), e1, hM3x]
    · rw [if_neg e1]
      by_cases e2 : u = A
      · rw [if_pos e2, if_pos e2]
      · rw [if_neg e2, if_neg e2, hT3 u e1 e2]
  have hun4 : (if pn.size = 1 then some p else none) =
      (if pm.size = 0 then some p else none) := by
    by_cases h : pn.size = 1
    · rw [if_pos h, if_pos (by omega)]
    · rw [if_neg h, if_neg (by omega)]
  rw [hun4] at hg4
  have hM3n : M3.next = t.next := by rw [hM3e]; exact hM2n
  have hM3r : M3.root = t.root := by rw [hM3e]; exact hM2r
  have hM3d : M3.depth = t.depth := by rw [hM3e]; exact hM2d
  refine ⟨_, pm, lo4, hi4, ?_, hpm1, hpm2, hpm3, hpm4,
    hg4.of_same hF (by simp [hT5r, hM3r]) (by simp [hT5n, hM3n]) (by simp [hT5d, hM3d]),
    ((((ls1.trans ls2).trans ls3).trans ls4).by_heap hF), by simp [hT5r], by simp [hT5d],
    by simp [hT5n], ?_, ?_⟩
  · intro bmi
    have heq := SeqBPlusTree.merge_internal_left_eq bmi mk hx hL hp hK0 hcp hxL hxp hLp
      hKx hKL hKp hslot hfind hkr (by omega) (Or.inr (by omega)) hck hcsz hk0r hlk hlsz hrs2
      (by
        intro h hhL hhK hho
        have := hq1 h t.next (by
          intro b n hbl hbn
          have e1 : b ≠ x := by intro e; rw [e] at hbl; omega
          have e2 : b ≠ L := by intro e; rw [e] at hbl; omega
          have e3 : b ≠ p := by intro e; rw [e] at hbl; omega
          have e4 : b ≠ RS := by intro e; rw [e] at hbl; omega
          have e5 : b ≠ A := by intro e; rw [e] at hbl; omega
          rw [hM2] at hbn
          by_cases e6 : b = K0
          · rw [if_pos e6] at hbn; cases hbn
            rw [e6]; exact ⟨_, hhK, rfl, rfl, rfl⟩
          · rw [if_neg e6, if_neg e5, if_neg e4, if_neg e2, hM1, if_neg e1, if_neg e6,
              if_neg e2, if_neg e3, if_neg e4] at hbn
            rw [hho b e2 e6]; exact ⟨n, hbn, rfl, rfl, rfl⟩)
          (by have := hg.fuel_above hL; omega)
        rw [← this, hm1]
        simp only [Node.kid, Node.with_refs, Node.with_right, List.get?_cons_succ,
          List.get?_cons_zero, Option.some_bind, hk0r])
    rw [hr] at heq
    rw [← hT5e] at heq
    rw [w1b, Option.some_bind, w2, Option.some_bind, if_neg hkk, Option.some_bind, hT5R,
      Option.some_bind, hr0, Option.some_bind, hmin, Option.some_bind,
      set_slot_key_eq _ i mk2 hT5A (by have := adj.hi; omega), Option.some_bind] at heq
    rw [SeqBPlusTree.finish_node_eq bmi T5 A _ x p L hpm1] at heq
    exact heq
  · intro h0 hpar
    exfalso
    have hc0 : c2 = 0 := by omega
    rw [hpm4] at hpar
    rw [hc0] at hc
    have := hg.no_left_under_root hx hp hpar hc
    rw [hl] at this; cases this
  · have hT5s : ∀ u, (T5.heap u).isSome = (t.heap u).isSome := by
      intro u
      rw [hT5]
      by_cases e2 : some RS = some u
      · rw [if_pos e2]
        cases t.heap u <;> rfl
      · rw [if_neg e2]
        by_cases e3 : u = L
        · rw [if_pos e3, e3, hL]; rfl
        · rw [if_neg e3]
          by_cases e1 : u = p
          · rw [if_pos e1, e1, hp]; rfl
          · rw [if_neg e1]
            by_cases e4 : u = K0
            · rw [if_pos e4, e4, hK0]; rfl
            · rw [if_neg e4]
    refine ⟨?_, ⟨(ln.with_refs [l0, ⟨mk, l1.reference⟩, k0, l3e, l4e] 2).with_right
        (some RS), ?_, rfl, ?_, ?_⟩, ?_, ?_, ?_⟩
    · rw [SeqBPlusTree.merge_done_heap, if_pos rfl]
    · rw [SeqBPlusTree.merge_done_heap, if_neg (Ne.symm hxL), if_neg (Ne.symm hA1), hT5L]
    · rw [hlsz, hcsz]; rfl
    · intro j hj
      have hj : j ≤ 2 := hj
      rw [if_pos rfl, hlsz]
      interval_cases j <;>
        simp [Node.kid, Node.with_refs, Node.with_right, hlk, hck]
    · intro j hj B hB
      rw [hcsz] at hj
      obtain rfl : j = 0 := by omega
      rw [hkid0] at hB; cases hB
      refine ⟨kn.with_par (some L), ?_, rfl⟩
      rw [SeqBPlusTree.merge_done_heap, if_neg hKx, if_neg hKA, hT5,
        if_neg (fun h => hKR (Option.some.inj h).symm), if_neg hKL, if_neg hKp, if_pos rfl]
    · intro u hu
      rw [SeqBPlusTree.merge_done_heap, if_neg hu]
      by_cases e2 : u = A
      · rw [if_pos e2, ← hT5s, e2, hT5A]; rfl
      · rw [if_neg e2, hT5s]
    · rw [hT5e]
      simp [SeqBPlusTree.merge_done, SeqBPlusTree.merge_node_cut, SeqBPlusTree.free,
        SeqBPlusTree.set, SeqBPlusTree.relink_node_count]

end Good


namespace SeqBPlusTree

/-- The state of `merge_internal` to the right once the parent has lost its first slot. -/
def merge_fold_cut (t : SeqBPlusTree) (R p K0 : Nat) (ra rb rc pn kn : Node) : SeqBPlusTree :=
  (((((t.set R ra).set K0 (kn.with_par (some R))).set R rb).set R rc).set p (pn.drop_slot 0))

set_option maxHeartbeats 2000000 in
/-- The code of `merge_internal` to the right, up to the release of the node. -/
theorem merge_internal_right_eq (bmi : SeqBPlusTree → Nat → Option SeqBPlusTree)
    {t : SeqBPlusTree} {x R p K0 : Nat} {cn rn pn kn : Node} {kr : KeyReferencePair}
    {k0 k1 k2 k3 k4 r0 r1 r2 r3 r4 : KeyReferencePair} (mk : Int)
    (hx : t.heap x = some cn) (hR : t.heap R = some rn) (hp : t.heap p = some pn)
    (hk : t.heap K0 = some kn)
    (hcp : cn.parent = some p) (hxR : x ≠ R) (hxp : x ≠ p) (hRp : R ≠ p)
    (hKx : K0 ≠ x) (hKR : K0 ≠ R) (hKp : K0 ≠ p)
    (hrty : rn.type = NodeType.INTERNAL)
    (hslot : get_key_ref_pair_from_parent t.heap (some x) = some (p, 0))
    (hkr : pn.key_ref.get? 0 = some kr) (hps : 0 < pn.size)
    (hlen : pn.size < pn.key_ref.length)
    (hck : cn.key_ref = [k0, k1, k2, k3, k4]) (hcsz : cn.size = 0)
    (hk0 : k0.reference = some K0)
    (hrk : rn.key_ref = [r0, r1, r2, r3, r4]) (hrsz : rn.size = 1)
    (hmk1 : ∀ h : Nat → Option Node,
      h R = some (rn.with_refs [r0, r1, k0, r3, r4] 2) →
      h K0 = some (kn.with_par (some R)) →
      (∀ a, a ≠ R → a ≠ K0 → h a = t.heap a) →
      min_key_in_subtree h t.next r0.reference = some mk)
    (hlt : mk < r0.key) (hlt2 : r0.key < r1.key) :
    merge_internal_with bmi t x R false =
      finish_node bmi ((merge_fold_cut t R p K0 (rn.with_refs [r0, r1, k0, r3, r4] 1)
        (rn.with_refs [r0, r1, k0, r3, r4] 2)
        (rn.with_refs [⟨mk, k0.reference⟩, r0, r1, r3, r4] 2) pn kn).set R
          ((rn.with_refs [⟨mk, k0.reference⟩, r0, r1, r3, r4] 2).with_left cn.left_sibling))
        x p R := by
  have hsd : size_dec pn.size = some (pn.size - 1) := by
    unfold size_dec; rw [if_pos hps]
  have hblit : arr_blit [r0, r1, r2, r3, r4] (1 + 1) [k0] = some [r0, r1, k0, r3, r4] := rfl
  have n1 : ¬ r0.key ≤ mk := by omega
  have n2 : ¬ r1.key ≤ mk := by omega
  have n3 : r0.key ≤ r1.key := by omega
  have hsort : sort_entry_by_key
      { rn with key_ref := [r0, r1, ⟨mk, k0.reference⟩, r3, r4], size := 2 } =
      rn.with_refs [⟨mk, k0.reference⟩, r0, r1, r3, r4] 2 := by
    simp [sort_entry_by_key, hrty, Node.with_refs, List.orderedInsert, n1, n2, n3]
  simp only [merge_internal_with]
  simp only [hx, Option.some_seqBind, Bool.false_eq_true, if_false, hslot, hp, hkr, merge_copy,
    hR, hck, hcsz, hrk, hrsz, Nat.zero_add, List.take, List.length_singleton, ne_eq,
    not_true_eq_false, hblit, List.foldlM_cons, List.foldlM_nil, hk0, upd, set_heap,
    Function.update_noteq hKR, hk, Option.map_some', Option.pure_def, Option.bind_eq_bind,
    Option.some_bind, Function.update_noteq (Ne.symm hKx), Function.update_noteq hxR,
    Function.update_noteq (Ne.symm hKR), Function.update_same,
    List.get?_cons_zero, fuel, set_next]
  rw [hmk1 _ (by rw [Function.update_same]; rfl)
    (by rw [Function.update_noteq hKR, Function.update_same]; rfl)
    (fun a h1 h2 => by
      rw [Function.update_noteq h1, Function.update_noteq h2, Function.update_noteq h1])]
  simp only [Option.some_seqBind, List.get?_cons_succ, List.get?_cons_zero, arr_set,
    List.length_cons, List.length_nil, Nat.reduceAdd, Nat.lt_add_one, Nat.reduceLT, if_true,
    List.set_cons_succ, List.set_cons_zero, hcp]
  rw [hsort]
  simp only [Option.some_seqBind, set_heap, Function.update_noteq (Ne.symm hRp),
    Function.update_noteq (Ne.symm hKp), hp,
    parent_remove_slot, arr_shift_eq _ _ _ (Or.inr hlen), hsd, Option.map_some',
    Function.update_noteq hxp, Function.update_noteq hxR, Function.update_noteq hKx.symm, hx,
    upd, Function.update_same, Function.update_noteq hRp]
  simp only [Option.seqBind_eq, finish_node, root_collapse, merge_fold_cut, Node.drop_slot,
    Node.with_left, Node.with_refs, Node.with_par, Option.some_bind, set_heap, upd, set, hk0]

end SeqBPlusTree


namespace SeqBPlusTree

theorem merge_fold_cut_heap (t : SeqBPlusTree) (R p K0 : Nat) (ra rb rc pn kn : Node)
    (a : Nat) :
    (merge_fold_cut t R p K0 ra rb rc pn kn).heap a =
      if a = p then some (pn.drop_slot 0) else if a = R then some rc
      else if a = K0 then some (kn.with_par (some R)) else t.heap a := by
  simp only [merge_fold_cut, set_heap, Function.update_apply]
  by_cases e1 : a = p
  · simp only [if_pos e1]
  · by_cases e2 : a = R
    · simp only [if_neg e1, if_pos e2]
    · simp only [if_neg e1, if_neg e2]

@[simp] theorem merge_fold_cut_next (t : SeqBPlusTree) (R p K0 : Nat) (ra rb rc pn kn : Node) :
    (merge_fold_cut t R p K0 ra rb rc pn kn).next = t.next := rfl

@[simp] theorem merge_fold_cut_root (t : SeqBPlusTree) (R p K0 : Nat) (ra rb rc pn kn : Node) :
    (merge_fold_cut t R p K0 ra rb rc pn kn).root = t.root := rfl

@[simp] theorem merge_fold_cut_depth (t : SeqBPlusTree) (R p K0 : Nat) (ra rb rc pn kn : Node) :
    (merge_fold_cut t R p K0 ra rb rc pn kn).depth = t.depth := rfl

end SeqBPlusTree

namespace Good

variable {t : SeqBPlusTree} {lvl : Nat → Nat} {lo hi : Nat → Int} {ov un : Option Nat}

set_option maxHeartbeats 1000000 in
/-- The function `merge_internal` to the right: the right sibling takes the child of the
node without separators, which is the first child of its parent, below the least key of its
own first child; the parent loses its first slot, and the invariant holds up to the size of
the parent. -/
theorem merge_internal_right {x R p : Nat} {cn rn pn : Node}
    (hg : Good t lvl lo hi none (some x))
    (hx : t.heap x = some cn) (hcty : cn.type = NodeType.INTERNAL) (hcsz : cn.size = 0)
    (hl : cn.left_sibling = none) (hr : cn.right_sibling = some R)
    (hR : t.heap R = some rn) (hrsz : rn.size = 1)
    (hcp : cn.parent = some p) (hp : t.heap p = some pn) :
    ∃ s pm lo2 hi2, (∀ bmi, SeqBPlusTree.merge_internal_with bmi t x R false =
        (if pm.isDeficient then
          (if pm.isRoot then SeqBPlusTree.root_collapse s R else bmi s p) else some s)) ∧
      s.heap p = some pm ∧ pm.type = NodeType.INTERNAL ∧ pm.size + 1 = pn.size ∧
      pm.parent = pn.parent ∧
      Good s lvl lo2 hi2 none (if pm.size = 0 then some p else none) ∧
      LeafSame t.heap s.heap ∧ s.root = t.root ∧ s.depth = t.depth ∧ s.next = t.next ∧
      (pm.size = 0 → pm.parent = none → pm.kid 0 = some R) ∧
      NodeMerged t s x R cn rn false := by
  obtain ⟨pn2, q1, hpty, hk0p⟩ := hg.first_of_no_left hx hcp hl
  rw [hp] at q1; cases q1
  have hin := hg.internal_good hp hpty
  obtain ⟨s1, s2⟩ := hg.size_le_four hp hpty
  obtain ⟨_, g1, g2, g3, g4, g5⟩ := hg.kid_live hp (Nat.zero_le _) hk0p
  have hxp : x ≠ p := by intro e; rw [e] at g3; omega
  have hs1 : 1 ≤ pn.size := by
    rcases hin.size_ge with h | h
    · exact h
    · exact absurd (Option.some.inj h) hxp
  obtain ⟨k0, k1, k2, k3, k4, K0, kn, hck, hk0, hk0r, hkid0, hK0, hK0p, hK0l⟩ :=
    hg.lone_kid hx hcty hcsz
  obtain ⟨_, r1, r2, r3, r4⟩ := hg.right_info _ x cn R rfl hx hr
  rw [hR] at r1; cases r1
  have hrty : rn.type = NodeType.INTERNAL := (hg.type_of_lvl hR hx r3).trans hcty
  have hinR := hg.internal_good hR hrty
  obtain ⟨r0, r1, r2e, r3e, r4e, hrk⟩ := list_len5 rn.key_ref hinR.len
  obtain ⟨pn2, c, kr, q1, -, q3, q4, -, -, -, hslot, -, hkr, -⟩ := hg.slot_of hx hcp
  rw [hp] at q1; cases q1
  have hc0 : c = 0 := hin.kid_inj c 0 q3 (Nat.zero_le _) (q4.trans hk0p.symm)
  subst hc0
  obtain ⟨z0, hz0⟩ : ∃ z0, z0 = rn.with_refs [⟨pn.sep 0, some K0⟩, r0, r1, r3e, r4e] 2 :=
    ⟨_, rfl⟩
  have pf : rn.PushFront z0 K0 (pn.sep 0) := by
    rw [hz0]
    refine ⟨rfl, rfl, rfl, rfl, by show 2 = rn.size + 1; omega, rfl, rfl, ?_, rfl, ?_⟩
    · intro j hj
      have : j ≤ 1 := by omega
      simp only [Node.kid, Node.with_refs, hrk]
      interval_cases j <;> rfl
    · intro j hj
      have : j ≤ 1 := by omega
      simp only [Node.sep, Node.with_refs, hrk]
      interval_cases j <;> rfl
  obtain ⟨M1, hM1e⟩ : ∃ M1, M1 = SeqBPlusTree.fold_right t x R p K0 0 cn pn kn z0 :=
    ⟨_, rfl⟩
  have hM1n : M1.next = t.next := by rw [hM1e]; rfl
  have hM1r : M1.root = t.root := by rw [hM1e]; rfl
  have hM1d : M1.depth = t.depth := by rw [hM1e]; rfl
  obtain ⟨hg1, ls1, hk1, -, hxR, -, hRp, hKx, hKR, hKp, hRpar, -, -⟩ :=
    hg.merge_node_right hx hcty hcsz hp hk0p (by omega) hr hR hkid0 hK0 pf M1 hM1r hM1n hM1d
      (fun u => by rw [hM1e]; rfl)
  rw [if_neg (by omega)] at hg1
  have hM1 : ∀ u, M1.heap u =
      if u = x then none else if u = K0 then some (kn.with_par (some R))
      else if u = p then some (pn.drop_slot 0)
      else if u = R then some (z0.with_left cn.left_sibling)
      else t.heap u := by
    intro u
    rw [hM1e]
    have e : ¬ cn.left_sibling = some u := by rw [hl]; intro h; cases h
    simp only [SeqBPlusTree.fold_right, if_neg e]
  have hM1R : M1.heap R = some (z0.with_left cn.left_sibling) := by
    rw [hM1, if_neg (Ne.symm hxR), if_neg (Ne.symm hKR), if_neg hRp, if_pos rfl]
  have hlp : 0 < lvl p := by omega
  have hun : ∀ u, (if pn.size = 1 then some p else none) = some u → 0 < lvl u := by
    intro u h
    by_cases e : pn.size = 1
    · rw [if_pos e] at h; cases h; exact hlp
    · rw [if_neg e] at h; cases h
  obtain ⟨mk, lo2, hi2, hg2, hmk, ls2, hq⟩ := hg1.raise_sep (A := R) (i := 0) hM1R
    (by rw [hz0]; exact hrty) (by rw [hz0]; show 0 < 2; omega) hun
  have hZ : (z0.with_left cn.left_sibling).set_sep 0 mk =
      (rn.with_refs [⟨mk, k0.reference⟩, r0, r1, r3e, r4e] 2).with_left cn.left_sibling := by
    rw [hz0, hk0r]; simp [Node.set_sep, Node.with_refs, Node.with_left]
  have hkid1 : (z0.with_left cn.left_sibling).kid (0 + 1) = r0.reference := by
    rw [hz0]
    simp only [Node.kid, Node.with_refs, Node.with_left, List.get?_cons_succ,
      List.get?_cons_zero, Option.some_bind]
  rw [hZ] at hg2 ls2
  rw [hkid1] at hq
  have hR2 : (M1.set R ((rn.with_refs [⟨mk, k0.reference⟩, r0, r1, r3e, r4e] 2).with_left
      cn.left_sibling)).heap R = some ((rn.with_refs [⟨mk, k0.reference⟩, r0, r1, r3e, r4e]
        2).with_left cn.left_sibling) := by
    simp only [SeqBPlusTree.set_heap, Function.update_same]
  have hinR2 := hg2.internal_good hR2 hrty
  have hlt : mk < r0.key := by
    have := hinR2.sep_sorted 0 1 (by omega) (by show 1 < 2; omega)
    simpa only [Node.sep, Node.with_refs, Node.with_left, List.get?_cons_succ,
      List.get?_cons_zero, Option.map_some', Option.getD_some] using this
  have hlt2 : r0.key < r1.key := by
    have h1 := hinR.sep_max 0 (by omega)
    have h2 := hinR.dummy
    rw [hrsz] at h2
    simp only [Node.sep, hrk, List.get?_cons_succ, List.get?_cons_zero, Option.map_some',
      Option.getD_some] at h1 h2
    omega
  obtain ⟨T5, hT5e⟩ : ∃ T5, T5 = SeqBPlusTree.merge_fold_cut t R p K0
    (rn.with_refs [r0, r1, k0, r3e, r4e] 1) (rn.with_refs [r0, r1, k0, r3e, r4e] 2)
    (rn.with_refs [⟨mk, k0.reference⟩, r0, r1, r3e, r4e] 2) pn kn := ⟨_, rfl⟩
  have hT5 := SeqBPlusTree.merge_fold_cut_heap t R p K0
    (rn.with_refs [r0, r1, k0, r3e, r4e] 1) (rn.with_refs [r0, r1, k0, r3e, r4e] 2)
    (rn.with_refs [⟨mk, k0.reference⟩, r0, r1, r3e, r4e] 2) pn kn
  rw [← hT5e] at hT5
  have hT5n : T5.next = t.next := by rw [hT5e]; rfl
  have hT5r : T5.root = t.root := by rw [hT5e]; rfl
  have hT5d : T5.depth = t.depth := by rw [hT5e]; rfl
  have hsp : (SeqBPlusTree.merge_done T5 R
      ((rn.with_refs [⟨mk, k0.reference⟩, r0, r1, r3e, r4e] 2).with_left cn.left_sibling)
      x).heap p = some (pn.drop_slot 0) := by
    rw [SeqBPlusTree.merge_done_heap, if_neg (Ne.symm hxp), if_neg (Ne.symm hRp), hT5,
      if_pos rfl]
  have hF : ∀ u, (SeqBPlusTree.merge_done T5 R
      ((rn.with_refs [⟨mk, k0.reference⟩, r0, r1, r3e, r4e] 2).with_left cn.left_sibling)
      x).heap u = (M1.set R ((rn.with_refs [⟨mk, k0.reference⟩, r0, r1, r3e, r4e]
        2).with_left cn.left_sibling)).heap u := by
    intro u
    rw [SeqBPlusTree.merge_done_heap]
    simp only [SeqBPlusTree.set_heap, Function.update_apply]
    rw [hM1, hT5]
    by_cases e1 : u = x
    · rw [if_pos e1, if_pos e1, if_neg (by rw [e1]; exact hxR)]
    · by_cases e2 : u = R
      · simp only [if_neg e1, if_pos e2]
      · by_cases e3 : u = K0
        · have e4 : ¬ u = p := by rw [e3]; exact hKp
          simp only [if_neg e1, if_neg e2, if_pos e3, if_neg e4]
        · simp only [if_neg e1, if_neg e2, if_neg e3]
  have hun4 : (if pn.size = 1 then some p else none) =
      (if (pn.drop_slot 0).size = 0 then some p else none) := by
    have e : (pn.drop_slot 0).size = pn.size - 1 := rfl
    by_cases h : pn.size = 1
    · rw [if_pos h, if_pos (by omega)]
    · rw [if_neg h, if_neg (by omega)]
  rw [hun4] at hg2
  refine ⟨_, _, lo2, hi2, ?_, hsp, hpty, by show pn.size - 1 + 1 = pn.size; omega, rfl,
    hg2.of_same hF (by simp [hT5r, hM1r]) (by simp [hT5n, hM1n]) (by simp [hT5d, hM1d]),
    (ls1.trans ls2).by_heap hF, by simp [hT5r], by simp [hT5d], by simp [hT5n], ?_, ?_⟩
  · intro bmi
    have heq := SeqBPlusTree.merge_internal_right_eq bmi mk hx hR hp hK0 hcp hxR hxp hRp
      hKx hKR hKp hrty hslot hkr (by omega) (by omega) hck hcsz hk0r hrk hrsz
      (by
        intro h hhR hhK hho
        refine hq h t.next ?_ (by have := hg.fuel_above hR; omega)
        intro b n hbl hbn
        have e1 : b ≠ x := by intro e; rw [e] at hbl; omega
        have e2 : b ≠ R := by intro e; rw [e] at hbl; omega
        have e3 : b ≠ p := by intro e; rw [e] at hbl; omega
        rw [hM1, if_neg e1] at hbn
        by_cases e6 : b = K0
        · rw [if_pos e6] at hbn; cases hbn
          rw [e6]; exact ⟨_, hhK, rfl, rfl, rfl⟩
        · rw [if_neg e6, if_neg e3, if_neg e2] at hbn
          rw [hho b e2 e6]; exact ⟨n, hbn, rfl, rfl, rfl⟩)
      hlt hlt2
    rw [← hT5e] at heq
    rw [SeqBPlusTree.finish_node_eq bmi T5 R _ x p R hsp] at heq
    exact heq
  · intro h0 _
    have h0 : pn.size - 1 = 0 := h0
    rw [Node.drop_slot_kid pn 0 (by omega) (by omega) 0 (by omega), if_neg (by omega)]
    exact hk1
  · refine ⟨?_, ⟨(rn.with_refs [⟨mk, k0.reference⟩, r0, r1, r3e, r4e] 2).with_left
        cn.left_sibling, ?_, rfl, ?_, ?_⟩, ?_, ?_, ?_⟩
    · rw [SeqBPlusTree.merge_done_heap, if_pos rfl]
    · rw [SeqBPlusTree.merge_done_heap, if_neg (Ne.symm hxR), if_pos rfl]
    · rw [hrsz, hcsz]; rfl
    · intro j hj
      have hj : j ≤ 2 := hj
      rw [if_neg Bool.false_ne_true, hcsz]
      interval_cases j <;>
        simp [Node.kid, Node.with_refs, Node.with_left, hrk, hck]
    · intro j hj B hB
      rw [hcsz] at hj
      obtain rfl : j = 0 := by omega
      rw [hkid0] at hB; cases hB
      refine ⟨kn.with_par (some R), ?_, rfl⟩
      rw [SeqBPlusTree.merge_done_heap, if_neg hKx, if_neg hKR, hT5, if_neg hKp, if_neg hKR,
        if_pos rfl]
    · intro u hu
      rw [SeqBPlusTree.merge_done_heap, if_neg hu]
      by_cases e2 : u = R
      · rw [if_pos e2, e2, hR]; rfl
      · rw [if_neg e2, hT5]
        by_cases e1 : u = p
        · rw [if_pos e1, e1, hp]; rfl
        · rw [if_neg e1, if_neg e2]
          by_cases e4 : u = K0
          · rw [if_pos e4, e4, hK0]; rfl
          · rw [if_neg e4]
    · rw [hT5e]
      simp [SeqBPlusTree.merge_done, SeqBPlusTree.merge_fold_cut, SeqBPlusTree.free,
        SeqBPlusTree.set]

end Good


namespace Good

variable {t : SeqBPlusTree} {lvl : Nat → Nat} {lo hi : Nat → Int} {ov un : Option Nat}

/-- A node other than the root is below the root. -/
theorem below_root (hg : Good t lvl lo hi ov un) {a : Nat} {n : Node}
    (ha : t.heap a = some n) (hne : a ≠ t.root) : lvl a < lvl t.root := by
  by_contra h
  exact hne (hg.top_is_root ha (by omega))

/-- No node has the root as a sibling. -/
theorem root_no_sibling (hg : Good t lvl lo hi ov un) {a : Nat} {n : Node}
    (ha : t.heap a = some n) :
    n.left_sibling ≠ some t.root ∧ n.right_sibling ≠ some t.root := by
  obtain ⟨rn, r1, r2, r3, r4⟩ := hg.root_live
  constructor
  · intro h
    obtain ⟨bn, b1, b2, _⟩ := hg.left_info _ a n t.root rfl ha h
    rw [r1] at b1; cases b1
    rw [r4] at b2; cases b2
  · intro h
    obtain ⟨bn, b1, b2, _⟩ := hg.right_info _ a n t.root rfl ha h
    rw [r1] at b1; cases b1
    rw [r3] at b2; cases b2

set_option maxHeartbeats 1000000 in
/-- The end of `merge_internal` at a root without separators: the only child of the root
becomes the root, the tree is one level lower, and the invariant holds again. -/
theorem root_collapse_ok {s : SeqBPlusTree} {p S : Nat} {pm : Node}
    (hg : Good s lvl lo hi none (some p)) (hp : s.heap p = some pm)
    (hty : pm.type = NodeType.INTERNAL) (hsz : pm.size = 0) (hpar : pm.parent = none)
    (hk : pm.kid 0 = some S) :
    ∃ s2, SeqBPlusTree.root_collapse s S = some s2 ∧ Good s2 lvl lo hi none none ∧
      LeafSame s.heap s2.heap ∧ s2.depth = s.depth - 1 ∧ s2.next = s.next ∧ s2.root = S := by
  have hroot : p = s.root := (hg.nodes p pm hp).is_root hpar
  obtain ⟨sn, k1, k2, k3, k4, k5⟩ := hg.kid_live hp (Nat.zero_le _) hk
  have hin := hg.internal_good hp hty
  have hSp : S ≠ p := by intro e; rw [e] at k3; omega
  obtain ⟨rn, r1, r2, r3, r4⟩ := hg.root_live
  rw [← hroot, hp] at r1; cases r1
  obtain ⟨s2, hcode, hS, hs2r, hs2n, hs2d⟩ : ∃ s2, SeqBPlusTree.root_collapse s S = some s2 ∧
      (∀ u, s2.heap u = if u = p then none else if u = S then some { sn with parent := none }
        else s.heap u) ∧ s2.root = S ∧ s2.next = s.next ∧ s2.depth = s.depth - 1 := by
    simp only [SeqBPlusTree.root_collapse, SeqBPlusTree.upd, k1, Option.map_some']
    refine ⟨_, rfl, ?_, rfl, rfl, rfl⟩
    intro u
    simp only [SeqBPlusTree.free, SeqBPlusTree.set, Function.update_apply, hroot]
  -- what the store says of pointers other than the old root
  have hsame : ∀ u n, u ≠ p → s.heap u = some n →
      ∃ n2, s2.heap u = some n2 ∧ n2.type = n.type ∧ n2.size = n.size ∧
        n2.key_ref = n.key_ref ∧ n2.key_value = n.key_value ∧
        n2.left_sibling = n.left_sibling ∧ n2.right_sibling = n.right_sibling ∧
        (u ≠ S → n2 = n) := by
    intro u n hu hn
    rw [hS, if_neg hu]
    by_cases e : u = S
    · rw [if_pos e]
      rw [e, k1] at hn; cases hn
      exact ⟨_, rfl, rfl, rfl, rfl, rfl, rfl, rfl, fun h => absurd e h⟩
    · rw [if_neg e]
      exact ⟨n, hn, rfl, rfl, rfl, rfl, rfl, rfl, fun _ => rfl⟩
  have hL : ∀ o, o ≠ some p → leftOf s2.heap o = leftOf s.heap o := by
    intro o ho
    cases o with
    | none => rfl
    | some u =>
      have hu : u ≠ p := fun e => ho (by rw [e])
      simp only [leftOf, Option.some_bind]
      cases hn : s.heap u with
      | none => rw [hS, if_neg hu, if_neg (by intro e; rw [e, k1] at hn; cases hn), hn]
      | some n =>
        obtain ⟨n2, q1, _, _, _, _, q2, _⟩ := hsame u n hu hn
        rw [q1]; simp only [Option.some_bind, q2]
  have hRt : ∀ o, o ≠ some p → rightOf s2.heap o = rightOf s.heap o := by
    intro o ho
    cases o with
    | none => rfl
    | some u =>
      have hu : u ≠ p := fun e => ho (by rw [e])
      simp only [rightOf, Option.some_bind]
      cases hn : s.heap u with
      | none => rw [hS, if_neg hu, if_neg (by intro e; rw [e, k1] at hn; cases hn), hn]
      | some n =>
        obtain ⟨n2, q1, _, _, _, _, _, q2, _⟩ := hsame u n hu hn
        rw [q1]; simp only [Option.some_bind, q2]
  have hFk : ∀ o, o ≠ some p → firstKid s2.heap o = firstKid s.heap o := by
    intro o ho
    cases o with
    | none => rfl
    | some u =>
      have hu : u ≠ p := fun e => ho (by rw [e])
      simp only [firstKid, Option.some_bind]
      cases hn : s.heap u with
      | none => rw [hS, if_neg hu, if_neg (by intro e; rw [e, k1] at hn; cases hn), hn]
      | some n =>
        obtain ⟨n2, q1, _, _, q2, _⟩ := hsame u n hu hn
        rw [q1]; simp only [Option.some_bind, Node.kid, q2]
  have hLk : ∀ o, o ≠ some p → lastKid s2.heap o = lastKid s.heap o := by
    intro o ho
    cases o with
    | none => rfl
    | some u =>
      have hu : u ≠ p := fun e => ho (by rw [e])
      simp only [lastKid, Option.some_bind]
      cases hn : s.heap u with
      | none => rw [hS, if_neg hu, if_neg (by intro e; rw [e, k1] at hn; cases hn), hn]
      | some n =>
        obtain ⟨n2, q1, _, q3, q2, _⟩ := hsame u n hu hn
        rw [q1]; simp only [Option.some_bind, Node.kid, q2, q3]
  have hSl : sn.left_sibling = none := by
    have := hin.sib_left
    rw [hk, r3] at this
    simpa only [leftOf, lastKid, Option.some_bind, Option.none_bind, k1] using this
  have hSr : sn.right_sibling = none := by
    have := hin.sib_right
    rw [hsz, hk, r4] at this
    simpa only [rightOf, firstKid, Option.some_bind, Option.none_bind, k1] using this
  refine ⟨s2, hcode, ?_, ?_, hs2d, hs2n, hs2r⟩
  · constructor
    · intro a ha
      rw [hs2n] at ha
      rw [hS]
      by_cases e1 : a = p
      · rw [if_pos e1]
      · rw [if_neg e1, if_neg (by
          intro e
          have := hg.fresh a ha
          rw [e, k1] at this; cases this)]
        exact hg.fresh a ha
    · refine ⟨{ sn with parent := none }, ?_, rfl, hSl, hSr⟩
      rw [hs2r, hS, if_neg hSp, if_pos rfl]
    · rw [hs2r, hs2d]
      have := hg.root_lvl
      rw [← hroot] at this
      omega
    · rw [hs2r, k4]; unfold lob; rw [if_pos rfl, hroot]; exact hg.root_lo
    · rw [hs2r, k5]; unfold hib; rw [if_pos hsz.symm, hroot]; exact hg.root_hi
    · rw [hs2r, hs2n]
      have := hg.fuel_ok
      rw [← hroot] at this
      omega
    · intro a n han
      rw [hs2r]
      rw [hS] at han
      by_cases e1 : a = p
      · rw [if_pos e1] at han; cases han
      rw [if_neg e1] at han
      obtain ⟨n0, hn0, hne⟩ : ∃ n0, s.heap a = some n0 ∧ n.type = n0.type ∧ n.size = n0.size ∧
          n.key_ref = n0.key_ref ∧ n.key_value = n0.key_value ∧
          n.left_sibling = n0.left_sibling ∧ n.right_sibling = n0.right_sibling ∧
          (a ≠ S → n = n0) ∧ (a = S → n.parent = none) := by
        by_cases e2 : a = S
        · rw [if_pos e2] at han; cases han
          rw [e2]
          exact ⟨sn, k1, rfl, rfl, rfl, rfl, rfl, rfl, fun h => absurd rfl h, fun _ => rfl⟩
        · rw [if_neg e2] at han
          exact ⟨n, han, rfl, rfl, rfl, rfl, rfl, rfl, fun _ => rfl, fun h => absurd h e2⟩
      obtain ⟨t1, t2, t3, t4, t5, t6, t7, t8⟩ := hne
      have old := hg.nodes a n0 hn0
      have hsib := hg.root_no_sibling hn0
      rw [← hroot] at hsib
      have hkp : ∀ j c, j ≤ n0.size → n0.kid j = some c → c ≠ p ∧ c ≠ S := by
        intro j c hj hc
        obtain ⟨cn, c1, c2, c3, _⟩ := hg.kid_live hn0 hj hc
        constructor
        · intro e; rw [e, hp] at c1; cases c1; rw [hpar] at c2; cases c2
        · intro e; rw [e, k1] at c1; cases c1; rw [k2] at c2; exact e1 (Option.some.inj c2).symm
      refine old.reframe t1 t2 t3 t4 (fun h => by cases h)
        (fun h => absurd (Option.some.inj h).symm e1) ?_ (fun h => absurd (h.trans hroot.symm) e1)
        ?_ ?_ rfl rfl rfl ?_ ?_ ?_ ?_
      · intro h
        by_cases e2 : a = S
        · exact e2
        · rw [t7 e2] at h
          exact absurd ((old.is_root h).trans hroot.symm) e1
      · intro q hq
        have e2 : a ≠ S := by intro e; rw [t8 e] at hq; cases hq
        rw [t7 e2] at hq
        obtain ⟨qn, q1, q2, j, q3, q4⟩ := old.has_parent q hq
        have hqp : q ≠ p := by
          intro e
          rw [e, hp] at q1; cases q1
          rw [hsz] at q3
          obtain rfl : j = 0 := by omega
          rw [hk] at q4
          exact e2 (Option.some.inj q4).symm
        obtain ⟨n2, w1, w2, w3, w4, _⟩ := hsame q qn hqp q1
        exact ⟨n2, w1, w2.trans q2, j, by rw [w3]; exact q3, by
          simp only [Node.kid, w4]; exact q4⟩
      · have := hg.below_root hn0 (by rw [← hroot]; exact e1)
        rw [← hroot] at this
        omega
      · intro hti j c hj hc
        obtain ⟨cn, c1, c2, c3, _⟩ := hg.kid_live hn0 hj hc
        obtain ⟨cp, cS⟩ := hkp j c hj hc
        refine ⟨cn, ?_, c2, rfl, rfl, rfl⟩
        rw [hS, if_neg cp, if_neg cS]; exact c1
      · intro hti j hj
        have hin0 := hg.internal_good hn0 hti
        obtain ⟨c, cn, a1, _⟩ := hin0.kids j (le_of_lt hj)
        obtain ⟨d, dn, b1, _⟩ := hin0.kids (j + 1) hj
        refine ⟨hRt _ ?_, hL _ ?_⟩
        · rw [a1]; intro e
          exact (hkp j c (le_of_lt hj) a1).1 (Option.some.inj e)
        · rw [b1]; intro e
          exact (hkp (j + 1) d hj b1).1 (Option.some.inj e)
      · intro hti
        have hin0 := hg.internal_good hn0 hti
        obtain ⟨c, cn, a1, _⟩ := hin0.kids 0 (Nat.zero_le _)
        rw [hL _ (by rw [a1]; intro e; exact (hkp 0 c (Nat.zero_le _) a1).1 (Option.some.inj e)),
          t5, hLk _ hsib.1]
        exact hin0.sib_left
      · intro hti
        have hin0 := hg.internal_good hn0 hti
        obtain ⟨c, cn, a1, _⟩ := hin0.kids n0.size (le_refl _)
        rw [hRt _ (by rw [a1]; intro e; exact (hkp _ c (le_refl _) a1).1 (Option.some.inj e)),
          t6, hFk _ hsib.2]
        exact hin0.sib_right
  · intro a
    rw [hS]
    by_cases e1 : a = p
    · rw [if_pos e1, e1, hp]
      simp only [Option.some_bind, Option.none_bind, Node.leafView, hty, reduceCtorEq, if_false]
    · rw [if_neg e1]
      by_cases e2 : a = S
      · rw [if_pos e2, e2, k1]; rfl
      · rw [if_neg e2]

end Good


theorem Node.internal_deficient {n : Node} (hty : n.type = NodeType.INTERNAL) :
    n.isDeficient = decide (n.size = 0) := by
  unfold Node.isDeficient
  rw [hty]
  by_cases h : n.isRoot <;> by_cases e : n.size = 0 <;> simp [h, e, ORDER]
  all_goals omega

theorem Node.internal_slack {n : Node} (hty : n.type = NodeType.INTERNAL) :
    (!(n.isDeficient || n.isNearDeficient)) = decide (2 ≤ n.size) := by
  unfold Node.isDeficient Node.isNearDeficient
  rw [hty]
  by_cases h : n.isRoot <;> by_cases e : 2 ≤ n.size <;> simp [h, e, ORDER]
  all_goals omega

namespace Good

variable {t : SeqBPlusTree} {lvl : Nat → Nat} {lo hi : Nat → Int} {ov un : Option Nat}

/-- The function `borrow_merge_internal` on the root finds no sibling. -/
theorem bmi_root (hg : Good t lvl lo hi ov un) (f : Nat) {p : Nat} {pn : Node}
    (hp : t.heap p = some pn) (hpar : pn.parent = none) :
    SeqBPlusTree.borrow_merge_internal f t p = none := by
  have hroot := (hg.nodes p pn hp).is_root hpar
  obtain ⟨rn, r1, r2, r3, r4⟩ := hg.root_live
  rw [← hroot, hp] at r1; cases r1
  cases f with
  | zero => rfl
  | succ f =>
    simp only [SeqBPlusTree.borrow_merge_internal, hp, Option.some_seqBind, r3, r4]
    rfl

/-- The end of a merge: the parent is repaired by the cascade or replaced by its only child
when the merge left it without separators. -/
theorem merge_finish {f : Nat}
    (ih : ∀ (t : SeqBPlusTree) (lo hi : Nat → Int) (x : Nat) (cn : Node),
      Good t lvl lo hi none (some x) → t.heap x = some cn → cn.type = NodeType.INTERNAL →
      cn.size = 0 → cn.parent ≠ none → lvl t.root ≤ lvl x + f →
      ∃ s lo2 hi2, SeqBPlusTree.borrow_merge_internal f t x = some s ∧
        Good s lvl lo2 hi2 none none ∧ LeafSame t.heap s.heap ∧ s.next = t.next ∧
        (s.depth = t.depth ∨ s.depth = t.depth - 1))
    {s : SeqBPlusTree} {p S : Nat} {pm : Node}
    (hg : Good s lvl lo hi none (if pm.size = 0 then some p else none))
    (hp : s.heap p = some pm) (hty : pm.type = NodeType.INTERNAL)
    (hk : pm.size = 0 → pm.parent = none → pm.kid 0 = some S)
    (hf : lvl s.root ≤ lvl p + f) :
    ∃ s2 lo2 hi2, (if pm.isDeficient then
        (if pm.isRoot then SeqBPlusTree.root_collapse s S
          else SeqBPlusTree.borrow_merge_internal f s p) else some s) = some s2 ∧
      Good s2 lvl lo2 hi2 none none ∧ LeafSame s.heap s2.heap ∧ s2.next = s.next ∧
      (s2.depth = s.depth ∨ s2.depth = s.depth - 1) := by
  rw [Node.internal_deficient hty]
  by_cases h0 : pm.size = 0
  · rw [if_pos h0] at hg
    simp only [h0, decide_True, if_true]
    cases hpar : pm.parent with
    | none =>
      have hr : pm.isRoot = true := by simp [Node.isRoot, hpar]
      rw [if_pos hr]
      obtain ⟨s2, e1, e2, e3, e4, e5, e6⟩ := hg.root_collapse_ok hp hty h0 hpar (hk h0 hpar)
      exact ⟨s2, lo, hi, e1, e2, e3, e5, Or.inr e4⟩
    | some q =>
      have hr : ¬ pm.isRoot = true := by simp [Node.isRoot, hpar]
      rw [if_neg hr]
      exact ih s lo hi p pm hg hp hty h0 (by rw [hpar]; exact fun h => by cases h) hf
  · rw [if_neg h0] at hg
    simp only [h0, decide_False, Bool.false_eq_true, if_false]
    exact ⟨s, lo, hi, rfl, hg, LeafSame.refl _, rfl, Or.inl rfl⟩

end Good


namespace Good

variable {t : SeqBPlusTree} {lvl : Nat → Nat} {lo hi : Nat → Int} {ov un : Option Nat}

set_option maxHeartbeats 1000000 in
/-- The function `borrow_merge_internal` on an internal node without separators that is not
the root: with fuel for the levels above the node it returns a tree in which the invariant
holds again, with the same leaves, one level lower when the root was replaced. -/
theorem cascade_down : ∀ (f : Nat) (t : SeqBPlusTree) (lo hi : Nat → Int) (x : Nat) (cn : Node),
    Good t lvl lo hi none (some x) → t.heap x = some cn → cn.type = NodeType.INTERNAL →
    cn.size = 0 → cn.parent ≠ none → lvl t.root ≤ lvl x + f →
    ∃ s lo2 hi2, SeqBPlusTree.borrow_merge_internal f t x = some s ∧
      Good s lvl lo2 hi2 none none ∧ LeafSame t.heap s.heap ∧ s.next = t.next ∧
      (s.depth = t.depth ∨ s.depth = t.depth - 1) := by
  intro f
  induction f with
  | zero =>
    intro t lo hi x cn hg hx hcty hcsz hpar hf
    exfalso
    have hne : x ≠ t.root := by
      intro e
      obtain ⟨rn, r1, r2, _⟩ := hg.root_live
      rw [← e, hx] at r1; cases r1
      exact hpar r2
    have := hg.below_root hx hne
    omega
  | succ f ih =>
    intro t lo hi x cn hg hx hcty hcsz hpar hf
    obtain ⟨p, hcp⟩ : ∃ p, cn.parent = some p := by
      cases h : cn.parent with
      | none => exact absurd h hpar
      | some p => exact ⟨p, rfl⟩
    obtain ⟨pn, c, kr, hp, hpty, hc, hkc, hlp, hs4, hlen, -⟩ := hg.slot_of hx hcp
    have hin := hg.internal_good hp hpty
    have hxp : x ≠ p := by intro e; rw [e] at hlp; omega
    have hfp : ∀ s : SeqBPlusTree, s.root = t.root → lvl s.root ≤ lvl p + f := by
      intro s hs; rw [hs]; omega
    simp only [SeqBPlusTree.borrow_merge_internal, hx, Option.some_seqBind]
    cases hl : cn.left_sibling with
    | some L =>
      obtain ⟨ln, hL, l2, l3, l4⟩ := hg.left_info _ x cn L rfl hx hl
      have hlty : ln.type = NodeType.INTERNAL := (hg.type_of_lvl hL hx l3).trans hcty
      simp only [hL, Option.some_seqBind, Node.internal_slack hlty]
      by_cases h2 : 2 ≤ ln.size
      · simp only [h2, decide_True, if_true]
        obtain ⟨s, lo2, hi2, e1, e2, e3, e4, e5, e6, -⟩ :=
          hg.borrow_internal_left hx hcty hcsz hl hL h2
        exact ⟨s, lo2, hi2, e1, e2, e3, e6, Or.inl e5⟩
      · simp only [h2, decide_False, Bool.false_eq_true, if_false]
        have hxL : L ≠ x := by
          intro e
          have := hg.range_ne hx
          rw [e] at l4; omega
        have hlsz : ln.size = 1 := by
          rcases (hg.internal_good hL hlty).size_ge with h | h
          · omega
          · exact absurd (Option.some.inj h).symm hxL
        by_cases hlast : c = pn.size
        · rw [hlast] at hkc
          obtain ⟨s, pm, lo2, hi2, e1, e2, e3, e4, e5, e6, e7, e8, e9, e10, e11, -⟩ :=
            hg.merge_internal_last hx hcty hcsz hl hL
              hlsz hcp hp hkc
          obtain ⟨s2, lo3, hi3, d1, d2, d3, d4, d5⟩ :=
            merge_finish ih e6 e2 e3 e11 (hfp s e8)
          refine ⟨s2, lo3, hi3, (e1 _).trans d1, d2, e7.trans d3, d4.trans e10, ?_⟩
          rw [e9] at d5; exact d5
        · obtain ⟨s, pm, lo2, hi2, e1, e2, e3, e4, e5, e6, e7, e8, e9, e10, e11, -⟩ :=
            hg.merge_internal_mid hx hcty hcsz hl hL
              hlsz hcp hp hkc (by omega)
          obtain ⟨s2, lo3, hi3, d1, d2, d3, d4, d5⟩ :=
            merge_finish ih e6 e2 e3 e11 (hfp s e8)
          refine ⟨s2, lo3, hi3, (e1 _).trans d1, d2, e7.trans d3, d4.trans e10, ?_⟩
          rw [e9] at d5; exact d5
    | none =>
      obtain ⟨pn2, q1, -, hk0⟩ := hg.first_of_no_left hx hcp hl
      rw [hp] at q1; cases q1
      have hs1 : 1 ≤ pn.size := by
        rcases hin.size_ge with h | h
        · exact h
        · exact absurd (Option.some.inj h) hxp
      obtain ⟨R, rn, b1, hR, b3, b4, -⟩ := hin.kids 1 hs1
      have hr : cn.right_sibling = some R := by
        have hsib := (hin.sib_in 0 (by omega)).1
        rw [hk0, b1] at hsib
        simpa only [rightOf, Option.some_bind, hx] using hsib
      have hrty : rn.type = NodeType.INTERNAL :=
        (hg.type_of_lvl hR hx (by omega)).trans hcty
      simp only [hr, hR, Option.some_seqBind, Node.internal_slack hrty]
      by_cases h2 : 2 ≤ rn.size
      · simp only [h2, decide_True, if_true]
        obtain ⟨s, lo2, hi2, e1, e2, e3, e4, e5, e6, -⟩ :=
          hg.borrow_internal_right hx hcty hcsz hl hr hR h2
        exact ⟨s, lo2, hi2, e1, e2, e3, e6, Or.inl e5⟩
      · simp only [h2, decide_False, Bool.false_eq_true, if_false]
        have hxR : R ≠ x := by
          intro e
          obtain ⟨_, r1, r2, r3, r4⟩ := hg.right_info _ x cn R rfl hx hr
          have := hg.range_ne hx
          rw [e] at r4; omega
        have hrsz : rn.size = 1 := by
          rcases (hg.internal_good hR hrty).size_ge with h | h
          · omega
          · exact absurd (Option.some.inj h).symm hxR
        obtain ⟨s, pm, lo2, hi2, e1, e2, e3, e4, e5, e6, e7, e8, e9, e10, e11, -⟩ :=
          hg.merge_internal_right hx hcty hcsz hl hr
            hR hrsz hcp hp
        obtain ⟨s2, lo3, hi3, d1, d2, d3, d4, d5⟩ :=
          merge_finish ih e6 e2 e3 e11 (hfp s e8)
        refine ⟨s2, lo3, hi3, (e1 _).trans d1, d2, e7.trans d3, d4.trans e10, ?_⟩
        rw [e9] at d5; exact d5

end Good


/-- The leaf `n` without its entry at index `i`: what `remove` stores in the leaf. -/
def del_node (n : Node) (i : Nat) : Node :=
  { n with key_value := shifted n.key_value i (n.size - 1), size := n.size - 1 }

theorem del_node_entries (n : Node) (i : Nat) (hi : i < n.size)
    (hlen : n.size ≤ n.key_value.length) :
    (del_node n i).entries = n.entries.eraseIdx i := by
  apply List.ext_getElem?
  intro j
  simp only [Node.entries, del_node, List.getElem?_take, List.getElem?_eraseIdx]
  by_cases h1 : n.size - 1 ≤ i
  · have hi2 : i = n.size - 1 := by omega
    simp only [shifted, if_pos h1]
    by_cases h2 : j < n.size - 1
    · rw [if_pos h2, if_pos (by omega), if_pos (by omega)]
    · rw [if_neg h2, if_neg (by omega)]
      by_cases h3 : j + 1 < n.size
      · omega
      · rw [if_neg h3]
  · rw [shifted_get _ _ _ (by omega) (by omega)]
    by_cases h2 : j < n.size - 1
    · rw [if_pos h2, if_pos h2]
      by_cases h3 : j < i
      · rw [if_pos h3, if_pos h3, if_pos (by omega)]
      · rw [if_neg h3, if_neg h3, if_pos (by omega)]
    · rw [if_neg h2]
      by_cases h3 : j < i
      · omega
      · rw [if_neg h3, if_neg (by omega)]

/-- With distinct keys the entries other than the one at index `i` are the entries with
another key. -/
theorem mem_eraseIdx_key (l : List KeyValuePair)
    (hs : (l.map (fun kv => kv.key)).Pairwise (fun x y => x < y)) (i : Nat) (hi : i < l.length)
    (kv : KeyValuePair) :
    kv ∈ l.eraseIdx i ↔ kv ∈ l ∧ kv.key ≠ l[i].key := by
  induction l generalizing i with
  | nil => simp at hi
  | cons a r ih =>
    rw [List.map_cons, List.pairwise_cons] at hs
    cases i with
    | zero =>
      simp only [List.eraseIdx_cons_zero, List.getElem_cons_zero, List.mem_cons]
      constructor
      · intro h
        have := hs.1 kv.key (List.mem_map_of_mem _ h)
        exact ⟨Or.inr h, by omega⟩
      · rintro ⟨h | h, h2⟩
        · rw [h] at h2; exact absurd rfl h2
        · exact h
    | succ i =>
      have hi2 : i < r.length := by simpa using hi
      simp only [List.eraseIdx_cons_succ, List.getElem_cons_succ, List.mem_cons, ih hs.2 i hi2]
      constructor
      · rintro (h | ⟨h, h2⟩)
        · refine ⟨Or.inl h, ?_⟩
          have := hs.1 r[i].key (List.mem_map_of_mem _ (List.getElem_mem hi2))
          rw [h]; omega
        · exact ⟨Or.inr h, h2⟩
      · rintro ⟨h | h, h2⟩
        · exact Or.inl h
        · exact Or.inr ⟨h, h2⟩

namespace Good

variable {t : SeqBPlusTree} {lvl : Nat → Nat} {lo hi : Nat → Int} {ov un : Option Nat}

/-- The function `remove` on a key that the leaf of its range does not hold: nothing
changes. -/
theorem remove_absent (hg : Good t lvl lo hi none none) (key : Int) {x : Nat} {n : Node}
    (hx : SeqBPlusTree.leaf_search t.heap key t.fuel t.root = some x)
    (hn : t.heap x = some n) (hty : n.type = NodeType.LEAF)
    (h1 : lo x ≤ key) (h2 : key < hi x)
    (hfi : n.size = 0 ∨
      (n.key_value.take n.size).findIdx? (fun kv => decide (key = kv.key)) = none) :
    t.remove key = some (t, false) ∧ ¬ t.HasKey key := by
  have hnone : ∀ kv ∈ n.entries, kv.key ≠ key := by
    intro kv hkv hk
    rcases hfi with h | h
    · simp [Node.entries, h] at hkv
    · have := List.findIdx?_eq_none_iff.mp h kv hkv
      simp [hk] at this
  constructor
  · simp only [SeqBPlusTree.remove, hx, Option.seqBind_eq, Option.some_bind, hn]
    by_cases h0 : n.size = 0
    · rw [if_pos h0]
    · rw [if_neg h0]
      rcases hfi with h | h
      · exact absurd h h0
      · rw [h]
  · intro hk
    obtain ⟨kv, hm, hkk⟩ := (hg.hasKey_iff key hn hty h1 h2).mp hk
    exact hnone kv hm hkk

/-- The first step of the function `remove` on a key that the leaf of its range holds: the
entry leaves the leaf, and the invariant holds up to the size of the leaf. -/
theorem remove_step (hg : Good t lvl lo hi none none) (key : Int) {x : Nat} {n : Node}
    (hx : SeqBPlusTree.leaf_search t.heap key t.fuel t.root = some x)
    (hn : t.heap x = some n) (hty : n.type = NodeType.LEAF)
    (h1 : lo x ≤ key) (h2 : key < hi x) (i : Nat)
    (hfi : (n.key_value.take n.size).findIdx? (fun kv => decide (key = kv.key)) = some i) :
    t.remove key =
      (if (del_node n i).isDeficient then
        (SeqBPlusTree.borrow_merge_leaf t.fuel (t.set x (del_node n i)) x).map
          (fun t2 => (t2, true))
       else some (t.set x (del_node n i), true)) ∧
    Good (t.set x (del_node n i)) lvl lo hi none (if n.size = 2 then some x else none) ∧
    t.HasKey key ∧ (del_node n i).size + 1 = n.size ∧
    (del_node n i).type = NodeType.LEAF ∧
    (del_node n i).entries = n.entries.eraseIdx i ∧ i < n.size ∧
    (∃ e, n.entries.get? i = some e ∧ e.key = key) ∧
    ∀ kv, (t.set x (del_node n i)).Stored kv ↔ (t.Stored kv ∧ kv.key ≠ key) := by
  have hl := hg.leaf_good hn hty
  obtain ⟨hsz, hlen⟩ := hg.leaf_size_le hn hty
  obtain ⟨hil, hik, _⟩ := List.findIdx?_eq_some_iff_getElem.mp hfi
  simp only [decide_eq_true_eq] at hik
  have hil2 : i < n.entries.length := hil
  have hik2 : n.entries[i].key = key := hik.symm
  have his : i < n.size := by
    simp only [List.length_take] at hil; omega
  have hent := del_node_entries n i his (by omega)
  refine ⟨?_, ?_, ?_, by show n.size - 1 + 1 = n.size; omega, hty, hent, his,
    ⟨n.entries[i], by rw [List.get?_eq_getElem?, List.getElem?_eq_getElem hil2], hik2⟩, ?_⟩
  · simp only [SeqBPlusTree.remove, hx, Option.seqBind_eq, Option.some_bind, hn, hfi,
      if_neg (show ¬ n.size = 0 by omega),
      arr_shift_eq n.key_value i (n.size - 1) (Or.inr (by omega))]
    rfl
  · apply hg.set_leaf hn hty (show (del_node n i).type = NodeType.LEAF from hty) rfl rfl rfl
    constructor
    · exact hl.lvl0
    · show (shifted n.key_value i (n.size - 1)).length = ORDER
      rw [shifted_length _ _ _ (by omega)]; exact hl.len
    · exact hl.noref
    · left
      show n.size - 1 ≤ ORDER - 1
      simp only [ORDER]; omega
    · rcases hl.size_ge with h | h | h
      · exact Or.inl h
      · simp only [ORDER] at h
        by_cases e : n.size = 2
        · right; right
          rw [if_pos e]
          exact ⟨by show n.size - 1 + 1 = ORDER / 2; simp only [ORDER]; omega, rfl⟩
        · right; left
          show ORDER / 2 ≤ n.size - 1
          simp only [ORDER]; omega
      · cases h.2
    · simp only [Node.keys, hent]
      exact hl.sorted.sublist ((List.eraseIdx_sublist _ _).map _)
    · intro k hk
      simp only [Node.keys, hent] at hk
      exact hl.range k (((List.eraseIdx_sublist _ _).map _).subset hk)
  · exact (hg.hasKey_iff key hn hty h1 h2).mpr ⟨_, List.getElem_mem hil2, hik2⟩
  · intro kv
    have := hg.stored_set_key key hn hty
      (show (del_node n i).type = NodeType.LEAF from hty) h1 h2 (fun _ => False)
      (by
        intro kv
        rw [hent, mem_eraseIdx_key n.entries hl.sorted i hil2 kv, hik2, or_false]) kv
    rw [this, or_false]

end Good


theorem Node.leaf_deficient {n : Node} (hty : n.type = NodeType.LEAF) :
    n.isDeficient = decide (n.size < 2) := by
  unfold Node.isDeficient
  rw [hty]
  rfl

theorem Node.leaf_slack {n : Node} (hty : n.type = NodeType.LEAF) :
    (!(n.isDeficient || n.isNearDeficient)) = decide (3 ≤ n.size) := by
  unfold Node.isDeficient Node.isNearDeficient
  rw [hty]
  by_cases e : 3 ≤ n.size <;> simp [e, ORDER]
  all_goals omega

namespace Good

variable {t : SeqBPlusTree} {lvl : Nat → Nat} {lo hi : Nat → Int} {ov un : Option Nat}

/-- The function `borrow_merge_leaf` on a root leaf finds no sibling. -/
theorem leaf_root_fault (hg : Good t lvl lo hi ov un) (f : Nat) {x : Nat} {cn : Node}
    (hx : t.heap x = some cn) (hpar : cn.parent = none) :
    SeqBPlusTree.borrow_merge_leaf f t x = none := by
  have hroot := (hg.nodes x cn hx).is_root hpar
  obtain ⟨rn, r1, r2, r3, r4⟩ := hg.root_live
  rw [← hroot, hx] at r1; cases r1
  simp only [SeqBPlusTree.borrow_merge_leaf, hx, Option.some_seqBind, r3, r4]
  rfl

/-- The end of a leaf merge: the parent is repaired by the cascade when the merge left it
without separators; on a root without separators the cascade finds no sibling. -/
theorem leaf_finish (f : Nat) {s : SeqBPlusTree} {p : Nat} {pm : Node}
    (hg : Good s lvl lo hi none (if pm.size = 0 then some p else none))
    (hp : s.heap p = some pm) (hty : pm.type = NodeType.INTERNAL)
    (hf : lvl s.root ≤ lvl p + f) :
    (pm.size = 0 ∧ pm.parent = none ∧
      (if pm.isDeficient then SeqBPlusTree.borrow_merge_internal f s p else some s) = none) ∨
    ∃ s2 lo2 hi2,
      (if pm.isDeficient then SeqBPlusTree.borrow_merge_internal f s p else some s) = some s2 ∧
      Good s2 lvl lo2 hi2 none none ∧ LeafSame s.heap s2.heap ∧ s2.next = s.next ∧
      (s2.depth = s.depth ∨ s2.depth = s.depth - 1) := by
  by_cases h0 : pm.size = 0
  · rw [if_pos h0] at hg
    have hd : pm.isDeficient = true := by rw [Node.internal_deficient hty]; simp [h0]
    rw [if_pos hd]
    cases hpar : pm.parent with
    | none => exact Or.inl ⟨h0, rfl, hg.bmi_root f hp hpar⟩
    | some q =>
      right
      exact cascade_down f s lo hi p pm hg hp hty h0 (by rw [hpar]; exact fun h => by cases h) hf
  · rw [if_neg h0] at hg
    have hd : ¬ pm.isDeficient = true := by rw [Node.internal_deficient hty]; simp [h0]
    rw [if_neg hd]
    exact Or.inr ⟨s, lo, hi, rfl, hg, LeafSame.refl _, rfl, Or.inl rfl⟩

set_option maxHeartbeats 1000000 in
/-- The function `borrow_merge_leaf` on a leaf with one entry below the parent `p`: it
returns a tree in which the invariant holds again, with the same pairs, unless the parent is
a root with one separator and the leaf is merged. -/
theorem leaf_dispatch (f : Nat) {x p : Nat} {cn pn : Node}
    (hg : Good t lvl lo hi none (some x))
    (hx : t.heap x = some cn) (hcty : cn.type = NodeType.LEAF) (hcsz : cn.size = 1)
    (hcp : cn.parent = some p) (hp : t.heap p = some pn) (hf : lvl t.root ≤ lvl p + f) :
    (pn.parent = none ∧ pn.size = 1 ∧ SeqBPlusTree.borrow_merge_leaf f t x = none) ∨
    ∃ s lo2 hi2, SeqBPlusTree.borrow_merge_leaf f t x = some s ∧
      Good s lvl lo2 hi2 none none ∧ (∀ kv, s.Stored kv ↔ t.Stored kv) ∧ s.next = t.next ∧
      (s.depth = t.depth ∨ s.depth = t.depth - 1) := by
  obtain ⟨pn2, c, kr, q1, hpty, hc, hkc, hlp, hs4, hlen, -⟩ := hg.slot_of hx hcp
  rw [hp] at q1; cases q1
  have hin := hg.internal_good hp hpty
  have hxp : x ≠ p := by intro e; rw [e] at hlp; omega
  have hfp : ∀ s : SeqBPlusTree, s.root = t.root → lvl s.root ≤ lvl p + f := by
    intro s hs; rw [hs]; exact hf
  -- the end of the three merges
  have hend : ∀ (s : SeqBPlusTree) (pm : Node) (lo2 hi2 : Nat → Int)
      (r : Option SeqBPlusTree),
      r = (if pm.isDeficient then SeqBPlusTree.borrow_merge_internal f s p else some s) →
      s.heap p = some pm → pm.type = NodeType.INTERNAL → pm.size + 1 = pn.size →
      pm.parent = pn.parent →
      Good s lvl lo2 hi2 none (if pm.size = 0 then some p else none) →
      (∀ kv, s.Stored kv ↔ t.Stored kv) → s.root = t.root → s.depth = t.depth →
      s.next = t.next →
      (pn.parent = none ∧ pn.size = 1 ∧ r = none) ∨
      ∃ s2 lo3 hi3, r = some s2 ∧
        Good s2 lvl lo3 hi3 none none ∧ (∀ kv, s2.Stored kv ↔ t.Stored kv) ∧
        s2.next = t.next ∧ (s2.depth = t.depth ∨ s2.depth = t.depth - 1) := by
    intro s pm lo2 hi2 r e1 e2 e3 e4 e5 e6 e7 e8 e9 e10
    rcases leaf_finish f e6 e2 e3 (hfp s e8) with ⟨d1, d2, d3⟩ | ⟨s2, lo3, hi3, d1, d2, d3, d4, d5⟩
    · exact Or.inl ⟨e5 ▸ d2, by omega, e1.trans d3⟩
    · refine Or.inr ⟨s2, lo3, hi3, e1.trans d1, d2, ?_, d4.trans e10, ?_⟩
      · intro kv
        rw [d3.stored kv, e7 kv]
      · rw [e9] at d5; exact d5
  simp only [SeqBPlusTree.borrow_merge_leaf, hx, Option.some_seqBind]
  cases hl : cn.left_sibling with
  | some L =>
    obtain ⟨ln, hL, l2, l3, l4⟩ := hg.left_info _ x cn L rfl hx hl
    have hlty : ln.type = NodeType.LEAF := (hg.type_of_lvl hL hx l3).trans hcty
    have hLx : L ≠ x := by
      intro e
      have := hg.range_ne hx
      rw [e] at l4; omega
    obtain ⟨lp, hlpar⟩ := hg.parent_of_sibling hL l2
    simp only [hL, Option.some_seqBind, Node.leaf_slack hlty]
    rcases hg.leaf_sizes hL hlty hLx hlpar with h2 | h3
    · simp only [h2, show ¬ 3 ≤ 2 by omega, decide_False, Bool.false_eq_true, if_false,
        SeqBPlusTree.merge_leaf]
      by_cases hlast : c = pn.size
      · rw [hlast] at hkc
        obtain ⟨s, pm, lo2, hi2, e1, e2, e3, e4, e5, e6, e7, e8, e9, e10, -⟩ :=
          hg.merge_leaf_last hx hcty hcsz hl hL h2 hcp hp hkc
        exact hend s pm lo2 hi2 _ (e1 _) e2 e3 e4 e5 e6 e7 e8 e9 e10
      · obtain ⟨s, pm, lo2, hi2, e1, e2, e3, e4, e5, e6, e7, e8, e9, e10, -⟩ :=
          hg.merge_leaf_mid hx hcty hcsz hl hL h2 hcp hp hkc (by omega)
        exact hend s pm lo2 hi2 _ (e1 _) e2 e3 e4 e5 e6 e7 e8 e9 e10
    · simp only [h3, le_refl, decide_True, if_true]
      obtain ⟨s, lo2, hi2, e1, e2, e3, e4, e5, e6, -⟩ :=
        hg.borrow_leaf_left hx hcty hcsz hl hL h3
      exact Or.inr ⟨s, lo2, hi2, e1, e2, e3, e6, Or.inl e5⟩
  | none =>
    obtain ⟨pn2, q1, -, hk0⟩ := hg.first_of_no_left hx hcp hl
    rw [hp] at q1; cases q1
    have hs1 : 1 ≤ pn.size := by
      rcases hin.size_ge with h | h
      · exact h
      · exact absurd (Option.some.inj h) hxp
    obtain ⟨R, rn, b1, hR, b3, b4, -⟩ := hin.kids 1 hs1
    have hr : cn.right_sibling = some R := by
      have hsib := (hin.sib_in 0 (by omega)).1
      rw [hk0, b1] at hsib
      simpa only [rightOf, Option.some_bind, hx] using hsib
    have hrty : rn.type = NodeType.LEAF := (hg.type_of_lvl hR hx (by omega)).trans hcty
    have hRx : R ≠ x := by
      intro e
      obtain ⟨_, r1, r2, r3, r4⟩ := hg.right_info _ x cn R rfl hx hr
      have := hg.range_ne hx
      rw [e] at r4; omega
    simp only [hr, hR, Option.some_seqBind, Node.leaf_slack hrty]
    rcases hg.leaf_sizes hR hrty hRx b3 with h2 | h3
    · simp only [h2, show ¬ 3 ≤ 2 by omega, decide_False, Bool.false_eq_true, if_false,
        SeqBPlusTree.merge_leaf]
      obtain ⟨s, pm, lo2, hi2, e1, e2, e3, e4, e5, e6, e7, e8, e9, e10, -⟩ :=
        hg.merge_leaf_right hx hcty hcsz hl hr hR h2 hcp hp
      exact hend s pm lo2 hi2 _ (e1 _) e2 e3 e4 e5 e6 e7 e8 e9 e10
    · simp only [h3, le_refl, decide_True, if_true]
      obtain ⟨s, lo2, hi2, e1, e2, e3, e4, e5, e6, -⟩ :=
        hg.borrow_leaf_right hx hcty hcsz hl hr hR h3
      exact Or.inr ⟨s, lo2, hi2, e1, e2, e3, e6, Or.inl e5⟩

end Good


/-- What a completed `remove` call guarantees: the invariant, the result, the stored pairs,
the depth, and that nothing changes when the key is not stored. -/
structure RemoveOk (t s : SeqBPlusTree) (key : Int) (b : Bool) : Prop where
  inv : TreeInv s
  result : b = true ↔ t.HasKey key
  stored : ∀ kv, s.Stored kv ↔ (t.Stored kv ∧ kv.key ≠ key)
  depth : s.depth = t.depth ∨ s.depth = t.depth - 1
  same : b = false → s = t
  next : s.next = t.next
  level : ∃ lvl lo hi lo2 hi2, Good t lvl lo hi none none ∧ Good s lvl lo2 hi2 none none

namespace Good

variable {t : SeqBPlusTree} {lvl : Nat → Nat} {lo hi : Nat → Int}

set_option maxHeartbeats 1000000 in
/-- Every `remove` call on a tree that satisfies the invariant, with a key in the range of
`int`, either returns a tree that satisfies `RemoveOk`, or does not return; the latter only
on a stored key in a tree of depth 0 or 1. -/
theorem remove_ok (hg : Good t lvl lo hi none none) (key : Int)
    (h1 : INT_MIN ≤ key) (h2 : key ≤ INT_MAX) :
    (t.remove key = none ∧ t.depth ≤ 1 ∧ t.HasKey key) ∨
    ∃ s b, t.remove key = some (s, b) ∧ RemoveOk t s key b := by
  obtain ⟨x, xn, hx, hxn, hty, b1, b2⟩ := hg.search_leaf key h1 h2
  have hl := hg.leaf_good hxn hty
  obtain ⟨hsz, hlen⟩ := hg.leaf_size_le hxn hty
  by_cases h0 : xn.size = 0
  · obtain ⟨e1, e2⟩ := hg.remove_absent key hx hxn hty b1 b2 (Or.inl h0)
    refine Or.inr ⟨t, false, e1, ⟨_, _, _, hg⟩, by simp [e2], ?_, Or.inl rfl, fun _ => rfl, rfl,
      ⟨_, _, _, _, _, hg, hg⟩⟩
    intro kv
    exact ⟨fun h => ⟨h, fun hk => e2 ⟨kv.value, by rw [← hk]; exact h⟩⟩, fun h => h.1⟩
  cases hfi : (xn.key_value.take xn.size).findIdx? (fun kv => decide (key = kv.key)) with
  | none =>
    obtain ⟨e1, e2⟩ := hg.remove_absent key hx hxn hty b1 b2 (Or.inr hfi)
    refine Or.inr ⟨t, false, e1, ⟨_, _, _, hg⟩, by simp [e2], ?_, Or.inl rfl, fun _ => rfl, rfl,
      ⟨_, _, _, _, _, hg, hg⟩⟩
    intro kv
    exact ⟨fun h => ⟨h, fun hk => e2 ⟨kv.value, by rw [← hk]; exact h⟩⟩, fun h => h.1⟩
  | some i =>
    obtain ⟨e1, hg1, hk, hs1, hty1, -, -, -, hst⟩ := hg.remove_step key hx hxn hty b1 b2 i hfi
    rw [Node.leaf_deficient hty1] at e1
    by_cases h3 : xn.size = 3
    · rw [if_neg (by rw [h3]; decide)] at hg1
      rw [if_neg (by simp only [decide_eq_true_eq]; omega)] at e1
      exact Or.inr ⟨_, true, e1, ⟨_, _, _, hg1⟩, by simp [hk], hst, Or.inl rfl,
        (fun h => by cases h), rfl, ⟨_, _, _, _, _, hg, hg1⟩⟩
    · rw [if_pos (by simp only [decide_eq_true_eq]; omega)] at e1
      have hx1 : (t.set x (del_node xn i)).heap x = some (del_node xn i) := by
        rw [SeqBPlusTree.set_heap, Function.update_same]
      have hlv0 : lvl x = 0 := hl.lvl0
      cases hpar : xn.parent with
      | none =>
        left
        have hroot := (hg.nodes x xn hxn).is_root hpar
        refine ⟨?_, ?_, hk⟩
        · rw [e1, hg1.leaf_root_fault t.fuel hx1 (show (del_node xn i).parent = none from hpar)]
          rfl
        · have := hg.root_lvl
          rw [← hroot, hlv0] at this
          omega
      | some p =>
        have hx2 : xn.size = 2 := by
          rcases hl.size_ge with h | h | h
          · obtain ⟨rn, r1, r2, _⟩ := hg.root_live
            rw [← h, hxn] at r1; cases r1
            rw [hpar] at r2; cases r2
          · simp only [ORDER] at h; omega
          · cases h.2
        rw [if_pos hx2] at hg1
        obtain ⟨pn, c, hp, hpty, hc, hkc, hlp, -⟩ := hg.parent_info hxn hpar
        have hxp : p ≠ x := by intro e; rw [e] at hlp; omega
        have hp1 : (t.set x (del_node xn i)).heap p = some pn := by
          rw [SeqBPlusTree.set_heap, Function.update_noteq hxp]; exact hp
        have hfuel := hg.fuel_ok
        rcases hg1.leaf_dispatch t.fuel hx1 hty1 (by omega)
          (show (del_node xn i).parent = some p from hpar) hp1
          (by show lvl t.root ≤ lvl p + t.next; omega) with
          ⟨d1, d2, d3⟩ | ⟨s, lo2, hi2, d1, d2, d3, d4, d5⟩
        · left
          refine ⟨by rw [e1, d3]; rfl, ?_, hk⟩
          have hroot := (hg.nodes p pn hp).is_root d1
          have := hg.root_lvl
          rw [← hroot] at this
          omega
        · right
          refine ⟨s, true, by rw [e1, d1]; rfl, ⟨_, _, _, d2⟩, by simp [hk], ?_, d5,
            (fun h => by cases h), d4, ⟨_, _, _, _, _, hg, d2⟩⟩
          intro kv
          rw [d3 kv, hst kv]

end Good

/-- Every `remove` call that returns on a tree that satisfies the invariant, with a key in
the range of `int`, returns a tree that satisfies the invariant. -/
theorem TreeInv.remove {t s : SeqBPlusTree} {b : Bool} (h : TreeInv t) (key : Int)
    (h1 : INT_MIN ≤ key) (h2 : key ≤ INT_MAX) (hr : t.remove key = some (s, b)) :
    RemoveOk t s key b := by
  obtain ⟨lvl, lo, hi, hg⟩ := h
  rcases hg.remove_ok key h1 h2 with ⟨e, _⟩ | ⟨s2, b2, e, ok⟩
  · rw [e] at hr; cases hr
  · rw [e] at hr; cases hr
    exact ok

/-- Every `remove` call on a tree of depth two or more that satisfies the invariant, with a
key in the range of `int`, returns. -/
theorem TreeInv.remove_total {t : SeqBPlusTree} (h : TreeInv t) (key : Int)
    (h1 : INT_MIN ≤ key) (h2 : key ≤ INT_MAX) (hd : 2 ≤ t.depth) :
    ∃ s b, t.remove key = some (s, b) ∧ RemoveOk t s key b := by
  obtain ⟨lvl, lo, hi, hg⟩ := h
  rcases hg.remove_ok key h1 h2 with ⟨_, e, _⟩ | h
  · omega
  · exact h

/-- The keys and values of a call are in the range of `int`. -/
def Op.valid : Op → Prop
  | Op.insert key value => INT_MIN ≤ key ∧ key ≤ INT_MAX ∧ INT_MIN ≤ value ∧ value ≤ INT_MAX
  | Op.remove key => INT_MIN ≤ key ∧ key ≤ INT_MAX

instance (op : Op) : Decidable op.valid := by
  cases op <;> unfold Op.valid <;> infer_instance

/-- The trees reached from a new tree by calls of `insert` and `remove` that return. -/
def Reachable (t : SeqBPlusTree) : Prop :=
  ∃ ops : List Op, (∀ op ∈ ops, op.valid) ∧ SeqBPlusTree.new.run ops = some t

theorem TreeInv.step {t s : SeqBPlusTree} (h : TreeInv t) (op : Op) (hv : op.valid)
    (hs : t.step op = some s) : TreeInv s := by
  cases op with
  | insert key value =>
    obtain ⟨s2, b, e, ok⟩ := h.insert key value hv.1 hv.2.1
    simp only [SeqBPlusTree.step, e, Option.map_some', Option.some.injEq] at hs
    rw [← hs]; exact ok.inv
  | remove key =>
    simp only [SeqBPlusTree.step] at hs
    cases hr : t.remove key with
    | none => rw [hr] at hs; cases hs
    | some r =>
      obtain ⟨s2, b⟩ := r
      rw [hr] at hs
      simp only [Option.map_some', Option.some.injEq] at hs
      rw [← hs]
      exact (h.remove key hv.1 hv.2 hr).inv

theorem TreeInv.run : ∀ (ops : List Op) (t s : SeqBPlusTree), TreeInv t →
    (∀ op ∈ ops, op.valid) → t.run ops = some s → TreeInv s := by
  intro ops
  induction ops with
  | nil =>
    intro t s h _ hr
    simp only [SeqBPlusTree.run, Option.some.injEq] at hr
    rw [← hr]; exact h
  | cons op ops ih =>
    intro t s h hv hr
    simp only [SeqBPlusTree.run] at hr
    cases hs : t.step op with
    | none => rw [hs] at hr; cases hr
    | some u =>
      rw [hs, Option.some_bind] at hr
      exact ih u s (h.step op (hv op (List.mem_cons_self _ _)) hs)
        (fun o ho => hv o (List.mem_cons_of_mem _ ho)) hr

/-- Every reachable tree satisfies the invariant. -/
theorem Reachable.inv {t : SeqBPlusTree} (h : Reachable t) : TreeInv t := by
  obtain ⟨ops, hv, hr⟩ := h
  exact TreeInv.run ops _ t TreeInv_new hv hr


namespace SeqBPlusTree

/-- The tree after a list of calls on a new tree; the new tree when a call does not return. -/
def after (ops : List Op) : SeqBPlusTree := (SeqBPlusTree.new.run ops).getD SeqBPlusTree.new

end SeqBPlusTree

theorem Reachable.after (ops : List Op) (hv : ∀ op ∈ ops, op.valid)
    (h : (SeqBPlusTree.new.run ops).isSome = true) : Reachable (SeqBPlusTree.after ops) := by
  refine ⟨ops, hv, ?_⟩
  unfold SeqBPlusTree.after
  cases hr : SeqBPlusTree.new.run ops with
  | none => rw [hr] at h; cases h
  | some t => rfl

/-- The node at `b` is a child of the internal node at `a`. -/
def ChildOf (h : Nat → Option Node) (a b : Nat) : Prop :=
  ∃ n, h a = some n ∧ n.type = NodeType.INTERNAL ∧ ∃ i, i ≤ n.size ∧ n.kid i = some b

/-- A path from the root to a leaf: the addresses on it, from the root down, each the child
of the one before, the last one a leaf. -/
def RootPath (t : SeqBPlusTree) (l : List Nat) : Prop :=
  l.head? = some t.root ∧ l.Chain' (ChildOf t.heap) ∧
    ∃ b n, l.getLast? = some b ∧ t.heap b = some n ∧ n.type = NodeType.LEAF

namespace Good

variable {t : SeqBPlusTree} {lvl : Nat → Nat} {lo hi : Nat → Int} {ov un : Option Nat}

/-- Along a chain of children the level falls by one at each step. -/
theorem chain_level (hg : Good t lvl lo hi ov un) :
    ∀ (l : List Nat) (a b : Nat), l.head? = some a → l.Chain' (ChildOf t.heap) →
      l.getLast? = some b → lvl a = lvl b + (l.length - 1) := by
  intro l
  induction l with
  | nil => intro a b h; cases h
  | cons x r ih =>
    intro a b ha hch hb
    simp only [List.head?_cons, Option.some.injEq] at ha
    subst ha
    cases r with
    | nil =>
      simp only [List.getLast?_singleton, Option.some.injEq] at hb
      subst hb
      rfl
    | cons y r2 =>
      rw [List.chain'_cons] at hch
      obtain ⟨n, h1, h2, i, h3, h4⟩ := hch.1
      obtain ⟨_, _, _, k3, _⟩ := hg.kid_live h1 h3 h4
      have := ih y b rfl hch.2 (by rw [← hb, List.getLast?_cons_cons])
      simp only [List.length_cons] at this ⊢
      omega

/-- Below every live node there is a chain of children that ends in a leaf. -/
theorem path_down (hg : Good t lvl lo hi ov un) :
    ∀ (k a : Nat) (n : Node), lvl a = k → t.heap a = some n →
      ∃ l : List Nat, l.head? = some a ∧ l.Chain' (ChildOf t.heap) ∧
        ∃ b m, l.getLast? = some b ∧ t.heap b = some m ∧ m.type = NodeType.LEAF := by
  intro k
  induction k with
  | zero =>
    intro a n hk ha
    cases hty : n.type with
    | LEAF => exact ⟨[a], rfl, List.chain'_singleton _, a, n, rfl, ha, hty⟩
    | INTERNAL =>
      have := ((hg.nodes a n ha).internal hty).1
      omega
  | succ k ih =>
    intro a n hk ha
    cases hty : n.type with
    | LEAF => exact ⟨[a], rfl, List.chain'_singleton _, a, n, rfl, ha, hty⟩
    | INTERNAL =>
      obtain ⟨c, cn, h1, h2, h3, h4, _⟩ := (hg.internal_good ha hty).kids 0 (Nat.zero_le _)
      obtain ⟨l, e1, e2, b, m, e3, e4, e5⟩ := ih c cn (by omega) h2
      refine ⟨a :: l, rfl, ?_, b, m, ?_, e4, e5⟩
      · cases l with
        | nil => cases e1
        | cons y r =>
          simp only [List.head?_cons, Option.some.injEq] at e1
          subst e1
          exact List.Chain'.cons ⟨n, ha, hty, 0, Nat.zero_le _, h1⟩ e2
      · cases l with
        | nil => cases e1
        | cons y r => rw [List.getLast?_cons_cons]; exact e3

end Good

/-- C27: in every tree reached by calls that return, every child pointer of an internal node
(index at most `size`) leads to a live node whose parent field is that node, the root has no
parent, and no other node is without a parent. -/
theorem parents_consistent (t : SeqBPlusTree) (hr : Reachable t) :
    (∀ a n i, t.heap a = some n → n.type = NodeType.INTERNAL → i ≤ n.size →
      ∃ c cn, n.kid i = some c ∧ (n.key_ref.get? i).bind (fun kr => kr.reference) = some c ∧
        t.heap c = some cn ∧ cn.parent = some a) ∧
    (∃ rn, t.heap t.root = some rn ∧ rn.parent = none) ∧
    (∀ a n, t.heap a = some n → n.parent = none → a = t.root) := by
  obtain ⟨lvl, lo, hi, hg⟩ := hr.inv
  refine ⟨?_, ?_, ?_⟩
  · intro a n i ha hty hi
    obtain ⟨c, cn, h1, h2, h3, _⟩ := (hg.internal_good ha hty).kids i hi
    exact ⟨c, cn, h1, h1, h2, h3⟩
  · obtain ⟨rn, r1, r2, _⟩ := hg.root_live
    exact ⟨rn, r1, r2⟩
  · intro a n ha hp
    exact (hg.nodes a n ha).is_root hp

theorem parents_consistent_witness :
    Reachable (SeqBPlusTree.after
      [Op.insert 1 1, Op.insert 2 2, Op.insert 3 3, Op.insert 4 4, Op.insert 5 5,
       Op.insert 6 6, Op.insert 7 7, Op.insert 8 8, Op.remove 5, Op.remove 2]) ∧
    ∃ rn, (SeqBPlusTree.after
      [Op.insert 1 1, Op.insert 2 2, Op.insert 3 3, Op.insert 4 4, Op.insert 5 5,
       Op.insert 6 6, Op.insert 7 7, Op.insert 8 8, Op.remove 5, Op.remove 2]).heap
        (SeqBPlusTree.after
      [Op.insert 1 1, Op.insert 2 2, Op.insert 3 3, Op.insert 4 4, Op.insert 5 5,
       Op.insert 6 6, Op.insert 7 7, Op.insert 8 8, Op.remove 5, Op.remove 2]).root = some rn ∧
      rn.parent = none :=
  have h := Reachable.after
    [Op.insert 1 1, Op.insert 2 2, Op.insert 3 3, Op.insert 4 4, Op.insert 5 5,
       Op.insert 6 6, Op.insert 7 7, Op.insert 8 8, Op.remove 5, Op.remove 2]
    (by decide) (by decide!)
  ⟨h, (parents_consistent _ h).2.1⟩

/-- C29: in every tree reached by calls that return, every path from the root to a leaf
passes through exactly `depth` internal nodes (it has `depth + 1` nodes), such a path exists,
and the depth of a new tree is 0. -/
theorem depth_is_height (t : SeqBPlusTree) (hr : Reachable t) :
    (∀ l, RootPath t l → ((l.length : Int) = t.depth + 1)) ∧ (∃ l, RootPath t l) ∧
    SeqBPlusTree.new.depth = 0 := by
  obtain ⟨lvl, lo, hi, hg⟩ := hr.inv
  refine ⟨?_, ?_, rfl⟩
  swap
  · obtain ⟨rn, r1, _⟩ := hg.root_live
    obtain ⟨l, e1, e2, e3⟩ := hg.path_down _ t.root rn rfl r1
    exact ⟨l, e1, e2, e3⟩
  rintro l ⟨h1, h2, b, n, h3, h4, h5⟩
  have hl := hg.chain_level l t.root b h1 h2 h3
  have h0 : lvl b = 0 := (hg.leaf_good h4 h5).lvl0
  have hd := hg.root_lvl
  have hne : 0 < l.length := by
    cases l with
    | nil => cases h1
    | cons _ _ => simp
  rw [← hd, hl, h0]
  omega

theorem depth_is_height_witness :
    Reachable (SeqBPlusTree.after
      [Op.insert 1 1, Op.insert 2 2, Op.insert 3 3, Op.insert 4 4, Op.insert 5 5,
       Op.insert 6 6, Op.insert 7 7, Op.insert 8 8, Op.remove 5, Op.remove 2]) ∧
    (∀ l, RootPath (SeqBPlusTree.after
      [Op.insert 1 1, Op.insert 2 2, Op.insert 3 3, Op.insert 4 4, Op.insert 5 5,
       Op.insert 6 6, Op.insert 7 7, Op.insert 8 8, Op.remove 5, Op.remove 2]) l →
      ((l.length : Int) = (SeqBPlusTree.after
      [Op.insert 1 1, Op.insert 2 2, Op.insert 3 3, Op.insert 4 4, Op.insert 5 5,
       Op.insert 6 6, Op.insert 7 7, Op.insert 8 8, Op.remove 5, Op.remove 2]).depth + 1)) :=
  have h := Reachable.after
    [Op.insert 1 1, Op.insert 2 2, Op.insert 3 3, Op.insert 4 4, Op.insert 5 5,
       Op.insert 6 6, Op.insert 7 7, Op.insert 8 8, Op.remove 5, Op.remove 2]
    (by decide) (by decide!)
  ⟨h, (depth_is_height _ h).1⟩

/-- A node other than the root with no left sibling is the first child of its parent, and
its right sibling is the second child of the same parent. -/
theorem Good.leftmost_pair {t : SeqBPlusTree} {lvl : Nat → Nat} {lo hi : Nat → Int}
    (hg : Good t lvl lo hi none none) {a : Nat} {n : Node}
    (ha : t.heap a = some n) (hne : a ≠ t.root) (hl : n.left_sibling = none) :
    ∃ r rn p pn, n.right_sibling = some r ∧ t.heap r = some rn ∧ rn.left_sibling = some a ∧
      n.parent = some p ∧ rn.parent = some p ∧ t.heap p = some pn ∧
      pn.type = NodeType.INTERNAL ∧ 1 ≤ pn.size ∧ pn.kid 0 = some a ∧ pn.kid 1 = some r ∧
      SeqBPlusTree.get_key_ref_pair_from_parent t.heap (some a) = some (p, 0) ∧
      SeqBPlusTree.get_key_ref_pair_from_parent t.heap (some r) = some (p, 1) := by
  obtain ⟨p, hp⟩ : ∃ p, n.parent = some p := by
    cases h : n.parent with
    | none => exact absurd ((hg.nodes a n ha).is_root h) hne
    | some p => exact ⟨p, rfl⟩
  obtain ⟨pn, hpn, hpty, hk0⟩ := hg.first_of_no_left ha hp hl
  have hin := hg.internal_good hpn hpty
  have hs1 : 1 ≤ pn.size := by
    rcases hin.size_ge with h | h
    · exact h
    · cases h
  obtain ⟨r, rn, b1, hR, b3, _⟩ := hin.kids 1 hs1
  have hsib := hin.sib_in 0 (by omega)
  rw [hk0, b1] at hsib
  have hrs : n.right_sibling = some r := by
    simpa only [rightOf, Option.some_bind, ha] using hsib.1
  have hls : rn.left_sibling = some a := by
    simpa only [leftOf, Option.some_bind, hR] using hsib.2
  obtain ⟨pn2, c, kr, q1, -, q3, q4, -, -, -, hslot, -⟩ := hg.slot_of ha hp
  rw [hpn] at q1; cases q1
  have hc0 : c = 0 := hin.kid_inj c 0 q3 (Nat.zero_le _) (q4.trans hk0.symm)
  obtain ⟨pn2, c1, kr1, q1, -, q5, q6, -, -, -, hslot1, -⟩ := hg.slot_of hR b3
  rw [hpn] at q1; cases q1
  have hc1 : c1 = 1 := hin.kid_inj c1 1 q5 hs1 (q6.trans b1.symm)
  rw [hc0] at hslot
  rw [hc1] at hslot1
  exact ⟨r, rn, p, pn, hrs, hR, hls, hp, b3, hpn, hpty, hs1, hk0, b1, hslot, hslot1⟩

/-- C25: in every tree reached by calls that return, a node other than the root that has no
left sibling has a right sibling; the two have the same parent, which has the node in slot 0
and the right sibling in slot 1, and these are the slots that the slot lookup of the borrow
and merge paths to the right finds for them. -/
theorem leftmost_shares_parent (t : SeqBPlusTree) (hr : Reachable t) (a : Nat) (n : Node)
    (ha : t.heap a = some n) (hne : a ≠ t.root) (hl : n.left_sibling = none) :
    ∃ r rn p pn, n.right_sibling = some r ∧ t.heap r = some rn ∧ rn.left_sibling = some a ∧
      n.parent = some p ∧ rn.parent = some p ∧ t.heap p = some pn ∧
      pn.type = NodeType.INTERNAL ∧ 1 ≤ pn.size ∧ pn.kid 0 = some a ∧ pn.kid 1 = some r ∧
      SeqBPlusTree.get_key_ref_pair_from_parent t.heap (some a) = some (p, 0) ∧
      SeqBPlusTree.get_key_ref_pair_from_parent t.heap (some r) = some (p, 1) := by
  obtain ⟨lvl, lo, hi, hg⟩ := hr.inv
  exact hg.leftmost_pair ha hne hl

theorem leftmost_shares_parent_witness :
    Reachable (SeqBPlusTree.after
      [Op.insert 1 1, Op.insert 2 2, Op.insert 3 3, Op.insert 4 4, Op.insert 5 5,
       Op.insert 6 6, Op.insert 7 7, Op.insert 8 8, Op.remove 5]) ∧
    (SeqBPlusTree.after
      [Op.insert 1 1, Op.insert 2 2, Op.insert 3 3, Op.insert 4 4, Op.insert 5 5,
       Op.insert 6 6, Op.insert 7 7, Op.insert 8 8, Op.remove 5]).heap 1 =
      some ⟨NodeType.LEAF, 2, some 3, none, some 2, 1, [⟨1, 1⟩, ⟨2, 2⟩, ⟨3, 3⟩, ⟨4, 4⟩], []⟩ ∧
    ∃ r rn p pn, (some 2 : Option Nat) = some r ∧
      (SeqBPlusTree.after
      [Op.insert 1 1, Op.insert 2 2, Op.insert 3 3, Op.insert 4 4, Op.insert 5 5,
       Op.insert 6 6, Op.insert 7 7, Op.insert 8 8, Op.remove 5]).heap r = some rn ∧
      rn.parent = some p ∧ (SeqBPlusTree.after
      [Op.insert 1 1, Op.insert 2 2, Op.insert 3 3, Op.insert 4 4, Op.insert 5 5,
       Op.insert 6 6, Op.insert 7 7, Op.insert 8 8, Op.remove 5]).heap p = some pn ∧
      pn.kid 0 = some 1 ∧ pn.kid 1 = some r :=
  have h := Reachable.after
    [Op.insert 1 1, Op.insert 2 2, Op.insert 3 3, Op.insert 4 4, Op.insert 5 5,
       Op.insert 6 6, Op.insert 7 7, Op.insert 8 8, Op.remove 5]
    (by decide) (by decide!)
  have hn : (SeqBPlusTree.after
      [Op.insert 1 1, Op.insert 2 2, Op.insert 3 3, Op.insert 4 4, Op.insert 5 5,
       Op.insert 6 6, Op.insert 7 7, Op.insert 8 8, Op.remove 5]).heap 1 =
      some ⟨NodeType.LEAF, 2, some 3, none, some 2, 1, [⟨1, 1⟩, ⟨2, 2⟩, ⟨3, 3⟩, ⟨4, 4⟩], []⟩ := by
    decide!
  ⟨h, hn, (leftmost_shares_parent _ h 1 _ hn (by decide!) rfl).imp fun _ hr =>
    hr.imp fun _ hrn => hrn.imp fun _ hp => hp.imp fun _ hpn =>
      ⟨hpn.1, hpn.2.1, hpn.2.2.2.2.1, hpn.2.2.2.2.2.1, hpn.2.2.2.2.2.2.2.2.1,
        hpn.2.2.2.2.2.2.2.2.2.1⟩⟩


theorem SeqBPlusTree.run_append (ops ops2 : List Op) : ∀ t : SeqBPlusTree,
    t.run (ops ++ ops2) = (t.run ops).bind (fun s => s.run ops2) := by
  induction ops with
  | nil => intro t; rfl
  | cons op ops ih =>
    intro t
    simp only [List.cons_append, SeqBPlusTree.run]
    cases t.step op with
    | none => rfl
    | some u => exact ih u

/-- A call that returns on a reachable tree gives a reachable tree. -/
theorem Reachable.next {t s : SeqBPlusTree} (h : Reachable t) (op : Op) (hv : op.valid)
    (hs : t.step op = some s) : Reachable s := by
  obtain ⟨ops, hvs, hr⟩ := h
  refine ⟨ops ++ [op], ?_, ?_⟩
  · intro o ho
    rcases List.mem_append.mp ho with h1 | h1
    · exact hvs o h1
    · rw [List.mem_singleton.mp h1]; exact hv
  · rw [SeqBPlusTree.run_append, hr]
    simp only [Option.some_bind, SeqBPlusTree.run, hs]

/-- C28: on every reachable tree of depth two or more, `remove` with a key in the range of
`int` returns (in the model every null dereference and every failed lookup is a call that
does not return), and the result is a reachable tree; in the tree every node other than the
root has a left or a right sibling, the lockstep walk from a node and its left sibling ends,
the slot lookup on its result returns a slot, and every node other than the root has a slot
in its parent. -/
theorem remove_safe_from_depth_two (t : SeqBPlusTree) (hr : Reachable t) (hd : 2 ≤ t.depth)
    (key : Int) (h1 : INT_MIN ≤ key) (h2 : key ≤ INT_MAX) :
    (∃ s b, t.remove key = some (s, b) ∧ Reachable s ∧ (b = true ↔ t.HasKey key)) ∧
    (∀ a n, t.heap a = some n → a ≠ t.root →
      n.left_sibling ≠ none ∨ n.right_sibling ≠ none) ∧
    (∀ a n L ln, t.heap a = some n → n.left_sibling = some L → t.heap L = some ln →
      ∃ last slot, SeqBPlusTree.ancestor_walk t.heap t.fuel n.parent ln.parent L = some last ∧
        SeqBPlusTree.get_key_ref_pair_from_parent t.heap (some last) = some slot) ∧
    (∀ a n, t.heap a = some n → a ≠ t.root →
      ∃ slot, SeqBPlusTree.get_key_ref_pair_from_parent t.heap (some a) = some slot) := by
  have hinv := hr.inv
  obtain ⟨lvl, lo, hi, hg⟩ := hinv
  refine ⟨?_, ?_, ?_, ?_⟩
  · obtain ⟨s, b, e, ok⟩ := (hr.inv).remove_total key h1 h2 hd
    refine ⟨s, b, e, hr.next (Op.remove key) ⟨h1, h2⟩ ?_, ok.result⟩
    simp only [SeqBPlusTree.step, e, Option.map_some']
  · intro a n ha hne
    cases hl : n.left_sibling with
    | some L => exact Or.inl (fun h => by cases h)
    | none =>
      obtain ⟨r, rn, p, pn, e, _⟩ := hg.leftmost_pair ha hne hl
      exact Or.inr (by rw [e]; exact fun h => by cases h)
  · intro a n L ln ha hl hL
    obtain ⟨ln2, l1, l2, l3, l4⟩ := hg.left_info _ a n L rfl ha hl
    rw [hL] at l1; cases l1
    obtain ⟨A, An, i, up1, up2, adj⟩ := hg.adjacent _ L ln a rfl hL l2
    obtain ⟨sA1, sA2⟩ := hg.size_le_four adj.hA (adj.internal hg)
    obtain ⟨last, w1, w2⟩ := adj.find_slot_on hg t.heap (fun b _ m hm => ⟨m, hm, rfl⟩) adj.hA
      (le_of_lt adj.hi) (by omega) (fun _ _ => rfl) hL ha
    exact ⟨last, (A, i), w1, w2⟩
  · intro a n ha hne
    obtain ⟨p, hp⟩ : ∃ p, n.parent = some p := by
      cases h : n.parent with
      | none => exact absurd ((hg.nodes a n ha).is_root h) hne
      | some p => exact ⟨p, rfl⟩
    obtain ⟨pn, c, kr, -, -, -, -, -, -, -, hslot, -⟩ := hg.slot_of ha hp
    exact ⟨(p, c), hslot⟩

/-- The calls that build the tree of worked scenario B. -/
def scenarioCalls : List Op :=
  [1, 40, 60, 90, 15, 30, 10, 20, 50, 55, 16, 58].map (fun k => Op.insert k k)

theorem scenarioCalls_reachable : Reachable (SeqBPlusTree.after scenarioCalls) :=
  Reachable.after scenarioCalls (by decide) (by decide!)

theorem remove_safe_from_depth_two_witness :
    Reachable (SeqBPlusTree.after scenarioCalls) ∧
    2 ≤ (SeqBPlusTree.after scenarioCalls).depth ∧ INT_MIN ≤ (1 : Int) ∧ (1 : Int) ≤ INT_MAX ∧
    ∃ s b, (SeqBPlusTree.after scenarioCalls).remove 1 = some (s, b) ∧ Reachable s ∧
      (b = true ↔ (SeqBPlusTree.after scenarioCalls).HasKey 1) :=
  ⟨scenarioCalls_reachable, by decide!, by decide, by decide,
    (remove_safe_from_depth_two _ scenarioCalls_reachable (by decide!) 1 (by decide)
      (by decide)).1⟩



/-- C21: `split_internal` on an internal node with ORDER = 4 separators and 5 children calls
`parent_insert` with the separator at index 2 and the new right node, in a state where the
original node has size 2, its separators 0 and 1, the sentinel INT_MAX at index 2 and its
children 0..2; the new node has size 1, the separator and child of index 3 and the original
sentinel pair of index 4; the two moved children have the new node as parent; each half has
at least 2 children, and with increasing separators the promoted one is in neither half. -/
theorem split_internal_halves
    (pins : SeqBPlusTree → Nat → Int → Nat → Option SeqBPlusTree)
    (t : SeqBPlusTree) (x k3 k4 : Nat) (c n3 n4 : Node)
    (hx : t.heap x = some c) (hty : c.type = NodeType.INTERNAL) (hsz : c.size = ORDER)
    (hlen : c.key_ref.length = ORDER + 1) (hfree : t.heap t.next = none)
    (h3 : c.kid 3 = some k3) (h4 : c.kid 4 = some k4)
    (l3 : t.heap k3 = some n3) (l4 : t.heap k4 = some n4)
    (d34 : k3 ≠ k4) (d3x : k3 ≠ x) (d4x : k4 ≠ x)
    (hrs : ∀ rs, c.right_sibling = some rs → rs ≠ x ∧ rs ≠ k3 ∧ rs ≠ k4 ∧ t.heap rs ≠ none)
    (hinc : (c.key_ref.map (fun kr => kr.key)).Pairwise (fun a b => a < b)) :
    ∃ T L R,
      SeqBPlusTree.split_internal_with pins t (some x) = pins T x (c.sep (c.size / 2)) t.next ∧
      c.size / 2 = 2 ∧
      T.heap x = some L ∧ T.heap t.next = some R ∧
      T.next = t.next + 1 ∧ T.node_count = t.node_count + 1 ∧
      L.type = NodeType.INTERNAL ∧ R.type = NodeType.INTERNAL ∧
      L.size = 2 ∧ L.sep 0 = c.sep 0 ∧ L.sep 1 = c.sep 1 ∧ L.sep 2 = INT_MAX ∧
      L.kid 0 = c.kid 0 ∧ L.kid 1 = c.kid 1 ∧ L.kid 2 = c.kid 2 ∧
      R.size = 1 ∧ R.sep 0 = c.sep 3 ∧ R.sep 1 = c.sep 4 ∧
      R.kid 0 = some k3 ∧ R.kid 1 = some k4 ∧
      T.heap k3 = some { n3 with parent := some t.next } ∧
      T.heap k4 = some { n4 with parent := some t.next } ∧
      2 ≤ L.size + 1 ∧ 2 ≤ R.size + 1 ∧
      (∀ j, j < L.size → L.sep j ≠ c.sep 2) ∧ (∀ j, j < R.size → R.sep j ≠ c.sep 2) := by
  have hsz4 : c.size = 4 := hsz
  have hlen5 : c.key_ref.length = 5 := hlen
  have hxn : x ≠ t.next := by intro h; rw [← h, hx] at hfree; cases hfree
  have h3n : k3 ≠ t.next := by intro h; rw [← h, l3] at hfree; cases hfree
  have h4n : k4 ≠ t.next := by intro h; rw [← h, l4] at hfree; cases hfree
  have hrs2 : ∀ rs, c.right_sibling = some rs → rs ≠ x ∧ rs ≠ t.next ∧ rs ≠ k3 ∧ rs ≠ k4 ∧
      t.heap rs ≠ none := by
    intro rs h
    obtain ⟨a1, a2, a3, a4⟩ := hrs rs h
    exact ⟨a1, fun h => a4 (by rw [h]; exact hfree), a2, a3, a4⟩
  have e := SeqBPlusTree.split_internal_eq pins hx hsz4 hlen5 hxn h3 h4 l3 l4 d34 d3x d4x hrs2
  have hT := SeqBPlusTree.internal_cut_heap t x c [k3, k4]
  have hr3 : ¬ c.right_sibling = some k3 := fun h => (hrs k3 h).2.1 rfl
  have hr4 : ¬ c.right_sibling = some k4 := fun h => (hrs k4 h).2.2.1 rfl
  obtain ⟨e0, e1, e2, e3, e4, he⟩ := list_len5 c.key_ref hlen5
  simp only [he, List.map_cons, List.map_nil, List.pairwise_cons, List.mem_cons,
    List.mem_singleton, forall_eq_or_imp, forall_eq] at hinc
  simp only [Node.kid, he] at h3 h4
  simp at h3 h4
  refine ⟨SeqBPlusTree.internal_cut t x c [k3, k4], SeqBPlusTree.internal_left t c,
    SeqBPlusTree.internal_right t x c, ?_, ?_, ?_, ?_, ?_, ?_, ?_, ?_, ?_, ?_, ?_, ?_, ?_, ?_,
    ?_, ?_, ?_, ?_, ?_, ?_, ?_, ?_, ?_, ?_, ?_, ?_⟩
  · rw [e, hsz4]
  · rw [hsz4]
  · rw [hT, if_pos rfl]
  · rw [hT, if_neg (Ne.symm hxn), if_pos rfl]
  · simp [SeqBPlusTree.internal_cut, SeqBPlusTree.set, SeqBPlusTree.relink_next,
      SeqBPlusTree.reparent, SeqBPlusTree.reparent1_next, SeqBPlusTree.bump]
  · simp [SeqBPlusTree.internal_cut, SeqBPlusTree.set, SeqBPlusTree.relink_node_count,
      SeqBPlusTree.reparent, SeqBPlusTree.reparent1_node_count, SeqBPlusTree.bump]
  · exact hty
  · rfl
  · simp [SeqBPlusTree.internal_left, hsz4]
  · simp [SeqBPlusTree.internal_left, hsz4, Node.sep, he, List.modify]
  · simp [SeqBPlusTree.internal_left, hsz4, Node.sep, he, List.modify]
  · simp [SeqBPlusTree.internal_left, hsz4, Node.sep, he, List.modify]
  · simp [SeqBPlusTree.internal_left, hsz4, Node.kid, he, List.modify]
  · simp [SeqBPlusTree.internal_left, hsz4, Node.kid, he, List.modify]
  · simp [SeqBPlusTree.internal_left, hsz4, Node.kid, he, List.modify]
  · simp [SeqBPlusTree.internal_right, hsz4, he]
  · simp [SeqBPlusTree.internal_right, hsz4, Node.sep, he]
  · simp [SeqBPlusTree.internal_right, hsz4, Node.sep, he]
  · simp [SeqBPlusTree.internal_right, hsz4, Node.kid, he, h3]
  · simp [SeqBPlusTree.internal_right, hsz4, Node.kid, he, h4]
  · rw [hT, if_neg d3x, if_neg h3n, if_neg hr3, if_pos (by simp), l3]; rfl
  · rw [hT, if_neg d4x, if_neg h4n, if_neg hr4, if_pos (by simp), l4]; rfl
  · simp [SeqBPlusTree.internal_left, hsz4]
  · simp [SeqBPlusTree.internal_right, hsz4, he]
  · intro j hj
    have hj2 : j < 2 := by simpa [SeqBPlusTree.internal_left, hsz4] using hj
    match j, hj2 with
    | 0, _ =>
      simp [SeqBPlusTree.internal_left, hsz4, Node.sep, he, List.modify]
      omega
    | 1, _ =>
      simp [SeqBPlusTree.internal_left, hsz4, Node.sep, he, List.modify]
      omega
  · intro j hj
    have hj2 : j < 1 := by simpa [SeqBPlusTree.internal_right, hsz4, he] using hj
    match j, hj2 with
    | 0, _ =>
      simp [SeqBPlusTree.internal_right, hsz4, Node.sep, he]
      omega

/-- A leaf of the state `overfullRoot`. -/
def overfullLeaf (id : Int) (l r : Option Nat) (a b : Int) : Node :=
  { Leaf.new with
    size := 2, parent := some 3, left_sibling := l, right_sibling := r, id := id,
    key_value := [⟨a, a⟩, ⟨b, b⟩, ⟨0, 0⟩, ⟨0, 0⟩] }

/-- The state in which `parent_insert` calls `split_internal` on the root when the keys
1..10 are inserted in ascending order: the root (node 3) has received its fourth separator
from the split of the last leaf. -/
def overfullRoot : SeqBPlusTree :=
  { heap :=
      Function.update (Function.update (Function.update (Function.update (Function.update
        (Function.update (fun _ => none)
          1 (some (overfullLeaf 1 none (some 2) 1 2)))
          2 (some (overfullLeaf 2 (some 1) (some 4) 3 4)))
          4 (some (overfullLeaf 4 (some 2) (some 5) 5 6)))
          5 (some (overfullLeaf 5 (some 4) (some 6) 7 8)))
          6 (some (overfullLeaf 6 (some 5) none 9 10)))
          3 (some { InternalNode.new with
            size := 4, id := 3,
            key_ref := [⟨3, some 1⟩, ⟨5, some 2⟩, ⟨7, some 4⟩, ⟨9, some 5⟩, ⟨INT_MAX, some 6⟩] }),
    next := 7, root := 3, depth := 1, node_count := 6, id_accumulator := 6 }

theorem split_internal_halves_witness :
    ∃ T L R,
      SeqBPlusTree.split_internal_with (SeqBPlusTree.parent_insert 3) overfullRoot (some 3) =
        SeqBPlusTree.parent_insert 3 T 3 7 7 ∧
      T.heap 3 = some L ∧ T.heap 7 = some R ∧
      L.size = 2 ∧ L.sep 0 = 3 ∧ L.sep 1 = 5 ∧ L.sep 2 = INT_MAX ∧
      L.kid 0 = some 1 ∧ L.kid 1 = some 2 ∧ L.kid 2 = some 4 ∧
      R.size = 1 ∧ R.sep 0 = 9 ∧ R.sep 1 = INT_MAX ∧ R.kid 0 = some 5 ∧ R.kid 1 = some 6 ∧
      T.heap 5 = some { overfullLeaf 5 (some 4) (some 6) 7 8 with parent := some 7 } ∧
      T.heap 6 = some { overfullLeaf 6 (some 5) none 9 10 with parent := some 7 } := by
  obtain ⟨T, L, R, a1, a2, a3, a4, a5, a6, a7, a8, a9, a10, a11, a12, a13, a14, a15, a16, a17,
      a18, a19, a20, a21, a22, a23, a24, a25, a26⟩ :=
    split_internal_halves (SeqBPlusTree.parent_insert 3) overfullRoot 3 5 6
      { InternalNode.new with
        size := 4, id := 3,
        key_ref := [⟨3, some 1⟩, ⟨5, some 2⟩, ⟨7, some 4⟩, ⟨9, some 5⟩, ⟨INT_MAX, some 6⟩] }
      (overfullLeaf 5 (some 4) (some 6) 7 8) (overfullLeaf 6 (some 5) none 9 10)
      (by decide) rfl rfl rfl (by decide) rfl rfl (by decide) (by decide) (by decide)
      (by decide) (by decide) (fun rs h => by cases h) (by decide)
  exact ⟨T, L, R, a1, a3, a4, a9, a10, a11, a12, a13, a14, a15, a16, a17, a18, a19, a20,
    a21, a22⟩


namespace SeqBPlusTree

/-- The function `split_internal` with the argument of the call checked: a fault when the
node is null, is not an internal node or does not hold exactly ORDER separators (this
covers the branch that reports "not valid / not full"); otherwise the code of
`split_internal` runs. -/
def split_internal_chk (pins : SeqBPlusTree → Nat → Int → Nat → Option SeqBPlusTree)
    (t : SeqBPlusTree) (curr_node : Option Nat) : Option SeqBPlusTree :=
  match curr_node with
  | none => none
  | some curr =>
    (t.heap curr).seqBind fun c =>
    if c.type = NodeType.INTERNAL ∧ c.size = ORDER then split_internal_with pins t curr_node
    else none

/-- The function `parent_insert` with its call of `split_internal` checked. -/
def parent_insert_chk : Nat → SeqBPlusTree → Nat → Int → Nat → Option SeqBPlusTree
  | 0, _, _, _, _ => none
  | fuel + 1, t, curr_node, key, right_half =>
    (t.heap curr_node).seqBind fun c =>
    let tp : SeqBPlusTree × Nat :=
      match c.parent with
      | some p => (t, p)
      | none =>
        (({ t with next := t.next + 1, depth := t.depth + 1,
                   id_accumulator := t.id_accumulator + 1,
                   node_count := t.node_count + 1, root := t.next } : SeqBPlusTree).set t.next
            { InternalNode.new with id := t.id_accumulator + 1 }, t.next)
    let t1 := tp.1
    let parent := tp.2
    (t1.heap parent).seqBind fun pn =>
    let parent_split := pn.isFull
    (arr_set pn.key_ref (pn.size + 1) ⟨key, some curr_node⟩).seqBind fun kr1 =>
    let pn2 := sort_entry_by_key { pn with size := pn.size + 1, key_ref := kr1 }
    let kr3 :=
      match (pn2.key_ref.take (pn2.size + 1)).findIdx? (fun kr => decide (key < kr.key)) with
      | some i => pn2.key_ref.modify (fun kr => { kr with reference := some right_half }) i
      | none => pn2.key_ref
    let t2 := t1.set parent { pn2 with key_ref := kr3 }
    (t2.upd curr_node (fun x => { x with parent := some parent })).seqBind fun t3 =>
    (t3.upd right_half (fun x => { x with parent := some parent })).seqBind fun t4 =>
    if parent_split then split_internal_chk (parent_insert_chk fuel) t4 (some parent)
    else some t4

/-- The function `split_leaf` with the argument of the call checked: a fault when the node
is null, is not a leaf or does not hold exactly ORDER entries; the calls below it are
checked in the same way. -/
def split_leaf_chk (fuel : Nat) (t : SeqBPlusTree) (curr_node : Option Nat) :
    Option SeqBPlusTree :=
  match curr_node with
  | none => none
  | some curr =>
    (t.heap curr).seqBind fun c =>
    if c.type ≠ NodeType.LEAF ∨ c.size ≠ ORDER then none
    else
      let right_half := t.next
      let moved := (c.key_value.take c.size).drop (c.size / 2)
      (arr_blit Leaf.new.key_value 0 moved).seqBind fun rkv =>
      let t1 : SeqBPlusTree :=
        { t with next := t.next + 1, id_accumulator := t.id_accumulator + 1,
                 node_count := t.node_count + 1 }
      (c.key_value.get? (c.size / 2)).seqBind fun mid =>
      let medianKey := mid.key
      (match c.right_sibling with
        | none => some t1
        | some rs => t1.upd rs (fun x => { x with left_sibling := some right_half })).seqBind fun t2 =>
      let rnode : Node :=
        { Leaf.new with
          key_value := rkv, size := moved.length, id := t1.id_accumulator,
          right_sibling := c.right_sibling, left_sibling := some curr }
      let t3 := t2.set right_half rnode
      (t3.upd curr (fun x => { x with size := c.size / 2, right_sibling := some right_half })).seqBind
        fun t4 => parent_insert_chk fuel t4 curr medianKey right_half

/-- The function `insert` with every call of `split_leaf` and `split_internal` below it
checked. -/
def insert_chk (t : SeqBPlusTree) (key value : Int) : Option (SeqBPlusTree × Bool) :=
  (leaf_search t.heap key t.fuel t.root).seqBind fun leaf =>
  (t.heap leaf).seqBind fun n =>
    match (n.key_value.take n.size).findIdx? (fun kv => decide (key = kv.key)) with
    | some i =>
      let kv1 := n.key_value.modify (fun kv => { kv with value := value }) i
      some (t.set leaf { n with key_value := kv1 }, false)
    | none =>
      let needSplit := n.isFull
      (arr_set n.key_value n.size ⟨key, value⟩).seqBind fun kv1 =>
      let t1 := t.set leaf (sort_entry_by_key { n with key_value := kv1, size := n.size + 1 })
      if needSplit then (split_leaf_chk t.fuel t1 (some leaf)).map (fun t2 => (t2, true))
      else some (t1, true)

theorem parent_insert_chk_succ (fuel : Nat) (t : SeqBPlusTree) (curr_node : Nat) (key : Int)
    (right_half : Nat) :
    parent_insert_chk (fuel + 1) t curr_node key right_half =
      (t.heap curr_node).bind fun c =>
      (link_at (t.link_parent c).1 (t.link_parent c).2 curr_node key right_half).bind fun r =>
        if r.2 then split_internal_chk (parent_insert_chk fuel) r.1 (some (t.link_parent c).2)
        else some r.1 := by
  simp only [parent_insert_chk, Option.seqBind_eq]
  cases t.heap curr_node with
  | none => rfl
  | some c =>
    simp only [Option.some_bind]
    exact link_at_bind (fun t4 => split_internal_chk (parent_insert_chk fuel) t4
      (some (t.link_parent c).2)) (t.link_parent c).1 (t.link_parent c).2 curr_node key right_half

theorem split_leaf_chk_eq (fuel : Nat) {t : SeqBPlusTree} {x : Nat} {c : Node}
    (hx : t.heap x = some c) (hty : c.type = NodeType.LEAF) (hsz : c.size = 4)
    (hlen : c.key_value.length = 4) (hxn : x ≠ t.next)
    (hrs : ∀ rs, c.right_sibling = some rs → rs ≠ x ∧ rs ≠ t.next ∧ t.heap rs ≠ none) :
    split_leaf_chk fuel t (some x) =
      parent_insert_chk fuel (leaf_cut t x c) x
        (((c.key_value.get? 2).map (fun kv => kv.key)).getD 0) t.next := by
  obtain ⟨e0, e1, e2, e3, he⟩ := list_len4 c.key_value hlen
  cases hr : c.right_sibling with
  | none =>
    simp [split_leaf_chk, hx, hty, hsz, he, hr, arr_blit, Leaf.new, leaf_cut,
      leaf_right, relink, upd, set, Function.update_noteq hxn]
  | some rs =>
    obtain ⟨h1, h2, h3⟩ := hrs rs hr
    cases hn : t.heap rs with
    | none => exact absurd hn h3
    | some rsn =>
      simp [split_leaf_chk, hx, hty, hsz, he, hr, arr_blit, Leaf.new, leaf_cut,
        leaf_right, relink, upd, set, Function.update_noteq hxn, hn,
        Function.update_noteq (Ne.symm h1), Function.update_noteq (Ne.symm h2)]

theorem split_internal_chk_eq (pins : SeqBPlusTree → Nat → Int → Nat → Option SeqBPlusTree)
    {t : SeqBPlusTree} {x : Nat} {c : Node} (hx : t.heap x = some c)
    (hty : c.type = NodeType.INTERNAL) (hsz : c.size = 4) :
    split_internal_chk pins t (some x) = split_internal_with pins t (some x) := by
  simp only [split_internal_chk, hx, Option.some_seqBind, hty, hsz, ORDER, and_self, if_true]

end SeqBPlusTree


namespace Good

/-- In the split cascade above a full internal node every call of `split_internal` gets an
internal node with exactly ORDER separators: the checked cascade is the cascade. -/
theorem cascade_chk : ∀ (k : Nat) (t : SeqBPlusTree) (lvl : Nat → Nat) (lo hi : Nat → Int)
    (x : Nat) (c : Node), Good t lvl lo hi (some x) none → t.heap x = some c →
    c.type = NodeType.INTERNAL → c.size = 4 → lvl t.root - lvl x = k → ∀ f, k < f →
    SeqBPlusTree.split_internal_chk (SeqBPlusTree.parent_insert_chk f) t (some x) =
      SeqBPlusTree.split_internal_with (SeqBPlusTree.parent_insert f) t (some x) := by
  intro k
  induction k with
  | zero =>
    intro t lvl lo hi x c hg hx hty hsz hk f hf
    obtain ⟨f, rfl⟩ : ∃ g, f = g + 1 := ⟨f - 1, by omega⟩
    cases hp : c.parent with
    | some p =>
      obtain ⟨pn, i, hpn, _, _, _, h4, _, _⟩ := hg.parent_info hx hp
      have := (hg.nodes p pn hpn).lvl_le
      omega
    | none =>
      obtain ⟨s, X, R, ds, e1, st, _, T, X1, b, eqs, hTx, hla, hb⟩ :=
        hg.internal_split_root hx hty hsz hp f
      rw [SeqBPlusTree.split_internal_chk_eq _ hx hty hsz, eqs, e1,
        SeqBPlusTree.parent_insert_chk_succ, hTx]
      simp only [Option.some_bind, hla, hb, Bool.false_eq_true, if_false]
  | succ k ih =>
    intro t lvl lo hi x c hg hx hty hsz hk f hf
    obtain ⟨f, rfl⟩ : ∃ g, f = g + 1 := ⟨f - 1, by omega⟩
    cases hp : c.parent with
    | none =>
      have := (hg.nodes x c hx).is_root hp
      rw [this] at hk; omega
    | some p =>
      obtain ⟨s, pn, i, X, R, ds, e1, st, _, T, X1, eqs, hTx, hpar, hla⟩ :=
        hg.internal_split_step hx hty hsz hp
      obtain ⟨f1, f2, f3, f4, f5, f6, f7, f8, f9, f10, hin⟩ := st.facts
      obtain ⟨r1, r2, r3, r4⟩ := st.root_facts
      have hg2 := st.good_after
      rw [SeqBPlusTree.split_internal_chk_eq _ hx hty hsz, eqs, e1 f,
        SeqBPlusTree.parent_insert_chk_succ, hTx]
      simp only [Option.some_bind, SeqBPlusTree.link_parent, hpar, hla]
      by_cases hfull : pn.isFull = true
      · have hs3 : pn.size = 3 := by
          simp only [Node.isFull, ORDER, decide_eq_true_eq] at hfull
          omega
        rw [if_pos hs3] at hg2
        rw [if_pos hfull, if_pos hfull]
        have hk2 : Function.update lvl t.next (lvl x) s.root -
            Function.update lvl t.next (lvl x) p = k := by
          rw [st.root_eq, Function.update_noteq r1, Function.update_noteq f9]
          omega
        exact ih s _ _ _ p (link_res pn i (c.sep 2) x t.next) hg2 st.hP f1
            (by show pn.size + 1 = 4; omega) hk2 f (by omega)
      · rw [if_neg hfull, if_neg hfull]

end Good

namespace Good

variable {t : SeqBPlusTree} {lvl : Nat → Nat} {lo hi : Nat → Int}

/-- The call of `split_leaf` on a leaf with ORDER entries, and every call of `split_internal`
below it, passes its check: the checked split is the split. -/
theorem split_leaf_chk_ok {x : Nat} {c : Node} (hg : Good t lvl lo hi (some x) none)
    (hx : t.heap x = some c) (hty : c.type = NodeType.LEAF) (hsz : c.size = 4) :
    SeqBPlusTree.split_leaf_chk t.next t (some x) =
      SeqBPlusTree.split_leaf t.next t (some x) := by
  have hfuel := hg.fuel_ok
  obtain ⟨f, hf⟩ : ∃ f, t.next = f + 1 := ⟨t.next - 1, by omega⟩
  rw [hf]
  have hl := hg.leaf_good hx hty
  have hl0 := hl.lvl0
  have hxn : x ≠ t.next := by have := hg.live_lt hx; omega
  cases hp : c.parent with
  | none =>
    obtain ⟨s, X, R, e1, st, hXe, hRe, _, X1, b, hTx, hla, hb⟩ :=
      hg.leaf_split_root hx hty hsz hp f
    have hroot : x = t.root := (hg.nodes x c hx).is_root hp
    obtain ⟨rn, r1, r2, r3, r4⟩ := hg.root_live
    rw [← hroot, hx] at r1; cases r1
    rw [e1, SeqBPlusTree.split_leaf_chk_eq (f + 1) hx hty hsz hl.len hxn
      (by intro rs h; rw [r4] at h; cases h), SeqBPlusTree.parent_insert_chk_succ, hTx]
    simp only [Option.some_bind, hla, hb, Bool.false_eq_true, if_false]
  | some p =>
    obtain ⟨s, pn, i, X, R, h1, st, hXe, hRe, _⟩ := hg.leaf_split hx hty hsz hp
    obtain ⟨f1, f2, f3, f4, f5, f6, f7, f8, f9, f10, hin⟩ := st.facts
    obtain ⟨r1, r2, r3, r4⟩ := st.root_facts
    have hg2 := st.good_after
    have hrs : ∀ rs, c.right_sibling = some rs → rs ≠ x ∧ rs ≠ t.next ∧ t.heap rs ≠ none := by
      intro rs hr
      obtain ⟨rsn, g1, g2, g3, g4⟩ := hg.right_info _ x c rs rfl hx hr
      refine ⟨?_, ?_, by rw [g1]; simp⟩
      · intro h
        rw [h] at g4
        obtain ⟨e0, e1, e2, e3, he, k0, k1, k2, k3, k4⟩ := hl.four hsz
        omega
      · have := hg.live_lt g1; omega
    have hTx : (t.leaf_cut x c).heap x =
        some { c with size := c.size / 2, right_sibling := some t.next } := by
      rw [SeqBPlusTree.leaf_cut_heap t x c x hxn, if_pos rfl]
    rw [SeqBPlusTree.split_leaf_eq (f + 1) hx hty hsz hl.len hxn hrs,
      SeqBPlusTree.split_leaf_chk_eq (f + 1) hx hty hsz hl.len hxn hrs,
      SeqBPlusTree.parent_insert_step hTx hp h1 f, SeqBPlusTree.parent_insert_chk_succ, hTx]
    simp only [Option.some_bind, SeqBPlusTree.link_parent, hp, h1]
    by_cases hfull : pn.isFull = true
    · have hs3 : pn.size = 3 := by
        simp only [Node.isFull, ORDER, decide_eq_true_eq] at hfull
        omega
      rw [if_pos hs3] at hg2
      rw [if_pos hfull, if_pos hfull]
      exact hg2.cascade_chk _ s _ _ _ p (link_res pn i _ x t.next) st.hP f1
          (by show pn.size + 1 = 4; omega) rfl f (by
            rw [st.root_eq, Function.update_noteq r1, Function.update_noteq f9]
            omega)
    · rw [if_neg hfull, if_neg hfull]

end Good

/-- C26: on every reachable tree, for every `insert` call with a key in the range of `int`,
every call of `split_leaf` and `split_internal` made during the insert gets a live node of
the right variant with exactly ORDER entries or separators: `insert_chk`, in which any other
argument of such a call (and so the branch that reports and returns without a split) is a
fault, returns, and returns what `insert` returns. -/
theorem split_guards_unreachable (t : SeqBPlusTree) (hr : Reachable t) (key value : Int)
    (h1 : INT_MIN ≤ key) (h2 : key ≤ INT_MAX) :
    ∃ s b, t.insert_chk key value = some (s, b) ∧ t.insert key value = some (s, b) := by
  obtain ⟨lvl, lo, hi, hg⟩ := hr.inv
  obtain ⟨s, b, e, -⟩ := hg.insert_ok key value h1 h2
  refine ⟨s, b, ?_, e⟩
  rw [← e]
  obtain ⟨x, xn, hx, hxn, hty, b1, b2⟩ := hg.search_leaf key h1 h2
  cases hfi : (xn.key_value.take xn.size).findIdx? (fun kv => decide (key = kv.key)) with
  | some i =>
    simp only [SeqBPlusTree.insert_chk, SeqBPlusTree.insert, hx, Option.seqBind_eq,
      Option.some_bind, hxn, hfi]
  | none =>
    obtain ⟨e1, hg1, hk, hsz, hty1, hst⟩ := hg.insert_fresh key value hx hxn hty b1 b2 hfi
    obtain ⟨hle, hlen⟩ := hg.leaf_size_le hxn hty
    have e2 : t.insert_chk key value =
        (if xn.isFull then
          (SeqBPlusTree.split_leaf_chk t.fuel (t.set x (ins_node xn key value)) (some x)).map
            (fun t2 => (t2, true))
         else some (t.set x (ins_node xn key value), true)) := by
      simp only [SeqBPlusTree.insert_chk, hx, Option.seqBind_eq, Option.some_bind, hxn, hfi,
        arr_set, hlen, show xn.size < 4 by omega, if_true]
      rfl
    rw [e1, e2]
    by_cases hfull : xn.isFull = true
    · have hs3 : xn.size = 3 := by
        simp only [Node.isFull, ORDER, decide_eq_true_eq] at hfull
        omega
      rw [if_pos hs3] at hg1
      rw [if_pos hfull, if_pos hfull]
      have hx1 : (t.set x (ins_node xn key value)).heap x = some (ins_node xn key value) := by
        rw [SeqBPlusTree.set_heap, Function.update_same]
      have e3 : SeqBPlusTree.split_leaf_chk t.fuel (t.set x (ins_node xn key value)) (some x) =
          SeqBPlusTree.split_leaf t.fuel (t.set x (ins_node xn key value)) (some x) :=
        hg1.split_leaf_chk_ok hx1 hty1 (by rw [hsz, hs3])
      rw [e3]
    · rw [if_neg hfull, if_neg hfull]

/-- The calls `insert(k, k)` for k = 1..9: the root is then a full internal node over five
leaves, the last of them with three entries. -/
def ascendingCalls : List Op :=
  [1, 2, 3, 4, 5, 6, 7, 8, 9].map (fun k => Op.insert k k)

theorem split_guards_unreachable_witness :
    Reachable (SeqBPlusTree.after ascendingCalls) ∧ INT_MIN ≤ (10 : Int) ∧
    (10 : Int) ≤ INT_MAX ∧
    ∃ s b, (SeqBPlusTree.after ascendingCalls).insert_chk 10 10 = some (s, b) ∧
      (SeqBPlusTree.after ascendingCalls).insert 10 10 = some (s, b) :=
  have h := Reachable.after ascendingCalls (by decide) (by decide!)
  ⟨h, by decide, by decide, split_guards_unreachable _ h 10 10 (by decide) (by decide)⟩


/-- The node `b` is the node `a` or lies below it: there is a path of children from `a`
to `b`. -/
def Descends (h : Nat → Option Node) (a b : Nat) : Prop :=
  ∃ l : List Nat, l.head? = some a ∧ l.getLast? = some b ∧ l.Chain' (ChildOf h)

/-- The slot `i` of the node `A` separates `L` from `x`: child `i` of `A` leads to `L` and
child `i + 1` leads to `x`, so that `A` is the first common ancestor of the two and slot `i`
is the one on the side of `L`. -/
def SepSlot (h : Nat → Option Node) (A i L x : Nat) : Prop :=
  ∃ An c1 c2, h A = some An ∧ An.type = NodeType.INTERNAL ∧ i < An.size ∧
    An.kid i = some c1 ∧ An.kid (i + 1) = some c2 ∧ Descends h c1 L ∧ Descends h c2 x

namespace Adj

variable {t : SeqBPlusTree} {lvl : Nat → Nat} {lo hi : Nat → Int} {ov un : Option Nat}
  {A i N1 N2 : Nat} {An : Node} {up1 up2 : List Nat}

/-- The separator slot between two adjacent siblings is a slot of their first common
ancestor. -/
theorem sep_slot (adj : Adj t.heap A An i up1 up2 N1 N2) (hg : Good t lvl lo hi ov un) :
    SepSlot t.heap A i N1 N2 := by
  obtain ⟨c1, c2, c1n, c2n, a1, a2, a3, a4, -⟩ := adj.tops hg
  have hrel : ∀ (f : Node → Nat), (∀ m, f m ≤ m.size) → ∀ a b,
      ((some b).bind (fun u => (t.heap u).bind (fun m => m.kid (f m))) = some a) →
      ChildOf t.heap b a := by
    intro f hf a b h
    simp only [Option.some_bind] at h
    cases hb : t.heap b with
    | none => rw [hb] at h; cases h
    | some m =>
      rw [hb] at h
      exact ⟨m, hb, hg.internal_of_kid hb h, f m, hf m, h⟩
  refine ⟨An, c1, c2, adj.hA, adj.internal hg, adj.hi, a1, a2, ?_, ?_⟩
  · refine ⟨up1.reverse, ?_, ?_, ?_⟩
    · rw [List.head?_reverse, a3]
    · rw [List.getLast?_reverse, adj.h1]
    · rw [List.chain'_reverse]
      exact adj.c1.imp (fun {a b} h => hrel (fun m => m.size) (fun _ => le_refl _) a b h)
  · refine ⟨up2.reverse, ?_, ?_, ?_⟩
    · rw [List.head?_reverse, a4]
    · rw [List.getLast?_reverse, adj.h2]
    · rw [List.chain'_reverse]
      exact adj.c2.imp (fun {a b} h => hrel (fun _ => 0) (fun _ => Nat.zero_le _) a b h)

end Adj

/-- C23: in a reachable tree, when `remove` takes an entry from a leaf `x` with two entries
whose left sibling `L` has more than two, the leaf borrows from `L`: the last entry `e` of `L`
becomes the first entry of `x` and leaves `L`; the nodes are the same as before with the same
counters, every internal node keeps its size and its children, and the only separator that
changes is the one in the slot `j` of the first common ancestor `A` of `L` and `x` that leads
to `L`: it becomes the key of `e`. The parents of the two leaves need not be the same. -/
theorem borrow_leaf_left_frame (t : SeqBPlusTree) (hr : Reachable t) (key : Int)
    (x L i : Nat) (n ln : Node) (h1 : INT_MIN ≤ key) (h2 : key ≤ INT_MAX)
    (hs : SeqBPlusTree.leaf_search t.heap key t.fuel t.root = some x)
    (hn : t.heap x = some n)
    (hfi : (n.key_value.take n.size).findIdx? (fun kv => decide (key = kv.key)) = some i)
    (hsz : n.size = 2) (hl : n.left_sibling = some L) (hL : t.heap L = some ln)
    (hlsz : 2 < ln.size) :
    ∃ s A An j e,
      SeqBPlusTree.borrow_leaf (t.set x (del_node n i)) x L true = some s ∧
      t.remove key = some (s, true) ∧
      ln.entries.getLast? = some e ∧
      (∃ xm, s.heap x = some xm ∧ xm.entries = e :: n.entries.eraseIdx i) ∧
      (∃ lm, s.heap L = some lm ∧ lm.entries = ln.entries.dropLast) ∧
      SepSlot (t.set x (del_node n i)).heap A j L x ∧ t.heap A = some An ∧
      (∃ Am, s.heap A = some Am ∧ Am.type = An.type ∧ Am.size = An.size ∧
        (∀ k, Am.kid k = An.kid k) ∧
        (∀ k, Am.sep k = if k = j then e.key else An.sep k) ∧ e.key ≠ An.sep j) ∧
      (∀ a, a ≠ x → a ≠ L → a ≠ A → s.heap a = t.heap a) ∧
      (∀ a, (s.heap a).isSome = (t.heap a).isSome) ∧
      s.node_count = t.node_count ∧ s.next = t.next ∧ s.root = t.root ∧
      s.depth = t.depth := by
  obtain ⟨lvl, lo, hi, hg⟩ := hr.inv
  obtain ⟨x2, xn, hx2, hxn, hty, b1, b2⟩ := hg.search_leaf key h1 h2
  rw [hs] at hx2; cases hx2
  rw [hn] at hxn; cases hxn
  obtain ⟨e1, hg1, hk, hsz1, hty1, hent, hi1, -, hst⟩ := hg.remove_step key hs hn hty b1 b2 i hfi
  rw [if_pos hsz] at hg1
  have hcsz : (del_node n i).size = 1 := by omega
  have hx1 : (t.set x (del_node n i)).heap x = some (del_node n i) := by
    rw [SeqBPlusTree.set_heap, Function.update_same]
  obtain ⟨ln2, l1, l2, l3, l4⟩ := hg.left_info _ x n L rfl hn hl
  rw [hL] at l1; cases l1
  have hlty : ln.type = NodeType.LEAF := (hg.type_of_lvl hL hn l3).trans hty
  have hLx : L ≠ x := by
    intro e
    have := hg.range_ne hn
    rw [e] at l4; omega
  have hL1 : (t.set x (del_node n i)).heap L = some ln := by
    rw [SeqBPlusTree.set_heap, Function.update_noteq hLx]; exact hL
  have hl1 : (del_node n i).left_sibling = some L := hl
  have hl3 : ln.size = 3 := by
    have := (hg.leaf_size_le hL hlty).1
    omega
  obtain ⟨s, lo2, hi2, q1, q2, q3, q4, q5, q6, A, An, j, up1, up2, e, adj, lb⟩ :=
    hg1.borrow_leaf_left hx1 hty1 hcsz hl1 hL1 hl3
  obtain ⟨xm, m1, m2, -⟩ := lb.leaf
  obtain ⟨lm, m3, m4, -⟩ := lb.sib
  obtain ⟨m5, m6⟩ := lb.anc
  obtain ⟨-, g1, g2, g3, g4, g5, g6⟩ := adj.mem2 hg1 adj.N2_mem
  have hAx : A ≠ x := by intro e; rw [e] at g3; omega
  obtain ⟨-, f1, f2, f3, f4, f5, f6⟩ := adj.mem1 hg1 adj.N1_mem
  have hAL : A ≠ L := by intro e; rw [e] at f3; omega
  have hA : t.heap A = some An := by
    rw [SeqBPlusTree.set_heap, Function.update_noteq hAx] at m5; exact m5
  obtain ⟨s4, s5⟩ := hg1.size_le_four adj.hA (adj.internal hg1)
  have hd : (del_node n i).isDeficient = true := by
    rw [Node.leaf_deficient hty1]; simp [hcsz]
  have hbm : SeqBPlusTree.borrow_merge_leaf t.fuel (t.set x (del_node n i)) x = some s := by
    simp only [SeqBPlusTree.borrow_merge_leaf, hx1, Option.some_seqBind, hl1, hL1,
      Node.leaf_slack hlty, hl3, le_refl, decide_True, if_true]
    exact q1
  refine ⟨s, A, An, j, e, q1, ?_, lb.last, ⟨xm, m1, by rw [m2, hent]⟩, ⟨lm, m3, m4⟩,
    adj.sep_slot hg1, hA, ⟨_, m6, rfl, rfl, ?_, ?_, ne_of_lt lb.moved⟩, ?_, ?_, lb.count, q6,
    q4, q5⟩
  · rw [e1, if_pos hd, hbm]; rfl
  · intro k; exact Node.set_sep_kid An j e.key k
  · intro k
    by_cases hk : k = j
    · rw [if_pos hk, hk]; exact Node.set_sep_same An j e.key (by have := adj.hi; omega)
    · rw [if_neg hk]; exact Node.set_sep_ne An j e.key k hk
  · intro a a1 a2 a3
    rw [lb.others a a1 a2 a3, SeqBPlusTree.set_heap, Function.update_noteq a1]
  · intro a
    by_cases a1 : a = x
    · rw [a1, m1, hn]; rfl
    · by_cases a2 : a = L
      · rw [a2, m3, hL]; rfl
      · by_cases a3 : a = A
        · rw [a3, m6, hA]; rfl
        · rw [lb.others a a1 a2 a3, SeqBPlusTree.set_heap, Function.update_noteq a1]

theorem borrow_leaf_left_frame_witness :
    Reachable (SeqBPlusTree.after scenarioCalls) ∧
    SeqBPlusTree.leaf_search (SeqBPlusTree.after scenarioCalls).heap 60
      (SeqBPlusTree.after scenarioCalls).fuel (SeqBPlusTree.after scenarioCalls).root = some 2 ∧
    (SeqBPlusTree.after scenarioCalls).heap 2 =
      some ⟨NodeType.LEAF, 2, some 7, some 6, none, 2,
        [⟨60, 60⟩, ⟨90, 90⟩, ⟨0, 0⟩, ⟨0, 0⟩], []⟩ ∧
    (SeqBPlusTree.after scenarioCalls).heap 6 =
      some ⟨NodeType.LEAF, 3, some 7, some 4, some 2, 6,
        [⟨50, 50⟩, ⟨55, 55⟩, ⟨58, 58⟩, ⟨0, 0⟩], []⟩ ∧
    ∃ s A An j e, (SeqBPlusTree.after scenarioCalls).remove 60 = some (s, true) ∧
      e = ⟨58, 58⟩ ∧
      (∃ xm, s.heap 2 = some xm ∧ xm.entries = [e, ⟨90, 90⟩]) ∧
      (∃ lm, s.heap 6 = some lm ∧ lm.entries = [⟨50, 50⟩, ⟨55, 55⟩]) ∧
      (SeqBPlusTree.after scenarioCalls).heap A = some An ∧
      (∃ Am, s.heap A = some Am ∧ Am.sep j = 58) ∧
      (∀ a, a ≠ 2 → a ≠ 6 → a ≠ A → s.heap a = (SeqBPlusTree.after scenarioCalls).heap a) := by
  have hs : SeqBPlusTree.leaf_search (SeqBPlusTree.after scenarioCalls).heap 60
      (SeqBPlusTree.after scenarioCalls).fuel (SeqBPlusTree.after scenarioCalls).root =
      some 2 := by decide!
  have hn : (SeqBPlusTree.after scenarioCalls).heap 2 =
      some ⟨NodeType.LEAF, 2, some 7, some 6, none, 2,
        [⟨60, 60⟩, ⟨90, 90⟩, ⟨0, 0⟩, ⟨0, 0⟩], []⟩ := by decide!
  have hL : (SeqBPlusTree.after scenarioCalls).heap 6 =
      some ⟨NodeType.LEAF, 3, some 7, some 4, some 2, 6,
        [⟨50, 50⟩, ⟨55, 55⟩, ⟨58, 58⟩, ⟨0, 0⟩], []⟩ := by decide!
  obtain ⟨s, A, An, j, e, a1, a2, a3, a4, a5, a6, a7, ⟨Am, b1, b2, b3, b4, b5, b6⟩, a9, a10⟩ :=
    borrow_leaf_left_frame _ scenarioCalls_reachable 60 2 6 0 _ _ (by decide) (by decide) hs hn
      (by decide) rfl rfl hL (by decide)
  have he : e = ⟨58, 58⟩ := (Option.some.inj a3).symm
  refine ⟨scenarioCalls_reachable, hs, hn, hL, s, A, An, j, e, a2, he, ?_, a5, a7,
    ⟨Am, b1, ?_⟩, a9⟩
  · obtain ⟨xm, c1, c2⟩ := a4
    exact ⟨xm, c1, c2⟩
  · rw [b5 j, if_pos rfl, he]


namespace Good

variable {t : SeqBPlusTree} {lvl : Nat → Nat} {lo hi : Nat → Int} {ov un : Option Nat}

/-- Nothing in a tree that satisfies the invariant refers to an address that is not live. -/
theorem no_ref_dead (hg : Good t lvl lo hi ov un) {x : Nat} (hx : t.heap x = none)
    {a : Nat} {m : Node} (ha : t.heap a = some m) :
    m.left_sibling ≠ some x ∧ m.right_sibling ≠ some x ∧ m.parent ≠ some x ∧
      ∀ j, j ≤ m.size → m.kid j ≠ some x := by
  refine ⟨?_, ?_, ?_, ?_⟩
  · intro h
    obtain ⟨bn, b1, -⟩ := hg.left_info _ a m x rfl ha h
    rw [hx] at b1; cases b1
  · intro h
    obtain ⟨bn, b1, -⟩ := hg.right_info _ a m x rfl ha h
    rw [hx] at b1; cases b1
  · intro h
    obtain ⟨pn, i, b1, -⟩ := hg.parent_info ha h
    rw [hx] at b1; cases b1
  · intro j hj h
    obtain ⟨cn, b1, -⟩ := hg.kid_live ha hj h
    rw [hx] at b1; cases b1

/-- The leaf merge that `borrow_merge_leaf` chooses for a leaf with one entry whose sibling
(the left one, or the right one when there is no left one) has two entries. -/
theorem leaf_merge_any {x S : Nat} {cn sn : Node} {dir : Bool}
    (hg : Good t lvl lo hi none (some x))
    (hx : t.heap x = some cn) (hcty : cn.type = NodeType.LEAF) (hcsz : cn.size = 1)
    (hsib : (cn.left_sibling = some S ∧ dir = true) ∨
      (cn.left_sibling = none ∧ cn.right_sibling = some S ∧ dir = false))
    (hS : t.heap S = some sn) (hssz : sn.size ≤ 2) :
    ∃ s pm lo2 hi2 p pn c, cn.parent = some p ∧ t.heap p = some pn ∧
      (∀ bmi, SeqBPlusTree.merge_leaf_with bmi t x S dir =
        (if pm.isDeficient then bmi s p else some s)) ∧
      s.heap p = some pm ∧ pm.type = NodeType.INTERNAL ∧ pm.size + 1 = pn.size ∧
      pm.parent = pn.parent ∧
      Good s lvl lo2 hi2 none (if pm.size = 0 then some p else none) ∧
      (∀ kv, s.Stored kv ↔ t.Stored kv) ∧ s.root = t.root ∧ s.depth = t.depth ∧
      s.next = t.next ∧ LeafMerged t s x S cn sn pn pm c dir ∧
      (∀ f, SeqBPlusTree.borrow_merge_leaf f t x = SeqBPlusTree.merge_leaf f t x S dir) := by
  obtain ⟨p, hcp⟩ : ∃ p, cn.parent = some p := by
    cases hp : cn.parent with
    | some p => exact ⟨p, rfl⟩
    | none =>
      have hroot := (hg.nodes x cn hx).is_root hp
      obtain ⟨rt, r1, r2, r3, r4⟩ := hg.root_live
      rw [← hroot, hx] at r1; cases r1
      rcases hsib with ⟨h, -⟩ | ⟨-, h, -⟩
      · rw [h] at r3; cases r3
      · rw [h] at r4; cases r4
  obtain ⟨pn, c, kr, hp, hpty, hc, hkc, hlp, hs4, hlen, -⟩ := hg.slot_of hx hcp
  have hin := hg.internal_good hp hpty
  have hxp : x ≠ p := by intro e; rw [e] at hlp; omega
  rcases hsib with ⟨hl, rfl⟩ | ⟨hl, hr, rfl⟩
  · obtain ⟨ln, hL, l2, l3, l4⟩ := hg.left_info _ x cn S rfl hx hl
    rw [hS] at hL; cases hL
    have hlty : sn.type = NodeType.LEAF := (hg.type_of_lvl hS hx l3).trans hcty
    have hLx : S ≠ x := by
      intro e
      have := hg.range_ne hx
      rw [e] at l4; omega
    obtain ⟨lp, hlpar⟩ := hg.parent_of_sibling hS l2
    have h2 : sn.size = 2 := by
      rcases hg.leaf_sizes hS hlty hLx hlpar with h | h
      · exact h
      · omega
    have hbm : ∀ f, SeqBPlusTree.borrow_merge_leaf f t x =
        SeqBPlusTree.merge_leaf f t x S true := by
      intro f
      simp only [SeqBPlusTree.borrow_merge_leaf, hx, Option.some_seqBind, hl, hS,
        Node.leaf_slack hlty, h2, show ¬ 3 ≤ 2 by omega, decide_False, Bool.false_eq_true,
        if_false]
    by_cases hlast : c = pn.size
    · rw [hlast] at hkc
      obtain ⟨s, pm, lo2, hi2, e1, e2, e3, e4, e5, e6, e7, e8, e9, e10, e11⟩ :=
        hg.merge_leaf_last hx hcty hcsz hl hS h2 hcp hp hkc
      exact ⟨s, pm, lo2, hi2, p, pn, pn.size, hcp, hp, e1, e2, e3, e4, e5, e6, e7, e8, e9, e10,
        e11, hbm⟩
    · obtain ⟨s, pm, lo2, hi2, e1, e2, e3, e4, e5, e6, e7, e8, e9, e10, e11⟩ :=
        hg.merge_leaf_mid hx hcty hcsz hl hS h2 hcp hp hkc (by omega)
      exact ⟨s, pm, lo2, hi2, p, pn, c, hcp, hp, e1, e2, e3, e4, e5, e6, e7, e8, e9, e10,
        e11, hbm⟩
  · obtain ⟨rn, hR, r2, r3, r4⟩ := hg.right_info _ x cn S rfl hx hr
    rw [hS] at hR; cases hR
    have hrty : sn.type = NodeType.LEAF := (hg.type_of_lvl hS hx r3).trans hcty
    have hRx : S ≠ x := by
      intro e
      have := hg.range_ne hx
      rw [e] at r4; omega
    obtain ⟨pn2, q1, -, hk0⟩ := hg.first_of_no_left hx hcp hl
    rw [hp] at q1; cases q1
    have hs1 : 1 ≤ pn.size := by
      rcases hin.size_ge with h | h
      · exact h
      · exact absurd (Option.some.inj h) hxp
    obtain ⟨R, rn2, b1, hR2, b3, b4, -⟩ := hin.kids 1 hs1
    have hRS : R = S := by
      have hsib := (hin.sib_in 0 (by omega)).1
      rw [hk0, b1] at hsib
      simp only [rightOf, Option.some_bind, hx] at hsib
      rw [hr] at hsib
      exact (Option.some.inj hsib).symm
    subst hRS
    rw [hS] at hR2; cases hR2
    have h2 : sn.size = 2 := by
      rcases hg.leaf_sizes hS hrty hRx b3 with h | h
      · exact h
      · omega
    have hbm : ∀ f, SeqBPlusTree.borrow_merge_leaf f t x =
        SeqBPlusTree.merge_leaf f t x R false := by
      intro f
      simp only [SeqBPlusTree.borrow_merge_leaf, hx, Option.some_seqBind, hl, hr, hS,
        Node.leaf_slack hrty, h2, show ¬ 3 ≤ 2 by omega, decide_False, Bool.false_eq_true,
        if_false]
    obtain ⟨s, pm, lo2, hi2, e1, e2, e3, e4, e5, e6, e7, e8, e9, e10, e11⟩ :=
      hg.merge_leaf_right hx hcty hcsz hl hr hS h2 hcp hp
    exact ⟨s, pm, lo2, hi2, p, pn, 0, hcp, hp, e1, e2, e3, e4, e5, e6, e7, e8, e9, e10,
      e11, hbm⟩

end Good

/-- C24: in a reachable tree, when `remove` takes an entry from a leaf `x` with two entries
and the sibling `S` that `borrow_merge_leaf` looks at (the left one, or the right one when
there is no left one) has two entries, `x` is merged into `S`. In the state in which
`merge_leaf` looks at the parent, `S` holds the entries of `S` and the remaining entry of `x`
in ascending key order, `x` is released and no sibling, parent or child pointer of a live node
refers to it, `S` has taken the place of `x` in the sibling chain, the parent of `x` has one
slot less with the other children in the same order, and `node_count` is one less. -/
theorem leaf_merge_effect (t : SeqBPlusTree) (hr : Reachable t) (key : Int)
    (x S i : Nat) (n sn : Node) (dir : Bool) (h1 : INT_MIN ≤ key) (h2 : key ≤ INT_MAX)
    (hs : SeqBPlusTree.leaf_search t.heap key t.fuel t.root = some x)
    (hn : t.heap x = some n)
    (hfi : (n.key_value.take n.size).findIdx? (fun kv => decide (key = kv.key)) = some i)
    (hsz : n.size = 2)
    (hsib : (n.left_sibling = some S ∧ dir = true) ∨
      (n.left_sibling = none ∧ n.right_sibling = some S ∧ dir = false))
    (hS : t.heap S = some sn) (hssz : sn.size ≤ 2) :
    ∃ s p pn pm c sm,
      (∀ f, SeqBPlusTree.borrow_merge_leaf f (t.set x (del_node n i)) x =
        SeqBPlusTree.merge_leaf f (t.set x (del_node n i)) x S dir) ∧
      (∀ bmi, SeqBPlusTree.merge_leaf_with bmi (t.set x (del_node n i)) x S dir =
        (if pm.isDeficient then bmi s p else some s)) ∧
      t.remove key =
        (if pm.isDeficient then SeqBPlusTree.borrow_merge_internal t.fuel s p
          else some s).map (fun u => (u, true)) ∧
      s.heap S = some sm ∧ sm.type = NodeType.LEAF ∧
      sm.entries = (if dir then sn.entries ++ n.entries.eraseIdx i
        else n.entries.eraseIdx i ++ sn.entries) ∧
      (sm.entries.map (fun kv => kv.key)).Pairwise (fun a b => a < b) ∧
      s.heap x = none ∧
      (∀ a m, s.heap a = some m → m.left_sibling ≠ some x ∧ m.right_sibling ≠ some x ∧
        m.parent ≠ some x ∧ ∀ j, j ≤ m.size → m.kid j ≠ some x) ∧
      sm.left_sibling = (if dir then sn.left_sibling else n.left_sibling) ∧
      sm.right_sibling = (if dir then n.right_sibling else sn.right_sibling) ∧
      (dir = true → ∀ r, n.right_sibling = some r →
        ∃ rm, s.heap r = some rm ∧ rm.left_sibling = some S) ∧
      n.parent = some p ∧ t.heap p = some pn ∧ s.heap p = some pm ∧
      pm.size + 1 = pn.size ∧ c ≤ pn.size ∧ pn.kid c = some x ∧
      (∀ j, j ≤ pm.size → pm.kid j = if j < c then pn.kid j else pn.kid (j + 1)) ∧
      (∀ a, a ≠ x → ((s.heap a).isSome = (t.heap a).isSome)) ∧
      s.node_count = t.node_count - 1 := by
  obtain ⟨lvl, lo, hi, hg⟩ := hr.inv
  obtain ⟨x2, xn, hx2, hxn, hty, b1, b2⟩ := hg.search_leaf key h1 h2
  rw [hs] at hx2; cases hx2
  rw [hn] at hxn; cases hxn
  obtain ⟨e1, hg1, hk, hsz1, hty1, hent, hi1, -, hst⟩ := hg.remove_step key hs hn hty b1 b2 i hfi
  rw [if_pos hsz] at hg1
  have hcsz : (del_node n i).size = 1 := by omega
  have hx1 : (t.set x (del_node n i)).heap x = some (del_node n i) := by
    rw [SeqBPlusTree.set_heap, Function.update_same]
  have hSx : S ≠ x := by
    intro e
    rw [e] at hS hsib
    rcases hsib with ⟨h, -⟩ | ⟨-, h, -⟩
    · obtain ⟨bn, q1, q2, q3, q4⟩ := hg.left_info _ x n x rfl hn h
      have := hg.range_ne hn
      omega
    · obtain ⟨bn, q1, q2, q3, q4⟩ := hg.right_info _ x n x rfl hn h
      have := hg.range_ne hn
      omega
  have hS1 : (t.set x (del_node n i)).heap S = some sn := by
    rw [SeqBPlusTree.set_heap, Function.update_noteq hSx]; exact hS
  obtain ⟨s, pm, lo2, hi2, p, pn, c, hcp, hp, q1, q2, q3, q4, q5, q6, q7, q8, q9, q10, lm, hbm⟩ :=
    hg1.leaf_merge_any hx1 hty1 hcsz hsib hS1 hssz
  obtain ⟨sm, m1, m2, m3, m4, m5⟩ := lm.merged
  have hpx : p ≠ x := by
    intro e
    rw [e, lm.gone] at q2; cases q2
  have hp0 : t.heap p = some pn := by
    rw [SeqBPlusTree.set_heap, Function.update_noteq hpx] at hp; exact hp
  have hd : (del_node n i).isDeficient = true := by
    rw [Node.leaf_deficient hty1]; simp [hcsz]
  refine ⟨s, p, pn, pm, c, sm, hbm, q1, ?_, m1, m2, by rw [m3, hent], ?_, lm.gone, ?_,
    m4, m5, lm.back, hcp, hp0, q2, q4, lm.slot.1, lm.slot.2, lm.kids, ?_, ?_⟩
  · rw [e1, if_pos hd, hbm t.fuel]
    unfold SeqBPlusTree.merge_leaf
    rw [q1]
  · exact (q6.leaf_good m1 m2).sorted
  · intro a m ha
    exact q6.no_ref_dead lm.gone ha
  · intro a ha
    rw [lm.others a ha, SeqBPlusTree.set_heap, Function.update_noteq ha]
  · rw [lm.count]; rfl

/-- The calls `insert(k, k)` for k = 1..8: a root with three separators over four leaves of
two entries each. -/
def eightCalls : List Op :=
  [1, 2, 3, 4, 5, 6, 7, 8].map (fun k => Op.insert k k)

theorem leaf_merge_effect_witness :
    Reachable (SeqBPlusTree.after eightCalls) ∧
    SeqBPlusTree.leaf_search (SeqBPlusTree.after eightCalls).heap 5
      (SeqBPlusTree.after eightCalls).fuel (SeqBPlusTree.after eightCalls).root = some 4 ∧
    (SeqBPlusTree.after eightCalls).heap 4 =
      some ⟨NodeType.LEAF, 2, some 3, some 2, some 5, 4,
        [⟨5, 5⟩, ⟨6, 6⟩, ⟨7, 7⟩, ⟨8, 8⟩], []⟩ ∧
    (SeqBPlusTree.after eightCalls).heap 2 =
      some ⟨NodeType.LEAF, 2, some 3, some 1, some 4, 2,
        [⟨3, 3⟩, ⟨4, 4⟩, ⟨5, 5⟩, ⟨6, 6⟩], []⟩ ∧
    ∃ s p pn pm c sm,
      (∀ bmi, SeqBPlusTree.merge_leaf_with bmi
          ((SeqBPlusTree.after eightCalls).set 4
            (del_node ⟨NodeType.LEAF, 2, some 3, some 2, some 5, 4,
              [⟨5, 5⟩, ⟨6, 6⟩, ⟨7, 7⟩, ⟨8, 8⟩], []⟩ 0)) 4 2 true =
        (if pm.isDeficient then bmi s p else some s)) ∧
      s.heap 2 = some sm ∧ sm.entries = [⟨3, 3⟩, ⟨4, 4⟩, ⟨6, 6⟩] ∧ s.heap 4 = none ∧
      sm.right_sibling = some 5 ∧
      (SeqBPlusTree.after eightCalls).heap p = some pn ∧ s.heap p = some pm ∧
      pm.size + 1 = pn.size ∧ c ≤ pn.size ∧ pn.kid c = some 4 ∧
      s.node_count = (SeqBPlusTree.after eightCalls).node_count - 1 := by
  have hr : Reachable (SeqBPlusTree.after eightCalls) :=
    Reachable.after eightCalls (by decide) (by decide!)
  have hs : SeqBPlusTree.leaf_search (SeqBPlusTree.after eightCalls).heap 5
      (SeqBPlusTree.after eightCalls).fuel (SeqBPlusTree.after eightCalls).root = some 4 := by
    decide!
  have hn : (SeqBPlusTree.after eightCalls).heap 4 =
      some ⟨NodeType.LEAF, 2, some 3, some 2, some 5, 4,
        [⟨5, 5⟩, ⟨6, 6⟩, ⟨7, 7⟩, ⟨8, 8⟩], []⟩ := by decide!
  have hS : (SeqBPlusTree.after eightCalls).heap 2 =
      some ⟨NodeType.LEAF, 2, some 3, some 1, some 4, 2,
        [⟨3, 3⟩, ⟨4, 4⟩, ⟨5, 5⟩, ⟨6, 6⟩], []⟩ := by decide!
  obtain ⟨s, p, pn, pm, c, sm, a1, a2, a3, a4, a5, a6, a7, a8, a9, a10, a11, a12, a13, a14, a15,
      a16, a17, a18, a19, a20, a21⟩ :=
    leaf_merge_effect _ hr 5 4 2 0 _ _ true (by decide) (by decide) hs hn (by decide) rfl
      (Or.inl ⟨rfl, rfl⟩) hS (by decide)
  exact ⟨hr, hs, hn, hS, s, p, pn, pm, c, sm, a2, a4, a6, a8, a11, a14, a15, a16, a17, a18, a21⟩


namespace SeqBPlusTree

/-- The condition of the first statement of `split_leaf`, under which it writes "Not a valid
leaf or the leaf is not full." to `cerr` and returns:
`curr_node == NULL || LEAF != curr_node->type || !curr_node->isFull()`. -/
def split_leaf_guard (t : SeqBPlusTree) (curr_node : Option Nat) : Option Bool :=
  match curr_node with
  | none => some true
  | some curr => (t.heap curr).map fun c => decide (c.type ≠ NodeType.LEAF) || !c.isFull

/-- The condition of the first statement of `split_internal`, under which it writes "Not a
valid node or the node is not full." to `cerr` and returns:
`curr_node == NULL || !curr_node->isFull()`. -/
def split_internal_guard (t : SeqBPlusTree) (curr_node : Option Nat) : Option Bool :=
  match curr_node with
  | none => some true
  | some curr => (t.heap curr).map fun c => !c.isFull

end SeqBPlusTree

/-- The calls `insert(k, k)` for k = 1, 2, 3: the root is a leaf with ORDER - 1 entries. -/
def threeCalls : List Op := [1, 2, 3].map (fun k => Op.insert k k)

/-- C31, as stated, fails: the root leaf after the inserts of 1, 2, 3 holds 3 < ORDER
entries, the guard of `split_leaf` does not hold for it, and `split_leaf` splits it: a new
leaf and a new root are made, `node_count` and `id_accumulator` grow by 2 and the depth by 1.
The same holds for `split_internal` on an internal root with 3 separators. -/
theorem split_guard_passes_at_order_minus_one :
    ((SeqBPlusTree.after threeCalls).heap 1).map (fun c => (c.type, c.size)) =
      some (NodeType.LEAF, 3) ∧ 3 < ORDER ∧
    SeqBPlusTree.split_leaf_guard (SeqBPlusTree.after threeCalls) (some 1) = some false ∧
    (SeqBPlusTree.split_leaf 3 (SeqBPlusTree.after threeCalls) (some 1)).map
      (fun s => decide (s.node_count = (SeqBPlusTree.after threeCalls).node_count + 2 ∧
        s.id_accumulator = (SeqBPlusTree.after threeCalls).id_accumulator + 2 ∧
        s.depth = (SeqBPlusTree.after threeCalls).depth + 1 ∧
        s.next = (SeqBPlusTree.after threeCalls).next + 2 ∧
        (s.heap 1).map (fun c => c.size) = some 1 ∧
        (s.heap 2).map (fun c => c.size) = some 2)) = some true ∧
    ((SeqBPlusTree.after ascendingCalls).heap 3).map (fun c => (c.type, c.size)) =
      some (NodeType.INTERNAL, 3) ∧
    SeqBPlusTree.split_internal_guard (SeqBPlusTree.after ascendingCalls) (some 3) =
      some false ∧
    (SeqBPlusTree.split_internal 3 (SeqBPlusTree.after ascendingCalls) (some 3)).map
      (fun s => decide (s.node_count = (SeqBPlusTree.after ascendingCalls).node_count + 2 ∧
        s.depth = (SeqBPlusTree.after ascendingCalls).depth + 1)) = some true := by
  decide!

/-- C31 (amended): `split_leaf` and `split_internal`, called on a live node with fewer than
ORDER - 1 entries or separators (a node for which `isFull()` is false), take the branch that
reports the violation and return the tree state as it is: the same store, allocator, root,
`node_count`, `id_accumulator` and `depth`. -/
theorem split_guard_unchanged (f : Nat) (t : SeqBPlusTree) (x : Nat) (c : Node)
    (hx : t.heap x = some c) (hsz : c.size < ORDER - 1) :
    SeqBPlusTree.split_leaf_guard t (some x) = some true ∧
    SeqBPlusTree.split_leaf f t (some x) = some t ∧
    SeqBPlusTree.split_internal_guard t (some x) = some true ∧
    SeqBPlusTree.split_internal f t (some x) = some t := by
  have hnf : c.isFull = false := by
    simp only [Node.isFull, decide_eq_false_iff_not]
    omega
  refine ⟨?_, ?_, ?_, ?_⟩
  · simp [SeqBPlusTree.split_leaf_guard, hx, hnf]
  · simp [SeqBPlusTree.split_leaf, hx, hnf]
  · simp [SeqBPlusTree.split_internal_guard, hx, hnf]
  · simp [SeqBPlusTree.split_internal, SeqBPlusTree.split_internal_with, hx, hnf]

theorem split_guard_unchanged_witness :
    (SeqBPlusTree.after [Op.insert 1 1]).heap 1 =
      some ⟨NodeType.LEAF, 1, none, none, none, 1, [⟨1, 1⟩, ⟨0, 0⟩, ⟨0, 0⟩, ⟨0, 0⟩], []⟩ ∧
    (1 : Nat) < ORDER - 1 ∧
    SeqBPlusTree.split_leaf_guard (SeqBPlusTree.after [Op.insert 1 1]) (some 1) = some true ∧
    SeqBPlusTree.split_leaf 2 (SeqBPlusTree.after [Op.insert 1 1]) (some 1) =
      some (SeqBPlusTree.after [Op.insert 1 1]) ∧
    SeqBPlusTree.split_internal_guard (SeqBPlusTree.after [Op.insert 1 1]) (some 1) =
      some true ∧
    SeqBPlusTree.split_internal 2 (SeqBPlusTree.after [Op.insert 1 1]) (some 1) =
      some (SeqBPlusTree.after [Op.insert 1 1]) :=
  have hx : (SeqBPlusTree.after [Op.insert 1 1]).heap 1 =
      some ⟨NodeType.LEAF, 1, none, none, none, 1, [⟨1, 1⟩, ⟨0, 0⟩, ⟨0, 0⟩, ⟨0, 0⟩], []⟩ := by
    decide!
  ⟨hx, by decide, split_guard_unchanged 2 _ 1 _ hx (by decide)⟩


/-- The call `remove key` on `t` does not return, and what stops it is a null sibling: the
entry is found in the leaf `x` and the shift of the entries behind it is done; then either
`x` itself has no sibling (it is the root), or `x` is merged into a sibling `S` (`merge_leaf`
runs through all its writes, up to its call of `borrow_merge_internal`, whatever that call
does) and the parent `p`, now without separators, has no sibling. -/
def RemoveStopsAtNull (t : SeqBPlusTree) (key : Int) : Prop :=
  t.remove key = none ∧
  ∃ x n i kvs, SeqBPlusTree.leaf_search t.heap key t.fuel t.root = some x ∧
    t.heap x = some n ∧
    (n.key_value.take n.size).findIdx? (fun kv => decide (key = kv.key)) = some i ∧
    arr_shift n.key_value i (n.size - 1) = some kvs ∧
    ((n.left_sibling = none ∧ n.right_sibling = none) ∨
      ∃ S dir s p pm,
        (∀ bmi, SeqBPlusTree.merge_leaf_with bmi
          (t.set x { n with key_value := kvs, size := n.size - 1 }) x S dir = bmi s p) ∧
        s.heap p = some pm ∧ pm.left_sibling = none ∧ pm.right_sibling = none)

namespace Good

variable {t : SeqBPlusTree} {lvl : Nat → Nat} {lo hi : Nat → Int} {ov un : Option Nat}

/-- The sibling that `borrow_merge_leaf` looks at, for a leaf below a parent: the left one,
or the right one when there is no left one; it is a leaf with two or three entries. -/
theorem chosen_sibling {x p : Nat} {cn : Node} (hg : Good t lvl lo hi none (some x))
    (hx : t.heap x = some cn) (hcty : cn.type = NodeType.LEAF)
    (hcp : cn.parent = some p) :
    ∃ S sn dir, ((cn.left_sibling = some S ∧ dir = true) ∨
        (cn.left_sibling = none ∧ cn.right_sibling = some S ∧ dir = false)) ∧
      t.heap S = some sn ∧ sn.type = NodeType.LEAF ∧ (sn.size = 2 ∨ sn.size = 3) := by
  obtain ⟨pn, c, kr, hp, hpty, hc, hkc, hlp, hs4, hlen, -⟩ := hg.slot_of hx hcp
  have hin := hg.internal_good hp hpty
  have hxp : x ≠ p := by intro e; rw [e] at hlp; omega
  cases hl : cn.left_sibling with
  | some L =>
    obtain ⟨ln, hL, l2, l3, l4⟩ := hg.left_info _ x cn L rfl hx hl
    have hlty : ln.type = NodeType.LEAF := (hg.type_of_lvl hL hx l3).trans hcty
    have hLx : L ≠ x := by
      intro e
      have := hg.range_ne hx
      rw [e] at l4; omega
    obtain ⟨lp, hlpar⟩ := hg.parent_of_sibling hL l2
    exact ⟨L, ln, true, Or.inl ⟨rfl, rfl⟩, hL, hlty, hg.leaf_sizes hL hlty hLx hlpar⟩
  | none =>
    obtain ⟨pn2, q1, -, hk0⟩ := hg.first_of_no_left hx hcp hl
    rw [hp] at q1; cases q1
    have hs1 : 1 ≤ pn.size := by
      rcases hin.size_ge with h | h
      · exact h
      · exact absurd (Option.some.inj h) hxp
    obtain ⟨R, rn, b1, hR, b3, b4, -⟩ := hin.kids 1 hs1
    have hr : cn.right_sibling = some R := by
      have hsib := (hin.sib_in 0 (by omega)).1
      rw [hk0, b1] at hsib
      simpa only [rightOf, Option.some_bind, hx] using hsib
    have hrty : rn.type = NodeType.LEAF := (hg.type_of_lvl hR hx (by omega)).trans hcty
    have hRx : R ≠ x := by
      intro e
      obtain ⟨_, r1, r2, r3, r4⟩ := hg.right_info _ x cn R rfl hx hr
      have := hg.range_ne hx
      rw [e] at r4; omega
    exact ⟨R, rn, false, Or.inr ⟨rfl, hr, rfl⟩, hR, hrty, hg.leaf_sizes hR hrty hRx b3⟩

end Good


namespace Good

variable {t : SeqBPlusTree} {lvl : Nat → Nat} {lo hi : Nat → Int}

set_option maxHeartbeats 1000000 in
/-- A `remove` call that does not return stops at a null sibling, after its array writes. -/
theorem remove_stops (hg : Good t lvl lo hi none none) (key : Int)
    (h1 : INT_MIN ≤ key) (h2 : key ≤ INT_MAX) (e : t.remove key = none) :
    RemoveStopsAtNull t key := by
  obtain ⟨x, xn, hx, hxn, hty, b1, b2⟩ := hg.search_leaf key h1 h2
  have hl := hg.leaf_good hxn hty
  obtain ⟨hsz, hlen⟩ := hg.leaf_size_le hxn hty
  cases hfi : (xn.key_value.take xn.size).findIdx? (fun kv => decide (key = kv.key)) with
  | none =>
    obtain ⟨e1, -⟩ := hg.remove_absent key hx hxn hty b1 b2 (Or.inr hfi)
    rw [e1] at e; cases e
  | some i =>
    obtain ⟨e1, hg1, hk, hs1, hty1, -, -, -, hst⟩ := hg.remove_step key hx hxn hty b1 b2 i hfi
    rw [Node.leaf_deficient hty1] at e1
    have hshift : arr_shift xn.key_value i (xn.size - 1) =
        some (shifted xn.key_value i (xn.size - 1)) :=
      arr_shift_eq _ _ _ (Or.inr (by omega))
    refine ⟨e, x, xn, i, _, hx, hxn, hfi, hshift, ?_⟩
    by_cases h3 : xn.size = 3
    · rw [if_neg (by simp only [decide_eq_true_eq]; omega)] at e1
      rw [e1] at e; cases e
    rw [if_pos (by simp only [decide_eq_true_eq]; omega)] at e1
    have hx1 : (t.set x (del_node xn i)).heap x = some (del_node xn i) := by
      rw [SeqBPlusTree.set_heap, Function.update_same]
    have hbn : SeqBPlusTree.borrow_merge_leaf t.fuel (t.set x (del_node xn i)) x = none := by
      rw [e1] at e
      cases hb : SeqBPlusTree.borrow_merge_leaf t.fuel (t.set x (del_node xn i)) x with
      | none => rfl
      | some u => rw [hb] at e; cases e
    have hpc : xn.parent = none ∨ ∃ p, xn.parent = some p := by
      cases xn.parent with
      | none => exact Or.inl rfl
      | some p => exact Or.inr ⟨p, rfl⟩
    rcases hpc with hpar | ⟨p, hpar⟩
    · left
      have hroot := (hg.nodes x xn hxn).is_root hpar
      obtain ⟨rn, r1, r2, r3, r4⟩ := hg.root_live
      rw [← hroot, hxn] at r1; cases r1
      exact ⟨r3, r4⟩
    · right
      have hx2 : xn.size = 2 := by
        rcases hl.size_ge with h | h | h
        · obtain ⟨rn, r1, r2, _⟩ := hg.root_live
          rw [← h, hxn] at r1; cases r1
          rw [hpar] at r2; cases r2
        · simp only [ORDER] at h; omega
        · cases h.2
      rw [if_pos hx2] at hg1
      have hcsz : (del_node xn i).size = 1 := by omega
      have hcp : (del_node xn i).parent = some p := hpar
      obtain ⟨S, sn, dir, hsib, hS, hsty, hss⟩ := hg1.chosen_sibling hx1 hty1 hcp
      rcases hss with hs2 | hs3
      · obtain ⟨s, pm, lo2, hi2, p2, pn, c, q0, hp, q1, q2, q3, q4, q5, q6, q7, q8, q9, q10, lm,
          hbm⟩ := hg1.leaf_merge_any hx1 hty1 hcsz hsib hS (by omega)
        rw [hcp] at q0; cases q0
        have hfuel := hg.fuel_ok
        obtain ⟨pn0, c0, hp0, -, -, -, hlp, -⟩ := hg.parent_info hxn hpar
        have hf : lvl s.root ≤ lvl p + t.fuel := by
          rw [q8]
          show lvl t.root ≤ lvl p + t.next
          omega
        have hnone : (if pm.isDeficient then SeqBPlusTree.borrow_merge_internal t.fuel s p
            else some s) = none := by
          rw [← q1, ← hbn, hbm t.fuel]; rfl
        rcases leaf_finish t.fuel q6 q2 q3 hf with ⟨d1, d2, d3⟩ | ⟨s2, lo3, hi3, d1, -⟩
        · have hd : pm.isDeficient = true := by
            rw [Node.internal_deficient q3]; simp [d1]
          have hroot := (q6.nodes p pm q2).is_root d2
          obtain ⟨rn, r1, r2, r3, r4⟩ := q6.root_live
          rw [← hroot, q2] at r1; cases r1
          refine ⟨S, dir, s, p, pm, ?_, q2, r3, r4⟩
          intro bmi
          have := q1 bmi
          rw [if_pos hd] at this
          exact this
        · rw [hnone] at d1; cases d1
      · exfalso
        rcases hsib with ⟨hl1, rfl⟩ | ⟨hl1, hr1, rfl⟩
        · obtain ⟨s, lo2, hi2, q1, -⟩ := hg1.borrow_leaf_left hx1 hty1 hcsz hl1 hS hs3
          have : SeqBPlusTree.borrow_merge_leaf t.fuel (t.set x (del_node xn i)) x = some s := by
            simp only [SeqBPlusTree.borrow_merge_leaf, hx1, Option.some_seqBind, hl1, hS,
              Node.leaf_slack hsty, hs3, le_refl, decide_True, if_true]
            exact q1
          rw [hbn] at this; cases this
        · obtain ⟨s, lo2, hi2, q1, -⟩ := hg1.borrow_leaf_right hx1 hty1 hcsz hl1 hr1 hS hs3
          have : SeqBPlusTree.borrow_merge_leaf t.fuel (t.set x (del_node xn i)) x = some s := by
            simp only [SeqBPlusTree.borrow_merge_leaf, hx1, Option.some_seqBind, hl1, hr1, hS,
              Node.leaf_slack hsty, hs3, le_refl, decide_True, if_true]
            exact q1
          rw [hbn] at this; cases this

end Good

/-- C30: in every reachable tree each leaf has a `key_value` array of ORDER places and each
internal node a `key_ref` array of ORDER + 1 places, with at most ORDER - 1 entries or
separators in use (so also after a merge). In the model a write outside an array is a
fault: every `insert` with a key in the range of `int` returns, and every `remove` returns
or stops at a null sibling pointer after its array writes are done. -/
theorem buffers_never_overflow (t : SeqBPlusTree) (hr : Reachable t) :
    (∀ a n, t.heap a = some n →
      (n.type = NodeType.LEAF → n.key_value.length = ORDER ∧ n.size ≤ ORDER - 1) ∧
      (n.type = NodeType.INTERNAL → n.key_ref.length = ORDER + 1 ∧ n.size ≤ ORDER - 1)) ∧
    (∀ key value, INT_MIN ≤ key → key ≤ INT_MAX →
      ∃ s b, t.insert key value = some (s, b)) ∧
    (∀ key, INT_MIN ≤ key → key ≤ INT_MAX →
      (∃ s b, t.remove key = some (s, b)) ∨ RemoveStopsAtNull t key) := by
  obtain ⟨lvl, lo, hi, hg⟩ := hr.inv
  refine ⟨?_, ?_, ?_⟩
  · intro a n ha
    constructor
    · intro hty
      obtain ⟨h1, h2⟩ := hg.leaf_size_le ha hty
      exact ⟨h2, h1⟩
    · intro hty
      have hin := hg.internal_good ha hty
      refine ⟨hin.len, ?_⟩
      rcases hin.size_le with h | h
      · exact h
      · cases h.2
  · intro key value h1 h2
    obtain ⟨s, b, e, -⟩ := hg.insert_ok key value h1 h2
    exact ⟨s, b, e⟩
  · intro key h1 h2
    cases e : t.remove key with
    | some r => exact Or.inl ⟨r.1, r.2, rfl⟩
    | none => exact Or.inr (hg.remove_stops key h1 h2 e)

theorem buffers_never_overflow_witness :
    Reachable (SeqBPlusTree.after eightCalls) ∧
    (∃ s b, (SeqBPlusTree.after eightCalls).insert 9 9 = some (s, b)) ∧
    ((∃ s b, (SeqBPlusTree.after eightCalls).remove 5 = some (s, b)) ∨
      RemoveStopsAtNull (SeqBPlusTree.after eightCalls) 5) :=
  have h : Reachable (SeqBPlusTree.after eightCalls) :=
    Reachable.after eightCalls (by decide) (by decide!)
  ⟨h, (buffers_never_overflow _ h).2.1 9 9 (by decide) (by decide),
    (buffers_never_overflow _ h).2.2 5 (by decide) (by decide)⟩


/-- C7: in every reachable tree (ORDER = 4) a leaf holds at most 3 entries and an internal
node at most 3 separators; a leaf that is not the root holds at least 2 entries; an internal
node, root or not, has at least 1 separator, and each of its `size + 1` children is a live
node, so that it has at least 2 children. -/
theorem occupancy_bounds (t : SeqBPlusTree) (hr : Reachable t) (a : Nat) (n : Node)
    (ha : t.heap a = some n) :
    (n.type = NodeType.LEAF → n.size ≤ 3 ∧ (a ≠ t.root → 2 ≤ n.size)) ∧
    (n.type = NodeType.INTERNAL → n.size ≤ 3 ∧ 1 ≤ n.size ∧ 2 ≤ n.size + 1 ∧
      ∀ i, i ≤ n.size → ∃ c cn, n.kid i = some c ∧ t.heap c = some cn) := by
  obtain ⟨lvl, lo, hi, hg⟩ := hr.inv
  constructor
  · intro hty
    have hl := hg.leaf_good ha hty
    refine ⟨(hg.leaf_size_le ha hty).1, ?_⟩
    intro hne
    rcases hl.size_ge with h | h | h
    · exact absurd h hne
    · simpa only [ORDER] using h
    · cases h.2
  · intro hty
    have hin := hg.internal_good ha hty
    have h1 : 1 ≤ n.size := by
      rcases hin.size_ge with h | h
      · exact h
      · cases h
    refine ⟨?_, h1, by omega, ?_⟩
    · rcases hin.size_le with h | h
      · simpa only [ORDER] using h
      · cases h.2
    · intro i hi1
      obtain ⟨c, cn, k1, k2, -⟩ := hin.kids i hi1
      exact ⟨c, cn, k1, k2⟩

theorem occupancy_bounds_witness :
    Reachable (SeqBPlusTree.after scenarioCalls) ∧
    (SeqBPlusTree.after scenarioCalls).heap 6 =
      some ⟨NodeType.LEAF, 3, some 7, some 4, some 2, 6,
        [⟨50, 50⟩, ⟨55, 55⟩, ⟨58, 58⟩, ⟨0, 0⟩], []⟩ ∧
    (3 ≤ 3 ∧ ((6 : Nat) ≠ (SeqBPlusTree.after scenarioCalls).root → 2 ≤ 3)) :=
  have hn : (SeqBPlusTree.after scenarioCalls).heap 6 =
      some ⟨NodeType.LEAF, 3, some 7, some 4, some 2, 6,
        [⟨50, 50⟩, ⟨55, 55⟩, ⟨58, 58⟩, ⟨0, 0⟩], []⟩ := by decide!
  ⟨scenarioCalls_reachable, hn,
    (occupancy_bounds _ scenarioCalls_reachable 6 _ hn).1 rfl⟩

/-- C8: on every reachable tree `insert(key, value)` with a key in the range of `int`
returns; the result is `true` exactly when the key was not stored before the call and
`false` exactly when it was; afterwards the pair is stored and `search(key)` returns
`value`. -/
theorem insert_result_exact (t : SeqBPlusTree) (hr : Reachable t) (key value : Int)
    (h1 : INT_MIN ≤ key) (h2 : key ≤ INT_MAX) :
    ∃ s b, t.insert key value = some (s, b) ∧ (b = true ↔ ¬ t.HasKey key) ∧
      (b = false ↔ t.HasKey key) ∧ s.Stored ⟨key, value⟩ ∧ s.search key = some value := by
  obtain ⟨s, b, e, ok⟩ := hr.inv.insert key value h1 h2
  obtain ⟨lvl, lo, hi, hgs⟩ := ok.inv
  have hst : s.Stored ⟨key, value⟩ := (ok.stored _).mpr (Or.inr rfl)
  refine ⟨s, b, e, ok.result, ?_, hst, hgs.search_stored _ hst⟩
  cases b with
  | true =>
    have := ok.result.mp rfl
    exact ⟨(fun h => by cases h), fun h => absurd h this⟩
  | false =>
    refine ⟨fun _ => ?_, fun _ => rfl⟩
    by_contra hk
    have := ok.result.mpr hk
    cases this

theorem insert_result_exact_witness :
    Reachable (SeqBPlusTree.after scenarioCalls) ∧ INT_MIN ≤ (40 : Int) ∧
    (40 : Int) ≤ INT_MAX ∧
    ∃ s b, (SeqBPlusTree.after scenarioCalls).insert 40 7 = some (s, b) ∧
      (b = false ↔ (SeqBPlusTree.after scenarioCalls).HasKey 40) ∧
      s.search 40 = some 7 :=
  ⟨scenarioCalls_reachable, by decide, by decide,
    (insert_result_exact _ scenarioCalls_reachable 40 7 (by decide) (by decide)).imp
      fun _ h => h.imp fun _ h2 => ⟨h2.1, h2.2.2.1, h2.2.2.2.2⟩⟩


theorem SeqBPlusTree.new_remove (key : Int) :
    SeqBPlusTree.new.remove key = some (SeqBPlusTree.new, false) := by
  have h : SeqBPlusTree.new.heap 1 = some { Leaf.new with id := 1 } := by
    simp [SeqBPlusTree.new]
  have hs : SeqBPlusTree.leaf_search SeqBPlusTree.new.heap key SeqBPlusTree.new.fuel
      SeqBPlusTree.new.root = some 1 :=
    SeqBPlusTree.leaf_search_leaf _ key 1 1 _ h rfl
  simp only [SeqBPlusTree.remove, hs, Option.some_seqBind]
  rw [h]
  rfl

theorem SeqBPlusTree.new_search (key : Int) : SeqBPlusTree.new.search key = some (-1) := by
  have h : SeqBPlusTree.new.heap 1 = some { Leaf.new with id := 1 } := by
    simp [SeqBPlusTree.new]
  have hs : SeqBPlusTree.leaf_search SeqBPlusTree.new.heap key SeqBPlusTree.new.fuel
      SeqBPlusTree.new.root = some 1 :=
    SeqBPlusTree.leaf_search_leaf _ key 1 1 _ h rfl
  simp only [SeqBPlusTree.search, hs, Option.some_seqBind]
  rw [h]
  rfl

/-- C11: on every reachable tree `remove(key)` with a key that is not stored returns `false`
and the tree state it returns is the state before the call, the same in every field and
every node; on a new tree every `remove` does so. -/
theorem failed_remove_is_noop (t : SeqBPlusTree) (hr : Reachable t) (key : Int)
    (h1 : INT_MIN ≤ key) (h2 : key ≤ INT_MAX) (hk : ¬ t.HasKey key) :
    t.remove key = some (t, false) ∧
    ∀ k, SeqBPlusTree.new.remove k = some (SeqBPlusTree.new, false) := by
  refine ⟨?_, SeqBPlusTree.new_remove⟩
  obtain ⟨lvl, lo, hi, hg⟩ := hr.inv
  rcases hg.remove_ok key h1 h2 with ⟨-, -, h⟩ | ⟨s, b, e, ok⟩
  · exact absurd h hk
  · have hb : b = false := by
      cases b with
      | false => rfl
      | true => exact absurd (ok.result.mp rfl) hk
    rw [e, ok.same hb, hb]

/-- In a reachable tree a key is stored exactly when the leaf that `leaf_search` finds for it
holds it. -/
theorem Reachable.hasKey_leaf {t : SeqBPlusTree} (hr : Reachable t) (k : Int)
    (h1 : INT_MIN ≤ k) (h2 : k ≤ INT_MAX) {x : Nat} {n : Node}
    (hs : SeqBPlusTree.leaf_search t.heap k t.fuel t.root = some x) (hn : t.heap x = some n) :
    t.HasKey k ↔ ∃ kv ∈ n.entries, kv.key = k := by
  obtain ⟨lvl, lo, hi, hg⟩ := hr.inv
  obtain ⟨x2, xn, hx2, hxn, hty, b1, b2⟩ := hg.search_leaf k h1 h2
  rw [hs] at hx2; cases hx2
  rw [hn] at hxn; cases hxn
  exact hg.hasKey_iff k hn hty b1 b2

theorem failed_remove_is_noop_witness :
    Reachable (SeqBPlusTree.after scenarioCalls) ∧ INT_MIN ≤ (41 : Int) ∧
    (41 : Int) ≤ INT_MAX ∧ ¬ (SeqBPlusTree.after scenarioCalls).HasKey 41 ∧
    (SeqBPlusTree.after scenarioCalls).remove 41 =
      some (SeqBPlusTree.after scenarioCalls, false) :=
  have hk : ¬ (SeqBPlusTree.after scenarioCalls).HasKey 41 :=
    (scenarioCalls_reachable.hasKey_leaf 41 (by decide) (by decide)
      (show _ = some 4 by decide!)
      (show _ = some ⟨NodeType.LEAF, 2, some 3, some 5, some 6, 4,
          [⟨30, 30⟩, ⟨40, 40⟩, ⟨50, 50⟩, ⟨55, 55⟩], []⟩ by decide!)).not.mpr (by decide)
  ⟨scenarioCalls_reachable, by decide, by decide, hk,
    (failed_remove_is_noop _ scenarioCalls_reachable 41 (by decide) (by decide) hk).1⟩

/-- C12: for every reachable tree and every key that is not stored, `search(key)` returns the
absent marker -1 (`search` returns a value only: the tree state is not among its results);
on a new tree, whose root is an empty leaf and whose depth is 0, every `search` returns
-1. -/
theorem search_missing_key (t : SeqBPlusTree) (hr : Reachable t) (key : Int)
    (h1 : INT_MIN ≤ key) (h2 : key ≤ INT_MAX) (hk : ¬ t.HasKey key) :
    t.search key = some (-1) ∧
    (∀ k, SeqBPlusTree.new.search k = some (-1)) ∧ SeqBPlusTree.new.depth = 0 ∧
    (SeqBPlusTree.new.heap SeqBPlusTree.new.root).map (fun n => (n.type, n.size)) =
      some (NodeType.LEAF, 0) := by
  obtain ⟨lvl, lo, hi, hg⟩ := hr.inv
  exact ⟨hg.search_absent key h1 h2 hk, SeqBPlusTree.new_search, rfl, by simp [SeqBPlusTree.new, Leaf.new]⟩

theorem search_missing_key_witness :
    Reachable (SeqBPlusTree.after scenarioCalls) ∧ INT_MIN ≤ (41 : Int) ∧
    (41 : Int) ≤ INT_MAX ∧ ¬ (SeqBPlusTree.after scenarioCalls).HasKey 41 ∧
    (SeqBPlusTree.after scenarioCalls).search 41 = some (-1) :=
  have hk : ¬ (SeqBPlusTree.after scenarioCalls).HasKey 41 :=
    (scenarioCalls_reachable.hasKey_leaf 41 (by decide) (by decide)
      (show _ = some 4 by decide!)
      (show _ = some ⟨NodeType.LEAF, 2, some 3, some 5, some 6, 4,
          [⟨30, 30⟩, ⟨40, 40⟩, ⟨50, 50⟩, ⟨55, 55⟩], []⟩ by decide!)).not.mpr (by decide)
  ⟨scenarioCalls_reachable, by decide, by decide, hk,
    (search_missing_key _ scenarioCalls_reachable 41 (by decide) (by decide) hk).1⟩

/-- C19: on every reachable tree, when `remove(k)` returns, `search` of every other key
returns what it returned before the call. -/
theorem remove_keeps_other_keys (t : SeqBPlusTree) (hr : Reachable t) (k k2 : Int)
    (h1 : INT_MIN ≤ k) (h2 : k ≤ INT_MAX) (h3 : INT_MIN ≤ k2) (h4 : k2 ≤ INT_MAX)
    (hne : k2 ≠ k) (s : SeqBPlusTree) (b : Bool) (e : t.remove k = some (s, b)) :
    s.search k2 = t.search k2 := by
  have ok := hr.inv.remove k h1 h2 e
  obtain ⟨lvl, lo, hi, hg⟩ := hr.inv
  obtain ⟨lvl2, lo2, hi2, hgs⟩ := ok.inv
  by_cases hk : t.HasKey k2
  · obtain ⟨v, hv⟩ := hk
    have hv2 : s.Stored ⟨k2, v⟩ := (ok.stored _).mpr ⟨hv, hne⟩
    rw [hgs.search_stored _ hv2, hg.search_stored _ hv]
  · have hk2 : ¬ s.HasKey k2 := by
      rintro ⟨v, hv⟩
      exact hk ⟨v, ((ok.stored _).mp hv).1⟩
    rw [hgs.search_absent k2 h3 h4 hk2, hg.search_absent k2 h3 h4 hk]

theorem remove_keeps_other_keys_witness :
    Reachable (SeqBPlusTree.after scenarioCalls) ∧
    ∃ s, (SeqBPlusTree.after scenarioCalls).remove 60 = some (s, true) ∧
      s.search 58 = (SeqBPlusTree.after scenarioCalls).search 58 := by
  have e : ∃ s, (SeqBPlusTree.after scenarioCalls).remove 60 = some (s, true) := by
    have h : ((SeqBPlusTree.after scenarioCalls).remove 60).map Prod.snd = some true := by
      decide!
    cases hr : (SeqBPlusTree.after scenarioCalls).remove 60 with
    | none => rw [hr] at h; cases h
    | some r =>
      rw [hr] at h
      obtain ⟨s, b⟩ := r
      cases h
      exact ⟨s, rfl⟩
  obtain ⟨s, hs⟩ := e
  exact ⟨scenarioCalls_reachable, s, hs,
    remove_keeps_other_keys _ scenarioCalls_reachable 60 58 (by decide) (by decide) (by decide)
      (by decide) (by decide) s true hs⟩


/-- C13, as stated, fails: after `insert(5, -1)` on a new tree the key 5 is stored, and
`search(5)` returns -1, which is also what `search` returns for a key that is not stored. -/
theorem search_marker_for_stored_key :
    (INT_MIN ≤ (-1 : Int) ∧ (-1 : Int) ≤ INT_MAX) ∧
    (SeqBPlusTree.after [Op.insert 5 (-1)]).HasKey 5 ∧
    (SeqBPlusTree.after [Op.insert 5 (-1)]).search 5 = some (-1) ∧
    SeqBPlusTree.new.search 5 = some (-1) :=
  ⟨by decide,
    ⟨-1, 1, ⟨NodeType.LEAF, 1, none, none, none, 1, [⟨5, -1⟩, ⟨0, 0⟩, ⟨0, 0⟩, ⟨0, 0⟩], []⟩,
      by decide!, rfl, by decide⟩,
    by decide!, by decide!⟩

/-- C13 (amended): for every reachable tree and every key, `search(k)` returns the absent
marker -1 if and only if `k` is not stored or is stored with the value -1; a key stored with
another value `v` gives `v`, which differs from the marker; `insert(k, v)` with `v` other
than -1 returns, and `search(k)` after it gives `v`. -/
theorem search_absent_iff (t : SeqBPlusTree) (hr : Reachable t) (k : Int)
    (h1 : INT_MIN ≤ k) (h2 : k ≤ INT_MAX) :
    (t.search k = some (-1) ↔ (¬ t.HasKey k ∨ t.Stored ⟨k, -1⟩)) ∧
    (∀ v, v ≠ -1 → t.Stored ⟨k, v⟩ → t.search k = some v ∧ t.search k ≠ some (-1)) ∧
    (∀ v, v ≠ -1 → ∃ s b, t.insert k v = some (s, b) ∧
      s.search k = some v ∧ s.search k ≠ some (-1)) := by
  obtain ⟨lvl, lo, hi, hg⟩ := hr.inv
  have hne : ∀ v : Int, v ≠ -1 → (some v : Option Int) ≠ some (-1) :=
    fun v hv h => hv (Option.some.inj h)
  refine ⟨⟨?_, ?_⟩, ?_, ?_⟩
  · intro h
    by_cases hk : t.HasKey k
    · obtain ⟨v, hv⟩ := hk
      have := hg.search_stored _ hv
      rw [h] at this
      have e : v = -1 := (Option.some.inj this).symm
      rw [e] at hv
      exact Or.inr hv
    · exact Or.inl hk
  · rintro (h | h)
    · exact hg.search_absent k h1 h2 h
    · exact hg.search_stored _ h
  · intro v hv hs
    have := hg.search_stored _ hs
    exact ⟨this, by rw [this]; exact hne v hv⟩
  · intro v hv
    obtain ⟨s, b, e, ok⟩ := hr.inv.insert k v h1 h2
    obtain ⟨lvl2, lo2, hi2, hgs⟩ := ok.inv
    have := hgs.search_stored _ ((ok.stored ⟨k, v⟩).mpr (Or.inr rfl))
    exact ⟨s, b, e, this, by rw [this]; exact hne v hv⟩

theorem search_absent_iff_witness :
    Reachable (SeqBPlusTree.after scenarioCalls) ∧ INT_MIN ≤ (40 : Int) ∧
    (40 : Int) ≤ INT_MAX ∧
    ((SeqBPlusTree.after scenarioCalls).search 40 = some (-1) ↔
      (¬ (SeqBPlusTree.after scenarioCalls).HasKey 40 ∨
        (SeqBPlusTree.after scenarioCalls).Stored ⟨40, -1⟩)) :=
  ⟨scenarioCalls_reachable, by decide, by decide,
    (search_absent_iff _ scenarioCalls_reachable 40 (by decide) (by decide)).1⟩


/-- C18: on every reachable tree an `insert` call leaves `depth` as it is or adds exactly 1,
the latter exactly when the root after the call is a node that was not live before (a new
root was made), the former exactly when the root is the same; a `remove` call that returns
leaves `depth` as it is or takes exactly 1 off, the latter only with another root. `search`
returns a value only. -/
theorem depth_changes_by_one (t : SeqBPlusTree) (hr : Reachable t) :
    (∀ key value, INT_MIN ≤ key → key ≤ INT_MAX →
      ∃ s b, t.insert key value = some (s, b) ∧
        (s.depth = t.depth ∨ s.depth = t.depth + 1) ∧
        (s.depth = t.depth + 1 ↔ t.heap s.root = none) ∧
        (s.depth = t.depth ↔ s.root = t.root)) ∧
    (∀ key s b, INT_MIN ≤ key → key ≤ INT_MAX → t.remove key = some (s, b) →
      (s.depth = t.depth ∨ s.depth = t.depth - 1) ∧
      (s.depth = t.depth - 1 → s.root ≠ t.root)) := by
  constructor
  · intro key value h1 h2
    obtain ⟨s, b, e, ok⟩ := hr.inv.insert key value h1 h2
    obtain ⟨lvl, lo, hi, hg⟩ := hr.inv
    obtain ⟨rn, r1, -⟩ := hg.root_live
    refine ⟨s, b, e, ?_, ?_, ?_⟩
    · rcases ok.depth with ⟨-, d⟩ | ⟨-, d⟩
      · exact Or.inl d
      · exact Or.inr d
    · rcases ok.depth with ⟨d1, d2⟩ | ⟨d1, d2⟩
      · constructor
        · intro h; omega
        · intro h; rw [d1, r1] at h; cases h
      · exact ⟨fun _ => d1, fun _ => d2⟩
    · rcases ok.depth with ⟨d1, d2⟩ | ⟨d1, d2⟩
      · exact ⟨fun _ => d1, fun _ => d2⟩
      · constructor
        · intro h; omega
        · intro h; rw [h, r1] at d1; cases d1
  · intro key s b h1 h2 e
    have ok := hr.inv.remove key h1 h2 e
    refine ⟨ok.depth, ?_⟩
    intro hd hroot
    obtain ⟨lvl, lo, hi, lo2, hi2, g1, g2⟩ := ok.level
    have a1 := g1.root_lvl
    have a2 := g2.root_lvl
    rw [hroot] at a2
    omega

theorem depth_changes_by_one_witness :
    Reachable (SeqBPlusTree.after ascendingCalls) ∧ INT_MIN ≤ (10 : Int) ∧
    (10 : Int) ≤ INT_MAX ∧
    ∃ s b, (SeqBPlusTree.after ascendingCalls).insert 10 10 = some (s, b) ∧
      (s.depth = (SeqBPlusTree.after ascendingCalls).depth ∨
        s.depth = (SeqBPlusTree.after ascendingCalls).depth + 1) :=
  have h := Reachable.after ascendingCalls (by decide) (by decide!)
  ⟨h, by decide, by decide,
    ((depth_changes_by_one _ h).1 10 10 (by decide) (by decide)).imp
      fun _ h1 => h1.imp fun _ h2 => ⟨h2.1, h2.2.1⟩⟩

/-- C9: on every reachable tree `insert(key, value)` with a stored key returns `false` and
the state in which the leaf `x` that holds the key has the new value in the entry `i` of the
key and is the same in every other field and entry: the other nodes, the root, the
allocator, `node_count` and `depth` are those of the state before, and `search` of every
other key returns what it returned before. -/
theorem update_changes_only_value (t : SeqBPlusTree) (hr : Reachable t) (key value : Int)
    (h1 : INT_MIN ≤ key) (h2 : key ≤ INT_MAX) (hk : t.HasKey key) :
    ∃ s x n i e, t.insert key value = some (s, false) ∧
      t.heap x = some n ∧ n.type = NodeType.LEAF ∧ i < n.size ∧
      n.key_value.get? i = some e ∧ e.key = key ∧
      s = t.set x { n with key_value := n.key_value.set i ⟨key, value⟩ } ∧
      (∀ a, a ≠ x → s.heap a = t.heap a) ∧
      s.root = t.root ∧ s.next = t.next ∧ s.node_count = t.node_count ∧
      s.depth = t.depth ∧ s.id_accumulator = t.id_accumulator ∧
      (∀ k2, INT_MIN ≤ k2 → k2 ≤ INT_MAX → k2 ≠ key → s.search k2 = t.search k2) := by
  obtain ⟨lvl, lo, hi, hg⟩ := hr.inv
  obtain ⟨x, xn, hx, hxn, hty, b1, b2⟩ := hg.search_leaf key h1 h2
  cases hfi : (xn.key_value.take xn.size).findIdx? (fun kv => decide (key = kv.key)) with
  | none =>
    obtain ⟨-, -, hnk, -⟩ := hg.insert_fresh key value hx hxn hty b1 b2 hfi
    exact absurd hk hnk
  | some i =>
    obtain ⟨e1, hg1, -, hst⟩ := hg.insert_update key value hx hxn hty b1 b2 i hfi
    obtain ⟨hil, hik, -⟩ := List.findIdx?_eq_some_iff_getElem.mp hfi
    simp only [decide_eq_true_eq] at hik
    have hil2 : i < xn.key_value.length := by
      have := List.length_take_le' xn.size xn.key_value
      omega
    have hi3 : i < xn.size := by
      have : (xn.key_value.take xn.size).length ≤ xn.size := List.length_take_le _ _
      omega
    have hget : xn.key_value.get? i = some (xn.key_value.get ⟨i, hil2⟩) :=
      List.get?_eq_get hil2
    have hkey : (xn.key_value.get ⟨i, hil2⟩).key = key := by
      rw [hik]
      simp [List.getElem_take]
    have hnode : upd_node xn i value =
        { xn with key_value := xn.key_value.set i ⟨key, value⟩ } := by
      unfold upd_node
      rw [List.modify_eq_set_get?, hget]
      simp only [Option.map_eq_map, Option.map_some', Option.getD_some]
      rw [← hkey]
    refine ⟨_, x, xn, i, _, e1, hxn, hty, hi3, hget, hkey, by rw [hnode], ?_, rfl, rfl, rfl,
      rfl, rfl, ?_⟩
    · intro a ha
      rw [SeqBPlusTree.set_heap, Function.update_noteq ha]
    · intro k2 h3 h4 hne
      by_cases hk2 : t.HasKey k2
      · obtain ⟨v, hv⟩ := hk2
        have hv2 : (t.set x (upd_node xn i value)).Stored ⟨k2, v⟩ :=
          (hst _).mpr (Or.inl ⟨hv, hne⟩)
        rw [hg1.search_stored _ hv2, hg.search_stored _ hv]
      · have hk3 : ¬ (t.set x (upd_node xn i value)).HasKey k2 := by
          rintro ⟨v, hv⟩
          rcases (hst _).mp hv with h | h
          · exact hk2 ⟨v, h.1⟩
          · exact hne (congrArg KeyValuePair.key h)
        rw [hg1.search_absent k2 h3 h4 hk3, hg.search_absent k2 h3 h4 hk2]

theorem update_changes_only_value_witness :
    Reachable (SeqBPlusTree.after scenarioCalls) ∧ INT_MIN ≤ (40 : Int) ∧
    (40 : Int) ≤ INT_MAX ∧ (SeqBPlusTree.after scenarioCalls).HasKey 40 ∧
    ∃ s, (SeqBPlusTree.after scenarioCalls).insert 40 7 = some (s, false) ∧
      s.node_count = (SeqBPlusTree.after scenarioCalls).node_count ∧
      s.depth = (SeqBPlusTree.after scenarioCalls).depth :=
  have hk : (SeqBPlusTree.after scenarioCalls).HasKey 40 :=
    (scenarioCalls_reachable.hasKey_leaf 40 (by decide) (by decide)
      (show _ = some 4 by decide!)
      (show _ = some ⟨NodeType.LEAF, 2, some 3, some 5, some 6, 4,
          [⟨30, 30⟩, ⟨40, 40⟩, ⟨50, 50⟩, ⟨55, 55⟩], []⟩ by decide!)).mpr (by decide)
  ⟨scenarioCalls_reachable, by decide, by decide, hk,
    (update_changes_only_value _ scenarioCalls_reachable 40 7 (by decide) (by decide) hk).imp
      fun _ h => by
        obtain ⟨x, n, i, e, a1, a2, a3, a4, a5, a6, a7, a8, a9, a10, a11, a12, a13, a14⟩ := h
        exact ⟨a1, a11, a12⟩⟩


namespace Good

variable {t : SeqBPlusTree} {lvl : Nat → Nat} {lo hi : Nat → Int} {ov un : Option Nat}

/-- The key range of a child lies in the key range of its parent. -/
theorem kid_bounds (hg : Good t lvl lo hi ov un) {a c : Nat} {n : Node} {j : Nat}
    (ha : t.heap a = some n) (hj : j ≤ n.size) (hk : n.kid j = some c) :
    lo a ≤ lo c ∧ hi c ≤ hi a := by
  obtain ⟨cn, k1, k2, k3, k4, k5⟩ := hg.kid_live ha hj hk
  have hin := hg.internal_good ha (hg.internal_of_kid ha hk)
  rw [k4, k5]
  unfold lob hib
  constructor
  · by_cases h : j = 0
    · rw [if_pos h]
    · rw [if_neg h]
      exact le_of_lt (hin.sep_lo (j - 1) (by omega))
  · by_cases h : j = n.size
    · rw [if_pos h]
    · rw [if_neg h]
      exact le_of_lt (hin.sep_hi j (by omega))

/-- Along a chain of children the key ranges are nested. -/
theorem chain_bounds (hg : Good t lvl lo hi ov un) :
    ∀ (l : List Nat) (a b : Nat), l.head? = some a → l.Chain' (ChildOf t.heap) →
      l.getLast? = some b → lo a ≤ lo b ∧ hi b ≤ hi a := by
  intro l
  induction l with
  | nil => intro a b h; cases h
  | cons x r ih =>
    intro a b ha hch hb
    simp only [List.head?_cons, Option.some.injEq] at ha
    subst ha
    cases r with
    | nil =>
      simp only [List.getLast?_singleton, Option.some.injEq] at hb
      subst hb
      exact ⟨le_refl _, le_refl _⟩
    | cons y r2 =>
      rw [List.chain'_cons] at hch
      obtain ⟨n, h1, h2, i, h3, h4⟩ := hch.1
      obtain ⟨b1, b2⟩ := hg.kid_bounds h1 h3 h4
      have := ih y b rfl hch.2 (by rw [← hb, List.getLast?_cons_cons])
      exact ⟨le_trans b1 this.1, le_trans this.2 b2⟩

end Good

/-- The calls `insert(k, k)` for k = 1, 2, 3 and INT_MAX. -/
def maxKeyCalls : List Op := [1, 2, 3, INT_MAX].map (fun k => Op.insert k k)

/-- C6, as stated, fails: after the inserts of 1, 2, 3 and INT_MAX the root is an internal
node with one separator and the sentinel INT_MAX at index 1, and its child 1, a leaf, holds
the key INT_MAX, which is not below the sentinel. -/
theorem separator_bound_fails_at_int_max :
    (∀ op ∈ maxKeyCalls, op.valid) ∧
    ((SeqBPlusTree.after maxKeyCalls).heap (SeqBPlusTree.after maxKeyCalls).root).map
      (fun n => (n.type, n.size, n.sep 0, n.sep 1, n.kid 1)) =
      some (NodeType.INTERNAL, 1, 3, INT_MAX, some 2) ∧
    ((SeqBPlusTree.after maxKeyCalls).heap 2).map (fun n => (n.type, n.keys)) =
      some (NodeType.LEAF, [3, INT_MAX]) ∧
    ¬ (INT_MAX < INT_MAX) := by
  refine ⟨by decide, by decide!, by decide!, by decide⟩

/-- C6 (amended): in every reachable tree the separators of an internal node are strictly
ascending and below INT_MAX, the sentinel INT_MAX stands at index `size`, and every key `k`
stored in a leaf in the subtree of child `i` is at or above the separator `i - 1` (for
`i > 0`), below the separator `i` (for `i < size`) and at most INT_MAX: for the last child
the sentinel is a bound that the key may reach. -/
theorem separator_bounds (t : SeqBPlusTree) (hr : Reachable t) (a : Nat) (n : Node)
    (ha : t.heap a = some n) (hty : n.type = NodeType.INTERNAL) :
    (∀ i j, i < j → j < n.size → n.sep i < n.sep j) ∧
    (∀ i, i < n.size → n.sep i < INT_MAX) ∧ n.sep n.size = INT_MAX ∧
    (∀ i c b m k, i ≤ n.size → n.kid i = some c → Descends t.heap c b →
      t.heap b = some m → m.type = NodeType.LEAF → k ∈ m.keys →
      (0 < i → n.sep (i - 1) ≤ k) ∧ (i < n.size → k < n.sep i) ∧ k ≤ INT_MAX) := by
  obtain ⟨lvl, lo, hi, hg⟩ := hr.inv
  have hin := hg.internal_good ha hty
  refine ⟨hin.sep_sorted, hin.sep_max, hin.dummy, ?_⟩
  intro i c b m k hi1 hk ⟨l, l1, l2, l3⟩ hb hm hkm
  obtain ⟨cn, k1, k2, k3, k4, k5⟩ := hg.kid_live ha hi1 hk
  obtain ⟨c1, c2⟩ := hg.chain_bounds l c b l1 l3 l2
  obtain ⟨r1, r2⟩ := (hg.leaf_good hb hm).range k hkm
  obtain ⟨-, g2⟩ := hg.range_int _ b m rfl hb
  refine ⟨?_, ?_, by omega⟩
  · intro h0
    rw [k4] at c1
    unfold lob at c1
    rw [if_neg (by omega)] at c1
    omega
  · intro h0
    rw [k5] at c2
    unfold hib at c2
    rw [if_neg (by omega)] at c2
    omega

theorem separator_bounds_witness :
    Reachable (SeqBPlusTree.after scenarioCalls) ∧
    (SeqBPlusTree.after scenarioCalls).heap 8 =
      some ⟨NodeType.INTERNAL, 1, none, none, none, 8, [],
        [⟨50, some 3⟩, ⟨INT_MAX, some 7⟩, ⟨0, none⟩, ⟨0, none⟩, ⟨0, none⟩]⟩ ∧
    Descends (SeqBPlusTree.after scenarioCalls).heap 7 2 ∧
    (SeqBPlusTree.after scenarioCalls).heap 2 =
      some ⟨NodeType.LEAF, 2, some 7, some 6, none, 2,
        [⟨60, 60⟩, ⟨90, 90⟩, ⟨0, 0⟩, ⟨0, 0⟩], []⟩ ∧
    ((0 < 1 → (50 : Int) ≤ 90) ∧ (90 : Int) ≤ INT_MAX) := by
  have h8 : (SeqBPlusTree.after scenarioCalls).heap 8 =
      some ⟨NodeType.INTERNAL, 1, none, none, none, 8, [],
        [⟨50, some 3⟩, ⟨INT_MAX, some 7⟩, ⟨0, none⟩, ⟨0, none⟩, ⟨0, none⟩]⟩ := by decide!
  have h7 : (SeqBPlusTree.after scenarioCalls).heap 7 =
      some ⟨NodeType.INTERNAL, 1, some 8, some 3, none, 7, [],
        [⟨60, some 6⟩, ⟨INT_MAX, some 2⟩, ⟨0, none⟩, ⟨0, none⟩, ⟨0, none⟩]⟩ := by decide!
  have h2 : (SeqBPlusTree.after scenarioCalls).heap 2 =
      some ⟨NodeType.LEAF, 2, some 7, some 6, none, 2,
        [⟨60, 60⟩, ⟨90, 90⟩, ⟨0, 0⟩, ⟨0, 0⟩], []⟩ := by decide!
  have hd : Descends (SeqBPlusTree.after scenarioCalls).heap 7 2 :=
    ⟨[7, 2], rfl, rfl, List.chain'_pair.mpr ⟨_, h7, rfl, 1, le_refl _, rfl⟩⟩
  have h := (separator_bounds _ scenarioCalls_reachable 8 _ h8 rfl).2.2.2 1 7 2 _ 90
    (le_refl _) rfl hd h2 rfl (by decide)
  exact ⟨scenarioCalls_reachable, h8, hd, h2, h.1, h.2.2⟩


namespace SeqBPlusTree

/-- The leftmost leaf below a node: the walk `key_ref[0].reference` down to a leaf. The
source has no function that walks the leaves; this one and the two after it are the reading
of the node fields that the sorted-leaves property speaks of. -/
def leftmost_leaf (h : Nat → Option Node) : Nat → Nat → Option Nat
  | 0, _ => none
  | fuel + 1, a =>
    (h a).bind fun n =>
      match n.type with
      | NodeType.LEAF => some a
      | NodeType.INTERNAL => (n.kid 0).bind (leftmost_leaf h fuel)

/-- The keys read on the walk from a leaf along `right_sibling`: of each leaf its first
`size` entries. -/
def walk_keys (h : Nat → Option Node) : Nat → Option Nat → Option (List Int)
  | _, none => some []
  | 0, some _ => none
  | fuel + 1, some a =>
    (h a).bind fun n => (walk_keys h fuel n.right_sibling).map (fun r => n.keys ++ r)

/-- The keys read on the walk over all leaves, from the leftmost leaf on. -/
def leaf_keys (t : SeqBPlusTree) : Option (List Int) :=
  (leftmost_leaf t.heap t.fuel t.root).bind fun a => walk_keys t.heap t.fuel (some a)

end SeqBPlusTree

namespace Good

variable {t : SeqBPlusTree} {lvl : Nat → Nat} {lo hi : Nat → Int} {ov un : Option Nat}

/-- A node without a right sibling is the last one of its level: its keys are bounded by
the bound of the root only. -/
theorem hi_of_no_right (hg : Good t lvl lo hi ov un) :
    ∀ k a n, lvl t.root - lvl a = k → t.heap a = some n → n.right_sibling = none →
      hi a = INT_MAX + 1 := by
  intro k
  induction k with
  | zero =>
    intro a n hk ha _
    have := (hg.nodes a n ha).lvl_le
    have hroot : a = t.root := hg.top_is_root ha (by omega)
    rw [hroot]; exact hg.root_hi
  | succ k ih =>
    intro a n hk ha hr
    cases hp : n.parent with
    | none =>
      have := (hg.nodes a n ha).is_root hp
      rw [this] at hk; omega
    | some p =>
      obtain ⟨pn, hpn, hpty, hlast⟩ := hg.last_of_no_right ha hp hr
      obtain ⟨cn, k1, k2, k3, k4, k5⟩ := hg.kid_live hpn (le_refl _) hlast
      have hin := hg.internal_good hpn hpty
      have hpr : pn.right_sibling = none := by
        cases hq : pn.right_sibling with
        | none => rfl
        | some q =>
          exfalso
          obtain ⟨qn, q1, q2, q3, q4⟩ := hg.right_info _ p pn q rfl hpn hq
          have hqty : qn.type = NodeType.INTERNAL := (hg.type_of_lvl q1 hpn q3).trans hpty
          obtain ⟨c, cn2, c1, -⟩ := (hg.internal_good q1 hqty).kids 0 (Nat.zero_le _)
          have hs := hin.sib_right
          rw [hlast, hq] at hs
          simp only [rightOf, firstKid, Option.some_bind, ha, hr, q1, c1] at hs
          cases hs
      have := ih p pn (by omega) hpn hpr
      rw [k5]
      unfold hib
      rw [if_pos rfl]
      exact this

/-- The walk down the first children ends in a leaf with the lower bound of the node. -/
theorem leftmost_ok (hg : Good t lvl lo hi ov un) :
    ∀ k a n, lvl a = k → t.heap a = some n → ∀ f, k < f →
      ∃ b m, SeqBPlusTree.leftmost_leaf t.heap f a = some b ∧ t.heap b = some m ∧
        m.type = NodeType.LEAF ∧ lo b = lo a := by
  intro k
  induction k with
  | zero =>
    intro a n hk ha f hf
    obtain ⟨f, rfl⟩ : ∃ g, f = g + 1 := ⟨f - 1, by omega⟩
    cases hty : n.type with
    | LEAF =>
      refine ⟨a, n, ?_, ha, hty, rfl⟩
      simp only [SeqBPlusTree.leftmost_leaf, ha, Option.some_bind, hty]
    | INTERNAL =>
      have := ((hg.nodes a n ha).internal hty).1
      omega
  | succ k ih =>
    intro a n hk ha f hf
    obtain ⟨f, rfl⟩ : ∃ g, f = g + 1 := ⟨f - 1, by omega⟩
    cases hty : n.type with
    | LEAF =>
      refine ⟨a, n, ?_, ha, hty, rfl⟩
      simp only [SeqBPlusTree.leftmost_leaf, ha, Option.some_bind, hty]
    | INTERNAL =>
      obtain ⟨c, cn, h1, h2, h3, h4, h5, h6⟩ := (hg.internal_good ha hty).kids 0 (Nat.zero_le _)
      obtain ⟨b, m, e1, e2, e3, e4⟩ := ih c cn (by omega) h2 f (by omega)
      refine ⟨b, m, ?_, e2, e3, ?_⟩
      · simp only [SeqBPlusTree.leftmost_leaf, ha, Option.some_bind, hty, h1]
        exact e1
      · rw [e4, h5]; unfold lob; rw [if_pos rfl]

end Good

namespace Good

variable {t : SeqBPlusTree} {lvl : Nat → Nat} {lo hi : Nat → Int} {ov un : Option Nat}

/-- The walk from a leaf along `right_sibling` ends, passes leaves with ascending key
ranges that cover every key from the lower bound of the first leaf on, and reads their keys
in ascending order. -/
theorem walk_ok (hg : Good t lvl lo hi ov un) :
    ∀ m a an, (INT_MAX + 1 - lo a).toNat = m → t.heap a = some an →
      an.type = NodeType.LEAF →
      ∃ (ch : List Nat) (ks : List Int),
        (∀ f, ch.length ≤ f → SeqBPlusTree.walk_keys t.heap f (some a) = some ks) ∧
        ch.Pairwise (fun u v => lo u < lo v) ∧
        (∀ c ∈ ch, lo a ≤ lo c ∧ ∃ cn, t.heap c = some cn ∧ cn.type = NodeType.LEAF) ∧
        ks.Pairwise (fun x y => x < y) ∧
        (∀ k ∈ ks, lo a ≤ k) ∧
        (∀ k, k ∈ ks ↔ ∃ c cn, c ∈ ch ∧ t.heap c = some cn ∧ k ∈ cn.keys) ∧
        (∀ k, lo a ≤ k → k ≤ INT_MAX →
          ∃ c cn, c ∈ ch ∧ t.heap c = some cn ∧ lo c ≤ k ∧ k < hi c) := by
  intro m
  induction m using Nat.strong_induction_on with
  | _ m ih =>
    intro a an hm ha hty
    have hl := hg.leaf_good ha hty
    have hne := hg.range_ne ha
    obtain ⟨g1, g2⟩ := hg.range_int _ a an rfl ha
    cases hr : an.right_sibling with
    | none =>
      have hhi := hg.hi_of_no_right _ a an rfl ha hr
      refine ⟨[a], an.keys, ?_, List.pairwise_singleton _ _, ?_, hl.sorted, ?_, ?_, ?_⟩
      · intro f hf
        obtain ⟨f, rfl⟩ : ∃ g, f = g + 1 := ⟨f - 1, by simp at hf; omega⟩
        simp only [SeqBPlusTree.walk_keys, ha, Option.some_bind, hr, Option.map_some',
          List.append_nil]
      · intro c hc
        rw [List.mem_singleton] at hc; subst hc
        exact ⟨le_refl _, an, ha, hty⟩
      · intro k hk; exact (hl.range k hk).1
      · intro k
        constructor
        · intro hk; exact ⟨a, an, List.mem_singleton_self _, ha, hk⟩
        · rintro ⟨c, cn, hc, hcn, hk⟩
          rw [List.mem_singleton] at hc; subst hc
          rw [ha] at hcn; cases hcn; exact hk
      · intro k h1 h2
        exact ⟨a, an, List.mem_singleton_self _, ha, h1, by omega⟩
    | some b =>
      obtain ⟨bn, hb, -, hlv, hlo⟩ := hg.right_info _ a an b rfl ha hr
      have hbty : bn.type = NodeType.LEAF := (hg.type_of_lvl hb ha hlv).trans hty
      obtain ⟨ch, ks, w1, w2, w3, w4, w5, w6, w7⟩ :=
        ih ((INT_MAX + 1 - lo b).toNat) (by omega) b bn rfl hb hbty
      refine ⟨a :: ch, an.keys ++ ks, ?_, ?_, ?_, ?_, ?_, ?_, ?_⟩
      · intro f hf
        obtain ⟨f, rfl⟩ : ∃ g, f = g + 1 := ⟨f - 1, by simp at hf; omega⟩
        have := w1 f (by simp at hf; omega)
        simp only [SeqBPlusTree.walk_keys, ha, Option.some_bind, hr, this, Option.map_some']
      · rw [List.pairwise_cons]
        refine ⟨?_, w2⟩
        intro c hc
        have := (w3 c hc).1
        omega
      · intro c hc
        rw [List.mem_cons] at hc
        rcases hc with rfl | hc
        · exact ⟨le_refl _, an, ha, hty⟩
        · obtain ⟨q1, q2⟩ := w3 c hc
          exact ⟨by omega, q2⟩
      · rw [List.pairwise_append]
        refine ⟨hl.sorted, w4, ?_⟩
        intro x hx y hy
        have := (hl.range x hx).2
        have := w5 y hy
        omega
      · intro k hk
        rw [List.mem_append] at hk
        rcases hk with hk | hk
        · exact (hl.range k hk).1
        · have := w5 k hk
          omega
      · intro k
        rw [List.mem_append, w6]
        constructor
        · rintro (hk | ⟨c, cn, hc, hcn, hk⟩)
          · exact ⟨a, an, List.mem_cons_self _ _, ha, hk⟩
          · exact ⟨c, cn, List.mem_cons_of_mem _ hc, hcn, hk⟩
        · rintro ⟨c, cn, hc, hcn, hk⟩
          rw [List.mem_cons] at hc
          rcases hc with rfl | hc
          · rw [ha] at hcn; cases hcn; exact Or.inl hk
          · exact Or.inr ⟨c, cn, hc, hcn, hk⟩
      · intro k h1 h2
        by_cases hk : k < hi a
        · exact ⟨a, an, List.mem_cons_self _ _, ha, h1, hk⟩
        · obtain ⟨c, cn, hc, hcn, q1, q2⟩ := w7 k (by omega) h2
          exact ⟨c, cn, List.mem_cons_of_mem _ hc, hcn, q1, q2⟩

/-- The walk over the leaves of a tree returns, and reads exactly the stored keys, in
ascending order. -/
theorem leaf_walk (hg : Good t lvl lo hi none none) :
    ∃ ks, t.leaf_keys = some ks ∧ ks.Pairwise (fun x y => x < y) ∧
      ∀ k, k ∈ ks ↔ t.HasKey k := by
  obtain ⟨rn, hr, -⟩ := hg.root_live
  have hf := hg.fuel_ok
  obtain ⟨b, bn, e1, hb, hbty, hlo⟩ :=
    hg.leftmost_ok _ t.root rn rfl hr t.fuel (by unfold SeqBPlusTree.fuel; omega)
  obtain ⟨ch, ks, w1, w2, w3, w4, -, w6, w7⟩ := hg.walk_ok _ b bn rfl hb hbty
  have hnd : ch.Nodup := w2.imp (fun h e => by rw [e] at h; exact lt_irrefl _ h)
  have hsub : ch ⊆ List.range t.next := by
    intro c hc
    obtain ⟨-, cn, hcn, -⟩ := w3 c hc
    rw [List.mem_range]
    exact hg.live_lt hcn
  have hlen : ch.length ≤ t.fuel := by
    have := (List.subperm_of_subset hnd hsub).length_le
    rwa [List.length_range] at this
  refine ⟨ks, ?_, w4, ?_⟩
  · unfold SeqBPlusTree.leaf_keys
    rw [e1, Option.some_bind]
    exact w1 _ hlen
  · intro k
    rw [w6]
    constructor
    · rintro ⟨c, cn, hc, hcn, hk⟩
      obtain ⟨-, cn2, hcn2, hcty⟩ := w3 c hc
      rw [hcn] at hcn2; cases hcn2
      obtain ⟨kv, hkv, rfl⟩ := List.mem_map.mp hk
      exact ⟨kv.value, c, cn, hcn, hcty, by cases kv; exact hkv⟩
    · rintro ⟨v, c, cn, hcn, hcty, hm⟩
      have hk : k ∈ cn.keys := List.mem_map_of_mem (fun kv => kv.key) hm
      obtain ⟨r1, r2⟩ := (hg.leaf_good hcn hcty).range k hk
      obtain ⟨g1, g2⟩ := hg.range_int _ c cn rfl hcn
      rw [hg.root_lo] at hlo
      obtain ⟨c2, cn2, hc2, hcn2, q1, q2⟩ := w7 k (by omega) (by omega)
      obtain ⟨-, cn3, hcn3, hcty2⟩ := w3 c2 hc2
      rw [hcn2] at hcn3; cases hcn3
      have e2 := hg.search_leaf_eq k hcn hcty r1 r2
      have e3 := hg.search_leaf_eq k hcn2 hcty2 q1 q2
      rw [e2] at e3
      cases e3
      exact ⟨c, cn, hc2, hcn, hk⟩

end Good

/-- C5: on every tree reached from a new tree by completed calls of `insert` and `remove`,
the walk from the leftmost leaf through `right_sibling`, reading of each leaf its first
`size` entries, returns; the keys it reads are strictly ascending, none occurs twice, and
they are exactly the keys stored in the tree. -/
theorem leaves_sorted (t : SeqBPlusTree) (hr : Reachable t) :
    ∃ ks, t.leaf_keys = some ks ∧ ks.Pairwise (fun x y => x < y) ∧ ks.Nodup ∧
      ∀ k, k ∈ ks ↔ t.HasKey k := by
  obtain ⟨lvl, lo, hi, hg⟩ := hr.inv
  obtain ⟨ks, h1, h2, h3⟩ := hg.leaf_walk
  exact ⟨ks, h1, h2, h2.imp (fun h => ne_of_lt h), h3⟩

theorem leaves_sorted_witness :
    Reachable (SeqBPlusTree.after scenarioCalls) ∧
    (SeqBPlusTree.after scenarioCalls).leaf_keys =
      some [1, 10, 15, 16, 20, 30, 40, 50, 55, 58, 60, 90] ∧
    ∃ ks, (SeqBPlusTree.after scenarioCalls).leaf_keys = some ks ∧
      ks.Pairwise (fun x y => x < y) ∧ ks.Nodup ∧
      ∀ k, k ∈ ks ↔ (SeqBPlusTree.after scenarioCalls).HasKey k :=
  ⟨scenarioCalls_reachable, by decide!, leaves_sorted _ scenarioCalls_reachable⟩


/-- In a list of entries with ascending keys the last entry has the largest key. -/
theorem sorted_last_max (l : List KeyValuePair) (e : KeyValuePair)
    (hs : (l.map (fun kv => kv.key)).Pairwise (fun a b => a < b))
    (he : l.getLast? = some e) : ∀ kv ∈ l, kv.key ≤ e.key := by
  have hl : l.dropLast ++ [e] = l := List.dropLast_append_getLast? e (by rw [he]; rfl)
  rw [← hl, List.map_append, List.pairwise_append] at hs
  intro kv hkv
  rw [← hl, List.mem_append, List.mem_singleton] at hkv
  rcases hkv with h | h
  · exact le_of_lt (hs.2.2 _ (List.mem_map_of_mem _ h) _ (List.mem_map_of_mem _
      (List.mem_singleton_self e)))
  · rw [h]

/-- In a list of entries with ascending keys the first entry has the smallest key. -/
theorem sorted_head_min (l : List KeyValuePair) (e : KeyValuePair)
    (hs : (l.map (fun kv => kv.key)).Pairwise (fun a b => a < b))
    (he : l.head? = some e) : ∀ kv ∈ l, e.key ≤ kv.key := by
  cases l with
  | nil => cases he
  | cons a tl =>
    cases he
    rw [List.map_cons, List.pairwise_cons] at hs
    intro kv hkv
    rw [List.mem_cons] at hkv
    rcases hkv with h | h
    · rw [h]
    · exact le_of_lt (hs.1 _ (List.mem_map_of_mem _ h))

namespace Good

variable {t : SeqBPlusTree} {lvl : Nat → Nat} {lo hi : Nat → Int} {ov un : Option Nat}

/-- The borrow that `borrow_merge_leaf` chooses for a leaf with one entry whose sibling (the
left one, or the right one when there is no left one) has three entries. -/
theorem leaf_borrow_any {x S : Nat} {cn sn : Node} {dir : Bool}
    (hg : Good t lvl lo hi none (some x))
    (hx : t.heap x = some cn) (hcty : cn.type = NodeType.LEAF) (hcsz : cn.size = 1)
    (hsib : (cn.left_sibling = some S ∧ dir = true) ∨
      (cn.left_sibling = none ∧ cn.right_sibling = some S ∧ dir = false))
    (hS : t.heap S = some sn) (hsty : sn.type = NodeType.LEAF) (hssz : 2 < sn.size) :
    ∃ s e lo2 hi2, SeqBPlusTree.borrow_leaf t x S dir = some s ∧
      (∀ f, SeqBPlusTree.borrow_merge_leaf f t x = some s) ∧
      Good s lvl lo2 hi2 none none ∧ LeafTook t s x S cn sn dir e := by
  have h3 : sn.size = 3 := by
    rcases (hg.leaf_good hS hsty).size_le with h | h
    · have h : sn.size ≤ 3 := h
      omega
    · cases h.2
  rcases hsib with ⟨hl, rfl⟩ | ⟨hl, hr, rfl⟩
  · obtain ⟨s, lo2, hi2, q1, q2, -, -, -, -, A, An, j, up1, up2, e, adj, lb⟩ :=
      hg.borrow_leaf_left hx hcty hcsz hl hS h3
    refine ⟨s, e, lo2, hi2, q1, ?_, q2, ?_⟩
    · intro f
      simp only [SeqBPlusTree.borrow_merge_leaf, hx, Option.some_seqBind, hl, hS,
        Node.leaf_slack hsty, h3, le_refl, decide_True, if_true]
      exact q1
    · obtain ⟨xm, m1, m2, m3, -⟩ := lb.leaf
      obtain ⟨lm, m4, m5, m6, -⟩ := lb.sib
      refine ⟨lb.last, ⟨xm, m1, m3, m2⟩, ⟨lm, m4, m6, m5⟩, ?_, lb.count⟩
      intro a
      by_cases a1 : a = x
      · rw [a1, m1, hx]; rfl
      · by_cases a2 : a = S
        · rw [a2, m4, hS]; rfl
        · by_cases a3 : a = A
          · rw [a3, lb.anc.1, lb.anc.2]; rfl
          · rw [lb.others a a1 a2 a3]
  · obtain ⟨s, lo2, hi2, q1, q2, -, -, -, -, e, lt⟩ :=
      hg.borrow_leaf_right hx hcty hcsz hl hr hS h3
    refine ⟨s, e, lo2, hi2, q1, ?_, q2, lt⟩
    intro f
    simp only [SeqBPlusTree.borrow_merge_leaf, hx, Option.some_seqBind, hl, hr, hS,
      Node.leaf_slack hsty, h3, le_refl, decide_True, if_true]
    exact q1

/-- The sibling that `borrow_merge_internal` looks at, for an internal node below a parent:
the left one, or the right one when there is no left one; it is an internal node with at
least one separator. -/
theorem node_sibling {x p : Nat} {cn : Node} (hg : Good t lvl lo hi none (some x))
    (hx : t.heap x = some cn) (hcty : cn.type = NodeType.INTERNAL)
    (hcp : cn.parent = some p) :
    ∃ S sn dir, ((cn.left_sibling = some S ∧ dir = true) ∨
        (cn.left_sibling = none ∧ cn.right_sibling = some S ∧ dir = false)) ∧
      t.heap S = some sn ∧ sn.type = NodeType.INTERNAL ∧ 1 ≤ sn.size := by
  obtain ⟨pn, c, kr, hp, hpty, hc, hkc, hlp, hs4, hlen, -⟩ := hg.slot_of hx hcp
  have hin := hg.internal_good hp hpty
  have hxp : x ≠ p := by intro e; rw [e] at hlp; omega
  cases hl : cn.left_sibling with
  | some L =>
    obtain ⟨ln, hL, l2, l3, l4⟩ := hg.left_info _ x cn L rfl hx hl
    have hlty : ln.type = NodeType.INTERNAL := (hg.type_of_lvl hL hx l3).trans hcty
    have hLx : L ≠ x := by
      intro e
      have := hg.range_ne hx
      rw [e] at l4; omega
    refine ⟨L, ln, true, Or.inl ⟨rfl, rfl⟩, hL, hlty, ?_⟩
    rcases (hg.internal_good hL hlty).size_ge with h | h
    · exact h
    · exact absurd (Option.some.inj h).symm hLx
  | none =>
    obtain ⟨pn2, q1, -, hk0⟩ := hg.first_of_no_left hx hcp hl
    rw [hp] at q1; cases q1
    have hs1 : 1 ≤ pn.size := by
      rcases hin.size_ge with h | h
      · exact h
      · exact absurd (Option.some.inj h) hxp
    obtain ⟨R, rn, b1, hR, b3, b4, -⟩ := hin.kids 1 hs1
    have hr : cn.right_sibling = some R := by
      have hsib := (hin.sib_in 0 (by omega)).1
      rw [hk0, b1] at hsib
      simpa only [rightOf, Option.some_bind, hx] using hsib
    have hrty : rn.type = NodeType.INTERNAL := (hg.type_of_lvl hR hx (by omega)).trans hcty
    have hRx : R ≠ x := by
      intro e
      obtain ⟨_, r1, r2, r3, r4⟩ := hg.right_info _ x cn R rfl hx hr
      have := hg.range_ne hx
      rw [e] at r4; omega
    refine ⟨R, rn, false, Or.inr ⟨rfl, hr, rfl⟩, hR, hrty, ?_⟩
    rcases (hg.internal_good hR hrty).size_ge with h | h
    · exact h
    · exact absurd (Option.some.inj h).symm hRx

/-- The borrow that `borrow_merge_internal` chooses for an internal node without separators
whose sibling (the left one, or the right one when there is no left one) has more than one
separator. -/
theorem node_borrow_any {x S : Nat} {cn sn : Node} {dir : Bool}
    (hg : Good t lvl lo hi none (some x))
    (hx : t.heap x = some cn) (hcty : cn.type = NodeType.INTERNAL) (hcsz : cn.size = 0)
    (hsib : (cn.left_sibling = some S ∧ dir = true) ∨
      (cn.left_sibling = none ∧ cn.right_sibling = some S ∧ dir = false))
    (hS : t.heap S = some sn) (hsty : sn.type = NodeType.INTERNAL) (hssz : 1 < sn.size) :
    ∃ s B lo2 hi2, SeqBPlusTree.borrow_internal t x S dir = some s ∧
      (∀ f, SeqBPlusTree.borrow_merge_internal (f + 1) t x = some s) ∧
      Good s lvl lo2 hi2 none none ∧ NodeTook t s x S cn sn dir B := by
  have h2 : 2 ≤ sn.size := hssz
  rcases hsib with ⟨hl, rfl⟩ | ⟨hl, hr, rfl⟩
  · obtain ⟨s, lo2, hi2, q1, q2, -, -, -, -, B, nt⟩ :=
      hg.borrow_internal_left hx hcty hcsz hl hS h2
    refine ⟨s, B, lo2, hi2, q1, ?_, q2, nt⟩
    intro f
    simp only [SeqBPlusTree.borrow_merge_internal, hx, Option.some_seqBind, hl, hS,
      Node.internal_slack hsty, h2, decide_True, if_true]
    exact q1
  · obtain ⟨s, lo2, hi2, q1, q2, -, -, -, -, B, nt⟩ :=
      hg.borrow_internal_right hx hcty hcsz hl hr hS h2
    refine ⟨s, B, lo2, hi2, q1, ?_, q2, nt⟩
    intro f
    simp only [SeqBPlusTree.borrow_merge_internal, hx, Option.some_seqBind, hl, hr, hS,
      Node.internal_slack hsty, h2, decide_True, if_true]
    exact q1

/-- The merge that `borrow_merge_internal` chooses for an internal node without separators
whose sibling (the left one, or the right one when there is no left one) has one
separator. -/
theorem node_merge_any {x S p : Nat} {cn sn : Node} {dir : Bool}
    (hg : Good t lvl lo hi none (some x))
    (hx : t.heap x = some cn) (hcty : cn.type = NodeType.INTERNAL) (hcsz : cn.size = 0)
    (hcp : cn.parent = some p)
    (hsib : (cn.left_sibling = some S ∧ dir = true) ∨
      (cn.left_sibling = none ∧ cn.right_sibling = some S ∧ dir = false))
    (hS : t.heap S = some sn) (hsty : sn.type = NodeType.INTERNAL) (hssz : sn.size = 1) :
    ∃ s pn pm lo2 hi2, t.heap p = some pn ∧
      (∀ bmi, SeqBPlusTree.merge_internal_with bmi t x S dir =
        (if pm.isDeficient then
          (if pm.isRoot then SeqBPlusTree.root_collapse s S else bmi s p) else some s)) ∧
      (∀ f, SeqBPlusTree.borrow_merge_internal (f + 1) t x =
        (if pm.isDeficient then
          (if pm.isRoot then SeqBPlusTree.root_collapse s S
            else SeqBPlusTree.borrow_merge_internal f s p) else some s)) ∧
      s.heap p = some pm ∧ pm.type = NodeType.INTERNAL ∧ pm.size + 1 = pn.size ∧
      pm.parent = pn.parent ∧
      Good s lvl lo2 hi2 none (if pm.size = 0 then some p else none) ∧
      NodeMerged t s x S cn sn dir := by
  obtain ⟨pn, c, kr, hp, hpty, hc, hkc, hlp, hs4, hlen, -⟩ := hg.slot_of hx hcp
  have h2 : ¬ 2 ≤ sn.size := by omega
  rcases hsib with ⟨hl, rfl⟩ | ⟨hl, hr, rfl⟩
  · have hbm : ∀ f, SeqBPlusTree.borrow_merge_internal (f + 1) t x =
        SeqBPlusTree.merge_internal_with (SeqBPlusTree.borrow_merge_internal f) t x S true := by
      intro f
      simp only [SeqBPlusTree.borrow_merge_internal, hx, Option.some_seqBind, hl, hS,
        Node.internal_slack hsty, h2, decide_False, Bool.false_eq_true, if_false]
    by_cases hlast : c = pn.size
    · rw [hlast] at hkc
      obtain ⟨s, pm, lo2, hi2, e1, e2, e3, e4, e5, e6, -, -, -, -, -, nm⟩ :=
        hg.merge_internal_last hx hcty hcsz hl hS hssz hcp hp hkc
      exact ⟨s, pn, pm, lo2, hi2, hp, e1, fun f => (hbm f).trans (e1 _), e2, e3, e4, e5, e6,
        nm⟩
    · obtain ⟨s, pm, lo2, hi2, e1, e2, e3, e4, e5, e6, -, -, -, -, -, nm⟩ :=
        hg.merge_internal_mid hx hcty hcsz hl hS hssz hcp hp hkc (by omega)
      exact ⟨s, pn, pm, lo2, hi2, hp, e1, fun f => (hbm f).trans (e1 _), e2, e3, e4, e5, e6,
        nm⟩
  · have hbm : ∀ f, SeqBPlusTree.borrow_merge_internal (f + 1) t x =
        SeqBPlusTree.merge_internal_with (SeqBPlusTree.borrow_merge_internal f) t x S false := by
      intro f
      simp only [SeqBPlusTree.borrow_merge_internal, hx, Option.some_seqBind, hl, hr, hS,
        Node.internal_slack hsty, h2, decide_False, Bool.false_eq_true, if_false]
    obtain ⟨s, pm, lo2, hi2, e1, e2, e3, e4, e5, e6, -, -, -, -, -, nm⟩ :=
      hg.merge_internal_right hx hcty hcsz hl hr hS hssz hcp hp
    exact ⟨s, pn, pm, lo2, hi2, hp, e1, fun f => (hbm f).trans (e1 _), e2, e3, e4, e5, e6, nm⟩

end Good

/-- C22: the policy of `borrow_merge_leaf` and `borrow_merge_internal`, for a tree that
satisfies the invariant but for the one deficient node `x`, which is not the root (the states
in which `remove` and the merges call the two functions). The node has a sibling `S` that
the functions look at: its left sibling whenever it has one, whatever the parent of that
sibling is, and its right sibling only when it has no left one. When `S` has more than 2
entries (leaf) or more than 1 separator (internal node) the function borrows from it and
returns: the entry that moves is the last entry of a left sibling, which has its largest key,
or the first one of a right sibling, which has its smallest key; the child that moves is the
last child of a left sibling or the first child of a right one. Otherwise `x` is merged into
`S` and released, and the cascade goes on with the parent when the merge leaves it
deficient: `S` then holds the entries or children of both nodes, in order, and the state
handed to the cascade satisfies the invariant but for the parent. -/
theorem rebalancing_policy (t : SeqBPlusTree) (lvl : Nat → Nat) (lo hi : Nat → Int)
    (x : Nat) (cn : Node)
    (hg : Good t lvl lo hi none (some x)) (hx : t.heap x = some cn)
    (hdef : cn.isDeficient = true) (hnr : cn.isRoot = false) :
    ∃ S sn dir,
      ((cn.left_sibling = some S ∧ dir = true) ∨
        (cn.left_sibling = none ∧ cn.right_sibling = some S ∧ dir = false)) ∧
      t.heap S = some sn ∧ sn.type = cn.type ∧
      (cn.type = NodeType.LEAF →
        (2 < sn.size → ∃ s e, SeqBPlusTree.borrow_leaf t x S dir = some s ∧
          (∀ f, SeqBPlusTree.borrow_merge_leaf f t x = some s) ∧
          LeafTook t s x S cn sn dir e ∧
          (∀ kv ∈ sn.entries, if dir then kv.key ≤ e.key else e.key ≤ kv.key) ∧
          TreeInv s) ∧
        (sn.size ≤ 2 → ∃ s p pn pm c,
          (∀ bmi, SeqBPlusTree.merge_leaf_with bmi t x S dir =
            (if pm.isDeficient then bmi s p else some s)) ∧
          (∀ f, SeqBPlusTree.borrow_merge_leaf f t x =
            (if pm.isDeficient then SeqBPlusTree.borrow_merge_internal f s p else some s)) ∧
          cn.parent = some p ∧ t.heap p = some pn ∧ s.heap p = some pm ∧
          pm.type = NodeType.INTERNAL ∧ pm.size + 1 = pn.size ∧ pm.parent = pn.parent ∧
          LeafMerged t s x S cn sn pn pm c dir ∧
          ∃ lo2 hi2, Good s lvl lo2 hi2 none (if pm.isDeficient then some p else none))) ∧
      (cn.type = NodeType.INTERNAL →
        (1 < sn.size → ∃ s B, SeqBPlusTree.borrow_internal t x S dir = some s ∧
          (∀ f, SeqBPlusTree.borrow_merge_internal (f + 1) t x = some s) ∧
          NodeTook t s x S cn sn dir B ∧ TreeInv s) ∧
        (sn.size ≤ 1 → ∃ s p pn pm,
          (∀ bmi, SeqBPlusTree.merge_internal_with bmi t x S dir =
            (if pm.isDeficient then
              (if pm.isRoot then SeqBPlusTree.root_collapse s S else bmi s p)
              else some s)) ∧
          (∀ f, SeqBPlusTree.borrow_merge_internal (f + 1) t x =
            (if pm.isDeficient then
              (if pm.isRoot then SeqBPlusTree.root_collapse s S
                else SeqBPlusTree.borrow_merge_internal f s p)
              else some s)) ∧
          cn.parent = some p ∧ t.heap p = some pn ∧ s.heap p = some pm ∧
          pm.type = NodeType.INTERNAL ∧ pm.size + 1 = pn.size ∧ pm.parent = pn.parent ∧
          NodeMerged t s x S cn sn dir ∧
          ∃ lo2 hi2, Good s lvl lo2 hi2 none (if pm.isDeficient then some p else none))) := by
  obtain ⟨p, hcp⟩ : ∃ p, cn.parent = some p := by
    cases h : cn.parent with
    | none => rw [Node.isRoot, h] at hnr; cases hnr
    | some p => exact ⟨p, rfl⟩
  have hxr : x ≠ t.root := by
    intro e
    obtain ⟨rn, r1, r2, -⟩ := hg.root_live
    rw [← e, hx] at r1; cases r1
    rw [hcp] at r2; cases r2
  have hunder : ∀ (pm : Node), pm.type = NodeType.INTERNAL →
      (if pm.size = 0 then some p else none) =
        (if pm.isDeficient then some p else none) := by
    intro pm hty
    rw [Node.internal_deficient hty]
    by_cases h0 : pm.size = 0
    · rw [if_pos h0, if_pos (by simp [h0])]
    · rw [if_neg h0, if_neg (by simp [h0])]
  rcases NodeType.cases_eq cn.type with hcty | hcty
  · -- a leaf
    have hcsz : cn.size = 1 := by
      rw [Node.leaf_deficient hcty, decide_eq_true_eq] at hdef
      rcases (hg.leaf_good hx hcty).size_ge with h | h | h
      · exact absurd h hxr
      · have h : 2 ≤ cn.size := h
        omega
      · have h := h.1
        have h : cn.size + 1 = 2 := h
        omega
    obtain ⟨S, sn, dir, hsib, hS, hsty, hs23⟩ := hg.chosen_sibling hx hcty hcp
    refine ⟨S, sn, dir, hsib, hS, hsty.trans hcty.symm, ?_, ?_⟩
    · intro _
      constructor
      · intro h3
        obtain ⟨s, e, lo2, hi2, q1, q2, q3, q4⟩ :=
          hg.leaf_borrow_any hx hcty hcsz hsib hS hsty h3
        refine ⟨s, e, q1, q2, q4, ?_, ⟨lvl, lo2, hi2, q3⟩⟩
        have hsort := (hg.leaf_good hS hsty).sorted
        have hent := q4.entry
        intro kv hkv
        cases dir with
        | true => exact sorted_last_max sn.entries e hsort hent kv hkv
        | false => exact sorted_head_min sn.entries e hsort hent kv hkv
      · intro h2
        obtain ⟨s, pm, lo2, hi2, p2, pn, c, e1, e2, e3, e4, e5, e6, e7, e8, -, -, -, -, e13,
            e14⟩ := hg.leaf_merge_any hx hcty hcsz hsib hS h2
        refine ⟨s, p2, pn, pm, c, e3, ?_, e1, e2, e4, e5, e6, e7, e13, lo2, hi2, ?_⟩
        · intro f
          rw [e14 f]
          exact e3 _
        · rw [hcp] at e1; cases e1
          rw [← hunder pm e5]; exact e8
    · intro h
      rw [hcty] at h; cases h
  · -- an internal node
    have hcsz : cn.size = 0 := by
      rw [Node.internal_deficient hcty, decide_eq_true_eq] at hdef
      exact hdef
    obtain ⟨S, sn, dir, hsib, hS, hsty, hs1⟩ := hg.node_sibling hx hcty hcp
    refine ⟨S, sn, dir, hsib, hS, hsty.trans hcty.symm, ?_, ?_⟩
    · intro h
      rw [hcty] at h; cases h
    · intro _
      constructor
      · intro h2
        obtain ⟨s, B, lo2, hi2, q1, q2, q3, q4⟩ :=
          hg.node_borrow_any hx hcty hcsz hsib hS hsty h2
        exact ⟨s, B, q1, q2, q4, ⟨lvl, lo2, hi2, q3⟩⟩
      · intro h1
        obtain ⟨s, pn, pm, lo2, hi2, e1, e2, e3, e4, e5, e6, e7, e8, e9⟩ :=
          hg.node_merge_any hx hcty hcsz hcp hsib hS hsty (by omega)
        refine ⟨s, p, pn, pm, e2, e3, hcp, e1, e4, e5, e6, e7, e9, lo2, hi2, ?_⟩
        rw [← hunder pm e5]; exact e8


/-- The calls of the deletion test up to its phase 4: the tree of worked scenario B, then
`remove(60)`, `insert(45, 45)`, `remove(55)` and `remove(1)`. -/
def phaseFourCalls : List Op :=
  scenarioCalls ++ [Op.remove 60, Op.insert 45 45, Op.remove 55, Op.remove 1]

/-- The policy at phase 5 of the deletion test, `remove(45)`: the leaf 6 = {45, 50} is left
with one entry; its left sibling 4 = {30, 40} is a child of node 3 and its right sibling 2 a
child of its own parent 7, and it is merged into the left one. The parent 7 is left without
separators and borrows the last child of its left sibling 3, which is the leaf 4. -/
theorem rebalancing_policy_witness :
    Reachable (SeqBPlusTree.after phaseFourCalls) ∧
    (SeqBPlusTree.after phaseFourCalls).heap 6 =
      some ⟨NodeType.LEAF, 2, some 7, some 4, some 2, 6,
        [⟨45, 45⟩, ⟨50, 50⟩, ⟨58, 58⟩, ⟨0, 0⟩], []⟩ ∧
    (SeqBPlusTree.after phaseFourCalls).heap 4 =
      some ⟨NodeType.LEAF, 2, some 3, some 5, some 6, 4,
        [⟨30, 30⟩, ⟨40, 40⟩, ⟨45, 45⟩, ⟨55, 55⟩], []⟩ ∧
    ∃ lvl lo hi s pm,
      Good ((SeqBPlusTree.after phaseFourCalls).set 6
        (del_node ⟨NodeType.LEAF, 2, some 7, some 4, some 2, 6,
          [⟨45, 45⟩, ⟨50, 50⟩, ⟨58, 58⟩, ⟨0, 0⟩], []⟩ 0)) lvl lo hi none (some 6) ∧
      (∀ bmi, SeqBPlusTree.merge_leaf_with bmi
        ((SeqBPlusTree.after phaseFourCalls).set 6
          (del_node ⟨NodeType.LEAF, 2, some 7, some 4, some 2, 6,
            [⟨45, 45⟩, ⟨50, 50⟩, ⟨58, 58⟩, ⟨0, 0⟩], []⟩ 0)) 6 4 true = bmi s 7) ∧
      s.heap 6 = none ∧
      (∃ sm, s.heap 4 = some sm ∧ sm.entries = [⟨30, 30⟩, ⟨40, 40⟩, ⟨50, 50⟩]) ∧
      s.heap 7 = some pm ∧ pm.isDeficient = true ∧
      ∃ s2, SeqBPlusTree.borrow_internal s 7 3 true = some s2 ∧
        (∀ f, SeqBPlusTree.borrow_merge_internal (f + 1) s 7 = some s2) ∧
        ∃ xm, s2.heap 7 = some xm ∧ xm.size = 1 ∧ xm.kid 0 = some 4 := by
  have hr : Reachable (SeqBPlusTree.after phaseFourCalls) :=
    Reachable.after phaseFourCalls (by decide) (by decide!)
  have hs : SeqBPlusTree.leaf_search (SeqBPlusTree.after phaseFourCalls).heap 45
      (SeqBPlusTree.after phaseFourCalls).fuel (SeqBPlusTree.after phaseFourCalls).root =
      some 6 := by decide!
  have hn : (SeqBPlusTree.after phaseFourCalls).heap 6 =
      some ⟨NodeType.LEAF, 2, some 7, some 4, some 2, 6,
        [⟨45, 45⟩, ⟨50, 50⟩, ⟨58, 58⟩, ⟨0, 0⟩], []⟩ := by decide!
  have hL : (SeqBPlusTree.after phaseFourCalls).heap 4 =
      some ⟨NodeType.LEAF, 2, some 3, some 5, some 6, 4,
        [⟨30, 30⟩, ⟨40, 40⟩, ⟨45, 45⟩, ⟨55, 55⟩], []⟩ := by decide!
  have hP : (SeqBPlusTree.after phaseFourCalls).heap 7 =
      some ⟨NodeType.INTERNAL, 1, some 8, some 3, none, 7, [],
        [⟨58, some 6⟩, ⟨INT_MAX, some 2⟩, ⟨0, none⟩, ⟨0, none⟩, ⟨0, none⟩]⟩ := by decide!
  obtain ⟨lvl, lo, hi, hg⟩ := hr.inv
  obtain ⟨x2, xn, hx2, hxn, hty, b1, b2⟩ := hg.search_leaf 45 (by decide) (by decide)
  rw [hs] at hx2; cases hx2
  rw [hn] at hxn; cases hxn
  obtain ⟨-, hg1, -⟩ := hg.remove_step 45 hs hn hty b1 b2 0 (by decide)
  rw [if_pos rfl] at hg1
  obtain ⟨S, sn, dir, hsib, hS, -, hleaf, -⟩ :=
    rebalancing_policy _ lvl lo hi 6 _ hg1
      (by rw [SeqBPlusTree.set_heap, Function.update_same]) (by decide) (by decide)
  have hS4 : S = 4 ∧ dir = true := by
    rcases hsib with ⟨h, h2⟩ | ⟨h, -, -⟩
    · exact ⟨(Option.some.inj h).symm, h2⟩
    · cases h
  obtain ⟨rfl, rfl⟩ := hS4
  rw [SeqBPlusTree.set_heap, Function.update_noteq (by decide), hL] at hS
  cases hS
  obtain ⟨s, p, pn, pm, c, e1, e2, e3, e4, e5, e6, e7, e8, lm, lo2, hi2, hg2⟩ :=
    (hleaf rfl).2 (by decide)
  cases e3
  rw [SeqBPlusTree.set_heap, Function.update_noteq (by decide), hP] at e4
  cases e4
  have hpm0 : pm.size = 0 := by
    have : pm.size + 1 = 1 := e7
    omega
  have hd : pm.isDeficient = true := by
    rw [Node.internal_deficient e6]; simp [hpm0]
  rw [if_pos hd] at hg2
  have e1b : ∀ bmi, SeqBPlusTree.merge_leaf_with bmi
      ((SeqBPlusTree.after phaseFourCalls).set 6
        (del_node ⟨NodeType.LEAF, 2, some 7, some 4, some 2, 6,
          [⟨45, 45⟩, ⟨50, 50⟩, ⟨58, 58⟩, ⟨0, 0⟩], []⟩ 0)) 6 4 true = bmi s 7 := by
    intro bmi
    rw [e1 bmi, if_pos hd]
  -- the state at the call of `borrow_merge_internal`, read off the code
  have hs7 : s.heap 7 = some ⟨NodeType.INTERNAL, 0, some 8, some 3, none, 7, [],
      [⟨INT_MAX, some 2⟩, ⟨INT_MAX, some 2⟩, ⟨0, none⟩, ⟨0, none⟩, ⟨0, none⟩]⟩ := by
    have h := e1b (fun st a => some st)
    have h2 : (SeqBPlusTree.merge_leaf_with (fun st _ => some st)
      ((SeqBPlusTree.after phaseFourCalls).set 6
        (del_node ⟨NodeType.LEAF, 2, some 7, some 4, some 2, 6,
          [⟨45, 45⟩, ⟨50, 50⟩, ⟨58, 58⟩, ⟨0, 0⟩], []⟩ 0)) 6 4 true).bind
        (fun st => st.heap 7) =
      some ⟨NodeType.INTERNAL, 0, some 8, some 3, none, 7, [],
        [⟨INT_MAX, some 2⟩, ⟨INT_MAX, some 2⟩, ⟨0, none⟩, ⟨0, none⟩, ⟨0, none⟩]⟩ := by
      decide!
    rw [h] at h2
    exact h2
  have hs3 : s.heap 3 = some ⟨NodeType.INTERNAL, 2, some 8, none, some 7, 3, [],
      [⟨16, some 1⟩, ⟨30, some 5⟩, ⟨INT_MAX, some 4⟩, ⟨60, some 6⟩, ⟨INT_MAX, some 2⟩]⟩ := by
    have h := e1b (fun st a => some st)
    have h2 : (SeqBPlusTree.merge_leaf_with (fun st _ => some st)
      ((SeqBPlusTree.after phaseFourCalls).set 6
        (del_node ⟨NodeType.LEAF, 2, some 7, some 4, some 2, 6,
          [⟨45, 45⟩, ⟨50, 50⟩, ⟨58, 58⟩, ⟨0, 0⟩], []⟩ 0)) 6 4 true).bind
        (fun st => st.heap 3) =
      some ⟨NodeType.INTERNAL, 2, some 8, none, some 7, 3, [],
        [⟨16, some 1⟩, ⟨30, some 5⟩, ⟨INT_MAX, some 4⟩, ⟨60, some 6⟩, ⟨INT_MAX, some 2⟩]⟩ := by
      decide!
    rw [h] at h2
    exact h2
  rw [hs7] at e5; cases e5
  obtain ⟨S2, sn2, dir2, hsib2, hS2, -, -, hnode⟩ :=
    rebalancing_policy s lvl lo2 hi2 7 _ hg2 hs7 hd (by decide)
  have hS3 : S2 = 3 ∧ dir2 = true := by
    rcases hsib2 with ⟨h, h2⟩ | ⟨h, -, -⟩
    · exact ⟨(Option.some.inj h).symm, h2⟩
    · cases h
  obtain ⟨rfl, rfl⟩ := hS3
  rw [hs3] at hS2; cases hS2
  obtain ⟨s2, B, q1, q2, nt, -⟩ := (hnode rfl).1 (by decide)
  have hB : B = 4 := by
    have := nt.child
    exact (Option.some.inj this).symm
  subst hB
  obtain ⟨xm, m1, -, m3, m4⟩ := nt.node
  obtain ⟨sm, k1, -, k3, -, -⟩ := lm.merged
  refine ⟨hr, hn, hL, lvl, lo, hi, s, _, hg1, e1b, lm.gone, ⟨sm, k1, k3⟩, hs7, hd, s2, q1, q2,
    xm, m1, m3, ?_⟩
  have := m4 0 (Nat.zero_le _)
  rw [if_pos rfl, if_pos rfl] at this
  exact this

